import Mathlib

/-! # SqlHomework: buffer pool and B+ tree index

A shallow embedding of the storage engine of the repository: the B+ tree page
layouts (`b_plus_tree_leaf_page.cpp`, `b_plus_tree_internal_page.cpp`), the
index itself (`b_plus_tree.cpp`, `index_iterator.cpp`) and the buffer pool
(`buffer_pool_manager.cpp`, `lru_replacer.cpp`, `extendible_hash.cpp`).

Conventions of the embedding

* A C++ pointer to a page is the page id under which the page is stored.
* The `array` of a page together with its `size` header field is a list; the
  size is the length of the list.  A read outside `0 .. size-1`, a failed
  `assert` and a dereference of a page that does not exist have no result
  (`none`).
* Loops that the source runs without a bound take a fuel argument.
* Keys are integers ordered by the usual order, record ids are integers.
-/

namespace scudb

/-! ## Common definitions -/

/-- The sentinel page id of `config.h`. -/
def INVALID_PAGE_ID : Int := -1

/-- The page that stores the index-name to root-page-id records. -/
def HEADER_PAGE_ID : Int := 0

/-- Integer comparator: negative, zero or positive, as `GenericComparator`. -/
def comparator (a b : Int) : Int :=
  if a < b then -1 else if b < a then 1 else 0

/-! ## Leaf page (`b_plus_tree_leaf_page.cpp`) -/

/-- Leaf page: header fields and the live entries `array[0 .. size-1]`. -/
structure BPlusTreeLeafPage where
  max_size : Nat
  parent_page_id : Int
  page_id : Int
  next_page_id : Int
  array : List (Int × Int)
deriving DecidableEq, Repr

namespace BPlusTreeLeafPage

/-- `GetSize()`. -/
def GetSize (p : BPlusTreeLeafPage) : Nat := p.array.length

/-- `Init(page_id, parent_id)`; the maximal size is computed from `PAGE_SIZE`
in the source and is a parameter here. -/
def Init (page_id parent_id : Int) (max_size : Nat) : BPlusTreeLeafPage :=
  { max_size := max_size, parent_page_id := parent_id, page_id := page_id,
    next_page_id := INVALID_PAGE_ID, array := [] }

/-- The scan of `KeyIndex` from index `i` on. -/
def keyIndexFrom (key : Int) : List (Int × Int) → Nat → Nat
  | [], i => i
  | e :: rest, i => if comparator key e.1 ≤ 0 then i else keyIndexFrom key rest (i + 1)

/-- `KeyIndex(key, comparator)`: first index whose key is not below `key`. -/
def KeyIndex (p : BPlusTreeLeafPage) (key : Int) : Nat :=
  keyIndexFrom key p.array 0

/-- `KeyAt(index)`. -/
def KeyAt (p : BPlusTreeLeafPage) (index : Nat) : Option Int :=
  (p.array.get? index).map Prod.fst

/-- `GetItem(index)`. -/
def GetItem (p : BPlusTreeLeafPage) (index : Nat) : Option (Int × Int) :=
  p.array.get? index

/-- `Insert(key, value, comparator)`: the page after the insertion; the
returned size is its `GetSize`. -/
def Insert (p : BPlusTreeLeafPage) (key value : Int) : BPlusTreeLeafPage :=
  match p.array.getLast? with
  | none => { p with array := p.array ++ [(key, value)] }
  | some last =>
    if comparator key last.1 > 0 then
      { p with array := p.array ++ [(key, value)] }
    else
      let tarIdx := p.KeyIndex key
      { p with array := p.array.take tarIdx ++ (key, value) :: p.array.drop tarIdx }

/-- `MoveHalfTo(recipient, bpm)`: the pair (this page, recipient) afterwards.
The source copies `array[theIdx .. max_size]`, so fewer than `max_size + 1`
live entries would read past the size. -/
def MoveHalfTo (p recipient : BPlusTreeLeafPage) :
    Option (BPlusTreeLeafPage × BPlusTreeLeafPage) :=
  let theIdx := (p.max_size + 1) / 2
  if p.array.length < p.max_size + 1 then none
  else
    some ({ p with next_page_id := recipient.page_id, array := p.array.take theIdx },
          { recipient with
              next_page_id := p.next_page_id,
              array := (p.array.take (p.max_size + 1)).drop theIdx })

/-- `Lookup(key, value, comparator)`: the value when the result is `true`. -/
def Lookup (p : BPlusTreeLeafPage) (key : Int) : Option Int :=
  match p.array.head?, p.array.getLast? with
  | some first, some last =>
    if comparator key first.1 < 0 ∨ comparator key last.1 > 0 then none
    else
      match p.array.get? (p.KeyIndex key) with
      | some e => if comparator e.1 key = 0 then some e.2 else none
      | none => none
  | _, _ => none

/-- `RemoveAndDeleteRecord(key, comparator)`: the page afterwards; the
returned size is its `GetSize`. -/
def RemoveAndDeleteRecord (p : BPlusTreeLeafPage) (key : Int) : BPlusTreeLeafPage :=
  match p.array.head?, p.array.getLast? with
  | some first, some last =>
    if comparator key first.1 < 0 ∨ comparator key last.1 > 0 then p
    else { p with array := p.array.eraseIdx (p.KeyIndex key) }
  | _, _ => p

/-- `CopyAllFrom(items, size)`. -/
def CopyAllFrom (p : BPlusTreeLeafPage) (items : List (Int × Int)) : BPlusTreeLeafPage :=
  { p with array := p.array ++ items }

/-- `MoveAllTo(recipient, _, _)`: the recipient afterwards; this page keeps
its entries and its size. -/
def MoveAllTo (p recipient : BPlusTreeLeafPage) : BPlusTreeLeafPage :=
  { recipient.CopyAllFrom p.array with next_page_id := p.next_page_id }

/-- `CopyLastFrom(item)`. -/
def CopyLastFrom (p : BPlusTreeLeafPage) (item : Int × Int) : BPlusTreeLeafPage :=
  { p with array := p.array ++ [item] }

end BPlusTreeLeafPage

/-! ## Internal page (`b_plus_tree_internal_page.cpp`) -/

/-- The entry `array[index]` for a C++ `int` index; nothing outside the live
entries. -/
def entryAt (arr : List (Int × Int)) (index : Int) : Option (Int × Int) :=
  if 0 ≤ index then arr.get? index.toNat else none

/-- Internal page: header fields and the live entries; `array[0].first` is the
unused key slot, `array[i].second` are child page ids. -/
structure BPlusTreeInternalPage where
  max_size : Nat
  parent_page_id : Int
  page_id : Int
  array : List (Int × Int)
deriving DecidableEq, Repr

namespace BPlusTreeInternalPage

/-- `GetSize()`. -/
def GetSize (p : BPlusTreeInternalPage) : Nat := p.array.length

/-- `Init(page_id, parent_id)`; the maximal size is computed from `PAGE_SIZE`
in the source and is a parameter here. -/
def Init (page_id parent_id : Int) (max_size : Nat) : BPlusTreeInternalPage :=
  { max_size := max_size, parent_page_id := parent_id, page_id := page_id, array := [] }

/-- `KeyAt(index)` with its range assertion. -/
def KeyAt (p : BPlusTreeInternalPage) (index : Int) : Option Int :=
  (entryAt p.array index).map Prod.fst

/-- `SetKeyAt(index, key)` with its range assertion. -/
def SetKeyAt (p : BPlusTreeInternalPage) (index : Int) (key : Int) :
    Option BPlusTreeInternalPage :=
  match entryAt p.array index with
  | some e => some { p with array := p.array.set index.toNat (key, e.2) }
  | none => none

/-- The scan of `ValueIndex` from index `i` on. -/
def valueIndexFrom (value : Int) : List (Int × Int) → Int → Int
  | [], _ => -1
  | e :: rest, i => if value = e.2 then i else valueIndexFrom value rest (i + 1)

/-- `ValueIndex(value)`: the first index holding `value`, `-1` if there is none. -/
def ValueIndex (p : BPlusTreeInternalPage) (value : Int) : Int :=
  valueIndexFrom value p.array 0

/-- `ValueAt(index)` with its range assertion. -/
def ValueAt (p : BPlusTreeInternalPage) (index : Int) : Option Int :=
  (entryAt p.array index).map Prod.snd

/-- The binary search loop of `Lookup`: the final value of `l`. -/
def lookupLoop (arr : List (Int × Int)) (key : Int) : Nat → Int → Int → Option Int
  | 0, l, r => if l ≤ r then none else some l
  | fuel + 1, l, r =>
    if l ≤ r then
      let mid := (r - l) / 2 + l
      match entryAt arr mid with
      | none => none
      | some e =>
        if comparator e.1 key ≤ 0 then lookupLoop arr key fuel (mid + 1) r
        else lookupLoop arr key fuel l (mid - 1)
    else some l

/-- `Lookup(key, comparator)`: the child page id for `key`. -/
def Lookup (p : BPlusTreeInternalPage) (key : Int) : Option Int :=
  if p.array.length > 1 then
    match lookupLoop p.array key p.array.length 1 ((p.array.length : Int) - 1) with
    | some l => (entryAt p.array (l - 1)).map Prod.snd
    | none => none
  else none

/-- `PopulateNewRoot(old_value, new_key, new_value)` on a page whose memory is
zeroed when it is fresh: the key slot of `array[0]` keeps what it held. -/
def PopulateNewRoot (p : BPlusTreeInternalPage) (old_value new_key new_value : Int) :
    BPlusTreeInternalPage :=
  { p with array := [(((p.array.head?).map Prod.fst).getD 0, old_value), (new_key, new_value)] }

/-- `InsertNodeAfter(old_value, new_key, new_value)`: the page afterwards; the
returned size is its `GetSize`. -/
def InsertNodeAfter (p : BPlusTreeInternalPage) (old_value new_key new_value : Int) :
    Option BPlusTreeInternalPage :=
  let now := p.ValueIndex old_value + 1
  if now > 0 then
    some { p with array := p.array.take now.toNat ++ (new_key, new_value) :: p.array.drop now.toNat }
  else none

/-- `Remove(index)` with its range assertion. -/
def Remove (p : BPlusTreeInternalPage) (index : Int) : Option BPlusTreeInternalPage :=
  match entryAt p.array index with
  | some _ => some { p with array := p.array.eraseIdx index.toNat }
  | none => none

/-- `RemoveAndReturnOnlyChild()`: the page afterwards and the child. -/
def RemoveAndReturnOnlyChild (p : BPlusTreeInternalPage) :
    Option (BPlusTreeInternalPage × Int) :=
  match p.array with
  | [e] => some ({ p with array := [] }, e.2)
  | _ => none

/-- `CopyLastFrom(pair, bpm)` with its size assertion. -/
def CopyLastFrom (p : BPlusTreeInternalPage) (pair : Int × Int) :
    Option BPlusTreeInternalPage :=
  if p.array.length + 1 ≤ p.max_size then some { p with array := p.array ++ [pair] }
  else none

end BPlusTreeInternalPage

/-! ## The common page header (`b_plus_tree_page.cpp`, not part of the sources) -/

/-- A page of the index, tagged by its `page_type`. -/
inductive BPlusTreePage where
  | leaf (p : BPlusTreeLeafPage)
  | internal (p : BPlusTreeInternalPage)
deriving DecidableEq, Repr

namespace BPlusTreePage

/-- `IsLeafPage()`. -/
def IsLeafPage : BPlusTreePage → Bool
  | leaf _ => true
  | internal _ => false

/-- `GetSize()`. -/
def GetSize : BPlusTreePage → Nat
  | leaf p => p.array.length
  | internal p => p.array.length

/-- `GetMaxSize()`. -/
def GetMaxSize : BPlusTreePage → Nat
  | leaf p => p.max_size
  | internal p => p.max_size

/-- `GetParentPageId()`. -/
def GetParentPageId : BPlusTreePage → Int
  | leaf p => p.parent_page_id
  | internal p => p.parent_page_id

/-- `GetPageId()`. -/
def GetPageId : BPlusTreePage → Int
  | leaf p => p.page_id
  | internal p => p.page_id

/-- `SetParentPageId(parent_page_id)`. -/
def SetParentPageId : BPlusTreePage → Int → BPlusTreePage
  | leaf p, q => leaf { p with parent_page_id := q }
  | internal p, q => internal { p with parent_page_id := q }

/-- Modelled from the spec: `IsRootPage` of `b_plus_tree_page.cpp`, which is
not among the sources; "parent_page_id is stored in the child's header as an
id", and the root is the page without a parent. -/
def IsRootPage (p : BPlusTreePage) : Bool :=
  p.GetParentPageId == INVALID_PAGE_ID

/-- Modelled from the spec: `GetMinSize` of `b_plus_tree_page.cpp`, which is
not among the sources; "min_size = ceil(max_size/2) for internal pages;
ceil((max_size-1)/2) for leaves". -/
def GetMinSize : BPlusTreePage → Nat
  | leaf p => p.max_size / 2
  | internal p => (p.max_size + 1) / 2

end BPlusTreePage

/-! ## The index (`b_plus_tree.cpp`)

The index reaches its pages through the buffer pool.  The operations below see
the pool as the store of the pages it serves: `FetchPage` of a page id yields
the page stored under it and `NewPage` yields the next page id of the disk
manager; the pool is large enough that neither returns a null pointer.
Latches, pin counts and the page set of the transaction do not change the
contents of a page and are not represented; a page that is scheduled for
deletion keeps its last contents in the store. -/

/-- The index together with the pages it reaches through the buffer pool. -/
structure BPlusTree where
  /-- `root_page_id_` -/
  root_page_id : Int
  /-- maximal size given to a leaf page by `Init` -/
  leaf_max_size : Nat
  /-- maximal size given to an internal page by `Init` -/
  internal_max_size : Nat
  /-- the page stored under each page id -/
  pages : Int → Option BPlusTreePage
  /-- the next page id `AllocatePage` of the disk manager hands out -/
  next_page_id : Int
  /-- the root page id recorded for this index in the header page -/
  header_record : Option Int

namespace BPlusTree

/-- An index without pages, as the constructor leaves it. -/
def empty (leaf_max_size internal_max_size : Nat) (next_page_id : Int) : BPlusTree :=
  { root_page_id := INVALID_PAGE_ID, leaf_max_size := leaf_max_size,
    internal_max_size := internal_max_size, pages := fun _ => none,
    next_page_id := next_page_id, header_record := none }

/-- The page behind a pointer obtained from `FetchPage(pid)`. -/
def FetchPage (t : BPlusTree) (pid : Int) : Option BPlusTreePage := t.pages pid

/-- A fetched page read as a leaf page. -/
def getLeaf (t : BPlusTree) (pid : Int) : Option BPlusTreeLeafPage :=
  match t.pages pid with
  | some (.leaf p) => some p
  | _ => none

/-- A fetched page read as an internal page. -/
def getInternal (t : BPlusTree) (pid : Int) : Option BPlusTreeInternalPage :=
  match t.pages pid with
  | some (.internal p) => some p
  | _ => none

/-- A write through a page pointer. -/
def setPage (t : BPlusTree) (pid : Int) (p : BPlusTreePage) : BPlusTree :=
  { t with pages := fun q => if q = pid then some p else t.pages q }

/-- Fetch `pid` and `SetParentPageId(parent)` on it. -/
def setParent (t : BPlusTree) (pid parent : Int) : Option BPlusTree :=
  match t.pages pid with
  | some p => some (t.setPage pid (p.SetParentPageId parent))
  | none => none

/-- The loop of the page-layout routines that gives every moved child its new
parent. -/
def reparentAll (t : BPlusTree) : List (Int × Int) → Int → Option BPlusTree
  | [], _ => some t
  | e :: rest, parent =>
    match t.setParent e.2 parent with
    | some t1 => reparentAll t1 rest parent
    | none => none

/-- Modelled from the spec: `AllocatePage` of the disk manager behind
`NewPage`, "allocate_page() → PageId", handing out consecutive page ids. -/
def NewPage (t : BPlusTree) : BPlusTree × Int :=
  ({ t with next_page_id := t.next_page_id + 1 }, t.next_page_id)

/-- Modelled from the spec: the header page, "sequence of (index_name,
root_page_id) records; supports insert_record and update_record", reduced to
the record of this index. `UpdateRootPageId(insert_record)`. -/
def UpdateRootPageId (t : BPlusTree) (insert_record : Bool) : BPlusTree :=
  if insert_record then
    match t.header_record with
    | none => { t with header_record := some t.root_page_id }
    | some _ => t
  else
    match t.header_record with
    | none => t
    | some _ => { t with header_record := some t.root_page_id }

/-- `IsEmpty()`. -/
def IsEmpty (t : BPlusTree) : Bool := t.root_page_id == INVALID_PAGE_ID

/-- The descent of `FindLeafPage` from page `cur`. -/
def findLeafLoop (t : BPlusTree) (key : Int) (leftMost : Bool) : Nat → Int → Option Int
  | 0, _ => none
  | fuel + 1, cur =>
    match t.pages cur with
    | none => none
    | some (.leaf _) => some cur
    | some (.internal ip) =>
      match (if leftMost then ip.ValueAt 0 else ip.Lookup key) with
      | some next => findLeafLoop t key leftMost fuel next
      | none => none

/-- `FindLeafPage(key, leftMost, op, transaction)`: `some none` is the null
pointer of the empty tree. -/
def FindLeafPage (t : BPlusTree) (key : Int) (leftMost : Bool) (fuel : Nat) :
    Option (Option Int) :=
  if t.IsEmpty then some none
  else (findLeafLoop t key leftMost fuel t.root_page_id).map some

/-- `GetValue(key, result, transaction)`: `some none` is the result `false`,
`some (some v)` is `true` with `result[0] = v`. -/
def GetValue (t : BPlusTree) (key : Int) (fuel : Nat) : Option (Option Int) :=
  match t.FindLeafPage key false fuel with
  | none => none
  | some none => some none
  | some (some leafId) =>
    match t.getLeaf leafId with
    | some leaf => some (leaf.Lookup key)
    | none => none

/-- `StartNewTree(key, value)`. -/
def StartNewTree (t : BPlusTree) (key value : Int) : BPlusTree :=
  let (t1, pid) := t.NewPage
  let t2 := { t1 with root_page_id := pid }
  let t3 := t2.UpdateRootPageId true
  let root := BPlusTreeLeafPage.Init pid INVALID_PAGE_ID t.leaf_max_size
  t3.setPage pid (.leaf (root.Insert key value))

/-- `Split(node, transaction)` for a leaf page: the store and the new page. -/
def SplitLeaf (t : BPlusTree) (nodeId : Int) : Option (BPlusTree × Int) :=
  let (t1, pid) := t.NewPage
  let new_node := BPlusTreeLeafPage.Init pid INVALID_PAGE_ID t.leaf_max_size
  match t1.getLeaf nodeId with
  | none => none
  | some node =>
    match node.MoveHalfTo new_node with
    | none => none
    | some (node1, new_node1) =>
      some ((t1.setPage pid (.leaf new_node1)).setPage nodeId (.leaf node1), pid)

/-- `BPlusTreeInternalPage::MoveHalfTo(recipient, bpm)` of the page `thisId`. -/
def internalMoveHalfTo (t : BPlusTree) (thisId recipId : Int) : Option BPlusTree :=
  match t.getInternal thisId, t.getInternal recipId with
  | some p, some r =>
    let oldSize := p.max_size + 1
    let now := oldSize / 2
    if p.array.length < oldSize then none
    else
      let moved := (p.array.take oldSize).drop now
      match t.reparentAll moved r.page_id with
      | none => none
      | some t1 =>
        match t1.getInternal thisId, t1.getInternal recipId with
        | some p1, some r1 =>
          some ((t1.setPage recipId (.internal { r1 with array := moved })).setPage thisId
            (.internal { p1 with array := p.array.take now }))
        | _, _ => none
  | _, _ => none

/-- `Split(node, transaction)` for an internal page: the store and the new page. -/
def SplitInternal (t : BPlusTree) (nodeId : Int) : Option (BPlusTree × Int) :=
  let (t1, pid) := t.NewPage
  let new_node := BPlusTreeInternalPage.Init pid INVALID_PAGE_ID t.internal_max_size
  match (t1.setPage pid (.internal new_node)).internalMoveHalfTo nodeId pid with
  | none => none
  | some t2 => some (t2, pid)

/-- `InsertIntoParent(old_node, key, new_node, transaction)`. -/
def InsertIntoParent : Nat → BPlusTree → Int → Int → Int → Option BPlusTree
  | 0, _, _, _, _ => none
  | fuel + 1, t, oldId, key, newId =>
    match t.pages oldId, t.pages newId with
    | some old_node, some new_node =>
      if old_node.IsRootPage then
        let (t1, pid) := t.NewPage
        let t2 := { t1 with root_page_id := pid }
        let root := (BPlusTreeInternalPage.Init pid INVALID_PAGE_ID t.internal_max_size).PopulateNewRoot
          old_node.GetPageId key new_node.GetPageId
        let t3 := t2.setPage pid (.internal root)
        match t3.setParent oldId pid with
        | none => none
        | some t4 =>
          match t4.setParent newId pid with
          | none => none
          | some t5 => some (t5.UpdateRootPageId false)
      else
        let parent_id := old_node.GetParentPageId
        match t.setParent newId parent_id with
        | none => none
        | some t1 =>
          match t1.getInternal parent_id with
          | none => none
          | some parent =>
            match parent.InsertNodeAfter old_node.GetPageId key new_node.GetPageId with
            | none => none
            | some parent1 =>
              let t2 := t1.setPage parent_id (.internal parent1)
              if parent1.array.length > parent1.max_size then
                match t2.SplitInternal parent_id with
                | none => none
                | some (t3, new_leaf) =>
                  match t3.getInternal new_leaf with
                  | none => none
                  | some np =>
                    match np.KeyAt 0 with
                    | none => none
                    | some k0 => InsertIntoParent fuel t3 parent_id k0 new_leaf
              else some t2
    | _, _ => none

/-- The part of `InsertIntoLeaf` that follows the search: the page `leafId` is
the leaf `FindLeafPage` has returned. -/
def insertAtLeaf (t : BPlusTree) (leafId : Int) (key value : Int) (fuel : Nat) :
    Option (BPlusTree × Bool) :=
  match t.getLeaf leafId with
  | none => none
  | some leaf =>
    match leaf.Lookup key with
    | some _ => some (t, false)
    | none =>
      let leaf1 := leaf.Insert key value
      let t1 := t.setPage leafId (.leaf leaf1)
      if leaf1.array.length > leaf1.max_size then
        match t1.SplitLeaf leafId with
        | none => none
        | some (t2, newLeaf) =>
          match t2.getLeaf newLeaf with
          | none => none
          | some nl =>
            match nl.KeyAt 0 with
            | none => none
            | some k0 => (InsertIntoParent fuel t2 leafId k0 newLeaf).map (fun t3 => (t3, true))
      else some (t1, true)

/-- `InsertIntoLeaf(key, value, transaction)`. -/
def InsertIntoLeaf (t : BPlusTree) (key value : Int) (fuel : Nat) : Option (BPlusTree × Bool) :=
  match t.FindLeafPage key false fuel with
  | none => none
  | some none => some (t, false)
  | some (some leafId) => t.insertAtLeaf leafId key value fuel

/-- `Insert(key, value, transaction)`. -/
def Insert (t : BPlusTree) (key value : Int) (fuel : Nat) : Option (BPlusTree × Bool) :=
  if t.IsEmpty then some (t.StartNewTree key value, true)
  else t.InsertIntoLeaf key value fuel

end BPlusTree

namespace BPlusTree

/-! ### Redistribution and merge routines of the page layouts that go through
the buffer pool -/

/-- `BPlusTreeLeafPage::MoveFirstToEndOf(recipient, bpm)` of the page `thisId`. -/
def leafMoveFirstToEndOf (t : BPlusTree) (thisId recipId : Int) : Option BPlusTree :=
  match t.getLeaf thisId with
  | none => none
  | some p =>
    match p.array with
    | [] => none
    | theItem :: rest =>
      let t1 := t.setPage thisId (.leaf { p with array := rest })
      match t1.getLeaf recipId with
      | none => none
      | some r =>
        let t2 := t1.setPage recipId (.leaf (r.CopyLastFrom theItem))
        match t2.getInternal p.parent_page_id with
        | none => none
        | some parent =>
          match parent.SetKeyAt (parent.ValueIndex p.page_id) theItem.1 with
          | none => none
          | some parent1 => some (t2.setPage p.parent_page_id (.internal parent1))

/-- `BPlusTreeLeafPage::MoveLastToFrontOf(recipient, parentIndex, bpm)` of the
page `thisId`, with the `CopyFirstFrom` it calls on the recipient. -/
def leafMoveLastToFrontOf (t : BPlusTree) (thisId recipId : Int) (parentIndex : Int) :
    Option BPlusTree :=
  match t.getLeaf thisId with
  | none => none
  | some p =>
    match p.array.getLast? with
    | none => none
    | some pair =>
      let t1 := t.setPage thisId (.leaf { p with array := p.array.dropLast })
      match t1.getLeaf recipId with
      | none => none
      | some r =>
        let t2 := t1.setPage recipId (.leaf { r with array := pair :: r.array })
        match t2.getInternal r.parent_page_id with
        | none => none
        | some parent =>
          match parent.SetKeyAt parentIndex pair.1 with
          | none => none
          | some parent1 => some (t2.setPage r.parent_page_id (.internal parent1))

/-- `BPlusTreeInternalPage::MoveAllTo(recipient, index_in_parent, bpm)` of the
page `thisId`. -/
def internalMoveAllTo (t : BPlusTree) (thisId recipId : Int) (index_in_parent : Int) :
    Option BPlusTree :=
  match t.getInternal thisId, t.getInternal recipId with
  | some p, some r =>
    match t.getInternal p.parent_page_id with
    | none => none
    | some parent =>
      match parent.KeyAt index_in_parent with
      | none => none
      | some sep =>
        match p.SetKeyAt 0 sep with
        | none => none
        | some p1 =>
          match (t.setPage thisId (.internal p1)).reparentAll p1.array r.page_id with
          | none => none
          | some t1 =>
            match t1.getInternal thisId, t1.getInternal recipId with
            | some p2, some r2 =>
              if r.array.length + p1.array.length ≤ p.max_size then
                some ((t1.setPage recipId (.internal { r2 with array := r.array ++ p1.array })).setPage
                  thisId (.internal { p2 with array := [] }))
              else none
            | _, _ => none
  | _, _ => none

/-- `BPlusTreeInternalPage::MoveFirstToEndOf(recipient, bpm)` of the page
`thisId`. -/
def internalMoveFirstToEndOf (t : BPlusTree) (thisId recipId : Int) : Option BPlusTree :=
  match t.getInternal thisId with
  | none => none
  | some p =>
    match p.array with
    | [] => none
    | pair :: rest =>
      let t1 := t.setPage thisId (.internal { p with array := rest })
      match t1.getInternal recipId with
      | none => none
      | some r =>
        match r.CopyLastFrom pair with
        | none => none
        | some r1 =>
          let t2 := t1.setPage recipId (.internal r1)
          match t2.setParent pair.2 r.page_id with
          | none => none
          | some t3 =>
            match t3.getInternal p.parent_page_id, rest.head? with
            | some parent, some first =>
              match parent.SetKeyAt (parent.ValueIndex p.page_id) first.1 with
              | none => none
              | some parent1 => some (t3.setPage p.parent_page_id (.internal parent1))
            | _, _ => none

/-- `BPlusTreeInternalPage::MoveLastToFrontOf(recipient, parent_index, bpm)` of
the page `thisId`, with the `CopyFirstFrom` it calls on the recipient. -/
def internalMoveLastToFrontOf (t : BPlusTree) (thisId recipId : Int) (parent_index : Int) :
    Option BPlusTree :=
  match t.getInternal thisId with
  | none => none
  | some p =>
    match p.array.getLast? with
    | none => none
    | some tmp =>
      let t1 := t.setPage thisId (.internal { p with array := p.array.dropLast })
      match t1.getInternal recipId with
      | none => none
      | some r =>
        if r.array.length + 1 < r.max_size then
          let t2 := t1.setPage recipId (.internal { r with array := tmp :: r.array })
          match t2.setParent tmp.2 r.page_id with
          | none => none
          | some t3 =>
            match t3.getInternal r.parent_page_id with
            | none => none
            | some parent =>
              match parent.SetKeyAt parent_index tmp.1 with
              | none => none
              | some parent1 => some (t3.setPage r.parent_page_id (.internal parent1))
        else none

/-! ### Removal -/

/-- `AdjustRoot(old_root_node)`: the store and whether the root page is to be
deleted. -/
def AdjustRoot (t : BPlusTree) (oldRootId : Int) : Option (BPlusTree × Bool) :=
  match t.pages oldRootId with
  | none => none
  | some (.leaf p) =>
    if p.array.length = 0 then
      some (({ t with root_page_id := INVALID_PAGE_ID }).UpdateRootPageId false, true)
    else some (t, false)
  | some (.internal p) =>
    if p.array.length = 1 then
      match p.RemoveAndReturnOnlyChild with
      | none => none
      | some (p1, child) =>
        let t1 := { t.setPage oldRootId (.internal p1) with root_page_id := child }
        let t2 := t1.UpdateRootPageId false
        match t2.setParent child INVALID_PAGE_ID with
        | none => none
        | some t3 => some (t3, true)
    else some (t, false)

/-- `FindLeftSibling(node, sibling, transaction)`: the sibling and whether it is
the right one. -/
def FindLeftSibling (t : BPlusTree) (nodeId : Int) : Option (Int × Bool) :=
  match t.pages nodeId with
  | none => none
  | some node =>
    match t.getInternal node.GetParentPageId with
    | none => none
    | some parent =>
      let index := parent.ValueIndex node.GetPageId
      let siblingIndex := if index = 0 then index + 1 else index - 1
      match parent.ValueAt siblingIndex with
      | none => none
      | some sibling => some (sibling, index == 0)

/-- `Redistribute(neighbor_node, node, index)`. -/
def Redistribute (t : BPlusTree) (neighborId nodeId : Int) (index : Int) : Option BPlusTree :=
  match t.pages neighborId, t.pages nodeId with
  | some (.leaf _), some (.leaf _) =>
    if index = 0 then t.leafMoveFirstToEndOf neighborId nodeId
    else t.leafMoveLastToFrontOf neighborId nodeId index
  | some (.internal _), some (.internal _) =>
    if index = 0 then t.internalMoveFirstToEndOf neighborId nodeId
    else t.internalMoveLastToFrontOf neighborId nodeId index
  | _, _ => none

/-- `Coalesce(neighbor_node, node, parent, index, transaction)`; `cor` is the
recursive call of `CoalesceOrRedistribute` on the parent. -/
def Coalesce (cor : BPlusTree → Int → Option (BPlusTree × Bool)) (t : BPlusTree)
    (neighborId nodeId parentId : Int) (index : Int) : Option (BPlusTree × Bool) :=
  let moved : Option BPlusTree :=
    match t.pages nodeId, t.pages neighborId with
    | some (.leaf n), some (.leaf nb) => some (t.setPage neighborId (.leaf (n.MoveAllTo nb)))
    | some (.internal _), some (.internal _) => t.internalMoveAllTo nodeId neighborId index
    | _, _ => none
  match moved with
  | none => none
  | some t1 =>
    match t1.getInternal parentId with
    | none => none
    | some parent =>
      match parent.Remove index with
      | none => none
      | some parent1 =>
        let t2 := t1.setPage parentId (.internal parent1)
        if parent1.array.length ≤ (BPlusTreePage.internal parent1).GetMinSize then cor t2 parentId
        else some (t2, false)

/-- `CoalesceOrRedistribute(node, transaction)`. -/
def CoalesceOrRedistribute : Nat → BPlusTree → Int → Option (BPlusTree × Bool)
  | 0, _, _ => none
  | fuel + 1, t, nodeId =>
    match t.pages nodeId with
    | none => none
    | some node =>
      if node.IsRootPage then t.AdjustRoot nodeId
      else
        match t.FindLeftSibling nodeId with
        | none => none
        | some (node2Id, isRightSib) =>
          match t.pages node2Id, t.getInternal node.GetParentPageId with
          | some node2, some parentPage =>
            if node.IsLeafPage = node2.IsLeafPage then
              if node.GetSize + node2.GetSize ≤ node.GetMaxSize then
                let right := if isRightSib then node2 else node
                let rightId := if isRightSib then node2Id else nodeId
                let leftId := if isRightSib then nodeId else node2Id
                let removeIndex := parentPage.ValueIndex right.GetPageId
                (Coalesce (CoalesceOrRedistribute fuel) t leftId rightId node.GetParentPageId
                  removeIndex).map (fun r => (r.1, true))
              else
                let nodeInParentIndex := parentPage.ValueIndex node.GetPageId
                (t.Redistribute node2Id nodeId nodeInParentIndex).map (fun t1 => (t1, false))
            else none
          | _, _ => none

/-- `Remove(key, transaction)`. -/
def Remove (t : BPlusTree) (key : Int) (fuel : Nat) : Option BPlusTree :=
  if t.IsEmpty then some t
  else
    match t.FindLeafPage key false fuel with
    | some (some leafId) =>
      match t.getLeaf leafId with
      | none => none
      | some leaf =>
        let leaf1 := leaf.RemoveAndDeleteRecord key
        let t1 := t.setPage leafId (.leaf leaf1)
        if leaf1.array.length < (BPlusTreePage.leaf leaf1).GetMinSize then
          (CoalesceOrRedistribute fuel t1 leafId).map Prod.fst
        else some t1
    | _ => none

end BPlusTree

/-! ## The iterator (`index_iterator.cpp`) -/

/-- `IndexIterator`: the current leaf (`none` is the null pointer) and the
index in it. -/
structure IndexIterator where
  idx : Nat
  the_leaf : Option Int
deriving DecidableEq, Repr

namespace IndexIterator

/-- `isEnd()`. -/
def isEnd (t : BPlusTree) (it : IndexIterator) : Option Bool :=
  match it.the_leaf with
  | none => some true
  | some leafId =>
    match t.getLeaf leafId with
    | none => none
    | some leaf =>
      some (it.idx = leaf.array.length ∧ leaf.next_page_id = INVALID_PAGE_ID)

/-- The entry `operator*` refers to. -/
def deref (t : BPlusTree) (it : IndexIterator) : Option (Int × Int) :=
  match it.the_leaf with
  | none => none
  | some leafId =>
    match t.getLeaf leafId with
    | none => none
    | some leaf => leaf.GetItem it.idx

/-- `operator++`. -/
def next (t : BPlusTree) (it : IndexIterator) : Option IndexIterator :=
  match it.the_leaf with
  | none => none
  | some leafId =>
    match t.getLeaf leafId with
    | none => none
    | some leaf =>
      if it.idx + 1 = leaf.array.length ∧ leaf.next_page_id ≠ INVALID_PAGE_ID then
        match t.getLeaf leaf.next_page_id with
        | none => none
        | some _ => some { idx := 0, the_leaf := some leaf.next_page_id }
      else some { it with idx := it.idx + 1 }

end IndexIterator

namespace BPlusTree

/-- `Begin()`. -/
def Begin (t : BPlusTree) (fuel : Nat) : Option IndexIterator :=
  (t.FindLeafPage 0 true fuel).map (fun leaf => { idx := 0, the_leaf := leaf })

/-- `Begin(key)`. -/
def BeginAt (t : BPlusTree) (key : Int) (fuel : Nat) : Option IndexIterator :=
  match t.FindLeafPage key false fuel with
  | none => none
  | some none => some { idx := 0, the_leaf := none }
  | some (some leafId) =>
    match t.getLeaf leafId with
    | none => none
    | some leaf => some { idx := leaf.KeyIndex key, the_leaf := some leafId }

/-- The loop `for (it = Begin(); !it.isEnd(); ++it)` of a scan, collecting the
entries `*it`. -/
def scanFrom (t : BPlusTree) : Nat → IndexIterator → Option (List (Int × Int))
  | 0, _ => none
  | fuel + 1, it =>
    match IndexIterator.isEnd t it with
    | none => none
    | some true => some []
    | some false =>
      match IndexIterator.deref t it, IndexIterator.next t it with
      | some e, some it1 => (scanFrom t fuel it1).map (fun l => e :: l)
      | _, _ => none

/-- A full scan from `Begin()`. -/
def scan (t : BPlusTree) (fuel : Nat) : Option (List (Int × Int)) :=
  match t.Begin fuel with
  | none => none
  | some it => scanFrom t fuel it

/-- A caller inserting the pairs of a list one after the other. -/
def insertAll (t : BPlusTree) (fuel : Nat) : List (Int × Int) → Option BPlusTree
  | [] => some t
  | kv :: rest =>
    match t.Insert kv.1 kv.2 fuel with
    | some (t1, _) => insertAll t1 fuel rest
    | none => none

/-- A caller removing the keys of a list one after the other. -/
def removeAll (t : BPlusTree) (fuel : Nat) : List Int → Option BPlusTree
  | [] => some t
  | k :: rest =>
    match t.Remove k fuel with
    | some t1 => removeAll t1 fuel rest
    | none => none

end BPlusTree

/-! ## LRU replacer (`lru_replacer.cpp`)

The doubly linked list between `head` and `tail` is the list of its values
from the head to the tail, `mp` is the set of keys of the value-to-node map and
`siz` the counter of the source. -/

/-- State of `LRUReplacer<T>`; the values are frame numbers. -/
structure LRUReplacer where
  /-- the values of the linked list, head first -/
  list : List Nat
  /-- the keys of `mp` -/
  mp : List Nat
  /-- `siz` -/
  siz : Int
deriving DecidableEq, Repr

namespace LRUReplacer

/-- The replacer the constructor builds. -/
def empty : LRUReplacer := { list := [], mp := [], siz := 0 }

/-- The private `erase(value)`: the replacer afterwards and the result. -/
def erase (r : LRUReplacer) (value : Nat) : LRUReplacer × Bool :=
  if value ∈ r.mp then
    ({ list := r.list.erase value, mp := r.mp.erase value, siz := r.siz - 1 }, true)
  else (r, false)

/-- `Insert(value)`. -/
def Insert (r : LRUReplacer) (value : Nat) : LRUReplacer :=
  let r1 := (r.erase value).1
  { list := value :: r1.list,
    mp := if value ∈ r1.mp then r1.mp else value :: r1.mp,
    siz := r1.siz + 1 }

/-- `Victim(value)`: the replacer afterwards and the victim, `none` for the
result `false`. -/
def Victim (r : LRUReplacer) : LRUReplacer × Option Nat :=
  if r.siz = 0 then (r, none)
  else
    match r.list with
    | [] => (r, none)
    | [v] => ({ list := [], mp := r.mp.erase v, siz := r.siz - 1 }, some v)
    | v :: w :: rest =>
      ({ list := (v :: w :: rest).dropLast,
         mp := r.mp.erase ((w :: rest).getLast (List.cons_ne_nil w rest)),
         siz := r.siz - 1 },
       some ((w :: rest).getLast (List.cons_ne_nil w rest)))

/-- `Erase(value)`. -/
def Erase (r : LRUReplacer) (value : Nat) : LRUReplacer × Bool :=
  if value ∈ r.mp then r.erase value else (r, false)

/-- `Size()`. -/
def Size (r : LRUReplacer) : Int := r.siz

end LRUReplacer

/-! ## Extendible hash table (`extendible_hash.cpp`)

The buckets live in an arena; a shared pointer to a bucket is its position in
the arena, so two directory slots share a bucket when they hold the same
position.  Keys are integers (`page_id_t`, `int`), hashed by `std::hash`, which
is the conversion to `size_t`. -/

/-- `std::map<K, V>::find` on the entries of a bucket. -/
def mapFind {V : Type} : List (Int × V) → Int → Option V
  | [], _ => none
  | e :: rest, key => if e.1 = key then some e.2 else mapFind rest key

/-- `kvmap[key] = value` on the entries of a bucket, kept in key order. -/
def mapSet {V : Type} : List (Int × V) → Int → V → List (Int × V)
  | [], key, value => [(key, value)]
  | e :: rest, key, value =>
    if e.1 = key then (key, value) :: rest
    else if key < e.1 then (key, value) :: e :: rest
    else e :: mapSet rest key value

/-- `kvmap.erase(key)` on the entries of a bucket. -/
def mapErase {V : Type} : List (Int × V) → Int → List (Int × V)
  | [], _ => []
  | e :: rest, key => if e.1 = key then rest else e :: mapErase rest key

/-- `Bucket` of the header. -/
structure Bucket (V : Type) where
  localDepth : Nat
  kvmap : List (Int × V)

/-- State of `ExtendibleHash<K, V>`. -/
structure ExtendibleHash (V : Type) where
  globalDepth : Nat
  bucketVolume : Nat
  bucketCount : Nat
  /-- the directory: for each slot the position of its bucket in the arena -/
  bucketTable : List Nat
  /-- the arena of all buckets made so far -/
  buckets : List (Bucket V)

namespace ExtendibleHash

variable {V : Type}

/-- `ExtendibleHash(size)`. -/
def new (size : Nat) : ExtendibleHash V :=
  { globalDepth := 0, bucketVolume := size, bucketCount := 1, bucketTable := [0],
    buckets := [{ localDepth := 0, kvmap := [] }] }

/-- `HashKey(key)`: `std::hash` of an integer, its value as a 64-bit `size_t`. -/
def HashKey (key : Int) : Nat := (key % 2 ^ 64).toNat

/-- `getBucketId(key)`: `HashKey(key) & ((1 << globalDepth) - 1)` with the
shift taken without overflow, that is the low `globalDepth` bits of the hash.
The source shifts a 32-bit `int`; `getBucketId32` below follows that width, and
the two agree while the directory is not deeper than 30. -/
def getBucketId (eh : ExtendibleHash V) (key : Int) : Nat :=
  HashKey key % 2 ^ eh.globalDepth

/-- The bucket `bucketTable[bucket_id]` points to. -/
def bucketAt (eh : ExtendibleHash V) (bucket_id : Nat) : Option (Bucket V) :=
  match eh.bucketTable.get? bucket_id with
  | some b => eh.buckets.get? b
  | none => none

/-- `GetGlobalDepth()`. -/
def GetGlobalDepth (eh : ExtendibleHash V) : Nat := eh.globalDepth

/-- `GetLocalDepth(bucket_id)`. -/
def GetLocalDepth (eh : ExtendibleHash V) (bucket_id : Nat) : Int :=
  match eh.bucketAt bucket_id with
  | some b => if b.kvmap.length = 0 then -1 else b.localDepth
  | none => -1

/-- `GetNumBuckets()`. -/
def GetNumBuckets (eh : ExtendibleHash V) : Nat := eh.bucketCount

/-- `Find(key, value)`: the value when the result is `true`. -/
def Find (eh : ExtendibleHash V) (key : Int) : Option V :=
  match eh.bucketAt (eh.getBucketId key) with
  | some b => mapFind b.kvmap key
  | none => none

/-- `Remove(key)`: the table afterwards and the result. -/
def Remove (eh : ExtendibleHash V) (key : Int) : ExtendibleHash V × Bool :=
  match eh.bucketTable.get? (eh.getBucketId key) with
  | none => (eh, false)
  | some bi =>
    match eh.buckets.get? bi with
    | none => (eh, false)
    | some b =>
      match mapFind b.kvmap key with
      | none => (eh, false)
      | some _ =>
        ({ eh with buckets := eh.buckets.set bi { b with kvmap := mapErase b.kvmap key } }, true)

/-- The loop of a split that points the slots `i` of the split bucket with
`i & mask` set to the new bucket; the list is the directory from slot `i` on. -/
def redirectFrom (old new mask : Nat) : List Nat → Nat → List Nat
  | [], _ => []
  | b :: rest, i =>
    (if b = old ∧ (i / mask) % 2 = 1 then new else b) :: redirectFrom old new mask rest (i + 1)

/-- The split inside `Insert` of the full bucket `tmp` at position `bi` of the
arena: the directory doubles when the bucket is as deep as the directory, the
entries whose hash has the bit `mask = 1 << localDepth` set move to a new
bucket, and the slots of the bucket with that bit set point to the new bucket.
`h & mask` is set when `(h / mask) % 2 = 1`; the shift is taken without
overflow.  The source shifts a 32-bit `int`; `split32` below follows that
width, and the two agree for a bucket of local depth 30 or less. -/
def split (eh : ExtendibleHash V) (bi : Nat) (tmp : Bucket V) : ExtendibleHash V :=
  let mask := 2 ^ tmp.localDepth
  let depth := tmp.localDepth + 1
  let table1 := if depth > eh.globalDepth then eh.bucketTable ++ eh.bucketTable
    else eh.bucketTable
  let global1 := if depth > eh.globalDepth then eh.globalDepth + 1 else eh.globalDepth
  let newBuc : Bucket V :=
    { localDepth := depth,
      kvmap := tmp.kvmap.filter (fun e => (HashKey e.1 / mask) % 2 = 1) }
  let tmp1 : Bucket V :=
    { localDepth := depth,
      kvmap := tmp.kvmap.filter (fun e => ¬ (HashKey e.1 / mask) % 2 = 1) }
  { globalDepth := global1, bucketVolume := eh.bucketVolume,
    bucketCount := eh.bucketCount + 1,
    bucketTable := redirectFrom bi eh.buckets.length mask table1 0,
    buckets := eh.buckets.set bi tmp1 ++ [newBuc] }

/-- The `while (true)` loop of `Insert(key, value)`. -/
def insertLoop : Nat → ExtendibleHash V → Int → V → Option (ExtendibleHash V)
  | 0, _, _, _ => none
  | fuel + 1, eh, key, value =>
    match eh.bucketTable.get? (eh.getBucketId key) with
    | none => none
    | some bi =>
      match eh.buckets.get? bi with
      | none => none
      | some tmp =>
        if (mapFind tmp.kvmap key).isSome ∨ tmp.kvmap.length < eh.bucketVolume then
          some { eh with buckets := eh.buckets.set bi { tmp with kvmap := mapSet tmp.kvmap key value } }
        else insertLoop fuel (eh.split bi tmp) key value

/-- `Insert(key, value)`.  The hash has 64 bits, so a bucket is split at most
64 times before its keys differ; `none` when the loop does not come to an end
within that many splits. -/
def Insert (eh : ExtendibleHash V) (key : Int) (value : V) : Option (ExtendibleHash V) :=
  insertLoop 66 eh key value

end ExtendibleHash

/-- A call of a client of the table that changes it: `Insert(key, value)` or
`Remove(key)`. -/
inductive HashOp (V : Type) where
  | insert (key : Int) (value : V)
  | remove (key : Int)
deriving DecidableEq, Repr

namespace ExtendibleHash

variable {V : Type}

/-- The table after one call of a client. -/
def step (eh : ExtendibleHash V) : HashOp V → Option (ExtendibleHash V)
  | .insert key value => eh.Insert key value
  | .remove key => some (eh.Remove key).1

/-- The table after the calls `ops` of a client, the first call first. -/
def run (eh : ExtendibleHash V) : List (HashOp V) → Option (ExtendibleHash V)
  | [] => some eh
  | op :: rest =>
    match eh.step op with
    | none => none
    | some eh1 => eh1.run rest

end ExtendibleHash

/-- The finite map of the specification, read off the calls with the latest
call first: the value of the most recent `insert(key, v)` unless a
`remove(key)` came after it, absent otherwise. -/
def specFindRev {V : Type} : List (HashOp V) → Int → Option V
  | [], _ => none
  | .insert k v :: earlier, key => if k = key then some v else specFindRev earlier key
  | .remove k :: earlier, key => if k = key then none else specFindRev earlier key

/-- What `find(key)` returns after the calls `ops` according to the
specification; `ops` has the first call first. -/
def specFind {V : Type} (ops : List (HashOp V)) (key : Int) : Option V :=
  specFindRev ops.reverse key

/-! ## Buffer pool manager (`buffer_pool_manager.cpp`)

A `Page *` is the number of the frame in `pages_`. -/

/-- Modelled from the spec: the frame type `Page` of `page.h`, which is not
among the sources; "a fixed-size byte buffer plus metadata: page_id,
pin_count, is_dirty". -/
structure Page where
  data : List Nat
  page_id : Int
  pin_count : Int
  is_dirty : Bool
deriving DecidableEq, Repr

/-- A call of the disk manager. -/
inductive DiskEvent where
  | read (page_id : Int)
  | write (page_id : Int) (data : List Nat)
  | allocate (page_id : Int)
  | deallocate (page_id : Int)
deriving DecidableEq, Repr

/-- Modelled from the spec: the disk manager, which is an external
collaborator; "allocate_page() → PageId, deallocate_page(PageId),
read_page(PageId, buf), write_page(PageId, buf)".  Page ids are handed out
consecutively and every call is recorded in `log`, the latest call last. -/
structure DiskManager where
  contents : Int → List Nat
  next_page_id : Int
  log : List DiskEvent

namespace DiskManager

/-- `ReadPage(page_id, page_data)`: the disk afterwards and the bytes read. -/
def ReadPage (d : DiskManager) (page_id : Int) : DiskManager × List Nat :=
  ({ d with log := d.log ++ [.read page_id] }, d.contents page_id)

/-- `WritePage(page_id, page_data)`. -/
def WritePage (d : DiskManager) (page_id : Int) (data : List Nat) : DiskManager :=
  { d with contents := fun q => if q = page_id then data else d.contents q,
           log := d.log ++ [.write page_id data] }

/-- `AllocatePage()`: the disk afterwards and the new page id. -/
def AllocatePage (d : DiskManager) : DiskManager × Int :=
  ({ d with next_page_id := d.next_page_id + 1, log := d.log ++ [.allocate d.next_page_id] },
   d.next_page_id)

/-- `DeallocatePage(page_id)`. -/
def DeallocatePage (d : DiskManager) (page_id : Int) : DiskManager :=
  { d with log := d.log ++ [.deallocate page_id] }

/-- A disk on which nothing has been written or allocated yet. -/
def blank : DiskManager := { contents := fun _ => [], next_page_id := 0, log := [] }

end DiskManager

/-- State of `BufferPoolManager`; `page_size` is `PAGE_SIZE` of `config.h`. -/
structure BufferPoolManager where
  pool_size : Nat
  page_size : Nat
  /-- the frames `pages_[0 .. pool_size-1]` -/
  pages : Nat → Page
  page_table : ExtendibleHash Nat
  replacer : LRUReplacer
  free_list : List Nat
  disk : DiskManager

namespace BufferPoolManager

/-- `ResetMemory()` of a frame: `PAGE_SIZE` zero bytes. -/
def zeroData (page_size : Nat) : List Nat := List.replicate page_size 0

/-- A write to the fields of the frame `f`. -/
def setFrame (s : BufferPoolManager) (f : Nat) (p : Page) : BufferPoolManager :=
  { s with pages := fun g => if g = f then p else s.pages g }

/-- The constructor: every frame is fresh and in the free list; `bucket_size`
is `BUCKET_SIZE` of `config.h`. -/
def new (pool_size page_size bucket_size : Nat) (disk : DiskManager) : BufferPoolManager :=
  { pool_size := pool_size, page_size := page_size,
    pages := fun _ =>
      { data := zeroData page_size, page_id := INVALID_PAGE_ID, pin_count := 0,
        is_dirty := false },
    page_table := ExtendibleHash.new bucket_size,
    replacer := LRUReplacer.empty,
    free_list := List.range pool_size,
    disk := disk }

/-- `findUnusedPage()`: the pool afterwards and the frame, `none` for the null
pointer.  No result when an assertion on the free frame fails. -/
def findUnusedPage (s : BufferPoolManager) : Option (BufferPoolManager × Option Nat) :=
  match s.free_list with
  | p :: rest =>
    if (s.pages p).page_id = INVALID_PAGE_ID ∧ (s.pages p).pin_count = 0 ∧
        (s.pages p).is_dirty = false then
      some ({ s with free_list := rest }, some p)
    else none
  | [] =>
    match s.replacer.Victim with
    | (_, none) => some (s, none)
    | (replacer1, some p) =>
      let s1 := { s with replacer := replacer1,
                         page_table := (s.page_table.Remove (s.pages p).page_id).1 }
      let s2 := if (s1.pages p).is_dirty then
          { s1 with disk := s1.disk.WritePage (s1.pages p).page_id (s1.pages p).data }
        else s1
      some (s2.setFrame p { (s2.pages p) with
              is_dirty := false, data := zeroData s.page_size, page_id := INVALID_PAGE_ID },
            some p)

/-- `FetchPage(page_id)`: the pool afterwards and the frame, `none` for the
null pointer. -/
def FetchPage (s : BufferPoolManager) (page_id : Int) :
    Option (BufferPoolManager × Option Nat) :=
  match s.page_table.Find page_id with
  | some target =>
    let s1 := s.setFrame target { (s.pages target) with
      pin_count := (s.pages target).pin_count + 1 }
    some ({ s1 with replacer := (s1.replacer.Erase target).1 }, some target)
  | none =>
    match s.findUnusedPage with
    | none => none
    | some (s1, none) => some (s1, none)
    | some (s1, some target) =>
      let s2 := if (s1.pages target).is_dirty then
          { s1 with disk := s1.disk.WritePage (s1.pages target).page_id (s1.pages target).data }
        else s1
      match ((s2.page_table.Remove (s2.pages target).page_id).1).Insert page_id target with
      | none => none
      | some table =>
        let (disk1, bytes) := s2.disk.ReadPage page_id
        some (({ s2 with page_table := table, disk := disk1 }).setFrame target
                { data := bytes, page_id := page_id, pin_count := 1, is_dirty := false },
              some target)

/-- `UnpinPage(page_id, is_dirty)`: the pool afterwards and the result. -/
def UnpinPage (s : BufferPoolManager) (page_id : Int) (is_dirty : Bool) :
    BufferPoolManager × Bool :=
  match s.page_table.Find page_id with
  | none => (s, false)
  | some p =>
    if (s.pages p).pin_count ≤ 0 then (s, false)
    else
      let s1 := s.setFrame p { (s.pages p) with pin_count := (s.pages p).pin_count - 1 }
      let s2 := if (s1.pages p).pin_count = 0 then
          { s1 with replacer := s1.replacer.Insert p }
        else s1
      let s3 := if is_dirty then s2.setFrame p { (s2.pages p) with is_dirty := true } else s2
      (s3, true)

/-- `FlushPage(page_id)`: the pool afterwards and the result; no result when
the assertion on `page_id` fails. -/
def FlushPage (s : BufferPoolManager) (page_id : Int) : Option (BufferPoolManager × Bool) :=
  if page_id = INVALID_PAGE_ID then none
  else
    match s.page_table.Find page_id with
    | none => some (s, false)
    | some p =>
      if (s.pages p).page_id = INVALID_PAGE_ID then some (s, false)
      else if (s.pages p).is_dirty then
        some (({ s with disk := s.disk.WritePage page_id (s.pages p).data }).setFrame p
                { (s.pages p) with is_dirty := false }, true)
      else some (s, true)

/-- `DeletePage(page_id)`: the pool afterwards and the result. -/
def DeletePage (s : BufferPoolManager) (page_id : Int) : BufferPoolManager × Bool :=
  match s.page_table.Find page_id with
  | some p =>
    if (s.pages p).pin_count > 0 then (s, false)
    else
      let s1 := s.setFrame p
        { data := zeroData s.page_size, page_id := INVALID_PAGE_ID, pin_count := 0,
          is_dirty := false }
      ({ s1 with replacer := (s1.replacer.Erase p).1,
                 page_table := (s1.page_table.Remove page_id).1,
                 free_list := s1.free_list ++ [p],
                 disk := s1.disk.DeallocatePage page_id }, true)
  | none => ({ s with disk := s.disk.DeallocatePage page_id }, true)

/-- `NewPage(page_id)`: the pool afterwards and, unless the result is the null
pointer, the frame together with the page id written to the argument. -/
def NewPage (s : BufferPoolManager) : Option (BufferPoolManager × Option (Nat × Int)) :=
  match s.findUnusedPage with
  | none => none
  | some (s1, none) => some (s1, none)
  | some (s1, some newPg) =>
    let (disk1, page_id) := s1.disk.AllocatePage
    let s2 := { s1 with disk := disk1 }
    let s3 := if (s2.pages newPg).is_dirty then
        { s2 with disk := s2.disk.WritePage (s2.pages newPg).page_id (s2.pages newPg).data }
      else s2
    let table1 := (s3.page_table.Remove (s3.pages newPg).page_id).1
    let s4 := ({ s3 with page_table := table1 }).setFrame newPg
      { (s3.pages newPg) with page_id := page_id, is_dirty := false, pin_count := 1 }
    match s4.page_table.Insert page_id newPg with
    | none => none
    | some table2 => some ({ s4 with page_table := table2 }, some (newPg, page_id))

/-- A client writing bytes through the pointer to the frame `f` it holds. -/
def writeData (s : BufferPoolManager) (f : Nat) (bytes : List Nat) : BufferPoolManager :=
  s.setFrame f { (s.pages f) with data := bytes }

/-- The pool states that arise from a fresh pool by the public operations; a
client writes bytes only to a frame it has pinned. -/
inductive Reachable : BufferPoolManager → Prop
  | init (pool_size page_size bucket_size : Nat) (disk : DiskManager) :
      Reachable (new pool_size page_size bucket_size disk)
  | fetch {s s1 : BufferPoolManager} {r : Option Nat} (page_id : Int) :
      Reachable s → s.FetchPage page_id = some (s1, r) → Reachable s1
  | unpin {s : BufferPoolManager} (page_id : Int) (is_dirty : Bool) :
      Reachable s → Reachable (s.UnpinPage page_id is_dirty).1
  | flush {s s1 : BufferPoolManager} {r : Bool} (page_id : Int) :
      Reachable s → s.FlushPage page_id = some (s1, r) → Reachable s1
  | newPage {s s1 : BufferPoolManager} {r : Option (Nat × Int)} :
      Reachable s → s.NewPage = some (s1, r) → Reachable s1
  | delete {s : BufferPoolManager} (page_id : Int) :
      Reachable s → Reachable (s.DeletePage page_id).1
  | write {s : BufferPoolManager} (f : Nat) (bytes : List Nat) :
      Reachable s → 0 < (s.pages f).pin_count → Reachable (s.writeData f bytes)

end BufferPoolManager


/-! ## Invariants of the buffer pool and of its parts -/

/-- The replacer is consistent: no value is linked twice, the map has exactly
the linked values as keys and the counter is the length of the list. -/
structure LRUReplacer.Inv (r : LRUReplacer) : Prop where
  nodup : r.list.Nodup
  mp_nodup : r.mp.Nodup
  mem_iff : ∀ v, v ∈ r.mp ↔ v ∈ r.list
  siz_eq : r.siz = r.list.length

/-- The replacer states that arise from the replacer of the constructor by the
public operations. -/
inductive LRUReplacer.Reachable : LRUReplacer → Prop
  | init : LRUReplacer.Reachable LRUReplacer.empty
  | insert {r : LRUReplacer} (v : Nat) :
      LRUReplacer.Reachable r → LRUReplacer.Reachable (r.Insert v)
  | victim {r : LRUReplacer} : LRUReplacer.Reachable r → LRUReplacer.Reachable r.Victim.1
  | erase {r : LRUReplacer} (v : Nat) :
      LRUReplacer.Reachable r → LRUReplacer.Reachable (r.Erase v).1

/-- The directory is well formed: it has `2 ^ globalDepth` slots, every slot
points into the arena, no bucket is deeper than the directory and every bucket
holds its keys in increasing order. -/
structure ExtendibleHash.Inv {V : Type} (eh : ExtendibleHash V) : Prop where
  table_len : eh.bucketTable.length = 2 ^ eh.globalDepth
  table_lt : ∀ b ∈ eh.bucketTable, b < eh.buckets.length
  depth_le : ∀ b ∈ eh.buckets, b.localDepth ≤ eh.globalDepth
  keys_sorted : ∀ b ∈ eh.buckets, (b.kvmap.map Prod.fst).Pairwise (· < ·)

/-- The keys are where the directory looks for them: the keys of every bucket
lie among the `2 ^ m` integers from `lo` on, no bucket and not the directory is
deeper than `m`, the slots that share a bucket agree in the low `localDepth`
bits, and so do the hash of every key of the bucket and its slots. -/
structure ExtendibleHash.Placed {V : Type} (eh : ExtendibleHash V) (lo : Int) (m : Nat) :
    Prop where
  volume : 1 ≤ eh.bucketVolume
  range : ∀ b ∈ eh.buckets, ∀ key ∈ b.kvmap.map Prod.fst, lo ≤ key ∧ key < lo + 2 ^ m
  depth : ∀ b ∈ eh.buckets, b.localDepth ≤ m
  global : eh.globalDepth ≤ m
  agree : ∀ i j bi b, eh.bucketTable[i]? = some bi → eh.bucketTable[j]? = some bi →
    eh.buckets[bi]? = some b → i % 2 ^ b.localDepth = j % 2 ^ b.localDepth
  slot : ∀ i bi b, eh.bucketTable[i]? = some bi → eh.buckets[bi]? = some b →
    ∀ key ∈ b.kvmap.map Prod.fst,
      ExtendibleHash.HashKey key % 2 ^ b.localDepth = i % 2 ^ b.localDepth

/-- The bookkeeping of the pool is consistent. -/
structure BufferPoolManager.Inv (s : BufferPoolManager) : Prop where
  table : s.page_table.Inv
  lru : s.replacer.Inv
  free_nodup : s.free_list.Nodup
  free_frames : ∀ f ∈ s.free_list, f < s.pool_size ∧ (s.pages f).page_id = INVALID_PAGE_ID ∧
    (s.pages f).pin_count = 0 ∧ (s.pages f).is_dirty = false ∧
    (s.pages f).data = BufferPoolManager.zeroData s.page_size
  lru_frames : ∀ f ∈ s.replacer.list, f < s.pool_size ∧ (s.pages f).pin_count = 0 ∧
    f ∉ s.free_list
  pins : ∀ f, f < s.pool_size → 0 ≤ (s.pages f).pin_count ∧
    ((s.pages f).pin_count = 0 → f ∈ s.free_list ∨ f ∈ s.replacer.list)
  resident : ∀ k f, s.page_table.Find k = some f → f < s.pool_size ∧ (s.pages f).page_id = k ∧
    f ∉ s.free_list

/-- The frame `p` has been taken out of the free list or out of the replacer
of `s`, giving `s1`: it is reset and belongs to no list and to no page-table
entry, and nothing else has changed. -/
structure BufferPoolManager.Taken (s s1 : BufferPoolManager) (p : Nat) : Prop where
  pool_size : s1.pool_size = s.pool_size
  page_size : s1.page_size = s.page_size
  lt : p < s.pool_size
  frame : s1.pages p = Page.mk (BufferPoolManager.zeroData s.page_size) INVALID_PAGE_ID 0 false
  others : ∀ f, f ≠ p → s1.pages f = s.pages f
  table : s1.page_table.Inv
  find : ∀ k f, s1.page_table.Find k = some f → s.page_table.Find k = some f ∧ f ≠ p
  lru : s1.replacer.Inv
  lru_mem : ∀ f, f ∈ s1.replacer.list ↔ f ∈ s.replacer.list ∧ f ≠ p
  free_nodup : s1.free_list.Nodup
  free_mem : ∀ f, f ∈ s1.free_list ↔ f ∈ s.free_list ∧ f ≠ p
  next_page_id : s1.disk.next_page_id = s.disk.next_page_id

/-! ## Validity of the index -/

/-- The key `k` is not below the lower bound (`none` is minus infinity). -/
def aboveLo (lo : Option Int) (k : Int) : Prop :=
  match lo with
  | none => True
  | some l => l ≤ k

/-- The key `k` is below the upper bound (`none` is plus infinity). -/
def belowHi (hi : Option Int) (k : Int) : Prop :=
  match hi with
  | none => True
  | some u => k < u

/-- The lower bound is strictly below the upper bound. -/
def boundLt (lo hi : Option Int) : Prop :=
  match lo, hi with
  | some l, some u => l < u
  | _, _ => True

/-- The entries of a sorted list of records with the record `(k, v)` put in
front of the first record whose key is not below `k`. -/
def insertKV (k v : Int) : List (Int × Int) → List (Int × Int)
  | [] => [(k, v)]
  | e :: rest => if k ≤ e.1 then (k, v) :: e :: rest else e :: insertKV k v rest

/-- The number of leading entries whose key is not above `k`. -/
def countLE (k : Int) : List (Int × Int) → Nat
  | [] => 0
  | e :: rest => if e.1 ≤ k then countLE k rest + 1 else 0

/-- The children of an internal page: the child of every entry is a subtree `T`
whose keys lie between the key of the entry (the lower bound `lo` for the first
entry, whose key slot is unused) and the key of the next entry (`hi` for the
last entry), and whose last leaf is linked to the first leaf `lm` of the next
child (to `nxt` for the last child). -/
def Children (T : Int → Option Int → Option Int → Int → Prop) (lm : Int → Int) :
    List (Int × Int) → Option Int → Option Int → Int → Prop
  | [], _, _, _ => False
  | [e], lo, hi, nxt => T e.2 lo hi nxt ∧ boundLt lo hi
  | e :: e2 :: rest, lo, hi, nxt =>
    T e.2 lo (some e2.1) (lm e2.2) ∧ boundLt lo (some e2.1) ∧
      Children T lm (e2 :: rest) (some e2.1) hi nxt

/-- The lower key bound of the child of `e` when the entries `pre` precede it. -/
def loAt (pre : List (Int × Int)) (e : Int × Int) (lo : Option Int) : Option Int :=
  match pre with
  | [] => lo
  | _ :: _ => some e.1

/-- The upper key bound of a child when the entries `post` follow it. -/
def hiAt (post : List (Int × Int)) (hi : Option Int) : Option Int :=
  match post with
  | [] => hi
  | b :: _ => some b.1

/-- The leaf that follows the last leaf of a child when the entries `post`
follow it. -/
def nxtAt (lm : Int → Int) (post : List (Int × Int)) (nxt : Int) : Int :=
  match post with
  | [] => nxt
  | b :: _ => lm b.2

namespace BPlusTree

/-- The first leaf of the subtree of height `h` at `pid`. -/
def leftmost (t : BPlusTree) : Nat → Int → Int
  | 0, pid => pid
  | h + 1, pid =>
    match t.getInternal pid with
    | some p =>
      match p.array with
      | e :: _ => leftmost t h e.2
      | [] => pid
    | none => pid

/-- The records of the subtree of height `h` at `pid`, leaf by leaf from left
to right. -/
def contents (t : BPlusTree) : Nat → Int → List (Int × Int)
  | 0, pid =>
    match t.getLeaf pid with
    | some p => p.array
    | none => []
  | h + 1, pid =>
    match t.getInternal pid with
    | some p => p.array.foldr (fun e acc => contents t h e.2 ++ acc) []
    | none => []

/-- The page `q` belongs to the subtree of height `h` at `pid`. -/
def InSub (t : BPlusTree) : Nat → Int → Int → Prop
  | 0, pid, q => q = pid
  | h + 1, pid, q =>
    q = pid ∨ ∃ p, t.getInternal pid = some p ∧ ∃ e ∈ p.array, InSub t h e.2 q

/-- The page `pid` is the root of a well-formed subtree of height `h` whose
parent pointer is `par`, whose keys lie in `[lo, hi)` and whose last leaf is
linked to `nxt`: leaves are sorted, not empty and not over full; internal
pages have between two and `max_size` entries with distinct children, and the
keys of the entries separate the children. -/
def Tree (t : BPlusTree) : Nat → Int → Int → Option Int → Option Int → Int → Prop
  | 0, pid, par, lo, hi, nxt =>
    ∃ p, t.pages pid = some (.leaf p) ∧ p.page_id = pid ∧ p.parent_page_id = par ∧
      p.max_size = t.leaf_max_size ∧ p.next_page_id = nxt ∧
      1 ≤ p.array.length ∧ p.array.length ≤ p.max_size ∧
      (p.array.map Prod.fst).Pairwise (· < ·) ∧
      ∀ e ∈ p.array, aboveLo lo e.1 ∧ belowHi hi e.1
  | h + 1, pid, par, lo, hi, nxt =>
    ∃ p, t.pages pid = some (.internal p) ∧ p.page_id = pid ∧ p.parent_page_id = par ∧
      p.max_size = t.internal_max_size ∧
      2 ≤ p.array.length ∧ p.array.length ≤ p.max_size ∧
      (p.array.map Prod.snd).Nodup ∧
      Children (fun c l u n => Tree t h c pid l u n) (leftmost t h) p.array lo hi nxt

/-- The index is a valid, non-empty tree of height `h`: the root is a
well-formed subtree without parent, without key bounds and with the chain of
leaves ending in `INVALID_PAGE_ID`; page ids are positive and below the next
page id of the disk manager; a leaf page can hold one record and an internal
page three entries. -/
structure Valid (t : BPlusTree) (h : Nat) : Prop where
  tree : Tree t h t.root_page_id INVALID_PAGE_ID none none INVALID_PAGE_ID
  fresh : ∀ q, t.pages q ≠ none → 0 < q ∧ q < t.next_page_id
  leaf_max : 1 ≤ t.leaf_max_size
  internal_max : 3 ≤ t.internal_max_size

/-- The records of a valid index of height `h`. -/
def entries (t : BPlusTree) (h : Nat) : List (Int × Int) := t.contents h t.root_page_id

end BPlusTree

/-- The store `t1` arises from `t` by changes to pages in `S` and to pages
allocated since: the parameters and the root are the same and every page of
`t1` has a positive id below the next page id. -/
structure BPlusTree.Evolves (t t1 : BPlusTree) (S : Int → Prop) : Prop where
  leaf_max : t1.leaf_max_size = t.leaf_max_size
  internal_max : t1.internal_max_size = t.internal_max_size
  root : t1.root_page_id = t.root_page_id
  next_le : t.next_page_id ≤ t1.next_page_id
  frame : ∀ q, ¬ S q → q < t.next_page_id → t1.pages q = t.pages q
  fresh : ∀ q, t1.pages q ≠ none → 0 < q ∧ q < t1.next_page_id

namespace BPlusTree

/-- The page `p` stored at `pid` is an internal page as `Tree` asks for at
height `h + 1`, but for the upper bound on its size: the state of a page
between `InsertNodeAfter` and `Split`. -/
def Node (t : BPlusTree) (h : Nat) (pid par : Int) (lo hi : Option Int) (nxt : Int)
    (p : BPlusTreeInternalPage) : Prop :=
  t.pages pid = some (.internal p) ∧ p.page_id = pid ∧ p.parent_page_id = par ∧
    p.max_size = t.internal_max_size ∧ 2 ≤ p.array.length ∧ (p.array.map Prod.snd).Nodup ∧
    Children (fun c l u n => Tree t h c pid l u n) (leftmost t h) p.array lo hi nxt

/-- The subtree of height `h` at `pid` of the store `t1` is well formed, has
the records `c` and the first leaf it had in `t`, and `t1` arises from `t` by
changes within the old subtree and to new pages. -/
structure Grown (t t1 : BPlusTree) (h : Nat) (pid par : Int) (lo hi : Option Int) (nxt : Int)
    (c : List (Int × Int)) : Prop where
  tree : Tree t1 h pid par lo hi nxt
  contents : t1.contents h pid = c
  leftmost : t1.leftmost h pid = t.leftmost h pid
  evolves : Evolves t t1 (InSub t h pid)
  within : ∀ q, InSub t1 h pid q → InSub t h pid q ∨ t.next_page_id ≤ q

/-- The subtree of height `h` at `pid` has been split in the store `t2` into
the subtree at `pid` and the subtree at the new page `n`, which has no parent
yet, with `s` as the separating key; together they have the records `c`. -/
structure Halved (t t2 : BPlusTree) (h : Nat) (pid par : Int) (lo hi : Option Int) (nxt : Int)
    (c : List (Int × Int)) (s n : Int) : Prop where
  left : Tree t2 h pid par lo (some s) (t2.leftmost h n)
  right : Tree t2 h n INVALID_PAGE_ID (some s) hi nxt
  contents : t2.contents h pid ++ t2.contents h n = c
  leftmost : t2.leftmost h pid = t.leftmost h pid
  lo_s : boundLt lo (some s)
  s_hi : boundLt (some s) hi
  new_ge : t.next_page_id ≤ n
  evolves : Evolves t t2 (InSub t h pid)
  within_left : ∀ q, InSub t2 h pid q → InSub t h pid q ∨ t.next_page_id ≤ q
  within_right : ∀ q, InSub t2 h n q → InSub t h pid q ∨ t.next_page_id ≤ q

/-- The page at `pid` has taken one more entry in the store `t4` and is the
page `p4`, possibly over full; the subtree below it has the records `c`. -/
structure Widened (t t4 : BPlusTree) (h : Nat) (pid par : Int) (lo hi : Option Int) (nxt : Int)
    (c : List (Int × Int)) (p4 : BPlusTreeInternalPage) : Prop where
  node : Node t4 h pid par lo hi nxt p4
  contents : t4.contents (h + 1) pid = c
  leftmost : t4.leftmost (h + 1) pid = t.leftmost (h + 1) pid
  evolves : Evolves t t4 (InSub t (h + 1) pid)
  within : ∀ q, InSub t4 (h + 1) pid q → InSub t (h + 1) pid q ∨ t.next_page_id ≤ q

end BPlusTree

/-- The records of an index after `Insert` of the pair `kv`: a key that is
present keeps its record. -/
def insertNew (l : List (Int × Int)) (kv : Int × Int) : List (Int × Int) :=
  match mapFind l kv.1 with
  | none => insertKV kv.1 kv.2 l
  | some _ => l

/-- The index `t` holds the records `l` and is either without pages, as the
constructor leaves it, or a valid tree of a height below `n`. -/
def BPlusTree.Holds (t : BPlusTree) (l : List (Int × Int)) (n : Nat) : Prop :=
  (t.root_page_id = INVALID_PAGE_ID ∧ (∀ q, t.pages q = none) ∧ 1 ≤ t.next_page_id ∧
      1 ≤ t.leaf_max_size ∧ 3 ≤ t.internal_max_size ∧ l = []) ∨
    ∃ h, t.Valid h ∧ t.entries h = l ∧ h + 1 ≤ n

/-! ## The index as a client of the buffer pool: pin counts and the page set

The operations of `b_plus_tree.cpp` once more, now with every `FetchPage`,
`NewPage`, `UnpinPage` and `DeletePage` they and the page-layout routines make,
and with the page set and the deleted page set of the transaction that is
passed to them (the branches for a null transaction are left out).  The pool
is large enough that no `FetchPage` or `NewPage` returns a null pointer, so it
is seen through the pin count it keeps for each page.  What the routines do to
the contents of the pages is what they do in the store above; latches and the
root latch are not represented. -/

/-- `OpType` of `b_plus_tree.h`. -/
inductive OpType where
  | READ
  | INSERT
  | DELETE
deriving DecidableEq, Repr

/-- Modelled from the spec: `IsSafe(op)` of `b_plus_tree_page.cpp`, which is
not among the sources; "Safe node: on insert, `size < max_size`; on delete,
`size > min_size`". -/
def BPlusTreePage.IsSafe (p : BPlusTreePage) : OpType → Bool
  | .READ => true
  | .INSERT => p.GetSize < p.GetMaxSize
  | .DELETE => p.GetMinSize < p.GetSize

/-- The index with the pin counts of the pool and the sets of the transaction.
Modelled from the spec: the page set and the deleted page set of `Transaction`,
which is not among the sources; "per-operation page set (ordered list)",
"if scheduled for deletion, call BPM `delete_page`". -/
structure PinnedTree where
  tree : BPlusTree
  /-- the pin count of the frame that holds the page, 0 for a page that no
  frame holds -/
  pins : Int → Int
  /-- `transaction->GetPageSet()`, the page ids in the order of insertion -/
  page_set : List Int
  /-- `transaction->GetDeletedPageSet()` -/
  deleted_page_set : List Int
  /-- the page ids `DeletePage` has been called with, the latest call last -/
  delete_calls : List Int

namespace PinnedTree

/-- `FetchPage(page_id)` of the pool: the frame of the page has one more pin
(a page that no frame holds comes into a frame with pin count 1). -/
def fetch (s : PinnedTree) (page_id : Int) : PinnedTree :=
  { s with pins := fun q => if q = page_id then s.pins q + 1 else s.pins q }

/-- `UnpinPage(page_id, is_dirty)` of the pool: nothing happens when the pin
count is not positive or no frame holds the page. -/
def unpin (s : PinnedTree) (page_id : Int) : PinnedTree :=
  if s.pins page_id ≤ 0 then s
  else { s with pins := fun q => if q = page_id then s.pins q - 1 else s.pins q }

/-- `NewPage(page_id)` of the pool: the disk manager hands out the next page
id and the frame taken for it has pin count 1. -/
def newPage (s : PinnedTree) : PinnedTree × Int :=
  ({ s with tree := s.tree.NewPage.1,
            pins := fun q => if q = s.tree.next_page_id then 1 else s.pins q },
   s.tree.next_page_id)

/-- `DeletePage(page_id)` of the pool: it is refused for a pinned page and
frees the frame of a page without pins, so no pin count changes. -/
def deletePage (s : PinnedTree) (page_id : Int) : PinnedTree :=
  { s with delete_calls := s.delete_calls ++ [page_id] }

/-- A write through a page pointer. -/
def write (s : PinnedTree) (pid : Int) (p : BPlusTreePage) : PinnedTree :=
  { s with tree := s.tree.setPage pid p }

/-- `transaction->AddIntoPageSet(page)`. -/
def AddIntoPageSet (s : PinnedTree) (pid : Int) : PinnedTree :=
  { s with page_set := s.page_set ++ [pid] }

/-- `transaction->AddIntoDeletedPageSet(page_id)`. -/
def AddIntoDeletedPageSet (s : PinnedTree) (pid : Int) : PinnedTree :=
  { s with deleted_page_set :=
      if pid ∈ s.deleted_page_set then s.deleted_page_set else s.deleted_page_set ++ [pid] }

/-- The loop of `FreePagesInTransaction` over the page set. -/
def freeLoop (s : PinnedTree) : List Int → PinnedTree
  | [] => s
  | pid :: rest =>
    let s1 := s.unpin pid
    let s2 := if pid ∈ s1.deleted_page_set then
        { (s1.deletePage pid) with deleted_page_set := s1.deleted_page_set.erase pid }
      else s1
    freeLoop s2 rest

/-- `FreePagesInTransaction(exclusive, transaction, cur)` for a transaction. -/
def FreePagesInTransaction (s : PinnedTree) : PinnedTree :=
  { (freeLoop s s.page_set) with page_set := [] }

/-- `UpdateRootPageId(insert_record)`: the header page is fetched, written and
unpinned. -/
def UpdateRootPageId (s : PinnedTree) (insert_record : Bool) : PinnedTree :=
  let s1 := s.fetch HEADER_PAGE_ID
  let s2 := { s1 with tree := s1.tree.UpdateRootPageId insert_record }
  s2.unpin HEADER_PAGE_ID

/-- `CrabingProtocalFetchPage(page_id, op, previous, transaction)`. -/
def CrabingProtocalFetchPage (s : PinnedTree) (page_id : Int) (op : OpType) (previous : Int) :
    Option PinnedTree :=
  let exclusive : Bool := op != OpType.READ
  let s1 := s.fetch page_id
  match s1.tree.pages page_id with
  | none => none
  | some treePage =>
    let s2 := if previous > 0 ∧ (!exclusive ∨ treePage.IsSafe op) then
        s1.FreePagesInTransaction
      else s1
    some (s2.AddIntoPageSet page_id)

/-- The loop of `FindLeafPage`; the page `cur` has been fetched. -/
def findLeafLoop (key : Int) (leftMost : Bool) (op : OpType) :
    Nat → PinnedTree → Int → Option (PinnedTree × Int)
  | 0, _, _ => none
  | fuel + 1, s, cur =>
    match s.tree.pages cur with
    | none => none
    | some (.leaf _) => some (s, cur)
    | some (.internal ip) =>
      match (if leftMost then ip.ValueAt 0 else ip.Lookup key) with
      | none => none
      | some next =>
        match s.CrabingProtocalFetchPage next op cur with
        | none => none
        | some s1 => findLeafLoop key leftMost op fuel s1 next

/-- `FindLeafPage(key, leftMost, op, transaction)`: the leaf, `none` for the
null pointer of the empty tree. -/
def FindLeafPage (s : PinnedTree) (key : Int) (leftMost : Bool) (op : OpType) (fuel : Nat) :
    Option (PinnedTree × Option Int) :=
  if s.tree.IsEmpty then some (s, none)
  else
    match s.CrabingProtocalFetchPage s.tree.root_page_id op (-1) with
    | none => none
    | some s1 =>
      (findLeafLoop key leftMost op fuel s1 s.tree.root_page_id).map (fun r => (r.1, some r.2))

/-- `GetValue(key, result, transaction)`: `none` is the result `false`. -/
def GetValue (s : PinnedTree) (key : Int) (fuel : Nat) : Option (PinnedTree × Option Int) :=
  match s.FindLeafPage key false OpType.READ fuel with
  | none => none
  | some (s1, none) => some (s1, none)
  | some (s1, some leafId) =>
    match s1.tree.getLeaf leafId with
    | none => none
    | some leaf => some (s1.FreePagesInTransaction, leaf.Lookup key)

/-- `StartNewTree(key, value)`. -/
def StartNewTree (s : PinnedTree) (key value : Int) : PinnedTree :=
  let (s1, pid) := s.newPage
  let s2 := { s1 with tree := { s1.tree with root_page_id := pid } }
  let s3 := s2.UpdateRootPageId true
  let root := BPlusTreeLeafPage.Init pid INVALID_PAGE_ID s.tree.leaf_max_size
  (s3.write pid (.leaf (root.Insert key value))).unpin pid

/-- `Split(node, transaction)` for a leaf page: the new page joins the page
set. -/
def SplitLeaf (s : PinnedTree) (nodeId : Int) : Option (PinnedTree × Int) :=
  let (s1, pid) := s.newPage
  let s2 := s1.AddIntoPageSet pid
  let new_node := BPlusTreeLeafPage.Init pid INVALID_PAGE_ID s.tree.leaf_max_size
  match s2.tree.getLeaf nodeId with
  | none => none
  | some node =>
    match node.MoveHalfTo new_node with
    | none => none
    | some (node1, new_node1) =>
      some ((s2.write pid (.leaf new_node1)).write nodeId (.leaf node1), pid)

/-- The body of the loops that give a moved child its new parent:
`FetchPage(array[i].second)`, `SetParentPageId`, `UnpinPage(array[i].second)`. -/
def setParent (s : PinnedTree) (pid parent : Int) : Option PinnedTree :=
  let s1 := s.fetch pid
  match s1.tree.pages pid with
  | none => none
  | some p => some ((s1.write pid (p.SetParentPageId parent)).unpin pid)

/-- The loop of `MoveHalfTo` and `MoveAllTo` of an internal page over the
moved entries. -/
def reparentAll (s : PinnedTree) : List (Int × Int) → Int → Option PinnedTree
  | [], _ => some s
  | e :: rest, parent =>
    match s.setParent e.2 parent with
    | some s1 => reparentAll s1 rest parent
    | none => none

/-- `BPlusTreeInternalPage::MoveHalfTo(recipient, bpm)` of the page `thisId`. -/
def internalMoveHalfTo (s : PinnedTree) (thisId recipId : Int) : Option PinnedTree :=
  match s.tree.getInternal thisId, s.tree.getInternal recipId with
  | some p, some r =>
    let oldSize := p.max_size + 1
    let now := oldSize / 2
    if p.array.length < oldSize then none
    else
      let moved := (p.array.take oldSize).drop now
      match s.reparentAll moved r.page_id with
      | none => none
      | some s1 =>
        match s1.tree.getInternal thisId, s1.tree.getInternal recipId with
        | some p1, some r1 =>
          some ((s1.write recipId (.internal { r1 with array := moved })).write thisId
            (.internal { p1 with array := p.array.take now }))
        | _, _ => none
  | _, _ => none

/-- `Split(node, transaction)` for an internal page. -/
def SplitInternal (s : PinnedTree) (nodeId : Int) : Option (PinnedTree × Int) :=
  let (s1, pid) := s.newPage
  let s2 := s1.AddIntoPageSet pid
  let new_node := BPlusTreeInternalPage.Init pid INVALID_PAGE_ID s.tree.internal_max_size
  match (s2.write pid (.internal new_node)).internalMoveHalfTo nodeId pid with
  | none => none
  | some s3 => some (s3, pid)

/-- `InsertIntoParent(old_node, key, new_node, transaction)`. -/
def InsertIntoParent : Nat → PinnedTree → Int → Int → Int → Option PinnedTree
  | 0, _, _, _, _ => none
  | fuel + 1, s, oldId, key, newId =>
    match s.tree.pages oldId, s.tree.pages newId with
    | some old_node, some new_node =>
      if old_node.IsRootPage then
        let (s1, pid) := s.newPage
        let s2 := { s1 with tree := { s1.tree with root_page_id := pid } }
        let root := (BPlusTreeInternalPage.Init pid INVALID_PAGE_ID
          s.tree.internal_max_size).PopulateNewRoot old_node.GetPageId key new_node.GetPageId
        let s3 := s2.write pid (.internal root)
        match s3.tree.setParent oldId pid with
        | none => none
        | some t4 =>
          match t4.setParent newId pid with
          | none => none
          | some t5 =>
            some ((({ s3 with tree := t5 }).UpdateRootPageId false).unpin root.page_id)
      else
        let parent_id := old_node.GetParentPageId
        let s1 := s.fetch parent_id
        match s1.tree.setParent newId parent_id with
        | none => none
        | some t1 =>
          match t1.getInternal parent_id with
          | none => none
          | some parent =>
            match parent.InsertNodeAfter old_node.GetPageId key new_node.GetPageId with
            | none => none
            | some parent1 =>
              let s2 := ({ s1 with tree := t1 }).write parent_id (.internal parent1)
              if parent1.array.length > parent1.max_size then
                match s2.SplitInternal parent_id with
                | none => none
                | some (s3, new_leaf) =>
                  match s3.tree.getInternal new_leaf with
                  | none => none
                  | some np =>
                    match np.KeyAt 0 with
                    | none => none
                    | some k0 =>
                      (InsertIntoParent fuel s3 parent_id k0 new_leaf).map
                        (fun s4 => s4.unpin parent_id)
              else some (s2.unpin parent_id)
    | _, _ => none

/-- `InsertIntoLeaf(key, value, transaction)`. -/
def InsertIntoLeaf (s : PinnedTree) (key value : Int) (fuel : Nat) :
    Option (PinnedTree × Bool) :=
  match s.FindLeafPage key false OpType.INSERT fuel with
  | none => none
  | some (s1, none) => some (s1, false)
  | some (s1, some leafId) =>
    match s1.tree.getLeaf leafId with
    | none => none
    | some leaf =>
      match leaf.Lookup key with
      | some _ => some (s1.FreePagesInTransaction, false)
      | none =>
        let leaf1 := leaf.Insert key value
        let s2 := s1.write leafId (.leaf leaf1)
        if leaf1.array.length > leaf1.max_size then
          match s2.SplitLeaf leafId with
          | none => none
          | some (s3, newLeaf) =>
            match s3.tree.getLeaf newLeaf with
            | none => none
            | some nl =>
              match nl.KeyAt 0 with
              | none => none
              | some k0 =>
                (InsertIntoParent fuel s3 leafId k0 newLeaf).map
                  (fun s4 => (s4.FreePagesInTransaction, true))
        else some (s2.FreePagesInTransaction, true)

/-- `Insert(key, value, transaction)`. -/
def Insert (s : PinnedTree) (key value : Int) (fuel : Nat) : Option (PinnedTree × Bool) :=
  if s.tree.IsEmpty then some (s.StartNewTree key value, true)
  else s.InsertIntoLeaf key value fuel

/-- `BPlusTreeLeafPage::MoveFirstToEndOf(recipient, bpm)` of the page `thisId`. -/
def leafMoveFirstToEndOf (s : PinnedTree) (thisId recipId : Int) : Option PinnedTree :=
  match s.tree.getLeaf thisId with
  | none => none
  | some p =>
    match p.array with
    | [] => none
    | theItem :: rest =>
      let s1 := s.write thisId (.leaf { p with array := rest })
      match s1.tree.getLeaf recipId with
      | none => none
      | some r =>
        let s2 := s1.write recipId (.leaf (r.CopyLastFrom theItem))
        let s3 := s2.fetch p.parent_page_id
        match s3.tree.getInternal p.parent_page_id with
        | none => none
        | some parent =>
          match parent.SetKeyAt (parent.ValueIndex p.page_id) theItem.1 with
          | none => none
          | some parent1 =>
            some ((s3.write p.parent_page_id (.internal parent1)).unpin p.parent_page_id)

/-- `BPlusTreeLeafPage::MoveLastToFrontOf(recipient, parentIndex, bpm)` of the
page `thisId`, with the `CopyFirstFrom` it calls on the recipient. -/
def leafMoveLastToFrontOf (s : PinnedTree) (thisId recipId : Int) (parentIndex : Int) :
    Option PinnedTree :=
  match s.tree.getLeaf thisId with
  | none => none
  | some p =>
    match p.array.getLast? with
    | none => none
    | some pair =>
      let s1 := s.write thisId (.leaf { p with array := p.array.dropLast })
      match s1.tree.getLeaf recipId with
      | none => none
      | some r =>
        let s2 := s1.write recipId (.leaf { r with array := pair :: r.array })
        let s3 := s2.fetch r.parent_page_id
        match s3.tree.getInternal r.parent_page_id with
        | none => none
        | some parent =>
          match parent.SetKeyAt parentIndex pair.1 with
          | none => none
          | some parent1 =>
            some ((s3.write r.parent_page_id (.internal parent1)).unpin r.parent_page_id)

/-- `BPlusTreeInternalPage::MoveAllTo(recipient, index_in_parent, bpm)` of the
page `thisId`; the parent is unpinned under its own page id. -/
def internalMoveAllTo (s : PinnedTree) (thisId recipId : Int) (index_in_parent : Int) :
    Option PinnedTree :=
  match s.tree.getInternal thisId, s.tree.getInternal recipId with
  | some p, some r =>
    let s0 := s.fetch p.parent_page_id
    match s0.tree.getInternal p.parent_page_id with
    | none => none
    | some parent =>
      match parent.KeyAt index_in_parent with
      | none => none
      | some sep =>
        match p.SetKeyAt 0 sep with
        | none => none
        | some p1 =>
          match ((s0.write thisId (.internal p1)).unpin parent.page_id).reparentAll p1.array
              r.page_id with
          | none => none
          | some s1 =>
            match s1.tree.getInternal thisId, s1.tree.getInternal recipId with
            | some p2, some r2 =>
              if r.array.length + p1.array.length ≤ p.max_size then
                some ((s1.write recipId (.internal { r2 with array := r.array ++ p1.array })).write
                  thisId (.internal { p2 with array := [] }))
              else none
            | _, _ => none
  | _, _ => none

/-- The child hand-over of `MoveFirstToEndOf` and `CopyFirstFrom` of an
internal page: `FetchPage(pid)`, `SetParentPageId`, and `UnpinPage` under the
page id the child holds. -/
def adoptChild (s : PinnedTree) (pid parent : Int) : Option PinnedTree :=
  let s1 := s.fetch pid
  match s1.tree.pages pid with
  | none => none
  | some child =>
    some ((s1.write pid (child.SetParentPageId parent)).unpin
      (child.SetParentPageId parent).GetPageId)

/-- `BPlusTreeInternalPage::MoveFirstToEndOf(recipient, bpm)` of the page
`thisId`. -/
def internalMoveFirstToEndOf (s : PinnedTree) (thisId recipId : Int) : Option PinnedTree :=
  match s.tree.getInternal thisId with
  | none => none
  | some p =>
    match p.array with
    | [] => none
    | pair :: rest =>
      let s1 := s.write thisId (.internal { p with array := rest })
      match s1.tree.getInternal recipId with
      | none => none
      | some r =>
        match r.CopyLastFrom pair with
        | none => none
        | some r1 =>
          let s2 := s1.write recipId (.internal r1)
          match s2.adoptChild pair.2 r.page_id with
          | none => none
          | some s3 =>
            let s4 := s3.fetch p.parent_page_id
            match s4.tree.getInternal p.parent_page_id, rest.head? with
            | some parent, some first =>
              match parent.SetKeyAt (parent.ValueIndex p.page_id) first.1 with
              | none => none
              | some parent1 =>
                some ((s4.write p.parent_page_id (.internal parent1)).unpin p.parent_page_id)
            | _, _ => none

/-- `BPlusTreeInternalPage::MoveLastToFrontOf(recipient, parent_index, bpm)` of
the page `thisId`, with the `CopyFirstFrom` it calls on the recipient. -/
def internalMoveLastToFrontOf (s : PinnedTree) (thisId recipId : Int) (parent_index : Int) :
    Option PinnedTree :=
  match s.tree.getInternal thisId with
  | none => none
  | some p =>
    match p.array.getLast? with
    | none => none
    | some tmp =>
      let s1 := s.write thisId (.internal { p with array := p.array.dropLast })
      match s1.tree.getInternal recipId with
      | none => none
      | some r =>
        if r.array.length + 1 < r.max_size then
          let s2 := s1.write recipId (.internal { r with array := tmp :: r.array })
          match s2.adoptChild tmp.2 r.page_id with
          | none => none
          | some s3 =>
            let s4 := s3.fetch r.parent_page_id
            match s4.tree.getInternal r.parent_page_id with
            | none => none
            | some parent =>
              match parent.SetKeyAt parent_index tmp.1 with
              | none => none
              | some parent1 =>
                some ((s4.write r.parent_page_id (.internal parent1)).unpin r.parent_page_id)
        else none

/-- `AdjustRoot(old_root_node)`: whether the root page is to be deleted. -/
def AdjustRoot (s : PinnedTree) (oldRootId : Int) : Option (PinnedTree × Bool) :=
  match s.tree.pages oldRootId with
  | none => none
  | some (.leaf p) =>
    if p.array.length = 0 then
      some (({ s with tree := { s.tree with root_page_id := INVALID_PAGE_ID } }).UpdateRootPageId
        false, true)
    else some (s, false)
  | some (.internal p) =>
    if p.array.length = 1 then
      match p.RemoveAndReturnOnlyChild with
      | none => none
      | some (p1, child) =>
        let s1 := s.write oldRootId (.internal p1)
        let s2 := { s1 with tree := { s1.tree with root_page_id := child } }
        let s3 := s2.UpdateRootPageId false
        let s4 := s3.fetch child
        match s4.tree.setParent child INVALID_PAGE_ID with
        | none => none
        | some t5 => some ((({ s4 with tree := t5 }).unpin child), true)
    else some (s, false)

/-- `FindLeftSibling(node, sibling, transaction)`: the sibling, which joins the
page set, and whether it is the right one; the parent is unpinned under its
own page id. -/
def FindLeftSibling (s : PinnedTree) (nodeId : Int) : Option (PinnedTree × Int × Bool) :=
  match s.tree.pages nodeId with
  | none => none
  | some node =>
    let s1 := s.fetch node.GetParentPageId
    match s1.tree.getInternal node.GetParentPageId with
    | none => none
    | some parent =>
      let index := parent.ValueIndex node.GetPageId
      let siblingIndex := if index = 0 then index + 1 else index - 1
      match parent.ValueAt siblingIndex with
      | none => none
      | some sibling =>
        match s1.CrabingProtocalFetchPage sibling OpType.DELETE (-1) with
        | none => none
        | some s2 => some (s2.unpin parent.page_id, sibling, index == 0)

/-- `Redistribute(neighbor_node, node, index)`. -/
def Redistribute (s : PinnedTree) (neighborId nodeId : Int) (index : Int) : Option PinnedTree :=
  match s.tree.pages neighborId, s.tree.pages nodeId with
  | some (.leaf _), some (.leaf _) =>
    if index = 0 then s.leafMoveFirstToEndOf neighborId nodeId
    else s.leafMoveLastToFrontOf neighborId nodeId index
  | some (.internal _), some (.internal _) =>
    if index = 0 then s.internalMoveFirstToEndOf neighborId nodeId
    else s.internalMoveLastToFrontOf neighborId nodeId index
  | _, _ => none

/-- `Coalesce(neighbor_node, node, parent, index, transaction)`; `cor` is the
recursive call of `CoalesceOrRedistribute` on the parent. -/
def Coalesce (cor : PinnedTree → Int → Option (PinnedTree × Bool)) (s : PinnedTree)
    (neighborId nodeId parentId : Int) (index : Int) : Option (PinnedTree × Bool) :=
  let moved : Option PinnedTree :=
    match s.tree.pages nodeId, s.tree.pages neighborId with
    | some (.leaf n), some (.leaf nb) => some (s.write neighborId (.leaf (n.MoveAllTo nb)))
    | some (.internal _), some (.internal _) => s.internalMoveAllTo nodeId neighborId index
    | _, _ => none
  match moved with
  | none => none
  | some s1 =>
    match s1.tree.pages nodeId with
    | none => none
    | some node =>
      let s2 := s1.AddIntoDeletedPageSet node.GetPageId
      match s2.tree.getInternal parentId with
      | none => none
      | some parent =>
        match parent.Remove index with
        | none => none
        | some parent1 =>
          let s3 := s2.write parentId (.internal parent1)
          if parent1.array.length ≤ (BPlusTreePage.internal parent1).GetMinSize then
            cor s3 parentId
          else some (s3, false)

/-- `CoalesceOrRedistribute(node, transaction)`; the parent is unpinned under
its own page id. -/
def CoalesceOrRedistribute : Nat → PinnedTree → Int → Option (PinnedTree × Bool)
  | 0, _, _ => none
  | fuel + 1, s, nodeId =>
    match s.tree.pages nodeId with
    | none => none
    | some node =>
      if node.IsRootPage then
        match s.AdjustRoot nodeId with
        | none => none
        | some (s1, old_root) =>
          some (if old_root then s1.AddIntoDeletedPageSet node.GetPageId else s1, old_root)
      else
        match s.FindLeftSibling nodeId with
        | none => none
        | some (s1, node2Id, isRightSib) =>
          let s2 := s1.fetch node.GetParentPageId
          match s2.tree.pages node2Id, s2.tree.getInternal node.GetParentPageId with
          | some node2, some parentPage =>
            if node.IsLeafPage = node2.IsLeafPage then
              if node.GetSize + node2.GetSize ≤ node.GetMaxSize then
                let right := if isRightSib then node2 else node
                let rightId := if isRightSib then node2Id else nodeId
                let leftId := if isRightSib then nodeId else node2Id
                let removeIndex := parentPage.ValueIndex right.GetPageId
                (Coalesce (CoalesceOrRedistribute fuel) s2 leftId rightId
                  node.GetParentPageId removeIndex).map
                    (fun r => (r.1.unpin parentPage.page_id, true))
              else
                let nodeInParentIndex := parentPage.ValueIndex node.GetPageId
                (s2.Redistribute node2Id nodeId nodeInParentIndex).map
                  (fun s3 => (s3.unpin parentPage.page_id, false))
            else none
          | _, _ => none

/-- `Remove(key, transaction)`. -/
def Remove (s : PinnedTree) (key : Int) (fuel : Nat) : Option PinnedTree :=
  if s.tree.IsEmpty then some s
  else
    match s.FindLeafPage key false OpType.DELETE fuel with
    | some (s1, some leafId) =>
      match s1.tree.getLeaf leafId with
      | none => none
      | some leaf =>
        let leaf1 := leaf.RemoveAndDeleteRecord key
        let s2 := s1.write leafId (.leaf leaf1)
        if leaf1.array.length < (BPlusTreePage.leaf leaf1).GetMinSize then
          (CoalesceOrRedistribute fuel s2 leafId).map (fun r => r.1.FreePagesInTransaction)
        else some s2.FreePagesInTransaction
    | _ => none

end PinnedTree

/-- A call of a client of the index. -/
inductive TreeOp where
  | get_value (key : Int)
  | insert (key value : Int)
  | remove (key : Int)
deriving DecidableEq, Repr

/-- The index after one call of a client; the results of the calls are
dropped. -/
def PinnedTree.exec (s : PinnedTree) (fuel : Nat) : TreeOp → Option PinnedTree
  | .get_value key => (s.GetValue key fuel).map Prod.fst
  | .insert key value => (s.Insert key value fuel).map Prod.fst
  | .remove key => s.Remove key fuel

/-- The index after the calls `ops` of a client, the first call first. -/
def PinnedTree.execAll (s : PinnedTree) (fuel : Nat) : List TreeOp → Option PinnedTree
  | [] => some s
  | op :: rest =>
    match s.exec fuel op with
    | none => none
    | some s1 => s1.execAll fuel rest

/-- The store after one call of a client of the index, pin counts and
transaction left aside. -/
def BPlusTree.exec (t : BPlusTree) (fuel : Nat) : TreeOp → Option BPlusTree
  | .get_value key => (t.GetValue key fuel).map (fun _ => t)
  | .insert key value => (t.Insert key value fuel).map Prod.fst
  | .remove key => t.Remove key fuel

/-- The index `t` on a pool in which no frame is pinned, with a transaction
that holds no page. -/
def PinnedTree.idle (t : BPlusTree) : PinnedTree :=
  { tree := t, pins := fun _ => 0, page_set := [], deleted_page_set := [], delete_calls := [] }

/-- Every page is stored under the page id it holds, the ids in use have been
handed out by the disk manager, and the header page has been allocated before
the pages of the index. -/
def BPlusTree.Stored (t : BPlusTree) : Prop :=
  (∀ pid p, t.pages pid = some p → p.GetPageId = pid ∧ pid < t.next_page_id) ∧
    HEADER_PAGE_ID < t.next_page_id

/-- A pin more on the page `pid`. -/
def bump (base : Int → Int) (pid : Int) : Int → Int :=
  fun q => if q = pid then base q + 1 else base q

/-- The pin counts are accounted for: the frame of a page has the pins `base`
of the routines that are still at work on it and one pin for each time the
page is in the page set; a page id that has not been handed out yet has no
pin. -/
structure PinnedTree.Good (s : PinnedTree) (base : Int → Int) : Prop where
  stored : s.tree.Stored
  acc : ∀ p, s.pins p = base p + s.page_set.count p
  fresh : ∀ p, s.tree.next_page_id ≤ p → base p = 0 ∧ p ∉ s.page_set

/-! ## Output arguments of the page routines -/

/-- `Lookup(key, value, comparator)` of the leaf page with its output argument:
the result and what `value` holds afterwards; `value` is assigned only on the
way to `return true`. -/
def BPlusTreeLeafPage.LookupInto (p : BPlusTreeLeafPage) (key : Int) (value : Int) :
    Bool × Int :=
  match p.array.head?, p.array.getLast? with
  | some first, some last =>
    if comparator key first.1 < 0 ∨ comparator key last.1 > 0 then (false, value)
    else
      match p.array.get? (p.KeyIndex key) with
      | some e => if comparator e.1 key = 0 then (true, e.2) else (false, value)
      | none => (false, value)
  | _, _ => (false, value)

/-! ## The directory of the hash table as a dispatch on the low hash bits -/

/-- The directory dispatches on the low bits of the hash: no bucket holds more
than `bucketVolume` entries, the slots that point to a bucket are the slots
that agree in the low `localDepth` bits of the bucket, and the hash of every
key of the bucket has these bits. -/
structure ExtendibleHash.Routed {V : Type} (eh : ExtendibleHash V) : Prop where
  size_le : ∀ b ∈ eh.buckets, b.kvmap.length ≤ eh.bucketVolume
  agree : ∀ i j bi b, eh.bucketTable[i]? = some bi → eh.bucketTable[j]? = some bi →
    eh.buckets[bi]? = some b → i % 2 ^ b.localDepth = j % 2 ^ b.localDepth
  cover : ∀ i j bi b, eh.bucketTable[i]? = some bi → eh.buckets[bi]? = some b →
    j < eh.bucketTable.length → i % 2 ^ b.localDepth = j % 2 ^ b.localDepth →
    eh.bucketTable[j]? = some bi
  slot : ∀ i bi b, eh.bucketTable[i]? = some bi → eh.buckets[bi]? = some b →
    ∀ key ∈ b.kvmap.map Prod.fst,
      ExtendibleHash.HashKey key % 2 ^ b.localDepth = i % 2 ^ b.localDepth

/-! ## Buffer pool manager: runs with valid and with fresh page ids -/

namespace BufferPoolManager

/-- The pool states that arise from a fresh pool by the public operations when
every page id passed to `FetchPage` and every page id the disk manager hands
out to `NewPage` is valid, that is, not `INVALID_PAGE_ID`. -/
inductive ReachableValid : BufferPoolManager → Prop
  | init (pool_size page_size bucket_size : Nat) (disk : DiskManager) :
      ReachableValid (new pool_size page_size bucket_size disk)
  | fetch {s s1 : BufferPoolManager} {r : Option Nat} (page_id : Int) :
      ReachableValid s → page_id ≠ INVALID_PAGE_ID → s.FetchPage page_id = some (s1, r) →
      ReachableValid s1
  | unpin {s : BufferPoolManager} (page_id : Int) (is_dirty : Bool) :
      ReachableValid s → ReachableValid (s.UnpinPage page_id is_dirty).1
  | flush {s s1 : BufferPoolManager} {r : Bool} (page_id : Int) :
      ReachableValid s → s.FlushPage page_id = some (s1, r) → ReachableValid s1
  | newPage {s s1 : BufferPoolManager} {r : Option (Nat × Int)} :
      ReachableValid s → s.disk.next_page_id ≠ INVALID_PAGE_ID → s.NewPage = some (s1, r) →
      ReachableValid s1
  | delete {s : BufferPoolManager} (page_id : Int) :
      ReachableValid s → ReachableValid (s.DeletePage page_id).1
  | write {s : BufferPoolManager} (f : Nat) (bytes : List Nat) :
      ReachableValid s → 0 < (s.pages f).pin_count → ReachableValid (s.writeData f bytes)

/-- The pool states that arise from a fresh pool by the public operations when
the disk manager hands out fresh page ids: the page id that `NewPage` gets
from `AllocatePage` is not in the page table. -/
inductive ReachableFresh : BufferPoolManager → Prop
  | init (pool_size page_size bucket_size : Nat) (disk : DiskManager) :
      ReachableFresh (new pool_size page_size bucket_size disk)
  | fetch {s s1 : BufferPoolManager} {r : Option Nat} (page_id : Int) :
      ReachableFresh s → s.FetchPage page_id = some (s1, r) → ReachableFresh s1
  | unpin {s : BufferPoolManager} (page_id : Int) (is_dirty : Bool) :
      ReachableFresh s → ReachableFresh (s.UnpinPage page_id is_dirty).1
  | flush {s s1 : BufferPoolManager} {r : Bool} (page_id : Int) :
      ReachableFresh s → s.FlushPage page_id = some (s1, r) → ReachableFresh s1
  | newPage {s s1 : BufferPoolManager} {r : Option (Nat × Int)} :
      ReachableFresh s → s.page_table.Find s.disk.next_page_id = none →
      s.NewPage = some (s1, r) → ReachableFresh s1
  | delete {s : BufferPoolManager} (page_id : Int) :
      ReachableFresh s → ReachableFresh (s.DeletePage page_id).1
  | write {s : BufferPoolManager} (f : Nat) (bytes : List Nat) :
      ReachableFresh s → 0 < (s.pages f).pin_count → ReachableFresh (s.writeData f bytes)

/-- Every frame outside the free list holds a page. -/
def Occupied (s : BufferPoolManager) : Prop :=
  ∀ f, f < s.pool_size → f ∉ s.free_list → (s.pages f).page_id ≠ INVALID_PAGE_ID

/-- Every frame that holds a page is the frame the page table has for that
page. -/
def Mapped (s : BufferPoolManager) : Prop :=
  ∀ f, f < s.pool_size → (s.pages f).page_id ≠ INVALID_PAGE_ID →
    s.page_table.Find (s.pages f).page_id = some f

end BufferPoolManager

/-! ## LRU replacer: the nodes of the linked list

The replacer once more, now with the nodes of the doubly linked list and the
pointers between them.  A `shared_ptr<LinkedNode>` is the address of a node,
`none` the null pointer, and a dereference of the null pointer has no result.
The values are frame numbers, as a key of `mp` a value is an integer. -/

/-- `LinkedNode` of `lru_replacer.h`. -/
structure LinkedNode where
  value : Nat
  pre : Option Nat
  next : Option Nat
deriving DecidableEq, Repr

/-- State of `LRUReplacer<T>` with its nodes. -/
structure LinkedLRU where
  /-- the nodes that `make_shared` has made, by address -/
  nodes : Nat → Option LinkedNode
  /-- the number of nodes made so far, which is the address of the next one -/
  fresh : Nat
  head : Option Nat
  tail : Option Nat
  siz : Int
  /-- the entries of `mp`, value and node, in key order -/
  mp : List (Int × Nat)

namespace LinkedLRU

/-- The replacer the constructor builds. -/
def empty : LinkedLRU :=
  { nodes := fun _ => none, fresh := 0, head := none, tail := none, siz := 0, mp := [] }

/-- The node behind the pointer `a`. -/
def node (r : LinkedLRU) (a : Option Nat) : Option LinkedNode :=
  match a with
  | none => none
  | some a => r.nodes a

/-- `a->pre = p`. -/
def setPre (r : LinkedLRU) (a : Option Nat) (p : Option Nat) : Option LinkedLRU :=
  match a with
  | none => none
  | some a =>
    match r.nodes a with
    | none => none
    | some n =>
      some { r with nodes := fun b => if b = a then some { n with pre := p } else r.nodes b }

/-- `a->next = p`. -/
def setNext (r : LinkedLRU) (a : Option Nat) (p : Option Nat) : Option LinkedLRU :=
  match a with
  | none => none
  | some a =>
    match r.nodes a with
    | none => none
    | some n =>
      some { r with nodes := fun b => if b = a then some { n with next := p } else r.nodes b }

/-- The four cases of the private `erase(value)` that take the node `ptr` out
of the list; `n` is the node `ptr` points to. -/
def unlink (r : LinkedLRU) (ptr : Nat) (n : LinkedNode) : Option LinkedLRU :=
  if some ptr = r.head ∧ some ptr = r.tail then
    some { r with head := none, tail := none }
  else if some ptr = r.head then
    match r.setPre n.next none with
    | none => none
    | some r1 => some { r1 with head := n.next }
  else if some ptr = r.tail then
    match r.setNext n.pre none with
    | none => none
    | some r1 => some { r1 with tail := n.pre }
  else
    match r.setNext n.pre n.next with
    | none => none
    | some r1 => r1.setPre n.next n.pre

/-- The private `erase(value)`: the replacer afterwards and the result. -/
def erase (r : LinkedLRU) (value : Nat) : Option (LinkedLRU × Bool) :=
  match mapFind r.mp value with
  | none => some (r, false)
  | some ptr =>
    match r.nodes ptr with
    | none => none
    | some n =>
      match r.unlink ptr n with
      | none => none
      | some r1 =>
        match r1.setPre (some ptr) none with
        | none => none
        | some r2 =>
          match r2.setNext (some ptr) none with
          | none => none
          | some r3 => some ({ r3 with mp := mapErase r3.mp value, siz := r3.siz - 1 }, true)

/-- `Insert(value)` behind its call of `erase`: a new node is made and linked
in front of the head. -/
def link (r : LinkedLRU) (value : Nat) : Option LinkedLRU :=
  let tar := r.fresh
  let r2 := { r with
    nodes := fun b =>
      if b = tar then some { value := value, pre := none, next := r.head } else r.nodes b,
    fresh := r.fresh + 1 }
  let linked := if r2.head ≠ none then r2.setPre r2.head (some tar) else some r2
  match linked with
  | none => none
  | some r3 =>
    let r4 := { r3 with head := some tar }
    let r5 := if r4.tail = none then { r4 with tail := some tar } else r4
    some { r5 with mp := mapSet r5.mp value tar, siz := r5.siz + 1 }

/-- `Insert(value)`. -/
def Insert (r : LinkedLRU) (value : Nat) : Option LinkedLRU :=
  match r.erase value with
  | none => none
  | some (r1, _) => r1.link value

/-- `Victim(value)`: the replacer afterwards and the victim, `none` for the
result `false`. -/
def Victim (r : LinkedLRU) : Option (LinkedLRU × Option Nat) :=
  if r.siz = 0 then some (r, none)
  else if r.head = r.tail then
    match r.node r.head with
    | none => none
    | some n =>
      some ({ r with head := none, tail := none, mp := mapErase r.mp n.value,
                     siz := r.siz - 1 }, some n.value)
  else
    match r.node r.tail with
    | none => none
    | some tmp =>
      match r.setNext tmp.pre none with
      | none => none
      | some r1 =>
        match ({ r1 with tail := tmp.pre }).setPre r.tail none with
        | none => none
        | some r2 =>
          some ({ r2 with mp := mapErase r2.mp tmp.value, siz := r2.siz - 1 },
                some tmp.value)

/-- `Erase(value)`. -/
def Erase (r : LinkedLRU) (value : Nat) : Option (LinkedLRU × Bool) :=
  match mapFind r.mp value with
  | none => some (r, false)
  | some _ => r.erase value

/-- `Size()`. -/
def Size (r : LinkedLRU) : Int := r.siz

end LinkedLRU

/-- A call of a client of the replacer that changes it. -/
inductive LRUCall where
  | insert (value : Nat)
  | victim
  | erase (value : Nat)
deriving DecidableEq, Repr

namespace LinkedLRU

/-- The replacer after one call of a client. -/
def call (r : LinkedLRU) : LRUCall → Option LinkedLRU
  | .insert value => r.Insert value
  | .victim => (r.Victim).map Prod.fst
  | .erase value => (r.Erase value).map Prod.fst

/-- The replacer after the calls `ops` of a client, the first call first. -/
def calls (r : LinkedLRU) : List LRUCall → Option LinkedLRU
  | [] => some r
  | op :: rest =>
    match r.call op with
    | none => none
    | some r1 => r1.calls rest

/-- The values of the nodes that are reached from `a` by `next` pointers, at
most `fuel` of them. -/
def walk (r : LinkedLRU) : Nat → Option Nat → List Nat
  | 0, _ => []
  | _ + 1, none => []
  | fuel + 1, some a =>
    match r.nodes a with
    | none => []
    | some n => n.value :: walk r fuel n.next

end LinkedLRU

/-- The list model of the replacer after one call of a client. -/
def LRUReplacer.call (r : LRUReplacer) : LRUCall → LRUReplacer
  | .insert value => r.Insert value
  | .victim => r.Victim.1
  | .erase value => (r.Erase value).1

/-- The list model of the replacer after the calls `ops`. -/
def LRUReplacer.calls (r : LRUReplacer) : List LRUCall → LRUReplacer
  | [] => r
  | op :: rest => (r.call op).calls rest

/-- The address of the first of the nodes `l`, and `last` when there is none. -/
def firstOr (l : List (Nat × Nat)) (last : Option Nat) : Option Nat :=
  match l with
  | [] => last
  | e :: _ => some e.1

/-- The address of the last of the nodes `l`, and `prev` when there is none. -/
def lastOr : List (Nat × Nat) → Option Nat → Option Nat
  | [], prev => prev
  | e :: rest, _ => lastOr rest (some e.1)

/-- The nodes `l`, address and value, are linked in this order: the first has
the `pre` pointer `prev`, the last the `next` pointer `last`, and each of the
others points to its neighbours. -/
def Seg (nodes : Nat → Option LinkedNode) : Option Nat → List (Nat × Nat) → Option Nat → Prop
  | _, [], _ => True
  | prev, e :: rest, last =>
    nodes e.1 = some { value := e.2, pre := prev, next := firstOr rest last } ∧
    Seg nodes (some e.1) rest last

/-- The list between `head` and `tail` consists of the nodes `l`, address and
value, in this order; no value and no node occurs twice; `mp` maps the values
of the list to their nodes and nothing else; `siz` is the length. -/
structure LinkedLRU.Linked (r : LinkedLRU) (l : List (Nat × Nat)) : Prop where
  head_eq : r.head = firstOr l none
  tail_eq : r.tail = lastOr l none
  seg : Seg r.nodes none l none
  addr_nodup : (l.map Prod.fst).Nodup
  val_nodup : (l.map Prod.snd).Nodup
  lt_fresh : ∀ e ∈ l, e.1 < r.fresh
  mp_sorted : (r.mp.map Prod.fst).Pairwise (· < ·)
  mp_find : ∀ (k : Int) (a : Nat),
    mapFind r.mp k = some a ↔ ∃ v : Nat, k = (v : Int) ∧ (a, v) ∈ l
  siz_eq : r.siz = l.length

/-! ## Stores used at concrete inputs -/

/-- A store with the internal page 1 of maximal size 4 that holds five entries
after an insertion, its five leaf children, and the fresh internal page 2 that
`Split` has initialised. -/
def BPlusTree.overfullInternal : BPlusTree :=
  ((((((BPlusTree.empty 4 4 20).setPage 11
    (.leaf { max_size := 4, parent_page_id := 1, page_id := 11, next_page_id := 12,
             array := [(1, 10), (2, 20)] })).setPage 12
    (.leaf { max_size := 4, parent_page_id := 1, page_id := 12, next_page_id := 13,
             array := [(10, 100), (11, 110)] })).setPage 13
    (.leaf { max_size := 4, parent_page_id := 1, page_id := 13, next_page_id := 14,
             array := [(20, 200), (21, 210)] })).setPage 14
    (.leaf { max_size := 4, parent_page_id := 1, page_id := 14, next_page_id := 15,
             array := [(30, 300), (31, 310)] })).setPage 15
    (.leaf { max_size := 4, parent_page_id := 1, page_id := 15, next_page_id := INVALID_PAGE_ID,
             array := [(40, 400), (41, 410)] })).setPage 1
    (.internal { max_size := 4, parent_page_id := INVALID_PAGE_ID, page_id := 1,
                 array := [(0, 11), (10, 12), (20, 13), (30, 14), (40, 15)] })
  |>.setPage 2 (.internal (BPlusTreeInternalPage.Init 2 INVALID_PAGE_ID 4))

/-! ## The mutexes of the hash table (`extendible_hash.cpp`)

`myLatch` guards the directory and every bucket has its own `latch`; both are
taken through `std::lock_guard`, which releases the mutex at the end of the
scope of the guard.  A bucket is named by its position in the arena. -/

/-- What a thread does to a mutex of the table. -/
inductive LockEvent where
  | lockDirectory
  | unlockDirectory
  | lockBucket (b : Nat)
  | unlockBucket (b : Nat)
deriving DecidableEq, Repr

/-- The mutexes a thread holds: `myLatch` and the latches of buckets. -/
structure HeldLocks where
  directory : Bool
  buckets : List Nat
deriving DecidableEq, Repr

namespace HeldLocks

/-- A thread that holds no mutex. -/
def nothing : HeldLocks := { directory := false, buckets := [] }

/-- The mutexes held after one event. -/
def after (h : HeldLocks) : LockEvent → HeldLocks
  | .lockDirectory => { h with directory := true }
  | .unlockDirectory => { h with directory := false }
  | .lockBucket b => { h with buckets := b :: h.buckets }
  | .unlockBucket b => { h with buckets := h.buckets.erase b }

/-- The mutexes held after the events of a list. -/
def afterAll (h : HeldLocks) : List LockEvent → HeldLocks
  | [] => h
  | e :: rest => (h.after e).afterAll rest

/-- Some event of the list takes `myLatch` while the latch of a bucket is
held. -/
def directoryUnderBucket (h : HeldLocks) : List LockEvent → Bool
  | [] => false
  | e :: rest =>
    (e == LockEvent.lockDirectory && !h.buckets.isEmpty) || (h.after e).directoryUnderBucket rest

/-- Some event of the list takes the latch of a bucket while `myLatch` or the
latch of a bucket is held. -/
def bucketUnderLock (h : HeldLocks) : List LockEvent → Bool
  | [] => false
  | e :: rest =>
    (match e with
      | .lockBucket _ => h.directory || !h.buckets.isEmpty
      | _ => false) || (h.after e).bucketUnderLock rest

end HeldLocks

namespace ExtendibleHash

variable {V : Type}

/-- The `while (true)` loop of `Insert(key, value)` with its lock guards;
`bi` is the bucket `tmpPtr` points to.  `lock1` on the latch of the bucket
lives to the end of the round, `lock2` on `myLatch` to the end of the block of
the split, and `getBucketId` takes `myLatch` for itself. -/
def insertLoopLocks : Nat → ExtendibleHash V → Nat → Int → V →
    Option (ExtendibleHash V × List LockEvent)
  | 0, _, _, _, _ => none
  | fuel + 1, eh, bi, key, value =>
    match eh.buckets.get? bi with
    | none => none
    | some tmp =>
      if (mapFind tmp.kvmap key).isSome ∨ tmp.kvmap.length < eh.bucketVolume then
        some ({ eh with buckets := eh.buckets.set bi { tmp with kvmap := mapSet tmp.kvmap key value } },
          [.lockBucket bi, .unlockBucket bi])
      else
        let eh1 := eh.split bi tmp
        match eh1.bucketTable.get? (eh1.getBucketId key) with
        | none => none
        | some bi1 =>
          (insertLoopLocks fuel eh1 bi1 key value).map (fun r =>
            (r.1, [LockEvent.lockBucket bi, .lockDirectory, .unlockDirectory,
                   .lockDirectory, .unlockDirectory, .unlockBucket bi] ++ r.2))

/-- `Insert(key, value)` with its lock guards: the table afterwards and what
the thread has done to the mutexes, in order. -/
def InsertLocks (eh : ExtendibleHash V) (key : Int) (value : V) :
    Option (ExtendibleHash V × List LockEvent) :=
  match eh.bucketTable.get? (eh.getBucketId key) with
  | none => none
  | some bi =>
    (insertLoopLocks 66 eh bi key value).map (fun r =>
      (r.1, [LockEvent.lockDirectory, .unlockDirectory] ++ r.2))

end ExtendibleHash

/-! ## The root latch and the calls of `FreePagesInTransaction`

The operations of `b_plus_tree.cpp` a third time, now with the root latch of
the index, the thread-local `rootLockedCnt`, and the dirty flag of the
`UnpinPage` calls that `FreePagesInTransaction` makes.  The routines that run
between the search and the final `FreePagesInTransaction` touch neither and
are taken from the section above.  `tx = false` stands for a null
`transaction`. -/

/-- The index with the root latch as the calling thread sees it. -/
structure LatchedTree where
  pinned : PinnedTree
  /-- `rootLockedCnt` of the calling thread -/
  rootLockedCnt : Int
  /-- how often the thread has acquired the root latch -/
  root_locks : Nat
  /-- how often the thread has released the root latch -/
  root_unlocks : Nat
  /-- the `UnpinPage(page_id, is_dirty)` calls of `FreePagesInTransaction`,
  the latest call last -/
  unpin_calls : List (Int × Bool)

namespace LatchedTree

/-- The index `t` with a thread that holds no latch, on a pool in which no
frame is pinned. -/
def idle (t : BPlusTree) : LatchedTree :=
  { pinned := PinnedTree.idle t, rootLockedCnt := 0, root_locks := 0, root_unlocks := 0,
    unpin_calls := [] }

/-- Modelled from the spec: `LockRootPageId(exclusive)` of `b_plus_tree.h`,
which is not among the sources; "Acquire the root latch (exclusive if op ∈
{INSERT, DELETE}, else shared)", counted in the "thread-local root-lock
count". -/
def LockRootPageId (s : LatchedTree) (_exclusive : Bool) : LatchedTree :=
  { s with rootLockedCnt := s.rootLockedCnt + 1, root_locks := s.root_locks + 1 }

/-- Modelled from the spec: `TryUnlockRootPageId(exclusive)` of
`b_plus_tree.h`, which is not among the sources; "Release the root latch (if
held)", "a thread-local counter avoids double-release". -/
def TryUnlockRootPageId (s : LatchedTree) (_exclusive : Bool) : LatchedTree :=
  if s.rootLockedCnt > 0 then
    { s with rootLockedCnt := s.rootLockedCnt - 1, root_unlocks := s.root_unlocks + 1 }
  else s

/-- `UnpinPage(page_id, is_dirty)` as `FreePagesInTransaction` calls it. -/
def UnpinPage (s : LatchedTree) (page_id : Int) (is_dirty : Bool) : LatchedTree :=
  { s with pinned := s.pinned.unpin page_id, unpin_calls := s.unpin_calls ++ [(page_id, is_dirty)] }

/-- The loop of `FreePagesInTransaction` over the page set. -/
def freeLoop (exclusive : Bool) : LatchedTree → List Int → LatchedTree
  | s, [] => s
  | s, pid :: rest =>
    let s1 := s.UnpinPage pid exclusive
    let s2 := if pid ∈ s1.pinned.deleted_page_set then
        { s1 with pinned :=
            { (s1.pinned.deletePage pid) with
                deleted_page_set := s1.pinned.deleted_page_set.erase pid } }
      else s1
    freeLoop exclusive s2 rest

/-- `FreePagesInTransaction(exclusive, transaction, cur)`. -/
def FreePagesInTransaction (s : LatchedTree) (exclusive tx : Bool) (cur : Int) : LatchedTree :=
  let s1 := s.TryUnlockRootPageId exclusive
  if tx then
    let s2 := freeLoop exclusive s1 s1.pinned.page_set
    { s2 with pinned := { s2.pinned with page_set := [] } }
  else s1.UnpinPage cur false

/-- `CrabingProtocalFetchPage(page_id, op, previous, transaction)`. -/
def CrabingProtocalFetchPage (s : LatchedTree) (page_id : Int) (op : OpType) (previous : Int)
    (tx : Bool) : Option LatchedTree :=
  let exclusive : Bool := op != OpType.READ
  let s1 := { s with pinned := s.pinned.fetch page_id }
  match s1.pinned.tree.pages page_id with
  | none => none
  | some treePage =>
    let s2 := if previous > 0 ∧ (!exclusive ∨ treePage.IsSafe op) then
        s1.FreePagesInTransaction exclusive tx previous
      else s1
    some (if tx then { s2 with pinned := s2.pinned.AddIntoPageSet page_id } else s2)

/-- The loop of `FindLeafPage`; the page `cur` has been fetched. -/
def findLeafLoop (key : Int) (leftMost : Bool) (op : OpType) (tx : Bool) :
    Nat → LatchedTree → Int → Option (LatchedTree × Int)
  | 0, _, _ => none
  | fuel + 1, s, cur =>
    match s.pinned.tree.pages cur with
    | none => none
    | some (.leaf _) => some (s, cur)
    | some (.internal ip) =>
      match (if leftMost then ip.ValueAt 0 else ip.Lookup key) with
      | none => none
      | some next =>
        match s.CrabingProtocalFetchPage next op cur tx with
        | none => none
        | some s1 => findLeafLoop key leftMost op tx fuel s1 next

/-- `FindLeafPage(key, leftMost, op, transaction)`: the leaf, `none` for the
null pointer of the empty tree. -/
def FindLeafPage (s : LatchedTree) (key : Int) (leftMost : Bool) (op : OpType) (tx : Bool)
    (fuel : Nat) : Option (LatchedTree × Option Int) :=
  let exclusive : Bool := op != OpType.READ
  let s0 := s.LockRootPageId exclusive
  if s0.pinned.tree.IsEmpty then some (s0.TryUnlockRootPageId exclusive, none)
  else
    match s0.CrabingProtocalFetchPage s0.pinned.tree.root_page_id op (-1) tx with
    | none => none
    | some s1 =>
      (findLeafLoop key leftMost op tx fuel s1 s0.pinned.tree.root_page_id).map
        (fun r => (r.1, some r.2))

/-- `GetValue(key, result, transaction)`: `none` is the result `false`. -/
def GetValue (s : LatchedTree) (key : Int) (tx : Bool) (fuel : Nat) :
    Option (LatchedTree × Option Int) :=
  match s.FindLeafPage key false OpType.READ tx fuel with
  | none => none
  | some (s1, none) => some (s1, none)
  | some (s1, some leafId) =>
    match s1.pinned.tree.getLeaf leafId with
    | none => none
    | some leaf => some (s1.FreePagesInTransaction false tx leaf.page_id, leaf.Lookup key)

/-- `InsertIntoLeaf(key, value, transaction)`. -/
def InsertIntoLeaf (s : LatchedTree) (key value : Int) (fuel : Nat) :
    Option (LatchedTree × Bool) :=
  match s.FindLeafPage key false OpType.INSERT true fuel with
  | none => none
  | some (s1, none) => some (s1, false)
  | some (s1, some leafId) =>
    match s1.pinned.tree.getLeaf leafId with
    | none => none
    | some leaf =>
      match leaf.Lookup key with
      | some _ => some (s1.FreePagesInTransaction true true (-1), false)
      | none =>
        let leaf1 := leaf.Insert key value
        let p2 := s1.pinned.write leafId (.leaf leaf1)
        if leaf1.array.length > leaf1.max_size then
          match p2.SplitLeaf leafId with
          | none => none
          | some (p3, newLeaf) =>
            match p3.tree.getLeaf newLeaf with
            | none => none
            | some nl =>
              match nl.KeyAt 0 with
              | none => none
              | some k0 =>
                (PinnedTree.InsertIntoParent fuel p3 leafId k0 newLeaf).map
                  (fun p4 => (({ s1 with pinned := p4 }).FreePagesInTransaction true true (-1), true))
        else some (({ s1 with pinned := p2 }).FreePagesInTransaction true true (-1), true)

/-- `Insert(key, value, transaction)`. -/
def Insert (s : LatchedTree) (key value : Int) (fuel : Nat) : Option (LatchedTree × Bool) :=
  let s0 := s.LockRootPageId true
  if s0.pinned.tree.IsEmpty then
    some (({ s0 with pinned := s0.pinned.StartNewTree key value }).TryUnlockRootPageId true, true)
  else (s0.TryUnlockRootPageId true).InsertIntoLeaf key value fuel

/-- The part of `Remove(key, transaction)` before its call of
`FreePagesInTransaction`. -/
def removeBody (s : LatchedTree) (key : Int) (fuel : Nat) : Option LatchedTree :=
  match s.FindLeafPage key false OpType.DELETE true fuel with
  | some (s1, some leafId) =>
    match s1.pinned.tree.getLeaf leafId with
    | none => none
    | some leaf =>
      let leaf1 := leaf.RemoveAndDeleteRecord key
      let p2 := s1.pinned.write leafId (.leaf leaf1)
      if leaf1.array.length < (BPlusTreePage.leaf leaf1).GetMinSize then
        (PinnedTree.CoalesceOrRedistribute fuel p2 leafId).map (fun r => { s1 with pinned := r.1 })
      else some { s1 with pinned := p2 }
  | _ => none

/-- `Remove(key, transaction)`. -/
def Remove (s : LatchedTree) (key : Int) (fuel : Nat) : Option LatchedTree :=
  if s.pinned.tree.IsEmpty then some s
  else (s.removeBody key fuel).map (fun s1 => s1.FreePagesInTransaction true true (-1))

/-- `Begin()`: `FindLeafPage(key, true)` runs with the operation `READ` and a
null transaction. -/
def Begin (s : LatchedTree) (fuel : Nat) : Option (LatchedTree × IndexIterator) :=
  let s0 := s.TryUnlockRootPageId false
  (s0.FindLeafPage 0 true OpType.READ false fuel).map
    (fun r => (r.1, { idx := 0, the_leaf := r.2 }))

/-- `Begin(key)`: `FindLeafPage(key)` runs with the operation `READ` and a
null transaction. -/
def BeginAt (s : LatchedTree) (key : Int) (fuel : Nat) : Option (LatchedTree × IndexIterator) :=
  match s.FindLeafPage key false OpType.READ false fuel with
  | none => none
  | some (s1, none) => some (s1.TryUnlockRootPageId false, { idx := 0, the_leaf := none })
  | some (s1, some leafId) =>
    match s1.pinned.tree.getLeaf leafId with
    | none => none
    | some leaf =>
      some (s1.TryUnlockRootPageId false, { idx := leaf.KeyIndex key, the_leaf := some leafId })

/-- A caller inserting the pairs of a list one after the other. -/
def insertAll (s : LatchedTree) (fuel : Nat) : List (Int × Int) → Option LatchedTree
  | [] => some s
  | kv :: rest =>
    match s.Insert kv.1 kv.2 fuel with
    | some (s1, _) => insertAll s1 fuel rest
    | none => none

end LatchedTree

/-- A thread without latches and a transaction whose page set is empty while
page 5 is scheduled for deletion. -/
def LatchedTree.scheduledOnly : LatchedTree :=
  { pinned :=
      { tree := BPlusTree.empty 4 4 1, pins := fun _ => 0, page_set := [],
        deleted_page_set := [5], delete_calls := [] },
    rootLockedCnt := 0, root_locks := 0, root_unlocks := 0, unpin_calls := [] }

/-! ## Extendible hash table: the directory arithmetic in 32-bit `int`

`Insert` computes `int mask = 1 << localDepth` and `getBucketId` computes
`(1 << globalDepth) - 1`, both in 32-bit `int`, and combines the result with a
64-bit `size_t` by `&`.  The definitions below follow these widths: the shift
count is taken modulo 32, as the x86-64 shift instruction does, `int`
arithmetic wraps around in two's complement, and an `int` that meets a
`size_t` is converted to 64 bits with its sign.  The definitions `getBucketId`
and `split` above take the power of two without overflow; the two readings
agree as long as no depth exceeds 30. -/

namespace ExtendibleHash

variable {V : Type}

/-- The value of an `int` expression: the result wrapped around to 32 bits in
two's complement. -/
def wrapInt32 (x : Int) : Int := (x + 2 ^ 31) % 2 ^ 32 - 2 ^ 31

/-- `1 << depth` on `int`: the shift count is taken modulo 32, and `1 << 31`
is `INT_MIN`. -/
def shiftOne (depth : Nat) : Int := wrapInt32 (2 ^ (depth % 32))

/-- Conversion of an `int` to the 64-bit `size_t`, as in `HashKey(key) & mask`
and `i & mask`. -/
def toSizeT (x : Int) : Nat := (x % 2 ^ 64).toNat

/-- `getBucketId(key)`: `HashKey(key) & ((1 << globalDepth) - 1)` with the
shift and the subtraction in `int`. -/
def getBucketId32 (eh : ExtendibleHash V) (key : Int) : Nat :=
  HashKey key &&& toSizeT (wrapInt32 (shiftOne eh.globalDepth - 1))

/-- `Find(key, value)` with `getBucketId` in `int`: the value when the result
is `true`. -/
def Find32 (eh : ExtendibleHash V) (key : Int) : Option V :=
  match eh.bucketAt (eh.getBucketId32 key) with
  | some b => mapFind b.kvmap key
  | none => none

/-- `Remove(key)` with `getBucketId` in `int`: the table afterwards and the
result. -/
def Remove32 (eh : ExtendibleHash V) (key : Int) : ExtendibleHash V × Bool :=
  match eh.bucketTable.get? (eh.getBucketId32 key) with
  | none => (eh, false)
  | some bi =>
    match eh.buckets.get? bi with
    | none => (eh, false)
    | some b =>
      match mapFind b.kvmap key with
      | none => (eh, false)
      | some _ =>
        ({ eh with buckets := eh.buckets.set bi { b with kvmap := mapErase b.kvmap key } }, true)

/-- The loop `for (size_t i = 0; i < bucketTable.size(); i++)` of a split:
the slot `i` of the split bucket points to the new bucket when `i & mask` is
not zero; `mask` is the `int` mask as a `size_t`, and the list is the
directory from slot `i` on. -/
def redirectFrom32 (old new mask : Nat) : List Nat → Nat → List Nat
  | [], _ => []
  | b :: rest, i =>
    (if b = old ∧ i &&& mask ≠ 0 then new else b) :: redirectFrom32 old new mask rest (i + 1)

/-- The split inside `Insert` of the full bucket `tmp` at position `bi` of the
arena, with `int mask = 1 << localDepth`: the directory doubles when the
bucket is as deep as the directory, the entries with `HashKey(key) & mask` not
zero move to a new bucket, and the slots `i` of the bucket with `i & mask` not
zero point to the new bucket. -/
def split32 (eh : ExtendibleHash V) (bi : Nat) (tmp : Bucket V) : ExtendibleHash V :=
  let mask := toSizeT (shiftOne tmp.localDepth)
  let depth := tmp.localDepth + 1
  let table1 := if depth > eh.globalDepth then eh.bucketTable ++ eh.bucketTable
    else eh.bucketTable
  let global1 := if depth > eh.globalDepth then eh.globalDepth + 1 else eh.globalDepth
  let newBuc : Bucket V :=
    { localDepth := depth,
      kvmap := tmp.kvmap.filter (fun e => HashKey e.1 &&& mask ≠ 0) }
  let tmp1 : Bucket V :=
    { localDepth := depth,
      kvmap := tmp.kvmap.filter (fun e => ¬ HashKey e.1 &&& mask ≠ 0) }
  { globalDepth := global1, bucketVolume := eh.bucketVolume,
    bucketCount := eh.bucketCount + 1,
    bucketTable := redirectFrom32 bi eh.buckets.length mask table1 0,
    buckets := eh.buckets.set bi tmp1 ++ [newBuc] }

/-- `Insert(key, value)` with the shifts in `int`: the `while (true)` loop,
which is the whole body; `fuel` bounds the number of rounds, and the result is
`none` when the loop has not come to an end within them. -/
def insertLoop32 : Nat → ExtendibleHash V → Int → V → Option (ExtendibleHash V)
  | 0, _, _, _ => none
  | fuel + 1, eh, key, value =>
    match eh.bucketTable.get? (eh.getBucketId32 key) with
    | none => none
    | some bi =>
      match eh.buckets.get? bi with
      | none => none
      | some tmp =>
        if (mapFind tmp.kvmap key).isSome ∨ tmp.kvmap.length < eh.bucketVolume then
          some { eh with buckets := eh.buckets.set bi { tmp with kvmap := mapSet tmp.kvmap key value } }
        else insertLoop32 fuel (eh.split32 bi tmp) key value

/-- The table after one call of a client, with the shifts in `int`; `fuel`
bounds the rounds of the loop of `Insert`. -/
def step32 (fuel : Nat) (eh : ExtendibleHash V) : HashOp V → Option (ExtendibleHash V)
  | .insert key value => insertLoop32 fuel eh key value
  | .remove key => some (eh.Remove32 key).1

/-- The table after the calls `ops` of a client, the first call first, with
the shifts in `int`; `none` when the loop of an `Insert` has not come to an end
within `fuel` rounds. -/
def run32 (fuel : Nat) (eh : ExtendibleHash V) : List (HashOp V) → Option (ExtendibleHash V)
  | [] => some eh
  | op :: rest =>
    match step32 fuel eh op with
    | none => none
    | some eh1 => run32 fuel eh1 rest

end ExtendibleHash

/-! ## The key slot of the first entry of an internal page

No search reads `array[0].first` of an internal page, but the redistribution
routines copy it.  The predicate below says what the routines of the index
keep about it: the slot holds the key under which the parent holds the page. -/

namespace BPlusTree

/-- The entries of the internal page stored under `pid`; no entries when the
page is a leaf page or missing. -/
def arrayOf (t : BPlusTree) (pid : Int) : List (Int × Int) :=
  match t.getInternal pid with
  | some p => p.array
  | none => []

/-- The key in the slot of the first entry of the internal page `pid`. -/
def slotKey (t : BPlusTree) (pid : Int) : Option Int :=
  ((t.arrayOf pid).head?).map Prod.fst

/-- The parent page id in the header of the page `pid`. -/
def parentOf (t : BPlusTree) (pid : Int) : Option Int :=
  (t.pages pid).map BPlusTreePage.GetParentPageId

/-- Every page is stored under its own positive id, and internal pages have
a maximal size of at least 2. -/
structure Shaped (t : BPlusTree) : Prop where
  stored : t.Stored
  pos : ∀ pid p, t.pages pid = some p → 0 < pid
  imax : 2 ≤ t.internal_max_size
  max : ∀ pid p, t.getInternal pid = some p → 2 ≤ p.max_size

/-- What the routines of the index keep about the internal pages.  A child
named in an entry exists and has the page of the entry as its parent; the
children of a page are distinct; the pages lie in levels, a child one below its
parent; an internal child is not empty; the key slot of the first entry of an
internal child holds the key of the entry that names the child; and that slot
is zero in an internal page without a parent.  The page `x` is exempt from the
last three clauses: it is the page a split has just filled, a merge has just
emptied or a redistribution has just changed, before the parent is updated. -/
structure Mirrored (t : BPlusTree) (x : Int) : Prop where
  shaped : t.Shaped
  child : ∀ pid e, e ∈ t.arrayOf pid → t.parentOf e.2 = some pid
  nodup : ∀ pid, ((t.arrayOf pid).map Prod.snd).Nodup
  level : ∃ lvl : Int → Nat, ∀ pid e, e ∈ t.arrayOf pid → lvl pid = lvl e.2 + 1
  nonempty : ∀ pid e, e ∈ t.arrayOf pid → e.2 ≠ x → t.getInternal e.2 ≠ none →
    t.arrayOf e.2 ≠ []
  slot : ∀ pid e, e ∈ t.arrayOf pid → e.2 ≠ x → ∀ k, t.slotKey e.2 = some k → k = e.1
  top : ∀ pid, pid ≠ x → t.parentOf pid = some INVALID_PAGE_ID →
    ∀ k, t.slotKey pid = some k → k = 0

/-- The state in which `InsertIntoParent(old_node, key, new_node)` is called:
the page `newId` that `Split` has filled is stored, no entry names it yet, it
lies in the level of `oldId`, `key` is the key in the slot of its first entry
when it is an internal page, and neither page is an empty internal page. -/
structure Pending (t : BPlusTree) (oldId key newId : Int) : Prop where
  mirrored : t.Mirrored newId
  ne : oldId ≠ newId
  fresh : ∀ pid e, e ∈ t.arrayOf pid → e.2 ≠ newId
  key : ∀ k, t.slotKey newId = some k → k = key
  full : t.getInternal newId ≠ none → t.arrayOf newId ≠ []
  oldfull : t.getInternal oldId ≠ none → t.arrayOf oldId ≠ []
  level : ∃ lvl : Int → Nat, (∀ pid e, e ∈ t.arrayOf pid → lvl pid = lvl e.2 + 1) ∧
    lvl newId = lvl oldId

/-- The store after the calls `ops` of a client of the index, the first call
first. -/
def execAll (t : BPlusTree) (fuel : Nat) : List TreeOp → Option BPlusTree
  | [] => some t
  | op :: rest =>
    match t.exec fuel op with
    | none => none
    | some t1 => t1.execAll fuel rest

/-- The stores the index passes through: the store between two calls of a
client that started with an index without pages (`run`), the store in which
`Remove` calls `CoalesceOrRedistribute` on the leaf page it has deleted the
record from (`leaf`), and the store in which `Coalesce` calls
`CoalesceOrRedistribute` on the parent (`merged`).  In `merged` the call of
`Coalesce` is the one `CoalesceOrRedistribute` makes on the page `nodeId`, with
the recursive call replaced by a probe that answers `true` and hands back the
store it is given. -/
inductive Built : BPlusTree → Prop
  | run (lm im : Nat) (n : Int) (fuel : Nat) (ops : List TreeOp) (t : BPlusTree) :
      2 ≤ im → 0 < n → (BPlusTree.empty lm im n).execAll fuel ops = some t → Built t
  | leaf (t : BPlusTree) (key : Int) (fuel : Nat) (leafId : Int) (leaf : BPlusTreeLeafPage) :
      Built t → t.IsEmpty = false → t.FindLeafPage key false fuel = some (some leafId) →
      t.getLeaf leafId = some leaf →
      (leaf.RemoveAndDeleteRecord key).array.length <
        (BPlusTreePage.leaf (leaf.RemoveAndDeleteRecord key)).GetMinSize →
      Built (t.setPage leafId (.leaf (leaf.RemoveAndDeleteRecord key)))
  | merged (t : BPlusTree) (nodeId : Int) (node : BPlusTreePage) (node2Id : Int)
      (isRightSib : Bool) (node2 : BPlusTreePage) (parentPage : BPlusTreeInternalPage)
      (t2 : BPlusTree) :
      Built t → t.pages nodeId = some node → node.IsRootPage = false →
      t.FindLeftSibling nodeId = some (node2Id, isRightSib) → t.pages node2Id = some node2 →
      t.getInternal node.GetParentPageId = some parentPage →
      node.IsLeafPage = node2.IsLeafPage → node.GetSize + node2.GetSize ≤ node.GetMaxSize →
      Coalesce (fun t3 _ => some (t3, true)) t (if isRightSib then nodeId else node2Id)
        (if isRightSib then node2Id else nodeId) node.GetParentPageId
        (parentPage.ValueIndex (if isRightSib then node2 else node).GetPageId) = some (t2, true) →
      Built t2

/-- Fourteen calls of `Insert` on an index with leaf and internal maximal size
4: they give the root 8 with the internal pages 3 and 7 under it. -/
def mergeExampleOps : List TreeOp :=
  [.insert 1 10, .insert 2 20, .insert 3 30, .insert 4 40, .insert 5 50, .insert 6 60,
    .insert 7 70, .insert 8 80, .insert 9 90, .insert 10 100, .insert 11 110, .insert 0 0,
    .insert (-1) 0, .insert (-2) 0]

/-- The store after the calls `mergeExampleOps`. -/
def mergeExample0 : BPlusTree :=
  ((BPlusTree.empty 4 4 1).execAll 10 mergeExampleOps).getD (BPlusTree.empty 4 4 1)

/-- The store in which `Remove(5)` on `mergeExample0` calls
`CoalesceOrRedistribute` on the leaf page 4. -/
def mergeExample1 : BPlusTree :=
  mergeExample0.setPage 4
    (.leaf ((BPlusTreeLeafPage.mk 4 7 4 5 [(5, 50), (6, 60)]).RemoveAndDeleteRecord 5))

/-- The store in which `Coalesce` of the leaf pages 4 and 5 calls
`CoalesceOrRedistribute` on their parent 7. -/
def mergeExample2 : BPlusTree :=
  ((Coalesce (fun t3 _ => some (t3, true)) mergeExample1 4 5 7 1).getD (mergeExample1, false)).1

end BPlusTree

/-! # Theorems -/

/-! ## Removal: behaviour at concrete inputs -/

/-- C4: `RemoveAndDeleteRecord` on the sorted leaf `[1, 3]` with the absent key
`2`, which lies between the first and the last key, erases the entry at
`KeyIndex(2)`: the record of key `3` is gone and the size drops to one. -/
theorem BPlusTreeLeafPage.RemoveAndDeleteRecord_absent_key_erases :
    (BPlusTreeLeafPage.RemoveAndDeleteRecord
      { max_size := 4, parent_page_id := INVALID_PAGE_ID, page_id := 1,
        next_page_id := INVALID_PAGE_ID, array := [(1, 10), (3, 30)] } 2).array
      = [(1, 10)] := by
  decide

set_option maxRecDepth 100000 in
/-- C3: with leaf and internal maximal size 4, after inserting the keys 1 to 6
and removing key 1 (the left leaf borrows the entry of key 3 from its right
sibling), the left leaf stores key 3 with its value, but `GetValue(3)`, which
returned the value before the removal, reports the key absent. -/
theorem BPlusTree.Remove_redistribute_loses_key :
    ∃ t t1 : BPlusTree,
      (BPlusTree.empty 4 4 1).insertAll 10
        [(1, 10), (2, 20), (3, 30), (4, 40), (5, 50), (6, 60)] = some t ∧
      t.GetValue 3 10 = some (some 30) ∧
      t.Remove 1 10 = some t1 ∧
      (t1.getLeaf 1).map (fun p => p.array) = some [(2, 20), (3, 30)] ∧
      (t1.getInternal t1.root_page_id).map (fun p => p.array) = some [(0, 1), (3, 2)] ∧
      t1.GetValue 3 10 = some none := by
  refine ⟨_, _, rfl, ?_, rfl, ?_, ?_, ?_⟩ <;> decide

set_option maxRecDepth 100000 in
/-- C5: with leaf and internal maximal size 4, inserting the distinct keys
1, 3, 2, 4, 5, 6 into an empty tree and removing them in the same order leaves
a tree that is not empty: the root is the leaf page 1 and still holds key 3. -/
theorem BPlusTree.insert_remove_round_trip_not_empty :
    ∃ t t1 : BPlusTree,
      (BPlusTree.empty 4 4 1).insertAll 10
        [(1, 10), (3, 30), (2, 20), (4, 40), (5, 50), (6, 60)] = some t ∧
      t.removeAll 10 [1, 3, 2, 4, 5, 6] = some t1 ∧
      t1.IsEmpty = false ∧ t1.root_page_id = 1 ∧
      (t1.getLeaf 1).map (fun p => p.array) = some [(3, 30)] := by
  refine ⟨_, _, rfl, rfl, ?_, ?_, ?_⟩ <;> decide


/-! ## LRU replacer -/

namespace LRUReplacer

theorem inv_empty : LRUReplacer.empty.Inv :=
  ⟨List.nodup_nil, List.nodup_nil, fun _ => Iff.rfl, rfl⟩

theorem erase_list (r : LRUReplacer) (h : r.Inv) (v : Nat) :
    (r.erase v).1.list = r.list.erase v := by
  unfold erase
  split
  · rfl
  · rename_i hv
    have : v ∉ r.list := fun hm => hv ((h.mem_iff v).2 hm)
    simp [List.erase_of_not_mem this]

theorem inv_erase (r : LRUReplacer) (h : r.Inv) (v : Nat) : (r.erase v).1.Inv := by
  unfold erase
  split
  · rename_i hv
    have hl : v ∈ r.list := (h.mem_iff v).1 hv
    refine ⟨h.nodup.erase v, h.mp_nodup.erase v, fun w => ?_, ?_⟩
    · simp only [h.mp_nodup.mem_erase_iff, h.nodup.mem_erase_iff, h.mem_iff]
    · simp only [List.length_erase_of_mem hl, h.siz_eq]
      have : 0 < r.list.length := List.length_pos_of_mem hl
      omega
  · exact h

theorem not_mem_erase_self (r : LRUReplacer) (h : r.Inv) (v : Nat) :
    v ∉ (r.erase v).1.list := by
  rw [erase_list r h]
  intro hm
  exact ((h.nodup.mem_erase_iff).1 hm).1 rfl

theorem Erase_eq_erase (r : LRUReplacer) (v : Nat) : r.Erase v = r.erase v := by
  unfold Erase erase
  split <;> simp_all

theorem inv_Insert (r : LRUReplacer) (h : r.Inv) (v : Nat) : (r.Insert v).Inv := by
  have h1 := inv_erase r h v
  have hn := not_mem_erase_self r h v
  have hnm : v ∉ (r.erase v).1.mp := fun hm => hn ((h1.mem_iff v).1 hm)
  unfold Insert
  simp only [hnm, if_false]
  refine ⟨List.nodup_cons.2 ⟨hn, h1.nodup⟩, List.nodup_cons.2 ⟨hnm, h1.mp_nodup⟩, fun w => ?_, ?_⟩
  · simp only [List.mem_cons, h1.mem_iff]
  · simp only [List.length_cons, h1.siz_eq]
    push_cast
    ring

theorem Insert_list (r : LRUReplacer) (h : r.Inv) (v : Nat) :
    (r.Insert v).list = v :: r.list.erase v := by
  unfold Insert
  simp only [erase_list r h]

theorem Victim_eq (r : LRUReplacer) (hs : r.siz ≠ 0) (hl : r.list ≠ []) :
    r.Victim = ({ list := r.list.dropLast, mp := r.mp.erase (r.list.getLast hl),
                  siz := r.siz - 1 }, some (r.list.getLast hl)) := by
  unfold Victim
  simp only [hs, if_false]
  match hr : r.list, hl with
  | [v], _ => simp
  | v :: w :: rest, _ => simp [List.getLast_cons]

theorem Victim_none_iff (r : LRUReplacer) (h : r.Inv) :
    r.Victim.2 = none ↔ r.list = [] := by
  constructor
  · intro hv
    by_contra hl
    have hs : r.siz ≠ 0 := by
      rw [h.siz_eq]
      have := List.length_pos.2 hl
      omega
    rw [Victim_eq r hs hl] at hv
    simp at hv
  · intro hl
    have hs : r.siz = 0 := by rw [h.siz_eq, hl]; rfl
    unfold Victim
    simp [hs]

theorem Victim_none_state (r : LRUReplacer) (hv : r.Victim.2 = none) : r.Victim.1 = r := by
  unfold Victim at hv ⊢
  split
  · rfl
  · split
    · rfl
    · simp_all
    · simp_all

theorem mem_dropLast_iff {l : List Nat} (hn : l.Nodup) (hl : l ≠ []) (a : Nat) :
    a ∈ l.dropLast ↔ a ∈ l ∧ a ≠ l.getLast hl := by
  have hd := List.dropLast_append_getLast hl
  have hn2 : (l.dropLast ++ [l.getLast hl]).Nodup := by rw [hd]; exact hn
  rw [List.nodup_append] at hn2
  constructor
  · intro ha
    refine ⟨List.mem_of_mem_dropLast ha, fun he => ?_⟩
    exact hn2.2.2 ha (by simp [he])
  · intro ⟨ha, hne⟩
    rw [← hd] at ha
    rcases List.mem_append.1 ha with h1 | h1
    · exact h1
    · simp at h1
      exact absurd h1 hne

theorem Victim_some (r : LRUReplacer) (h : r.Inv) (v : Nat) (hv : r.Victim.2 = some v) :
    v ∈ r.list ∧ r.Victim.1.Inv ∧ ∀ a, a ∈ r.Victim.1.list ↔ a ∈ r.list ∧ a ≠ v := by
  have hl : r.list ≠ [] := by
    intro hl
    rw [(Victim_none_iff r h).2 hl] at hv
    exact Option.noConfusion hv
  have hs : r.siz ≠ 0 := by
    rw [h.siz_eq]
    have := List.length_pos.2 hl
    omega
  rw [Victim_eq r hs hl] at hv ⊢
  simp only [Option.some.injEq] at hv
  subst hv
  have hmem := mem_dropLast_iff h.nodup hl
  refine ⟨List.getLast_mem hl, ⟨?_, h.mp_nodup.erase _, fun w => ?_, ?_⟩, hmem⟩
  · exact h.nodup.sublist (List.dropLast_sublist _)
  · simp only [h.mp_nodup.mem_erase_iff, hmem, h.mem_iff]
    tauto
  · simp only [List.length_dropLast, h.siz_eq]
    have := List.length_pos.2 hl
    omega

end LRUReplacer

/-! ## Extendible hash table: the directory is a finite map -/

theorem mapFind_mapSet {V : Type} (m : List (Int × V)) (k : Int) (v : V) (k1 : Int) :
    mapFind (mapSet m k v) k1 = if k1 = k then some v else mapFind m k1 := by
  induction m with
  | nil =>
    simp only [mapSet, mapFind]
    split <;> simp_all [eq_comm]
  | cons e rest ih =>
    simp only [mapSet]
    split
    · rename_i he
      simp only [mapFind]
      by_cases h1 : k1 = k
      · simp [h1]
      · have : ¬ k = k1 := fun h => h1 h.symm
        have : ¬ e.1 = k1 := fun h => h1 (by rw [← h, he])
        simp_all
    · split
      · simp only [mapFind]
        by_cases h1 : k1 = k
        · simp [h1]
        · have : ¬ k = k1 := fun h => h1 h.symm
          simp_all
      · simp only [mapFind, ih]
        by_cases h1 : k1 = k
        · subst h1
          simp_all
        · simp [h1]

theorem mapSet_keys {V : Type} (m : List (Int × V)) (k : Int) (v : V) (k1 : Int) :
    k1 ∈ (mapSet m k v).map Prod.fst ↔ k1 = k ∨ k1 ∈ m.map Prod.fst := by
  induction m with
  | nil => simp [mapSet]
  | cons e rest ih =>
    simp only [mapSet]
    split
    · rename_i he
      simp only [List.map_cons, List.mem_cons]
      rw [he]
      tauto
    · split
      · simp only [List.map_cons, List.mem_cons]
      · simp only [List.map_cons, List.mem_cons, ih]
        tauto

theorem mapSet_sorted {V : Type} (m : List (Int × V)) (k : Int) (v : V)
    (h : (m.map Prod.fst).Pairwise (· < ·)) : ((mapSet m k v).map Prod.fst).Pairwise (· < ·) := by
  induction m with
  | nil => simp [mapSet]
  | cons e rest ih =>
    simp only [List.map_cons, List.pairwise_cons] at h
    simp only [mapSet]
    split
    · rename_i he
      simp only [List.map_cons, List.pairwise_cons]
      rw [← he]
      exact h
    · split
      · rename_i hne hlt
        simp only [List.map_cons, List.pairwise_cons, List.mem_cons]
        refine ⟨?_, h⟩
        intro a ha
        rcases ha with ha | ha
        · rw [ha]; exact hlt
        · exact lt_trans hlt (h.1 a ha)
      · rename_i hne hlt
        simp only [List.map_cons, List.pairwise_cons, mapSet_keys]
        refine ⟨fun a ha => ?_, ih h.2⟩
        rcases ha with ha | ha
        · rw [ha]; omega
        · exact h.1 a ha

theorem mapFind_none_of_not_mem {V : Type} (m : List (Int × V)) (k : Int)
    (h : k ∉ m.map Prod.fst) : mapFind m k = none := by
  induction m with
  | nil => rfl
  | cons e rest ih =>
    simp only [List.map_cons, List.mem_cons, not_or] at h
    simp only [mapFind]
    rw [if_neg (fun he => h.1 he.symm)]
    exact ih h.2

theorem mapErase_sublist {V : Type} (m : List (Int × V)) (k : Int) :
    (mapErase m k).Sublist m := by
  induction m with
  | nil => exact List.Sublist.refl _
  | cons e rest ih =>
    simp only [mapErase]
    split
    · exact List.sublist_cons_self _ _
    · exact ih.cons₂ _

theorem mapFind_mapErase {V : Type} (m : List (Int × V)) (k k1 : Int)
    (h : (m.map Prod.fst).Pairwise (· < ·)) :
    mapFind (mapErase m k) k1 = if k1 = k then none else mapFind m k1 := by
  induction m with
  | nil => simp [mapErase, mapFind]
  | cons e rest ih =>
    simp only [List.map_cons, List.pairwise_cons] at h
    simp only [mapErase]
    split
    · rename_i he
      by_cases h1 : k1 = k
      · simp only [h1, if_true]
        apply mapFind_none_of_not_mem
        intro hm
        have := h.1 k hm
        omega
      · simp only [h1, if_false, mapFind]
        rw [if_neg (fun h2 => h1 (by rw [← h2, he]))]
    · rename_i he
      simp only [mapFind, ih h.2]
      by_cases h1 : k1 = k
      · simp only [h1, if_true]
        rw [if_neg he]
      · simp only [h1, if_false]

theorem mapFind_filter {V : Type} (m : List (Int × V)) (p : Int → Bool) (k : Int) :
    mapFind (m.filter (fun e => p e.1)) k = if p k then mapFind m k else none := by
  induction m with
  | nil => simp [mapFind]
  | cons e rest ih =>
    simp only [List.filter_cons]
    by_cases hp : p e.1 = true
    · simp only [hp, if_true, mapFind, ih]
      by_cases he : e.1 = k
      · simp only [he, if_true]
        rw [he] at hp
        simp [hp]
      · simp only [he, if_false]
    · have hp1 : p e.1 = false := by simpa using hp
      simp only [hp1, mapFind, Bool.false_eq_true, if_false]
      by_cases he : e.1 = k
      · rw [he] at hp
        rw [ih]
        simp [hp]
      · rw [ih]
        simp [he]

theorem sorted_keys_of_sublist {V : Type} {m1 m : List (Int × V)} (hs : m1.Sublist m)
    (h : (m.map Prod.fst).Pairwise (· < ·)) : (m1.map Prod.fst).Pairwise (· < ·) :=
  h.sublist (hs.map Prod.fst)

namespace ExtendibleHash

variable {V : Type}

theorem redirectFrom_length (old new mask : Nat) (l : List Nat) (s : Nat) :
    (redirectFrom old new mask l s).length = l.length := by
  induction l generalizing s with
  | nil => rfl
  | cons b rest ih => simp [redirectFrom, ih]

theorem redirectFrom_get (old new mask : Nat) (l : List Nat) (s i : Nat) :
    (redirectFrom old new mask l s)[i]? =
      (l[i]?).map (fun b => if b = old ∧ ((s + i) / mask) % 2 = 1 then new else b) := by
  induction l generalizing s i with
  | nil => simp [redirectFrom]
  | cons b rest ih =>
    cases i with
    | zero => simp [redirectFrom]
    | succ i =>
      simp only [redirectFrom, List.getElem?_cons_succ, ih]
      have : s + 1 + i = s + (i + 1) := by omega
      rw [this]

theorem bit_of_mod (h d G : Nat) (hd : d < G) : (h % 2 ^ G / 2 ^ d) % 2 = (h / 2 ^ d) % 2 := by
  obtain ⟨c, rfl⟩ : ∃ c, G = d + (c + 1) := ⟨G - d - 1, by omega⟩
  rw [pow_add, Nat.mod_mul_right_div_self, pow_succ]
  exact Nat.mod_mul_left_mod _ _ _

theorem double_get (l : List Nat) (G i : Nat) (hl : l.length = 2 ^ G) :
    (l ++ l)[i % 2 ^ (G + 1)]? = l[i % 2 ^ G]? := by
  have hpos : 0 < 2 ^ G := by positivity
  have hlt : i % 2 ^ G < 2 ^ G := Nat.mod_lt _ hpos
  rw [Nat.mod_pow_succ]
  rcases Nat.mod_two_eq_zero_or_one (i / 2 ^ G) with h0 | h1
  · rw [h0, Nat.mul_zero, Nat.add_zero, List.getElem?_append_left (by omega)]
  · rw [h1, Nat.mul_one, List.getElem?_append_right (by omega)]
    congr 1
    omega

theorem split_table_get (eh : ExtendibleHash V) (h : eh.Inv) (bi : Nat) (tmp : Bucket V)
    (hd : tmp.localDepth ≤ eh.globalDepth) (x : Nat) :
    (eh.split bi tmp).bucketTable[x % 2 ^ (eh.split bi tmp).globalDepth]? =
      (eh.bucketTable[x % 2 ^ eh.globalDepth]?).map
        (fun b => if b = bi ∧ (x / 2 ^ tmp.localDepth) % 2 = 1 then eh.buckets.length else b) := by
  unfold split
  simp only [redirectFrom_get, Nat.zero_add]
  by_cases hdep : tmp.localDepth + 1 > eh.globalDepth
  · simp only [hdep, if_true]
    rw [double_get _ _ _ h.table_len, bit_of_mod _ _ _ (by omega)]
  · simp only [hdep, if_false]
    rw [bit_of_mod _ _ _ (by omega)]

theorem split_inv (eh : ExtendibleHash V) (h : eh.Inv) (bi : Nat) (tmp : Bucket V)
    (hb : eh.buckets[bi]? = some tmp) : (eh.split bi tmp).Inv := by
  have hmem : tmp ∈ eh.buckets := List.getElem?_mem hb
  have hd := h.depth_le tmp hmem
  have hs := h.keys_sorted tmp hmem
  refine ⟨?_, ?_, ?_, ?_⟩
  · unfold split
    simp only [redirectFrom_length]
    by_cases hdep : tmp.localDepth + 1 > eh.globalDepth
    · simp only [hdep, if_true, List.length_append, h.table_len, pow_succ]
      omega
    · simp only [hdep, if_false, h.table_len]
  · intro b hbm
    obtain ⟨i, hi⟩ := List.mem_iff_getElem?.1 hbm
    have hlen : (eh.split bi tmp).buckets.length = eh.buckets.length + 1 := by
      simp [split]
    rw [hlen]
    unfold split at hi
    simp only [redirectFrom_get, Option.map_eq_some'] at hi
    obtain ⟨a, ha, hab⟩ := hi
    have ha2 : a ∈ eh.bucketTable := by
      have := List.getElem?_mem ha
      split at this
      · simpa using this
      · exact this
    have := h.table_lt a ha2
    split at hab <;> omega
  · intro b hbm
    have hg : eh.globalDepth ≤ (eh.split bi tmp).globalDepth := by
      unfold split
      simp only
      split <;> omega
    have hg2 : tmp.localDepth + 1 ≤ (eh.split bi tmp).globalDepth := by
      unfold split
      simp only
      split <;> omega
    unfold split at hbm
    simp only [List.mem_append, List.mem_singleton] at hbm
    rcases hbm with hbm | hbm
    · rcases List.mem_or_eq_of_mem_set hbm with h1 | h1
      · exact le_trans (h.depth_le b h1) hg
      · rw [h1]; exact hg2
    · rw [hbm]; exact hg2
  · intro b hbm
    unfold split at hbm
    simp only [List.mem_append, List.mem_singleton] at hbm
    rcases hbm with hbm | hbm
    · rcases List.mem_or_eq_of_mem_set hbm with h1 | h1
      · exact h.keys_sorted b h1
      · rw [h1]; exact sorted_keys_of_sublist (List.filter_sublist _) hs
    · rw [hbm]; exact sorted_keys_of_sublist (List.filter_sublist _) hs

theorem Find_eq (eh : ExtendibleHash V) (k : Int) :
    eh.Find k = (eh.bucketTable[HashKey k % 2 ^ eh.globalDepth]?).bind
      (fun j => (eh.buckets[j]?).bind (fun b => mapFind b.kvmap k)) := by
  unfold Find bucketAt getBucketId
  simp only [List.get?_eq_getElem?]
  cases eh.bucketTable[HashKey k % 2 ^ eh.globalDepth]? with
  | none => rfl
  | some j =>
    simp only [Option.some_bind]
    cases eh.buckets[j]? <;> rfl

theorem slot_some (eh : ExtendibleHash V) (h : eh.Inv) (x : Nat) :
    ∃ j, eh.bucketTable[x % 2 ^ eh.globalDepth]? = some j ∧ j < eh.buckets.length := by
  have hlt : x % 2 ^ eh.globalDepth < eh.bucketTable.length := by
    rw [h.table_len]
    exact Nat.mod_lt _ (by positivity)
  refine ⟨eh.bucketTable[x % 2 ^ eh.globalDepth], List.getElem?_eq_getElem hlt, ?_⟩
  exact h.table_lt _ (List.getElem_mem _)

theorem split_Find (eh : ExtendibleHash V) (h : eh.Inv) (bi : Nat) (tmp : Bucket V)
    (hb : eh.buckets[bi]? = some tmp) (k : Int) : (eh.split bi tmp).Find k = eh.Find k := by
  have hmem : tmp ∈ eh.buckets := List.getElem?_mem hb
  have hd := h.depth_le tmp hmem
  have hbi : bi < eh.buckets.length := (List.getElem?_eq_some.1 hb).1
  rw [Find_eq, Find_eq, split_table_get eh h bi tmp hd]
  obtain ⟨j, hj, hjlt⟩ := slot_some eh h (HashKey k)
  rw [hj]
  simp only [Option.map_some', Option.some_bind]
  have hbk : (eh.split bi tmp).buckets =
      eh.buckets.set bi (Bucket.mk (tmp.localDepth + 1)
        (tmp.kvmap.filter (fun e => ¬ (HashKey e.1 / 2 ^ tmp.localDepth) % 2 = 1))) ++
      [Bucket.mk (tmp.localDepth + 1)
        (tmp.kvmap.filter (fun e => (HashKey e.1 / 2 ^ tmp.localDepth) % 2 = 1))] := rfl
  rw [hbk]
  by_cases hjb : j = bi
  · subst hjb
    rw [hb]
    simp only [true_and, Option.some_bind]
    by_cases hbit : (HashKey k / 2 ^ tmp.localDepth) % 2 = 1
    · simp only [hbit, if_true]
      rw [List.getElem?_append_right (by simp), List.length_set, Nat.sub_self]
      simp only [List.getElem?_cons_zero, Option.some_bind]
      have := mapFind_filter tmp.kvmap
        (fun x => decide ((HashKey x / 2 ^ tmp.localDepth) % 2 = 1)) k
      simp only [hbit, decide_True, if_true] at this
      exact this
    · simp only [hbit, if_false]
      rw [List.getElem?_append_left (by simpa using hbi), List.getElem?_set_self hbi]
      simp only [Option.some_bind]
      have := mapFind_filter tmp.kvmap
        (fun x => decide (¬ (HashKey x / 2 ^ tmp.localDepth) % 2 = 1)) k
      simp only [hbit, not_false_eq_true, decide_True, if_true] at this
      exact this
  · simp only [hjb, false_and, if_false]
    rw [List.getElem?_append_left (by simpa using hjlt), List.getElem?_set_ne (Ne.symm hjb)]

theorem set_bucket_inv (eh : ExtendibleHash V) (h : eh.Inv) (bi : Nat) (b b1 : Bucket V)
    (hb : eh.buckets[bi]? = some b) (hd : b1.localDepth = b.localDepth)
    (hs : (b1.kvmap.map Prod.fst).Pairwise (· < ·)) :
    ExtendibleHash.Inv { eh with buckets := eh.buckets.set bi b1 } := by
  have hmem : b ∈ eh.buckets := List.getElem?_mem hb
  refine ⟨h.table_len, ?_, ?_, ?_⟩
  · intro x hx
    simp only [List.length_set]
    exact h.table_lt x hx
  · intro x hx
    rcases List.mem_or_eq_of_mem_set hx with h1 | h1
    · exact h.depth_le x h1
    · rw [h1, hd]; exact h.depth_le b hmem
  · intro x hx
    rcases List.mem_or_eq_of_mem_set hx with h1 | h1
    · exact h.keys_sorted x h1
    · rw [h1]; exact hs

theorem set_bucket_Find (eh : ExtendibleHash V) (h : eh.Inv) (bi : Nat) (b b1 : Bucket V)
    (hb : eh.buckets[bi]? = some b) (k k1 : Int)
    (ht : eh.bucketTable[HashKey k % 2 ^ eh.globalDepth]? = some bi)
    (r : Option V)
    (hf : mapFind b1.kvmap k1 = if k1 = k then r else mapFind b.kvmap k1) :
    ExtendibleHash.Find { eh with buckets := eh.buckets.set bi b1 } k1 =
      if k1 = k then r else eh.Find k1 := by
  have hbi : bi < eh.buckets.length := (List.getElem?_eq_some.1 hb).1
  rw [Find_eq, Find_eq]
  simp only
  obtain ⟨j, hj, hjlt⟩ := slot_some eh h (HashKey k1)
  rw [hj]
  simp only [Option.some_bind]
  by_cases hjb : j = bi
  · subst hjb
    rw [List.getElem?_set_self hbi, hb]
    simp only [Option.some_bind]
    exact hf
  · rw [List.getElem?_set_ne (Ne.symm hjb)]
    have hne : k1 ≠ k := by
      intro he
      rw [he, ht] at hj
      exact hjb (Option.some.inj hj).symm
    rw [if_neg hne]

theorem insertLoop_spec (fuel : Nat) (eh eh1 : ExtendibleHash V) (h : eh.Inv) (k : Int) (v : V)
    (hi : insertLoop fuel eh k v = some eh1) :
    eh1.Inv ∧ ∀ k1, eh1.Find k1 = if k1 = k then some v else eh.Find k1 := by
  induction fuel generalizing eh with
  | zero => simp [insertLoop] at hi
  | succ fuel ih =>
    unfold insertLoop at hi
    simp only [List.get?_eq_getElem?, getBucketId] at hi
    split at hi
    · exact Option.noConfusion hi
    · rename_i bi hbi
      split at hi
      · exact Option.noConfusion hi
      · rename_i tmp htmp
        split at hi
        · simp only [Option.some.injEq] at hi
          subst hi
          have hs := mapSet_sorted tmp.kvmap k v (h.keys_sorted tmp (List.getElem?_mem htmp))
          refine ⟨set_bucket_inv eh h bi tmp _ htmp rfl hs, fun k1 => ?_⟩
          exact set_bucket_Find eh h bi tmp _ htmp k k1 hbi (some v)
            (mapFind_mapSet tmp.kvmap k v k1)
        · obtain ⟨hinv, hfind⟩ := ih (eh.split bi tmp) (split_inv eh h bi tmp htmp) hi
          refine ⟨hinv, fun k1 => ?_⟩
          rw [hfind k1, split_Find eh h bi tmp htmp]

theorem Insert_spec (eh eh1 : ExtendibleHash V) (h : eh.Inv) (k : Int) (v : V)
    (hi : eh.Insert k v = some eh1) :
    eh1.Inv ∧ ∀ k1, eh1.Find k1 = if k1 = k then some v else eh.Find k1 :=
  insertLoop_spec 66 eh eh1 h k v hi

theorem Remove_spec (eh : ExtendibleHash V) (h : eh.Inv) (k : Int) :
    (eh.Remove k).1.Inv ∧ ∀ k1, (eh.Remove k).1.Find k1 = if k1 = k then none else eh.Find k1 := by
  have hnone : eh.Find k = none → ∀ k1, eh.Find k1 = if k1 = k then none else eh.Find k1 := by
    intro hf k1
    by_cases h1 : k1 = k
    · rw [if_pos h1, h1, hf]
    · rw [if_neg h1]
  have hF := Find_eq eh k
  unfold Remove
  simp only [List.get?_eq_getElem?, getBucketId]
  split
  · rename_i hbi
    rw [hbi] at hF
    exact ⟨h, hnone hF⟩
  · rename_i bi hbi
    split
    · rename_i hb
      rw [hbi] at hF
      simp only [Option.some_bind, hb] at hF
      exact ⟨h, hnone hF⟩
    · rename_i b hb
      split
      · rename_i hm
        rw [hbi] at hF
        simp only [Option.some_bind, hb, hm] at hF
        exact ⟨h, hnone hF⟩
      · have hsb := h.keys_sorted b (List.getElem?_mem hb)
        refine ⟨set_bucket_inv eh h bi b _ hb rfl
          (sorted_keys_of_sublist (mapErase_sublist b.kvmap k) hsb), fun k1 => ?_⟩
        exact set_bucket_Find eh h bi b _ hb k k1 hbi none (mapFind_mapErase b.kvmap k k1 hsb)

theorem new_inv (size : Nat) : (ExtendibleHash.new size : ExtendibleHash V).Inv := by
  refine ⟨rfl, ?_, ?_, ?_⟩
  · intro b hb
    simp only [new, List.mem_singleton] at hb
    simp [new, hb]
  · intro b hb
    simp only [new, List.mem_singleton] at hb
    simp [new, hb]
  · intro b hb
    simp only [new, List.mem_singleton] at hb
    simp [hb]

theorem new_Find (size : Nat) (k : Int) : (ExtendibleHash.new size : ExtendibleHash V).Find k = none := by
  rw [Find_eq]
  simp only [new, pow_zero, Nat.mod_one, List.getElem?_cons_zero, Option.some_bind, mapFind]

end ExtendibleHash

/-! ## Buffer pool manager: the bookkeeping invariant -/

namespace BufferPoolManager

theorem inv_new (pool_size page_size bucket_size : Nat) (disk : DiskManager) :
    (new pool_size page_size bucket_size disk).Inv := by
  refine ⟨ExtendibleHash.new_inv _, LRUReplacer.inv_empty, List.nodup_range _, ?_, ?_, ?_, ?_⟩
  · intro f hf
    exact ⟨List.mem_range.1 hf, rfl, rfl, rfl, rfl⟩
  · intro f hf
    simp [new, LRUReplacer.empty] at hf
  · intro f hf
    exact ⟨le_refl _, fun _ => Or.inl (List.mem_range.2 hf)⟩
  · intro k f hf
    simp [new, ExtendibleHash.new_Find] at hf

theorem findUnusedPage_none (s s1 : BufferPoolManager) (h : s.Inv)
    (hf : s.findUnusedPage = some (s1, none)) :
    s1 = s ∧ s.free_list = [] ∧ s.replacer.list = [] := by
  unfold findUnusedPage at hf
  split at hf
  · split at hf <;> simp at hf
  · rename_i hfree
    split at hf
    · rename_i r hv
      simp only [Option.some.injEq, Prod.mk.injEq, and_true] at hf
      have h2 : s.replacer.Victim.2 = none := by rw [hv]
      exact ⟨hf.symm, hfree, (LRUReplacer.Victim_none_iff _ h.lru).1 h2⟩
    · simp at hf

theorem findUnusedPage_empty (s : BufferPoolManager) (h : s.Inv)
    (hfree : s.free_list = []) (hlru : s.replacer.list = []) :
    s.findUnusedPage = some (s, none) := by
  have h2 := (LRUReplacer.Victim_none_iff _ h.lru).2 hlru
  unfold findUnusedPage
  rw [hfree]
  simp only
  split
  · rfl
  · rename_i hv
    rw [hv] at h2
    exact Option.noConfusion h2

theorem findUnusedPage_taken (s s1 : BufferPoolManager) (p : Nat) (h : s.Inv)
    (hf : s.findUnusedPage = some (s1, some p)) : Taken s s1 p := by
  unfold findUnusedPage at hf
  split at hf
  · rename_i q rest hfree
    split at hf
    · rename_i hq
      simp only [Option.some.injEq, Prod.mk.injEq] at hf
      obtain ⟨hs1, hp⟩ := hf
      subst hp
      subst hs1
      have hmem : q ∈ s.free_list := by simp [hfree]
      have hnd : (q :: rest).Nodup := by rw [← hfree]; exact h.free_nodup
      rw [List.nodup_cons] at hnd
      have hfr := h.free_frames q hmem
      refine ⟨rfl, rfl, hfr.1, ?_, fun _ _ => rfl, h.table, ?_, h.lru, ?_, hnd.2, ?_, rfl⟩
      · show s.pages q = _
        obtain ⟨_, h1, h2, h3, h4⟩ := hfr
        cases hpq : s.pages q
        simp_all
      · intro k f hk
        refine ⟨hk, fun hfq => ?_⟩
        rw [hfq] at hk
        exact (h.resident k q hk).2.2 hmem
      · intro f
        constructor
        · intro hfl
          refine ⟨hfl, fun hfq => ?_⟩
          rw [hfq] at hfl
          exact (h.lru_frames q hfl).2.2 hmem
        · exact fun hfl => hfl.1
      · intro f
        show f ∈ rest ↔ _
        rw [hfree, List.mem_cons]
        constructor
        · intro hfr
          exact ⟨Or.inr hfr, fun hfq => hnd.1 (hfq ▸ hfr)⟩
        · rintro ⟨h1 | h1, h2⟩
          · exact absurd h1 h2
          · exact h1
    · simp at hf
  · rename_i hfree
    split at hf
    · simp at hf
    · rename_i r1 q hv
      simp only [Option.some.injEq, Prod.mk.injEq] at hf
      obtain ⟨hs1, hp⟩ := hf
      subst hp
      have hv2 : s.replacer.Victim.2 = some q := by rw [hv]
      have hv1 : s.replacer.Victim.1 = r1 := by rw [hv]
      obtain ⟨hq, hinv, hmemv⟩ := LRUReplacer.Victim_some _ h.lru q hv2
      rw [hv1] at hinv hmemv
      have hqf := h.lru_frames q hq
      have hrem := ExtendibleHash.Remove_spec s.page_table h.table (s.pages q).page_id
      subst hs1
      refine ⟨?_, ?_, hqf.1, ?_, ?_, ?_, ?_, ?_, ?_, ?_, ?_, ?_⟩
      · split <;> rfl
      · split <;> rfl
      · split
        · simp only [setFrame, if_true]
          rw [hqf.2.1]
        · simp only [setFrame, if_true]
          rw [hqf.2.1]
      · intro f hfq
        split <;> simp only [setFrame, if_neg hfq]
      · split <;> exact hrem.1
      · intro k f hk
        have hk2 : (s.page_table.Remove (s.pages q).page_id).1.Find k = some f := by
          split at hk <;> exact hk
        rw [hrem.2 k] at hk2
        split at hk2
        · exact Option.noConfusion hk2
        · rename_i hne
          refine ⟨hk2, fun hfq => ?_⟩
          rw [hfq] at hk2
          exact hne (h.resident k q hk2).2.1.symm
      · split <;> exact hinv
      · intro f
        split <;> exact hmemv f
      · split <;> (show s.free_list.Nodup; exact h.free_nodup)
      · intro f
        have : (f ∈ s.free_list ↔ f ∈ s.free_list ∧ f ≠ q) := by
          rw [hfree]; simp
        split <;> exact this
      · split <;> rfl

theorem findUnusedPage_some (s : BufferPoolManager) (h : s.Inv)
    (hne : ¬ (s.free_list = [] ∧ s.replacer.list = [])) :
    ∃ s1 p, s.findUnusedPage = some (s1, some p) := by
  unfold findUnusedPage
  split
  · rename_i q rest hfree
    have hfr := h.free_frames q (by simp [hfree])
    rw [if_pos ⟨hfr.2.1, hfr.2.2.1, hfr.2.2.2.1⟩]
    exact ⟨_, _, rfl⟩
  · rename_i hfree
    split
    · rename_i r hv
      have h2 : s.replacer.Victim.2 = none := by rw [hv]
      exact absurd ⟨hfree, (LRUReplacer.Victim_none_iff _ h.lru).1 h2⟩ hne
    · exact ⟨_, _, rfl⟩

theorem all_pinned_iff (s : BufferPoolManager) (h : s.Inv) :
    (∀ f, f < s.pool_size → 0 < (s.pages f).pin_count) ↔
      s.free_list = [] ∧ s.replacer.list = [] := by
  constructor
  · intro hp
    constructor
    · apply List.eq_nil_iff_forall_not_mem.2
      intro f hf
      have h1 := h.free_frames f hf
      have := hp f h1.1
      omega
    · apply List.eq_nil_iff_forall_not_mem.2
      intro f hf
      have h1 := h.lru_frames f hf
      have := hp f h1.1
      omega
  · intro ⟨h1, h2⟩ f hf
    have hpin := h.pins f hf
    rcases lt_or_eq_of_le hpin.1 with h3 | h3
    · exact h3
    · rcases hpin.2 h3.symm with h4 | h4
      · rw [h1] at h4; exact absurd h4 (List.not_mem_nil f)
      · rw [h2] at h4; exact absurd h4 (List.not_mem_nil f)

theorem inv_install (s s1 : BufferPoolManager) (p : Nat) (h : s.Inv) (ht : Taken s s1 p)
    (pid : Int) (pg : Page) (table : ExtendibleHash Nat) (disk : DiskManager)
    (hid : pg.page_id = pid) (hpin : pg.pin_count = 1)
    (hins : ((s1.page_table.Remove INVALID_PAGE_ID).1).Insert pid p = some table) :
    (BufferPoolManager.setFrame { s1 with page_table := table, disk := disk } p pg).Inv ∧
      ∀ k, table.Find k = if k = pid then some p else
        if k = INVALID_PAGE_ID then none else s1.page_table.Find k := by
  have hrem := ExtendibleHash.Remove_spec s1.page_table ht.table INVALID_PAGE_ID
  have hi := ExtendibleHash.Insert_spec _ _ hrem.1 pid p hins
  have hfind : ∀ k, table.Find k = if k = pid then some p else
      if k = INVALID_PAGE_ID then none else s1.page_table.Find k := by
    intro k
    rw [hi.2 k, hrem.2 k]
  refine ⟨⟨hi.1, ht.lru, ht.free_nodup, ?_, ?_, ?_, ?_⟩, hfind⟩
  · intro f hf
    have hf2 := (ht.free_mem f).1 hf
    have hfr := h.free_frames f hf2.1
    show f < s1.pool_size ∧ _
    simp only [setFrame, if_neg hf2.2, ht.others f hf2.2, ht.pool_size, ht.page_size]
    exact hfr
  · intro f hf
    have hf2 := (ht.lru_mem f).1 hf
    have hfr := h.lru_frames f hf2.1
    show f < s1.pool_size ∧ _
    simp only [setFrame, if_neg hf2.2, ht.others f hf2.2, ht.pool_size]
    exact ⟨hfr.1, hfr.2.1, fun hm => hfr.2.2 ((ht.free_mem f).1 hm).1⟩
  · intro f hf
    show 0 ≤ ((BufferPoolManager.setFrame _ p pg).pages f).pin_count ∧ _
    simp only [setFrame]
    by_cases hfp : f = p
    · simp only [hfp, if_true, hpin]
      exact ⟨by decide, fun h0 => absurd h0 (by decide)⟩
    · simp only [if_neg hfp, ht.others f hfp]
      have hpi := h.pins f (by rw [← ht.pool_size]; exact hf)
      refine ⟨hpi.1, fun h0 => ?_⟩
      rcases hpi.2 h0 with h1 | h1
      · exact Or.inl ((ht.free_mem f).2 ⟨h1, hfp⟩)
      · exact Or.inr ((ht.lru_mem f).2 ⟨h1, hfp⟩)
  · intro k f hk
    have hk2 : table.Find k = some f := hk
    rw [hfind k] at hk2
    show f < s1.pool_size ∧ ((BufferPoolManager.setFrame _ p pg).pages f).page_id = k ∧
      f ∉ s1.free_list
    simp only [setFrame, ht.pool_size]
    split at hk2
    · rename_i hkp
      simp only [Option.some.injEq] at hk2
      subst hk2
      simp only [if_true, hid, hkp]
      exact ⟨ht.lt, trivial, fun hm => ((ht.free_mem p).1 hm).2 rfl⟩
    · split at hk2
      · exact Option.noConfusion hk2
      · have h3 := ht.find k f hk2
        have h4 := h.resident k f h3.1
        simp only [if_neg h3.2, ht.others f h3.2]
        exact ⟨h4.1, h4.2.1, fun hm => h4.2.2 ((ht.free_mem f).1 hm).1⟩

theorem FetchPage_hit (s : BufferPoolManager) (pid : Int) (p : Nat)
    (hhit : s.page_table.Find pid = some p) :
    s.FetchPage pid = some
      ({ s.setFrame p { (s.pages p) with pin_count := (s.pages p).pin_count + 1 } with
          replacer := (s.replacer.Erase p).1 }, some p) := by
  unfold FetchPage
  rw [hhit]
  rfl

theorem FetchPage_miss (s s1 : BufferPoolManager) (pid : Int) (p : Nat) (h : s.Inv)
    (hmiss : s.page_table.Find pid = none) (hf : s.FetchPage pid = some (s1, some p)) :
    ∃ s0 table, s.findUnusedPage = some (s0, some p) ∧
      ((s0.page_table.Remove INVALID_PAGE_ID).1).Insert pid p = some table ∧
      s1 = BufferPoolManager.setFrame
        { s0 with page_table := table, disk := (s0.disk.ReadPage pid).1 } p
        (Page.mk (s0.disk.contents pid) pid 1 false) := by
  unfold FetchPage at hf
  rw [hmiss] at hf
  simp only at hf
  split at hf
  · exact Option.noConfusion hf
  · simp at hf
  · rename_i s0 q hfu
    have ht := findUnusedPage_taken s s0 q h hfu
    have hq := ht.frame
    simp only [hq, Bool.false_eq_true, if_false] at hf
    split at hf
    · exact Option.noConfusion hf
    · rename_i table hins
      simp only [Option.some.injEq, Prod.mk.injEq] at hf
      obtain ⟨hs1, hp⟩ := hf
      subst hp
      exact ⟨s0, table, hfu, hins, hs1.symm⟩

theorem FetchPage_none (s s1 : BufferPoolManager) (pid : Int)
    (hf : s.FetchPage pid = some (s1, none)) :
    s.page_table.Find pid = none ∧ s.findUnusedPage = some (s1, none) := by
  unfold FetchPage at hf
  split at hf
  · simp at hf
  · rename_i hmiss
    refine ⟨hmiss, ?_⟩
    split at hf
    · exact Option.noConfusion hf
    · rename_i s0 hfu
      simp only [Option.some.injEq, Prod.mk.injEq, and_true] at hf
      rw [← hf]; exact hfu
    · rename_i s0 q hfu
      exfalso
      split at hf <;> (simp only at hf; split at hf <;> simp at hf)

theorem NewPage_some (s s1 : BufferPoolManager) (p : Nat) (pid : Int) (h : s.Inv)
    (hf : s.NewPage = some (s1, some (p, pid))) :
    ∃ s0 table, s.findUnusedPage = some (s0, some p) ∧ pid = s0.disk.next_page_id ∧
      ((s0.page_table.Remove INVALID_PAGE_ID).1).Insert pid p = some table ∧
      s1 = BufferPoolManager.setFrame
        { s0 with page_table := table, disk := (s0.disk.AllocatePage).1 } p
        (Page.mk (zeroData s.page_size) pid 1 false) := by
  unfold NewPage at hf
  split at hf
  · exact Option.noConfusion hf
  · simp at hf
  · rename_i s0 q hfu
    have ht := findUnusedPage_taken s s0 q h hfu
    have hq := ht.frame
    simp only [DiskManager.AllocatePage, hq, Bool.false_eq_true, if_false] at hf
    split at hf
    · exact Option.noConfusion hf
    · rename_i table hins
      simp only [Option.some.injEq, Prod.mk.injEq] at hf
      obtain ⟨hs1, hp, hpid⟩ := hf
      subst hp
      subst hpid
      refine ⟨s0, table, hfu, rfl, hins, ?_⟩
      rw [← hs1]
      simp only [setFrame, DiskManager.AllocatePage, hq]

theorem NewPage_none (s s1 : BufferPoolManager) (hf : s.NewPage = some (s1, none)) :
    s.findUnusedPage = some (s1, none) := by
  unfold NewPage at hf
  split at hf
  · exact Option.noConfusion hf
  · rename_i s0 hfu
    simp only [Option.some.injEq, Prod.mk.injEq, and_true] at hf
    rw [← hf]; exact hfu
  · exfalso
    simp only at hf
    split at hf <;> simp at hf

theorem inv_FetchPage_hit (s : BufferPoolManager) (h : s.Inv) (pid : Int) (p : Nat)
    (hhit : s.page_table.Find pid = some p) :
    BufferPoolManager.Inv
      { s.setFrame p { (s.pages p) with pin_count := (s.pages p).pin_count + 1 } with
          replacer := (s.replacer.Erase p).1 } := by
  have hres := h.resident pid p hhit
  have hl : (s.replacer.Erase p).1.list = s.replacer.list.erase p := by
    rw [LRUReplacer.Erase_eq_erase, LRUReplacer.erase_list _ h.lru]
  refine ⟨h.table, ?_, h.free_nodup, ?_, ?_, ?_, ?_⟩
  · show (s.replacer.Erase p).1.Inv
    rw [LRUReplacer.Erase_eq_erase]
    exact LRUReplacer.inv_erase _ h.lru p
  · intro f hf
    have hfp : f ≠ p := fun he => hres.2.2 (he ▸ hf)
    show f < s.pool_size ∧ _
    simp only [setFrame, if_neg hfp]
    exact h.free_frames f hf
  · intro f hf
    have hf1 : f ∈ (s.replacer.Erase p).1.list := hf
    rw [hl, h.lru.nodup.mem_erase_iff] at hf1
    show f < s.pool_size ∧ _
    simp only [setFrame, if_neg hf1.1]
    exact h.lru_frames f hf1.2
  · intro f hf
    have hpi := h.pins f hf
    show 0 ≤ ((s.setFrame p _).pages f).pin_count ∧
      (((s.setFrame p _).pages f).pin_count = 0 →
        f ∈ s.free_list ∨ f ∈ (s.replacer.Erase p).1.list)
    rw [hl, h.lru.nodup.mem_erase_iff]
    simp only [setFrame]
    by_cases hfp : f = p
    · subst hfp
      simp only [if_true]
      exact ⟨by omega, fun h0 => by omega⟩
    · simp only [if_neg hfp]
      refine ⟨hpi.1, fun h0 => ?_⟩
      rcases hpi.2 h0 with h1 | h1
      · exact Or.inl h1
      · exact Or.inr ⟨hfp, h1⟩
  · intro k f hk
    have h4 := h.resident k f hk
    show f < s.pool_size ∧ ((s.setFrame p _).pages f).page_id = k ∧ f ∉ s.free_list
    simp only [setFrame]
    by_cases hfp : f = p
    · subst hfp
      simp only [if_true]
      exact h4
    · simp only [if_neg hfp]
      exact h4

theorem inv_FetchPage (s s1 : BufferPoolManager) (h : s.Inv) (pid : Int) (r : Option Nat)
    (hf : s.FetchPage pid = some (s1, r)) : s1.Inv := by
  cases hfind : s.page_table.Find pid with
  | some p =>
    rw [FetchPage_hit s pid p hfind] at hf
    simp only [Option.some.injEq, Prod.mk.injEq] at hf
    rw [← hf.1]
    exact inv_FetchPage_hit s h pid p hfind
  | none =>
    cases r with
    | none =>
      have h1 := (FetchPage_none s s1 pid hf).2
      rw [(findUnusedPage_none s s1 h h1).1]
      exact h
    | some p =>
      obtain ⟨s0, table, hfu, hins, hs1⟩ := FetchPage_miss s s1 pid p h hfind hf
      rw [hs1]
      exact (inv_install s s0 p h (findUnusedPage_taken s s0 p h hfu) pid _ table _ rfl rfl hins).1

theorem inv_NewPage (s s1 : BufferPoolManager) (h : s.Inv) (r : Option (Nat × Int))
    (hf : s.NewPage = some (s1, r)) : s1.Inv := by
  cases r with
  | none =>
    have h1 := NewPage_none s s1 hf
    rw [(findUnusedPage_none s s1 h h1).1]
    exact h
  | some pp =>
    obtain ⟨p, pid⟩ := pp
    obtain ⟨s0, table, hfu, _, hins, hs1⟩ := NewPage_some s s1 p pid h hf
    rw [hs1]
    exact (inv_install s s0 p h (findUnusedPage_taken s s0 p h hfu) pid _ table _ rfl rfl hins).1

theorem UnpinPage_fail (s : BufferPoolManager) (pid : Int) (d : Bool)
    (hbad : s.page_table.Find pid = none ∨
      ∃ p, s.page_table.Find pid = some p ∧ (s.pages p).pin_count ≤ 0) :
    s.UnpinPage pid d = (s, false) := by
  unfold UnpinPage
  rcases hbad with h1 | ⟨p, h1, h2⟩
  · rw [h1]
  · rw [h1]
    simp only [h2, if_true]

theorem UnpinPage_ok (s : BufferPoolManager) (pid : Int) (d : Bool) (p : Nat)
    (hhit : s.page_table.Find pid = some p) (hpin : 0 < (s.pages p).pin_count) :
    (s.UnpinPage pid d).2 = true ∧
    (s.UnpinPage pid d).1.pool_size = s.pool_size ∧
    (s.UnpinPage pid d).1.page_size = s.page_size ∧
    (s.UnpinPage pid d).1.page_table = s.page_table ∧
    (s.UnpinPage pid d).1.free_list = s.free_list ∧
    (s.UnpinPage pid d).1.disk = s.disk ∧
    (s.UnpinPage pid d).1.replacer =
      (if (s.pages p).pin_count = 1 then s.replacer.Insert p else s.replacer) ∧
    (∀ f, f ≠ p → (s.UnpinPage pid d).1.pages f = s.pages f) ∧
    (s.UnpinPage pid d).1.pages p =
      Page.mk (s.pages p).data (s.pages p).page_id ((s.pages p).pin_count - 1)
        ((s.pages p).is_dirty || d) := by
  have hn : ¬ (s.pages p).pin_count ≤ 0 := by omega
  have h1 : ((s.pages p).pin_count - 1 = 0) ↔ (s.pages p).pin_count = 1 := by omega
  unfold UnpinPage
  rw [hhit]
  simp only [hn, if_false, setFrame, if_true, h1]
  by_cases hp1 : (s.pages p).pin_count = 1 <;> cases d <;>
    simp [hp1] <;> intro f hf <;> simp [hf]

theorem inv_UnpinPage (s : BufferPoolManager) (h : s.Inv) (pid : Int) (d : Bool) :
    (s.UnpinPage pid d).1.Inv := by
  cases hfind : s.page_table.Find pid with
  | none => rw [UnpinPage_fail s pid d (Or.inl hfind)]; exact h
  | some p =>
    by_cases hpin : (s.pages p).pin_count ≤ 0
    · rw [UnpinPage_fail s pid d (Or.inr ⟨p, hfind, hpin⟩)]; exact h
    · obtain ⟨_, h1, h2, h3, h4, h5, h6, h7, h8⟩ := UnpinPage_ok s pid d p hfind (by omega)
      have hres := h.resident pid p hfind
      have hpl : p ∉ s.replacer.list := fun hm => hpin (le_of_eq (h.lru_frames p hm).2.1)
      have hmem : ∀ f, f ∈ (s.UnpinPage pid d).1.replacer.list ↔
          (f ∈ s.replacer.list ∨ (f = p ∧ (s.pages p).pin_count = 1)) := by
        intro f
        rw [h6]
        split
        · rename_i h11
          rw [LRUReplacer.Insert_list _ h.lru, List.mem_cons, List.erase_of_not_mem hpl]
          simp only [h11, and_true]
          tauto
        · rename_i h11
          simp only [h11, and_false, or_false]
      refine ⟨?_, ?_, ?_, ?_, ?_, ?_, ?_⟩
      · rw [h3]; exact h.table
      · rw [h6]
        split
        · exact LRUReplacer.inv_Insert _ h.lru p
        · exact h.lru
      · rw [h4]; exact h.free_nodup
      · intro f hf
        rw [h4] at hf
        have hfp : f ≠ p := fun he => hres.2.2 (he ▸ hf)
        rw [h1, h2, h7 f hfp]
        exact h.free_frames f hf
      · intro f hf
        rw [h1, h4]
        rcases (hmem f).1 hf with hf1 | ⟨hf1, hf2⟩
        · have hfp : f ≠ p := fun he => hpl (he ▸ hf1)
          rw [h7 f hfp]
          exact h.lru_frames f hf1
        · subst hf1
          rw [h8]
          exact ⟨hres.1, by simp only; omega, hres.2.2⟩
      · intro f hf
        rw [h1] at hf
        rw [h4, hmem f]
        by_cases hfp : f = p
        · subst hfp
          rw [h8]
          simp only
          refine ⟨by omega, fun h0 => Or.inr (Or.inr ⟨trivial, by omega⟩)⟩
        · rw [h7 f hfp]
          have hpi := h.pins f hf
          refine ⟨hpi.1, fun h0 => ?_⟩
          rcases hpi.2 h0 with h9 | h9
          · exact Or.inl h9
          · exact Or.inr (Or.inl h9)
      · intro k f hk
        rw [h3] at hk
        have h9 := h.resident k f hk
        rw [h1, h4]
        by_cases hfp : f = p
        · subst hfp
          rw [h8]
          exact h9
        · rw [h7 f hfp]
          exact h9

theorem inv_setFrame_meta (s : BufferPoolManager) (h : s.Inv) (p : Nat) (pg : Page)
    (disk : DiskManager) (hfree : p ∉ s.free_list)
    (hid : pg.page_id = (s.pages p).page_id) (hpin : pg.pin_count = (s.pages p).pin_count) :
    (BufferPoolManager.setFrame { s with disk := disk } p pg).Inv := by
  refine ⟨h.table, h.lru, h.free_nodup, ?_, ?_, ?_, ?_⟩
  · intro f hf
    have hfp : f ≠ p := fun he => hfree (he ▸ hf)
    show f < s.pool_size ∧ _
    simp only [setFrame, if_neg hfp]
    exact h.free_frames f hf
  · intro f hf
    have := h.lru_frames f hf
    show f < s.pool_size ∧ ((BufferPoolManager.setFrame _ p pg).pages f).pin_count = 0 ∧
      f ∉ s.free_list
    simp only [setFrame]
    by_cases hfp : f = p
    · subst hfp
      simp only [if_true, hpin]
      exact this
    · simp only [if_neg hfp]
      exact this
  · intro f hf
    have := h.pins f hf
    show 0 ≤ ((BufferPoolManager.setFrame _ p pg).pages f).pin_count ∧
      (((BufferPoolManager.setFrame _ p pg).pages f).pin_count = 0 →
        f ∈ s.free_list ∨ f ∈ s.replacer.list)
    simp only [setFrame]
    by_cases hfp : f = p
    · subst hfp
      simp only [if_true, hpin]
      exact this
    · simp only [if_neg hfp]
      exact this
  · intro k f hk
    have := h.resident k f hk
    show f < s.pool_size ∧ ((BufferPoolManager.setFrame _ p pg).pages f).page_id = k ∧
      f ∉ s.free_list
    simp only [setFrame]
    by_cases hfp : f = p
    · subst hfp
      simp only [if_true, hid]
      exact this
    · simp only [if_neg hfp]
      exact this

theorem inv_FlushPage (s s1 : BufferPoolManager) (h : s.Inv) (pid : Int) (r : Bool)
    (hf : s.FlushPage pid = some (s1, r)) : s1.Inv := by
  unfold FlushPage at hf
  split at hf
  · exact Option.noConfusion hf
  · split at hf
    · simp only [Option.some.injEq, Prod.mk.injEq] at hf
      rw [← hf.1]; exact h
    · rename_i p hfind
      split at hf
      · simp only [Option.some.injEq, Prod.mk.injEq] at hf
        rw [← hf.1]; exact h
      · split at hf
        · simp only [Option.some.injEq, Prod.mk.injEq] at hf
          rw [← hf.1]
          exact inv_setFrame_meta s h p _ _ (h.resident pid p hfind).2.2 rfl rfl
        · simp only [Option.some.injEq, Prod.mk.injEq] at hf
          rw [← hf.1]; exact h

theorem inv_writeData (s : BufferPoolManager) (h : s.Inv) (f : Nat) (bytes : List Nat)
    (hpin : 0 < (s.pages f).pin_count) : (s.writeData f bytes).Inv := by
  have hfree : f ∉ s.free_list := by
    intro hm
    have := (h.free_frames f hm).2.2.1
    omega
  exact inv_setFrame_meta s h f _ s.disk hfree rfl rfl

theorem inv_disk (s : BufferPoolManager) (h : s.Inv) (disk : DiskManager) :
    BufferPoolManager.Inv { s with disk := disk } :=
  ⟨h.table, h.lru, h.free_nodup, h.free_frames, h.lru_frames, h.pins, h.resident⟩

theorem DeletePage_ok (s : BufferPoolManager) (pid : Int) (p : Nat)
    (hhit : s.page_table.Find pid = some p) (hpin : ¬ 0 < (s.pages p).pin_count) :
    s.DeletePage pid =
      ({ pool_size := s.pool_size, page_size := s.page_size,
         pages := fun g => if g = p then
           Page.mk (zeroData s.page_size) INVALID_PAGE_ID 0 false else s.pages g,
         page_table := (s.page_table.Remove pid).1,
         replacer := (s.replacer.Erase p).1,
         free_list := s.free_list ++ [p],
         disk := s.disk.DeallocatePage pid }, true) := by
  unfold DeletePage
  rw [hhit]
  have : ¬ (s.pages p).pin_count > 0 := hpin
  simp only [this, if_false, setFrame]

theorem inv_DeletePage (s : BufferPoolManager) (h : s.Inv) (pid : Int) :
    (s.DeletePage pid).1.Inv := by
  cases hfind : s.page_table.Find pid with
  | none =>
    unfold DeletePage
    rw [hfind]
    exact inv_disk s h _
  | some p =>
    by_cases hpin : 0 < (s.pages p).pin_count
    · unfold DeletePage
      rw [hfind]
      have : (s.pages p).pin_count > 0 := hpin
      simp only [this, if_true]
      exact h
    · rw [DeletePage_ok s pid p hfind hpin]
      have hres := h.resident pid p hfind
      have hrem := ExtendibleHash.Remove_spec s.page_table h.table pid
      have hl : (s.replacer.Erase p).1.list = s.replacer.list.erase p := by
        rw [LRUReplacer.Erase_eq_erase, LRUReplacer.erase_list _ h.lru]
      refine ⟨hrem.1, ?_, ?_, ?_, ?_, ?_, ?_⟩
      · show (s.replacer.Erase p).1.Inv
        rw [LRUReplacer.Erase_eq_erase]
        exact LRUReplacer.inv_erase _ h.lru p
      · show (s.free_list ++ [p]).Nodup
        rw [List.nodup_append]
        refine ⟨h.free_nodup, List.nodup_singleton p, ?_⟩
        intro a ha hb
        rw [List.mem_singleton] at hb
        exact hres.2.2 (hb ▸ ha)
      · intro f hf
        have hf1 : f ∈ s.free_list ++ [p] := hf
        rw [List.mem_append, List.mem_singleton] at hf1
        show f < s.pool_size ∧ _
        simp only
        by_cases hfp : f = p
        · subst hfp
          simp only [if_true]
          exact ⟨hres.1, trivial, trivial, trivial, trivial⟩
        · simp only [if_neg hfp]
          rcases hf1 with hf1 | hf1
          · exact h.free_frames f hf1
          · exact absurd hf1 hfp
      · intro f hf
        have hf1 : f ∈ (s.replacer.Erase p).1.list := hf
        rw [hl, h.lru.nodup.mem_erase_iff] at hf1
        have := h.lru_frames f hf1.2
        show f < s.pool_size ∧ _ ∧ f ∉ s.free_list ++ [p]
        simp only [if_neg hf1.1, List.mem_append, List.mem_singleton, not_or]
        exact ⟨this.1, this.2.1, this.2.2, hf1.1⟩
      · intro f hf
        have hpi := h.pins f hf
        show 0 ≤ _ ∧ (_ → f ∈ s.free_list ++ [p] ∨ f ∈ (s.replacer.Erase p).1.list)
        rw [hl, h.lru.nodup.mem_erase_iff, List.mem_append, List.mem_singleton]
        simp only
        by_cases hfp : f = p
        · subst hfp
          simp only [if_true]
          exact ⟨le_refl _, fun _ => Or.inl (Or.inr trivial)⟩
        · simp only [if_neg hfp]
          refine ⟨hpi.1, fun h0 => ?_⟩
          rcases hpi.2 h0 with h1 | h1
          · exact Or.inl (Or.inl h1)
          · exact Or.inr ⟨hfp, h1⟩
      · intro k f hk
        have hk1 : (s.page_table.Remove pid).1.Find k = some f := hk
        rw [hrem.2 k] at hk1
        split at hk1
        · exact Option.noConfusion hk1
        · rename_i hkp
          have h4 := h.resident k f hk1
          have hfp : f ≠ p := by
            intro he
            rw [he] at h4
            exact hkp (h4.2.1.symm.trans hres.2.1)
          show f < s.pool_size ∧ _ ∧ f ∉ s.free_list ++ [p]
          simp only [if_neg hfp, List.mem_append, List.mem_singleton, not_or]
          exact ⟨h4.1, h4.2.1, h4.2.2, hfp⟩

/-- Every reachable pool state satisfies the bookkeeping invariant. -/
theorem Reachable.inv {s : BufferPoolManager} (hr : Reachable s) : s.Inv := by
  induction hr with
  | init pool_size page_size bucket_size disk => exact inv_new _ _ _ _
  | fetch page_id _ hf ih => exact inv_FetchPage _ _ ih page_id _ hf
  | unpin page_id is_dirty _ ih => exact inv_UnpinPage _ ih page_id is_dirty
  | flush page_id _ hf ih => exact inv_FlushPage _ _ ih page_id _ hf
  | newPage _ hf ih => exact inv_NewPage _ _ ih _ hf
  | delete page_id _ ih => exact inv_DeletePage _ ih page_id
  | write f bytes _ hpin ih => exact inv_writeData _ ih f bytes hpin

end BufferPoolManager

/-! ## Buffer pool manager: contracts of the operations -/

namespace BufferPoolManager

/-- C7: `FetchPage(pid)` on a reachable pool that returns the frame `f` leaves
`f` holding page `pid`, outside the replacer and the value of `pid` in the page
table.  On a hit the pin count of `f` has grown by one while its bytes, its
dirty flag and the disk (contents and call log) are as before; on a miss the
pin count is 1, the frame is clean, its bytes are the disk contents of `pid`
and the last disk call is the read of `pid`. -/
theorem FetchPage_post (s s1 : BufferPoolManager) (pid : Int) (f : Nat) (hr : Reachable s)
    (hf : s.FetchPage pid = some (s1, some f)) :
    (s1.pages f).page_id = pid ∧ f ∉ s1.replacer.list ∧ s1.page_table.Find pid = some f ∧
    (s.page_table.Find pid ≠ none →
      s.page_table.Find pid = some f ∧
      (s1.pages f).pin_count = (s.pages f).pin_count + 1 ∧
      (s1.pages f).data = (s.pages f).data ∧
      (s1.pages f).is_dirty = (s.pages f).is_dirty ∧
      s1.disk = s.disk) ∧
    (s.page_table.Find pid = none →
      (s1.pages f).pin_count = 1 ∧ (s1.pages f).is_dirty = false ∧
      (s1.pages f).data = s1.disk.contents pid ∧
      s1.disk.log.getLast? = some (DiskEvent.read pid)) := by
  have h := hr.inv
  cases hfind : s.page_table.Find pid with
  | some p =>
    have hf2 := hf
    rw [FetchPage_hit s pid p hfind] at hf2
    simp only [Option.some.injEq, Prod.mk.injEq] at hf2
    obtain ⟨hs1, hp⟩ := hf2
    subst hp
    subst hs1
    have hres := h.resident pid p hfind
    refine ⟨?_, ?_, hfind, fun _ => ⟨rfl, ?_, ?_, ?_, rfl⟩, fun hn => Option.noConfusion hn⟩
    · simp only [setFrame, if_true]
      exact hres.2.1
    · show p ∉ (s.replacer.Erase p).1.list
      rw [LRUReplacer.Erase_eq_erase]
      exact LRUReplacer.not_mem_erase_self _ h.lru p
    · simp only [setFrame, if_true]
    · simp only [setFrame, if_true]
    · simp only [setFrame, if_true]
  | none =>
    obtain ⟨s0, table, hfu, hins, hs1⟩ := FetchPage_miss s s1 pid f h hfind hf
    have ht := findUnusedPage_taken s s0 f h hfu
    have hi := inv_install s s0 f h ht pid (Page.mk (s0.disk.contents pid) pid 1 false) table
      (s0.disk.ReadPage pid).1 rfl rfl hins
    subst hs1
    refine ⟨?_, ?_, ?_, fun hn => absurd rfl hn, fun _ => ⟨?_, ?_, ?_, ?_⟩⟩
    · simp only [setFrame, if_true]
    · show f ∉ s0.replacer.list
      exact fun hm => ((ht.lru_mem f).1 hm).2 rfl
    · show table.Find pid = some f
      rw [hi.2 pid, if_pos rfl]
    · simp only [setFrame, if_true]
    · simp only [setFrame, if_true]
    · simp only [setFrame, if_true, DiskManager.ReadPage]
    · simp only [setFrame, DiskManager.ReadPage, List.getLast?_append, List.getLast?_singleton,
        Option.or_some]

/-- Witness of C7: the first fetch of page 5 into a fresh pool of two frames. -/
theorem FetchPage_post_witness :
    ∃ s1 : BufferPoolManager,
      (new 2 4 2 DiskManager.blank).FetchPage 5 = some (s1, some 0) ∧
      (s1.pages 0).page_id = 5 ∧ 0 ∉ s1.replacer.list ∧ s1.page_table.Find 5 = some 0 ∧
      (s1.pages 0).pin_count = 1 := by
  have hf : (new 2 4 2 DiskManager.blank).FetchPage 5 = some (_, some 0) := rfl
  have h := FetchPage_post _ _ 5 0 (Reachable.init 2 4 2 DiskManager.blank) hf
  exact ⟨_, hf, h.1, h.2.1, h.2.2.1, (h.2.2.2.2 rfl).1⟩

/-- C8: on a reachable pool, `FetchPage` of a page that is not resident and
`NewPage` return the null pointer exactly when every frame is pinned, which is
the case exactly when the free list and the replacer are empty; the pool,
including the disk with its allocation counter and call log, is then
unchanged. -/
theorem out_of_frames (s : BufferPoolManager) (pid : Int) (hr : Reachable s)
    (hmiss : s.page_table.Find pid = none) :
    ((∃ s1, s.FetchPage pid = some (s1, none)) ↔
      ∀ f, f < s.pool_size → 0 < (s.pages f).pin_count) ∧
    ((∃ s1, s.NewPage = some (s1, none)) ↔
      ∀ f, f < s.pool_size → 0 < (s.pages f).pin_count) ∧
    ((∀ f, f < s.pool_size → 0 < (s.pages f).pin_count) ↔
      (s.free_list = [] ∧ s.replacer.list = [])) ∧
    (∀ s1, s.FetchPage pid = some (s1, none) → s1 = s) ∧
    (∀ s1, s.NewPage = some (s1, none) → s1 = s) := by
  have h := hr.inv
  have hall := all_pinned_iff s h
  refine ⟨⟨?_, ?_⟩, ⟨?_, ?_⟩, hall, ?_, ?_⟩
  · rintro ⟨s1, hf⟩
    have := findUnusedPage_none s s1 h (FetchPage_none s s1 pid hf).2
    exact hall.2 this.2
  · intro hp
    have he := hall.1 hp
    refine ⟨s, ?_⟩
    unfold FetchPage
    rw [hmiss, findUnusedPage_empty s h he.1 he.2]
  · rintro ⟨s1, hf⟩
    have := findUnusedPage_none s s1 h (NewPage_none s s1 hf)
    exact hall.2 this.2
  · intro hp
    have he := hall.1 hp
    refine ⟨s, ?_⟩
    unfold NewPage
    rw [findUnusedPage_empty s h he.1 he.2]
  · intro s1 hf
    exact (findUnusedPage_none s s1 h (FetchPage_none s s1 pid hf).2).1
  · intro s1 hf
    exact (findUnusedPage_none s s1 h (NewPage_none s s1 hf)).1

/-- Witness of C8: a pool of one frame whose only frame is pinned by a new
page refuses to fetch page 7. -/
theorem out_of_frames_witness :
    ∃ s : BufferPoolManager,
      (new 1 4 2 DiskManager.blank).NewPage = some (s, some (0, 0)) ∧
      (∃ s1, s.FetchPage 7 = some (s1, none)) ∧
      (∀ f, f < s.pool_size → 0 < (s.pages f).pin_count) := by
  have hn : (new 1 4 2 DiskManager.blank).NewPage = some (_, some (0, 0)) := rfl
  have h := out_of_frames _ 7 (Reachable.newPage (Reachable.init 1 4 2 DiskManager.blank) hn) rfl
  have hp := h.2.2.1.2 ⟨rfl, rfl⟩
  exact ⟨_, hn, h.1.2 hp, hp⟩

/-- C9: `NewPage` on a reachable pool that returns the frame `f` and the page
id `pid`: `pid` is the id the disk manager allocated in this call (its next
page id, and the allocation is the last disk call), the frame holds `pid` with
pin count 1, is clean and all zero, belongs neither to the replacer nor to the
free list, and the page table maps `pid` to it. -/
theorem NewPage_post (s s1 : BufferPoolManager) (f : Nat) (pid : Int) (hr : Reachable s)
    (hf : s.NewPage = some (s1, some (f, pid))) :
    pid = s.disk.next_page_id ∧ s1.disk.log.getLast? = some (DiskEvent.allocate pid) ∧
    (s1.pages f).page_id = pid ∧ (s1.pages f).pin_count = 1 ∧
    (s1.pages f).is_dirty = false ∧
    ((s1.pages f).data.length = s.page_size ∧ ∀ b ∈ (s1.pages f).data, b = 0) ∧
    f ∉ s1.replacer.list ∧ f ∉ s1.free_list ∧ s1.page_table.Find pid = some f := by
  have h := hr.inv
  obtain ⟨s0, table, hfu, hpid, hins, hs1⟩ := NewPage_some s s1 f pid h hf
  have ht := findUnusedPage_taken s s0 f h hfu
  have hi := inv_install s s0 f h ht pid (Page.mk (zeroData s.page_size) pid 1 false) table
    (s0.disk.AllocatePage).1 rfl rfl hins
  subst hs1
  refine ⟨by rw [hpid, ht.next_page_id], ?_, ?_, ?_, ?_, ⟨?_, ?_⟩, ?_, ?_, ?_⟩
  · simp only [setFrame, DiskManager.AllocatePage, List.getLast?_append,
      List.getLast?_singleton, Option.or_some, hpid]
  · simp only [setFrame, if_true]
  · simp only [setFrame, if_true]
  · simp only [setFrame, if_true]
  · simp only [setFrame, if_true, zeroData, List.length_replicate]
  · intro b hb
    simp only [setFrame, if_true, zeroData] at hb
    exact (List.mem_replicate.1 hb).2
  · show f ∉ s0.replacer.list
    exact fun hm => ((ht.lru_mem f).1 hm).2 rfl
  · show f ∉ s0.free_list
    exact fun hm => ((ht.free_mem f).1 hm).2 rfl
  · show table.Find pid = some f
    rw [hi.2 pid, if_pos rfl]

/-- Witness of C9: the first new page of a fresh pool of two frames. -/
theorem NewPage_post_witness :
    ∃ s1 : BufferPoolManager,
      (new 2 4 2 DiskManager.blank).NewPage = some (s1, some (0, 0)) ∧
      (s1.pages 0).page_id = 0 ∧ (s1.pages 0).pin_count = 1 ∧
      (s1.pages 0).is_dirty = false ∧ s1.page_table.Find 0 = some 0 := by
  have hn : (new 2 4 2 DiskManager.blank).NewPage = some (_, some (0, 0)) := rfl
  have h := NewPage_post _ _ 0 0 (Reachable.init 2 4 2 DiskManager.blank) hn
  exact ⟨_, hn, h.2.2.1, h.2.2.2.1, h.2.2.2.2.1, h.2.2.2.2.2.2.2.2⟩

/-- C10: `UnpinPage(pid, dirty)` returns `false` exactly when `pid` is not in
the page table or its frame has a pin count of at most 0, and then the pool is
unchanged: no pin count, no dirty flag (also for `dirty = true`) and no
replacer entry differs. -/
theorem UnpinPage_false_iff (s : BufferPoolManager) (pid : Int) (d : Bool) :
    ((s.UnpinPage pid d).2 = false ↔
      (s.page_table.Find pid = none ∨
        ∃ p, s.page_table.Find pid = some p ∧ (s.pages p).pin_count ≤ 0)) ∧
    ((s.UnpinPage pid d).2 = false → (s.UnpinPage pid d).1 = s) := by
  have hiff : (s.UnpinPage pid d).2 = false ↔
      (s.page_table.Find pid = none ∨
        ∃ p, s.page_table.Find pid = some p ∧ (s.pages p).pin_count ≤ 0) := by
    constructor
    · intro hres
      cases hfind : s.page_table.Find pid with
      | none => exact Or.inl rfl
      | some p =>
        by_cases hpin : (s.pages p).pin_count ≤ 0
        · exact Or.inr ⟨p, rfl, hpin⟩
        · have := (UnpinPage_ok s pid d p hfind (by omega)).1
          rw [hres] at this
          exact absurd this (by decide)
    · intro hbad
      rw [UnpinPage_fail s pid d hbad]
  refine ⟨hiff, fun hres => ?_⟩
  rw [UnpinPage_fail s pid d (hiff.1 hres)]

end BufferPoolManager

/-! ## Page layouts: search and insertion inside one page -/

theorem comparator_le_zero (a b : Int) : comparator a b ≤ 0 ↔ a ≤ b := by
  unfold comparator
  split
  · simp; omega
  · split
    · simp; omega
    · simp; omega

theorem comparator_lt_zero (a b : Int) : comparator a b < 0 ↔ a < b := by
  unfold comparator
  split
  · simp; omega
  · split
    · simp; omega
    · simp; omega

theorem comparator_gt_zero (a b : Int) : comparator a b > 0 ↔ b < a := by
  unfold comparator
  split
  · simp; omega
  · split
    · simp; omega
    · simp; omega

theorem comparator_eq_zero (a b : Int) : comparator a b = 0 ↔ a = b := by
  unfold comparator
  split
  · simp; omega
  · split
    · simp; omega
    · simp; omega

theorem mapFind_insertKV (l : List (Int × Int)) (k v k1 : Int) :
    mapFind (insertKV k v l) k1 = if k1 = k then some v else mapFind l k1 := by
  induction l with
  | nil =>
    simp only [insertKV, mapFind]
    by_cases h : k1 = k
    · simp [h]
    · have : ¬ k = k1 := fun h2 => h h2.symm
      simp [h, this]
  | cons e rest ih =>
    simp only [insertKV]
    split
    · simp only [mapFind]
      by_cases h : k1 = k
      · simp [h]
      · have : ¬ k = k1 := fun h2 => h h2.symm
        simp [h, this]
    · rename_i hle
      simp only [mapFind, ih]
      by_cases h : k1 = k
      · have : ¬ e.1 = k1 := by rw [h]; omega
        simp [h, this]
        intro h2; omega
      · simp [h]

theorem insertKV_perm (l : List (Int × Int)) (k v : Int) :
    (insertKV k v l).Perm ((k, v) :: l) := by
  induction l with
  | nil => exact List.Perm.refl _
  | cons e rest ih =>
    simp only [insertKV]
    split
    · exact List.Perm.refl _
    · exact (List.Perm.cons e ih).trans (List.Perm.swap _ _ _)

theorem insertKV_sorted (l : List (Int × Int)) (k v : Int)
    (hs : (l.map Prod.fst).Pairwise (· < ·)) (hk : k ∉ l.map Prod.fst) :
    ((insertKV k v l).map Prod.fst).Pairwise (· < ·) := by
  induction l with
  | nil => simp [insertKV]
  | cons e rest ih =>
    simp only [List.map_cons, List.pairwise_cons, List.mem_cons, not_or] at hs hk
    simp only [insertKV]
    split
    · rename_i hle
      have hlt : k < e.1 := by
        have := hk.1
        omega
      simp only [List.map_cons, List.pairwise_cons, List.mem_cons]
      refine ⟨?_, hs⟩
      intro a ha
      rcases ha with ha | ha
      · rw [ha]; exact hlt
      · exact lt_trans hlt (hs.1 a ha)
    · rename_i hle
      simp only [List.map_cons, List.pairwise_cons]
      refine ⟨?_, ih hs.2 hk.2⟩
      intro a ha
      have hp := (insertKV_perm rest k v).map Prod.fst
      have ha2 := hp.mem_iff.1 ha
      simp only [List.map_cons, List.mem_cons] at ha2
      rcases ha2 with ha2 | ha2
      · rw [ha2]; omega
      · exact hs.1 a ha2

theorem insertKV_append_of_le (A B : List (Int × Int)) (k v : Int)
    (hB : ∀ e ∈ B, k ≤ e.1) : insertKV k v (A ++ B) = insertKV k v A ++ B := by
  induction A with
  | nil =>
    cases B with
    | nil => simp [insertKV]
    | cons b B =>
      have := hB b (by simp)
      simp [insertKV, this]
  | cons a A ih =>
    rw [List.cons_append]
    simp only [insertKV]
    split
    · rfl
    · rw [ih]
      rfl

theorem insertKV_append_of_lt (A B : List (Int × Int)) (k v : Int)
    (hA : ∀ e ∈ A, e.1 < k) : insertKV k v (A ++ B) = A ++ insertKV k v B := by
  induction A with
  | nil => rfl
  | cons a A ih =>
    have h1 := hA a (by simp)
    have : ¬ k ≤ a.1 := by omega
    rw [List.cons_append, List.cons_append]
    simp only [insertKV, this, if_false]
    rw [ih (fun e he => hA e (by simp [he]))]

namespace BPlusTreeLeafPage

theorem keyIndexFrom_shift (k : Int) (l : List (Int × Int)) (i : Nat) :
    keyIndexFrom k l i = i + keyIndexFrom k l 0 := by
  induction l generalizing i with
  | nil => simp [keyIndexFrom]
  | cons e rest ih =>
    simp only [keyIndexFrom]
    split
    · simp
    · rw [ih (i + 1), ih (0 + 1)]
      omega

theorem keyIndexFrom_le (k : Int) (l : List (Int × Int)) : keyIndexFrom k l 0 ≤ l.length := by
  induction l with
  | nil => simp [keyIndexFrom]
  | cons e rest ih =>
    simp only [keyIndexFrom]
    split
    · simp
    · rw [keyIndexFrom_shift]
      simp only [List.length_cons]
      omega

theorem take_keyIndex_insert (k v : Int) (l : List (Int × Int)) :
    l.take (keyIndexFrom k l 0) ++ (k, v) :: l.drop (keyIndexFrom k l 0) = insertKV k v l := by
  induction l with
  | nil => simp [keyIndexFrom, insertKV]
  | cons e rest ih =>
    simp only [keyIndexFrom, insertKV, comparator_le_zero]
    split
    · simp
    · rw [keyIndexFrom_shift, Nat.add_comm]
      simp only [List.take_succ_cons, List.drop_succ_cons, List.cons_append, ih]

theorem le_last_of_sorted (l : List (Int × Int)) (last : Int × Int)
    (hs : (l.map Prod.fst).Pairwise (· < ·)) (hl : l.getLast? = some last) :
    ∀ e ∈ l, e.1 ≤ last.1 := by
  intro e he
  have hne : l ≠ [] := by
    intro h
    rw [h] at hl
    exact Option.noConfusion hl
  have hlast : l.getLast hne = last := by
    rw [List.getLast?_eq_getLast _ hne] at hl
    exact Option.some.inj hl
  have hd := List.dropLast_append_getLast hne
  rw [hlast] at hd
  rw [← hd] at hs he
  simp only [List.map_append, List.map_cons, List.map_nil, List.pairwise_append,
    List.mem_map, List.mem_singleton, forall_exists_index, and_imp] at hs
  rcases List.mem_append.1 he with h1 | h1
  · exact le_of_lt (hs.2.2 e.1 e h1 rfl last.1 rfl)
  · simp only [List.mem_singleton] at h1
    rw [h1]

theorem first_le_of_sorted (l : List (Int × Int)) (first : Int × Int)
    (hs : (l.map Prod.fst).Pairwise (· < ·)) (hl : l.head? = some first) :
    ∀ e ∈ l, first.1 ≤ e.1 := by
  intro e he
  cases l with
  | nil => exact absurd he (List.not_mem_nil e)
  | cons a rest =>
    simp only [List.head?_cons, Option.some.injEq] at hl
    subst hl
    simp only [List.map_cons, List.pairwise_cons, List.mem_map, forall_exists_index,
      and_imp] at hs
    rcases List.mem_cons.1 he with h1 | h1
    · rw [h1]
    · exact le_of_lt (hs.1 e.1 e h1 rfl)

theorem Insert_array (p : BPlusTreeLeafPage) (k v : Int)
    (hs : (p.array.map Prod.fst).Pairwise (· < ·)) :
    p.Insert k v = { p with array := insertKV k v p.array } := by
  unfold Insert
  split
  · rename_i hl
    have : p.array = [] := List.getLast?_eq_none_iff.1 hl
    simp [this, insertKV]
  · rename_i last hl
    split
    · rename_i hgt
      rw [comparator_gt_zero] at hgt
      have hlt : ∀ e ∈ p.array, e.1 < k := fun e he =>
        lt_of_le_of_lt (le_last_of_sorted p.array last hs hl e he) hgt
      have := insertKV_append_of_lt p.array [] k v hlt
      simp only [List.append_nil, insertKV] at this
      rw [this]
    · simp only [KeyIndex, take_keyIndex_insert]

theorem mapFind_none_of_lt (l : List (Int × Int)) (k : Int) (h : ∀ e ∈ l, k < e.1) :
    mapFind l k = none := by
  apply mapFind_none_of_not_mem
  intro hm
  obtain ⟨e, he, hek⟩ := List.mem_map.1 hm
  have := h e he
  omega

theorem mapFind_none_of_gt (l : List (Int × Int)) (k : Int) (h : ∀ e ∈ l, e.1 < k) :
    mapFind l k = none := by
  apply mapFind_none_of_not_mem
  intro hm
  obtain ⟨e, he, hek⟩ := List.mem_map.1 hm
  have := h e he
  omega

theorem get_keyIndex (k : Int) (l : List (Int × Int))
    (hs : (l.map Prod.fst).Pairwise (· < ·)) :
    (match l[keyIndexFrom k l 0]? with
      | some e => if comparator e.1 k = 0 then some e.2 else none
      | none => none) = mapFind l k := by
  induction l with
  | nil => simp [keyIndexFrom, mapFind]
  | cons e rest ih =>
    simp only [List.map_cons, List.pairwise_cons, List.mem_map, forall_exists_index,
      and_imp] at hs
    simp only [keyIndexFrom, comparator_le_zero]
    by_cases hle : k ≤ e.1
    · simp only [hle, if_true, List.getElem?_cons_zero, comparator_eq_zero, mapFind]
      split
      · rfl
      · rename_i hne
        symm
        apply mapFind_none_of_lt
        intro a ha
        have := hs.1 a.1 a ha rfl
        omega
    · simp only [hle, if_false]
      rw [keyIndexFrom_shift, Nat.add_comm]
      simp only [List.getElem?_cons_succ, mapFind]
      have : ¬ e.1 = k := by omega
      rw [if_neg this]
      exact ih hs.2

theorem Lookup_eq_mapFind (p : BPlusTreeLeafPage) (k : Int)
    (hs : (p.array.map Prod.fst).Pairwise (· < ·)) : p.Lookup k = mapFind p.array k := by
  unfold Lookup
  split
  · rename_i first last hf hl
    split
    · rename_i hout
      rw [comparator_lt_zero, comparator_gt_zero] at hout
      symm
      rcases hout with h1 | h1
      · apply mapFind_none_of_lt
        intro e he
        exact lt_of_lt_of_le h1 (first_le_of_sorted p.array first hs hf e he)
      · apply mapFind_none_of_gt
        intro e he
        exact lt_of_le_of_lt (le_last_of_sorted p.array last hs hl e he) h1
    · simp only [KeyIndex, List.get?_eq_getElem?]
      exact get_keyIndex k p.array hs
  · rename_i h1
    cases hp : p.array with
    | nil => rfl
    | cons a rest =>
      exfalso
      have hne : p.array ≠ [] := by rw [hp]; simp
      exact h1 a (p.array.getLast hne) (by rw [hp]; rfl) (List.getLast?_eq_getLast _ hne)

end BPlusTreeLeafPage

namespace BPlusTreeInternalPage

theorem entryAt_nat (arr : List (Int × Int)) (i : Nat) : entryAt arr (i : Int) = arr[i]? := by
  unfold entryAt
  simp

theorem entryAt_eq (arr : List (Int × Int)) (i : Int) (h : 0 ≤ i) :
    entryAt arr i = arr[i.toNat]? := by
  unfold entryAt
  simp [h]

theorem lookupLoop_spec (arr : List (Int × Int)) (k : Int)
    (hsort : ∀ i j : Nat, 1 ≤ i → i < j → ∀ a b, arr[i]? = some a → arr[j]? = some b → a.1 < b.1) :
    ∀ (fuel : Nat) (l r : Int), 1 ≤ l → l ≤ r + 1 → r + 1 ≤ arr.length → r + 1 - l ≤ fuel →
      (∀ i : Nat, 1 ≤ i → (i : Int) < l → ∀ e, arr[i]? = some e → e.1 ≤ k) →
      (∀ i : Nat, r < (i : Int) → ∀ e, arr[i]? = some e → k < e.1) →
      ∃ l1 : Nat, lookupLoop arr k fuel l r = some (l1 : Int) ∧ 1 ≤ l1 ∧ l1 ≤ arr.length ∧
        (∀ i : Nat, 1 ≤ i → i < l1 → ∀ e, arr[i]? = some e → e.1 ≤ k) ∧
        (∀ i : Nat, l1 ≤ i → ∀ e, arr[i]? = some e → k < e.1) := by
  intro fuel
  induction fuel with
  | zero =>
    intro l r h1 h2 h3 h4 hlo hhi
    have hl : l = r + 1 := by omega
    refine ⟨l.toNat, ?_, by omega, by omega, ?_, ?_⟩
    · simp only [lookupLoop]
      rw [if_neg (by omega)]
      congr 1
      omega
    · intro i hi1 hi2 e he
      exact hlo i hi1 (by omega) e he
    · intro i hi e he
      exact hhi i (by omega) e he
  | succ fuel ih =>
    intro l r h1 h2 h3 h4 hlo hhi
    by_cases hlr : l ≤ r
    · simp only [lookupLoop, hlr, if_true]
      have hmid1 : l ≤ (r - l) / 2 + l := by
        have : 0 ≤ (r - l) / 2 := Int.ediv_nonneg (by omega) (by decide)
        omega
      have hmid2 : (r - l) / 2 + l ≤ r := by
        have : (r - l) / 2 ≤ r - l := Int.ediv_le_self _ (by omega)
        omega
      generalize hm : (r - l) / 2 + l = mid at hmid1 hmid2
      have hm0 : 0 ≤ mid := by omega
      rw [entryAt_eq arr mid hm0]
      have hlt : mid.toNat < arr.length := by omega
      rw [List.getElem?_eq_getElem hlt]
      simp only [comparator_le_zero]
      have hget : arr[mid.toNat]? = some arr[mid.toNat] := List.getElem?_eq_getElem hlt
      by_cases hle : (arr[mid.toNat]).1 ≤ k
      · simp only [hle, if_true]
        apply ih (mid + 1) r (by omega) (by omega) h3 (by omega)
        · intro i hi1 hi2 e he
          by_cases him : i = mid.toNat
          · rw [him, hget] at he
            rw [← Option.some.inj he]
            exact hle
          · have := hsort i mid.toNat hi1 (by omega) e _ he hget
            omega
        · exact hhi
      · simp only [hle, if_false]
        apply ih l (mid - 1) h1 (by omega) (by omega) (by omega) hlo
        intro i hi e he
        by_cases him : i = mid.toNat
        · rw [him, hget] at he
          rw [← Option.some.inj he]
          omega
        · have := hsort mid.toNat i (by omega) (by omega) _ e hget he
          omega
    · have hl : l = r + 1 := by omega
      refine ⟨l.toNat, ?_, by omega, by omega, ?_, ?_⟩
      · simp only [lookupLoop]
        rw [if_neg hlr]
        congr 1
        omega
      · intro i hi1 hi2 e he
        exact hlo i hi1 (by omega) e he
      · intro i hi e he
        exact hhi i (by omega) e he

theorem countLE_unique (k : Int) (tl : List (Int × Int)) (j : Nat) (hj : j ≤ tl.length)
    (hlo : ∀ i : Nat, i < j → ∀ e, tl[i]? = some e → e.1 ≤ k)
    (hhi : ∀ i : Nat, j ≤ i → ∀ e, tl[i]? = some e → k < e.1) : countLE k tl = j := by
  induction tl generalizing j with
  | nil =>
    simp only [List.length_nil] at hj
    simp only [countLE]
    omega
  | cons e rest ih =>
    cases j with
    | zero =>
      have := hhi 0 (le_refl _) e (by simp)
      simp only [countLE]
      rw [if_neg (by omega)]
    | succ j =>
      have := hlo 0 (by omega) e (by simp)
      simp only [countLE, this, if_true]
      congr 1
      apply ih j (by simpa using hj)
      · intro i hi a ha
        exact hlo (i + 1) (by omega) a (by simpa using ha)
      · intro i hi a ha
        exact hhi (i + 1) (by omega) a (by simpa using ha)

theorem Lookup_spec (p : BPlusTreeInternalPage) (k : Int) (e0 : Int × Int)
    (tl : List (Int × Int)) (harr : p.array = e0 :: tl) (hne : tl ≠ [])
    (hs : (tl.map Prod.fst).Pairwise (· < ·)) :
    p.Lookup k = ((e0 :: tl)[countLE k tl]?).map Prod.snd := by
  have hlen : 1 < p.array.length := by
    rw [harr]
    have := List.length_pos.2 hne
    simp only [List.length_cons]
    omega
  have hsort : ∀ i j : Nat, 1 ≤ i → i < j → ∀ a b, p.array[i]? = some a →
      p.array[j]? = some b → a.1 < b.1 := by
    intro i j hi hij a b ha hb
    rw [harr] at ha hb
    obtain ⟨i1, rfl⟩ : ∃ i1, i = i1 + 1 := ⟨i - 1, by omega⟩
    obtain ⟨j1, rfl⟩ : ∃ j1, j = j1 + 1 := ⟨j - 1, by omega⟩
    simp only [List.getElem?_cons_succ] at ha hb
    have hi1 := (List.getElem?_eq_some.1 ha)
    have hj1 := (List.getElem?_eq_some.1 hb)
    have := List.pairwise_iff_getElem.1 hs i1 j1 (by simpa using hi1.1) (by simpa using hj1.1)
      (by omega)
    simp only [List.getElem_map] at this
    rw [hi1.2, hj1.2] at this
    exact this
  obtain ⟨l1, hl, h1, h2, h3, h4⟩ := lookupLoop_spec p.array k hsort p.array.length 1
    ((p.array.length : Int) - 1) (le_refl _) (by omega) (by omega) (by omega)
    (fun i hi1 hi2 => by omega)
    (fun i hi e he => by
      have := (List.getElem?_eq_some.1 he).1
      omega)
  unfold Lookup
  simp only [gt_iff_lt, hlen, if_true, hl]
  have hc : countLE k tl = l1 - 1 := by
    apply countLE_unique k tl (l1 - 1)
    · rw [harr] at h2
      simp only [List.length_cons] at h2
      omega
    · intro i hi e he
      apply h3 (i + 1) (by omega) (by omega) e
      rw [harr]
      simpa using he
    · intro i hi e he
      apply h4 (i + 1) (by omega) e
      rw [harr]
      simpa using he
  have : ((l1 : Int) - 1) = ((l1 - 1 : Nat) : Int) := by omega
  rw [this, entryAt_nat, harr, hc]

end BPlusTreeInternalPage

/-! ## The children of an internal page -/

theorem boundLt_trans (lo hi : Option Int) (a : Int) (h1 : boundLt lo (some a))
    (h2 : boundLt (some a) hi) : boundLt lo hi := by
  cases lo <;> cases hi <;> simp_all [boundLt]
  omega

theorem aboveLo_of_boundLt (lo : Option Int) (a k : Int) (h1 : boundLt lo (some a))
    (h2 : a ≤ k) : aboveLo lo k := by
  cases lo <;> simp_all [boundLt, aboveLo]
  omega

theorem belowHi_of_boundLt (hi : Option Int) (a k : Int) (h1 : boundLt (some a) hi)
    (h2 : k < a) : belowHi hi k := by
  cases hi <;> simp_all [boundLt, belowHi]
  omega

theorem Children_congr {T T1 : Int → Option Int → Option Int → Int → Prop} {lm lm1 : Int → Int}
    (arr : List (Int × Int))
    (hT : ∀ e ∈ arr, ∀ l u n, T e.2 l u n → T1 e.2 l u n)
    (hlm : ∀ e ∈ arr, lm1 e.2 = lm e.2) (lo hi : Option Int) (nxt : Int)
    (h : Children T lm arr lo hi nxt) : Children T1 lm1 arr lo hi nxt := by
  induction arr generalizing lo with
  | nil => exact h
  | cons e rest ih =>
    cases rest with
    | nil =>
      simp only [Children] at h ⊢
      exact ⟨hT e (by simp) _ _ _ h.1, h.2⟩
    | cons e2 rest2 =>
      simp only [Children] at h ⊢
      refine ⟨?_, h.2.1, ?_⟩
      · rw [hlm e2 (by simp)]
        exact hT e (by simp) _ _ _ h.1
      · exact ih (fun x hx => hT x (by simp [hx])) (fun x hx => hlm x (by simp [hx])) _ h.2.2

theorem Children_append {T : Int → Option Int → Option Int → Int → Prop} {lm : Int → Int}
    (A : List (Int × Int)) (hA : A ≠ []) (b : Int × Int) (B : List (Int × Int))
    (lo hi : Option Int) (nxt : Int) :
    Children T lm (A ++ b :: B) lo hi nxt ↔
      Children T lm A lo (some b.1) (lm b.2) ∧ Children T lm (b :: B) (some b.1) hi nxt := by
  induction A generalizing lo with
  | nil => exact absurd rfl hA
  | cons a A ih =>
    cases A with
    | nil =>
      simp only [List.cons_append, List.nil_append, Children]
      constructor
      · intro h
        exact ⟨⟨h.1, h.2.1⟩, h.2.2⟩
      · intro h
        exact ⟨h.1.1, h.1.2, h.2⟩
    | cons a2 A2 =>
      have := ih (by simp) (some a2.1)
      simp only [List.cons_append] at this ⊢
      simp only [Children]
      rw [this]
      tauto

theorem Children_mid {T : Int → Option Int → Option Int → Int → Prop} {lm : Int → Int}
    (pre : List (Int × Int)) (e : Int × Int) (post : List (Int × Int))
    (lo hi : Option Int) (nxt : Int) :
    Children T lm (pre ++ e :: post) lo hi nxt ↔
      (pre = [] ∨ Children T lm pre lo (some e.1) (lm e.2)) ∧
      T e.2 (loAt pre e lo) (hiAt post hi) (nxtAt lm post nxt) ∧
      boundLt (loAt pre e lo) (hiAt post hi) ∧
      (post = [] ∨ Children T lm post (hiAt post hi) hi nxt) := by
  have hsingle : ∀ lo1 : Option Int, Children T lm (e :: post) lo1 hi nxt ↔
      T e.2 lo1 (hiAt post hi) (nxtAt lm post nxt) ∧ boundLt lo1 (hiAt post hi) ∧
      (post = [] ∨ Children T lm post (hiAt post hi) hi nxt) := by
    intro lo1
    cases post with
    | nil => simp [Children, hiAt, nxtAt]
    | cons b post2 => simp [Children, hiAt, nxtAt]
  cases pre with
  | nil =>
    simp only [List.nil_append, loAt, true_or, true_and]
    exact hsingle lo
  | cons a pre2 =>
    rw [Children_append (a :: pre2) (by simp) e post, hsingle]
    simp [loAt]

theorem Children_keys {T : Int → Option Int → Option Int → Int → Prop} {lm : Int → Int}
    (e0 : Int × Int) (tl : List (Int × Int)) (lo hi : Option Int) (nxt : Int)
    (h : Children T lm (e0 :: tl) lo hi nxt) :
    (tl.map Prod.fst).Pairwise (· < ·) ∧
      (∀ e ∈ tl, boundLt lo (some e.1) ∧ boundLt (some e.1) hi) ∧ boundLt lo hi := by
  induction tl generalizing e0 lo with
  | nil =>
    simp only [Children] at h
    simp [h.2]
  | cons e1 tl2 ih =>
    simp only [Children] at h
    obtain ⟨hp, hb, hbhi⟩ := ih e1 (some e1.1) h.2.2
    refine ⟨?_, ?_, boundLt_trans _ _ _ h.2.1 hbhi⟩
    · simp only [List.map_cons, List.pairwise_cons]
      refine ⟨?_, hp⟩
      intro a ha
      obtain ⟨x, hx, hxa⟩ := List.mem_map.1 ha
      have := (hb x hx).1
      simp only [boundLt] at this
      rw [← hxa]
      exact this
    · intro e he
      rcases List.mem_cons.1 he with h1 | h1
      · rw [h1]
        exact ⟨h.2.1, hbhi⟩
      · have := hb e h1
        exact ⟨boundLt_trans _ _ _ h.2.1 this.1, this.2⟩

theorem countLE_le (k : Int) (tl : List (Int × Int)) : countLE k tl ≤ tl.length := by
  induction tl with
  | nil => simp [countLE]
  | cons e rest ih =>
    simp only [countLE]
    split
    · simp only [List.length_cons]; omega
    · omega

theorem countLE_props (k : Int) (tl : List (Int × Int)) :
    (∀ i : Nat, i < countLE k tl → ∀ e, tl[i]? = some e → e.1 ≤ k) ∧
      (∀ e, tl[countLE k tl]? = some e → k < e.1) := by
  induction tl with
  | nil => simp [countLE]
  | cons a rest ih =>
    simp only [countLE]
    by_cases ha : a.1 ≤ k
    · simp only [ha, if_true]
      refine ⟨?_, ?_⟩
      · intro i hi e he
        cases i with
        | zero =>
          simp only [List.getElem?_cons_zero, Option.some.injEq] at he
          rw [← he]; exact ha
        | succ i =>
          simp only [List.getElem?_cons_succ] at he
          exact ih.1 i (by omega) e he
      · intro e he
        simp only [List.getElem?_cons_succ] at he
        exact ih.2 e he
    · simp only [ha, if_false]
      refine ⟨fun i hi => absurd hi (by omega), ?_⟩
      intro e he
      simp only [List.getElem?_cons_zero, Option.some.injEq] at he
      rw [← he]; omega

theorem split_at_index (arr : List (Int × Int)) (j : Nat) (hj : j < arr.length) :
    ∃ e, arr[j]? = some e ∧ arr = arr.take j ++ e :: arr.drop (j + 1) := by
  refine ⟨arr[j], List.getElem?_eq_getElem hj, ?_⟩
  rw [← List.drop_eq_getElem_cons hj, List.take_append_drop]

/-- The child an internal page selects for the key `k`, with the entries
before and after it and the key bounds of the child. -/
theorem Children_select (e0 : Int × Int) (tl : List (Int × Int)) (lo hi : Option Int) (k : Int)
    (hlo : aboveLo lo k) (hhi : belowHi hi k) :
    ∃ pre e post, e0 :: tl = pre ++ e :: post ∧ pre.length = countLE k tl ∧
      (e0 :: tl)[countLE k tl]? = some e ∧
      aboveLo (loAt pre e lo) k ∧ belowHi (hiAt post hi) k := by
  have hle := countLE_le k tl
  have hprops := countLE_props k tl
  have hlt : countLE k tl < (e0 :: tl).length := by simp only [List.length_cons]; omega
  obtain ⟨e, he, hsplit⟩ := split_at_index (e0 :: tl) (countLE k tl) hlt
  refine ⟨(e0 :: tl).take (countLE k tl), e, (e0 :: tl).drop (countLE k tl + 1), hsplit, ?_,
    he, ?_, ?_⟩
  · rw [List.length_take]
    simp only [List.length_cons]
    omega
  · cases hc : countLE k tl with
    | zero => simpa [loAt] using hlo
    | succ j =>
      have h1 : (e0 :: tl).take (j + 1) = e0 :: tl.take j := rfl
      simp only [h1, loAt, aboveLo]
      rw [hc] at he
      simp only [List.getElem?_cons_succ] at he
      exact hprops.1 j (by omega) e he
  · simp only [List.drop_succ_cons]
    cases hd : tl.drop (countLE k tl) with
    | nil => simpa [hiAt] using hhi
    | cons b rest =>
      simp only [hiAt, belowHi]
      apply hprops.2 b
      have : (tl.drop (countLE k tl))[0]? = some b := by rw [hd]; simp
      simpa using this


/-! ## Subtrees and the pages they occupy -/

namespace BPlusTree

theorem getInternal_eq (t : BPlusTree) (pid : Int) (p : BPlusTreeInternalPage)
    (h : t.pages pid = some (.internal p)) : t.getInternal pid = some p := by
  unfold getInternal
  rw [h]

theorem getLeaf_eq (t : BPlusTree) (pid : Int) (p : BPlusTreeLeafPage)
    (h : t.pages pid = some (.leaf p)) : t.getLeaf pid = some p := by
  unfold getLeaf
  rw [h]

theorem getInternal_of_pages_eq (t t1 : BPlusTree) (pid : Int) (h : t1.pages pid = t.pages pid) :
    t1.getInternal pid = t.getInternal pid := by
  unfold getInternal
  rw [h]

theorem getLeaf_of_pages_eq (t t1 : BPlusTree) (pid : Int) (h : t1.pages pid = t.pages pid) :
    t1.getLeaf pid = t.getLeaf pid := by
  unfold getLeaf
  rw [h]

theorem getInternal_some (t : BPlusTree) (pid : Int) (p : BPlusTreeInternalPage)
    (h : t.getInternal pid = some p) : t.pages pid = some (.internal p) := by
  unfold getInternal at h
  split at h
  · rename_i q hq
    rw [hq, Option.some.inj h]
  · exact Option.noConfusion h

theorem getLeaf_some (t : BPlusTree) (pid : Int) (p : BPlusTreeLeafPage)
    (h : t.getLeaf pid = some p) : t.pages pid = some (.leaf p) := by
  unfold getLeaf at h
  split at h
  · rename_i q hq
    rw [hq, Option.some.inj h]
  · exact Option.noConfusion h

theorem foldr_contents_congr (f g : Int → List (Int × Int)) (l : List (Int × Int))
    (h : ∀ e ∈ l, f e.2 = g e.2) :
    l.foldr (fun e acc => f e.2 ++ acc) [] = l.foldr (fun e acc => g e.2 ++ acc) [] := by
  induction l with
  | nil => rfl
  | cons e rest ih =>
    simp only [List.foldr_cons]
    rw [h e (by simp), ih (fun x hx => h x (by simp [hx]))]

theorem InSub_self (t : BPlusTree) (h : Nat) (pid : Int) : InSub t h pid pid := by
  cases h with
  | zero => rfl
  | succ h => exact Or.inl rfl

theorem InSub_child (t : BPlusTree) (h : Nat) (pid : Int) (p : BPlusTreeInternalPage)
    (hp : t.getInternal pid = some p) (e : Int × Int) (he : e ∈ p.array) (q : Int)
    (hq : InSub t h e.2 q) : InSub t (h + 1) pid q :=
  Or.inr ⟨p, hp, e, he, hq⟩

/-- A store that agrees with `t` on the pages of a subtree has the same
subtree. -/
theorem frame (t t1 : BPlusTree) (hl : t1.leaf_max_size = t.leaf_max_size)
    (him : t1.internal_max_size = t.internal_max_size) (h : Nat) :
    ∀ pid, (∀ q, InSub t h pid q → t1.pages q = t.pages q) →
      (∀ q, InSub t1 h pid q ↔ InSub t h pid q) ∧ leftmost t1 h pid = leftmost t h pid ∧
      contents t1 h pid = contents t h pid ∧
      (∀ par lo hi nxt, Tree t h pid par lo hi nxt → Tree t1 h pid par lo hi nxt) := by
  induction h with
  | zero =>
    intro pid hag
    have hpid := hag pid rfl
    refine ⟨fun q => Iff.rfl, rfl, ?_, ?_⟩
    · simp only [contents, getLeaf_of_pages_eq t t1 pid hpid]
    · intro par lo hi nxt ht
      simp only [Tree] at ht ⊢
      rw [hpid, hl]
      exact ht
  | succ h ih =>
    intro pid hag
    have hpid := hag pid (InSub_self t (h + 1) pid)
    have hgi := getInternal_of_pages_eq t t1 pid hpid
    have hch : ∀ p, t.getInternal pid = some p → ∀ e ∈ p.array,
        (∀ q, InSub t1 h e.2 q ↔ InSub t h e.2 q) ∧ leftmost t1 h e.2 = leftmost t h e.2 ∧
        contents t1 h e.2 = contents t h e.2 ∧
        (∀ par lo hi nxt, Tree t h e.2 par lo hi nxt → Tree t1 h e.2 par lo hi nxt) := by
      intro p hp e he
      exact ih e.2 (fun q hq => hag q (InSub_child t h pid p hp e he q hq))
    refine ⟨?_, ?_, ?_, ?_⟩
    · intro q
      simp only [InSub, hgi]
      constructor
      · rintro (h1 | ⟨p, hp, e, he, hq⟩)
        · exact Or.inl h1
        · exact Or.inr ⟨p, hp, e, he, ((hch p hp e he).1 q).1 hq⟩
      · rintro (h1 | ⟨p, hp, e, he, hq⟩)
        · exact Or.inl h1
        · exact Or.inr ⟨p, hp, e, he, ((hch p hp e he).1 q).2 hq⟩
    · simp only [leftmost, hgi]
      cases hp : t.getInternal pid with
      | none => rfl
      | some p =>
        simp only
        cases hparr : p.array with
        | nil => rfl
        | cons e rest => exact (hch p hp e (by rw [hparr]; simp)).2.1
    · simp only [contents, hgi]
      cases hp : t.getInternal pid with
      | none => rfl
      | some p =>
        simp only
        exact foldr_contents_congr _ _ _ (fun e he => (hch p hp e he).2.2.1)
    · intro par lo hi nxt ht
      simp only [Tree] at ht ⊢
      obtain ⟨p, hp, h1, h2, h3, h4, h5, h6, h7⟩ := ht
      refine ⟨p, by rw [hpid]; exact hp, h1, h2, by rw [h3, him], h4, h5, h6, ?_⟩
      have hp2 := getInternal_eq t pid p hp
      exact Children_congr p.array (fun e he l u n hT => (hch p hp2 e he).2.2.2 _ l u n hT)
        (fun e he => (hch p hp2 e he).2.1) lo hi nxt h7

theorem Children_mem {T : Int → Option Int → Option Int → Int → Prop} {lm : Int → Int}
    (arr : List (Int × Int)) (lo hi : Option Int) (nxt : Int)
    (h : Children T lm arr lo hi nxt) : ∀ e ∈ arr, ∃ l u n, T e.2 l u n := by
  induction arr generalizing lo with
  | nil => exact fun e he => absurd he (List.not_mem_nil e)
  | cons a rest ih =>
    intro e he
    cases rest with
    | nil =>
      simp only [List.mem_singleton] at he
      simp only [Children] at h
      rw [he]
      exact ⟨_, _, _, h.1⟩
    | cons a2 rest2 =>
      simp only [Children] at h
      rcases List.mem_cons.1 he with h1 | h1
      · rw [h1]
        exact ⟨_, _, _, h.1⟩
      · exact ih _ h.2.2 e h1

theorem Tree_page (t : BPlusTree) (h : Nat) (pid par : Int) (lo hi : Option Int) (nxt : Int)
    (ht : Tree t h pid par lo hi nxt) : ∃ pg, t.pages pid = some pg ∧ pg.GetParentPageId = par ∧
      pg.GetPageId = pid ∧ (pg.IsLeafPage = true ↔ h = 0) := by
  cases h with
  | zero =>
    simp only [Tree] at ht
    obtain ⟨p, hp, h1, h2, _⟩ := ht
    exact ⟨_, hp, h2, h1, by simp [BPlusTreePage.IsLeafPage]⟩
  | succ h =>
    simp only [Tree] at ht
    obtain ⟨p, hp, h1, h2, _⟩ := ht
    exact ⟨_, hp, h2, h1, by simp [BPlusTreePage.IsLeafPage]⟩

/-- Every page of a subtree is the root of a subtree of at most that height. -/
theorem node_of_mem (t : BPlusTree) (h : Nat) :
    ∀ pid par lo hi nxt q, Tree t h pid par lo hi nxt → InSub t h pid q →
      ∃ j, j ≤ h ∧ ∃ par1 lo1 hi1 nxt1, Tree t j q par1 lo1 hi1 nxt1 := by
  induction h with
  | zero =>
    intro pid par lo hi nxt q ht hq
    simp only [InSub] at hq
    subst hq
    exact ⟨0, le_refl _, par, lo, hi, nxt, ht⟩
  | succ h ih =>
    intro pid par lo hi nxt q ht hq
    simp only [InSub] at hq
    rcases hq with hq | ⟨p, hp, e, he, hq⟩
    · subst hq
      exact ⟨h + 1, le_refl _, par, lo, hi, nxt, ht⟩
    · simp only [Tree] at ht
      obtain ⟨p1, hp1, _, _, _, _, _, _, hch⟩ := ht
      have : p1 = p := by
        have := getInternal_eq t pid p1 hp1
        rw [hp] at this
        exact (Option.some.inj this).symm
      subst this
      obtain ⟨l, u, n, hT⟩ := Children_mem p1.array lo hi nxt hch e he
      obtain ⟨j, hj, r⟩ := ih e.2 pid l u n q hT hq
      exact ⟨j, by omega, r⟩

theorem height_unique (t : BPlusTree) (j : Nat) :
    ∀ j1 x par lo hi nxt par1 lo1 hi1 nxt1, Tree t j x par lo hi nxt →
      Tree t j1 x par1 lo1 hi1 nxt1 → j = j1 := by
  induction j with
  | zero =>
    intro j1 x par lo hi nxt par1 lo1 hi1 nxt1 h1 h2
    cases j1 with
    | zero => rfl
    | succ j1 =>
      simp only [Tree] at h1 h2
      obtain ⟨p, hp, _⟩ := h1
      obtain ⟨p1, hp1, _⟩ := h2
      rw [hp] at hp1
      simp at hp1
  | succ j ih =>
    intro j1 x par lo hi nxt par1 lo1 hi1 nxt1 h1 h2
    cases j1 with
    | zero =>
      simp only [Tree] at h1 h2
      obtain ⟨p, hp, _⟩ := h1
      obtain ⟨p1, hp1, _⟩ := h2
      rw [hp] at hp1
      simp at hp1
    | succ j1 =>
      simp only [Tree] at h1 h2
      obtain ⟨p, hp, _, _, _, hlen, _, _, hch⟩ := h1
      obtain ⟨p1, hp1, _, _, _, _, _, _, hch1⟩ := h2
      rw [hp] at hp1
      simp only [Option.some.injEq, BPlusTreePage.internal.injEq] at hp1
      subst hp1
      cases hparr : p.array with
      | nil => rw [hparr] at hlen; simp at hlen
      | cons e rest =>
        have he : e ∈ p.array := by rw [hparr]; simp
        obtain ⟨l, u, n, hT⟩ := Children_mem p.array lo hi nxt hch e he
        obtain ⟨l1, u1, n1, hT1⟩ := Children_mem p.array lo1 hi1 nxt1 hch1 e he
        rw [ih j1 e.2 _ _ _ _ _ _ _ _ hT hT1]

theorem mem_has_page (t : BPlusTree) (h : Nat) (pid par : Int) (lo hi : Option Int) (nxt : Int)
    (q : Int) (ht : Tree t h pid par lo hi nxt) (hq : InSub t h pid q) : t.pages q ≠ none := by
  obtain ⟨j, _, par1, lo1, hi1, nxt1, hj⟩ := node_of_mem t h pid par lo hi nxt q ht hq
  obtain ⟨pg, hpg, _⟩ := Tree_page t j q par1 lo1 hi1 nxt1 hj
  rw [hpg]
  exact Option.some_ne_none _

/-- Two different subtrees of the same height share no page. -/
theorem disjoint_subtrees (t : BPlusTree) (h : Nat) :
    ∀ a b para parb loa hia nxa lob hib nxb q, Tree t h a para loa hia nxa →
      Tree t h b parb lob hib nxb → a ≠ b → InSub t h a q → InSub t h b q → False := by
  induction h with
  | zero =>
    intro a b para parb loa hia nxa lob hib nxb q _ _ hab hqa hqb
    simp only [InSub] at hqa hqb
    exact hab (hqa.symm.trans hqb)
  | succ h ih =>
    intro a b para parb loa hia nxa lob hib nxb q hta htb hab hqa hqb
    have hta2 := hta
    have htb2 := htb
    simp only [Tree] at hta2 htb2
    obtain ⟨pa, hpa, _, _, _, _, _, _, hcha⟩ := hta2
    obtain ⟨pb, hpb, _, _, _, _, _, _, hchb⟩ := htb2
    have hga := getInternal_eq t a pa hpa
    have hgb := getInternal_eq t b pb hpb
    simp only [InSub, hga, hgb, Option.some.injEq, exists_eq_left'] at hqa hqb
    rcases hqa with hqa | ⟨ea, hea, hqa⟩
    · rcases hqb with hqb | ⟨eb, heb, hqb⟩
      · exact hab (hqa.symm.trans hqb)
      · subst hqa
        obtain ⟨l, u, n, hT⟩ := Children_mem pb.array lob hib nxb hchb eb heb
        obtain ⟨j, hj, par1, lo1, hi1, nxt1, hTj⟩ := node_of_mem t h eb.2 b l u n q hT hqb
        have := height_unique t j (h + 1) q _ _ _ _ _ _ _ _ hTj hta
        omega
    · obtain ⟨la, ua, na, hTa⟩ := Children_mem pa.array loa hia nxa hcha ea hea
      rcases hqb with hqb | ⟨eb, heb, hqb⟩
      · subst hqb
        obtain ⟨j, hj, par1, lo1, hi1, nxt1, hTj⟩ := node_of_mem t h ea.2 a la ua na q hTa hqa
        have := height_unique t j (h + 1) q _ _ _ _ _ _ _ _ hTj htb
        omega
      · obtain ⟨lb, ub, nb, hTb⟩ := Children_mem pb.array lob hib nxb hchb eb heb
        by_cases hc : ea.2 = eb.2
        · obtain ⟨pg, hpg, hpar, _⟩ := Tree_page t h ea.2 a la ua na hTa
          obtain ⟨pg1, hpg1, hpar1, _⟩ := Tree_page t h eb.2 b lb ub nb hTb
          rw [hc, hpg1] at hpg
          rw [← Option.some.inj hpg, hpar1] at hpar
          exact hab hpar.symm
        · exact ih ea.2 eb.2 a b la ua na lb ub nb q hTa hTb hc hqa hqb

theorem root_not_in_child (t : BPlusTree) (h : Nat) (pid par : Int) (lo hi : Option Int)
    (nxt : Int) (ht : Tree t (h + 1) pid par lo hi nxt) (p : BPlusTreeInternalPage)
    (hp : t.getInternal pid = some p) (e : Int × Int) (he : e ∈ p.array) :
    ¬ InSub t h e.2 pid := by
  intro hq
  have ht2 := ht
  simp only [Tree] at ht2
  obtain ⟨p1, hp1, _, _, _, _, _, _, hch⟩ := ht2
  have : p1 = p := by
    have := getInternal_eq t pid p1 hp1
    rw [hp] at this
    exact (Option.some.inj this).symm
  subst this
  obtain ⟨l, u, n, hT⟩ := Children_mem p1.array lo hi nxt hch e he
  obtain ⟨j, hj, par1, lo1, hi1, nxt1, hTj⟩ := node_of_mem t h e.2 pid l u n pid hT hq
  have := height_unique t j (h + 1) pid _ _ _ _ _ _ _ _ hTj ht
  omega

end BPlusTree

/-! ## Search in a valid subtree -/

theorem foldr_cat_append (c : Int → List (Int × Int)) (A B : List (Int × Int)) :
    (A ++ B).foldr (fun e acc => c e.2 ++ acc) [] =
      A.foldr (fun e acc => c e.2 ++ acc) [] ++ B.foldr (fun e acc => c e.2 ++ acc) [] := by
  induction A with
  | nil => rfl
  | cons a A ih =>
    simp only [List.cons_append, List.foldr_cons, ih, List.append_assoc]

theorem aboveLo_trans (lo : Option Int) (a k : Int) (h1 : boundLt lo (some a))
    (h2 : aboveLo (some a) k) : aboveLo lo k :=
  aboveLo_of_boundLt lo a k h1 h2

theorem belowHi_trans (hi : Option Int) (a k : Int) (h1 : boundLt (some a) hi)
    (h2 : belowHi (some a) k) : belowHi hi k :=
  belowHi_of_boundLt hi a k h1 h2

/-- The records below the children of an internal page are sorted and within
the key bounds when this holds below every child. -/
theorem Children_contents {T : Int → Option Int → Option Int → Int → Prop} {lm : Int → Int}
    (c : Int → List (Int × Int)) (arr : List (Int × Int))
    (hT : ∀ x ∈ arr, ∀ l u n, T x.2 l u n →
      ((c x.2).map Prod.fst).Pairwise (· < ·) ∧ ∀ e ∈ c x.2, aboveLo l e.1 ∧ belowHi u e.1)
    (lo hi : Option Int) (nxt : Int) (h : Children T lm arr lo hi nxt) :
    ((arr.foldr (fun e acc => c e.2 ++ acc) []).map Prod.fst).Pairwise (· < ·) ∧
      ∀ e ∈ arr.foldr (fun e acc => c e.2 ++ acc) [], aboveLo lo e.1 ∧ belowHi hi e.1 := by
  induction arr generalizing lo with
  | nil => simp
  | cons x rest ih =>
    cases rest with
    | nil =>
      simp only [Children] at h
      simp only [List.foldr_cons, List.foldr_nil, List.append_nil]
      exact hT x (by simp) _ _ _ h.1
    | cons x2 rest2 =>
      simp only [Children] at h
      obtain ⟨hx, hb, htl⟩ := h
      have hx1 := hT x (by simp) _ _ _ hx
      have hrec := ih (fun y hy => hT y (by simp [hy])) (some x2.1) htl
      have hk := Children_keys x2 rest2 (some x2.1) hi nxt htl
      rw [List.foldr_cons]
      refine ⟨?_, ?_⟩
      · rw [List.map_append, List.pairwise_append]
        refine ⟨hx1.1, hrec.1, ?_⟩
        intro a ha b hb2
        obtain ⟨ea, hea, rfl⟩ := List.mem_map.1 ha
        obtain ⟨eb, heb, rfl⟩ := List.mem_map.1 hb2
        have h1 := (hx1.2 ea hea).2
        have h2 := (hrec.2 eb heb).1
        simp only [belowHi, aboveLo] at h1 h2
        omega
      · intro e he
        rcases List.mem_append.1 he with h1 | h1
        · have := hx1.2 e h1
          exact ⟨this.1, belowHi_trans hi x2.1 e.1 hk.2.2 this.2⟩
        · have := hrec.2 e h1
          exact ⟨aboveLo_trans lo x2.1 e.1 hb this.1, this.2⟩

theorem valueIndexFrom_append (v : Int) (pre : List (Int × Int)) (e : Int × Int)
    (post : List (Int × Int)) (i : Int) (hpre : ∀ x ∈ pre, x.2 ≠ v) (he : e.2 = v) :
    BPlusTreeInternalPage.valueIndexFrom v (pre ++ e :: post) i = i + pre.length := by
  induction pre generalizing i with
  | nil => simp [BPlusTreeInternalPage.valueIndexFrom, he]
  | cons a pre ih =>
    have h1 := hpre a (by simp)
    rw [List.cons_append]
    simp only [BPlusTreeInternalPage.valueIndexFrom]
    rw [if_neg (fun h => h1 h.symm), ih (i + 1) (fun x hx => hpre x (by simp [hx]))]
    simp only [List.length_cons]
    push_cast
    ring

theorem ValueIndex_of_nodup (p : BPlusTreeInternalPage) (pre : List (Int × Int)) (e : Int × Int)
    (post : List (Int × Int)) (harr : p.array = pre ++ e :: post)
    (hnd : (p.array.map Prod.snd).Nodup) : p.ValueIndex e.2 = pre.length := by
  unfold BPlusTreeInternalPage.ValueIndex
  rw [harr] at hnd ⊢
  rw [valueIndexFrom_append e.2 pre e post 0 ?_ rfl]
  · simp
  · intro x hx hxe
    simp only [List.map_append, List.map_cons, List.nodup_append, List.nodup_cons] at hnd
    exact hnd.2.2 (List.mem_map_of_mem Prod.snd hx) (by simp [hxe])

namespace BPlusTree

theorem contents_leaf (t : BPlusTree) (pid : Int) (p : BPlusTreeLeafPage)
    (hp : t.pages pid = some (.leaf p)) : t.contents 0 pid = p.array := by
  simp only [contents, getLeaf_eq t pid p hp]

theorem contents_internal (t : BPlusTree) (h : Nat) (pid : Int) (p : BPlusTreeInternalPage)
    (hp : t.pages pid = some (.internal p)) :
    t.contents (h + 1) pid = p.array.foldr (fun e acc => t.contents h e.2 ++ acc) [] := by
  simp only [contents, getInternal_eq t pid p hp]

/-- The records of a well-formed subtree are sorted and within its key bounds. -/
theorem Tree_contents (t : BPlusTree) (h : Nat) :
    ∀ pid par lo hi nxt, Tree t h pid par lo hi nxt →
      ((t.contents h pid).map Prod.fst).Pairwise (· < ·) ∧
      ∀ e ∈ t.contents h pid, aboveLo lo e.1 ∧ belowHi hi e.1 := by
  induction h with
  | zero =>
    intro pid par lo hi nxt ht
    simp only [Tree] at ht
    obtain ⟨p, hp, _, _, _, _, _, _, hs, hb⟩ := ht
    rw [contents_leaf t pid p hp]
    exact ⟨hs, hb⟩
  | succ h ih =>
    intro pid par lo hi nxt ht
    simp only [Tree] at ht
    obtain ⟨p, hp, _, _, _, _, _, _, hch⟩ := ht
    rw [contents_internal t h pid p hp]
    exact Children_contents (fun c => t.contents h c) p.array
      (fun x _ l u n hT => ih x.2 pid l u n hT) lo hi nxt hch

theorem mapFind_append_of_lt (A X : List (Int × Int)) (k : Int) (hA : ∀ e ∈ A, e.1 < k) :
    mapFind (A ++ X) k = mapFind X k := by
  induction A with
  | nil => rfl
  | cons a A ih =>
    have := hA a (by simp)
    simp only [List.cons_append, mapFind]
    rw [if_neg (by omega)]
    exact ih (fun e he => hA e (by simp [he]))

theorem mapFind_append_of_gt (X B : List (Int × Int)) (k : Int) (hB : ∀ e ∈ B, k < e.1) :
    mapFind (X ++ B) k = mapFind X k := by
  induction X with
  | nil => exact BPlusTreeLeafPage.mapFind_none_of_lt B k hB
  | cons a X ih =>
    simp only [List.cons_append, mapFind]
    split
    · rfl
    · exact ih

/-- The records of an internal page around the child of the entry `e`. -/
theorem contents_around {T : Int → Option Int → Option Int → Int → Prop} {lm : Int → Int}
    (c : Int → List (Int × Int)) (pre : List (Int × Int)) (e : Int × Int)
    (post : List (Int × Int))
    (hT : ∀ x ∈ pre ++ e :: post, ∀ l u n, T x.2 l u n →
      ((c x.2).map Prod.fst).Pairwise (· < ·) ∧ ∀ e ∈ c x.2, aboveLo l e.1 ∧ belowHi u e.1)
    (lo hi : Option Int) (nxt : Int) (h : Children T lm (pre ++ e :: post) lo hi nxt) (k : Int)
    (hlo : aboveLo (loAt pre e lo) k) (hhi : belowHi (hiAt post hi) k) :
    (∀ x ∈ pre.foldr (fun e acc => c e.2 ++ acc) [], x.1 < k) ∧
      (∀ x ∈ post.foldr (fun e acc => c e.2 ++ acc) [], k < x.1) := by
  rw [Children_mid] at h
  obtain ⟨hpre, _, _, hpost⟩ := h
  constructor
  · intro x hx
    rcases hpre with hpre | hpre
    · rw [hpre] at hx
      exact absurd hx (List.not_mem_nil x)
    · have := (Children_contents c pre (fun y hy => hT y (by simp [hy])) lo (some e.1) (lm e.2)
        hpre).2 x hx
      cases pre with
      | nil => exact absurd hx (List.not_mem_nil x)
      | cons a pre2 =>
        simp only [loAt, aboveLo] at hlo
        have := this.2
        simp only [belowHi] at this
        omega
  · intro x hx
    rcases hpost with hpost | hpost
    · rw [hpost] at hx
      exact absurd hx (List.not_mem_nil x)
    · have := (Children_contents c post (fun y hy => hT y (by simp [hy])) (hiAt post hi) hi nxt
        hpost).2 x hx
      cases post with
      | nil => exact absurd hx (List.not_mem_nil x)
      | cons b post2 =>
        simp only [hiAt, belowHi] at hhi
        have := this.1
        simp only [hiAt, aboveLo] at this
        omega

/-- The child selected by `Lookup` in a well-formed internal page. -/
theorem select_child (t : BPlusTree) (h : Nat) (pid par : Int) (lo hi : Option Int) (nxt : Int)
    (ht : Tree t (h + 1) pid par lo hi nxt) (k : Int) (hlo : aboveLo lo k) (hhi : belowHi hi k) :
    ∃ p pre e post, t.pages pid = some (.internal p) ∧ p.array = pre ++ e :: post ∧
      p.Lookup k = some e.2 ∧ p.ValueIndex e.2 = pre.length ∧
      aboveLo (loAt pre e lo) k ∧ belowHi (hiAt post hi) k ∧
      Tree t h e.2 pid (loAt pre e lo) (hiAt post hi) (nxtAt (t.leftmost h) post nxt) := by
  have ht2 := ht
  simp only [Tree] at ht2
  obtain ⟨p, hp, _, _, _, hlen, _, hnd, hch⟩ := ht2
  cases hparr : p.array with
  | nil => rw [hparr] at hlen; simp at hlen
  | cons e0 tl =>
    have hne : tl ≠ [] := by
      intro h0
      rw [hparr, h0] at hlen
      simp at hlen
    rw [hparr] at hch
    have hkeys := Children_keys e0 tl lo hi nxt hch
    obtain ⟨pre, e, post, hsplit, hprelen, hget, hlo1, hhi1⟩ :=
      Children_select e0 tl lo hi k hlo hhi
    have hlook := BPlusTreeInternalPage.Lookup_spec p k e0 tl hparr hne hkeys.1
    rw [hget] at hlook
    rw [hsplit] at hch
    have hmid := (Children_mid pre e post lo hi nxt).1 hch
    refine ⟨p, pre, e, post, hp, by rw [hparr, hsplit], hlook, ?_, hlo1, hhi1, hmid.2.1⟩
    exact ValueIndex_of_nodup p pre e post (by rw [hparr, hsplit]) hnd

/-- The descent for a key within the bounds of a well-formed subtree ends in a
leaf of the subtree in which the key has the record it has in the subtree. -/
theorem findLeafLoop_spec (t : BPlusTree) (k : Int) (h : Nat) :
    ∀ pid par lo hi nxt, Tree t h pid par lo hi nxt → aboveLo lo k → belowHi hi k →
      ∀ fuel, h < fuel → ∃ leafId p, findLeafLoop t k false fuel pid = some leafId ∧
        t.pages leafId = some (.leaf p) ∧ (p.array.map Prod.fst).Pairwise (· < ·) ∧
        mapFind p.array k = mapFind (t.contents h pid) k := by
  induction h with
  | zero =>
    intro pid par lo hi nxt ht hlo hhi fuel hf
    obtain ⟨f, rfl⟩ : ∃ f, fuel = f + 1 := ⟨fuel - 1, by omega⟩
    simp only [Tree] at ht
    obtain ⟨p, hp, _, _, _, _, _, _, hs, _⟩ := ht
    refine ⟨pid, p, ?_, hp, hs, by rw [contents_leaf t pid p hp]⟩
    simp only [findLeafLoop, hp]
  | succ h ih =>
    intro pid par lo hi nxt ht hlo hhi fuel hf
    obtain ⟨f, rfl⟩ : ∃ f, fuel = f + 1 := ⟨fuel - 1, by omega⟩
    obtain ⟨p, pre, e, post, hp, harr, hlook, _, hlo1, hhi1, hT⟩ :=
      select_child t h pid par lo hi nxt ht k hlo hhi
    obtain ⟨leafId, lp, hfind, hlp, hs, hmf⟩ := ih e.2 pid _ _ _ hT hlo1 hhi1 f (by omega)
    refine ⟨leafId, lp, ?_, hlp, hs, ?_⟩
    · simp only [findLeafLoop, hp, hlook, Bool.false_eq_true, if_false]
      exact hfind
    · rw [hmf, contents_internal t h pid p hp, harr]
      have ht2 := ht
      simp only [Tree] at ht2
      obtain ⟨p1, hp1, _, _, _, _, _, _, hch⟩ := ht2
      rw [hp] at hp1
      simp only [Option.some.injEq, BPlusTreePage.internal.injEq] at hp1
      subst hp1
      rw [harr] at hch
      have har := contents_around (fun c => t.contents h c) pre e post
        (fun x _ l u n hx => Tree_contents t h x.2 pid l u n hx) lo hi nxt hch k hlo1 hhi1
      rw [foldr_cat_append, List.foldr_cons, mapFind_append_of_lt _ _ k har.1,
        mapFind_append_of_gt _ _ k har.2]

/-- `GetValue` on a valid index returns the record of the key. -/
theorem GetValue_valid (t : BPlusTree) (h : Nat) (hv : t.Valid h) (k : Int) (fuel : Nat)
    (hf : h < fuel) : t.GetValue k fuel = some (mapFind (t.entries h) k) := by
  have hroot : t.root_page_id ≠ INVALID_PAGE_ID := by
    intro h0
    obtain ⟨pg, hpg, _⟩ := Tree_page t h _ _ _ _ _ hv.tree
    have := (hv.fresh t.root_page_id (by rw [hpg]; exact Option.some_ne_none _)).1
    rw [h0] at this
    exact absurd this (by decide)
  obtain ⟨leafId, p, hfind, hp, hs, hmf⟩ :=
    findLeafLoop_spec t k h _ _ _ _ _ hv.tree trivial trivial fuel hf
  unfold GetValue FindLeafPage IsEmpty
  simp only [beq_iff_eq, hroot, if_false, hfind, Option.map_some', getLeaf_eq t leafId p hp]
  rw [BPlusTreeLeafPage.Lookup_eq_mapFind p k hs, hmf]
  rfl

end BPlusTree

/-! ## Changes of the store that keep a subtree well-formed -/

namespace BPlusTree

theorem pages_setPage (t : BPlusTree) (pid : Int) (pg : BPlusTreePage) (q : Int) :
    (t.setPage pid pg).pages q = if q = pid then some pg else t.pages q := rfl

theorem pages_setPage_self (t : BPlusTree) (pid : Int) (pg : BPlusTreePage) :
    (t.setPage pid pg).pages pid = some pg := by
  simp [setPage]

theorem pages_setPage_ne (t : BPlusTree) (pid : Int) (pg : BPlusTreePage) (q : Int)
    (h : q ≠ pid) : (t.setPage pid pg).pages q = t.pages q := by
  simp [setPage, h]

/-- A store that agrees with `t` below the root of a subtree and holds the root
page with another parent pointer has the same subtree under the new parent. -/
theorem reparent (t t1 : BPlusTree) (hl : t1.leaf_max_size = t.leaf_max_size)
    (him : t1.internal_max_size = t.internal_max_size) (h : Nat) (pid par par1 : Int)
    (lo hi : Option Int) (nxt : Int) (ht : Tree t h pid par lo hi nxt)
    (hroot : ∃ pg, t.pages pid = some pg ∧ t1.pages pid = some (pg.SetParentPageId par1))
    (hag : ∀ q, InSub t h pid q → q ≠ pid → t1.pages q = t.pages q) :
    Tree t1 h pid par1 lo hi nxt ∧ (∀ q, InSub t1 h pid q ↔ InSub t h pid q) ∧
      leftmost t1 h pid = leftmost t h pid ∧ contents t1 h pid = contents t h pid := by
  obtain ⟨pg, hpg, hpg1⟩ := hroot
  cases h with
  | zero =>
    have ht2 := ht
    simp only [Tree] at ht2
    obtain ⟨p, hp, h1, h2, h3, h4, h5, h6, h7, h8⟩ := ht2
    rw [hp] at hpg
    rw [← Option.some.inj hpg] at hpg1
    simp only [BPlusTreePage.SetParentPageId] at hpg1
    refine ⟨?_, fun q => Iff.rfl, rfl, ?_⟩
    · simp only [Tree]
      exact ⟨_, hpg1, h1, rfl, by rw [hl]; exact h3, h4, h5, h6, h7, h8⟩
    · rw [contents_leaf t pid p hp, contents_leaf t1 pid _ hpg1]
  | succ h =>
    have ht2 := ht
    simp only [Tree] at ht2
    obtain ⟨p, hp, h1, h2, h3, h4, h5, h6, h7⟩ := ht2
    rw [hp] at hpg
    rw [← Option.some.inj hpg] at hpg1
    simp only [BPlusTreePage.SetParentPageId] at hpg1
    have hgi := getInternal_eq t pid p hp
    have hgi1 := getInternal_eq t1 pid _ hpg1
    have hch : ∀ e ∈ p.array,
        (∀ q, InSub t1 h e.2 q ↔ InSub t h e.2 q) ∧ leftmost t1 h e.2 = leftmost t h e.2 ∧
        contents t1 h e.2 = contents t h e.2 ∧
        (∀ par lo hi nxt, Tree t h e.2 par lo hi nxt → Tree t1 h e.2 par lo hi nxt) := by
      intro e he
      apply frame t t1 hl him h e.2
      intro q hq
      apply hag q (InSub_child t h pid p hgi e he q hq)
      intro hqp
      rw [hqp] at hq
      exact root_not_in_child t h pid par lo hi nxt ht p hgi e he hq
    refine ⟨?_, ?_, ?_, ?_⟩
    · simp only [Tree]
      refine ⟨_, hpg1, h1, rfl, by rw [him]; exact h3, h4, h5, h6, ?_⟩
      exact Children_congr p.array (fun e he l u n hT => (hch e he).2.2.2 _ l u n hT)
        (fun e he => (hch e he).2.1) lo hi nxt h7
    · intro q
      simp only [InSub, hgi, hgi1, Option.some.injEq, exists_eq_left']
      constructor
      · rintro (h9 | ⟨e, he, hq⟩)
        · exact Or.inl h9
        · exact Or.inr ⟨e, he, ((hch e he).1 q).1 hq⟩
      · rintro (h9 | ⟨e, he, hq⟩)
        · exact Or.inl h9
        · exact Or.inr ⟨e, he, ((hch e he).1 q).2 hq⟩
    · simp only [leftmost, hgi, hgi1]
      cases hparr : p.array with
      | nil => rfl
      | cons e rest => exact (hch e (by rw [hparr]; simp)).2.1
    · rw [contents_internal t h pid p hp, contents_internal t1 h pid _ hpg1]
      exact foldr_contents_congr _ _ _ (fun e he => (hch e he).2.2.1)

theorem Tree_lt_next (t : BPlusTree) (hfresh : ∀ q, t.pages q ≠ none → 0 < q ∧ q < t.next_page_id)
    (h : Nat) (pid par : Int) (lo hi : Option Int) (nxt : Int)
    (ht : Tree t h pid par lo hi nxt) (q : Int) (hq : InSub t h pid q) :
    0 < q ∧ q < t.next_page_id :=
  hfresh q (mem_has_page t h pid par lo hi nxt q ht hq)

theorem mapFind_eq_none_iff (l : List (Int × Int)) (k : Int) :
    mapFind l k = none ↔ k ∉ l.map Prod.fst := by
  induction l with
  | nil => simp [mapFind]
  | cons e rest ih =>
    simp only [mapFind, List.map_cons, List.mem_cons, not_or]
    split
    · rename_i he
      simp [he]
    · rename_i he
      rw [ih]
      constructor
      · intro h
        exact ⟨fun h2 => he h2.symm, h⟩
      · exact fun h => h.2

theorem mapFind_of_mem (l : List (Int × Int)) (k v : Int)
    (hs : (l.map Prod.fst).Pairwise (· < ·)) (hm : (k, v) ∈ l) : mapFind l k = some v := by
  induction l with
  | nil => exact absurd hm (List.not_mem_nil _)
  | cons e rest ih =>
    simp only [List.map_cons, List.pairwise_cons] at hs
    simp only [mapFind]
    rcases List.mem_cons.1 hm with h1 | h1
    · rw [← h1]
      simp
    · have : e.1 < k := hs.1 k (List.mem_map.2 ⟨(k, v), h1, rfl⟩)
      rw [if_neg (by omega)]
      exact ih hs.2 h1

end BPlusTree
/-! ## Parent pointers, sorted lists and the children of a page that changes -/

namespace BPlusTreePage

theorem SetParentPageId_twice (pg : BPlusTreePage) (a b : Int) :
    (pg.SetParentPageId a).SetParentPageId b = pg.SetParentPageId b := by
  cases pg <;> rfl

theorem SetParentPageId_same (pg : BPlusTreePage) :
    pg.SetParentPageId pg.GetParentPageId = pg := by
  cases pg <;> rfl

end BPlusTreePage

theorem insertKV_length (l : List (Int × Int)) (k v : Int) :
    (insertKV k v l).length = l.length + 1 :=
  (insertKV_perm l k v).length_eq

theorem mem_insertKV (l : List (Int × Int)) (k v : Int) (e : Int × Int) :
    e ∈ insertKV k v l ↔ e = (k, v) ∨ e ∈ l := by
  rw [(insertKV_perm l k v).mem_iff, List.mem_cons]

/-- A sorted list cut at index `i`: the keys before are below the key at `i`,
the keys from `i` on are not. -/
theorem sorted_cut (l : List (Int × Int)) (hs : (l.map Prod.fst).Pairwise (· < ·)) (i : Nat)
    (b : Int × Int) (rest : List (Int × Int)) (hd : l.drop i = b :: rest) :
    (∀ e ∈ l.take i, e.1 < b.1) ∧ (∀ e ∈ l.drop i, b.1 ≤ e.1) ∧
      ((l.take i).map Prod.fst).Pairwise (· < ·) ∧ ((l.drop i).map Prod.fst).Pairwise (· < ·) := by
  have hl : l = l.take i ++ l.drop i := (List.take_append_drop i l).symm
  rw [hl, List.map_append, List.pairwise_append] at hs
  obtain ⟨h1, h2, h3⟩ := hs
  refine ⟨?_, ?_, h1, h2⟩
  · intro e he
    apply h3 e.1 (List.mem_map.2 ⟨e, he, rfl⟩) b.1
    rw [hd]
    simp
  · intro e he
    rw [hd] at he h2
    rcases List.mem_cons.1 he with h4 | h4
    · rw [h4]
    · simp only [List.map_cons, List.pairwise_cons] at h2
      exact le_of_lt (h2.1 e.1 (List.mem_map.2 ⟨e, h4, rfl⟩))

/-- The children of a page one of which has changed. -/
theorem Children_replace {T T1 : Int → Option Int → Option Int → Int → Prop}
    {lm lm1 : Int → Int} (pre : List (Int × Int)) (e : Int × Int) (post : List (Int × Int))
    (lo hi : Option Int) (nxt : Int) (h : Children T lm (pre ++ e :: post) lo hi nxt)
    (hT : ∀ x ∈ pre ++ post, ∀ l u n, T x.2 l u n → T1 x.2 l u n)
    (hlm : ∀ x ∈ pre ++ e :: post, lm1 x.2 = lm x.2)
    (he : T1 e.2 (loAt pre e lo) (hiAt post hi) (nxtAt lm post nxt)) :
    Children T1 lm1 (pre ++ e :: post) lo hi nxt := by
  rw [Children_mid] at h ⊢
  obtain ⟨h1, _, h3, h4⟩ := h
  have hnx : nxtAt lm1 post nxt = nxtAt lm post nxt := by
    cases post with
    | nil => rfl
    | cons b post2 => exact hlm b (by simp)
  refine ⟨?_, ?_, h3, ?_⟩
  · rcases h1 with h1 | h1
    · exact Or.inl h1
    · right
      rw [hlm e (by simp)]
      exact Children_congr pre (fun x hx => hT x (by simp [hx])) (fun x hx => hlm x (by simp [hx]))
        _ _ _ h1
  · rw [hnx]
    exact he
  · rcases h4 with h4 | h4
    · exact Or.inl h4
    · right
      exact Children_congr post (fun x hx => hT x (by simp [hx]))
        (fun x hx => hlm x (by simp [hx])) _ _ _ h4

/-- The children of a page one of which has been split into itself and a new
child `n` that follows it with the key `s`. -/
theorem Children_insert {T T1 : Int → Option Int → Option Int → Int → Prop}
    {lm lm1 : Int → Int} (pre : List (Int × Int)) (e : Int × Int) (post : List (Int × Int))
    (lo hi : Option Int) (nxt : Int) (s n : Int)
    (h : Children T lm (pre ++ e :: post) lo hi nxt)
    (hT : ∀ x ∈ pre ++ post, ∀ l u n, T x.2 l u n → T1 x.2 l u n)
    (hlm : ∀ x ∈ pre ++ e :: post, lm1 x.2 = lm x.2)
    (he : T1 e.2 (loAt pre e lo) (some s) (lm1 n)) (hb1 : boundLt (loAt pre e lo) (some s))
    (hn : T1 n (some s) (hiAt post hi) (nxtAt lm post nxt))
    (hb2 : boundLt (some s) (hiAt post hi)) :
    Children T1 lm1 (pre ++ e :: (s, n) :: post) lo hi nxt := by
  rw [Children_mid] at h ⊢
  obtain ⟨h1, _, _, h4⟩ := h
  have hnx : nxtAt lm1 post nxt = nxtAt lm post nxt := by
    cases post with
    | nil => rfl
    | cons b post2 => exact hlm b (by simp)
  refine ⟨?_, he, hb1, Or.inr ?_⟩
  · rcases h1 with h1 | h1
    · exact Or.inl h1
    · right
      rw [hlm e (by simp)]
      exact Children_congr pre (fun x hx => hT x (by simp [hx])) (fun x hx => hlm x (by simp [hx]))
        _ _ _ h1
  · have hpost : post = [] ∨ Children T1 lm1 post (hiAt post hi) hi nxt := by
      rcases h4 with h4 | h4
      · exact Or.inl h4
      · right
        exact Children_congr post (fun x hx => hT x (by simp [hx]))
          (fun x hx => hlm x (by simp [hx])) _ _ _ h4
    have hn1 : T1 n (some s) (hiAt post hi) (nxtAt lm1 post nxt) := by
      rw [hnx]
      exact hn
    exact (Children_mid [] (s, n) post (some s) hi nxt).2 ⟨Or.inl rfl, hn1, hb2, hpost⟩

namespace BPlusTree

theorem setParent_eq (t : BPlusTree) (pid par : Int) (pg : BPlusTreePage)
    (h : t.pages pid = some pg) :
    t.setParent pid par = some (t.setPage pid (pg.SetParentPageId par)) := by
  unfold setParent
  rw [h]

/-- The loop that gives the children of the entries `l` the parent `par`
changes the parent pointers of these pages and nothing else. -/
theorem reparentAll_spec (l : List (Int × Int)) (par : Int) :
    ∀ t : BPlusTree, (∀ e ∈ l, t.pages e.2 ≠ none) →
      ∃ t1, t.reparentAll l par = some t1 ∧ t1.leaf_max_size = t.leaf_max_size ∧
        t1.internal_max_size = t.internal_max_size ∧ t1.root_page_id = t.root_page_id ∧
        t1.next_page_id = t.next_page_id ∧
        ∀ q, t1.pages q = if q ∈ l.map Prod.snd
          then (t.pages q).map (fun pg => pg.SetParentPageId par) else t.pages q := by
  induction l with
  | nil =>
    intro t _
    exact ⟨t, rfl, rfl, rfl, rfl, rfl, fun q => by simp⟩
  | cons e rest ih =>
    intro t hp
    obtain ⟨pg, hpg⟩ := Option.ne_none_iff_exists'.1 (hp e (by simp))
    have hrest : ∀ x ∈ rest, (t.setPage e.2 (pg.SetParentPageId par)).pages x.2 ≠ none := by
      intro x hx
      rw [pages_setPage]
      split
      · exact Option.some_ne_none _
      · exact hp x (by simp [hx])
    obtain ⟨t1, h1, h2, h3, h4, h5, h6⟩ := ih _ hrest
    refine ⟨t1, ?_, h2, h3, h4, h5, ?_⟩
    · simp only [reparentAll, setParent_eq t e.2 par pg hpg]
      exact h1
    · intro q
      rw [h6 q, pages_setPage]
      by_cases hq : q = e.2
      · subst hq
        simp [hpg, BPlusTreePage.SetParentPageId_twice]
      · rw [if_neg hq]
        by_cases hm : q ∈ rest.map Prod.snd
        · rw [if_pos hm, if_pos (by simp [hm])]
        · rw [if_neg hm, if_neg (by simp only [List.map_cons, List.mem_cons, not_or]; exact ⟨hq, hm⟩)]

end BPlusTree

/-- Changes within `S` followed by changes within pages that are in `S` or new. -/
theorem BPlusTree.Evolves.trans {t t1 t2 : BPlusTree} {S S1 : Int → Prop}
    (h1 : BPlusTree.Evolves t t1 S) (h2 : BPlusTree.Evolves t1 t2 S1)
    (hS : ∀ q, S1 q → S q ∨ t.next_page_id ≤ q) : BPlusTree.Evolves t t2 S where
  leaf_max := h2.leaf_max.trans h1.leaf_max
  internal_max := h2.internal_max.trans h1.internal_max
  root := h2.root.trans h1.root
  next_le := le_trans h1.next_le h2.next_le
  frame := by
    intro q hq hlt
    have hq1 : ¬ S1 q := by
      intro h
      rcases hS q h with h3 | h3
      · exact hq h3
      · omega
    rw [h2.frame q hq1 (lt_of_lt_of_le hlt h1.next_le), h1.frame q hq hlt]
  fresh := h2.fresh

namespace BPlusTree

theorem Tree_succ_iff (t : BPlusTree) (h : Nat) (pid par : Int) (lo hi : Option Int)
    (nxt : Int) : Tree t (h + 1) pid par lo hi nxt ↔
      ∃ p, Node t h pid par lo hi nxt p ∧ p.array.length ≤ p.max_size := by
  simp only [Tree, Node]
  constructor
  · rintro ⟨p, h1, h2, h3, h4, h5, h6, h7, h8⟩
    exact ⟨p, ⟨h1, h2, h3, h4, h5, h7, h8⟩, h6⟩
  · rintro ⟨p, ⟨h1, h2, h3, h4, h5, h7, h8⟩, h6⟩
    exact ⟨p, h1, h2, h3, h4, h5, h6, h7, h8⟩

/-- The page of a node is not a page of the subtrees of its children. -/
theorem node_not_in_child (t : BPlusTree) (h : Nat) (pid par : Int) (lo hi : Option Int)
    (nxt : Int) (p : BPlusTreeInternalPage) (hn : Node t h pid par lo hi nxt p)
    (e : Int × Int) (he : e ∈ p.array) : ¬ InSub t h e.2 pid := by
  intro hq
  obtain ⟨hp, _, _, _, _, _, hch⟩ := hn
  obtain ⟨l, u, n, hT⟩ := Children_mem p.array lo hi nxt hch e he
  obtain ⟨j, hj, par1, lo1, hi1, nxt1, hTj⟩ := node_of_mem t h e.2 pid l u n pid hT hq
  cases j with
  | zero =>
    simp only [Tree] at hTj
    obtain ⟨p1, hp1, _⟩ := hTj
    rw [hp] at hp1
    simp at hp1
  | succ j =>
    simp only [Tree] at hTj
    obtain ⟨p1, hp1, _, _, _, _, _, _, hch1⟩ := hTj
    rw [hp] at hp1
    simp only [Option.some.injEq, BPlusTreePage.internal.injEq] at hp1
    subst hp1
    obtain ⟨l1, u1, n1, hT1⟩ := Children_mem p.array lo1 hi1 nxt1 hch1 e he
    have := height_unique t j h e.2 _ _ _ _ _ _ _ _ hT1 hT
    omega

/-- The subtrees of two different children of a node share no page. -/
theorem node_children_disjoint (t : BPlusTree) (h : Nat) (pid par : Int) (lo hi : Option Int)
    (nxt : Int) (p : BPlusTreeInternalPage) (hn : Node t h pid par lo hi nxt p)
    (a b : Int × Int) (ha : a ∈ p.array) (hb : b ∈ p.array) (hab : a.2 ≠ b.2) (q : Int)
    (hqa : InSub t h a.2 q) (hqb : InSub t h b.2 q) : False := by
  obtain ⟨_, _, _, _, _, _, hch⟩ := hn
  obtain ⟨l, u, n, hTa⟩ := Children_mem p.array lo hi nxt hch a ha
  obtain ⟨l1, u1, n1, hTb⟩ := Children_mem p.array lo hi nxt hch b hb
  exact disjoint_subtrees t h a.2 b.2 pid pid l u n l1 u1 n1 q hTa hTb hab hqa hqb

end BPlusTree
/-! ## Insertion into a leaf -/

namespace BPlusTree

/-- The records of a leaf with a new record form a leaf within the same bounds. -/
theorem leaf_bounds_insert (l : List (Int × Int)) (lo hi : Option Int) (k v : Int)
    (hb : ∀ e ∈ l, aboveLo lo e.1 ∧ belowHi hi e.1) (hlo : aboveLo lo k) (hhi : belowHi hi k) :
    ∀ e ∈ insertKV k v l, aboveLo lo e.1 ∧ belowHi hi e.1 := by
  intro e he
  rcases (mem_insertKV l k v e).1 he with h1 | h1
  · rw [h1]
    exact ⟨hlo, hhi⟩
  · exact hb e h1

/-- `InsertIntoLeaf` after the search, on a leaf that takes the record without
a split. -/
theorem insertAtLeaf_absorb (t : BPlusTree) (pid par : Int) (lo hi : Option Int) (nxt : Int)
    (k v : Int) (hfresh : ∀ q, t.pages q ≠ none → 0 < q ∧ q < t.next_page_id)
    (p : BPlusTreeLeafPage) (hp : t.pages pid = some (.leaf p))
    (ht : Tree t 0 pid par lo hi nxt) (hlo : aboveLo lo k) (hhi : belowHi hi k)
    (hk : mapFind p.array k = none) (hroom : p.array.length + 1 ≤ p.max_size) :
    ∃ t1, (∀ f, t.insertAtLeaf pid k v f = some (t1, true)) ∧
      Grown t t1 0 pid par lo hi nxt (insertKV k v (t.contents 0 pid)) := by
  have ht2 := ht
  simp only [Tree] at ht2
  obtain ⟨p1, hp1, h1, h2, h3, h4, h5, h6, h7, h8⟩ := ht2
  rw [hp] at hp1
  simp only [Option.some.injEq, BPlusTreePage.leaf.injEq] at hp1
  subst hp1
  have hlen := insertKV_length p.array k v
  have hins := BPlusTreeLeafPage.Insert_array p k v h7
  refine ⟨t.setPage pid (.leaf (p.Insert k v)), ?_, ?_⟩
  · intro f
    unfold insertAtLeaf
    rw [getLeaf_eq t pid p hp]
    simp only [BPlusTreeLeafPage.Lookup_eq_mapFind p k h7, hk]
    rw [if_neg]
    rw [hins]
    simp only [hlen]
    omega
  · have hpg : (t.setPage pid (.leaf (p.Insert k v))).pages pid = some (.leaf (p.Insert k v)) :=
      pages_setPage_self t pid _
    refine ⟨?_, ?_, rfl, ?_, ?_⟩
    · simp only [Tree]
      refine ⟨_, hpg, ?_, ?_, ?_, ?_, ?_, ?_, ?_, ?_⟩
      · rw [hins]; exact h1
      · rw [hins]; exact h2
      · rw [hins]; exact h3
      · rw [hins]; exact h4
      · rw [hins]; simp only [hlen]; omega
      · rw [hins]; simp only [hlen]; omega
      · rw [hins]
        exact insertKV_sorted p.array k v h7 ((mapFind_eq_none_iff p.array k).1 hk)
      · rw [hins]
        exact leaf_bounds_insert p.array lo hi k v h8 hlo hhi
    · rw [contents_leaf _ pid _ hpg, contents_leaf t pid p hp, hins]
    · refine ⟨rfl, rfl, rfl, le_refl _, ?_, ?_⟩
      · intro q hq _
        exact pages_setPage_ne t pid _ q hq
      · intro q hq
        rw [pages_setPage] at hq
        split at hq
        · rename_i h9
          rw [h9]
          exact hfresh pid (by rw [hp]; exact Option.some_ne_none _)
        · exact hfresh q hq
    · intro q hq
      exact Or.inl hq

end BPlusTree

namespace BPlusTree

/-- `Split` of a leaf page that holds one record more than its maximal size. -/
theorem SplitLeaf_spec (t : BPlusTree) (pid : Int) (q : BPlusTreeLeafPage)
    (hq : t.pages pid = some (.leaf q)) (hlen : q.array.length = q.max_size + 1)
    (hne : pid ≠ t.next_page_id) :
    ∃ t2, t.SplitLeaf pid = some (t2, t.next_page_id) ∧
      t2.leaf_max_size = t.leaf_max_size ∧ t2.internal_max_size = t.internal_max_size ∧
      t2.root_page_id = t.root_page_id ∧ t2.next_page_id = t.next_page_id + 1 ∧
      t2.pages pid = some (.leaf (BPlusTreeLeafPage.mk q.max_size q.parent_page_id q.page_id
        t.next_page_id (q.array.take ((q.max_size + 1) / 2)))) ∧
      t2.pages t.next_page_id = some (.leaf (BPlusTreeLeafPage.mk t.leaf_max_size
        INVALID_PAGE_ID t.next_page_id q.next_page_id (q.array.drop ((q.max_size + 1) / 2)))) ∧
      ∀ x, x ≠ pid → x ≠ t.next_page_id → t2.pages x = t.pages x := by
  have hg : (BPlusTree.mk t.root_page_id t.leaf_max_size t.internal_max_size t.pages
      (t.next_page_id + 1) t.header_record).getLeaf pid = some q := getLeaf_eq _ pid q hq
  refine ⟨((BPlusTree.mk t.root_page_id t.leaf_max_size t.internal_max_size t.pages
      (t.next_page_id + 1) t.header_record).setPage t.next_page_id
      (.leaf (BPlusTreeLeafPage.mk t.leaf_max_size INVALID_PAGE_ID t.next_page_id q.next_page_id
        ((q.array.take (q.max_size + 1)).drop ((q.max_size + 1) / 2))))).setPage pid
      (.leaf (BPlusTreeLeafPage.mk q.max_size q.parent_page_id q.page_id t.next_page_id
        (q.array.take ((q.max_size + 1) / 2)))), ?_, ?_⟩
  · simp only [SplitLeaf, NewPage, hg, BPlusTreeLeafPage.MoveHalfTo, hlen, lt_irrefl, if_false,
      BPlusTreeLeafPage.Init]
  · refine ⟨rfl, rfl, rfl, rfl, ?_, ?_, ?_⟩
    · simp only [pages_setPage_self]
    · rw [pages_setPage_ne _ _ _ _ (Ne.symm hne), pages_setPage_self]
      rw [← hlen, List.take_length]
    · intro x hx1 hx2
      rw [pages_setPage_ne _ _ _ _ hx1, pages_setPage_ne _ _ _ _ hx2]

end BPlusTree

namespace BPlusTree

/-- `InsertIntoLeaf` after the search, on a full leaf: the leaf is split and
the new leaf is handed to `InsertIntoParent`. -/
theorem insertAtLeaf_split (t : BPlusTree) (pid par : Int) (lo hi : Option Int) (nxt : Int)
    (k v : Int) (hfresh : ∀ q, t.pages q ≠ none → 0 < q ∧ q < t.next_page_id)
    (hlm : 1 ≤ t.leaf_max_size)
    (p : BPlusTreeLeafPage) (hp : t.pages pid = some (.leaf p))
    (ht : Tree t 0 pid par lo hi nxt) (hlo : aboveLo lo k) (hhi : belowHi hi k)
    (hk : mapFind p.array k = none) (hfull : p.max_size < p.array.length + 1) :
    ∃ t2 s n, (∀ f, t.insertAtLeaf pid k v f =
        (InsertIntoParent f t2 pid s n).map (fun t3 => (t3, true))) ∧
      Halved t t2 0 pid par lo hi nxt (insertKV k v (t.contents 0 pid)) s n := by
  have ht2 := ht
  simp only [Tree] at ht2
  obtain ⟨p1, hp1, h1, h2, h3, h4, h5, h6, h7, h8⟩ := ht2
  rw [hp] at hp1
  simp only [Option.some.injEq, BPlusTreePage.leaf.injEq] at hp1
  subst hp1
  have hlen := insertKV_length p.array k v
  have hins := BPlusTreeLeafPage.Insert_array p k v h7
  have hL : (insertKV k v p.array).length = p.max_size + 1 := by omega
  have hM : 1 ≤ p.max_size := by omega
  have hidx : (p.max_size + 1) / 2 < (insertKV k v p.array).length := by omega
  have hidx1 : 1 ≤ (p.max_size + 1) / 2 := by omega
  have hidx2 : (p.max_size + 1) / 2 ≤ p.max_size := by omega
  have hidx3 : p.max_size + 1 - (p.max_size + 1) / 2 ≤ p.max_size := by omega
  obtain ⟨b, rest, hd⟩ : ∃ b rest, (insertKV k v p.array).drop ((p.max_size + 1) / 2) = b :: rest :=
    ⟨_, _, List.drop_eq_getElem_cons hidx⟩
  have hsL := insertKV_sorted p.array k v h7 ((mapFind_eq_none_iff p.array k).1 hk)
  have hbL := leaf_bounds_insert p.array lo hi k v h8 hlo hhi
  obtain ⟨c1, c2, c3, c4⟩ := sorted_cut _ hsL _ b rest hd
  have hpid := hfresh pid (by rw [hp]; exact Option.some_ne_none _)
  have hpne : pid ≠ t.next_page_id := ne_of_lt hpid.2
  have hq : (t.setPage pid (.leaf (p.Insert k v))).pages pid =
      some (.leaf (BPlusTreeLeafPage.mk p.max_size p.parent_page_id p.page_id p.next_page_id
        (insertKV k v p.array))) := by
    rw [pages_setPage_self, hins]
  obtain ⟨t2, hs, e1, e2, e3, e4, e5, e6, e7⟩ :=
    SplitLeaf_spec (t.setPage pid (.leaf (p.Insert k v))) pid _ hq hL hpne
  simp only at e5 e6
  have hs : (t.setPage pid (.leaf (p.Insert k v))).SplitLeaf pid = some (t2, t.next_page_id) := hs
  have e1 : t2.leaf_max_size = t.leaf_max_size := e1
  have e4 : t2.next_page_id = t.next_page_id + 1 := e4
  have e6 : t2.pages t.next_page_id = some (.leaf (BPlusTreeLeafPage.mk t.leaf_max_size
      INVALID_PAGE_ID t.next_page_id p.next_page_id
      ((insertKV k v p.array).drop ((p.max_size + 1) / 2)))) := e6
  have hbmem : b ∈ insertKV k v p.array := by
    have : b ∈ (insertKV k v p.array).drop ((p.max_size + 1) / 2) := by rw [hd]; simp
    exact List.mem_of_mem_drop this
  refine ⟨t2, b.1, t.next_page_id, ?_, ?_⟩
  · intro f
    unfold insertAtLeaf
    rw [getLeaf_eq t pid p hp]
    simp only [BPlusTreeLeafPage.Lookup_eq_mapFind p k h7, hk]
    rw [if_pos (by rw [hins]; simp only [hlen]; omega)]
    simp only [hs, getLeaf_eq t2 _ _ e6, BPlusTreeLeafPage.KeyAt, hd, List.get?_cons_zero,
      Option.map_some']
  · refine ⟨?_, ?_, ?_, rfl, ?_, ?_, le_refl _, ?_, ?_, ?_⟩
    · simp only [Tree]
      refine ⟨_, e5, h1, h2, by rw [e1]; exact h3, rfl, ?_, ?_, c3, ?_⟩
      · simp only [List.length_take]
        omega
      · simp only [List.length_take]
        omega
      · intro e he
        exact ⟨(hbL e (List.mem_of_mem_take he)).1, c1 e he⟩
    · simp only [Tree]
      refine ⟨_, e6, rfl, rfl, e1.symm, h4, ?_, ?_, c4, ?_⟩
      · simp only [List.length_drop]
        omega
      · simp only [List.length_drop]
        omega
      · intro e he
        exact ⟨c2 e he, (hbL e (List.mem_of_mem_drop he)).2⟩
    · rw [contents_leaf t2 pid _ e5, contents_leaf t2 _ _ e6, contents_leaf t pid p hp]
      exact List.take_append_drop _ _
    · cases hlo0 : lo with
      | none => trivial
      | some l =>
        obtain ⟨a, ha⟩ : ∃ a, a ∈ (insertKV k v p.array).take ((p.max_size + 1) / 2) := by
          apply List.exists_mem_of_length_pos
          simp only [List.length_take]
          omega
        have := (hbL a (List.mem_of_mem_take ha)).1
        have := c1 a ha
        rw [hlo0] at *
        simp only [aboveLo] at *
        simp only [boundLt]
        omega
    · cases hhi0 : hi with
      | none => trivial
      | some u =>
        have := (hbL b hbmem).2
        rw [hhi0] at this
        exact this
    · refine ⟨e1, e2, e3, by rw [e4]; omega, ?_, ?_⟩
      · intro q hq1 hq2
        rw [e7 q hq1 (ne_of_lt hq2)]
        exact pages_setPage_ne t pid _ q hq1
      · intro q hq1
        rw [e4]
        by_cases hqp : q = pid
        · rw [hqp]
          omega
        · by_cases hqn : q = t.next_page_id
          · rw [hqn]
            omega
          · rw [e7 q hqp hqn, pages_setPage_ne t pid _ q hqp] at hq1
            have := hfresh q hq1
            omega
    · intro q hq1
      exact Or.inl hq1
    · intro q hq1
      simp only [InSub] at hq1
      right
      rw [hq1]

end BPlusTree
/-! ## The split of an internal page -/

namespace BPlusTree

/-- `Split` of an internal page that holds one entry more than its maximal
size: what the store holds afterwards. -/
theorem SplitInternal_spec (t : BPlusTree) (pid : Int) (p : BPlusTreeInternalPage)
    (hp : t.pages pid = some (.internal p)) (hlen : p.array.length = p.max_size + 1)
    (hne : pid ≠ t.next_page_id)
    (hch : ∀ e ∈ p.array, t.pages e.2 ≠ none ∧ e.2 ≠ pid ∧ e.2 ≠ t.next_page_id) :
    ∃ t2, t.SplitInternal pid = some (t2, t.next_page_id) ∧
      t2.leaf_max_size = t.leaf_max_size ∧ t2.internal_max_size = t.internal_max_size ∧
      t2.root_page_id = t.root_page_id ∧ t2.next_page_id = t.next_page_id + 1 ∧
      t2.pages pid = some (.internal (BPlusTreeInternalPage.mk p.max_size p.parent_page_id
        p.page_id (p.array.take ((p.max_size + 1) / 2)))) ∧
      t2.pages t.next_page_id = some (.internal (BPlusTreeInternalPage.mk t.internal_max_size
        INVALID_PAGE_ID t.next_page_id (p.array.drop ((p.max_size + 1) / 2)))) ∧
      ∀ x, x ≠ pid → x ≠ t.next_page_id →
        t2.pages x = if x ∈ (p.array.drop ((p.max_size + 1) / 2)).map Prod.snd
          then (t.pages x).map (fun pg => pg.SetParentPageId t.next_page_id) else t.pages x := by
  have hmoved : (p.array.take (p.max_size + 1)).drop ((p.max_size + 1) / 2) =
      p.array.drop ((p.max_size + 1) / 2) := by
    rw [← hlen, List.take_length]
  have hmem : ∀ e ∈ p.array.drop ((p.max_size + 1) / 2), e ∈ p.array :=
    fun e he => List.mem_of_mem_drop he
  have hta : ∀ x, x ≠ t.next_page_id →
      ((BPlusTree.mk t.root_page_id t.leaf_max_size t.internal_max_size t.pages
        (t.next_page_id + 1) t.header_record).setPage t.next_page_id
        (.internal (BPlusTreeInternalPage.Init t.next_page_id INVALID_PAGE_ID
          t.internal_max_size))).pages x = t.pages x :=
    fun x hx => pages_setPage_ne _ _ _ x hx
  obtain ⟨tb, hb, b1, b2, b3, b4, b5⟩ := reparentAll_spec (p.array.drop ((p.max_size + 1) / 2))
    t.next_page_id ((BPlusTree.mk t.root_page_id t.leaf_max_size t.internal_max_size t.pages
        (t.next_page_id + 1) t.header_record).setPage t.next_page_id
        (.internal (BPlusTreeInternalPage.Init t.next_page_id INVALID_PAGE_ID
          t.internal_max_size)))
    (by
      intro e he
      rw [hta e.2 (hch e (hmem e he)).2.2]
      exact (hch e (hmem e he)).1)
  have hpidnot : pid ∉ (p.array.drop ((p.max_size + 1) / 2)).map Prod.snd := by
    intro h
    obtain ⟨e, he, h1⟩ := List.mem_map.1 h
    exact (hch e (hmem e he)).2.1 h1
  have hnnot : t.next_page_id ∉ (p.array.drop ((p.max_size + 1) / 2)).map Prod.snd := by
    intro h
    obtain ⟨e, he, h1⟩ := List.mem_map.1 h
    exact (hch e (hmem e he)).2.2 h1
  have hga : ((BPlusTree.mk t.root_page_id t.leaf_max_size t.internal_max_size t.pages
        (t.next_page_id + 1) t.header_record).setPage t.next_page_id
        (.internal (BPlusTreeInternalPage.Init t.next_page_id INVALID_PAGE_ID
          t.internal_max_size))).getInternal pid = some p := by
    apply getInternal_eq
    rw [hta pid hne]
    exact hp
  have hgn : ((BPlusTree.mk t.root_page_id t.leaf_max_size t.internal_max_size t.pages
        (t.next_page_id + 1) t.header_record).setPage t.next_page_id
        (.internal (BPlusTreeInternalPage.Init t.next_page_id INVALID_PAGE_ID
          t.internal_max_size))).getInternal t.next_page_id =
      some (BPlusTreeInternalPage.Init t.next_page_id INVALID_PAGE_ID t.internal_max_size) := by
    apply getInternal_eq
    exact pages_setPage_self _ _ _
  have hgb : tb.getInternal pid = some p := by
    apply getInternal_eq
    rw [b5 pid, if_neg hpidnot, hta pid hne]
    exact hp
  have hgbn : tb.getInternal t.next_page_id =
      some (BPlusTreeInternalPage.Init t.next_page_id INVALID_PAGE_ID t.internal_max_size) := by
    apply getInternal_eq
    rw [b5 _, if_neg hnnot]
    exact pages_setPage_self _ _ _
  refine ⟨(tb.setPage t.next_page_id (.internal (BPlusTreeInternalPage.mk t.internal_max_size
      INVALID_PAGE_ID t.next_page_id (p.array.drop ((p.max_size + 1) / 2))))).setPage pid
      (.internal (BPlusTreeInternalPage.mk p.max_size p.parent_page_id
        p.page_id (p.array.take ((p.max_size + 1) / 2)))), ?_, b1, b2, b3, b4, ?_, ?_, ?_⟩
  · simp only [SplitInternal, NewPage, internalMoveHalfTo, hga, hgn, hlen, lt_irrefl, if_false,
      hmoved]
    have hb2 : ((BPlusTree.mk t.root_page_id t.leaf_max_size t.internal_max_size t.pages
        (t.next_page_id + 1) t.header_record).setPage t.next_page_id
        (.internal (BPlusTreeInternalPage.Init t.next_page_id INVALID_PAGE_ID
          t.internal_max_size))).reparentAll (p.array.drop ((p.max_size + 1) / 2))
        (BPlusTreeInternalPage.Init t.next_page_id INVALID_PAGE_ID
          t.internal_max_size).page_id = some tb := hb
    simp only [hb2, hgb, hgbn]
    rfl
  · exact pages_setPage_self _ _ _
  · rw [pages_setPage_ne _ _ _ _ (Ne.symm hne)]
    exact pages_setPage_self _ _ _
  · intro x hx1 hx2
    rw [pages_setPage_ne _ _ _ _ hx1, pages_setPage_ne _ _ _ _ hx2, b5 x, hta x hx2]

end BPlusTree

namespace BPlusTree

/-- The children of a node have pages of their own, below the next page id. -/
theorem node_child_facts (t : BPlusTree) (h : Nat) (pid par : Int) (lo hi : Option Int)
    (nxt : Int) (p : BPlusTreeInternalPage)
    (hfresh : ∀ q, t.pages q ≠ none → 0 < q ∧ q < t.next_page_id)
    (hn : Node t h pid par lo hi nxt p) (e : Int × Int) (he : e ∈ p.array) :
    (∃ l u n, Tree t h e.2 pid l u n) ∧ t.pages e.2 ≠ none ∧ e.2 ≠ pid ∧
      ∀ q, InSub t h e.2 q → q ≠ pid ∧ 0 < q ∧ q < t.next_page_id := by
  have hn2 := hn
  obtain ⟨hp, _, _, _, _, _, hch⟩ := hn2
  obtain ⟨l, u, n, hT⟩ := Children_mem p.array lo hi nxt hch e he
  have hq : ∀ q, InSub t h e.2 q → q ≠ pid ∧ 0 < q ∧ q < t.next_page_id := by
    intro q hq
    refine ⟨?_, Tree_lt_next t hfresh h e.2 pid l u n hT q hq⟩
    intro h0
    rw [h0] at hq
    exact node_not_in_child t h pid par lo hi nxt p hn e he hq
  exact ⟨⟨l, u, n, hT⟩, mem_has_page t h e.2 pid l u n e.2 hT (InSub_self t h e.2),
    (hq e.2 (InSub_self t h e.2)).1, hq⟩

/-- A page of the subtree of a child of a node is the root of another child
only if it is that child. -/
theorem node_child_root (t : BPlusTree) (h : Nat) (pid par : Int) (lo hi : Option Int)
    (nxt : Int) (p : BPlusTreeInternalPage) (hn : Node t h pid par lo hi nxt p)
    (x y : Int × Int) (hx : x ∈ p.array) (hy : y ∈ p.array) (hq : InSub t h x.2 y.2) :
    y.2 = x.2 := by
  by_contra hne
  exact node_children_disjoint t h pid par lo hi nxt p hn x y hx hy (fun h0 => hne h0.symm) y.2 hq
    (InSub_self t h y.2)

end BPlusTree

namespace BPlusTree

/-- `Split` of an internal page with one entry too many yields two well-formed
subtrees that together hold the records of the page; the key of the first
entry of the new page separates them. -/
theorem split_node (t : BPlusTree) (h : Nat) (pid par : Int) (lo hi : Option Int) (nxt : Int)
    (p : BPlusTreeInternalPage)
    (hfresh : ∀ q, t.pages q ≠ none → 0 < q ∧ q < t.next_page_id)
    (him : 3 ≤ t.internal_max_size)
    (hn : Node t h pid par lo hi nxt p) (hlen : p.array.length = p.max_size + 1) :
    ∃ t2 s, t.SplitInternal pid = some (t2, t.next_page_id) ∧
      (∃ np, t2.getInternal t.next_page_id = some np ∧ np.KeyAt 0 = some s) ∧
      Halved t t2 (h + 1) pid par lo hi nxt (t.contents (h + 1) pid) s t.next_page_id := by
  have hn2 := hn
  obtain ⟨hp, g1, g2, g3, g4, g5, hch⟩ := hn2
  have hpid := hfresh pid (by rw [hp]; exact Option.some_ne_none _)
  have hfacts := node_child_facts t h pid par lo hi nxt p hfresh hn
  obtain ⟨t2, hs, e1, e2, e3, e4, e5, e6, e7⟩ :=
    SplitInternal_spec t pid p hp hlen (ne_of_lt hpid.2)
      (fun e he => ⟨(hfacts e he).2.1, (hfacts e he).2.2.1,
        ne_of_lt ((hfacts e he).2.2.2 e.2 (InSub_self t h e.2)).2.2⟩)
  have hM : 3 ≤ p.max_size := by omega
  have hnow3 : (p.max_size + 1) / 2 < p.array.length := by omega
  obtain ⟨b, B, hd⟩ : ∃ b rest, p.array.drop ((p.max_size + 1) / 2) = b :: rest :=
    ⟨_, _, List.drop_eq_getElem_cons hnow3⟩
  obtain ⟨A, hA⟩ : ∃ A, A = p.array.take ((p.max_size + 1) / 2) := ⟨_, rfl⟩
  have hAlen : A.length = (p.max_size + 1) / 2 := by
    rw [hA, List.length_take]
    omega
  have hBlen : (b :: B).length = p.max_size + 1 - (p.max_size + 1) / 2 := by
    rw [← hd, List.length_drop, hlen]
  have harr : p.array = A ++ b :: B := by
    rw [hA, ← hd, List.take_append_drop]
  rw [← hA] at e5
  rw [hd] at e6 e7
  have hAne : A ≠ [] := by
    intro h0
    rw [h0] at hAlen
    simp only [List.length_nil] at hAlen
    omega
  have hAmem : ∀ x ∈ A, x ∈ p.array := fun x hx => by rw [harr]; simp [hx]
  have hBmem : ∀ x ∈ b :: B, x ∈ p.array := fun x hx => by
    rw [harr]
    exact List.mem_append_right _ hx
  have hnd := g5
  rw [harr, List.map_append, List.nodup_append] at hnd
  obtain ⟨hndA, hndB, hdisj⟩ := hnd
  have hpagesA : ∀ x ∈ A, ∀ q, InSub t h x.2 q → t2.pages q = t.pages q := by
    intro x hx q hq
    obtain ⟨hq1, _, hq3⟩ := (hfacts x (hAmem x hx)).2.2.2 q hq
    rw [e7 q hq1 (ne_of_lt hq3), if_neg]
    intro hm
    obtain ⟨y, hy, hy2⟩ := List.mem_map.1 hm
    have hyx := node_child_root t h pid par lo hi nxt p hn x y (hAmem x hx) (hBmem y hy)
      (by rw [hy2]; exact hq)
    exact hdisj (List.mem_map.2 ⟨x, hx, rfl⟩) (List.mem_map.2 ⟨y, hy, hyx⟩)
  have hpagesB : ∀ x ∈ b :: B, ∀ q, InSub t h x.2 q → q ≠ x.2 → t2.pages q = t.pages q := by
    intro x hx q hq hne
    obtain ⟨hq1, _, hq3⟩ := (hfacts x (hBmem x hx)).2.2.2 q hq
    rw [e7 q hq1 (ne_of_lt hq3), if_neg]
    intro hm
    obtain ⟨y, hy, hy2⟩ := List.mem_map.1 hm
    have hyx := node_child_root t h pid par lo hi nxt p hn x y (hBmem x hx) (hBmem y hy)
      (by rw [hy2]; exact hq)
    exact hne (hy2.symm.trans hyx)
  have hrootB : ∀ x ∈ b :: B, ∃ pg, t.pages x.2 = some pg ∧
      t2.pages x.2 = some (pg.SetParentPageId t.next_page_id) := by
    intro x hx
    obtain ⟨_, hx1, hx2, hx3⟩ := hfacts x (hBmem x hx)
    obtain ⟨pg, hpg⟩ := Option.ne_none_iff_exists'.1 hx1
    refine ⟨pg, hpg, ?_⟩
    rw [e7 x.2 hx2 (ne_of_lt (hx3 x.2 (InSub_self t h x.2)).2.2),
      if_pos (List.mem_map.2 ⟨x, hx, rfl⟩), hpg]
    rfl
  have hfA := fun x hx => frame t t2 e1 e2 h x.2 (hpagesA x hx)
  have hfB := fun x hx l u n1 hT =>
    reparent t t2 e1 e2 h x.2 pid t.next_page_id l u n1 hT (hrootB x hx) (hpagesB x hx)
  have hfB1 : ∀ x ∈ b :: B, (∀ q, InSub t2 h x.2 q ↔ InSub t h x.2 q) ∧
      leftmost t2 h x.2 = leftmost t h x.2 ∧ contents t2 h x.2 = contents t h x.2 := by
    intro x hx
    obtain ⟨l, u, n1, hT⟩ := (hfacts x (hBmem x hx)).1
    exact (hfB x hx l u n1 hT).2
  rw [harr, Children_append A hAne b B] at hch
  have hg2n := getInternal_eq t2 _ _ e6
  have hg2p := getInternal_eq t2 _ _ e5
  have hgp := getInternal_eq t pid p hp
  have hlmn : t2.leftmost (h + 1) t.next_page_id = t.leftmost h b.2 := by
    simp only [leftmost, hg2n]
    exact (hfB1 b (by simp)).2.1
  have hkeys : boundLt lo (some b.1) ∧ boundLt (some b.1) hi := by
    have hch2 := hn.2.2.2.2.2.2
    cases hA0 : A with
    | nil => exact absurd hA0 hAne
    | cons a0 A2 =>
      rw [harr, hA0] at hch2
      exact (Children_keys a0 (A2 ++ b :: B) lo hi nxt hch2).2.1 b (by simp)
  refine ⟨t2, b.1, hs, ⟨_, hg2n, rfl⟩, ?_, ?_, ?_, ?_, hkeys.1, hkeys.2, le_refl _, ?_, ?_, ?_⟩
  · simp only [Tree]
    refine ⟨_, e5, g1, g2, by rw [e2]; exact g3, by rw [hAlen]; omega,
      (by show A.length ≤ p.max_size; omega), hndA, ?_⟩
    rw [hlmn]
    exact Children_congr A (fun x hx l u n1 hT => (hfA x hx).2.2.2 _ l u n1 hT)
      (fun x hx => (hfA x hx).2.1) _ _ _ hch.1
  · simp only [Tree]
    refine ⟨_, e6, rfl, rfl, e2.symm, by rw [hBlen]; omega,
      (by show (b :: B).length ≤ t.internal_max_size; omega), hndB, ?_⟩
    exact Children_congr (b :: B) (fun x hx l u n1 hT => (hfB x hx l u n1 hT).1)
      (fun x hx => (hfB1 x hx).2.1) _ _ _ hch.2
  · rw [contents_internal t2 h pid _ e5, contents_internal t2 h _ _ e6,
      contents_internal t h pid p hp, harr, foldr_cat_append]
    simp only
    rw [foldr_contents_congr _ _ A (fun x hx => (hfA x hx).2.2.1),
      foldr_contents_congr _ _ (b :: B) (fun x hx => (hfB1 x hx).2.2)]
  · simp only [leftmost, hg2p, hgp]
    cases hA0 : A with
    | nil => exact absurd hA0 hAne
    | cons a0 A2 =>
      rw [harr, hA0]
      simp only [List.cons_append]
      exact (hfA a0 (by rw [hA0]; simp)).2.1
  · refine ⟨e1, e2, e3, by rw [e4]; omega, ?_, ?_⟩
    · intro q hq1 hq2
      have hqp : q ≠ pid := fun h0 => hq1 (by rw [h0]; exact InSub_self t (h + 1) pid)
      rw [e7 q hqp (ne_of_lt hq2), if_neg]
      intro hm
      obtain ⟨y, hy, hy2⟩ := List.mem_map.1 hm
      apply hq1
      rw [← hy2]
      exact InSub_child t h pid p hgp y (hBmem y hy) y.2 (InSub_self t h y.2)
    · intro q hq1
      rw [e4]
      by_cases hqp : q = pid
      · rw [hqp]
        omega
      · by_cases hqn : q = t.next_page_id
        · rw [hqn]
          omega
        · rw [e7 q hqp hqn] at hq1
          have : t.pages q ≠ none := by
            intro h0
            rw [h0] at hq1
            simp at hq1
          have := hfresh q this
          omega
  · intro q hq
    simp only [InSub, hg2p, Option.some.injEq, exists_eq_left'] at hq
    left
    rcases hq with hq | ⟨x, hx, hq⟩
    · rw [hq]
      exact InSub_self t (h + 1) pid
    · exact InSub_child t h pid p hgp x (hAmem x hx) q (((hfA x hx).1 q).1 hq)
  · intro q hq
    simp only [InSub, hg2n, Option.some.injEq, exists_eq_left'] at hq
    rcases hq with hq | ⟨x, hx, hq⟩
    · right
      rw [hq]
    · left
      exact InSub_child t h pid p hgp x (hBmem x hx) q (((hfB1 x hx).1 q).1 hq)

end BPlusTree
/-! ## A new entry in the parent -/

theorem BPlusTreeInternalPage.InsertNodeAfter_spec (p : BPlusTreeInternalPage)
    (pre : List (Int × Int)) (e : Int × Int) (post : List (Int × Int))
    (harr : p.array = pre ++ e :: post) (hvi : p.ValueIndex e.2 = pre.length) (s n : Int) :
    p.InsertNodeAfter e.2 s n = some (BPlusTreeInternalPage.mk p.max_size p.parent_page_id
      p.page_id (pre ++ e :: (s, n) :: post)) := by
  unfold BPlusTreeInternalPage.InsertNodeAfter
  rw [hvi]
  have h1 : ((pre.length : Int) + 1).toNat = pre.length + 1 := by omega
  have h2 : (pre.length : Int) + 1 > 0 := by omega
  simp only [h1, h2, if_true, harr]
  have h3 : (pre ++ e :: post).take (pre.length + 1) = pre ++ [e] := by
    rw [List.take_append_eq_append_take]
    simp
  have h4 : (pre ++ e :: post).drop (pre.length + 1) = post := by
    rw [List.drop_append_eq_append_drop]
    simp
  rw [h3, h4]
  simp

namespace BPlusTree

/-- One step of `InsertIntoParent` below a parent that is not the root. -/
theorem InsertIntoParent_step (f : Nat) (t2 : BPlusTree) (c s n pid : Int)
    (old_node new_node : BPlusTreePage) (p p4 : BPlusTreeInternalPage)
    (hold : t2.pages c = some old_node) (hnew : t2.pages n = some new_node)
    (hpar : old_node.GetParentPageId = pid) (hpid : pid ≠ INVALID_PAGE_ID)
    (hp : (t2.setPage n (new_node.SetParentPageId pid)).getInternal pid = some p)
    (hins : p.InsertNodeAfter old_node.GetPageId s new_node.GetPageId = some p4) :
    InsertIntoParent (f + 1) t2 c s n =
      if p4.array.length > p4.max_size then
        match ((t2.setPage n (new_node.SetParentPageId pid)).setPage pid
            (.internal p4)).SplitInternal pid with
        | none => none
        | some (t3, new_leaf) =>
          match t3.getInternal new_leaf with
          | none => none
          | some np =>
            match np.KeyAt 0 with
            | none => none
            | some k0 => InsertIntoParent f t3 pid k0 new_leaf
      else some ((t2.setPage n (new_node.SetParentPageId pid)).setPage pid (.internal p4)) := by
  have hroot : old_node.IsRootPage = false := by
    simp only [BPlusTreePage.IsRootPage, hpar, beq_eq_false_iff_ne, ne_eq]
    exact hpid
  simp only [InsertIntoParent, hold, hnew, hroot, Bool.false_eq_true, if_false, hpar,
    setParent_eq t2 n pid new_node hnew, hp, hins]

end BPlusTree

namespace BPlusTree

/-- `InsertIntoParent` for a child that has been split, below a well-formed
parent: the parent takes the entry for the new child after the entry of the old
one; the subtree of the parent has the records with the new record, and the
parent is split next when it has become too large. -/
theorem parent_takes (t : BPlusTree) (h : Nat) (pid par : Int) (lo hi : Option Int) (nxt : Int)
    (k v : Int) (hfresh : ∀ q, t.pages q ≠ none → 0 < q ∧ q < t.next_page_id)
    (ht : Tree t (h + 1) pid par lo hi nxt)
    (p : BPlusTreeInternalPage) (pre : List (Int × Int)) (e : Int × Int) (post : List (Int × Int))
    (hp : t.pages pid = some (.internal p)) (harr : p.array = pre ++ e :: post)
    (hvi : p.ValueIndex e.2 = pre.length)
    (hlo1 : aboveLo (loAt pre e lo) k) (hhi1 : belowHi (hiAt post hi) k)
    (t2 : BPlusTree) (s n : Int)
    (hh : Halved t t2 h e.2 pid (loAt pre e lo) (hiAt post hi) (nxtAt (t.leftmost h) post nxt)
      (insertKV k v (t.contents h e.2)) s n) :
    ∃ t4 p4, Widened t t4 h pid par lo hi nxt (insertKV k v (t.contents (h + 1) pid)) p4 ∧
      p4.array.length = p.array.length + 1 ∧
      ∀ f, InsertIntoParent (f + 1) t2 e.2 s n =
        if p4.array.length > p4.max_size then
          match t4.SplitInternal pid with
          | none => none
          | some (t5, new_leaf) =>
            match t5.getInternal new_leaf with
            | none => none
            | some np =>
              match np.KeyAt 0 with
              | none => none
              | some k0 => InsertIntoParent f t5 pid k0 new_leaf
        else some t4 := by
  obtain ⟨p0, hN, hle⟩ := (Tree_succ_iff t h pid par lo hi nxt).1 ht
  have hp0 : p0 = p := by
    have := hN.1
    rw [hp] at this
    simp only [Option.some.injEq, BPlusTreePage.internal.injEq] at this
    exact this.symm
  subst hp0
  have hN2 := hN
  obtain ⟨_, g1, g2, g3, g4, g5, hch⟩ := hN2
  have hpid := hfresh pid (by rw [hp]; exact Option.some_ne_none _)
  have hgp := getInternal_eq t pid p0 hp
  have hfacts := node_child_facts t h pid par lo hi nxt p0 hfresh hN
  have hemem : e ∈ p0.array := by rw [harr]; simp
  have hEv := hh.evolves
  obtain ⟨old_node, hold, hopar, hoid, _⟩ := Tree_page t2 h e.2 pid _ _ _ hh.left
  obtain ⟨new_node, hnew, _, hnid, _⟩ := Tree_page t2 h n _ _ _ _ hh.right
  have hnge := hh.new_ge
  have hnpid : n ≠ pid := by omega
  have he2 := (hfacts e hemem).2.2.2 e.2 (InSub_self t h e.2)
  have hen : e.2 ≠ n := by omega
  have hpid_notin : ¬ InSub t h e.2 pid :=
    node_not_in_child t h pid par lo hi nxt p0 hN e hemem
  have ht2p : t2.pages pid = some (.internal p0) := by
    rw [hEv.frame pid hpid_notin hpid.2]
    exact hp
  have hg3 : (t2.setPage n (new_node.SetParentPageId pid)).getInternal pid = some p0 := by
    apply getInternal_eq
    rw [pages_setPage_ne _ _ _ _ hnpid.symm]
    exact ht2p
  have hins := BPlusTreeInternalPage.InsertNodeAfter_spec p0 pre e post harr hvi s n
  have hinv : pid ≠ INVALID_PAGE_ID := by
    unfold INVALID_PAGE_ID
    omega
  obtain ⟨p4, hp4⟩ : ∃ p4, p4 = BPlusTreeInternalPage.mk p0.max_size p0.parent_page_id
      p0.page_id (pre ++ e :: (s, n) :: post) := ⟨_, rfl⟩
  rw [← hp4] at hins
  obtain ⟨t4, ht4⟩ : ∃ t4, t4 = (t2.setPage n (new_node.SetParentPageId pid)).setPage pid
      (.internal p4) := ⟨_, rfl⟩
  have hstep := fun f => InsertIntoParent_step f t2 e.2 s n pid old_node new_node p0 p4 hold hnew
    hopar hinv hg3 (by rw [hoid, hnid]; exact hins)
  rw [← ht4] at hstep
  have hpg4 : ∀ q, q ≠ pid → q ≠ n → t4.pages q = t2.pages q := by
    intro q hq1 hq2
    rw [ht4, pages_setPage_ne _ _ _ _ hq1, pages_setPage_ne _ _ _ _ hq2]
  have hpg4p : t4.pages pid = some (.internal p4) := by
    rw [ht4]
    exact pages_setPage_self _ _ _
  have hpg4n : t4.pages n = some (new_node.SetParentPageId pid) := by
    rw [ht4, pages_setPage_ne _ _ _ _ hnpid]
    exact pages_setPage_self _ _ _
  have hl4 : t4.leaf_max_size = t2.leaf_max_size := by rw [ht4]; rfl
  have hi4 : t4.internal_max_size = t2.internal_max_size := by rw [ht4]; rfl
  have hr4 : t4.root_page_id = t2.root_page_id := by rw [ht4]; rfl
  have hn4 : t4.next_page_id = t2.next_page_id := by rw [ht4]; rfl
  have hp4arr : p4.array = pre ++ e :: (s, n) :: post := by rw [hp4]
  have hnd := g5
  rw [harr, List.map_append, List.map_cons, List.nodup_append] at hnd
  obtain ⟨hndpre, hndpost, hdisj⟩ := hnd
  have hxe : ∀ x ∈ pre ++ post, x.2 ≠ e.2 := by
    intro x hx h0
    rcases List.mem_append.1 hx with h1 | h1
    · exact hdisj (List.mem_map.2 ⟨x, h1, rfl⟩) (by rw [h0]; simp)
    · have := (List.nodup_cons.1 hndpost).1
      exact this (by rw [← h0]; exact List.mem_map.2 ⟨x, h1, rfl⟩)
  have hxmem : ∀ x ∈ pre ++ post, x ∈ p0.array := by
    intro x hx
    rw [harr]
    rcases List.mem_append.1 hx with h1 | h1
    · simp [h1]
    · simp [h1]
  have hA : ∀ x ∈ p0.array, x.2 ≠ e.2 → ∀ q, InSub t h x.2 q → t4.pages q = t.pages q := by
    intro x hx hne q hq
    obtain ⟨hq1, _, hq3⟩ := (hfacts x hx).2.2.2 q hq
    rw [hpg4 q hq1 (by omega)]
    apply hEv.frame q _ hq3
    intro hq4
    exact node_children_disjoint t h pid par lo hi nxt p0 hN x e hx hemem hne q hq hq4
  have hB : ∀ q, InSub t2 h e.2 q → t4.pages q = t2.pages q := by
    intro q hq
    apply hpg4 q
    · rcases hh.within_left q hq with h1 | h1
      · exact ((hfacts e hemem).2.2.2 q h1).1
      · omega
    · intro h0
      rw [h0] at hq
      exact disjoint_subtrees t2 h e.2 n _ _ _ _ _ _ _ _ n hh.left hh.right hen hq
        (InSub_self t2 h n)
  have hC : ∀ q, InSub t2 h n q → q ≠ n → t4.pages q = t2.pages q := by
    intro q hq hqn
    apply hpg4 q _ hqn
    rcases hh.within_right q hq with h1 | h1
    · exact ((hfacts e hemem).2.2.2 q h1).1
    · omega
  have hFA := fun x hx hne =>
    frame t t4 (hl4.trans hEv.leaf_max) (hi4.trans hEv.internal_max) h x.2 (hA x hx hne)
  have hFE := frame t2 t4 hl4 hi4 h e.2 hB
  have hFN := reparent t2 t4 hl4 hi4 h n INVALID_PAGE_ID pid (some s) (hiAt post hi)
    (nxtAt (t.leftmost h) post nxt) hh.right ⟨new_node, hnew, hpg4n⟩ hC
  have hlm : ∀ x ∈ pre ++ e :: post, leftmost t4 h x.2 = leftmost t h x.2 := by
    intro x hx
    by_cases h0 : x.2 = e.2
    · rw [h0]
      exact hFE.2.1.trans hh.leftmost
    · exact (hFA x (by rw [harr]; exact hx) h0).2.1
  rw [harr] at hch
  have hch4 : Children (fun c l u n1 => Tree t4 h c pid l u n1) (leftmost t4 h)
      (pre ++ e :: (s, n) :: post) lo hi nxt := by
    apply Children_insert pre e post lo hi nxt s n hch
      (fun x hx l u n1 hT => (hFA x (hxmem x hx) (hxe x hx)).2.2.2 pid l u n1 hT) hlm
    · rw [hFN.2.2.1]
      exact hFE.2.2.2 _ _ _ _ hh.left
    · exact hh.lo_s
    · exact hFN.1
    · exact hh.s_hi
  have hnd4 : ((pre ++ e :: (s, n) :: post).map Prod.snd).Nodup := by
    have h1 : pre ++ e :: (s, n) :: post = (pre ++ [e]) ++ (s, n) :: post := by simp
    have h2 : (pre ++ [e]) ++ post = pre ++ e :: post := by simp
    rw [h1, (List.perm_middle.map Prod.snd).nodup_iff, List.map_cons, List.nodup_cons, h2,
      ← harr]
    refine ⟨?_, g5⟩
    intro hm
    obtain ⟨x, hx, hx2⟩ := List.mem_map.1 hm
    have := (hfacts x hx).2.2.2 x.2 (InSub_self t h x.2)
    simp only at hx2
    omega
  have har := contents_around (fun c => t.contents h c) pre e post
    (fun x _ l u n1 hx => Tree_contents t h x.2 pid l u n1 hx) lo hi nxt hch k hlo1 hhi1
  have hg4p := getInternal_eq t4 pid p4 hpg4p
  refine ⟨t4, p4, ⟨?_, ?_, ?_, ?_, ?_⟩, ?_, hstep⟩
  · refine ⟨hpg4p, by rw [hp4]; exact g1, by rw [hp4]; exact g2, ?_, ?_, ?_, ?_⟩
    · rw [hi4, hEv.internal_max, hp4]
      exact g3
    · rw [hp4arr]
      simp only [List.length_append, List.length_cons]
      omega
    · rw [hp4arr]
      exact hnd4
    · rw [hp4arr]
      exact hch4
  · rw [contents_internal t4 h pid p4 hpg4p, hp4arr, contents_internal t h pid p0 hp, harr,
      foldr_cat_append, foldr_cat_append, List.foldr_cons, List.foldr_cons, List.foldr_cons,
      insertKV_append_of_lt _ _ k v har.1,
      insertKV_append_of_le _ _ k v (fun x hx => le_of_lt (har.2 x hx)), ← hh.contents,
      hFE.2.2.1, hFN.2.2.2,
      foldr_contents_congr (fun c => t4.contents h c) (fun c => t.contents h c) pre
        (fun x hx => (hFA x (hxmem x (by simp [hx])) (hxe x (by simp [hx]))).2.2.1),
      foldr_contents_congr (fun c => t4.contents h c) (fun c => t.contents h c) post
        (fun x hx => (hFA x (hxmem x (by simp [hx])) (hxe x (by simp [hx]))).2.2.1)]
    simp only [List.append_assoc]
  · simp only [leftmost, hg4p, hgp]
    rw [hp4arr, harr]
    cases pre with
    | nil => exact hlm e (by simp)
    | cons a pre2 => exact hlm a (by simp)
  · refine ⟨hl4.trans hEv.leaf_max, hi4.trans hEv.internal_max, hr4.trans hEv.root,
      by rw [hn4]; exact hEv.next_le, ?_, ?_⟩
    · intro q hq1 hq2
      have hqp : q ≠ pid := fun h0 => hq1 (by rw [h0]; exact InSub_self t (h + 1) pid)
      rw [hpg4 q hqp (by omega)]
      apply hEv.frame q _ hq2
      intro hq3
      exact hq1 (InSub_child t h pid p0 hgp e hemem q hq3)
    · intro q hq1
      rw [hn4]
      by_cases hqp : q = pid
      · rw [hqp]
        have := hEv.next_le
        omega
      · by_cases hqn : q = n
        · rw [hqn]
          exact hEv.fresh n (by rw [hnew]; exact Option.some_ne_none _)
        · rw [hpg4 q hqp hqn] at hq1
          exact hEv.fresh q hq1
  · intro q hq
    simp only [InSub, hg4p, Option.some.injEq, exists_eq_left'] at hq
    rcases hq with hq | ⟨x, hx, hq⟩
    · left
      rw [hq]
      exact InSub_self t (h + 1) pid
    · rw [hp4arr] at hx
      have hx2 : x = (s, n) ∨ x ∈ pre ++ e :: post := by
        simp only [List.mem_append, List.mem_cons] at hx ⊢
        tauto
      rcases hx2 with hx2 | hx2
      · rw [hx2] at hq
        rcases hh.within_right q ((hFN.2.1 q).1 hq) with h1 | h1
        · exact Or.inl (InSub_child t h pid p0 hgp e hemem q h1)
        · exact Or.inr h1
      · by_cases h0 : x.2 = e.2
        · rw [h0] at hq
          rcases hh.within_left q ((hFE.1 q).1 hq) with h1 | h1
          · exact Or.inl (InSub_child t h pid p0 hgp e hemem q h1)
          · exact Or.inr h1
        · have hxm : x ∈ p0.array := by rw [harr]; exact hx2
          exact Or.inl (InSub_child t h pid p0 hgp x hxm q (((hFA x hxm h0).1 q).1 hq))
  · rw [hp4arr, harr]
    simp only [List.length_append, List.length_cons]
    omega

end BPlusTree
/-! ## Insertion into a well-formed subtree -/

namespace BPlusTree

/-- A parent whose child has taken the record without being split. -/
theorem parent_keeps (t : BPlusTree) (h : Nat) (pid par : Int) (lo hi : Option Int) (nxt : Int)
    (k v : Int) (hfresh : ∀ q, t.pages q ≠ none → 0 < q ∧ q < t.next_page_id)
    (ht : Tree t (h + 1) pid par lo hi nxt)
    (p : BPlusTreeInternalPage) (pre : List (Int × Int)) (e : Int × Int) (post : List (Int × Int))
    (hp : t.pages pid = some (.internal p)) (harr : p.array = pre ++ e :: post)
    (hlo1 : aboveLo (loAt pre e lo) k) (hhi1 : belowHi (hiAt post hi) k)
    (t1 : BPlusTree)
    (hg : Grown t t1 h e.2 pid (loAt pre e lo) (hiAt post hi) (nxtAt (t.leftmost h) post nxt)
      (insertKV k v (t.contents h e.2))) :
    Grown t t1 (h + 1) pid par lo hi nxt (insertKV k v (t.contents (h + 1) pid)) := by
  obtain ⟨p0, hN, hle⟩ := (Tree_succ_iff t h pid par lo hi nxt).1 ht
  have hp0 : p0 = p := by
    have := hN.1
    rw [hp] at this
    simp only [Option.some.injEq, BPlusTreePage.internal.injEq] at this
    exact this.symm
  subst hp0
  have hN2 := hN
  obtain ⟨_, g1, g2, g3, g4, g5, hch⟩ := hN2
  have hpid := hfresh pid (by rw [hp]; exact Option.some_ne_none _)
  have hgp := getInternal_eq t pid p0 hp
  have hfacts := node_child_facts t h pid par lo hi nxt p0 hfresh hN
  have hemem : e ∈ p0.array := by rw [harr]; simp
  have hEv := hg.evolves
  have hpid_notin : ¬ InSub t h e.2 pid :=
    node_not_in_child t h pid par lo hi nxt p0 hN e hemem
  have ht1p : t1.pages pid = some (.internal p0) := by
    rw [hEv.frame pid hpid_notin hpid.2]
    exact hp
  have hg1p := getInternal_eq t1 pid p0 ht1p
  have hnd := g5
  rw [harr, List.map_append, List.map_cons, List.nodup_append] at hnd
  obtain ⟨hndpre, hndpost, hdisj⟩ := hnd
  have hxe : ∀ x ∈ pre ++ post, x.2 ≠ e.2 := by
    intro x hx h0
    rcases List.mem_append.1 hx with h1 | h1
    · exact hdisj (List.mem_map.2 ⟨x, h1, rfl⟩) (by rw [h0]; simp)
    · have := (List.nodup_cons.1 hndpost).1
      exact this (by rw [← h0]; exact List.mem_map.2 ⟨x, h1, rfl⟩)
  have hxmem : ∀ x ∈ pre ++ post, x ∈ p0.array := by
    intro x hx
    rw [harr]
    rcases List.mem_append.1 hx with h1 | h1
    · simp [h1]
    · simp [h1]
  have hA : ∀ x ∈ p0.array, x.2 ≠ e.2 → ∀ q, InSub t h x.2 q → t1.pages q = t.pages q := by
    intro x hx hne q hq
    obtain ⟨hq1, _, hq3⟩ := (hfacts x hx).2.2.2 q hq
    apply hEv.frame q _ hq3
    intro hq4
    exact node_children_disjoint t h pid par lo hi nxt p0 hN x e hx hemem hne q hq hq4
  have hFA := fun x hx hne => frame t t1 hEv.leaf_max hEv.internal_max h x.2 (hA x hx hne)
  have hlm : ∀ x ∈ pre ++ e :: post, leftmost t1 h x.2 = leftmost t h x.2 := by
    intro x hx
    by_cases h0 : x.2 = e.2
    · rw [h0]
      exact hg.leftmost
    · exact (hFA x (by rw [harr]; exact hx) h0).2.1
  rw [harr] at hch
  have hch1 : Children (fun c l u n1 => Tree t1 h c pid l u n1) (leftmost t1 h)
      (pre ++ e :: post) lo hi nxt :=
    Children_replace pre e post lo hi nxt hch
      (fun x hx l u n1 hT => (hFA x (hxmem x hx) (hxe x hx)).2.2.2 pid l u n1 hT) hlm hg.tree
  have har := contents_around (fun c => t.contents h c) pre e post
    (fun x _ l u n1 hx => Tree_contents t h x.2 pid l u n1 hx) lo hi nxt hch k hlo1 hhi1
  refine ⟨?_, ?_, ?_, ?_, ?_⟩
  · rw [Tree_succ_iff]
    refine ⟨p0, ⟨ht1p, g1, g2, by rw [hEv.internal_max]; exact g3, g4, g5, ?_⟩, hle⟩
    rw [harr]
    exact hch1
  · rw [contents_internal t1 h pid p0 ht1p, contents_internal t h pid p0 hp, harr,
      foldr_cat_append, foldr_cat_append, List.foldr_cons, List.foldr_cons,
      insertKV_append_of_lt _ _ k v har.1,
      insertKV_append_of_le _ _ k v (fun x hx => le_of_lt (har.2 x hx)), ← hg.contents,
      foldr_contents_congr (fun c => t1.contents h c) (fun c => t.contents h c) pre
        (fun x hx => (hFA x (hxmem x (by simp [hx])) (hxe x (by simp [hx]))).2.2.1),
      foldr_contents_congr (fun c => t1.contents h c) (fun c => t.contents h c) post
        (fun x hx => (hFA x (hxmem x (by simp [hx])) (hxe x (by simp [hx]))).2.2.1)]
  · simp only [leftmost, hg1p, hgp]
    rw [harr]
    cases pre with
    | nil => exact hlm e (by simp)
    | cons a pre2 => exact hlm a (by simp)
  · refine ⟨hEv.leaf_max, hEv.internal_max, hEv.root, hEv.next_le, ?_, hEv.fresh⟩
    intro q hq1 hq2
    apply hEv.frame q _ hq2
    intro hq3
    exact hq1 (InSub_child t h pid p0 hgp e hemem q hq3)
  · intro q hq
    simp only [InSub, hg1p, Option.some.injEq, exists_eq_left'] at hq
    rcases hq with hq | ⟨x, hx, hq⟩
    · left
      rw [hq]
      exact InSub_self t (h + 1) pid
    · by_cases h0 : x.2 = e.2
      · rw [h0] at hq
        rcases hg.within q hq with h1 | h1
        · exact Or.inl (InSub_child t h pid p0 hgp e hemem q h1)
        · exact Or.inr h1
      · exact Or.inl (InSub_child t h pid p0 hgp x hx q (((hFA x hx h0).1 q).1 hq))

end BPlusTree

namespace BPlusTree

/-- The key is absent from the subtree of the child that is selected for it. -/
theorem absent_in_child (t : BPlusTree) (h : Nat) (pid par : Int) (lo hi : Option Int)
    (nxt : Int) (k : Int) (ht : Tree t (h + 1) pid par lo hi nxt)
    (p : BPlusTreeInternalPage) (pre : List (Int × Int)) (e : Int × Int) (post : List (Int × Int))
    (hp : t.pages pid = some (.internal p)) (harr : p.array = pre ++ e :: post)
    (hlo1 : aboveLo (loAt pre e lo) k) (hhi1 : belowHi (hiAt post hi) k) :
    mapFind (t.contents h e.2) k = mapFind (t.contents (h + 1) pid) k := by
  have ht2 := ht
  simp only [Tree] at ht2
  obtain ⟨p1, hp1, _, _, _, _, _, _, hch⟩ := ht2
  rw [hp] at hp1
  simp only [Option.some.injEq, BPlusTreePage.internal.injEq] at hp1
  subst hp1
  rw [harr] at hch
  have har := contents_around (fun c => t.contents h c) pre e post
    (fun x _ l u n hx => Tree_contents t h x.2 pid l u n hx) lo hi nxt hch k hlo1 hhi1
  rw [contents_internal t h pid p hp, harr, foldr_cat_append, List.foldr_cons,
    mapFind_append_of_lt _ _ k har.1, mapFind_append_of_gt _ _ k har.2]

/-- Insertion of a new key into a well-formed subtree: the descent ends in a
leaf, and `InsertIntoLeaf` from there on either stops at a page of the subtree
that has room, leaving a well-formed subtree with the new record, or splits the
root of the subtree and goes on with `InsertIntoParent` for it. -/
theorem insert_up (k v : Int) (h : Nat) :
    ∀ (t : BPlusTree) (pid par : Int) (lo hi : Option Int) (nxt : Int),
      (∀ q, t.pages q ≠ none → 0 < q ∧ q < t.next_page_id) → 1 ≤ t.leaf_max_size →
      3 ≤ t.internal_max_size → Tree t h pid par lo hi nxt → aboveLo lo k → belowHi hi k →
      mapFind (t.contents h pid) k = none →
      ∃ leafId, (∀ fuel, h < fuel → findLeafLoop t k false fuel pid = some leafId) ∧
        ((∃ t1, (∀ f, t.insertAtLeaf leafId k v (f + h) = some (t1, true)) ∧
            Grown t t1 h pid par lo hi nxt (insertKV k v (t.contents h pid))) ∨
          (∃ t2 s n, (∀ f, t.insertAtLeaf leafId k v (f + h) =
              (InsertIntoParent f t2 pid s n).map (fun t3 => (t3, true))) ∧
            Halved t t2 h pid par lo hi nxt (insertKV k v (t.contents h pid)) s n)) := by
  induction h with
  | zero =>
    intro t pid par lo hi nxt hfresh hlm _ ht hlo hhi hk
    have ht2 := ht
    simp only [Tree] at ht2
    obtain ⟨p, hp, _, _, _, _, _, h6, _, _⟩ := ht2
    rw [contents_leaf t pid p hp] at hk
    refine ⟨pid, ?_, ?_⟩
    · intro fuel hf
      obtain ⟨f, rfl⟩ : ∃ f, fuel = f + 1 := ⟨fuel - 1, by omega⟩
      simp only [findLeafLoop, hp]
    · by_cases hroom : p.array.length + 1 ≤ p.max_size
      · left
        obtain ⟨t1, h1, h2⟩ :=
          insertAtLeaf_absorb t pid par lo hi nxt k v hfresh p hp ht hlo hhi hk hroom
        exact ⟨t1, fun f => h1 _, h2⟩
      · right
        obtain ⟨t2, s, n, h1, h2⟩ :=
          insertAtLeaf_split t pid par lo hi nxt k v hfresh hlm p hp ht hlo hhi hk (by omega)
        exact ⟨t2, s, n, fun f => h1 _, h2⟩
  | succ h ih =>
    intro t pid par lo hi nxt hfresh hlm him ht hlo hhi hk
    obtain ⟨p, pre, e, post, hp, harr, hlook, hvi, hlo1, hhi1, hT⟩ :=
      select_child t h pid par lo hi nxt ht k hlo hhi
    have hk1 : mapFind (t.contents h e.2) k = none := by
      rw [absent_in_child t h pid par lo hi nxt k ht p pre e post hp harr hlo1 hhi1]
      exact hk
    obtain ⟨leafId, hfind, hout⟩ := ih t e.2 pid _ _ _ hfresh hlm him hT hlo1 hhi1 hk1
    have hfuel : ∀ f, f + (h + 1) = (f + 1) + h := fun f => by omega
    refine ⟨leafId, ?_, ?_⟩
    · intro fuel hf
      obtain ⟨f, rfl⟩ : ∃ f, fuel = f + 1 := ⟨fuel - 1, by omega⟩
      simp only [findLeafLoop, hp, hlook, Bool.false_eq_true, if_false]
      exact hfind f (by omega)
    · rcases hout with ⟨t1, h1, hg⟩ | ⟨t2, s, n, h1, hh⟩
      · left
        refine ⟨t1, fun f => ?_, ?_⟩
        · rw [hfuel f]
          exact h1 (f + 1)
        · exact parent_keeps t h pid par lo hi nxt k v hfresh ht p pre e post hp harr hlo1 hhi1
            t1 hg
      · obtain ⟨t4, p4, hW, hlen4, hstep⟩ :=
          parent_takes t h pid par lo hi nxt k v hfresh ht p pre e post hp harr hvi hlo1 hhi1
            t2 s n hh
        obtain ⟨p0, hN, hle⟩ := (Tree_succ_iff t h pid par lo hi nxt).1 ht
        have hp0 : p0 = p := by
          have := hN.1
          rw [hp] at this
          simp only [Option.some.injEq, BPlusTreePage.internal.injEq] at this
          exact this.symm
        subst hp0
        have hmax4 : p4.max_size = p0.max_size := by
          rw [hW.node.2.2.2.1, hW.evolves.internal_max, hN.2.2.2.1]
        by_cases hbig : p4.array.length > p4.max_size
        · right
          have hlen5 : p4.array.length = p4.max_size + 1 := by omega
          obtain ⟨t5, s5, hsplit, ⟨np, hnp, hk0⟩, hH⟩ :=
            split_node t4 h pid par lo hi nxt p4 hW.evolves.fresh
              (by rw [hW.evolves.internal_max]; exact him) hW.node hlen5
          refine ⟨t5, s5, t4.next_page_id, fun f => ?_, ?_⟩
          · rw [hfuel f, h1 (f + 1), hstep f, if_pos hbig]
            simp only [hsplit, hnp, hk0]
          · refine ⟨hH.left, hH.right, ?_, hH.leftmost.trans hW.leftmost, hH.lo_s, hH.s_hi,
              le_trans hW.evolves.next_le hH.new_ge, hW.evolves.trans hH.evolves hW.within, ?_, ?_⟩
            · rw [hH.contents, hW.contents]
            · intro q hq
              rcases hH.within_left q hq with h2 | h2
              · exact hW.within q h2
              · exact Or.inr (le_trans hW.evolves.next_le h2)
            · intro q hq
              rcases hH.within_right q hq with h2 | h2
              · exact hW.within q h2
              · exact Or.inr (le_trans hW.evolves.next_le h2)
        · left
          refine ⟨t4, fun f => ?_, ?_⟩
          · rw [hfuel f, h1 (f + 1), hstep f, if_neg hbig]
            rfl
          · refine ⟨?_, hW.contents, hW.leftmost, hW.evolves, hW.within⟩
            rw [Tree_succ_iff]
            exact ⟨p4, hW.node, by omega⟩

end BPlusTree
/-! ## `Insert` on a valid index -/

namespace BPlusTree

theorem UpdateRootPageId_fields (t : BPlusTree) (b : Bool) :
    (t.UpdateRootPageId b).pages = t.pages ∧
      (t.UpdateRootPageId b).root_page_id = t.root_page_id ∧
      (t.UpdateRootPageId b).leaf_max_size = t.leaf_max_size ∧
      (t.UpdateRootPageId b).internal_max_size = t.internal_max_size ∧
      (t.UpdateRootPageId b).next_page_id = t.next_page_id := by
  unfold UpdateRootPageId
  split <;> split <;> exact ⟨rfl, rfl, rfl, rfl, rfl⟩

/-- `InsertIntoParent` for a root that has been split: a new root page above
the two halves. -/
theorem new_root (t2 : BPlusTree) (h : Nat) (rootId s n : Int) (c : List (Int × Int))
    (hfresh : ∀ q, t2.pages q ≠ none → 0 < q ∧ q < t2.next_page_id)
    (hlm : 1 ≤ t2.leaf_max_size) (him : 3 ≤ t2.internal_max_size)
    (hl : Tree t2 h rootId INVALID_PAGE_ID none (some s) (t2.leftmost h n))
    (hr : Tree t2 h n INVALID_PAGE_ID (some s) none INVALID_PAGE_ID)
    (hne : rootId ≠ n) (hc : t2.contents h rootId ++ t2.contents h n = c) :
    ∃ t3, (∀ f, InsertIntoParent (f + 1) t2 rootId s n = some t3) ∧ Valid t3 (h + 1) ∧
      t3.entries (h + 1) = c ∧ t3.leaf_max_size = t2.leaf_max_size ∧
      t3.internal_max_size = t2.internal_max_size := by
  obtain ⟨old_node, hold, hopar, hoid, _⟩ := Tree_page t2 h rootId _ _ _ _ hl
  obtain ⟨new_node, hnew, _, hnid, _⟩ := Tree_page t2 h n _ _ _ _ hr
  have hro := hfresh rootId (by rw [hold]; exact Option.some_ne_none _)
  have hrn := hfresh n (by rw [hnew]; exact Option.some_ne_none _)
  have hroot : old_node.IsRootPage = true := by
    simp only [BPlusTreePage.IsRootPage, hopar, beq_self_eq_true]
  obtain ⟨rootpg, hrootpg⟩ : ∃ rootpg, rootpg = BPlusTreeInternalPage.mk t2.internal_max_size
      INVALID_PAGE_ID t2.next_page_id [(0, rootId), (s, n)] := ⟨_, rfl⟩
  obtain ⟨ta, hta⟩ : ∃ ta, ta = (BPlusTree.mk t2.next_page_id t2.leaf_max_size
      t2.internal_max_size t2.pages (t2.next_page_id + 1) t2.header_record).setPage
      t2.next_page_id (.internal rootpg) := ⟨_, rfl⟩
  have htao : ta.pages rootId = some old_node := by
    rw [hta, pages_setPage_ne _ _ _ _ (ne_of_lt hro.2)]
    exact hold
  obtain ⟨tb, htb⟩ : ∃ tb, tb = ta.setPage rootId (old_node.SetParentPageId t2.next_page_id) :=
    ⟨_, rfl⟩
  have htbn : tb.pages n = some new_node := by
    rw [htb, pages_setPage_ne _ _ _ _ (Ne.symm hne), hta,
      pages_setPage_ne _ _ _ _ (ne_of_lt hrn.2)]
    exact hnew
  obtain ⟨tc, htc⟩ : ∃ tc, tc = tb.setPage n (new_node.SetParentPageId t2.next_page_id) :=
    ⟨_, rfl⟩
  have hinsert : ∀ f, InsertIntoParent (f + 1) t2 rootId s n =
      some (tc.UpdateRootPageId false) := by
    intro f
    simp only [InsertIntoParent, hold, hnew, hroot, if_true, NewPage,
      BPlusTreeInternalPage.Init, BPlusTreeInternalPage.PopulateNewRoot, List.head?_nil,
      Option.map_none', Option.getD_none, hoid, hnid]
    rw [← hrootpg, ← hta, setParent_eq ta rootId _ old_node htao]
    simp only
    rw [← htb, setParent_eq tb n _ new_node htbn]
    simp only
    rw [← htc]
  obtain ⟨u1, u2, u3, u4, u5⟩ := UpdateRootPageId_fields tc false
  have hpgc : ∀ q, tc.pages q = if q = n then some (new_node.SetParentPageId t2.next_page_id)
      else if q = rootId then some (old_node.SetParentPageId t2.next_page_id)
      else if q = t2.next_page_id then some (.internal rootpg) else t2.pages q := by
    intro q
    rw [htc, pages_setPage, htb, pages_setPage, hta, pages_setPage]
  have hlc : tc.leaf_max_size = t2.leaf_max_size := by rw [htc, htb, hta]; rfl
  have hic : tc.internal_max_size = t2.internal_max_size := by rw [htc, htb, hta]; rfl
  have hrc : tc.root_page_id = t2.next_page_id := by rw [htc, htb, hta]; rfl
  have hnc : tc.next_page_id = t2.next_page_id + 1 := by rw [htc, htb, hta]; rfl
  have hl3 := u3.trans hlc
  have hi3 := u4.trans hic
  have hpg3 : ∀ q, (tc.UpdateRootPageId false).pages q =
      if q = n then some (new_node.SetParentPageId t2.next_page_id)
      else if q = rootId then some (old_node.SetParentPageId t2.next_page_id)
      else if q = t2.next_page_id then some (.internal rootpg) else t2.pages q := by
    intro q
    rw [u1]
    exact hpgc q
  have hFO := reparent t2 (tc.UpdateRootPageId false) hl3 hi3 h rootId INVALID_PAGE_ID
    t2.next_page_id none (some s) (t2.leftmost h n) hl
    ⟨old_node, hold, by rw [hpg3, if_neg hne, if_pos rfl]⟩
    (by
      intro q hq hq1
      have hq2 := Tree_lt_next t2 hfresh h rootId _ _ _ _ hl q hq
      rw [hpg3, if_neg, if_neg hq1, if_neg (ne_of_lt hq2.2)]
      intro h0
      rw [h0] at hq
      exact disjoint_subtrees t2 h rootId n _ _ _ _ _ _ _ _ n hl hr hne hq (InSub_self t2 h n))
  have hFN := reparent t2 (tc.UpdateRootPageId false) hl3 hi3 h n INVALID_PAGE_ID
    t2.next_page_id (some s) none INVALID_PAGE_ID hr
    ⟨new_node, hnew, by rw [hpg3, if_pos rfl]⟩
    (by
      intro q hq hq1
      have hq2 := Tree_lt_next t2 hfresh h n _ _ _ _ hr q hq
      rw [hpg3, if_neg hq1, if_neg, if_neg (ne_of_lt hq2.2)]
      intro h0
      rw [h0] at hq
      exact disjoint_subtrees t2 h rootId n _ _ _ _ _ _ _ _ rootId hl hr hne
        (InSub_self t2 h rootId) hq)
  have hpgr : (tc.UpdateRootPageId false).pages t2.next_page_id = some (.internal rootpg) := by
    rw [hpg3, if_neg (Ne.symm (ne_of_lt hrn.2)), if_neg (Ne.symm (ne_of_lt hro.2)), if_pos rfl]
  have hroot3 : (tc.UpdateRootPageId false).root_page_id = t2.next_page_id := u2.trans hrc
  refine ⟨tc.UpdateRootPageId false, hinsert, ⟨?_, ?_, by rw [hl3]; exact hlm,
    by rw [hi3]; exact him⟩, ?_, hl3, hi3⟩
  · rw [hroot3]
    simp only [Tree]
    refine ⟨rootpg, hpgr, by rw [hrootpg], by rw [hrootpg], by rw [hrootpg, hi3], ?_, ?_, ?_, ?_⟩
    · rw [hrootpg]
      simp
    · rw [hrootpg]
      simp only [List.length_cons, List.length_nil]
      omega
    · rw [hrootpg]
      simp only [List.map_cons, List.map_nil, List.nodup_cons, List.mem_singleton,
        List.not_mem_nil, not_false_eq_true, List.nodup_nil, and_true]
      exact hne
    · rw [hrootpg]
      simp only [Children]
      refine ⟨?_, trivial, hFN.1, trivial⟩
      rw [hFN.2.2.1]
      exact hFO.1
  · intro q hq
    rw [u5, hnc]
    rw [hpg3] at hq
    by_cases h1 : q = n
    · rw [h1]
      omega
    · by_cases h2 : q = rootId
      · rw [h2]
        omega
      · by_cases h3 : q = t2.next_page_id
        · rw [h3]
          omega
        · rw [if_neg h1, if_neg h2, if_neg h3] at hq
          have := hfresh q hq
          omega
  · unfold entries
    rw [hroot3, contents_internal _ h _ rootpg hpgr, hrootpg]
    simp only [List.foldr_cons, List.foldr_nil, List.append_nil]
    rw [hFO.2.2.2, hFN.2.2.2]
    exact hc

end BPlusTree

namespace BPlusTree

theorem Valid.root_ne {t : BPlusTree} {h : Nat} (hv : t.Valid h) :
    t.root_page_id ≠ INVALID_PAGE_ID := by
  intro h0
  obtain ⟨pg, hpg, _⟩ := Tree_page t h _ _ _ _ _ hv.tree
  have := (hv.fresh t.root_page_id (by rw [hpg]; exact Option.some_ne_none _)).1
  rw [h0] at this
  exact absurd this (by decide)

theorem Valid.sorted {t : BPlusTree} {h : Nat} (hv : t.Valid h) :
    ((t.entries h).map Prod.fst).Pairwise (· < ·) :=
  (Tree_contents t h _ _ _ _ _ hv.tree).1

/-- `Insert` of a key that a valid index does not hold: the result is `true`
and the index is valid again, at most one level higher, with the new record
among its records. -/
theorem Insert_new (t : BPlusTree) (h : Nat) (hv : t.Valid h) (k v : Int)
    (hk : mapFind (t.entries h) k = none) (fuel : Nat) (hf : h < fuel) :
    ∃ t1 h1, t.Insert k v fuel = some (t1, true) ∧ t1.Valid h1 ∧ h1 ≤ h + 1 ∧
      t1.entries h1 = insertKV k v (t.entries h) ∧ t1.leaf_max_size = t.leaf_max_size ∧
      t1.internal_max_size = t.internal_max_size := by
  obtain ⟨leafId, hfind, hout⟩ := insert_up k v h t t.root_page_id INVALID_PAGE_ID none none
    INVALID_PAGE_ID hv.fresh hv.leaf_max hv.internal_max hv.tree trivial trivial hk
  obtain ⟨f, rfl⟩ : ∃ f, fuel = (f + 1) + h := ⟨fuel - h - 1, by omega⟩
  have hins : t.Insert k v (f + 1 + h) = t.insertAtLeaf leafId k v (f + 1 + h) := by
    simp only [Insert, IsEmpty, beq_iff_eq, hv.root_ne, if_false, InsertIntoLeaf, FindLeafPage,
      hfind _ hf, Option.map_some', Bool.false_eq_true]
  rcases hout with ⟨t1, h1, hg⟩ | ⟨t2, s, n, h1, hh⟩
  · refine ⟨t1, h, ?_, ⟨?_, hg.evolves.fresh, ?_, ?_⟩, by omega, ?_, hg.evolves.leaf_max,
      hg.evolves.internal_max⟩
    · rw [hins]
      exact h1 (f + 1)
    · rw [hg.evolves.root]
      exact hg.tree
    · rw [hg.evolves.leaf_max]
      exact hv.leaf_max
    · rw [hg.evolves.internal_max]
      exact hv.internal_max
    · unfold entries
      rw [hg.evolves.root]
      exact hg.contents
  · have hroot := Tree_lt_next t hv.fresh h _ _ _ _ _ hv.tree t.root_page_id
      (InSub_self t h t.root_page_id)
    have hnge := hh.new_ge
    obtain ⟨t3, h3, hv3, he3, hl3, hi3⟩ := new_root t2 h t.root_page_id s n _ hh.evolves.fresh
      (by rw [hh.evolves.leaf_max]; exact hv.leaf_max)
      (by rw [hh.evolves.internal_max]; exact hv.internal_max) hh.left hh.right (by omega)
      hh.contents
    refine ⟨t3, h + 1, ?_, hv3, le_refl _, he3, hl3.trans hh.evolves.leaf_max,
      hi3.trans hh.evolves.internal_max⟩
    rw [hins, h1 (f + 1), h3 f]
    rfl

/-- `Insert` of a key that a valid index holds: the result is `false` and the
index is the same. -/
theorem Insert_present (t : BPlusTree) (h : Nat) (hv : t.Valid h) (k v1 v2 : Int)
    (hk : mapFind (t.entries h) k = some v1) (fuel : Nat) (hf : h < fuel) :
    t.Insert k v2 fuel = some (t, false) := by
  obtain ⟨leafId, p, hfind, hp, hs, hmf⟩ :=
    findLeafLoop_spec t k h _ _ _ _ _ hv.tree trivial trivial fuel hf
  have hlook : p.Lookup k = some v1 := by
    rw [BPlusTreeLeafPage.Lookup_eq_mapFind p k hs, hmf]
    exact hk
  simp only [Insert, IsEmpty, beq_iff_eq, hv.root_ne, if_false, InsertIntoLeaf, FindLeafPage,
    hfind, Option.map_some', Bool.false_eq_true, insertAtLeaf, getLeaf_eq t leafId p hp, hlook]

/-- `StartNewTree` on an index without pages yields a valid index of one leaf. -/
theorem StartNewTree_valid (t : BPlusTree) (k v : Int) (hnone : ∀ q, t.pages q = none)
    (hnext : 1 ≤ t.next_page_id) (hlm : 1 ≤ t.leaf_max_size) (him : 3 ≤ t.internal_max_size) :
    (t.StartNewTree k v).Valid 0 ∧ (t.StartNewTree k v).entries 0 = [(k, v)] ∧
      (t.StartNewTree k v).leaf_max_size = t.leaf_max_size ∧
      (t.StartNewTree k v).internal_max_size = t.internal_max_size := by
  obtain ⟨u1, u2, u3, u4, u5⟩ := UpdateRootPageId_fields
    (BPlusTree.mk t.next_page_id t.leaf_max_size t.internal_max_size t.pages
      (t.next_page_id + 1) t.header_record) true
  have hpg : ∀ q, (t.StartNewTree k v).pages q = if q = t.next_page_id
      then some (.leaf (BPlusTreeLeafPage.mk t.leaf_max_size INVALID_PAGE_ID t.next_page_id
        INVALID_PAGE_ID [(k, v)])) else none := by
    intro q
    simp only [StartNewTree, NewPage, pages_setPage, u1, hnone]
    rfl
  have hroot : (t.StartNewTree k v).root_page_id = t.next_page_id := u2
  have hl : (t.StartNewTree k v).leaf_max_size = t.leaf_max_size := u3
  have hi : (t.StartNewTree k v).internal_max_size = t.internal_max_size := u4
  have hn : (t.StartNewTree k v).next_page_id = t.next_page_id + 1 := u5
  have hpr := hpg t.next_page_id
  rw [if_pos rfl] at hpr
  refine ⟨⟨?_, ?_, by rw [hl]; exact hlm, by rw [hi]; exact him⟩, ?_, hl, hi⟩
  · rw [hroot]
    simp only [Tree]
    refine ⟨_, hpr, rfl, rfl, hl.symm, rfl, ?_, ?_, ?_, ?_⟩
    · simp
    · simp only [List.length_cons, List.length_nil]
      omega
    · simp
    · intro e _
      exact ⟨trivial, trivial⟩
  · intro q hq
    rw [hpg] at hq
    by_cases h0 : q = t.next_page_id
    · rw [h0, hn]
      omega
    · rw [if_neg h0] at hq
      exact absurd rfl hq
  · unfold entries
    rw [hroot, contents_leaf _ _ _ hpr]

end BPlusTree
/-! ## Sequences of insertions -/

theorem mapFind_eq_find (l : List (Int × Int)) (k : Int) :
    mapFind l k = (l.find? (fun kv => kv.1 == k)).map Prod.snd := by
  induction l with
  | nil => rfl
  | cons e rest ih =>
    simp only [mapFind, List.find?_cons]
    by_cases h : e.1 = k
    · simp [h]
    · have : (e.1 == k) = false := by simpa using h
      simp only [h, if_false, this]
      exact ih

theorem mapFind_insertNew (l : List (Int × Int)) (kv : Int × Int) (k : Int) :
    mapFind (insertNew l kv) k =
      match mapFind l k with
      | some v => some v
      | none => if kv.1 = k then some kv.2 else none := by
  unfold insertNew
  cases h : mapFind l kv.1 with
  | none =>
    simp only
    rw [mapFind_insertKV]
    by_cases hk : k = kv.1
    · subst hk
      simp [h]
    · have : ¬ kv.1 = k := fun h0 => hk h0.symm
      simp only [hk, if_false, this]
      cases mapFind l k <;> rfl
  | some v =>
    simp only
    by_cases hk : kv.1 = k
    · subst hk
      simp [h]
    · simp only [hk, if_false]
      cases mapFind l k <;> rfl

theorem mapFind_foldl_insertNew (kvs : List (Int × Int)) :
    ∀ (l : List (Int × Int)) (k : Int), mapFind (kvs.foldl insertNew l) k =
      match mapFind l k with
      | some v => some v
      | none => mapFind kvs k := by
  induction kvs with
  | nil =>
    intro l k
    simp only [List.foldl_nil, mapFind]
    cases mapFind l k <;> rfl
  | cons kv rest ih =>
    intro l k
    rw [List.foldl_cons, ih, mapFind_insertNew]
    cases h : mapFind l k with
    | some v => rfl
    | none =>
      simp only [mapFind]
      by_cases hk : kv.1 = k
      · simp [hk]
      · simp [hk]

namespace BPlusTree

theorem Holds.mono {t : BPlusTree} {l : List (Int × Int)} {n m : Nat} (h : t.Holds l n)
    (hnm : n ≤ m) : t.Holds l m := by
  rcases h with h | ⟨h, hv, he, hn⟩
  · exact Or.inl h
  · exact Or.inr ⟨h, hv, he, by omega⟩

theorem Holds_empty (leaf_max internal_max : Nat) (next : Int) (hl : 1 ≤ leaf_max)
    (hi : 3 ≤ internal_max) (hn : 1 ≤ next) : (empty leaf_max internal_max next).Holds [] 0 :=
  Or.inl ⟨rfl, fun _ => rfl, hn, hl, hi, rfl⟩

/-- One `Insert` into an index that holds the records `l`. -/
theorem Holds.Insert {t : BPlusTree} {l : List (Int × Int)} {n : Nat} (h : t.Holds l n)
    (kv : Int × Int) (fuel : Nat) (hf : n ≤ fuel) :
    ∃ t1 b, t.Insert kv.1 kv.2 fuel = some (t1, b) ∧ t1.Holds (insertNew l kv) (n + 1) ∧
      t1.leaf_max_size = t.leaf_max_size ∧ t1.internal_max_size = t.internal_max_size := by
  rcases h with ⟨hroot, hnone, hnext, hlm, him, hl⟩ | ⟨h, hv, he, hn⟩
  · obtain ⟨s1, s2, s3, s4⟩ := StartNewTree_valid t kv.1 kv.2 hnone hnext hlm him
    refine ⟨t.StartNewTree kv.1 kv.2, true, ?_, Or.inr ⟨0, s1, ?_, by omega⟩, s3, s4⟩
    · simp only [BPlusTree.Insert, IsEmpty, hroot, beq_self_eq_true, if_true]
    · rw [s2, hl]
      rfl
  · cases hk : mapFind l kv.1 with
    | none =>
      obtain ⟨t1, h1, hins, hv1, hh1, he1, hl1, hi1⟩ :=
        Insert_new t h hv kv.1 kv.2 (by rw [he]; exact hk) fuel (by omega)
      refine ⟨t1, true, hins, Or.inr ⟨h1, hv1, ?_, by omega⟩, hl1, hi1⟩
      rw [he1, he]
      unfold insertNew
      rw [hk]
    | some v1 =>
      refine ⟨t, false, Insert_present t h hv kv.1 v1 kv.2 (by rw [he]; exact hk) fuel
        (by omega), Or.inr ⟨h, hv, ?_, by omega⟩, rfl, rfl⟩
      rw [he]
      unfold insertNew
      rw [hk]

/-- A sequence of `Insert` calls on an index that holds the records `l`. -/
theorem Holds.insertAll (fuel : Nat) (kvs : List (Int × Int)) :
    ∀ (t : BPlusTree) (l : List (Int × Int)) (n : Nat), t.Holds l n → n + kvs.length ≤ fuel →
      ∃ t1, t.insertAll fuel kvs = some t1 ∧
        t1.Holds (kvs.foldl insertNew l) (n + kvs.length) := by
  induction kvs with
  | nil =>
    intro t l n h _
    exact ⟨t, rfl, h⟩
  | cons kv rest ih =>
    intro t l n h hf
    simp only [List.length_cons] at hf
    obtain ⟨t1, b, h1, h2, _, _⟩ := h.Insert kv fuel (by omega)
    obtain ⟨t2, h3, h4⟩ := ih t1 (insertNew l kv) (n + 1) h2 (by omega)
    refine ⟨t2, ?_, ?_⟩
    · simp only [BPlusTree.insertAll, h1]
      exact h3
    · rw [List.foldl_cons, List.length_cons]
      have : n + (rest.length + 1) = n + 1 + rest.length := by omega
      rw [this]
      exact h4

/-- `GetValue` on an index that holds the records `l`. -/
theorem Holds.GetValue {t : BPlusTree} {l : List (Int × Int)} {n : Nat} (h : t.Holds l n)
    (k : Int) (fuel : Nat) (hf : n ≤ fuel) : t.GetValue k fuel = some (mapFind l k) := by
  rcases h with ⟨hroot, _, _, _, _, hl⟩ | ⟨h, hv, he, hn⟩
  · rw [hl]
    simp only [BPlusTree.GetValue, FindLeafPage, IsEmpty, hroot, beq_self_eq_true, if_true]
    rfl
  · rw [GetValue_valid t h hv k fuel (by omega), he]

end BPlusTree
/-! ## The scan along the chain of leaves -/

theorem insertNew_sorted (l : List (Int × Int)) (kv : Int × Int)
    (hs : (l.map Prod.fst).Pairwise (· < ·)) :
    ((insertNew l kv).map Prod.fst).Pairwise (· < ·) := by
  unfold insertNew
  cases h : mapFind l kv.1 with
  | none => exact insertKV_sorted l kv.1 kv.2 hs ((BPlusTree.mapFind_eq_none_iff l kv.1).1 h)
  | some v => exact hs

theorem foldl_insertNew_sorted (kvs : List (Int × Int)) :
    ∀ l : List (Int × Int), (l.map Prod.fst).Pairwise (· < ·) →
      (((kvs.foldl insertNew l)).map Prod.fst).Pairwise (· < ·) := by
  induction kvs with
  | nil => exact fun l hs => hs
  | cons kv rest ih => exact fun l hs => ih _ (insertNew_sorted l kv hs)

/-- Inserting pairs with distinct keys that are all new yields the old records
and the pairs. -/
theorem foldl_insertNew_perm (kvs : List (Int × Int)) :
    ∀ l : List (Int × Int), (kvs.map Prod.fst).Nodup → (∀ kv ∈ kvs, mapFind l kv.1 = none) →
      (kvs.foldl insertNew l).Perm (l ++ kvs) := by
  induction kvs with
  | nil =>
    intro l _ _
    simp
  | cons kv rest ih =>
    intro l hnd hnew
    simp only [List.map_cons, List.nodup_cons] at hnd
    have h1 : insertNew l kv = insertKV kv.1 kv.2 l := by
      unfold insertNew
      rw [hnew kv (by simp)]
    rw [List.foldl_cons, h1]
    have h2 : ∀ x ∈ rest, mapFind (insertKV kv.1 kv.2 l) x.1 = none := by
      intro x hx
      rw [mapFind_insertKV, if_neg, hnew x (by simp [hx])]
      intro h0
      exact hnd.1 (by rw [← h0]; exact List.mem_map.2 ⟨x, hx, rfl⟩)
    refine (ih _ hnd.2 h2).trans ?_
    refine ((insertKV_perm l kv.1 kv.2).append_right rest).trans ?_
    exact (List.perm_middle : (l ++ kv :: rest).Perm (kv :: (l ++ rest))).symm

namespace BPlusTree

/-- The descent of `Begin()` ends in the first leaf of the subtree. -/
theorem findLeafLoop_leftmost (t : BPlusTree) (key : Int) (h : Nat) :
    ∀ pid par lo hi nxt, Tree t h pid par lo hi nxt → ∀ fuel, h < fuel →
      findLeafLoop t key true fuel pid = some (leftmost t h pid) := by
  induction h with
  | zero =>
    intro pid par lo hi nxt ht fuel hf
    obtain ⟨f, rfl⟩ : ∃ f, fuel = f + 1 := ⟨fuel - 1, by omega⟩
    simp only [Tree] at ht
    obtain ⟨p, hp, _⟩ := ht
    simp only [findLeafLoop, hp, leftmost]
  | succ h ih =>
    intro pid par lo hi nxt ht fuel hf
    obtain ⟨f, rfl⟩ : ∃ f, fuel = f + 1 := ⟨fuel - 1, by omega⟩
    simp only [Tree] at ht
    obtain ⟨p, hp, _, _, _, hlen, _, _, hch⟩ := ht
    cases hparr : p.array with
    | nil => rw [hparr] at hlen; simp at hlen
    | cons e rest =>
      obtain ⟨l, u, n, hT⟩ := Children_mem p.array lo hi nxt hch e (by rw [hparr]; simp)
      have hva : p.ValueAt 0 = some e.2 := by
        simp [BPlusTreeInternalPage.ValueAt, entryAt, hparr]
      simp only [findLeafLoop, hp, if_true, hva, leftmost, getInternal_eq t pid p hp, hparr]
      exact ih e.2 pid l u n hT f (by omega)

/-- The first leaf of a well-formed subtree is a leaf page. -/
theorem leftmost_leaf (t : BPlusTree) (h : Nat) :
    ∀ pid par lo hi nxt, Tree t h pid par lo hi nxt →
      ∃ p, t.pages (leftmost t h pid) = some (.leaf p) := by
  induction h with
  | zero =>
    intro pid par lo hi nxt ht
    simp only [Tree] at ht
    obtain ⟨p, hp, _⟩ := ht
    exact ⟨p, hp⟩
  | succ h ih =>
    intro pid par lo hi nxt ht
    simp only [Tree] at ht
    obtain ⟨p, hp, _, _, _, hlen, _, _, hch⟩ := ht
    cases hparr : p.array with
    | nil => rw [hparr] at hlen; simp at hlen
    | cons e rest =>
      obtain ⟨l, u, n, hT⟩ := Children_mem p.array lo hi nxt hch e (by rw [hparr]; simp)
      simp only [leftmost, getInternal_eq t pid p hp, hparr]
      exact ih e.2 pid l u n hT

/-- One round of the scan loop at an entry of a leaf. -/
theorem scanFrom_step (t : BPlusTree) (leafId : Int) (p : BPlusTreeLeafPage)
    (hp : t.pages leafId = some (.leaf p)) (i : Nat) (hlt : i < p.array.length)
    (itn : IndexIterator)
    (hn : IndexIterator.next t (IndexIterator.mk i (some leafId)) = some itn) (fuel : Nat) :
    scanFrom t (fuel + 1) (IndexIterator.mk i (some leafId)) =
      (scanFrom t fuel itn).map (fun l => p.array[i] :: l) := by
  have hg := getLeaf_eq t leafId p hp
  have hne : ¬ (i = p.array.length) := by omega
  have h1 : IndexIterator.isEnd t (IndexIterator.mk i (some leafId)) = some false := by
    simp only [IndexIterator.isEnd, hg, hne, false_and, decide_False]
  have h2 : IndexIterator.deref t (IndexIterator.mk i (some leafId)) = some p.array[i] := by
    simp only [IndexIterator.deref, hg, BPlusTreeLeafPage.GetItem, List.get?_eq_getElem?,
      List.getElem?_eq_getElem hlt]
  rw [scanFrom]
  simp only [h1, h2, hn]

/-- The scan of the entries of one leaf from index `i` on, which goes on with
the iterator `itN`: the first entry of the next leaf, or the end of this leaf
when it is the last. -/
theorem scanFrom_leaf (t : BPlusTree) (leafId : Int) (p : BPlusTreeLeafPage)
    (hp : t.pages leafId = some (.leaf p)) (itN : IndexIterator)
    (hnext : p.next_page_id ≠ INVALID_PAGE_ID →
      (∃ q, t.getLeaf p.next_page_id = some q) ∧ itN = IndexIterator.mk 0 (some p.next_page_id))
    (hend : p.next_page_id = INVALID_PAGE_ID →
      itN = IndexIterator.mk p.array.length (some leafId)) :
    ∀ (m i : Nat), i + (m + 1) = p.array.length → ∀ fuel,
      scanFrom t (fuel + (m + 1)) (IndexIterator.mk i (some leafId)) =
        (scanFrom t fuel itN).map (fun l => p.array.drop i ++ l) := by
  have hg := getLeaf_eq t leafId p hp
  intro m
  induction m with
  | zero =>
    intro i hi fuel
    have hlt : i < p.array.length := by omega
    have hdrop : p.array.drop i = [p.array[i]] := by
      rw [List.drop_eq_getElem_cons hlt, List.drop_of_length_le (by omega)]
    have hi1 : i + 1 = p.array.length := by omega
    have hn : IndexIterator.next t (IndexIterator.mk i (some leafId)) = some itN := by
      by_cases hnx : p.next_page_id = INVALID_PAGE_ID
      · simp only [IndexIterator.next, hg, hnx, ne_eq, not_true_eq_false, and_false, if_false,
          hend hnx, hi1]
      · obtain ⟨⟨q, hq⟩, h1⟩ := hnext hnx
        simp only [IndexIterator.next, hg, hnx, ne_eq, not_false_eq_true, and_true, hi1,
          if_true, hq, h1]
    rw [scanFrom_step t leafId p hp i hlt itN hn fuel, hdrop]
    rfl
  | succ m ih =>
    intro i hi fuel
    have hlt : i < p.array.length := by omega
    have hne1 : ¬ (i + 1 = p.array.length) := by omega
    have hdrop : p.array.drop i = p.array[i] :: p.array.drop (i + 1) :=
      List.drop_eq_getElem_cons hlt
    have hn : IndexIterator.next t (IndexIterator.mk i (some leafId)) =
        some (IndexIterator.mk (i + 1) (some leafId)) := by
      simp only [IndexIterator.next, hg, hne1, false_and, if_false]
    have hfuel : fuel + (m + 1 + 1) = (fuel + (m + 1)) + 1 := by omega
    rw [hfuel, scanFrom_step t leafId p hp i hlt _ hn, ih (i + 1) (by omega) fuel, hdrop,
      Option.map_map]
    rfl

end BPlusTree

namespace BPlusTree

/-- The scan of the children of a page, given the scan of one child. -/
theorem scanFrom_children (t : BPlusTree)
    (hfresh : ∀ q, t.pages q ≠ none → 0 < q ∧ q < t.next_page_id) (h : Nat) (pid : Int)
    (ih : ∀ c l u n, Tree t h c pid l u n →
      (n ≠ INVALID_PAGE_ID → ∃ q, t.getLeaf n = some q) →
      ∃ itN, (n ≠ INVALID_PAGE_ID → itN = IndexIterator.mk 0 (some n)) ∧
        (n = INVALID_PAGE_ID → IndexIterator.isEnd t itN = some true) ∧
        ∀ fuel, scanFrom t (fuel + (t.contents h c).length)
            (IndexIterator.mk 0 (some (leftmost t h c))) =
          (scanFrom t fuel itN).map (fun l => t.contents h c ++ l)) :
    ∀ (rest : List (Int × Int)) (e : Int × Int) (lo hi : Option Int) (nxt : Int),
      Children (fun c l u n => Tree t h c pid l u n) (leftmost t h) (e :: rest) lo hi nxt →
      (nxt ≠ INVALID_PAGE_ID → ∃ q, t.getLeaf nxt = some q) →
      ∃ itN, (nxt ≠ INVALID_PAGE_ID → itN = IndexIterator.mk 0 (some nxt)) ∧
        (nxt = INVALID_PAGE_ID → IndexIterator.isEnd t itN = some true) ∧
        ∀ fuel, scanFrom t
            (fuel + ((e :: rest).foldr (fun x acc => t.contents h x.2 ++ acc) []).length)
            (IndexIterator.mk 0 (some (leftmost t h e.2))) =
          (scanFrom t fuel itN).map
            (fun l => (e :: rest).foldr (fun x acc => t.contents h x.2 ++ acc) [] ++ l) := by
  intro rest
  induction rest with
  | nil =>
    intro e lo hi nxt hch hnx
    simp only [Children] at hch
    obtain ⟨itN, h1, h2, h3⟩ := ih e.2 lo hi nxt hch.1 hnx
    refine ⟨itN, h1, h2, ?_⟩
    intro fuel
    simp only [List.foldr_cons, List.foldr_nil, List.append_nil]
    exact h3 fuel
  | cons e2 rest2 ihl =>
    intro e lo hi nxt hch hnx
    simp only [Children] at hch
    obtain ⟨hT, _, hrest⟩ := hch
    obtain ⟨l2, u2, n2, hT2⟩ := Children_mem (e2 :: rest2) _ hi nxt hrest e2 (by simp)
    obtain ⟨p2, hp2⟩ := leftmost_leaf t h e2.2 pid l2 u2 n2 hT2
    have hpos := (hfresh _ (by rw [hp2]; exact Option.some_ne_none _)).1
    have hne : leftmost t h e2.2 ≠ INVALID_PAGE_ID := by
      unfold INVALID_PAGE_ID
      omega
    obtain ⟨itC, c1, _, c3⟩ := ih e.2 lo (some e2.1) (leftmost t h e2.2) hT
      (fun _ => ⟨p2, getLeaf_eq t _ p2 hp2⟩)
    obtain ⟨itN, h1, h2, h3⟩ := ihl e2 (some e2.1) hi nxt hrest hnx
    refine ⟨itN, h1, h2, ?_⟩
    intro fuel
    rw [List.foldr_cons, List.length_append]
    have hfuel : fuel + ((t.contents h e.2).length +
        ((e2 :: rest2).foldr (fun x acc => t.contents h x.2 ++ acc) []).length) =
        (fuel + ((e2 :: rest2).foldr (fun x acc => t.contents h x.2 ++ acc) []).length) +
          (t.contents h e.2).length := by omega
    rw [hfuel, c3, c1 hne, h3 fuel, Option.map_map]
    congr 1
    funext l
    simp only [Function.comp, List.append_assoc]

/-- The scan from the first entry of the first leaf of a well-formed subtree
yields the records of the subtree and goes on at the leaf that follows the
subtree, or ends when there is none. -/
theorem scanFrom_tree (t : BPlusTree)
    (hfresh : ∀ q, t.pages q ≠ none → 0 < q ∧ q < t.next_page_id) (h : Nat) :
    ∀ pid par lo hi nxt, Tree t h pid par lo hi nxt →
      (nxt ≠ INVALID_PAGE_ID → ∃ q, t.getLeaf nxt = some q) →
      ∃ itN, (nxt ≠ INVALID_PAGE_ID → itN = IndexIterator.mk 0 (some nxt)) ∧
        (nxt = INVALID_PAGE_ID → IndexIterator.isEnd t itN = some true) ∧
        ∀ fuel, scanFrom t (fuel + (t.contents h pid).length)
            (IndexIterator.mk 0 (some (leftmost t h pid))) =
          (scanFrom t fuel itN).map (fun l => t.contents h pid ++ l) := by
  induction h with
  | zero =>
    intro pid par lo hi nxt ht hnx
    simp only [Tree] at ht
    obtain ⟨p, hp, _, _, _, h4, h5, _, _, _⟩ := ht
    have hg := getLeaf_eq t pid p hp
    have hlen : 0 + ((p.array.length - 1) + 1) = p.array.length := by omega
    have hc := contents_leaf t pid p hp
    by_cases hn0 : nxt = INVALID_PAGE_ID
    · refine ⟨IndexIterator.mk p.array.length (some pid), fun h0 => absurd hn0 h0, ?_, ?_⟩
      · intro _
        simp only [IndexIterator.isEnd, hg, h4, hn0, and_self, decide_True]
      · intro fuel
        have := scanFrom_leaf t pid p hp (IndexIterator.mk p.array.length (some pid))
          (fun h0 => absurd (h4.trans hn0) h0) (fun _ => rfl) (p.array.length - 1) 0 hlen fuel
        rw [hc]
        simp only [leftmost]
        have hl2 : p.array.length - 1 + 1 = p.array.length := by omega
        rw [hl2, List.drop_zero] at this
        exact this
    · refine ⟨IndexIterator.mk 0 (some nxt), fun _ => rfl, fun h0 => absurd h0 hn0, ?_⟩
      intro fuel
      have := scanFrom_leaf t pid p hp (IndexIterator.mk 0 (some nxt))
        (fun _ => ⟨by rw [h4]; exact hnx hn0, by rw [h4]⟩)
        (fun h0 => absurd (h4.symm.trans h0) hn0) (p.array.length - 1) 0 hlen fuel
      rw [hc]
      simp only [leftmost]
      have hl2 : p.array.length - 1 + 1 = p.array.length := by omega
      rw [hl2, List.drop_zero] at this
      exact this
  | succ h ih =>
    intro pid par lo hi nxt ht hnx
    simp only [Tree] at ht
    obtain ⟨p, hp, _, _, _, hlen, _, _, hch⟩ := ht
    cases hparr : p.array with
    | nil => rw [hparr] at hlen; simp at hlen
    | cons e rest =>
      rw [hparr] at hch
      obtain ⟨itN, h1, h2, h3⟩ := scanFrom_children t hfresh h pid
        (fun c l u n hT hn => ih c pid l u n hT hn) rest e lo hi nxt hch hnx
      refine ⟨itN, h1, h2, ?_⟩
      intro fuel
      rw [contents_internal t h pid p hp, hparr]
      simp only [leftmost, getInternal_eq t pid p hp, hparr]
      exact h3 fuel

/-- A scan from `Begin()` of a valid index yields its records. -/
theorem scan_valid (t : BPlusTree) (h : Nat) (hv : t.Valid h) (fuel : Nat) (hf : h < fuel)
    (hlen : (t.entries h).length < fuel) : t.scan fuel = some (t.entries h) := by
  have hbegin : t.Begin fuel =
      some (IndexIterator.mk 0 (some (leftmost t h t.root_page_id))) := by
    simp only [Begin, FindLeafPage, IsEmpty, beq_iff_eq, hv.root_ne, if_false,
      findLeafLoop_leftmost t 0 h _ _ _ _ _ hv.tree fuel hf, Option.map_some',
      Bool.false_eq_true]
  obtain ⟨itN, _, h2, h3⟩ := scanFrom_tree t hv.fresh h _ _ _ _ _ hv.tree
    (fun h0 => absurd rfl h0)
  obtain ⟨f, rfl⟩ : ∃ f, fuel = (f + 1) + (t.entries h).length :=
    ⟨fuel - (t.entries h).length - 1, by omega⟩
  have hend : scanFrom t (f + 1) itN = some [] := by
    rw [scanFrom]
    simp only [h2 rfl]
  unfold scan
  rw [hbegin]
  simp only
  unfold entries
  rw [h3 (f + 1), hend]
  simp

/-- A scan from `Begin()` of an index that holds the records `l`. -/
theorem Holds.scan {t : BPlusTree} {l : List (Int × Int)} {n : Nat} (h : t.Holds l n)
    (fuel : Nat) (hf : n ≤ fuel) (hlen : l.length < fuel) : t.scan fuel = some l := by
  rcases h with ⟨hroot, _, _, _, _, hl⟩ | ⟨h, hv, he, hn⟩
  · obtain ⟨f, rfl⟩ : ∃ f, fuel = f + 1 := ⟨fuel - 1, by omega⟩
    rw [hl]
    simp only [BPlusTree.scan, Begin, FindLeafPage, IsEmpty, hroot, beq_self_eq_true, if_true,
      Option.map_some', scanFrom, IndexIterator.isEnd]
  · rw [← he]
    exact scan_valid t h hv fuel (by omega) (by rw [he]; exact hlen)

end BPlusTree
/-! ## The index as a map: insertion, lookup and scan -/

namespace BPlusTree

/-- C1: for every sequence `kvs` of `Insert` calls on an empty index (leaf pages
hold at least one record, internal pages at least three entries, the pages get
positive ids and every page allocation succeeds), all calls return, and
afterwards `GetValue(k)` returns for every key `k` the value of the first pair
of `kvs` with the key `k`, and reports the key absent when `kvs` has no such
pair. -/
theorem insertAll_GetValue (leaf_max internal_max : Nat) (next : Int) (hl : 1 ≤ leaf_max)
    (hi : 3 ≤ internal_max) (hn : 1 ≤ next) (kvs : List (Int × Int)) (fuel : Nat)
    (hf : kvs.length ≤ fuel) :
    ∃ t1, (empty leaf_max internal_max next).insertAll fuel kvs = some t1 ∧
      ∀ k, t1.GetValue k fuel = some ((kvs.find? (fun kv => kv.1 == k)).map Prod.snd) := by
  obtain ⟨t1, h1, h2⟩ := Holds.insertAll fuel kvs _ [] 0
    (Holds_empty leaf_max internal_max next hl hi hn) (by omega)
  refine ⟨t1, h1, fun k => ?_⟩
  rw [h2.GetValue k fuel (by omega), mapFind_foldl_insertNew, ← mapFind_eq_find]
  rfl

/-- Witness of C1: seven insertions, one of them of a key that is present, into
an index with leaves of two records. -/
theorem insertAll_GetValue_witness :
    ∃ t1, (empty 2 3 1).insertAll 7
        [(5, 50), (3, 30), (8, 80), (3, 31), (1, 10), (9, 90), (7, 70)] = some t1 ∧
      ∀ k, t1.GetValue k 7 = some (([(5, 50), (3, 30), (8, 80), (3, 31), (1, 10), (9, 90),
        (7, 70)].find? (fun kv => kv.1 == k)).map Prod.snd) :=
  insertAll_GetValue 2 3 1 (by decide) (by decide) (by decide) _ 7 (by decide)

/-- C2: on a valid index that holds the record `(k, v1)`, `Insert(k, v2)`
returns `false` and the index it leaves is the index it was given, so that no
page has changed, and `GetValue(k)` returns `v1`. -/
theorem Insert_duplicate (t : BPlusTree) (h : Nat) (hv : t.Valid h) (k v1 v2 : Int)
    (hm : (k, v1) ∈ t.entries h) (fuel : Nat) (hf : h < fuel) :
    t.Insert k v2 fuel = some (t, false) ∧ t.GetValue k fuel = some (some v1) := by
  have hk := mapFind_of_mem (t.entries h) k v1 hv.sorted hm
  refine ⟨Insert_present t h hv k v1 v2 hk fuel hf, ?_⟩
  rw [GetValue_valid t h hv k fuel hf, hk]

/-- Witness of C2: the index with the single record `(7, 1)` refuses `(7, 2)`. -/
theorem Insert_duplicate_witness :
    ((empty 4 4 1).StartNewTree 7 1).Insert 7 2 1 = some ((empty 4 4 1).StartNewTree 7 1, false) ∧
      ((empty 4 4 1).StartNewTree 7 1).GetValue 7 1 = some (some 1) :=
  Insert_duplicate ((empty 4 4 1).StartNewTree 7 1) 0
    (StartNewTree_valid (empty 4 4 1) 7 1 (fun _ => rfl) (by decide) (by decide) (by decide)).1
    7 1 2
    (by
      rw [(StartNewTree_valid (empty 4 4 1) 7 1 (fun _ => rfl) (by decide) (by decide)
        (by decide)).2.1]
      exact List.mem_singleton.2 rfl)
    1 (by decide)

/-- C6: for every sequence `kvs` of pairs with distinct keys inserted into an
empty index (leaf pages hold at least one record, internal pages at least three
entries, the pages get positive ids), the scan from `Begin()` with `++` until
`isEnd`, which follows `next_page_id` from the first leaf, comes to an end and
yields the inserted pairs, each once, with strictly ascending keys. -/
theorem insertAll_scan (leaf_max internal_max : Nat) (next : Int) (hl : 1 ≤ leaf_max)
    (hi : 3 ≤ internal_max) (hn : 1 ≤ next) (kvs : List (Int × Int))
    (hd : (kvs.map Prod.fst).Nodup) (fuel : Nat) (hf : kvs.length < fuel) :
    ∃ t1 out, (empty leaf_max internal_max next).insertAll fuel kvs = some t1 ∧
      t1.scan fuel = some out ∧ (out.map Prod.fst).Pairwise (· < ·) ∧ out.Perm kvs := by
  obtain ⟨t1, h1, h2⟩ := Holds.insertAll fuel kvs _ [] 0
    (Holds_empty leaf_max internal_max next hl hi hn) (by omega)
  have hperm : (kvs.foldl insertNew []).Perm kvs := by
    have := foldl_insertNew_perm kvs [] hd (fun _ _ => rfl)
    simpa using this
  refine ⟨t1, kvs.foldl insertNew [], h1, ?_, ?_, hperm⟩
  · exact h2.scan fuel (by omega) (by rw [hperm.length_eq]; exact hf)
  · exact foldl_insertNew_sorted kvs [] List.Pairwise.nil

set_option maxRecDepth 100000 in
/-- Witness of C6: the keys 1 to 10 inserted with leaf and internal maximal
size 4; the scan yields the ten records in order, and the root is an internal
page whose four children are the leaves. -/
theorem insertAll_scan_witness :
    (∃ t1 out, (empty 4 4 1).insertAll 11 [(1, 10), (2, 20), (3, 30), (4, 40), (5, 50),
        (6, 60), (7, 70), (8, 80), (9, 90), (10, 100)] = some t1 ∧
      t1.scan 11 = some out ∧ (out.map Prod.fst).Pairwise (· < ·) ∧
      out.Perm [(1, 10), (2, 20), (3, 30), (4, 40), (5, 50), (6, 60), (7, 70), (8, 80),
        (9, 90), (10, 100)]) ∧
    (((empty 4 4 1).insertAll 11 [(1, 10), (2, 20), (3, 30), (4, 40), (5, 50),
        (6, 60), (7, 70), (8, 80), (9, 90), (10, 100)]).bind (fun t => t.scan 11) =
      some [(1, 10), (2, 20), (3, 30), (4, 40), (5, 50), (6, 60), (7, 70), (8, 80),
        (9, 90), (10, 100)]) ∧
    (((empty 4 4 1).insertAll 11 [(1, 10), (2, 20), (3, 30), (4, 40), (5, 50),
        (6, 60), (7, 70), (8, 80), (9, 90), (10, 100)]).bind (fun t =>
          (t.getInternal t.root_page_id).map (fun p =>
            p.array.map (fun e => (t.getLeaf e.2).map (fun q => q.array.map Prod.fst)))) =
      some [some [1, 2], some [3, 4], some [5, 6], some [7, 8, 9, 10]]) :=
  ⟨insertAll_scan 4 4 1 (by decide) (by decide) (by decide) _ (by decide) 11 (by decide),
    by decide, by decide⟩

end BPlusTree

/-! ## Buffer pool manager: unpin, flush and delete -/

namespace BufferPoolManager

theorem UnpinPage_true (s : BufferPoolManager) (pid : Int) (d : Bool)
    (hok : (s.UnpinPage pid d).2 = true) :
    ∃ p, s.page_table.Find pid = some p ∧ 0 < (s.pages p).pin_count := by
  cases hfind : s.page_table.Find pid with
  | none =>
    rw [UnpinPage_fail s pid d (Or.inl hfind)] at hok
    exact Bool.noConfusion hok
  | some p =>
    by_cases hpin : 0 < (s.pages p).pin_count
    · exact ⟨p, rfl, hpin⟩
    · rw [UnpinPage_fail s pid d (Or.inr ⟨p, hfind, by omega⟩)] at hok
      exact Bool.noConfusion hok

theorem FlushPage_dirty (s : BufferPoolManager) (pid : Int) (p : Nat)
    (hpid : pid ≠ INVALID_PAGE_ID) (hfind : s.page_table.Find pid = some p)
    (hid : (s.pages p).page_id ≠ INVALID_PAGE_ID) (hd : (s.pages p).is_dirty = true) :
    s.FlushPage pid = some
      (BufferPoolManager.setFrame { s with disk := s.disk.WritePage pid (s.pages p).data } p
        (Page.mk (s.pages p).data (s.pages p).page_id (s.pages p).pin_count false), true) := by
  unfold FlushPage
  rw [if_neg hpid, hfind]
  simp only [hid, if_false, hd, if_true]

theorem FlushPage_clean (s : BufferPoolManager) (pid : Int) (p : Nat)
    (hpid : pid ≠ INVALID_PAGE_ID) (hfind : s.page_table.Find pid = some p)
    (hid : (s.pages p).page_id ≠ INVALID_PAGE_ID) (hd : (s.pages p).is_dirty = false) :
    s.FlushPage pid = some (s, true) := by
  unfold FlushPage
  rw [if_neg hpid, hfind]
  simp only [hid, if_false, hd, Bool.false_eq_true]

theorem write_unpin_flush (s2 : BufferPoolManager) (f : Nat) (npid : Int) (bytes : List Nat)
    (hnp : npid ≠ INVALID_PAGE_ID) (hfind : s2.page_table.Find npid = some f)
    (hid : (s2.pages f).page_id = npid) (hpin : 0 < (s2.pages f).pin_count) :
    ((s2.writeData f bytes).UnpinPage npid true).2 = true ∧
    ∃ s5, ((s2.writeData f bytes).UnpinPage npid true).1.FlushPage npid = some (s5, true) ∧
      s5.disk.contents npid = bytes ∧ (s5.pages f).is_dirty = false ∧
      (s5.pages f).data = bytes := by
  have hfind3 : (s2.writeData f bytes).page_table.Find npid = some f := hfind
  have hfr3 : (s2.writeData f bytes).pages f =
      Page.mk bytes npid (s2.pages f).pin_count (s2.pages f).is_dirty := by
    simp only [writeData, setFrame, if_true, hid]
  have hpin3 : 0 < ((s2.writeData f bytes).pages f).pin_count := by
    rw [hfr3]
    exact hpin
  obtain ⟨hres, _, _, htab, _, _, _, _, hfr⟩ :=
    UnpinPage_ok (s2.writeData f bytes) npid true f hfind3 hpin3
  rw [hfr3] at hfr
  simp only [Bool.or_true] at hfr
  have hfl := FlushPage_dirty ((s2.writeData f bytes).UnpinPage npid true).1 npid f hnp
    (by rw [htab]; exact hfind3) (by rw [hfr]; exact hnp) (by rw [hfr])
  refine ⟨hres, _, hfl, ?_, ?_, ?_⟩
  · simp only [setFrame, DiskManager.WritePage, if_true, hfr]
  · simp only [setFrame, if_true]
  · simp only [setFrame, if_true, hfr]

/-- C11: when `UnpinPage(pid, dirty)` on a reachable pool returns `true`, the
frame `p` of `pid` has its pin count lowered by exactly one, it is in the
replacer afterwards exactly when the new pin count is 0, its dirty flag is the
former flag or `dirty`, its page id and bytes are as before, and every other
frame, the membership of every other frame in the replacer, the page table, the
free list and the disk are unchanged. -/
theorem UnpinPage_success (s : BufferPoolManager) (pid : Int) (d : Bool) (hr : Reachable s)
    (hok : (s.UnpinPage pid d).2 = true) :
    ∃ p, s.page_table.Find pid = some p ∧
      ((s.UnpinPage pid d).1.pages p).pin_count = (s.pages p).pin_count - 1 ∧
      (p ∈ (s.UnpinPage pid d).1.replacer.list ↔
        ((s.UnpinPage pid d).1.pages p).pin_count = 0) ∧
      ((s.UnpinPage pid d).1.pages p).is_dirty = ((s.pages p).is_dirty || d) ∧
      ((s.UnpinPage pid d).1.pages p).page_id = (s.pages p).page_id ∧
      ((s.UnpinPage pid d).1.pages p).data = (s.pages p).data ∧
      (∀ f, f ≠ p → (s.UnpinPage pid d).1.pages f = s.pages f) ∧
      (∀ f, f ≠ p → (f ∈ (s.UnpinPage pid d).1.replacer.list ↔ f ∈ s.replacer.list)) ∧
      (s.UnpinPage pid d).1.page_table = s.page_table ∧
      (s.UnpinPage pid d).1.free_list = s.free_list ∧
      (s.UnpinPage pid d).1.disk = s.disk := by
  have h := hr.inv
  obtain ⟨p, hfind, hpin⟩ := UnpinPage_true s pid d hok
  obtain ⟨_, _, _, htab, hfree, hdisk, hrep, hoth, hfr⟩ := UnpinPage_ok s pid d p hfind hpin
  have hnl : p ∉ s.replacer.list := by
    intro hm
    have := (h.lru_frames p hm).2.1
    omega
  refine ⟨p, hfind, ?_, ?_, ?_, ?_, ?_, hoth, ?_, htab, hfree, hdisk⟩
  · rw [hfr]
  · rw [hfr, hrep]
    show _ ↔ (s.pages p).pin_count - 1 = 0
    by_cases h1 : (s.pages p).pin_count = 1
    · rw [if_pos h1, LRUReplacer.Insert_list _ h.lru]
      exact ⟨fun _ => by omega, fun _ => List.mem_cons_self _ _⟩
    · rw [if_neg h1]
      exact ⟨fun hm => absurd hm hnl, fun h0 => absurd (by omega) h1⟩
  · rw [hfr]
  · rw [hfr]
  · rw [hfr]
  · intro f hf
    rw [hrep]
    by_cases h1 : (s.pages p).pin_count = 1
    · rw [if_pos h1, LRUReplacer.Insert_list _ h.lru, List.mem_cons, h.lru.nodup.mem_erase_iff]
      exact ⟨fun hm => hm.elim (fun he => absurd he hf) (fun hm => hm.2), fun hm => Or.inr ⟨hf, hm⟩⟩
    · rw [if_neg h1]

/-- Witness of C11: the new page 0 of a fresh pool of two frames is unpinned
with the dirty flag. -/
theorem UnpinPage_success_witness :
    ∃ s : BufferPoolManager,
      (new 2 4 2 DiskManager.blank).NewPage = some (s, some (0, 0)) ∧
      (s.UnpinPage 0 true).2 = true ∧
      ∃ p, s.page_table.Find 0 = some p ∧
        ((s.UnpinPage 0 true).1.pages p).pin_count = (s.pages p).pin_count - 1 ∧
        (p ∈ (s.UnpinPage 0 true).1.replacer.list ↔
          ((s.UnpinPage 0 true).1.pages p).pin_count = 0) ∧
        ((s.UnpinPage 0 true).1.pages p).is_dirty = ((s.pages p).is_dirty || true) := by
  have hn : (new 2 4 2 DiskManager.blank).NewPage = some (_, some (0, 0)) := rfl
  obtain ⟨p, h1, h2, h3, h4, _⟩ := UnpinPage_success _ 0 true
    (Reachable.newPage (Reachable.init 2 4 2 DiskManager.blank) hn) rfl
  exact ⟨_, hn, rfl, p, h1, h2, h3, h4⟩

/-- C12: on a reachable pool and for `pid ≠ INVALID_PAGE_ID`, `FlushPage(pid)`
returns `false` and leaves the pool with its disk as it is when `pid` is not in
the page table; when `pid` is in the frame `p` and the frame is dirty it
returns `true`, the disk then holds the bytes of the frame for `pid` (the write
is the one disk call added), the frame is clean, its bytes, page id and pin
count, the other frames, the replacer, the page table and the free list are
as before; when the frame is clean it returns `true` and the pool with its
disk is unchanged.  Moreover, whenever `NewPage` returns the frame `f` and a
valid page id, fetching that page, writing `bytes` to the frame, unpinning
with `is_dirty = true` and flushing leaves `bytes` on the disk for that page. -/
theorem FlushPage_writes_back (s : BufferPoolManager) (pid : Int) (hr : Reachable s)
    (hpid : pid ≠ INVALID_PAGE_ID) :
    (s.page_table.Find pid = none → s.FlushPage pid = some (s, false)) ∧
    (∀ p, s.page_table.Find pid = some p → (s.pages p).is_dirty = true →
      ∃ s1, s.FlushPage pid = some (s1, true) ∧
        s1.disk.contents pid = (s.pages p).data ∧
        s1.disk.log = s.disk.log ++ [DiskEvent.write pid (s.pages p).data] ∧
        (∀ q, q ≠ pid → s1.disk.contents q = s.disk.contents q) ∧
        (s1.pages p).is_dirty = false ∧ (s1.pages p).data = (s.pages p).data ∧
        (s1.pages p).pin_count = (s.pages p).pin_count ∧
        (s1.pages p).page_id = (s.pages p).page_id ∧
        (∀ f, f ≠ p → s1.pages f = s.pages f) ∧
        s1.replacer = s.replacer ∧ s1.page_table = s.page_table ∧
        s1.free_list = s.free_list) ∧
    (∀ p, s.page_table.Find pid = some p → (s.pages p).is_dirty = false →
      s.FlushPage pid = some (s, true)) ∧
    (∀ (s1 : BufferPoolManager) (f : Nat) (npid : Int) (bytes : List Nat),
      s.NewPage = some (s1, some (f, npid)) → npid ≠ INVALID_PAGE_ID →
      ∃ s2, s1.FetchPage npid = some (s2, some f) ∧
        ((s2.writeData f bytes).UnpinPage npid true).2 = true ∧
        ∃ s5, ((s2.writeData f bytes).UnpinPage npid true).1.FlushPage npid = some (s5, true) ∧
          s5.disk.contents npid = bytes ∧ (s5.pages f).is_dirty = false ∧
          (s5.pages f).data = bytes) := by
  have h := hr.inv
  refine ⟨?_, ?_, ?_, ?_⟩
  · intro hfind
    unfold FlushPage
    rw [if_neg hpid, hfind]
  · intro p hfind hd
    have hid : (s.pages p).page_id ≠ INVALID_PAGE_ID := by
      rw [(h.resident pid p hfind).2.1]
      exact hpid
    refine ⟨_, FlushPage_dirty s pid p hpid hfind hid hd, ?_, rfl, ?_, ?_, ?_, ?_, ?_, ?_,
      rfl, rfl, rfl⟩
    · simp only [setFrame, DiskManager.WritePage, if_true]
    · intro q hq
      simp only [setFrame, DiskManager.WritePage, hq, if_false]
    · simp only [setFrame, if_true]
    · simp only [setFrame, if_true]
    · simp only [setFrame, if_true]
    · simp only [setFrame, if_true]
    · intro f hf
      simp only [setFrame, hf, if_false]
  · intro p hfind hd
    have hid : (s.pages p).page_id ≠ INVALID_PAGE_ID := by
      rw [(h.resident pid p hfind).2.1]
      exact hpid
    exact FlushPage_clean s pid p hpid hfind hid hd
  · intro s1 f npid bytes hn hnp
    have hr1 : Reachable s1 := Reachable.newPage hr hn
    have h1 := hr1.inv
    obtain ⟨s0, table, hfu, _, hins, hs1⟩ := NewPage_some s s1 f npid h hn
    have ht := findUnusedPage_taken s s0 f h hfu
    have hi := inv_install s s0 f h ht npid (Page.mk (zeroData s.page_size) npid 1 false) table
      (s0.disk.AllocatePage).1 rfl rfl hins
    have hfind1 : s1.page_table.Find npid = some f := by
      rw [hs1]
      show table.Find npid = some f
      rw [hi.2 npid, if_pos rfl]
    have hpin1 : (s1.pages f).pin_count = 1 := by
      rw [hs1]
      simp only [setFrame, if_true]
    have hid1 : (s1.pages f).page_id = npid := (h1.resident npid f hfind1).2.1
    have hfetch := FetchPage_hit s1 npid f hfind1
    refine ⟨_, hfetch, ?_⟩
    refine write_unpin_flush _ f npid bytes hnp hfind1 ?_ ?_
    · simp only [setFrame, if_true]
      exact hid1
    · simp only [setFrame, if_true]
      omega

/-- Witness of C12: the new page 0 of a fresh pool of two frames is written,
unpinned with the dirty flag and flushed. -/
theorem FlushPage_writes_back_witness :
    ∃ s s1 : BufferPoolManager,
      (new 2 4 2 DiskManager.blank).NewPage = some (s, some (0, 0)) ∧
      (((s.writeData 0 [1, 2, 3, 4]).UnpinPage 0 true).1).FlushPage 0 = some (s1, true) ∧
      s1.disk.contents 0 = [1, 2, 3, 4] ∧ (s1.pages 0).is_dirty = false := by
  have hn : (new 2 4 2 DiskManager.blank).NewPage = some (_, some (0, 0)) := rfl
  have hr : Reachable ((BufferPoolManager.writeData _ 0 [1, 2, 3, 4]).UnpinPage 0 true).1 :=
    Reachable.unpin 0 true
      (Reachable.write 0 [1, 2, 3, 4]
        (Reachable.newPage (Reachable.init 2 4 2 DiskManager.blank) hn) (by decide))
  obtain ⟨s1, h1, h2, _, _, h3, _⟩ :=
    (FlushPage_writes_back _ 0 hr (by decide)).2.1 0 rfl rfl
  exact ⟨_, s1, hn, h1, h2, h3⟩

/-- C13: `DeletePage(pid)` returns `false` exactly when `pid` is in the page
table and its frame has a positive pin count; the pool, with the disk and its
call log, is then unchanged.  In every other case it returns `true` and the
call log of the disk has grown by exactly the one call `deallocate pid`. -/
theorem DeletePage_refuses_pinned (s : BufferPoolManager) (pid : Int) :
    ((s.DeletePage pid).2 = false ↔
      ∃ p, s.page_table.Find pid = some p ∧ 0 < (s.pages p).pin_count) ∧
    ((s.DeletePage pid).2 = false → (s.DeletePage pid).1 = s) ∧
    ((s.DeletePage pid).2 = true →
      (s.DeletePage pid).1.disk.log = s.disk.log ++ [DiskEvent.deallocate pid] ∧
      (s.DeletePage pid).1.disk.contents = s.disk.contents ∧
      (s.DeletePage pid).1.disk.next_page_id = s.disk.next_page_id) := by
  cases hfind : s.page_table.Find pid with
  | none =>
    have hd : s.DeletePage pid = ({ s with disk := s.disk.DeallocatePage pid }, true) := by
      unfold DeletePage
      rw [hfind]
    rw [hd]
    refine ⟨⟨fun hf => Bool.noConfusion hf, fun ⟨p, hp, _⟩ => Option.noConfusion hp⟩,
      fun hf => Bool.noConfusion hf, fun _ => ⟨rfl, rfl, rfl⟩⟩
  | some p =>
    by_cases hpin : 0 < (s.pages p).pin_count
    · have hd : s.DeletePage pid = (s, false) := by
        unfold DeletePage
        rw [hfind]
        have : (s.pages p).pin_count > 0 := hpin
        simp only [this, if_true]
      rw [hd]
      exact ⟨⟨fun _ => ⟨p, rfl, hpin⟩, fun _ => rfl⟩, fun _ => rfl,
        fun hf => Bool.noConfusion hf⟩
    · rw [DeletePage_ok s pid p hfind hpin]
      refine ⟨⟨fun hf => Bool.noConfusion hf, fun ⟨q, hq, hqp⟩ => ?_⟩,
        fun hf => Bool.noConfusion hf, fun _ => ⟨rfl, rfl, rfl⟩⟩
      simp only [Option.some.injEq] at hq
      subst hq
      exact absurd hqp hpin

/-- C14: on a reachable pool, `DeletePage(pid)` of a page in the frame `p`
whose pin count is not positive leaves `pid` out of the page table and `p` out
of the replacer, the frame with `INVALID_PAGE_ID`, pin count 0, clean and all
zero, the free list extended by `p` at its end, and every other frame, every
other page-table entry and the replacer membership of every other frame as
before.  When `pid` is not in the page table, the frames, the page table, the
replacer and the free list are unchanged (the disk manager is still asked to
deallocate). -/
theorem DeletePage_resident (s : BufferPoolManager) (pid : Int) (hr : Reachable s) :
    (∀ p, s.page_table.Find pid = some p → ¬ 0 < (s.pages p).pin_count →
      (s.DeletePage pid).2 = true ∧
      (s.DeletePage pid).1.page_table.Find pid = none ∧
      p ∉ (s.DeletePage pid).1.replacer.list ∧
      ((s.DeletePage pid).1.pages p).page_id = INVALID_PAGE_ID ∧
      ((s.DeletePage pid).1.pages p).pin_count = 0 ∧
      ((s.DeletePage pid).1.pages p).is_dirty = false ∧
      (((s.DeletePage pid).1.pages p).data.length = s.page_size ∧
        ∀ b ∈ ((s.DeletePage pid).1.pages p).data, b = 0) ∧
      (s.DeletePage pid).1.free_list = s.free_list ++ [p] ∧
      (∀ f, f ≠ p → (s.DeletePage pid).1.pages f = s.pages f) ∧
      (∀ k, k ≠ pid → (s.DeletePage pid).1.page_table.Find k = s.page_table.Find k) ∧
      (∀ f, f ≠ p → (f ∈ (s.DeletePage pid).1.replacer.list ↔ f ∈ s.replacer.list))) ∧
    (s.page_table.Find pid = none →
      (s.DeletePage pid).1.pages = s.pages ∧
      (s.DeletePage pid).1.page_table = s.page_table ∧
      (s.DeletePage pid).1.replacer = s.replacer ∧
      (s.DeletePage pid).1.free_list = s.free_list ∧
      (s.DeletePage pid).1.pool_size = s.pool_size ∧
      (s.DeletePage pid).1.page_size = s.page_size) := by
  have h := hr.inv
  constructor
  · intro p hfind hpin
    rw [DeletePage_ok s pid p hfind hpin]
    have hrem := ExtendibleHash.Remove_spec s.page_table h.table pid
    refine ⟨rfl, ?_, ?_, ?_, ?_, ?_, ⟨?_, ?_⟩, rfl, ?_, ?_, ?_⟩
    · show (s.page_table.Remove pid).1.Find pid = none
      rw [hrem.2 pid, if_pos rfl]
    · show p ∉ (s.replacer.Erase p).1.list
      rw [LRUReplacer.Erase_eq_erase]
      exact LRUReplacer.not_mem_erase_self _ h.lru p
    · simp only [if_true]
    · simp only [if_true]
    · simp only [if_true]
    · simp only [if_true, zeroData, List.length_replicate]
    · intro b hb
      simp only [if_true, zeroData] at hb
      exact List.eq_of_mem_replicate hb
    · intro f hf
      simp only [hf, if_false]
    · intro k hk
      show (s.page_table.Remove pid).1.Find k = s.page_table.Find k
      rw [hrem.2 k, if_neg hk]
    · intro f hf
      show f ∈ (s.replacer.Erase p).1.list ↔ f ∈ s.replacer.list
      rw [LRUReplacer.Erase_eq_erase, LRUReplacer.erase_list _ h.lru, h.lru.nodup.mem_erase_iff]
      exact ⟨fun hm => hm.2, fun hm => ⟨hf, hm⟩⟩
  · intro hfind
    have hd : s.DeletePage pid = ({ s with disk := s.disk.DeallocatePage pid }, true) := by
      unfold DeletePage
      rw [hfind]
    rw [hd]
    exact ⟨rfl, rfl, rfl, rfl, rfl, rfl⟩

/-- Witness of C14: the new page 0 of a fresh pool of two frames is unpinned
and deleted. -/
theorem DeletePage_resident_witness :
    ∃ s : BufferPoolManager,
      (new 2 4 2 DiskManager.blank).NewPage = some (s, some (0, 0)) ∧
      ((s.UnpinPage 0 false).1.DeletePage 0).2 = true ∧
      ((s.UnpinPage 0 false).1.DeletePage 0).1.page_table.Find 0 = none ∧
      0 ∉ ((s.UnpinPage 0 false).1.DeletePage 0).1.replacer.list ∧
      (((s.UnpinPage 0 false).1.DeletePage 0).1.pages 0).page_id = INVALID_PAGE_ID ∧
      ((s.UnpinPage 0 false).1.DeletePage 0).1.free_list = [1, 0] := by
  have hn : (new 2 4 2 DiskManager.blank).NewPage = some (_, some (0, 0)) := rfl
  have hr : Reachable (BufferPoolManager.UnpinPage _ 0 false).1 :=
    Reachable.unpin 0 false (Reachable.newPage (Reachable.init 2 4 2 DiskManager.blank) hn)
  obtain ⟨h1, h2, h3, h4, _, _, _, h5, _⟩ :=
    (DeletePage_resident _ 0 hr).1 0 rfl (by decide)
  exact ⟨_, hn, h1, h2, h3, h4, h5⟩

end BufferPoolManager

/-! ## LRU replacer: contracts of the operations -/

namespace LRUReplacer

theorem inv_Victim (r : LRUReplacer) (h : r.Inv) : r.Victim.1.Inv := by
  cases hv : r.Victim.2 with
  | none =>
    rw [Victim_none_state r hv]
    exact h
  | some v => exact (Victim_some r h v hv).2.1

theorem inv_Erase (r : LRUReplacer) (h : r.Inv) (v : Nat) : (r.Erase v).1.Inv := by
  rw [Erase_eq_erase]
  exact inv_erase r h v

theorem inv_of_reachable {r : LRUReplacer} (hr : r.Reachable) : r.Inv := by
  induction hr with
  | init => exact inv_empty
  | insert v _ ih => exact inv_Insert _ ih v
  | victim _ ih => exact inv_Victim _ ih
  | erase v _ ih => exact inv_Erase _ ih v

theorem erase_eq_filter (l : List Nat) (hn : l.Nodup) (v : Nat) :
    l.erase v = l.filter (fun w => decide (w ≠ v)) := by
  rw [hn.erase_eq_filter]
  congr 1
  funext w
  by_cases hw : w = v <;> simp [hw]

theorem erase_mem (r : LRUReplacer) (h : r.Inv) (v : Nat) (hv : v ∈ r.list) :
    r.erase v = ({ list := r.list.erase v, mp := r.mp.erase v, siz := r.siz - 1 }, true) := by
  unfold erase
  rw [if_pos ((h.mem_iff v).2 hv)]

theorem erase_not_mem (r : LRUReplacer) (h : r.Inv) (v : Nat) (hv : v ∉ r.list) :
    r.erase v = (r, false) := by
  unfold erase
  rw [if_neg (fun hm => hv ((h.mem_iff v).1 hm))]

theorem Insert_eq (r : LRUReplacer) (h : r.Inv) (v : Nat) :
    r.Insert v = { list := v :: (r.erase v).1.list, mp := v :: (r.erase v).1.mp,
                   siz := (r.erase v).1.siz + 1 } := by
  have h1 := inv_erase r h v
  have hn := not_mem_erase_self r h v
  have hnm : v ∉ (r.erase v).1.mp := fun hm => hn ((h1.mem_iff v).1 hm)
  unfold Insert
  simp only [hnm, if_false]

theorem erase_Insert (r : LRUReplacer) (h : r.Inv) (v : Nat) :
    ((r.Insert v).erase v).1 = (r.erase v).1 := by
  have hi := inv_Insert r h v
  have he := Insert_eq r h v
  have hm : v ∈ (r.Insert v).list := by
    rw [he]
    exact List.mem_cons_self _ _
  rw [erase_mem _ hi v hm]
  rw [he]
  simp

/-- C17: on a reachable replacer, `Victim` with `Size() = 0` returns `false`
and leaves the replacer as it is; with `Size() ≠ 0` the list is `older ++ [v]`
for the returned value `v`, which is the tail, the list afterwards is `older`
(the others in their order, `v` no longer among them) and `Size()` has dropped
by one.  `Size()` is 0 exactly for the empty list, and after `Insert(x)`,
`Insert(y)` on the replacer of the constructor `Victim` returns `x`. -/
theorem Victim_tail (r : LRUReplacer) (hr : r.Reachable) :
    (r.Size = 0 → r.Victim = (r, none)) ∧
    (r.Size ≠ 0 → ∃ older v, r.list = older ++ [v] ∧ r.Victim.2 = some v ∧
        r.Victim.1.list = older ∧ v ∉ r.Victim.1.list ∧ r.Victim.1.Size = r.Size - 1) ∧
    (r.Size = 0 ↔ r.list = []) ∧
    (∀ x y : Nat, ((empty.Insert x).Insert y).Victim.2 = some x) := by
  have h := inv_of_reachable hr
  have hsz : r.Size = 0 ↔ r.list = [] := by
    unfold Size
    rw [h.siz_eq]
    constructor
    · intro h0
      exact List.length_eq_zero.1 (by omega)
    · intro h0
      rw [h0]
      rfl
  refine ⟨?_, ?_, hsz, ?_⟩
  · intro h0
    have h1 : r.siz = 0 := h0
    unfold Victim
    rw [if_pos h1]
  · intro h0
    have hl : r.list ≠ [] := fun hl => h0 (hsz.2 hl)
    have hs : r.siz ≠ 0 := h0
    have hd := List.dropLast_append_getLast hl
    refine ⟨r.list.dropLast, r.list.getLast hl, hd.symm, ?_, ?_, ?_, ?_⟩
    · rw [Victim_eq r hs hl]
    · rw [Victim_eq r hs hl]
    · rw [Victim_eq r hs hl]
      show r.list.getLast hl ∉ r.list.dropLast
      intro hm
      exact ((mem_dropLast_iff h.nodup hl _).1 hm).2 rfl
    · rw [Victim_eq r hs hl]
      rfl
  · intro x y
    by_cases hxy : x = y
    · subst hxy
      simp [Insert, erase, empty, Victim]
    · have hyx : ¬ y = x := fun hh => hxy hh.symm
      simp [Insert, erase, empty, Victim, hxy, hyx]

/-- Witness of C17: the replacer after `Insert(1)`, `Insert(2)`. -/
theorem Victim_tail_witness :
    ((empty.Insert 1).Insert 2).list = [2, 1] ∧
    ∃ older v, ((empty.Insert 1).Insert 2).list = older ++ [v] ∧
      ((empty.Insert 1).Insert 2).Victim.2 = some v ∧
      ((empty.Insert 1).Insert 2).Victim.1.list = older ∧
      v ∉ ((empty.Insert 1).Insert 2).Victim.1.list ∧
      ((empty.Insert 1).Insert 2).Victim.1.Size = ((empty.Insert 1).Insert 2).Size - 1 :=
  ⟨by decide,
    (Victim_tail ((empty.Insert 1).Insert 2)
      (Reachable.insert 2 (Reachable.insert 1 Reachable.init))).2.1 (by decide)⟩

/-- C18: on a reachable replacer, `Insert(v)` twice gives the same replacer
as `Insert(v)` once; after `Insert(v)` the list is `v` followed by the former
members other than `v` in their former order, and `Size()` is unchanged when
`v` was a member and one more when it was not. -/
theorem Insert_promotes (r : LRUReplacer) (hr : r.Reachable) (v : Nat) :
    (r.Insert v).Insert v = r.Insert v ∧
    (r.Insert v).list = v :: r.list.filter (fun w => decide (w ≠ v)) ∧
    (v ∈ r.list → (r.Insert v).Size = r.Size) ∧
    (v ∉ r.list → (r.Insert v).Size = r.Size + 1) := by
  have h := inv_of_reachable hr
  refine ⟨?_, ?_, ?_, ?_⟩
  · rw [Insert_eq (r.Insert v) (inv_Insert r h v) v, erase_Insert r h v]
    exact (Insert_eq r h v).symm
  · rw [Insert_list r h v, erase_eq_filter r.list h.nodup v]
  · intro hv
    rw [Insert_eq r h v, erase_mem r h v hv]
    show r.siz - 1 + 1 = r.siz
    omega
  · intro hv
    rw [Insert_eq r h v, erase_not_mem r h v hv]
    rfl

/-- Witness of C18: `Insert(1)` on the replacer holding 3, 2, 1 from the head
moves 1 to the head. -/
theorem Insert_promotes_witness :
    (((empty.Insert 1).Insert 2).Insert 3).list = [3, 2, 1] ∧
    ((((empty.Insert 1).Insert 2).Insert 3).Insert 1).list = [1, 3, 2] ∧
    ((((empty.Insert 1).Insert 2).Insert 3).Insert 1).Insert 1 =
      (((empty.Insert 1).Insert 2).Insert 3).Insert 1 ∧
    ((((empty.Insert 1).Insert 2).Insert 3).Insert 1).Size =
      (((empty.Insert 1).Insert 2).Insert 3).Size :=
  have h := Insert_promotes (((empty.Insert 1).Insert 2).Insert 3)
    (Reachable.insert 3 (Reachable.insert 2 (Reachable.insert 1 Reachable.init))) 1
  ⟨by decide, h.2.1, h.1, h.2.2.1 (by decide)⟩

/-- C19: on a reachable replacer, `Erase(v)` returns `true` exactly when `v`
is in the list; on `false` the replacer is unchanged; on `true` the list
afterwards is the former list without `v`, the others in their former order,
and `Size()` has dropped by one. -/
theorem Erase_member (r : LRUReplacer) (hr : r.Reachable) (v : Nat) :
    ((r.Erase v).2 = true ↔ v ∈ r.list) ∧
    ((r.Erase v).2 = false → (r.Erase v).1 = r) ∧
    ((r.Erase v).2 = true → v ∉ (r.Erase v).1.list ∧
      (r.Erase v).1.list = r.list.filter (fun w => decide (w ≠ v)) ∧
      (∃ front back, r.list = front ++ v :: back ∧ (r.Erase v).1.list = front ++ back) ∧
      (r.Erase v).1.Size = r.Size - 1) := by
  have h := inv_of_reachable hr
  rw [Erase_eq_erase]
  by_cases hv : v ∈ r.list
  · rw [erase_mem r h v hv]
    refine ⟨⟨fun _ => hv, fun _ => rfl⟩, fun hf => Bool.noConfusion hf, fun _ => ⟨?_, ?_, ?_, rfl⟩⟩
    · show v ∉ r.list.erase v
      intro hm
      exact ((h.nodup.mem_erase_iff).1 hm).1 rfl
    · exact erase_eq_filter r.list h.nodup v
    · obtain ⟨front, back, hfb⟩ := List.append_of_mem hv
      refine ⟨front, back, hfb, ?_⟩
      show r.list.erase v = front ++ back
      have hn := h.nodup
      rw [hfb] at hn ⊢
      have hnf : v ∉ front := by
        intro hm
        rw [List.nodup_append] at hn
        exact hn.2.2 hm (List.mem_cons_self _ _)
      rw [List.erase_append_right _ hnf, List.erase_cons_head]
  · rw [erase_not_mem r h v hv]
    exact ⟨⟨fun hf => Bool.noConfusion hf, fun hm => absurd hm hv⟩, fun _ => rfl,
      fun hf => Bool.noConfusion hf⟩

/-- Witness of C19: `Erase(2)` on the replacer holding 3, 2, 1 from the head. -/
theorem Erase_member_witness :
    ((((empty.Insert 1).Insert 2).Insert 3).Erase 2).2 = true ∧
    ((((empty.Insert 1).Insert 2).Insert 3).Erase 2).1.list = [3, 1] ∧
    ((((empty.Insert 1).Insert 2).Insert 3).Erase 2).1.Size = 2 :=
  have h := Erase_member (((empty.Insert 1).Insert 2).Insert 3)
    (Reachable.insert 3 (Reachable.insert 2 (Reachable.insert 1 Reachable.init))) 2
  ⟨h.1.2 (by decide), (h.2.2 (h.1.2 (by decide))).2.1, (h.2.2 (h.1.2 (by decide))).2.2.2⟩

end LRUReplacer

/-! ## Extendible hash table: every insert returns, and the table is the map
of the calls -/

theorem mapFind_none_keys {V : Type} (m : List (Int × V)) (k : Int) (h : mapFind m k = none) :
    k ∉ m.map Prod.fst := by
  induction m with
  | nil => simp
  | cons e rest ih =>
    simp only [mapFind] at h
    by_cases he : e.1 = k
    · rw [if_pos he] at h
      exact Option.noConfusion h
    · rw [if_neg he] at h
      simp only [List.map_cons, List.mem_cons, not_or]
      exact ⟨fun hk => he hk.symm, ih h⟩

theorem filter_keys {V : Type} (m : List (Int × V)) (p : Int × V → Bool) (key : Int)
    (h : key ∈ (m.filter p).map Prod.fst) :
    key ∈ m.map Prod.fst ∧ ∃ e ∈ m, e.1 = key ∧ p e = true := by
  simp only [List.mem_map, List.mem_filter] at h
  obtain ⟨e, ⟨he, hp⟩, hk⟩ := h
  exact ⟨List.mem_map.2 ⟨e, he, hk⟩, e, he, hk, hp⟩

theorem mod_mod_pow (x g d : Nat) (hd : d ≤ g) : (x % 2 ^ g) % 2 ^ d = x % 2 ^ d :=
  Nat.mod_mod_of_dvd _ (pow_dvd_pow 2 hd)

theorem mod_succ_eq (x y d : Nat) (h1 : x % 2 ^ d = y % 2 ^ d)
    (h2 : (x / 2 ^ d) % 2 = (y / 2 ^ d) % 2) : x % 2 ^ (d + 1) = y % 2 ^ (d + 1) := by
  rw [Nat.mod_pow_succ, Nat.mod_pow_succ, h1, h2]

theorem bit_zero_of_ne_one (x : Nat) (h : ¬ x % 2 = 1) : x % 2 = 0 := by omega

namespace ExtendibleHash

variable {V : Type}

theorem HashKey_mod (m : Nat) (hm : m ≤ 64) (k : Int) :
    ((HashKey k % 2 ^ m : Nat) : Int) = k % 2 ^ m := by
  have hdvd : (2 : Int) ^ m ∣ 2 ^ 64 := pow_dvd_pow 2 hm
  have hnn : 0 ≤ k % 2 ^ 64 := Int.emod_nonneg _ (by norm_num)
  unfold HashKey
  rw [Int.natCast_mod, Int.toNat_of_nonneg hnn]
  push_cast
  exact Int.emod_emod_of_dvd k hdvd

theorem hash_inj (lo : Int) (m : Nat) (hm : m ≤ 64) (k1 k2 : Int)
    (h1 : lo ≤ k1 ∧ k1 < lo + 2 ^ m) (h2 : lo ≤ k2 ∧ k2 < lo + 2 ^ m)
    (he : HashKey k1 % 2 ^ m = HashKey k2 % 2 ^ m) : k1 = k2 := by
  have hc : ((HashKey k1 % 2 ^ m : Nat) : Int) = ((HashKey k2 % 2 ^ m : Nat) : Int) := by
    rw [he]
  rw [HashKey_mod m hm, HashKey_mod m hm] at hc
  have hd : (2 : Int) ^ m ∣ k1 - k2 := Int.dvd_of_emod_eq_zero (Int.emod_eq_emod_iff_emod_sub_eq_zero.1 hc)
  have hlt : |k1 - k2| < 2 ^ m := by
    rw [abs_lt]
    constructor <;> omega
  have := Int.eq_zero_of_abs_lt_dvd hd hlt
  omega

theorem placed_new (size : Nat) (lo : Int) (m : Nat) (hs : 1 ≤ size) :
    (ExtendibleHash.new size : ExtendibleHash V).Placed lo m := by
  refine ⟨hs, ?_, ?_, Nat.zero_le _, ?_, ?_⟩
  · intro b hb key hk
    simp only [new, List.mem_singleton] at hb
    rw [hb] at hk
    simp at hk
  · intro b hb
    simp only [new, List.mem_singleton] at hb
    rw [hb]
    exact Nat.zero_le _
  · intro i j bi b hi hj hb
    have hb2 : b ∈ (ExtendibleHash.new size : ExtendibleHash V).buckets := List.getElem?_mem hb
    simp only [new, List.mem_singleton] at hb2
    rw [hb2]
    simp [Nat.mod_one]
  · intro i bi b hi hb key hk
    have hb2 : b ∈ (ExtendibleHash.new size : ExtendibleHash V).buckets := List.getElem?_mem hb
    simp only [new, List.mem_singleton] at hb2
    rw [hb2] at hk
    simp at hk

theorem placed_set (eh : ExtendibleHash V) (lo : Int) (m : Nat) (hp : eh.Placed lo m) (bi : Nat)
    (b b1 : Bucket V) (hb : eh.buckets[bi]? = some b) (hd : b1.localDepth = b.localDepth)
    (hr : ∀ key ∈ b1.kvmap.map Prod.fst, lo ≤ key ∧ key < lo + 2 ^ m)
    (hs : ∀ i, eh.bucketTable[i]? = some bi → ∀ key ∈ b1.kvmap.map Prod.fst,
      HashKey key % 2 ^ b.localDepth = i % 2 ^ b.localDepth) :
    ExtendibleHash.Placed { eh with buckets := eh.buckets.set bi b1 } lo m := by
  have hmem : b ∈ eh.buckets := List.getElem?_mem hb
  have hbi : bi < eh.buckets.length := (List.getElem?_eq_some.1 hb).1
  refine ⟨hp.volume, ?_, ?_, hp.global, ?_, ?_⟩
  · intro x hx
    rcases List.mem_or_eq_of_mem_set hx with h1 | h1
    · exact hp.range x h1
    · rw [h1]; exact hr
  · intro x hx
    rcases List.mem_or_eq_of_mem_set hx with h1 | h1
    · exact hp.depth x h1
    · rw [h1, hd]; exact hp.depth b hmem
  · intro i j y x hi hj hx
    simp only at hi hj hx
    by_cases hy : y = bi
    · subst hy
      rw [List.getElem?_set_self hbi] at hx
      rw [← Option.some.inj hx, hd]
      exact hp.agree i j y b hi hj hb
    · rw [List.getElem?_set_ne (Ne.symm hy)] at hx
      exact hp.agree i j y x hi hj hx
  · intro i y x hi hx key hk
    simp only at hi hx
    by_cases hy : y = bi
    · subst hy
      rw [List.getElem?_set_self hbi] at hx
      rw [← Option.some.inj hx] at hk ⊢
      rw [hd]
      exact hs i hi key hk
    · rw [List.getElem?_set_ne (Ne.symm hy)] at hx
      exact hp.slot i y x hi hx key hk

theorem split_slot (eh : ExtendibleHash V) (h : eh.Inv) (bi : Nat) (tmp : Bucket V)
    (hb : eh.buckets[bi]? = some tmp) (i y : Nat)
    (hi : (eh.split bi tmp).bucketTable[i]? = some y) :
    ∃ y0, eh.bucketTable[i % 2 ^ eh.globalDepth]? = some y0 ∧ y0 < eh.buckets.length ∧
      y = if y0 = bi ∧ (i / 2 ^ tmp.localDepth) % 2 = 1 then eh.buckets.length else y0 := by
  have hd := h.depth_le tmp (List.getElem?_mem hb)
  have hlen := (split_inv eh h bi tmp hb).table_len
  have hlt : i < (eh.split bi tmp).bucketTable.length := (List.getElem?_eq_some.1 hi).1
  have hmod : i % 2 ^ (eh.split bi tmp).globalDepth = i := by
    apply Nat.mod_eq_of_lt
    rw [← hlen]
    exact hlt
  have hg := split_table_get eh h bi tmp hd i
  rw [hmod, hi] at hg
  obtain ⟨y0, hy0, hy0lt⟩ := slot_some eh h i
  rw [hy0] at hg
  simp only [Option.map_some', Option.some.injEq] at hg
  exact ⟨y0, hy0, hy0lt, hg⟩

theorem split_bucket (eh : ExtendibleHash V) (bi : Nat) (tmp : Bucket V)
    (hbi : bi < eh.buckets.length) (y : Nat) (b : Bucket V)
    (hy : (eh.split bi tmp).buckets[y]? = some b) :
    (y = bi ∧ b = Bucket.mk (tmp.localDepth + 1)
        (tmp.kvmap.filter (fun e => ¬ (HashKey e.1 / 2 ^ tmp.localDepth) % 2 = 1))) ∨
    (y = eh.buckets.length ∧ b = Bucket.mk (tmp.localDepth + 1)
        (tmp.kvmap.filter (fun e => (HashKey e.1 / 2 ^ tmp.localDepth) % 2 = 1))) ∨
    (y ≠ bi ∧ y < eh.buckets.length ∧ eh.buckets[y]? = some b) := by
  have hbk : (eh.split bi tmp).buckets =
      eh.buckets.set bi (Bucket.mk (tmp.localDepth + 1)
        (tmp.kvmap.filter (fun e => ¬ (HashKey e.1 / 2 ^ tmp.localDepth) % 2 = 1))) ++
      [Bucket.mk (tmp.localDepth + 1)
        (tmp.kvmap.filter (fun e => (HashKey e.1 / 2 ^ tmp.localDepth) % 2 = 1))] := rfl
  rw [hbk] at hy
  by_cases hlt : y < eh.buckets.length
  · rw [List.getElem?_append_left (by simpa using hlt)] at hy
    by_cases hyb : y = bi
    · subst hyb
      rw [List.getElem?_set_self hbi] at hy
      exact Or.inl ⟨rfl, (Option.some.inj hy).symm⟩
    · rw [List.getElem?_set_ne (Ne.symm hyb)] at hy
      exact Or.inr (Or.inr ⟨hyb, hlt, hy⟩)
  · have hge : (eh.buckets.set bi (Bucket.mk (tmp.localDepth + 1)
        (tmp.kvmap.filter (fun e => ¬ (HashKey e.1 / 2 ^ tmp.localDepth) % 2 = 1)))).length ≤ y := by
      simp only [List.length_set]
      omega
    rw [List.getElem?_append_right hge, List.length_set] at hy
    have h0 : y - eh.buckets.length = 0 := by
      by_contra hne
      obtain ⟨c, hc⟩ : ∃ c, y - eh.buckets.length = c + 1 := ⟨y - eh.buckets.length - 1, by omega⟩
      rw [hc] at hy
      simp at hy
    rw [h0] at hy
    simp only [List.getElem?_cons_zero, Option.some.injEq] at hy
    exact Or.inr (Or.inl ⟨by omega, hy.symm⟩)

theorem placed_split (eh : ExtendibleHash V) (lo : Int) (m : Nat) (h : eh.Inv) (hp : eh.Placed lo m)
    (bi : Nat) (tmp : Bucket V) (hb : eh.buckets[bi]? = some tmp) (hdm : tmp.localDepth < m) :
    (eh.split bi tmp).Placed lo m := by
  have hmem : tmp ∈ eh.buckets := List.getElem?_mem hb
  have hd := h.depth_le tmp hmem
  have hbi : bi < eh.buckets.length := (List.getElem?_eq_some.1 hb).1
  refine ⟨hp.volume, ?_, ?_, ?_, ?_, ?_⟩
  · intro b hbm key hk
    obtain ⟨y, hy⟩ := List.mem_iff_getElem?.1 hbm
    rcases split_bucket eh bi tmp hbi y b hy with ⟨_, hb1⟩ | ⟨_, hb1⟩ | ⟨_, _, hb1⟩
    · rw [hb1] at hk
      exact hp.range tmp hmem key (filter_keys _ _ key hk).1
    · rw [hb1] at hk
      exact hp.range tmp hmem key (filter_keys _ _ key hk).1
    · exact hp.range b (List.getElem?_mem hb1) key hk
  · intro b hbm
    obtain ⟨y, hy⟩ := List.mem_iff_getElem?.1 hbm
    rcases split_bucket eh bi tmp hbi y b hy with ⟨_, hb1⟩ | ⟨_, hb1⟩ | ⟨_, _, hb1⟩
    · rw [hb1]; exact hdm
    · rw [hb1]; exact hdm
    · exact hp.depth b (List.getElem?_mem hb1)
  · have hg := hp.global
    show (if tmp.localDepth + 1 > eh.globalDepth then eh.globalDepth + 1 else eh.globalDepth) ≤ m
    split <;> omega
  · intro i j y b hi hj hy
    obtain ⟨yi, hyi, hyilt, hyie⟩ := split_slot eh h bi tmp hb i y hi
    obtain ⟨yj, hyj, hyjlt, hyje⟩ := split_slot eh h bi tmp hb j y hj
    rcases split_bucket eh bi tmp hbi y b hy with ⟨hy1, hb1⟩ | ⟨hy1, hb1⟩ | ⟨hy1, hy2, hb1⟩
    · rw [hb1]
      show i % 2 ^ (tmp.localDepth + 1) = j % 2 ^ (tmp.localDepth + 1)
      have hi2 : yi = bi ∧ ¬ (i / 2 ^ tmp.localDepth) % 2 = 1 := by
        by_cases hc : yi = bi ∧ (i / 2 ^ tmp.localDepth) % 2 = 1
        · rw [if_pos hc] at hyie
          omega
        · rw [if_neg hc] at hyie
          have : yi = bi := by omega
          exact ⟨this, fun hbit => hc ⟨this, hbit⟩⟩
      have hj2 : yj = bi ∧ ¬ (j / 2 ^ tmp.localDepth) % 2 = 1 := by
        by_cases hc : yj = bi ∧ (j / 2 ^ tmp.localDepth) % 2 = 1
        · rw [if_pos hc] at hyje
          omega
        · rw [if_neg hc] at hyje
          have : yj = bi := by omega
          exact ⟨this, fun hbit => hc ⟨this, hbit⟩⟩
      rw [hi2.1] at hyi
      rw [hj2.1] at hyj
      have ha := hp.agree _ _ bi tmp hyi hyj hb
      rw [mod_mod_pow _ _ _ hd, mod_mod_pow _ _ _ hd] at ha
      apply mod_succ_eq _ _ _ ha
      rw [bit_zero_of_ne_one _ hi2.2, bit_zero_of_ne_one _ hj2.2]
    · rw [hb1]
      show i % 2 ^ (tmp.localDepth + 1) = j % 2 ^ (tmp.localDepth + 1)
      have hi2 : yi = bi ∧ (i / 2 ^ tmp.localDepth) % 2 = 1 := by
        by_cases hc : yi = bi ∧ (i / 2 ^ tmp.localDepth) % 2 = 1
        · exact hc
        · rw [if_neg hc] at hyie
          omega
      have hj2 : yj = bi ∧ (j / 2 ^ tmp.localDepth) % 2 = 1 := by
        by_cases hc : yj = bi ∧ (j / 2 ^ tmp.localDepth) % 2 = 1
        · exact hc
        · rw [if_neg hc] at hyje
          omega
      rw [hi2.1] at hyi
      rw [hj2.1] at hyj
      have ha := hp.agree _ _ bi tmp hyi hyj hb
      rw [mod_mod_pow _ _ _ hd, mod_mod_pow _ _ _ hd] at ha
      apply mod_succ_eq _ _ _ ha
      rw [hi2.2, hj2.2]
    · have hdb := h.depth_le b (List.getElem?_mem hb1)
      have hi2 : yi = y := by
        by_cases hc : yi = bi ∧ (i / 2 ^ tmp.localDepth) % 2 = 1
        · rw [if_pos hc] at hyie
          omega
        · rw [if_neg hc] at hyie
          exact hyie.symm
      have hj2 : yj = y := by
        by_cases hc : yj = bi ∧ (j / 2 ^ tmp.localDepth) % 2 = 1
        · rw [if_pos hc] at hyje
          omega
        · rw [if_neg hc] at hyje
          exact hyje.symm
      rw [hi2] at hyi
      rw [hj2] at hyj
      have ha := hp.agree _ _ y b hyi hyj hb1
      rw [mod_mod_pow _ _ _ hdb, mod_mod_pow _ _ _ hdb] at ha
      exact ha
  · intro i y b hi hy key hk
    obtain ⟨yi, hyi, hyilt, hyie⟩ := split_slot eh h bi tmp hb i y hi
    rcases split_bucket eh bi tmp hbi y b hy with ⟨hy1, hb1⟩ | ⟨hy1, hb1⟩ | ⟨hy1, hy2, hb1⟩
    · rw [hb1] at hk ⊢
      show HashKey key % 2 ^ (tmp.localDepth + 1) = i % 2 ^ (tmp.localDepth + 1)
      have hi2 : yi = bi ∧ ¬ (i / 2 ^ tmp.localDepth) % 2 = 1 := by
        by_cases hc : yi = bi ∧ (i / 2 ^ tmp.localDepth) % 2 = 1
        · rw [if_pos hc] at hyie
          omega
        · rw [if_neg hc] at hyie
          have : yi = bi := by omega
          exact ⟨this, fun hbit => hc ⟨this, hbit⟩⟩
      rw [hi2.1] at hyi
      obtain ⟨hk1, e, _, hek, hpe⟩ := filter_keys _ _ key hk
      have hbit : ¬ (HashKey key / 2 ^ tmp.localDepth) % 2 = 1 := by
        rw [← hek]
        simpa using hpe
      have ha := hp.slot _ bi tmp hyi hb key hk1
      rw [mod_mod_pow _ _ _ hd] at ha
      apply mod_succ_eq _ _ _ ha
      rw [bit_zero_of_ne_one _ hi2.2, bit_zero_of_ne_one _ hbit]
    · rw [hb1] at hk ⊢
      show HashKey key % 2 ^ (tmp.localDepth + 1) = i % 2 ^ (tmp.localDepth + 1)
      have hi2 : yi = bi ∧ (i / 2 ^ tmp.localDepth) % 2 = 1 := by
        by_cases hc : yi = bi ∧ (i / 2 ^ tmp.localDepth) % 2 = 1
        · exact hc
        · rw [if_neg hc] at hyie
          omega
      rw [hi2.1] at hyi
      obtain ⟨hk1, e, _, hek, hpe⟩ := filter_keys _ _ key hk
      have hbit : (HashKey key / 2 ^ tmp.localDepth) % 2 = 1 := by
        rw [← hek]
        simpa using hpe
      have ha := hp.slot _ bi tmp hyi hb key hk1
      rw [mod_mod_pow _ _ _ hd] at ha
      apply mod_succ_eq _ _ _ ha
      rw [hi2.2, hbit]
    · have hdb := h.depth_le b (List.getElem?_mem hb1)
      have hi2 : yi = y := by
        by_cases hc : yi = bi ∧ (i / 2 ^ tmp.localDepth) % 2 = 1
        · rw [if_pos hc] at hyie
          omega
        · rw [if_neg hc] at hyie
          exact hyie.symm
      rw [hi2] at hyi
      have ha := hp.slot _ y b hyi hb1 key hk
      rw [mod_mod_pow _ _ _ hdb] at ha
      exact ha

theorem full_bucket_depth (eh : ExtendibleHash V) (lo : Int) (m : Nat) (hm : m ≤ 64) (h : eh.Inv)
    (hp : eh.Placed lo m) (k : Int) (hk : lo ≤ k ∧ k < lo + 2 ^ m) (bi : Nat) (tmp : Bucket V)
    (hbi : eh.bucketTable[HashKey k % 2 ^ eh.globalDepth]? = some bi)
    (hb : eh.buckets[bi]? = some tmp)
    (hfull : ¬ ((mapFind tmp.kvmap k).isSome ∨ tmp.kvmap.length < eh.bucketVolume)) :
    tmp.localDepth < m := by
  have hmem : tmp ∈ eh.buckets := List.getElem?_mem hb
  have hd := h.depth_le tmp hmem
  have hvol := hp.volume
  simp only [not_or, not_lt] at hfull
  obtain ⟨hnf, hlen⟩ := hfull
  have hnone : mapFind tmp.kvmap k = none := by
    cases hf : mapFind tmp.kvmap k with
    | none => rfl
    | some v =>
      rw [hf] at hnf
      exact absurd rfl hnf
  have hnk := mapFind_none_keys tmp.kvmap k hnone
  by_contra hge
  have hmd : m ≤ tmp.localDepth := by omega
  obtain ⟨e, rest, hcons⟩ : ∃ e rest, tmp.kvmap = e :: rest := by
    cases hkv : tmp.kvmap with
    | nil =>
      rw [hkv] at hlen
      simp only [List.length_nil] at hlen
      omega
    | cons e rest => exact ⟨e, rest, rfl⟩
  have hek : e.1 ∈ tmp.kvmap.map Prod.fst := by
    rw [hcons]
    simp
  have hs := hp.slot _ bi tmp hbi hb e.1 hek
  rw [mod_mod_pow _ _ _ hd] at hs
  have hs2 : HashKey e.1 % 2 ^ m = HashKey k % 2 ^ m := by
    rw [← mod_mod_pow (HashKey e.1) _ _ hmd, ← mod_mod_pow (HashKey k) _ _ hmd, hs]
  have := hash_inj lo m hm e.1 k (hp.range tmp hmem e.1 hek) hk hs2
  rw [this] at hek
  exact hnk hek

theorem placed_mapSet (eh : ExtendibleHash V) (lo : Int) (m : Nat) (h : eh.Inv) (hp : eh.Placed lo m)
    (k : Int) (v : V) (hk : lo ≤ k ∧ k < lo + 2 ^ m) (bi : Nat) (tmp : Bucket V)
    (hbi : eh.bucketTable[HashKey k % 2 ^ eh.globalDepth]? = some bi)
    (hb : eh.buckets[bi]? = some tmp) :
    ExtendibleHash.Placed
      { eh with buckets :=
          eh.buckets.set bi (Bucket.mk tmp.localDepth (mapSet tmp.kvmap k v)) } lo m := by
  have hd := h.depth_le tmp (List.getElem?_mem hb)
  apply placed_set eh lo m hp bi tmp (Bucket.mk tmp.localDepth (mapSet tmp.kvmap k v)) hb rfl
  · intro key hkey
    rcases (mapSet_keys tmp.kvmap k v key).1 hkey with h1 | h1
    · rw [h1]; exact hk
    · exact hp.range tmp (List.getElem?_mem hb) key h1
  · intro i hi key hkey
    rcases (mapSet_keys tmp.kvmap k v key).1 hkey with h1 | h1
    · rw [h1]
      have ha := hp.agree _ _ bi tmp hbi hi hb
      rw [mod_mod_pow _ _ _ hd] at ha
      exact ha
    · exact hp.slot i bi tmp hi hb key h1

theorem insertLoop_total (lo : Int) (m : Nat) (hm : m ≤ 64) (k : Int) (v : V) (hk : lo ≤ k ∧ k < lo + 2 ^ m)
    (n : Nat) : ∀ (eh : ExtendibleHash V) (fuel : Nat), eh.Inv → eh.Placed lo m →
      (∀ bi b, eh.bucketTable[HashKey k % 2 ^ eh.globalDepth]? = some bi →
        eh.buckets[bi]? = some b → m ≤ b.localDepth + n) →
      n < fuel → ∃ eh1, insertLoop fuel eh k v = some eh1 ∧ eh1.Placed lo m := by
  induction n with
  | zero =>
    intro eh fuel h hp hdep hfuel
    obtain ⟨f, rfl⟩ : ∃ f, fuel = f + 1 := ⟨fuel - 1, by omega⟩
    obtain ⟨bi, hbi, hbilt⟩ := slot_some eh h (HashKey k)
    obtain ⟨tmp, hb⟩ : ∃ tmp, eh.buckets[bi]? = some tmp :=
      ⟨eh.buckets[bi], List.getElem?_eq_getElem hbilt⟩
    have hd := h.depth_le tmp (List.getElem?_mem hb)
    have hcond : (mapFind tmp.kvmap k).isSome ∨ tmp.kvmap.length < eh.bucketVolume := by
      by_contra hfull
      have := full_bucket_depth eh lo m hm h hp k hk bi tmp hbi hb hfull
      have := hdep bi tmp hbi hb
      omega
    unfold insertLoop
    simp only [List.get?_eq_getElem?, getBucketId, hbi, hb]
    rw [if_pos hcond]
    exact ⟨_, rfl, placed_mapSet eh lo m h hp k v hk bi tmp hbi hb⟩
  | succ n ih =>
    intro eh fuel h hp hdep hfuel
    obtain ⟨f, rfl⟩ : ∃ f, fuel = f + 1 := ⟨fuel - 1, by omega⟩
    obtain ⟨bi, hbi, hbilt⟩ := slot_some eh h (HashKey k)
    obtain ⟨tmp, hb⟩ : ∃ tmp, eh.buckets[bi]? = some tmp :=
      ⟨eh.buckets[bi], List.getElem?_eq_getElem hbilt⟩
    have hd := h.depth_le tmp (List.getElem?_mem hb)
    unfold insertLoop
    simp only [List.get?_eq_getElem?, getBucketId, hbi, hb]
    by_cases hcond : (mapFind tmp.kvmap k).isSome ∨ tmp.kvmap.length < eh.bucketVolume
    · rw [if_pos hcond]
      exact ⟨_, rfl, placed_mapSet eh lo m h hp k v hk bi tmp hbi hb⟩
    · rw [if_neg hcond]
      have hdm := full_bucket_depth eh lo m hm h hp k hk bi tmp hbi hb hcond
      have hdep0 := hdep bi tmp hbi hb
      apply ih (eh.split bi tmp) f (split_inv eh h bi tmp hb)
        (placed_split eh lo m h hp bi tmp hb hdm) ?_ (by omega)
      intro y b hy hyb
      have hg := split_table_get eh h bi tmp hd (HashKey k)
      rw [hy, hbi] at hg
      simp only [Option.map_some', Option.some.injEq] at hg
      rcases split_bucket eh bi tmp hbilt y b hyb with ⟨_, hb1⟩ | ⟨_, hb1⟩ | ⟨hy1, hy2, _⟩
      · rw [hb1]
        show m ≤ tmp.localDepth + 1 + n
        omega
      · rw [hb1]
        show m ≤ tmp.localDepth + 1 + n
        omega
      · exfalso
        simp only [true_and] at hg
        by_cases hc : (HashKey k / 2 ^ tmp.localDepth) % 2 = 1
        · rw [if_pos hc] at hg
          omega
        · rw [if_neg hc] at hg
          exact hy1 hg

theorem Insert_total (eh : ExtendibleHash V) (lo : Int) (m : Nat) (hm : m ≤ 64) (h : eh.Inv)
    (hp : eh.Placed lo m) (k : Int) (v : V) (hk : lo ≤ k ∧ k < lo + 2 ^ m) :
    ∃ eh1, eh.Insert k v = some eh1 ∧ eh1.Inv ∧ eh1.Placed lo m ∧
      ∀ k1, eh1.Find k1 = if k1 = k then some v else eh.Find k1 := by
  obtain ⟨eh1, h1, hp1⟩ := insertLoop_total lo m hm k v hk m eh 66 h hp
    (fun _ _ _ _ => Nat.le_add_left _ _) (by omega)
  have hs := Insert_spec eh eh1 h k v h1
  exact ⟨eh1, h1, hs.1, hp1, hs.2⟩

theorem placed_Remove (eh : ExtendibleHash V) (lo : Int) (m : Nat) (hp : eh.Placed lo m) (k : Int) :
    (eh.Remove k).1.Placed lo m := by
  unfold Remove
  simp only [List.get?_eq_getElem?]
  split
  · exact hp
  · rename_i bi hbi
    split
    · exact hp
    · rename_i b hb
      split
      · exact hp
      · apply placed_set eh lo m hp bi b (Bucket.mk b.localDepth (mapErase b.kvmap k)) hb rfl
        · intro key hkey
          exact hp.range b (List.getElem?_mem hb) key
            (((mapErase_sublist b.kvmap k).map Prod.fst).subset hkey)
        · intro i hi key hkey
          exact hp.slot i bi b hi hb key
            (((mapErase_sublist b.kvmap k).map Prod.fst).subset hkey)

theorem run_append (eh : ExtendibleHash V) (ops : List (HashOp V)) (op : HashOp V) :
    eh.run (ops ++ [op]) = (eh.run ops).bind (fun e => e.step op) := by
  induction ops generalizing eh with
  | nil =>
    simp only [List.nil_append, run, Option.some_bind]
    cases eh.step op <;> rfl
  | cons o rest ih =>
    simp only [List.cons_append, run]
    cases eh.step o with
    | none => rfl
    | some e1 => exact ih e1

theorem run_placed (size : Nat) (lo : Int) (m : Nat) (hsize : 1 ≤ size) (hm : m ≤ 64) (ops : List (HashOp V))
    (hkeys : ∀ k v, HashOp.insert k v ∈ ops → lo ≤ k ∧ k < lo + 2 ^ m) :
    ∃ eh, (ExtendibleHash.new size : ExtendibleHash V).run ops = some eh ∧ eh.Inv ∧
      eh.Placed lo m ∧ ∀ key, eh.Find key = specFind ops key := by
  induction ops using List.reverseRecOn with
  | nil =>
    exact ⟨_, rfl, new_inv size, placed_new size lo m hsize, fun key => new_Find size key⟩
  | append_singleton ops op ih =>
    obtain ⟨eh, hrun, hinv, hpl, hfind⟩ := ih (fun k v hmem => hkeys k v (by simp [hmem]))
    rw [run_append, hrun]
    simp only [Option.some_bind]
    cases op with
    | insert k v =>
      obtain ⟨eh1, hi, hinv1, hpl1, hf1⟩ := Insert_total eh lo m hm hinv hpl k v
        (hkeys k v (by simp))
      refine ⟨eh1, hi, hinv1, hpl1, fun key => ?_⟩
      rw [hf1 key, hfind key]
      simp only [specFind, List.reverse_append, List.reverse_cons, List.reverse_nil,
        List.nil_append, List.singleton_append, specFindRev]
      by_cases hkk : key = k
      · rw [if_pos hkk, if_pos hkk.symm]
      · rw [if_neg hkk, if_neg (fun hh => hkk hh.symm)]
    | remove k =>
      have hr := Remove_spec eh hinv k
      refine ⟨(eh.Remove k).1, rfl, hr.1, placed_Remove eh lo m hpl k, fun key => ?_⟩
      rw [hr.2 key, hfind key]
      simp only [specFind, List.reverse_append, List.reverse_cons, List.reverse_nil,
        List.nil_append, List.singleton_append, specFindRev]
      by_cases hkk : key = k
      · rw [if_pos hkk, if_pos hkk.symm]
      · rw [if_neg hkk, if_neg (fun hh => hkk hh.symm)]

/-- C16, as the code behaves: on a fresh table with `bucket_volume = 2`, after
`Insert` of the keys 0, 1, 2, 3, 4 in that order (with any values) the global
depth is 2, the number of buckets is 3, the directory has the four slots
`[0, 1, 2, 1]` and `Find` returns the inserted value for each of the five
keys. -/
theorem split_scenario (v0 v1 v2 v3 v4 : V) :
    ∃ eh, (ExtendibleHash.new 2 : ExtendibleHash V).run [HashOp.insert 0 v0,
        HashOp.insert 1 v1, HashOp.insert 2 v2, HashOp.insert 3 v3, HashOp.insert 4 v4] =
          some eh ∧
      eh.GetGlobalDepth = 2 ∧ eh.GetNumBuckets = 3 ∧ eh.bucketTable = [0, 1, 2, 1] ∧
      eh.Find 0 = some v0 ∧ eh.Find 1 = some v1 ∧ eh.Find 2 = some v2 ∧
      eh.Find 3 = some v3 ∧ eh.Find 4 = some v4 := by
  refine ⟨ExtendibleHash.mk 2 2 3 [0, 1, 2, 1]
    [Bucket.mk 2 [(0, v0), (4, v4)], Bucket.mk 1 [(1, v1), (3, v3)], Bucket.mk 2 [(2, v2)]],
    ?_, rfl, rfl, rfl, ?_, ?_, ?_, ?_, ?_⟩ <;> with_unfolding_all rfl

/-- Counterexample to C16 as stated: with `bucket_volume = 2` and the keys
0, 1, 2, 3, 4 the global depth is 2, not 3, and there are 3 buckets, not 4 or
more. -/
theorem split_scenario_depth_two :
    ((ExtendibleHash.new 2 : ExtendibleHash Nat).run [HashOp.insert 0 0, HashOp.insert 1 10,
        HashOp.insert 2 20, HashOp.insert 3 30, HashOp.insert 4 40]).map
      (fun eh => (eh.GetGlobalDepth, eh.GetNumBuckets)) = some (2, 3) ∧
    ¬ ∃ eh, (ExtendibleHash.new 2 : ExtendibleHash Nat).run [HashOp.insert 0 0,
        HashOp.insert 1 10, HashOp.insert 2 20, HashOp.insert 3 30, HashOp.insert 4 40] =
          some eh ∧ eh.GetGlobalDepth = 3 ∧ 4 ≤ eh.GetNumBuckets := by
  have hrun : ((ExtendibleHash.new 2 : ExtendibleHash Nat).run [HashOp.insert 0 0,
      HashOp.insert 1 10, HashOp.insert 2 20, HashOp.insert 3 30, HashOp.insert 4 40]).map
      (fun eh => (eh.GetGlobalDepth, eh.GetNumBuckets)) = some (2, 3) := by decide
  refine ⟨hrun, ?_⟩
  rintro ⟨eh, he, hg, _⟩
  rw [he] at hrun
  simp only [Option.map_some', Option.some.injEq, Prod.mk.injEq] at hrun
  omega

end ExtendibleHash

/-! ## Pin audit: every fetch of an operation is matched by an unpin -/

theorem bump_nonneg (base : Int → Int) (hb : ∀ p, 0 ≤ base p) (pid : Int) :
    ∀ p, 0 ≤ bump base pid p := by
  intro p
  unfold bump
  have := hb p
  split <;> omega

theorem SetParentPageId_GetPageId (p : BPlusTreePage) (q : Int) :
    (p.SetParentPageId q).GetPageId = p.GetPageId := by
  cases p <;> rfl

namespace BPlusTree

theorem Stored.lt {t : BPlusTree} (h : t.Stored) {pid : Int} {p : BPlusTreePage}
    (hp : t.pages pid = some p) : pid < t.next_page_id := (h.1 pid p hp).2

theorem Stored.id {t : BPlusTree} (h : t.Stored) {pid : Int} {p : BPlusTreePage}
    (hp : t.pages pid = some p) : p.GetPageId = pid := (h.1 pid p hp).1

theorem Stored.leaf {t : BPlusTree} (h : t.Stored) {pid : Int} {p : BPlusTreeLeafPage}
    (hp : t.getLeaf pid = some p) : p.page_id = pid ∧ pid < t.next_page_id := by
  have := h.1 pid (.leaf p) (getLeaf_some t pid p hp)
  exact this

theorem Stored.internal {t : BPlusTree} (h : t.Stored) {pid : Int} {p : BPlusTreeInternalPage}
    (hp : t.getInternal pid = some p) : p.page_id = pid ∧ pid < t.next_page_id := by
  have := h.1 pid (.internal p) (getInternal_some t pid p hp)
  exact this

theorem Stored.setPage {t : BPlusTree} (h : t.Stored) (pid : Int) (p : BPlusTreePage)
    (hid : p.GetPageId = pid) (hlt : pid < t.next_page_id) : (t.setPage pid p).Stored := by
  refine ⟨fun q pg hq => ?_, h.2⟩
  by_cases hqp : q = pid
  · subst hqp
    rw [pages_setPage_self] at hq
    rw [← Option.some.inj hq]
    exact ⟨hid, hlt⟩
  · rw [pages_setPage_ne _ _ _ _ hqp] at hq
    exact h.1 q pg hq

theorem Stored.setParent {t t1 : BPlusTree} (h : t.Stored) (pid parent : Int)
    (hs : t.setParent pid parent = some t1) :
    t1.Stored ∧ t1.next_page_id = t.next_page_id := by
  unfold BPlusTree.setParent at hs
  split at hs
  · rename_i p hp
    simp only [Option.some.injEq] at hs
    subst hs
    exact ⟨h.setPage pid _ (by rw [SetParentPageId_GetPageId]; exact h.id hp) (h.lt hp), rfl⟩
  · exact Option.noConfusion hs

end BPlusTree

namespace PinnedTree

theorem good_fetch {s : PinnedTree} {base : Int → Int} (h : s.Good base) (pid : Int)
    (hlt : pid < s.tree.next_page_id) : (s.fetch pid).Good (bump base pid) := by
  refine ⟨h.stored, fun p => ?_, fun p hp => ?_⟩
  · show (if p = pid then s.pins p + 1 else s.pins p) = bump base pid p + _
    have := h.acc p
    unfold bump
    show _ = _ + ((s.page_set.count p : Nat) : Int)
    split <;> omega
  · have hne : p ≠ pid := by
      intro he
      rw [he] at hp
      have : s.tree.next_page_id ≤ pid := hp
      omega
    have := h.fresh p hp
    unfold bump
    rw [if_neg hne]
    exact this

theorem good_unpin {s : PinnedTree} {base : Int → Int} {pid : Int} (hb : ∀ p, 0 ≤ base p)
    (h : s.Good (bump base pid)) : (s.unpin pid).Good base := by
  have hpid := h.acc pid
  unfold bump at hpid
  rw [if_pos rfl] at hpid
  have hpos : ¬ s.pins pid ≤ 0 := by
    have := hb pid
    omega
  unfold unpin
  rw [if_neg hpos]
  refine ⟨h.stored, fun p => ?_, fun p hp => ?_⟩
  · show (if p = pid then s.pins p - 1 else s.pins p) = base p + ((s.page_set.count p : Nat) : Int)
    have := h.acc p
    unfold bump at this
    split <;> simp_all
    omega
  · have := h.fresh p hp
    unfold bump at this
    have hbp := hb p
    split at this
    · omega
    · exact this

theorem good_write {s : PinnedTree} {base : Int → Int} (h : s.Good base) (pid : Int)
    (p : BPlusTreePage) (hid : p.GetPageId = pid) (hlt : pid < s.tree.next_page_id) :
    (s.write pid p).Good base :=
  ⟨h.stored.setPage pid p hid hlt, h.acc, h.fresh⟩

theorem good_tree {s : PinnedTree} {base : Int → Int} (h : s.Good base) (t1 : BPlusTree)
    (hst : t1.Stored) (hn : t1.next_page_id = s.tree.next_page_id) :
    PinnedTree.Good { s with tree := t1 } base := by
  refine ⟨hst, h.acc, fun p hp => ?_⟩
  apply h.fresh p
  rw [← hn]
  exact hp

theorem good_newPage {s : PinnedTree} {base : Int → Int} (h : s.Good base) :
    s.newPage.1.Good (bump base s.tree.next_page_id) ∧
      s.newPage.1.tree.next_page_id = s.tree.next_page_id + 1 ∧
      s.newPage.2 = s.tree.next_page_id := by
  refine ⟨⟨?_, fun p => ?_, fun p hp => ?_⟩, rfl, rfl⟩
  · refine ⟨fun q pg hq => ?_, ?_⟩
    · have := h.stored.1 q pg hq
      refine ⟨this.1, ?_⟩
      show q < s.tree.next_page_id + 1
      omega
    · have := h.stored.2
      show HEADER_PAGE_ID < s.tree.next_page_id + 1
      omega
  · show (if p = s.tree.next_page_id then 1 else s.pins p) =
      bump base s.tree.next_page_id p + ((s.page_set.count p : Nat) : Int)
    unfold bump
    by_cases hp : p = s.tree.next_page_id
    · rw [if_pos hp, if_pos hp]
      have hf := h.fresh p (by omega)
      rw [hf.1, List.count_eq_zero_of_not_mem hf.2]
      rfl
    · rw [if_neg hp, if_neg hp]
      exact h.acc p
  · have hp1 : s.tree.next_page_id + 1 ≤ p := hp
    have hf := h.fresh p (by omega)
    unfold bump
    rw [if_neg (by omega)]
    exact hf

theorem good_add {s : PinnedTree} {base : Int → Int} {pid : Int} (h : s.Good (bump base pid))
    (hlt : pid < s.tree.next_page_id) : (s.AddIntoPageSet pid).Good base := by
  refine ⟨h.stored, fun p => ?_, fun p hp => ?_⟩
  · show s.pins p = base p + (((s.page_set ++ [pid]).count p : Nat) : Int)
    have := h.acc p
    unfold bump at this
    rw [List.count_append, List.count_singleton]
    by_cases hp : p = pid
    · subst hp
      simp only [if_true, beq_self_eq_true] at this ⊢
      push_cast
      omega
    · have hp2 : ¬ pid = p := fun he => hp he.symm
      simp only [hp, if_false, beq_iff_eq, hp2] at this ⊢
      simpa using this
  · have hp1 : s.tree.next_page_id ≤ p := hp
    have hne : p ≠ pid := by omega
    have := h.fresh p hp
    unfold bump at this
    rw [if_neg hne] at this
    refine ⟨this.1, ?_⟩
    show p ∉ s.page_set ++ [pid]
    simp only [List.mem_append, List.mem_singleton, not_or]
    exact ⟨this.2, hne⟩

theorem good_addDeleted {s : PinnedTree} {base : Int → Int} (h : s.Good base) (pid : Int) :
    (s.AddIntoDeletedPageSet pid).Good base :=
  ⟨h.stored, h.acc, h.fresh⟩

theorem freeLoop_spec (base : Int → Int) (hb : ∀ p, 0 ≤ base p) (l : List Int) :
    ∀ s : PinnedTree, (∀ p, s.pins p = base p + ((l.count p : Nat) : Int)) →
      (s.freeLoop l).tree = s.tree ∧ (s.freeLoop l).page_set = s.page_set ∧
      ∀ p, (s.freeLoop l).pins p = base p := by
  induction l with
  | nil =>
    intro s hacc
    refine ⟨rfl, rfl, fun p => ?_⟩
    simpa using hacc p
  | cons pid rest ih =>
    intro s hacc
    have hpid := hacc pid
    simp only [List.count_cons_self] at hpid
    have hpos : ¬ s.pins pid ≤ 0 := by
      have := hb pid
      push_cast at hpid
      omega
    have hu : s.unpin pid =
        { s with pins := fun q => if q = pid then s.pins q - 1 else s.pins q } := by
      unfold unpin
      rw [if_neg hpos]
    have hacc1 : ∀ p, (s.unpin pid).pins p = base p + ((rest.count p : Nat) : Int) := by
      intro p
      rw [hu]
      show (if p = pid then s.pins p - 1 else s.pins p) = _
      have := hacc p
      rw [List.count_cons] at this
      by_cases hp : p = pid
      · subst hp
        simp only [if_true, beq_self_eq_true] at this ⊢
        push_cast at this
        omega
      · have hp2 : ¬ pid = p := fun he => hp he.symm
        simp only [hp, if_false, beq_iff_eq, hp2] at this ⊢
        simpa using this
    have hstep : s.freeLoop (pid :: rest) =
        (if pid ∈ (s.unpin pid).deleted_page_set then
          { ((s.unpin pid).deletePage pid) with
              deleted_page_set := (s.unpin pid).deleted_page_set.erase pid }
        else s.unpin pid).freeLoop rest := rfl
    rw [hstep]
    have htree : (s.unpin pid).tree = s.tree := by rw [hu]
    have hset : (s.unpin pid).page_set = s.page_set := by rw [hu]
    split
    · obtain ⟨h1, h2, h3⟩ := ih { ((s.unpin pid).deletePage pid) with
          deleted_page_set := (s.unpin pid).deleted_page_set.erase pid } hacc1
      exact ⟨h1.trans htree, h2.trans hset, h3⟩
    · obtain ⟨h1, h2, h3⟩ := ih (s.unpin pid) hacc1
      exact ⟨h1.trans htree, h2.trans hset, h3⟩

theorem good_free {s : PinnedTree} {base : Int → Int} (hb : ∀ p, 0 ≤ base p) (h : s.Good base) :
    s.FreePagesInTransaction.Good base ∧ s.FreePagesInTransaction.page_set = [] ∧
      s.FreePagesInTransaction.tree = s.tree := by
  obtain ⟨h1, _, h3⟩ := freeLoop_spec base hb s.page_set s h.acc
  refine ⟨⟨?_, fun p => ?_, fun p hp => ?_⟩, rfl, h1⟩
  · show (s.freeLoop s.page_set).tree.Stored
    rw [h1]
    exact h.stored
  · show (s.freeLoop s.page_set).pins p = base p + (((([] : List Int)).count p : Nat) : Int)
    rw [h3 p]
    simp
  · have hp1 : (s.freeLoop s.page_set).tree.next_page_id ≤ p := hp
    rw [h1] at hp1
    exact ⟨(h.fresh p hp1).1, List.not_mem_nil p⟩

theorem good_UpdateRootPageId {s : PinnedTree} {base : Int → Int} (hb : ∀ p, 0 ≤ base p)
    (h : s.Good base) (r : Bool) :
    (s.UpdateRootPageId r).Good base ∧ (s.UpdateRootPageId r).page_set = s.page_set ∧
      (s.UpdateRootPageId r).tree.next_page_id = s.tree.next_page_id := by
  have h1 := good_fetch h HEADER_PAGE_ID h.stored.2
  have hf := BPlusTree.UpdateRootPageId_fields s.tree r
  have hst : (s.tree.UpdateRootPageId r).Stored := by
    refine ⟨fun q pg hq => ?_, ?_⟩
    · rw [hf.2.2.2.2]
      rw [hf.1] at hq
      exact h.stored.1 q pg hq
    · rw [hf.2.2.2.2]
      exact h.stored.2
  have h2 := good_tree h1 (s.tree.UpdateRootPageId r) hst hf.2.2.2.2
  have h3 := good_unpin hb h2
  refine ⟨h3, ?_, ?_⟩
  · unfold UpdateRootPageId unpin
    simp only
    split <;> rfl
  · unfold UpdateRootPageId unpin
    simp only
    split <;> exact hf.2.2.2.2

end PinnedTree

/-! ### The page routines keep the page id -/

theorem BPlusTreeLeafPage.Insert_page_id (p : BPlusTreeLeafPage) (k v : Int) :
    (p.Insert k v).page_id = p.page_id := by
  unfold BPlusTreeLeafPage.Insert
  split
  · rfl
  · split <;> rfl

theorem BPlusTreeLeafPage.MoveHalfTo_page_id (p r p1 r1 : BPlusTreeLeafPage)
    (h : p.MoveHalfTo r = some (p1, r1)) : p1.page_id = p.page_id ∧ r1.page_id = r.page_id := by
  unfold BPlusTreeLeafPage.MoveHalfTo at h
  simp only at h
  split at h
  · exact Option.noConfusion h
  · simp only [Option.some.injEq, Prod.mk.injEq] at h
    obtain ⟨h1, h2⟩ := h
    subst h1
    subst h2
    exact ⟨rfl, rfl⟩

theorem BPlusTreeLeafPage.RemoveAndDeleteRecord_page_id (p : BPlusTreeLeafPage) (k : Int) :
    (p.RemoveAndDeleteRecord k).page_id = p.page_id := by
  unfold BPlusTreeLeafPage.RemoveAndDeleteRecord
  split
  · split <;> rfl
  · rfl

theorem BPlusTreeInternalPage.SetKeyAt_page_id (p p1 : BPlusTreeInternalPage) (i k : Int)
    (h : p.SetKeyAt i k = some p1) : p1.page_id = p.page_id := by
  unfold BPlusTreeInternalPage.SetKeyAt at h
  split at h
  · simp only [Option.some.injEq] at h
    subst h
    rfl
  · exact Option.noConfusion h

theorem BPlusTreeInternalPage.InsertNodeAfter_page_id (p p1 : BPlusTreeInternalPage)
    (a b c : Int) (h : p.InsertNodeAfter a b c = some p1) : p1.page_id = p.page_id := by
  unfold BPlusTreeInternalPage.InsertNodeAfter at h
  simp only at h
  split at h
  · simp only [Option.some.injEq] at h
    subst h
    rfl
  · exact Option.noConfusion h

theorem BPlusTreeInternalPage.Remove_page_id (p p1 : BPlusTreeInternalPage) (i : Int)
    (h : p.Remove i = some p1) : p1.page_id = p.page_id := by
  unfold BPlusTreeInternalPage.Remove at h
  split at h
  · simp only [Option.some.injEq] at h
    subst h
    rfl
  · exact Option.noConfusion h

theorem BPlusTreeInternalPage.RemoveAndReturnOnlyChild_page_id (p p1 : BPlusTreeInternalPage)
    (c : Int) (h : p.RemoveAndReturnOnlyChild = some (p1, c)) : p1.page_id = p.page_id := by
  unfold BPlusTreeInternalPage.RemoveAndReturnOnlyChild at h
  split at h
  · simp only [Option.some.injEq, Prod.mk.injEq] at h
    obtain ⟨h1, _⟩ := h
    subst h1
    rfl
  · exact Option.noConfusion h

theorem BPlusTreeInternalPage.CopyLastFrom_page_id (p p1 : BPlusTreeInternalPage)
    (e : Int × Int) (h : p.CopyLastFrom e = some p1) : p1.page_id = p.page_id := by
  unfold BPlusTreeInternalPage.CopyLastFrom at h
  split at h
  · simp only [Option.some.injEq] at h
    subst h
    rfl
  · exact Option.noConfusion h

namespace PinnedTree

/-! ### Search -/

theorem good_crab {s s1 : PinnedTree} {base : Int → Int} (hb : ∀ p, 0 ≤ base p)
    (h : s.Good base) (pid : Int) (op : OpType) (previous : Int)
    (hf : s.CrabingProtocalFetchPage pid op previous = some s1) :
    s1.Good base ∧ s1.tree = s.tree := by
  unfold CrabingProtocalFetchPage at hf
  simp only at hf
  split at hf
  · exact Option.noConfusion hf
  · rename_i treePage hpage
    have hpage2 : s.tree.pages pid = some treePage := hpage
    have hlt := h.stored.lt hpage2
    have h1 := good_fetch h pid hlt
    simp only [Option.some.injEq] at hf
    subst hf
    split
    · obtain ⟨h2, _, h3⟩ := good_free (bump_nonneg base hb pid) h1
      refine ⟨good_add h2 ?_, h3⟩
      rw [h3]
      exact hlt
    · exact ⟨good_add h1 hlt, rfl⟩

theorem good_findLeafLoop (key : Int) (leftMost : Bool) (op : OpType) (base : Int → Int)
    (hb : ∀ p, 0 ≤ base p) (fuel : Nat) :
    ∀ (s s1 : PinnedTree) (cur leaf : Int), s.Good base →
      findLeafLoop key leftMost op fuel s cur = some (s1, leaf) →
      s1.Good base ∧ s1.tree = s.tree := by
  induction fuel with
  | zero =>
    intro s s1 cur leaf h hf
    simp [findLeafLoop] at hf
  | succ fuel ih =>
    intro s s1 cur leaf h hf
    unfold findLeafLoop at hf
    split at hf
    · exact Option.noConfusion hf
    · simp only [Option.some.injEq, Prod.mk.injEq] at hf
      rw [← hf.1]
      exact ⟨h, rfl⟩
    · split at hf
      · exact Option.noConfusion hf
      · rename_i next _
        split at hf
        · exact Option.noConfusion hf
        · rename_i s2 hcrab
          obtain ⟨h2, ht2⟩ := good_crab hb h next op cur hcrab
          obtain ⟨h3, ht3⟩ := ih s2 s1 next leaf h2 hf
          exact ⟨h3, ht3.trans ht2⟩

theorem good_FindLeafPage {s s1 : PinnedTree} {base : Int → Int} (hb : ∀ p, 0 ≤ base p)
    (h : s.Good base) (key : Int) (leftMost : Bool) (op : OpType) (fuel : Nat)
    (r : Option Int) (hf : s.FindLeafPage key leftMost op fuel = some (s1, r)) :
    s1.Good base ∧ s1.tree = s.tree ∧ (r = none → s1 = s) := by
  unfold FindLeafPage at hf
  split at hf
  · simp only [Option.some.injEq, Prod.mk.injEq] at hf
    rw [← hf.1]
    exact ⟨h, rfl, fun _ => rfl⟩
  · split at hf
    · exact Option.noConfusion hf
    · rename_i s2 hcrab
      obtain ⟨h2, ht2⟩ := good_crab hb h _ op (-1) hcrab
      cases hl : findLeafLoop key leftMost op fuel s2 s.tree.root_page_id with
      | none =>
        rw [hl] at hf
        exact Option.noConfusion hf
      | some res =>
        obtain ⟨s3, leaf⟩ := res
        rw [hl] at hf
        simp only [Option.map_some', Option.some.injEq, Prod.mk.injEq] at hf
        obtain ⟨hs, hr⟩ := hf
        subst hs
        obtain ⟨h3, ht3⟩ := good_findLeafLoop key leftMost op base hb fuel s2 s3 _ leaf h2 hl
        refine ⟨h3, ht3.trans ht2, fun hn => ?_⟩
        rw [← hr] at hn
        exact Option.noConfusion hn

theorem good_GetValue {s s1 : PinnedTree} {base : Int → Int} (hb : ∀ p, 0 ≤ base p)
    (h : s.Good base) (key : Int) (fuel : Nat) (r : Option Int)
    (hf : s.GetValue key fuel = some (s1, r)) :
    s1.Good base ∧ (s.page_set = [] → s1.page_set = []) := by
  unfold GetValue at hf
  split at hf
  · exact Option.noConfusion hf
  · rename_i s2 hfind
    obtain ⟨_, _, h3⟩ := good_FindLeafPage hb h key false OpType.READ fuel none hfind
    simp only [Option.some.injEq, Prod.mk.injEq] at hf
    rw [← hf.1, h3 rfl]
    exact ⟨h, fun hs => hs⟩
  · rename_i s2 leafId hfind
    obtain ⟨h2, _, _⟩ := good_FindLeafPage hb h key false OpType.READ fuel _ hfind
    split at hf
    · exact Option.noConfusion hf
    · simp only [Option.some.injEq, Prod.mk.injEq] at hf
      rw [← hf.1]
      obtain ⟨h3, h4, _⟩ := good_free hb h2
      exact ⟨h3, fun _ => h4⟩

/-! ### Insertion -/

theorem good_StartNewTree {s : PinnedTree} {base : Int → Int} (hb : ∀ p, 0 ≤ base p)
    (h : s.Good base) (key value : Int) :
    (s.StartNewTree key value).Good base ∧ (s.StartNewTree key value).page_set = s.page_set := by
  obtain ⟨hg, hnext, hpid⟩ := good_newPage h
  have hb1 := bump_nonneg base hb s.tree.next_page_id
  have hst2 : BPlusTree.Stored { s.newPage.1.tree with root_page_id := s.newPage.2 } :=
    ⟨hg.stored.1, hg.stored.2⟩
  have h2 := good_tree hg _ hst2 rfl
  obtain ⟨h3, hset3, hn3⟩ := good_UpdateRootPageId hb1 h2 true
  have h4 := good_write h3 s.tree.next_page_id
    (.leaf ((BPlusTreeLeafPage.Init s.tree.next_page_id INVALID_PAGE_ID
      s.tree.leaf_max_size).Insert key value))
    (by
      show ((BPlusTreeLeafPage.Init s.tree.next_page_id INVALID_PAGE_ID
        s.tree.leaf_max_size).Insert key value).page_id = _
      rw [BPlusTreeLeafPage.Insert_page_id]
      rfl)
    (by
      rw [hn3]
      show s.tree.next_page_id < s.tree.next_page_id + 1
      omega)
  have h5 := good_unpin hb h4
  refine ⟨h5, ?_⟩
  show (PinnedTree.unpin _ _).page_set = _
  unfold unpin
  split
  · exact hset3
  · exact hset3

theorem good_SplitLeaf {s s3 : PinnedTree} {base : Int → Int}
    (h : s.Good base) (nodeId pid : Int) (hf : s.SplitLeaf nodeId = some (s3, pid)) :
    s3.Good base := by
  obtain ⟨hg, hnext, hpid⟩ := good_newPage h
  have h2 : (s.newPage.1.AddIntoPageSet s.tree.next_page_id).Good base :=
    good_add hg (by rw [hnext]; omega)
  unfold SplitLeaf at hf
  simp only [newPage] at hf
  split at hf
  · exact Option.noConfusion hf
  · rename_i node hnode
    have hnode2 : (s.newPage.1.AddIntoPageSet s.tree.next_page_id).tree.getLeaf nodeId =
        some node := hnode
    have hn := h2.stored.leaf hnode2
    split at hf
    · exact Option.noConfusion hf
    · rename_i node1 new_node1 hmove
      have hids := BPlusTreeLeafPage.MoveHalfTo_page_id _ _ _ _ hmove
      simp only [Option.some.injEq, Prod.mk.injEq] at hf
      rw [← hf.1]
      have h3 := good_write h2 s.tree.next_page_id (.leaf new_node1) hids.2
        (by
          show s.tree.next_page_id < s.tree.next_page_id + 1
          omega)
      exact good_write h3 nodeId (.leaf node1) (hids.1.trans hn.1) hn.2

theorem good_setParent {s s1 : PinnedTree} {base : Int → Int} (hb : ∀ p, 0 ≤ base p)
    (h : s.Good base) (pid parent : Int) (hf : s.setParent pid parent = some s1) :
    s1.Good base ∧ s1.tree.next_page_id = s.tree.next_page_id := by
  unfold setParent at hf
  simp only at hf
  split at hf
  · exact Option.noConfusion hf
  · rename_i p hp
    have hp2 : s.tree.pages pid = some p := hp
    have hlt := h.stored.lt hp2
    have h1 := good_fetch h pid hlt
    have h2 := good_write h1 pid (p.SetParentPageId parent)
      (by rw [SetParentPageId_GetPageId]; exact h.stored.id hp2) hlt
    have h3 := good_unpin hb h2
    simp only [Option.some.injEq] at hf
    rw [← hf]
    refine ⟨h3, ?_⟩
    unfold unpin
    split <;> rfl

theorem good_reparentAll (base : Int → Int) (hb : ∀ p, 0 ≤ base p) (l : List (Int × Int))
    (parent : Int) : ∀ (s s1 : PinnedTree), s.Good base → s.reparentAll l parent = some s1 →
      s1.Good base ∧ s1.tree.next_page_id = s.tree.next_page_id := by
  induction l with
  | nil =>
    intro s s1 h hf
    simp only [reparentAll, Option.some.injEq] at hf
    rw [← hf]
    exact ⟨h, rfl⟩
  | cons e rest ih =>
    intro s s1 h hf
    unfold reparentAll at hf
    split at hf
    · rename_i s2 hs2
      obtain ⟨h2, hn2⟩ := good_setParent hb h e.2 parent hs2
      obtain ⟨h3, hn3⟩ := ih s2 s1 h2 hf
      exact ⟨h3, hn3.trans hn2⟩
    · exact Option.noConfusion hf

theorem good_internalMoveHalfTo {s s1 : PinnedTree} {base : Int → Int} (hb : ∀ p, 0 ≤ base p)
    (h : s.Good base) (thisId recipId : Int) (hf : s.internalMoveHalfTo thisId recipId = some s1) :
    s1.Good base := by
  unfold internalMoveHalfTo at hf
  split at hf
  · rename_i p r hp hr
    simp only at hf
    split at hf
    · exact Option.noConfusion hf
    · split at hf
      · exact Option.noConfusion hf
      · rename_i s2 hs2
        obtain ⟨h2, hn2⟩ := good_reparentAll base hb _ _ s s2 h hs2
        split at hf
        · rename_i p1 r1 hp1 hr1
          have hi1 := h2.stored.internal hp1
          have hi2 := h2.stored.internal hr1
          simp only [Option.some.injEq] at hf
          rw [← hf]
          have h3 := good_write h2 recipId
            (.internal { r1 with array := (p.array.take (p.max_size + 1)).drop ((p.max_size + 1) / 2) })
            hi2.1 hi2.2
          exact good_write h3 thisId
            (.internal { p1 with array := p.array.take ((p.max_size + 1) / 2) }) hi1.1 hi1.2
        · exact Option.noConfusion hf
  · exact Option.noConfusion hf

theorem good_SplitInternal {s s3 : PinnedTree} {base : Int → Int} (hb : ∀ p, 0 ≤ base p)
    (h : s.Good base) (nodeId pid : Int) (hf : s.SplitInternal nodeId = some (s3, pid)) :
    s3.Good base := by
  obtain ⟨hg, hnext, hpid⟩ := good_newPage h
  have h2 : (s.newPage.1.AddIntoPageSet s.tree.next_page_id).Good base :=
    good_add hg (by rw [hnext]; omega)
  have h3 := good_write h2 s.tree.next_page_id
    (.internal (BPlusTreeInternalPage.Init s.tree.next_page_id INVALID_PAGE_ID
      s.tree.internal_max_size)) rfl
    (by
      show s.tree.next_page_id < s.tree.next_page_id + 1
      omega)
  unfold SplitInternal at hf
  simp only [newPage] at hf
  split at hf
  · exact Option.noConfusion hf
  · rename_i s4 hs4
    simp only [Option.some.injEq, Prod.mk.injEq] at hf
    rw [← hf.1]
    exact good_internalMoveHalfTo hb h3 _ _ hs4

theorem good_InsertIntoParent (fuel : Nat) :
    ∀ (base : Int → Int) (s s1 : PinnedTree) (oldId key newId : Int), (∀ p, 0 ≤ base p) →
      s.Good base → InsertIntoParent fuel s oldId key newId = some s1 → s1.Good base := by
  induction fuel with
  | zero =>
    intro base s s1 oldId key newId hb h hf
    simp [InsertIntoParent] at hf
  | succ fuel ih =>
    intro base s s1 oldId key newId hb h hf
    unfold InsertIntoParent at hf
    split at hf
    · rename_i old_node new_node hold hnew
      split at hf
      · -- a new root
        simp only [newPage] at hf
        obtain ⟨hg, hnext, hpid⟩ := good_newPage h
        have hb1 := bump_nonneg base hb s.tree.next_page_id
        have hst2 : BPlusTree.Stored { s.newPage.1.tree with root_page_id := s.newPage.2 } :=
          ⟨hg.stored.1, hg.stored.2⟩
        have h2 := good_tree hg _ hst2 rfl
        have h3 := good_write h2 s.tree.next_page_id
          (.internal ((BPlusTreeInternalPage.Init s.tree.next_page_id INVALID_PAGE_ID
            s.tree.internal_max_size).PopulateNewRoot old_node.GetPageId key
              new_node.GetPageId)) rfl
          (by
            show s.tree.next_page_id < s.tree.next_page_id + 1
            omega)
        split at hf
        · exact Option.noConfusion hf
        · rename_i t4 ht4
          split at hf
          · exact Option.noConfusion hf
          · rename_i t5 ht5
            obtain ⟨hst4, hn4⟩ := BPlusTree.Stored.setParent h3.stored _ _ ht4
            obtain ⟨hst5, hn5⟩ := BPlusTree.Stored.setParent hst4 _ _ ht5
            have h5 := good_tree h3 t5 hst5 (hn5.trans hn4)
            obtain ⟨h6, _, _⟩ := good_UpdateRootPageId hb1 h5 false
            simp only [Option.some.injEq] at hf
            rw [← hf]
            exact good_unpin hb h6
      · -- the parent takes the new page
        simp only at hf
        split at hf
        · exact Option.noConfusion hf
        · rename_i t1 ht1
          have ht1b : s.tree.setParent newId old_node.GetParentPageId = some t1 := ht1
          obtain ⟨hst1, hn1⟩ := BPlusTree.Stored.setParent h.stored _ _ ht1b
          split at hf
          · exact Option.noConfusion hf
          · rename_i parent hparent
            have hpi := hst1.internal hparent
            rw [hn1] at hpi
            have h1 := good_fetch h old_node.GetParentPageId hpi.2
            have hb1 := bump_nonneg base hb old_node.GetParentPageId
            have h2 := good_tree h1 t1 hst1 hn1
            split at hf
            · exact Option.noConfusion hf
            · rename_i parent1 hins
              have hid1 := BPlusTreeInternalPage.InsertNodeAfter_page_id _ _ _ _ _ hins
              have h3 := good_write h2 old_node.GetParentPageId (.internal parent1)
                (hid1.trans hpi.1) (by rw [hn1]; exact hpi.2)
              split at hf
              · split at hf
                · exact Option.noConfusion hf
                · rename_i s3 new_leaf hsplit
                  have h4 := good_SplitInternal hb1 h3 _ _ hsplit
                  split at hf
                  · exact Option.noConfusion hf
                  · split at hf
                    · exact Option.noConfusion hf
                    · rename_i k0 _
                      cases hrec : InsertIntoParent fuel s3 old_node.GetParentPageId k0
                          new_leaf with
                      | none =>
                        rw [hrec] at hf
                        exact Option.noConfusion hf
                      | some s4 =>
                        rw [hrec] at hf
                        simp only [Option.map_some', Option.some.injEq] at hf
                        rw [← hf]
                        exact good_unpin hb (ih _ s3 s4 _ _ _ hb1 h4 hrec)
              · simp only [Option.some.injEq] at hf
                rw [← hf]
                exact good_unpin hb h3
    · exact Option.noConfusion hf

theorem good_InsertIntoLeaf {s s1 : PinnedTree} {base : Int → Int} (hb : ∀ p, 0 ≤ base p)
    (h : s.Good base) (key value : Int) (fuel : Nat) (r : Bool)
    (hf : s.InsertIntoLeaf key value fuel = some (s1, r)) :
    s1.Good base ∧ (s.page_set = [] → s1.page_set = []) := by
  unfold InsertIntoLeaf at hf
  split at hf
  · exact Option.noConfusion hf
  · rename_i s2 hfind
    obtain ⟨_, _, h3⟩ := good_FindLeafPage hb h key false OpType.INSERT fuel none hfind
    simp only [Option.some.injEq, Prod.mk.injEq] at hf
    rw [← hf.1, h3 rfl]
    exact ⟨h, fun hs => hs⟩
  · rename_i s2 leafId hfind
    obtain ⟨h2, _, _⟩ := good_FindLeafPage hb h key false OpType.INSERT fuel _ hfind
    split at hf
    · exact Option.noConfusion hf
    · rename_i leaf hleaf
      have hl := h2.stored.leaf hleaf
      split at hf
      · simp only [Option.some.injEq, Prod.mk.injEq] at hf
        rw [← hf.1]
        obtain ⟨h3, h4, _⟩ := good_free hb h2
        exact ⟨h3, fun _ => h4⟩
      · simp only at hf
        have h3 := good_write h2 leafId (.leaf (leaf.Insert key value))
          ((BPlusTreeLeafPage.Insert_page_id leaf key value).trans hl.1) hl.2
        split at hf
        · split at hf
          · exact Option.noConfusion hf
          · rename_i s3 newLeaf hsplit
            have h4 := good_SplitLeaf h3 _ _ hsplit
            split at hf
            · exact Option.noConfusion hf
            · split at hf
              · exact Option.noConfusion hf
              · rename_i k0 _
                cases hrec : InsertIntoParent fuel s3 leafId k0 newLeaf with
                | none =>
                  rw [hrec] at hf
                  exact Option.noConfusion hf
                | some s4 =>
                  rw [hrec] at hf
                  simp only [Option.map_some', Option.some.injEq, Prod.mk.injEq] at hf
                  rw [← hf.1]
                  have h5 := good_InsertIntoParent fuel base s3 s4 _ _ _ hb h4 hrec
                  obtain ⟨h6, h7, _⟩ := good_free hb h5
                  exact ⟨h6, fun _ => h7⟩
        · simp only [Option.some.injEq, Prod.mk.injEq] at hf
          rw [← hf.1]
          obtain ⟨h4, h5, _⟩ := good_free hb h3
          exact ⟨h4, fun _ => h5⟩

theorem good_Insert {s s1 : PinnedTree} {base : Int → Int} (hb : ∀ p, 0 ≤ base p)
    (h : s.Good base) (key value : Int) (fuel : Nat) (r : Bool)
    (hf : s.Insert key value fuel = some (s1, r)) :
    s1.Good base ∧ (s.page_set = [] → s1.page_set = []) := by
  unfold Insert at hf
  split at hf
  · simp only [Option.some.injEq, Prod.mk.injEq] at hf
    rw [← hf.1]
    obtain ⟨h1, h2⟩ := good_StartNewTree hb h key value
    exact ⟨h1, fun hs => h2.trans hs⟩
  · exact good_InsertIntoLeaf hb h key value fuel r hf

end PinnedTree

/-! ### Removal -/

namespace PinnedTree

theorem good_leafMoveFirstToEndOf {s s1 : PinnedTree} {base : Int → Int}
    (hb : ∀ p, 0 ≤ base p) (h : s.Good base) (thisId recipId : Int)
    (hf : s.leafMoveFirstToEndOf thisId recipId = some s1) : s1.Good base := by
  unfold leafMoveFirstToEndOf at hf
  split at hf
  · exact Option.noConfusion hf
  · rename_i p hp
    have hpi := h.stored.leaf hp
    split at hf
    · exact Option.noConfusion hf
    · rename_i theItem rest _
      simp only at hf
      have h1 := good_write h thisId (.leaf { p with array := rest }) hpi.1 hpi.2
      split at hf
      · exact Option.noConfusion hf
      · rename_i r hr
        have hri := h1.stored.leaf hr
        have h2 := good_write h1 recipId (.leaf (r.CopyLastFrom theItem)) hri.1 hri.2
        split at hf
        · exact Option.noConfusion hf
        · rename_i parent hparent
          have hparent2 : ((s.write thisId (.leaf { p with array := rest })).write recipId
              (.leaf (r.CopyLastFrom theItem))).tree.getInternal p.parent_page_id =
              some parent := hparent
          have hpa := h2.stored.internal hparent2
          have h3 := good_fetch h2 p.parent_page_id hpa.2
          split at hf
          · exact Option.noConfusion hf
          · rename_i parent1 hset
            have hid := BPlusTreeInternalPage.SetKeyAt_page_id _ _ _ _ hset
            have h4 := good_write h3 p.parent_page_id (.internal parent1) (hid.trans hpa.1) hpa.2
            simp only [Option.some.injEq] at hf
            rw [← hf]
            exact good_unpin hb h4

theorem good_leafMoveLastToFrontOf {s s1 : PinnedTree} {base : Int → Int}
    (hb : ∀ p, 0 ≤ base p) (h : s.Good base) (thisId recipId : Int) (parentIndex : Int)
    (hf : s.leafMoveLastToFrontOf thisId recipId parentIndex = some s1) : s1.Good base := by
  unfold leafMoveLastToFrontOf at hf
  split at hf
  · exact Option.noConfusion hf
  · rename_i p hp
    have hpi := h.stored.leaf hp
    split at hf
    · exact Option.noConfusion hf
    · rename_i pair _
      simp only at hf
      have h1 := good_write h thisId (.leaf { p with array := p.array.dropLast }) hpi.1 hpi.2
      split at hf
      · exact Option.noConfusion hf
      · rename_i r hr
        have hri := h1.stored.leaf hr
        have h2 := good_write h1 recipId (.leaf { r with array := pair :: r.array }) hri.1 hri.2
        split at hf
        · exact Option.noConfusion hf
        · rename_i parent hparent
          have hparent2 : ((s.write thisId (.leaf { p with array := p.array.dropLast })).write
              recipId (.leaf { r with array := pair :: r.array })).tree.getInternal
              r.parent_page_id = some parent := hparent
          have hpa := h2.stored.internal hparent2
          have h3 := good_fetch h2 r.parent_page_id hpa.2
          split at hf
          · exact Option.noConfusion hf
          · rename_i parent1 hset
            have hid := BPlusTreeInternalPage.SetKeyAt_page_id _ _ _ _ hset
            have h4 := good_write h3 r.parent_page_id (.internal parent1) (hid.trans hpa.1) hpa.2
            simp only [Option.some.injEq] at hf
            rw [← hf]
            exact good_unpin hb h4

theorem good_adoptChild {s s1 : PinnedTree} {base : Int → Int} (hb : ∀ p, 0 ≤ base p)
    (h : s.Good base) (pid parent : Int) (hf : s.adoptChild pid parent = some s1) :
    s1.Good base := by
  unfold adoptChild at hf
  simp only at hf
  split at hf
  · exact Option.noConfusion hf
  · rename_i child hchild
    have hc2 : s.tree.pages pid = some child := hchild
    have hlt := h.stored.lt hc2
    have hid : (child.SetParentPageId parent).GetPageId = pid := by
      rw [SetParentPageId_GetPageId]
      exact h.stored.id hc2
    have h1 := good_fetch h pid hlt
    have h2 := good_write h1 pid (child.SetParentPageId parent) hid hlt
    simp only [Option.some.injEq] at hf
    rw [← hf, hid]
    exact good_unpin hb h2

theorem good_internalMoveAllTo {s s1 : PinnedTree} {base : Int → Int} (hb : ∀ p, 0 ≤ base p)
    (h : s.Good base) (thisId recipId : Int) (index : Int)
    (hf : s.internalMoveAllTo thisId recipId index = some s1) : s1.Good base := by
  unfold internalMoveAllTo at hf
  split at hf
  · rename_i p r hp hr
    have hpi := h.stored.internal hp
    simp only at hf
    split at hf
    · exact Option.noConfusion hf
    · rename_i parent hparent
      have hparent2 : s.tree.getInternal p.parent_page_id = some parent := hparent
      have hpa := h.stored.internal hparent2
      have h0 := good_fetch h p.parent_page_id hpa.2
      split at hf
      · exact Option.noConfusion hf
      · split at hf
        · exact Option.noConfusion hf
        · rename_i p1 hset
          have hid := BPlusTreeInternalPage.SetKeyAt_page_id _ _ _ _ hset
          have h1 := good_write h0 thisId (.internal p1) (hid.trans hpi.1) hpi.2
          rw [hpa.1] at hf
          have h2 := good_unpin hb h1
          split at hf
          · exact Option.noConfusion hf
          · rename_i s2 hs2
            obtain ⟨h3, _⟩ := good_reparentAll base hb _ _ _ s2 h2 hs2
            split at hf
            · rename_i p2 r2 hp2 hr2
              have hi1 := h3.stored.internal hp2
              have hi2 := h3.stored.internal hr2
              split at hf
              · simp only [Option.some.injEq] at hf
                rw [← hf]
                have h4 := good_write h3 recipId
                  (.internal { r2 with array := r.array ++ p1.array }) hi2.1 hi2.2
                exact good_write h4 thisId (.internal { p2 with array := [] }) hi1.1 hi1.2
              · exact Option.noConfusion hf
            · exact Option.noConfusion hf
  · exact Option.noConfusion hf

theorem good_internalMoveFirstToEndOf {s s1 : PinnedTree} {base : Int → Int}
    (hb : ∀ p, 0 ≤ base p) (h : s.Good base) (thisId recipId : Int)
    (hf : s.internalMoveFirstToEndOf thisId recipId = some s1) : s1.Good base := by
  unfold internalMoveFirstToEndOf at hf
  split at hf
  · exact Option.noConfusion hf
  · rename_i p hp
    have hpi := h.stored.internal hp
    split at hf
    · exact Option.noConfusion hf
    · rename_i pair rest _
      simp only at hf
      have h1 := good_write h thisId (.internal { p with array := rest }) hpi.1 hpi.2
      split at hf
      · exact Option.noConfusion hf
      · rename_i r hr
        have hri := h1.stored.internal hr
        split at hf
        · exact Option.noConfusion hf
        · rename_i r1 hcopy
          have hid := BPlusTreeInternalPage.CopyLastFrom_page_id _ _ _ hcopy
          have h2 := good_write h1 recipId (.internal r1) (hid.trans hri.1) hri.2
          split at hf
          · exact Option.noConfusion hf
          · rename_i s3 hadopt
            have h3 := good_adoptChild hb h2 _ _ hadopt
            split at hf
            · rename_i parent first hparent _
              have hparent2 : s3.tree.getInternal p.parent_page_id = some parent := hparent
              have hpa := h3.stored.internal hparent2
              have h4 := good_fetch h3 p.parent_page_id hpa.2
              split at hf
              · exact Option.noConfusion hf
              · rename_i parent1 hset
                have hid2 := BPlusTreeInternalPage.SetKeyAt_page_id _ _ _ _ hset
                have h5 := good_write h4 p.parent_page_id (.internal parent1)
                  (hid2.trans hpa.1) hpa.2
                simp only [Option.some.injEq] at hf
                rw [← hf]
                exact good_unpin hb h5
            · exact Option.noConfusion hf

theorem good_internalMoveLastToFrontOf {s s1 : PinnedTree} {base : Int → Int}
    (hb : ∀ p, 0 ≤ base p) (h : s.Good base) (thisId recipId : Int) (parent_index : Int)
    (hf : s.internalMoveLastToFrontOf thisId recipId parent_index = some s1) : s1.Good base := by
  unfold internalMoveLastToFrontOf at hf
  split at hf
  · exact Option.noConfusion hf
  · rename_i p hp
    have hpi := h.stored.internal hp
    split at hf
    · exact Option.noConfusion hf
    · rename_i tmp _
      simp only at hf
      have h1 := good_write h thisId (.internal { p with array := p.array.dropLast }) hpi.1 hpi.2
      split at hf
      · exact Option.noConfusion hf
      · rename_i r hr
        have hri := h1.stored.internal hr
        split at hf
        · have h2 := good_write h1 recipId (.internal { r with array := tmp :: r.array })
            hri.1 hri.2
          split at hf
          · exact Option.noConfusion hf
          · rename_i s3 hadopt
            have h3 := good_adoptChild hb h2 _ _ hadopt
            split at hf
            · exact Option.noConfusion hf
            · rename_i parent hparent
              have hparent2 : s3.tree.getInternal r.parent_page_id = some parent := hparent
              have hpa := h3.stored.internal hparent2
              have h4 := good_fetch h3 r.parent_page_id hpa.2
              split at hf
              · exact Option.noConfusion hf
              · rename_i parent1 hset
                have hid2 := BPlusTreeInternalPage.SetKeyAt_page_id _ _ _ _ hset
                have h5 := good_write h4 r.parent_page_id (.internal parent1)
                  (hid2.trans hpa.1) hpa.2
                simp only [Option.some.injEq] at hf
                rw [← hf]
                exact good_unpin hb h5
        · exact Option.noConfusion hf

theorem good_AdjustRoot {s s1 : PinnedTree} {base : Int → Int} (hb : ∀ p, 0 ≤ base p)
    (h : s.Good base) (oldRootId : Int) (r : Bool)
    (hf : s.AdjustRoot oldRootId = some (s1, r)) : s1.Good base := by
  unfold AdjustRoot at hf
  split at hf
  · exact Option.noConfusion hf
  · split at hf
    · simp only [Option.some.injEq, Prod.mk.injEq] at hf
      rw [← hf.1]
      have hst : BPlusTree.Stored { s.tree with root_page_id := INVALID_PAGE_ID } :=
        ⟨h.stored.1, h.stored.2⟩
      exact (good_UpdateRootPageId hb (good_tree h _ hst rfl) false).1
    · simp only [Option.some.injEq, Prod.mk.injEq] at hf
      rw [← hf.1]
      exact h
  · rename_i p hp
    have hpg : s.tree.pages oldRootId = some (.internal p) := hp
    have hpi := h.stored.1 _ _ hpg
    split at hf
    · split at hf
      · exact Option.noConfusion hf
      · rename_i p1 child hrem
        have hid := BPlusTreeInternalPage.RemoveAndReturnOnlyChild_page_id _ _ _ hrem
        simp only at hf
        have h1 := good_write h oldRootId (.internal p1) (hid.trans hpi.1) hpi.2
        have hst2 : BPlusTree.Stored
            { (s.write oldRootId (.internal p1)).tree with root_page_id := child } :=
          ⟨h1.stored.1, h1.stored.2⟩
        have h2 := good_tree h1 _ hst2 rfl
        obtain ⟨h3, _, hn3⟩ := good_UpdateRootPageId hb h2 false
        split at hf
        · exact Option.noConfusion hf
        · rename_i t5 ht5
          have ht5b : (PinnedTree.UpdateRootPageId
              { (s.write oldRootId (.internal p1)) with
                tree := { (s.write oldRootId (.internal p1)).tree with root_page_id := child } }
              false).tree.setParent child INVALID_PAGE_ID = some t5 := ht5
          obtain ⟨hst5, hn5⟩ := BPlusTree.Stored.setParent h3.stored _ _ ht5b
          have hclt : child < (PinnedTree.UpdateRootPageId
              { (s.write oldRootId (.internal p1)) with
                tree := { (s.write oldRootId (.internal p1)).tree with root_page_id := child } }
              false).tree.next_page_id := by
            unfold BPlusTree.setParent at ht5b
            split at ht5b
            · rename_i pg hpg2
              exact h3.stored.lt hpg2
            · exact Option.noConfusion ht5b
          have h4 := good_fetch h3 child hclt
          have h5 := good_tree h4 t5 hst5 hn5
          simp only [Option.some.injEq, Prod.mk.injEq] at hf
          rw [← hf.1]
          exact good_unpin hb h5
    · simp only [Option.some.injEq, Prod.mk.injEq] at hf
      rw [← hf.1]
      exact h

theorem good_FindLeftSibling {s s1 : PinnedTree} {base : Int → Int} (hb : ∀ p, 0 ≤ base p)
    (h : s.Good base) (nodeId sib : Int) (right : Bool)
    (hf : s.FindLeftSibling nodeId = some (s1, sib, right)) : s1.Good base := by
  unfold FindLeftSibling at hf
  split at hf
  · exact Option.noConfusion hf
  · rename_i node hnode
    simp only at hf
    split at hf
    · exact Option.noConfusion hf
    · rename_i parent hparent
      have hparent2 : s.tree.getInternal node.GetParentPageId = some parent := hparent
      have hpa := h.stored.internal hparent2
      have h1 := good_fetch h node.GetParentPageId hpa.2
      have hb1 := bump_nonneg base hb node.GetParentPageId
      split at hf
      · exact Option.noConfusion hf
      · split at hf
        · exact Option.noConfusion hf
        · rename_i s2 hcrab
          obtain ⟨h2, _⟩ := good_crab hb1 h1 _ _ _ hcrab
          simp only [Option.some.injEq, Prod.mk.injEq] at hf
          rw [← hf.1, hpa.1]
          exact good_unpin hb h2

theorem good_Redistribute {s s1 : PinnedTree} {base : Int → Int} (hb : ∀ p, 0 ≤ base p)
    (h : s.Good base) (neighborId nodeId : Int) (index : Int)
    (hf : s.Redistribute neighborId nodeId index = some s1) : s1.Good base := by
  unfold Redistribute at hf
  split at hf
  · split at hf
    · exact good_leafMoveFirstToEndOf hb h _ _ hf
    · exact good_leafMoveLastToFrontOf hb h _ _ _ hf
  · split at hf
    · exact good_internalMoveFirstToEndOf hb h _ _ hf
    · exact good_internalMoveLastToFrontOf hb h _ _ _ hf
  · exact Option.noConfusion hf

theorem good_Coalesce (cor : PinnedTree → Int → Option (PinnedTree × Bool))
    (hcor : ∀ (base : Int → Int) (s s1 : PinnedTree) (nodeId : Int) (r : Bool),
      (∀ p, 0 ≤ base p) → s.Good base → cor s nodeId = some (s1, r) → s1.Good base)
    {s s1 : PinnedTree} {base : Int → Int} (hb : ∀ p, 0 ≤ base p) (h : s.Good base)
    (neighborId nodeId parentId : Int) (index : Int) (r : Bool)
    (hf : Coalesce cor s neighborId nodeId parentId index = some (s1, r)) : s1.Good base := by
  unfold Coalesce at hf
  simp only at hf
  split at hf
  · exact Option.noConfusion hf
  · rename_i s2 hmoved
    have h2 : s2.Good base := by
      split at hmoved
      · rename_i n nb hn hnb
        have hnbi := h.stored.1 _ _ hnb
        simp only [Option.some.injEq] at hmoved
        rw [← hmoved]
        exact good_write h neighborId (.leaf (n.MoveAllTo nb)) hnbi.1 hnbi.2
      · exact good_internalMoveAllTo hb h _ _ _ hmoved
      · exact Option.noConfusion hmoved
    split at hf
    · exact Option.noConfusion hf
    · rename_i node _
      have h3 := good_addDeleted h2 node.GetPageId
      split at hf
      · exact Option.noConfusion hf
      · rename_i parent hparent
        have hparent2 : (s2.AddIntoDeletedPageSet node.GetPageId).tree.getInternal parentId =
            some parent := hparent
        have hpa := h3.stored.internal hparent2
        split at hf
        · exact Option.noConfusion hf
        · rename_i parent1 hrem
          have hid := BPlusTreeInternalPage.Remove_page_id _ _ _ hrem
          have h4 := good_write h3 parentId (.internal parent1) (hid.trans hpa.1) hpa.2
          split at hf
          · exact hcor base _ s1 parentId r hb h4 hf
          · simp only [Option.some.injEq, Prod.mk.injEq] at hf
            rw [← hf.1]
            exact h4

theorem good_CoalesceOrRedistribute (fuel : Nat) :
    ∀ (base : Int → Int) (s s1 : PinnedTree) (nodeId : Int) (r : Bool), (∀ p, 0 ≤ base p) →
      s.Good base → CoalesceOrRedistribute fuel s nodeId = some (s1, r) → s1.Good base := by
  induction fuel with
  | zero =>
    intro base s s1 nodeId r hb h hf
    simp [CoalesceOrRedistribute] at hf
  | succ fuel ih =>
    intro base s s1 nodeId r hb h hf
    unfold CoalesceOrRedistribute at hf
    split at hf
    · exact Option.noConfusion hf
    · rename_i node hnode
      split at hf
      · split at hf
        · exact Option.noConfusion hf
        · rename_i s2 old_root hadj
          have h2 := good_AdjustRoot hb h _ _ hadj
          simp only [Option.some.injEq, Prod.mk.injEq] at hf
          rw [← hf.1]
          split
          · exact good_addDeleted h2 _
          · exact h2
      · split at hf
        · exact Option.noConfusion hf
        · rename_i s2 node2Id isRightSib hsib
          have h2 := good_FindLeftSibling hb h _ _ _ hsib
          simp only at hf
          split at hf
          · rename_i node2 parentPage hnode2 hparent
            have hparent2 : s2.tree.getInternal node.GetParentPageId = some parentPage :=
              hparent
            have hpa := h2.stored.internal hparent2
            have h3 := good_fetch h2 node.GetParentPageId hpa.2
            have hb1 := bump_nonneg base hb node.GetParentPageId
            rw [hpa.1] at hf
            split at hf
            · split at hf
              · cases hco : Coalesce (CoalesceOrRedistribute fuel) (s2.fetch node.GetParentPageId)
                    (if isRightSib = true then nodeId else node2Id)
                    (if isRightSib = true then node2Id else nodeId) node.GetParentPageId
                    (parentPage.ValueIndex
                      (if isRightSib = true then node2 else node).GetPageId) with
                | none =>
                  rw [hco] at hf
                  exact Option.noConfusion hf
                | some res =>
                  obtain ⟨s4, r4⟩ := res
                  rw [hco] at hf
                  simp only [Option.map_some', Option.some.injEq, Prod.mk.injEq] at hf
                  rw [← hf.1]
                  exact good_unpin hb (good_Coalesce _ ih hb1 h3 _ _ _ _ _ hco)
              · cases hre : (s2.fetch node.GetParentPageId).Redistribute node2Id nodeId
                    (parentPage.ValueIndex node.GetPageId) with
                | none =>
                  rw [hre] at hf
                  exact Option.noConfusion hf
                | some s4 =>
                  rw [hre] at hf
                  simp only [Option.map_some', Option.some.injEq, Prod.mk.injEq] at hf
                  rw [← hf.1]
                  exact good_unpin hb (good_Redistribute hb1 h3 _ _ _ hre)
            · exact Option.noConfusion hf
          · exact Option.noConfusion hf

theorem good_Remove {s s1 : PinnedTree} {base : Int → Int} (hb : ∀ p, 0 ≤ base p)
    (h : s.Good base) (key : Int) (fuel : Nat) (hf : s.Remove key fuel = some s1) :
    s1.Good base ∧ (s.page_set = [] → s1.page_set = []) := by
  unfold Remove at hf
  split at hf
  · simp only [Option.some.injEq] at hf
    rw [← hf]
    exact ⟨h, fun hs => hs⟩
  · split at hf
    · rename_i s2 leafId hfind
      obtain ⟨h2, _, _⟩ := good_FindLeafPage hb h key false OpType.DELETE fuel _ hfind
      split at hf
      · exact Option.noConfusion hf
      · rename_i leaf hleaf
        have hl := h2.stored.leaf hleaf
        simp only at hf
        have h3 := good_write h2 leafId (.leaf (leaf.RemoveAndDeleteRecord key))
          ((BPlusTreeLeafPage.RemoveAndDeleteRecord_page_id leaf key).trans hl.1) hl.2
        split at hf
        · cases hco : CoalesceOrRedistribute fuel
              (s2.write leafId (.leaf (leaf.RemoveAndDeleteRecord key))) leafId with
          | none =>
            rw [hco] at hf
            exact Option.noConfusion hf
          | some res =>
            obtain ⟨s4, r4⟩ := res
            rw [hco] at hf
            simp only [Option.map_some', Option.some.injEq] at hf
            rw [← hf]
            have h4 := good_CoalesceOrRedistribute fuel base _ s4 leafId r4 hb h3 hco
            obtain ⟨h5, h6, _⟩ := good_free hb h4
            exact ⟨h5, fun _ => h6⟩
        · simp only [Option.some.injEq] at hf
          rw [← hf]
          obtain ⟨h4, h5, _⟩ := good_free hb h3
          exact ⟨h4, fun _ => h5⟩
    · exact Option.noConfusion hf

end PinnedTree

/-! ### The pages are written as in the store without pin counts -/

namespace BPlusTree

theorem findLeafLoop_missing (t : BPlusTree) (key : Int) (leftMost : Bool) (fuel : Nat)
    (cur : Int) (h : t.pages cur = none) : findLeafLoop t key leftMost fuel cur = none := by
  cases fuel with
  | zero => rfl
  | succ fuel =>
    unfold findLeafLoop
    rw [h]

end BPlusTree

namespace PinnedTree

theorem tree_unpin (s : PinnedTree) (pid : Int) : (s.unpin pid).tree = s.tree := by
  unfold unpin
  split <;> rfl

theorem tree_freeLoop (l : List Int) : ∀ s : PinnedTree, (s.freeLoop l).tree = s.tree := by
  induction l with
  | nil =>
    intro s
    rfl
  | cons pid rest ih =>
    intro s
    have hstep : s.freeLoop (pid :: rest) =
        (if pid ∈ (s.unpin pid).deleted_page_set then
          { ((s.unpin pid).deletePage pid) with
              deleted_page_set := (s.unpin pid).deleted_page_set.erase pid }
        else s.unpin pid).freeLoop rest := rfl
    rw [hstep, ih]
    split
    · exact tree_unpin s pid
    · exact tree_unpin s pid

theorem tree_free (s : PinnedTree) : s.FreePagesInTransaction.tree = s.tree :=
  tree_freeLoop s.page_set s

theorem tree_write (s : PinnedTree) (pid : Int) (p : BPlusTreePage) :
    (s.write pid p).tree = s.tree.setPage pid p := rfl

theorem tree_fetch (s : PinnedTree) (pid : Int) : (s.fetch pid).tree = s.tree := rfl

theorem tree_UpdateRootPageId (s : PinnedTree) (r : Bool) :
    (s.UpdateRootPageId r).tree = s.tree.UpdateRootPageId r := by
  unfold UpdateRootPageId
  simp only [tree_unpin]
  rfl

theorem tree_crab (s : PinnedTree) (pid : Int) (op : OpType) (previous : Int) :
    (s.CrabingProtocalFetchPage pid op previous).map (fun r => r.tree) =
      (s.tree.pages pid).map (fun _ => s.tree) := by
  unfold CrabingProtocalFetchPage
  simp only [tree_fetch]
  cases s.tree.pages pid with
  | none => rfl
  | some treePage =>
    simp only [Option.map_some']
    split
    · show some (s.fetch pid).FreePagesInTransaction.tree = _
      rw [tree_free]
      rfl
    · rfl

theorem tree_findLeafLoop (key : Int) (leftMost : Bool) (op : OpType) (fuel : Nat) :
    ∀ (s : PinnedTree) (cur : Int),
      (findLeafLoop key leftMost op fuel s cur).map (fun r => (r.1.tree, r.2)) =
        (s.tree.findLeafLoop key leftMost fuel cur).map (fun l => (s.tree, l)) := by
  induction fuel with
  | zero =>
    intro s cur
    rfl
  | succ fuel ih =>
    intro s cur
    unfold findLeafLoop BPlusTree.findLeafLoop
    cases hp : s.tree.pages cur with
    | none => rfl
    | some pg =>
      cases pg with
      | leaf p => rfl
      | internal ip =>
        simp only
        cases hn : (if leftMost = true then ip.ValueAt 0 else ip.Lookup key) with
        | none => rfl
        | some next =>
          simp only
          have hc := tree_crab s next op cur
          cases hcr : s.CrabingProtocalFetchPage next op cur with
          | none =>
            rw [hcr] at hc
            simp only [Option.map_none'] at hc
            have hmiss : s.tree.pages next = none := by
              cases hpn : s.tree.pages next with
              | none => rfl
              | some x =>
                rw [hpn] at hc
                exact Option.noConfusion hc
            rw [BPlusTree.findLeafLoop_missing _ _ _ _ _ hmiss]
            rfl
          | some s1 =>
            rw [hcr] at hc
            have ht : s1.tree = s.tree := by
              cases hpn : s.tree.pages next with
              | none =>
                rw [hpn] at hc
                exact Option.noConfusion hc
              | some x =>
                rw [hpn] at hc
                simp only [Option.map_some', Option.some.injEq] at hc
                exact hc
            simp only
            rw [ih s1 next, ht]

theorem tree_FindLeafPage (s : PinnedTree) (key : Int) (leftMost : Bool) (op : OpType)
    (fuel : Nat) :
    (s.FindLeafPage key leftMost op fuel).map (fun r => (r.1.tree, r.2)) =
      (s.tree.FindLeafPage key leftMost fuel).map (fun l => (s.tree, l)) := by
  unfold FindLeafPage BPlusTree.FindLeafPage
  split
  · rfl
  · have hc := tree_crab s s.tree.root_page_id op (-1)
    cases hcr : s.CrabingProtocalFetchPage s.tree.root_page_id op (-1) with
    | none =>
      rw [hcr] at hc
      simp only [Option.map_none'] at hc
      have hmiss : s.tree.pages s.tree.root_page_id = none := by
        cases hpn : s.tree.pages s.tree.root_page_id with
        | none => rfl
        | some x =>
          rw [hpn] at hc
          exact Option.noConfusion hc
      rw [BPlusTree.findLeafLoop_missing _ _ _ _ _ hmiss]
      rfl
    | some s1 =>
      rw [hcr] at hc
      have ht : s1.tree = s.tree := by
        cases hpn : s.tree.pages s.tree.root_page_id with
        | none =>
          rw [hpn] at hc
          exact Option.noConfusion hc
        | some x =>
          rw [hpn] at hc
          simp only [Option.map_some', Option.some.injEq] at hc
          exact hc
      simp only
      have hl := tree_findLeafLoop key leftMost op fuel s1 s.tree.root_page_id
      rw [ht] at hl
      cases hres : findLeafLoop key leftMost op fuel s1 s.tree.root_page_id with
      | none =>
        rw [hres] at hl
        cases hp : s.tree.findLeafLoop key leftMost fuel s.tree.root_page_id with
        | none => rfl
        | some l =>
          rw [hp] at hl
          exact Option.noConfusion hl
      | some r =>
        rw [hres] at hl
        cases hp : s.tree.findLeafLoop key leftMost fuel s.tree.root_page_id with
        | none =>
          rw [hp] at hl
          exact Option.noConfusion hl
        | some l =>
          rw [hp] at hl
          simp only [Option.map_some', Option.some.injEq, Prod.mk.injEq] at hl ⊢
          exact hl

/-- What is known of `y` when `x.map f = y`. -/
theorem map_eq_cases {α β : Type} {x : Option α} {y : Option β} {f : α → β}
    (h : x.map f = y) : (x = none ∧ y = none) ∨ ∃ a, x = some a ∧ y = some (f a) := by
  cases x with
  | none => exact Or.inl ⟨rfl, h.symm⟩
  | some a => exact Or.inr ⟨a, rfl, h.symm⟩

theorem tree_GetValue (s : PinnedTree) (key : Int) (fuel : Nat) :
    (s.GetValue key fuel).map (fun r => (r.1.tree, r.2)) =
      (s.tree.GetValue key fuel).map (fun v => (s.tree, v)) := by
  unfold GetValue BPlusTree.GetValue
  rcases map_eq_cases (tree_FindLeafPage s key false OpType.READ fuel) with
    ⟨h1, h2⟩ | ⟨⟨s1, r⟩, h1, h2⟩
  · rw [h1]
    cases hp : s.tree.FindLeafPage key false fuel with
    | none => rfl
    | some l =>
      rw [hp] at h2
      exact Option.noConfusion h2
  · rw [h1]
    cases hp : s.tree.FindLeafPage key false fuel with
    | none =>
      rw [hp] at h2
      exact Option.noConfusion h2
    | some l =>
      rw [hp] at h2
      simp only [Option.map_some', Option.some.injEq, Prod.mk.injEq] at h2
      obtain ⟨ht, hr⟩ := h2
      subst hr
      cases l with
      | none => simp only [Option.map_some', ht]
      | some leafId =>
        simp only [← ht]
        cases s.tree.getLeaf leafId with
        | none => rfl
        | some leaf => simp only [Option.map_some', tree_free, ht]

theorem tree_StartNewTree (s : PinnedTree) (key value : Int) :
    (s.StartNewTree key value).tree = s.tree.StartNewTree key value := by
  unfold StartNewTree BPlusTree.StartNewTree
  simp only [newPage, BPlusTree.NewPage, tree_unpin, tree_write, tree_UpdateRootPageId]

theorem tree_SplitLeaf (s : PinnedTree) (nodeId : Int) :
    (s.SplitLeaf nodeId).map (fun r => (r.1.tree, r.2)) = s.tree.SplitLeaf nodeId := by
  unfold SplitLeaf BPlusTree.SplitLeaf
  simp only [newPage, BPlusTree.NewPage, AddIntoPageSet]
  repeat' split
  all_goals rfl

theorem tree_setParent (s : PinnedTree) (pid parent : Int) :
    (s.setParent pid parent).map (fun r => r.tree) = s.tree.setParent pid parent := by
  unfold setParent BPlusTree.setParent
  simp only [tree_fetch]
  cases s.tree.pages pid with
  | none => rfl
  | some p =>
    simp only [Option.map_some', tree_unpin]
    rfl

theorem tree_reparentAll (l : List (Int × Int)) (parent : Int) :
    ∀ s : PinnedTree, (s.reparentAll l parent).map (fun r => r.tree) =
      s.tree.reparentAll l parent := by
  induction l with
  | nil =>
    intro s
    rfl
  | cons e rest ih =>
    intro s
    unfold reparentAll BPlusTree.reparentAll
    rcases map_eq_cases (tree_setParent s e.2 parent) with ⟨h1, h2⟩ | ⟨s1, h1, h2⟩
    · rw [h1, h2]
      rfl
    · rw [h1, h2]
      exact ih s1

theorem tree_internalMoveHalfTo (s : PinnedTree) (thisId recipId : Int) :
    (s.internalMoveHalfTo thisId recipId).map (fun r => r.tree) =
      s.tree.internalMoveHalfTo thisId recipId := by
  unfold internalMoveHalfTo BPlusTree.internalMoveHalfTo
  cases s.tree.getInternal thisId with
  | none => rfl
  | some p =>
    cases s.tree.getInternal recipId with
    | none => rfl
    | some r =>
      simp only
      split
      · rfl
      · rcases map_eq_cases (tree_reparentAll
          ((p.array.take (p.max_size + 1)).drop ((p.max_size + 1) / 2)) r.page_id s) with
          ⟨h1, h2⟩ | ⟨s1, h1, h2⟩
        · rw [h1, h2]
          rfl
        · rw [h1, h2]
          simp only
          cases s1.tree.getInternal thisId with
          | none => rfl
          | some p1 =>
            cases s1.tree.getInternal recipId with
            | none => rfl
            | some r1 => rfl

theorem tree_SplitInternal (s : PinnedTree) (nodeId : Int) :
    (s.SplitInternal nodeId).map (fun r => (r.1.tree, r.2)) = s.tree.SplitInternal nodeId := by
  unfold SplitInternal BPlusTree.SplitInternal
  simp only [newPage, BPlusTree.NewPage, AddIntoPageSet]
  rcases map_eq_cases (tree_internalMoveHalfTo
      (PinnedTree.write
        { tree := { s.tree with next_page_id := s.tree.next_page_id + 1 },
          pins := fun q => if q = s.tree.next_page_id then 1 else s.pins q,
          page_set := s.page_set ++ [s.tree.next_page_id],
          deleted_page_set := s.deleted_page_set, delete_calls := s.delete_calls }
        s.tree.next_page_id
        (.internal (BPlusTreeInternalPage.Init s.tree.next_page_id INVALID_PAGE_ID
          s.tree.internal_max_size))) nodeId s.tree.next_page_id) with
    ⟨h1, h2⟩ | ⟨s1, h1, h2⟩
  · rw [h1]
    rw [tree_write] at h2
    simp only at h2
    rw [h2]
    rfl
  · rw [h1]
    rw [tree_write] at h2
    simp only at h2
    rw [h2]
    rfl

theorem tree_InsertIntoParent (fuel : Nat) :
    ∀ (s : PinnedTree) (oldId key newId : Int),
      (InsertIntoParent fuel s oldId key newId).map (fun r => r.tree) =
        BPlusTree.InsertIntoParent fuel s.tree oldId key newId := by
  induction fuel with
  | zero =>
    intro s oldId key newId
    rfl
  | succ fuel ih =>
    intro s oldId key newId
    unfold InsertIntoParent BPlusTree.InsertIntoParent
    cases s.tree.pages oldId with
    | none => rfl
    | some old_node =>
      cases s.tree.pages newId with
      | none => rfl
      | some new_node =>
        simp only
        split
        · simp only [newPage, BPlusTree.NewPage, tree_write]
          split
          · rfl
          · split
            · rfl
            · simp only [Option.map_some', tree_unpin, tree_UpdateRootPageId]
        · simp only [tree_fetch]
          split
          · rfl
          · rename_i t1 _
            split
            · rfl
            · rename_i parent _
              split
              · rfl
              · rename_i parent1 _
                split
                · rcases map_eq_cases (tree_SplitInternal
                    (PinnedTree.write { (s.fetch old_node.GetParentPageId) with tree := t1 }
                      old_node.GetParentPageId (.internal parent1))
                    old_node.GetParentPageId) with ⟨h1, h2⟩ | ⟨⟨s3, nl⟩, h1, h2⟩
                  · rw [h1]
                    rw [tree_write] at h2
                    simp only at h2
                    rw [h2]
                    rfl
                  · rw [h1]
                    rw [tree_write] at h2
                    simp only at h2
                    rw [h2]
                    simp only
                    cases s3.tree.getInternal nl with
                    | none => rfl
                    | some np =>
                      simp only
                      cases np.KeyAt 0 with
                      | none => rfl
                      | some k0 =>
                        simp only [Option.map_map]
                        rw [← ih s3 old_node.GetParentPageId k0 nl]
                        cases InsertIntoParent fuel s3 old_node.GetParentPageId k0 nl with
                        | none => rfl
                        | some s4 => simp only [Option.map_some', Function.comp, tree_unpin]
                · simp only [Option.map_some', tree_unpin]
                  rfl

theorem tree_InsertIntoLeaf (s : PinnedTree) (key value : Int) (fuel : Nat) :
    (s.InsertIntoLeaf key value fuel).map (fun r => (r.1.tree, r.2)) =
      s.tree.InsertIntoLeaf key value fuel := by
  unfold InsertIntoLeaf BPlusTree.InsertIntoLeaf
  rcases map_eq_cases (tree_FindLeafPage s key false OpType.INSERT fuel) with
    ⟨h1, h2⟩ | ⟨⟨s1, r⟩, h1, h2⟩
  · rw [h1]
    cases hp : s.tree.FindLeafPage key false fuel with
    | none => rfl
    | some l =>
      rw [hp] at h2
      exact Option.noConfusion h2
  · rw [h1]
    cases hp : s.tree.FindLeafPage key false fuel with
    | none =>
      rw [hp] at h2
      exact Option.noConfusion h2
    | some l =>
      rw [hp] at h2
      simp only [Option.map_some', Option.some.injEq, Prod.mk.injEq] at h2
      obtain ⟨ht, hr⟩ := h2
      subst hr
      cases l with
      | none => simp only [Option.map_some', ht]
      | some leafId =>
        simp only
        unfold BPlusTree.insertAtLeaf
        rw [ht]
        cases s1.tree.getLeaf leafId with
        | none => rfl
        | some leaf =>
          simp only
          cases leaf.Lookup key with
          | some v => simp only [Option.map_some', tree_free]
          | none =>
            simp only [tree_write]
            split
            · rcases map_eq_cases (tree_SplitLeaf
                (s1.write leafId (.leaf (leaf.Insert key value))) leafId) with
                ⟨h3, h4⟩ | ⟨⟨s3, nl⟩, h3, h4⟩
              · rw [h3]
                rw [tree_write] at h4
                rw [h4]
                rfl
              · rw [h3]
                rw [tree_write] at h4
                rw [h4]
                simp only
                cases s3.tree.getLeaf nl with
                | none => rfl
                | some np =>
                  simp only
                  cases np.KeyAt 0 with
                  | none => rfl
                  | some k0 =>
                    simp only [Option.map_map]
                    rw [← tree_InsertIntoParent fuel s3 leafId k0 nl]
                    cases InsertIntoParent fuel s3 leafId k0 nl with
                    | none => rfl
                    | some s4 => simp only [Option.map_some', Function.comp, tree_free]
            · simp only [Option.map_some', tree_free, tree_write]

theorem tree_Insert (s : PinnedTree) (key value : Int) (fuel : Nat) :
    (s.Insert key value fuel).map (fun r => (r.1.tree, r.2)) =
      s.tree.Insert key value fuel := by
  unfold Insert BPlusTree.Insert
  split
  · simp only [Option.map_some', tree_StartNewTree]
  · exact tree_InsertIntoLeaf s key value fuel

theorem tree_leafMoveFirstToEndOf (s : PinnedTree) (thisId recipId : Int) :
    (s.leafMoveFirstToEndOf thisId recipId).map (fun r => r.tree) =
      s.tree.leafMoveFirstToEndOf thisId recipId := by
  unfold leafMoveFirstToEndOf BPlusTree.leafMoveFirstToEndOf
  simp only [tree_write, tree_fetch]
  repeat' split
  all_goals first | rfl | simp_all [tree_unpin, tree_write, tree_fetch]

theorem tree_leafMoveLastToFrontOf (s : PinnedTree) (thisId recipId : Int) (index : Int) :
    (s.leafMoveLastToFrontOf thisId recipId index).map (fun r => r.tree) =
      s.tree.leafMoveLastToFrontOf thisId recipId index := by
  unfold leafMoveLastToFrontOf BPlusTree.leafMoveLastToFrontOf
  simp only [tree_write, tree_fetch]
  repeat' split
  all_goals first | rfl | simp_all [tree_unpin, tree_write, tree_fetch]

theorem tree_adoptChild (s : PinnedTree) (pid parent : Int) :
    (s.adoptChild pid parent).map (fun r => r.tree) = s.tree.setParent pid parent := by
  unfold adoptChild BPlusTree.setParent
  simp only [tree_fetch]
  cases s.tree.pages pid with
  | none => rfl
  | some p =>
    simp only [Option.map_some', tree_unpin]
    rfl

theorem tree_internalMoveAllTo (s : PinnedTree) (thisId recipId : Int) (index : Int) :
    (s.internalMoveAllTo thisId recipId index).map (fun r => r.tree) =
      s.tree.internalMoveAllTo thisId recipId index := by
  unfold internalMoveAllTo BPlusTree.internalMoveAllTo
  cases s.tree.getInternal thisId with
  | none => rfl
  | some p =>
    cases s.tree.getInternal recipId with
    | none => rfl
    | some r =>
      simp only [tree_fetch]
      cases s.tree.getInternal p.parent_page_id with
      | none => rfl
      | some parent =>
        simp only
        cases parent.KeyAt index with
        | none => rfl
        | some sep =>
          simp only
          cases p.SetKeyAt 0 sep with
          | none => rfl
          | some p1 =>
            simp only
            rcases map_eq_cases (tree_reparentAll p1.array r.page_id
              (((s.fetch p.parent_page_id).write thisId (.internal p1)).unpin parent.page_id))
              with ⟨h1, h2⟩ | ⟨s1, h1, h2⟩
            · rw [h1]
              rw [tree_unpin, tree_write, tree_fetch] at h2
              rw [h2]
              rfl
            · rw [h1]
              rw [tree_unpin, tree_write, tree_fetch] at h2
              rw [h2]
              simp only
              cases s1.tree.getInternal thisId with
              | none => rfl
              | some p2 =>
                cases s1.tree.getInternal recipId with
                | none => rfl
                | some r2 =>
                  simp only
                  split
                  · rfl
                  · rfl

theorem tree_internalMoveFirstToEndOf (s : PinnedTree) (thisId recipId : Int) :
    (s.internalMoveFirstToEndOf thisId recipId).map (fun r => r.tree) =
      s.tree.internalMoveFirstToEndOf thisId recipId := by
  unfold internalMoveFirstToEndOf BPlusTree.internalMoveFirstToEndOf
  cases s.tree.getInternal thisId with
  | none => rfl
  | some p =>
    simp only
    cases p.array with
    | nil => rfl
    | cons pair rest =>
      simp only [tree_write]
      cases (s.tree.setPage thisId (.internal { p with array := rest })).getInternal recipId with
      | none => rfl
      | some r =>
        simp only
        cases r.CopyLastFrom pair with
        | none => rfl
        | some r1 =>
          simp only
          rcases map_eq_cases (tree_adoptChild
            ((s.write thisId (.internal { p with array := rest })).write recipId (.internal r1))
            pair.2 r.page_id) with ⟨h1, h2⟩ | ⟨s3, h1, h2⟩
          · rw [h1]
            rw [tree_write, tree_write] at h2
            rw [h2]
            rfl
          · rw [h1]
            rw [tree_write, tree_write] at h2
            rw [h2]
            simp only [tree_fetch]
            cases s3.tree.getInternal p.parent_page_id with
            | none => rfl
            | some parent =>
              cases rest.head? with
              | none => rfl
              | some first =>
                simp only
                cases parent.SetKeyAt (parent.ValueIndex p.page_id) first.1 with
                | none => rfl
                | some parent1 => simp only [Option.map_some', tree_unpin, tree_write, tree_fetch]

theorem tree_internalMoveLastToFrontOf (s : PinnedTree) (thisId recipId : Int) (index : Int) :
    (s.internalMoveLastToFrontOf thisId recipId index).map (fun r => r.tree) =
      s.tree.internalMoveLastToFrontOf thisId recipId index := by
  unfold internalMoveLastToFrontOf BPlusTree.internalMoveLastToFrontOf
  cases s.tree.getInternal thisId with
  | none => rfl
  | some p =>
    simp only
    cases p.array.getLast? with
    | none => rfl
    | some tmp =>
      simp only [tree_write]
      cases (s.tree.setPage thisId (.internal { p with array := p.array.dropLast })).getInternal
          recipId with
      | none => rfl
      | some r =>
        simp only
        split
        · rcases map_eq_cases (tree_adoptChild
            ((s.write thisId (.internal { p with array := p.array.dropLast })).write recipId
              (.internal { r with array := tmp :: r.array })) tmp.2 r.page_id) with
            ⟨h1, h2⟩ | ⟨s3, h1, h2⟩
          · rw [h1]
            rw [tree_write, tree_write] at h2
            rw [h2]
            rfl
          · rw [h1]
            rw [tree_write, tree_write] at h2
            rw [h2]
            simp only [tree_fetch]
            cases s3.tree.getInternal r.parent_page_id with
            | none => rfl
            | some parent =>
              simp only
              cases parent.SetKeyAt index tmp.1 with
              | none => rfl
              | some parent1 => simp only [Option.map_some', tree_unpin, tree_write, tree_fetch]
        · rfl

theorem tree_AdjustRoot (s : PinnedTree) (oldRootId : Int) :
    (s.AdjustRoot oldRootId).map (fun r => (r.1.tree, r.2)) = s.tree.AdjustRoot oldRootId := by
  unfold AdjustRoot BPlusTree.AdjustRoot
  cases s.tree.pages oldRootId with
  | none => rfl
  | some pg =>
    cases pg with
    | leaf p =>
      simp only
      split
      · simp only [Option.map_some', tree_UpdateRootPageId]
      · rfl
    | internal p =>
      simp only
      split
      · cases p.RemoveAndReturnOnlyChild with
        | none => rfl
        | some res =>
          obtain ⟨p1, child⟩ := res
          simp only [tree_fetch, tree_UpdateRootPageId, tree_write]
          split
          · rfl
          · simp only [Option.map_some', tree_unpin]
      · rfl

theorem tree_FindLeftSibling (s : PinnedTree) (nodeId : Int) :
    (s.FindLeftSibling nodeId).map (fun r => (r.1.tree, r.2)) =
      (s.tree.FindLeftSibling nodeId).map (fun x => (s.tree, x)) ∨
    ∃ node parent sibling, s.tree.pages nodeId = some node ∧
      s.tree.getInternal node.GetParentPageId = some parent ∧
      parent.ValueAt (if parent.ValueIndex node.GetPageId = 0 then
        parent.ValueIndex node.GetPageId + 1 else parent.ValueIndex node.GetPageId - 1) =
          some sibling ∧
      s.tree.pages sibling = none ∧ s.FindLeftSibling nodeId = none := by
  unfold FindLeftSibling BPlusTree.FindLeftSibling
  cases hn : s.tree.pages nodeId with
  | none => exact Or.inl rfl
  | some node =>
    simp only [tree_fetch]
    cases hpa : s.tree.getInternal node.GetParentPageId with
    | none => exact Or.inl rfl
    | some parent =>
      simp only
      cases hv : parent.ValueAt (if parent.ValueIndex node.GetPageId = 0 then
          parent.ValueIndex node.GetPageId + 1 else parent.ValueIndex node.GetPageId - 1) with
      | none => exact Or.inl rfl
      | some sibling =>
        simp only
        rcases map_eq_cases (tree_crab (s.fetch node.GetParentPageId) sibling OpType.DELETE (-1))
          with ⟨h1, h2⟩ | ⟨s2, h1, h2⟩
        · right
          refine ⟨node, parent, sibling, rfl, hpa, hv, ?_, ?_⟩
          · rw [tree_fetch] at h2
            cases hps : s.tree.pages sibling with
            | none => rfl
            | some x =>
              rw [hps] at h2
              exact Option.noConfusion h2
          · rw [h1]
        · left
          rw [h1]
          rw [tree_fetch] at h2
          cases hps : s.tree.pages sibling with
          | none =>
            rw [hps] at h2
            exact Option.noConfusion h2
          | some x =>
            rw [hps] at h2
            simp only [Option.map_some', Option.some.injEq] at h2
            simp only [Option.map_some', tree_unpin, ← h2]

theorem tree_Redistribute (s : PinnedTree) (neighborId nodeId : Int) (index : Int) :
    (s.Redistribute neighborId nodeId index).map (fun r => r.tree) =
      s.tree.Redistribute neighborId nodeId index := by
  unfold Redistribute BPlusTree.Redistribute
  split
  · split
    · exact tree_leafMoveFirstToEndOf s _ _
    · exact tree_leafMoveLastToFrontOf s _ _ _
  · split
    · exact tree_internalMoveFirstToEndOf s _ _
    · exact tree_internalMoveLastToFrontOf s _ _ _
  · rfl

theorem internalMoveAllTo_page (s s1 : PinnedTree) (thisId recipId : Int) (index : Int)
    (h : s.internalMoveAllTo thisId recipId index = some s1) :
    ∃ pg, s1.tree.pages thisId = some pg := by
  unfold internalMoveAllTo at h
  split at h
  · simp only at h
    split at h
    · exact Option.noConfusion h
    · split at h
      · exact Option.noConfusion h
      · split at h
        · exact Option.noConfusion h
        · split at h
          · exact Option.noConfusion h
          · split at h
            · split at h
              · simp only [Option.some.injEq] at h
                rw [← h]
                exact ⟨_, BPlusTree.pages_setPage_self _ _ _⟩
              · exact Option.noConfusion h
            · exact Option.noConfusion h
  · exact Option.noConfusion h

theorem tree_Coalesce (cor : PinnedTree → Int → Option (PinnedTree × Bool))
    (corp : BPlusTree → Int → Option (BPlusTree × Bool))
    (hcor : ∀ (s : PinnedTree) (nodeId : Int),
      (cor s nodeId).map (fun r => (r.1.tree, r.2)) = corp s.tree nodeId)
    (s : PinnedTree) (neighborId nodeId parentId : Int) (index : Int) :
    (Coalesce cor s neighborId nodeId parentId index).map (fun r => (r.1.tree, r.2)) =
      BPlusTree.Coalesce corp s.tree neighborId nodeId parentId index := by
  have hrest : ∀ s1 : PinnedTree, (∃ pg, s1.tree.pages nodeId = some pg) →
      Option.map (fun r : PinnedTree × Bool => (r.1.tree, r.2))
        (match s1.tree.pages nodeId with
        | none => none
        | some node =>
          match (s1.AddIntoDeletedPageSet node.GetPageId).tree.getInternal parentId with
          | none => none
          | some parent =>
            match parent.Remove index with
            | none => none
            | some parent1 =>
              if parent1.array.length ≤ (BPlusTreePage.internal parent1).GetMinSize then
                cor ((s1.AddIntoDeletedPageSet node.GetPageId).write parentId
                  (.internal parent1)) parentId
              else some ((s1.AddIntoDeletedPageSet node.GetPageId).write parentId
                  (.internal parent1), false)) =
      (match s1.tree.getInternal parentId with
        | none => none
        | some parent =>
          match parent.Remove index with
          | none => none
          | some parent1 =>
            if parent1.array.length ≤ (BPlusTreePage.internal parent1).GetMinSize then
              corp (s1.tree.setPage parentId (.internal parent1)) parentId
            else some (s1.tree.setPage parentId (.internal parent1), false)) := by
    intro s1 hpg
    obtain ⟨pg, hpg⟩ := hpg
    rw [hpg]
    simp only
    have ht : (s1.AddIntoDeletedPageSet pg.GetPageId).tree = s1.tree := rfl
    rw [ht]
    cases s1.tree.getInternal parentId with
    | none => rfl
    | some parent =>
      simp only
      cases parent.Remove index with
      | none => rfl
      | some parent1 =>
        simp only
        split
        · rw [hcor]
          rfl
        · rfl
  unfold Coalesce BPlusTree.Coalesce
  simp only
  cases hn : s.tree.pages nodeId with
  | none => rfl
  | some node =>
    cases hnb : s.tree.pages neighborId with
    | none => cases node <;> rfl
    | some nb =>
      cases node with
      | leaf n =>
        cases nb with
        | leaf nbl =>
          simp only
          have := hrest (s.write neighborId (.leaf (n.MoveAllTo nbl))) (by
            by_cases he : nodeId = neighborId
            · exact ⟨_, by rw [he]; exact BPlusTree.pages_setPage_self _ _ _⟩
            · exact ⟨_, by
                rw [tree_write, BPlusTree.pages_setPage_ne _ _ _ _ he]
                exact hn⟩)
          rw [tree_write] at this
          exact this
        | internal nbi => rfl
      | internal ni =>
        cases nb with
        | leaf nbl => rfl
        | internal nbi =>
          simp only
          rcases map_eq_cases (tree_internalMoveAllTo s nodeId neighborId index) with
            ⟨h1, h2⟩ | ⟨s1, h1, h2⟩
          · rw [h1, h2]
            rfl
          · rw [h1, h2]
            exact hrest s1 (internalMoveAllTo_page s s1 _ _ _ h1)

theorem tree_CoalesceOrRedistribute (fuel : Nat) :
    ∀ (s : PinnedTree) (nodeId : Int),
      (CoalesceOrRedistribute fuel s nodeId).map (fun r => (r.1.tree, r.2)) =
        BPlusTree.CoalesceOrRedistribute fuel s.tree nodeId := by
  induction fuel with
  | zero =>
    intro s nodeId
    rfl
  | succ fuel ih =>
    intro s nodeId
    unfold CoalesceOrRedistribute BPlusTree.CoalesceOrRedistribute
    cases hn : s.tree.pages nodeId with
    | none => rfl
    | some node =>
      simp only
      split
      · rcases map_eq_cases (tree_AdjustRoot s nodeId) with ⟨h1, h2⟩ | ⟨⟨s1, r⟩, h1, h2⟩
        · rw [h1, h2]
          rfl
        · rw [h1, h2]
          simp only [Option.map_some', Option.some.injEq, Prod.mk.injEq, and_true]
          split <;> rfl
      · rcases tree_FindLeftSibling s nodeId with hsib | ⟨node', parent, sibling, hn', hpa, hv,
          hmiss, hnone⟩
        · rcases map_eq_cases hsib with ⟨h1, h2⟩ | ⟨⟨s1, sib, right⟩, h1, h2⟩
          · rw [h1]
            cases hp : s.tree.FindLeftSibling nodeId with
            | none => rfl
            | some x =>
              rw [hp] at h2
              exact Option.noConfusion h2
          · rw [h1]
            cases hp : s.tree.FindLeftSibling nodeId with
            | none =>
              rw [hp] at h2
              exact Option.noConfusion h2
            | some x =>
              rw [hp] at h2
              simp only [Option.map_some', Option.some.injEq, Prod.mk.injEq] at h2
              obtain ⟨ht, hx⟩ := h2
              subst hx
              simp only [tree_fetch, ← ht]
              cases s.tree.pages sib with
              | none => rfl
              | some node2 =>
                cases s.tree.getInternal node.GetParentPageId with
                | none => rfl
                | some parentPage =>
                  simp only
                  split
                  · split
                    · have hc := tree_Coalesce (CoalesceOrRedistribute fuel)
                        (BPlusTree.CoalesceOrRedistribute fuel) ih
                        (s1.fetch node.GetParentPageId)
                        (if right = true then nodeId else sib)
                        (if right = true then sib else nodeId) node.GetParentPageId
                        (parentPage.ValueIndex (if right = true then node2 else node).GetPageId)
                      rw [tree_fetch, ← ht] at hc
                      rw [← hc, Option.map_map, Option.map_map]
                      congr 1
                      funext r
                      simp only [Function.comp, tree_unpin]
                    · have hr := tree_Redistribute (s1.fetch node.GetParentPageId) sib nodeId
                        (parentPage.ValueIndex node.GetPageId)
                      rw [tree_fetch, ← ht] at hr
                      rw [← hr, Option.map_map, Option.map_map]
                      congr 1
                      funext r
                      simp only [Function.comp, tree_unpin]
                  · rfl
        · rw [hnone]
          rw [hn] at hn'
          have hnode : node' = node := (Option.some.inj hn').symm
          subst hnode
          have hp : s.tree.FindLeftSibling nodeId =
              some (sibling, parent.ValueIndex node'.GetPageId == 0) := by
            unfold BPlusTree.FindLeftSibling
            rw [hn]
            simp only [hpa, hv]
          rw [hp]
          simp only [hmiss]
          rfl

theorem tree_Remove (s : PinnedTree) (key : Int) (fuel : Nat) :
    (s.Remove key fuel).map (fun r => r.tree) = s.tree.Remove key fuel := by
  unfold Remove BPlusTree.Remove
  split
  · rfl
  · rcases map_eq_cases (tree_FindLeafPage s key false OpType.DELETE fuel) with
      ⟨h1, h2⟩ | ⟨⟨s1, r⟩, h1, h2⟩
    · rw [h1]
      cases hp : s.tree.FindLeafPage key false fuel with
      | none => rfl
      | some l =>
        rw [hp] at h2
        exact Option.noConfusion h2
    · rw [h1]
      cases hp : s.tree.FindLeafPage key false fuel with
      | none =>
        rw [hp] at h2
        exact Option.noConfusion h2
      | some l =>
        rw [hp] at h2
        simp only [Option.map_some', Option.some.injEq, Prod.mk.injEq] at h2
        obtain ⟨ht, hr⟩ := h2
        subst hr
        cases l with
        | none => rfl
        | some leafId =>
          simp only [← ht]
          cases s.tree.getLeaf leafId with
          | none => rfl
          | some leaf =>
            simp only
            split
            · have hc := tree_CoalesceOrRedistribute fuel
                (s1.write leafId (.leaf (leaf.RemoveAndDeleteRecord key))) leafId
              rw [tree_write, ← ht] at hc
              rw [← hc, Option.map_map, Option.map_map]
              congr 1
              funext r
              simp only [Function.comp, tree_free]
            · simp only [Option.map_some', tree_free, tree_write, ht]

theorem tree_exec (s : PinnedTree) (fuel : Nat) (op : TreeOp) :
    (s.exec fuel op).map (fun r => r.tree) = s.tree.exec fuel op := by
  cases op with
  | get_value key =>
    show ((s.GetValue key fuel).map Prod.fst).map (fun r => r.tree) =
      (s.tree.GetValue key fuel).map (fun _ => s.tree)
    have h := congrArg (Option.map Prod.fst) (tree_GetValue s key fuel)
    simp only [Option.map_map] at h ⊢
    exact h
  | insert key value =>
    show ((s.Insert key value fuel).map Prod.fst).map (fun r => r.tree) =
      (s.tree.Insert key value fuel).map Prod.fst
    have h := congrArg (Option.map Prod.fst) (tree_Insert s key value fuel)
    simp only [Option.map_map] at h ⊢
    exact h
  | remove key => exact tree_Remove s key fuel

end PinnedTree

/-! ### The pin audit -/

namespace PinnedTree

theorem good_idle (s : PinnedTree) (hst : s.tree.Stored) (hpins : ∀ p, s.pins p = 0)
    (hset : s.page_set = []) : s.Good (fun _ => 0) := by
  refine ⟨hst, fun p => ?_, fun p _ => ⟨rfl, ?_⟩⟩
  · rw [hpins p, hset]
    rfl
  · rw [hset]
    exact List.not_mem_nil p

theorem good_exec {s s1 : PinnedTree} {base : Int → Int} (hb : ∀ p, 0 ≤ base p)
    (h : s.Good base) (fuel : Nat) (op : TreeOp) (hex : s.exec fuel op = some s1) :
    s1.Good base ∧ (s.page_set = [] → s1.page_set = []) := by
  cases op with
  | get_value key =>
    have hex2 : (s.GetValue key fuel).map Prod.fst = some s1 := hex
    cases hg : s.GetValue key fuel with
    | none =>
      rw [hg] at hex2
      exact Option.noConfusion hex2
    | some res =>
      obtain ⟨s2, r⟩ := res
      rw [hg] at hex2
      simp only [Option.map_some', Option.some.injEq] at hex2
      subst hex2
      exact good_GetValue hb h key fuel r hg
  | insert key value =>
    have hex2 : (s.Insert key value fuel).map Prod.fst = some s1 := hex
    cases hg : s.Insert key value fuel with
    | none =>
      rw [hg] at hex2
      exact Option.noConfusion hex2
    | some res =>
      obtain ⟨s2, r⟩ := res
      rw [hg] at hex2
      simp only [Option.map_some', Option.some.injEq] at hex2
      subst hex2
      exact good_Insert hb h key value fuel r hg
  | remove key => exact good_Remove hb h key fuel hex

theorem idle_exec {s s1 : PinnedTree} (hst : s.tree.Stored) (hpins : ∀ p, s.pins p = 0)
    (hset : s.page_set = []) (fuel : Nat) (op : TreeOp) (hex : s.exec fuel op = some s1) :
    s1.tree.Stored ∧ (∀ p, s1.pins p = 0) ∧ s1.page_set = [] := by
  obtain ⟨hg, hs⟩ := good_exec (fun _ => le_refl 0) (good_idle s hst hpins hset) fuel op hex
  refine ⟨hg.stored, fun p => ?_, hs hset⟩
  rw [hg.acc p, hs hset]
  rfl

theorem idle_execAll (fuel : Nat) (ops : List TreeOp) :
    ∀ s s1 : PinnedTree, s.tree.Stored → (∀ p, s.pins p = 0) → s.page_set = [] →
      s.execAll fuel ops = some s1 →
      s1.tree.Stored ∧ (∀ p, s1.pins p = 0) ∧ s1.page_set = [] := by
  induction ops with
  | nil =>
    intro s s1 hst hpins hset hex
    simp only [execAll, Option.some.injEq] at hex
    rw [← hex]
    exact ⟨hst, hpins, hset⟩
  | cons op rest ih =>
    intro s s1 hst hpins hset hex
    unfold execAll at hex
    split at hex
    · exact Option.noConfusion hex
    · rename_i s2 hs2
      obtain ⟨h1, h2, h3⟩ := idle_exec hst hpins hset fuel op hs2
      exact ih s2 s1 h1 h2 h3 hex

theorem stored_empty (leaf_max internal_max : Nat) (next : Int) (hn : 1 ≤ next) :
    (BPlusTree.empty leaf_max internal_max next).Stored := by
  refine ⟨fun pid p hp => ?_, ?_⟩
  · exact Option.noConfusion hp
  · show HEADER_PAGE_ID < next
    unfold HEADER_PAGE_ID
    omega

/-- C20: let every page be stored under its own id, no frame be pinned and the
page set of the transaction be empty.  Then `GetValue`, `Insert` and `Remove`
with this transaction write the pages as the index without pin counts does and
complete exactly when it does; and when the operation has completed, again no
frame is pinned, the page set is empty and every page is stored under its own
id: each `FetchPage` and `NewPage` of the operation and of the page routines it
calls has been undone by one `UnpinPage` that found the page pinned.  On an
index that holds its records in a valid tree `GetValue` and `Insert` do
complete when the fuel is above the height. -/
theorem pin_audit (s : PinnedTree) (op : TreeOp) (fuel : Nat) (hst : s.tree.Stored)
    (hpins : ∀ p, s.pins p = 0) (hset : s.page_set = []) :
    (s.exec fuel op).map (fun s1 => s1.tree) = s.tree.exec fuel op ∧
    (∀ s1, s.exec fuel op = some s1 →
      (∀ p, s1.pins p = 0) ∧ s1.page_set = [] ∧ s1.tree.Stored) ∧
    (∀ l n, s.tree.Holds l n → n ≤ fuel → ∀ key value,
      (∃ s1, s.exec fuel (TreeOp.get_value key) = some s1) ∧
      (∃ s1, s.exec fuel (TreeOp.insert key value) = some s1)) := by
  refine ⟨tree_exec s fuel op, fun s1 hex => ?_, fun l n hl hn key value => ⟨?_, ?_⟩⟩
  · obtain ⟨h1, h2, h3⟩ := idle_exec hst hpins hset fuel op hex
    exact ⟨h2, h3, h1⟩
  · have he := tree_exec s fuel (TreeOp.get_value key)
    have hp : s.tree.exec fuel (TreeOp.get_value key) = some s.tree := by
      show (s.tree.GetValue key fuel).map (fun _ => s.tree) = some s.tree
      rw [hl.GetValue key fuel hn]
      rfl
    rw [hp] at he
    cases hx : s.exec fuel (TreeOp.get_value key) with
    | none =>
      rw [hx] at he
      exact Option.noConfusion he
    | some s1 => exact ⟨s1, rfl⟩
  · have he := tree_exec s fuel (TreeOp.insert key value)
    obtain ⟨t1, b, hins, _⟩ := hl.Insert (key, value) fuel hn
    have hp : s.tree.exec fuel (TreeOp.insert key value) = some t1 := by
      show (s.tree.Insert key value fuel).map Prod.fst = some t1
      rw [hins]
      rfl
    rw [hp] at he
    cases hx : s.exec fuel (TreeOp.insert key value) with
    | none =>
      rw [hx] at he
      exact Option.noConfusion he
    | some s1 => exact ⟨s1, rfl⟩

set_option maxRecDepth 100000 in
/-- Witness of C20: on an index with leaf and internal maximal size 4, six
insertions (the fifth splits the root leaf), a lookup and two removals (the
first lets the left leaf borrow from its sibling) are followed by `Remove(3)`,
which merges the two leaves and deletes the old root: no frame is pinned
afterwards, and `DeletePage` has been called for the pages 3 and 2. -/
theorem pin_audit_witness :
    ∃ s s1 : PinnedTree,
      (idle (BPlusTree.empty 4 4 1)).execAll 8 [TreeOp.insert 1 10, TreeOp.insert 2 20,
        TreeOp.insert 3 30, TreeOp.insert 4 40, TreeOp.insert 5 50, TreeOp.insert 6 60,
        TreeOp.get_value 3, TreeOp.remove 1, TreeOp.remove 2] = some s ∧
      s.exec 8 (TreeOp.remove 3) = some s1 ∧
      (∀ p, s1.pins p = 0) ∧ s1.page_set = [] ∧ s1.delete_calls = [3, 2] ∧
      s1.tree.root_page_id = 1 := by
  have hsome : (((idle (BPlusTree.empty 4 4 1)).execAll 8 [TreeOp.insert 1 10,
      TreeOp.insert 2 20, TreeOp.insert 3 30, TreeOp.insert 4 40, TreeOp.insert 5 50,
      TreeOp.insert 6 60, TreeOp.get_value 3, TreeOp.remove 1, TreeOp.remove 2]).bind
        (fun s => s.exec 8 (TreeOp.remove 3))).map
          (fun s1 => (s1.delete_calls, s1.tree.root_page_id)) = some ([3, 2], 1) := by
    decide
  cases hs : (idle (BPlusTree.empty 4 4 1)).execAll 8 [TreeOp.insert 1 10,
      TreeOp.insert 2 20, TreeOp.insert 3 30, TreeOp.insert 4 40, TreeOp.insert 5 50,
      TreeOp.insert 6 60, TreeOp.get_value 3, TreeOp.remove 1, TreeOp.remove 2] with
  | none =>
    rw [hs] at hsome
    exact Option.noConfusion hsome
  | some s =>
    rw [hs] at hsome
    simp only [Option.some_bind] at hsome
    cases hs1 : s.exec 8 (TreeOp.remove 3) with
    | none =>
      rw [hs1] at hsome
      exact Option.noConfusion hsome
    | some s1 =>
      rw [hs1] at hsome
      simp only [Option.map_some', Option.some.injEq, Prod.mk.injEq] at hsome
      obtain ⟨h1, h2, h3⟩ := idle_execAll 8 _ _ s
        (stored_empty 4 4 1 (by decide)) (fun _ => rfl) rfl hs
      obtain ⟨h4, h5, _⟩ := (pin_audit s (TreeOp.remove 3) 8 h1 h2 h3).2.1 s1 hs1
      exact ⟨s, s1, rfl, hs1, h4, h5, hsome.1, hsome.2⟩

end PinnedTree

/-! ## Page layouts: lookup and insertion in a single page -/

namespace BPlusTreeInternalPage

/-- C28: on an internal page with at least two entries whose keys at the
indices `1 .. size-1` are strictly increasing, `Lookup(k)` returns (the search
loop comes to an end within `size` rounds and reads no entry outside
`0 .. size-1`) the value of the entry `i` where every entry behind `i` has a
key above `k` and, unless `i = 0`, the key of entry `i` is not above `k`: `i`
is the greatest index in `1 .. size-1` whose key is at most `k`, and `0` when
there is none. -/
theorem Lookup_greatest (p : BPlusTreeInternalPage) (k : Int) (hsize : 2 ≤ p.GetSize)
    (hs : ((p.array.tail).map Prod.fst).Pairwise (· < ·)) :
    ∃ (i : Nat) (e : Int × Int), i < p.GetSize ∧ p.array[i]? = some e ∧
      p.Lookup k = some e.2 ∧ (1 ≤ i → e.1 ≤ k) ∧
      (∀ j e1, i < j → p.array[j]? = some e1 → k < e1.1) ∧
      ((∀ j e1, 1 ≤ j → p.array[j]? = some e1 → k < e1.1) → i = 0) := by
  obtain ⟨e0, tl, harr⟩ : ∃ e0 tl, p.array = e0 :: tl := by
    cases hp : p.array with
    | nil =>
      have : p.GetSize = 0 := by
        unfold GetSize
        rw [hp]
        rfl
      omega
    | cons a rest => exact ⟨a, rest, rfl⟩
  have hlen : p.GetSize = tl.length + 1 := by
    unfold GetSize
    rw [harr]
    rfl
  have hne : tl ≠ [] := by
    intro h0
    rw [h0] at hlen
    simp only [List.length_nil] at hlen
    omega
  rw [harr] at hs
  simp only [List.tail_cons] at hs
  have hl := Lookup_spec p k e0 tl harr hne hs
  have hc := countLE_le k tl
  have hp := countLE_props k tl
  have hlt : countLE k tl < (e0 :: tl).length := by
    simp only [List.length_cons]
    omega
  obtain ⟨e, he⟩ : ∃ e, (e0 :: tl)[countLE k tl]? = some e :=
    ⟨_, List.getElem?_eq_getElem hlt⟩
  refine ⟨countLE k tl, e, by omega, by rw [harr]; exact he, ?_, ?_, ?_, ?_⟩
  · rw [hl, he]
    rfl
  · intro h1
    obtain ⟨c, hcc⟩ : ∃ c, countLE k tl = c + 1 := ⟨countLE k tl - 1, by omega⟩
    rw [hcc] at he
    simp only [List.getElem?_cons_succ] at he
    exact hp.1 c (by omega) e he
  · intro j e1 hj he1
    rw [harr] at he1
    obtain ⟨j1, rfl⟩ : ∃ j1, j = j1 + 1 := ⟨j - 1, by omega⟩
    simp only [List.getElem?_cons_succ] at he1
    have hj1 := List.getElem?_eq_some.1 he1
    have hj2 := hj1.1
    have hclt : countLE k tl < tl.length := by omega
    have h2 := hp.2 _ (List.getElem?_eq_getElem hclt)
    rcases Nat.lt_or_ge (countLE k tl) j1 with h3 | h3
    · have := List.pairwise_iff_getElem.1 hs (countLE k tl) j1 (by simpa using hclt)
        (by simpa using hj1.1) h3
      simp only [List.getElem_map] at this
      rw [hj1.2] at this
      omega
    · have h4 : j1 = countLE k tl := by omega
      subst h4
      rw [← hj1.2]
      exact h2
  · intro hall
    by_contra h0
    obtain ⟨c, hcc⟩ : ∃ c, countLE k tl = c + 1 := ⟨countLE k tl - 1, by omega⟩
    have he2 := he
    rw [hcc] at he2
    simp only [List.getElem?_cons_succ] at he2
    have h1 := hp.1 c (by omega) e he2
    have h2 := hall (countLE k tl) e (by omega) (by rw [harr]; exact he)
    omega

/-- Witness of C28: the page with the keys 10, 20, 30 behind the unused key
slot sends the key 25 to the child of the entry with key 20. -/
theorem Lookup_greatest_witness :
    ∃ (i : Nat) (e : Int × Int), i < 4 ∧
      [((0 : Int), (100 : Int)), (10, 101), (20, 102), (30, 103)][i]? = some e ∧
      BPlusTreeInternalPage.Lookup (BPlusTreeInternalPage.mk 4 (-1) 7
        [(0, 100), (10, 101), (20, 102), (30, 103)]) 25 = some e.2 ∧
      BPlusTreeInternalPage.Lookup (BPlusTreeInternalPage.mk 4 (-1) 7
        [(0, 100), (10, 101), (20, 102), (30, 103)]) 25 = some 102 := by
  obtain ⟨i, e, h1, h2, h3, _⟩ := Lookup_greatest (BPlusTreeInternalPage.mk 4 (-1) 7
    [(0, 100), (10, 101), (20, 102), (30, 103)]) 25 (by decide) (by decide)
  exact ⟨i, e, h1, h2, h3, by decide⟩

end BPlusTreeInternalPage

namespace BPlusTreeLeafPage

theorem LookupInto_eq (p : BPlusTreeLeafPage) (k out : Int) :
    p.LookupInto k out =
      match p.Lookup k with
      | some v => (true, v)
      | none => (false, out) := by
  unfold LookupInto Lookup
  cases p.array.head? with
  | none => rfl
  | some first =>
    cases p.array.getLast? with
    | none => rfl
    | some last =>
      simp only
      by_cases hc : comparator k first.1 < 0 ∨ comparator k last.1 > 0
      · rw [if_pos hc, if_pos hc]
      · rw [if_neg hc, if_neg hc]
        cases p.array.get? (p.KeyIndex k) with
        | none => rfl
        | some e =>
          simp only
          by_cases he : comparator e.1 k = 0
          · rw [if_pos he, if_pos he]
          · rw [if_neg he, if_neg he]

theorem keyIndexFrom_spec (k : Int) (l : List (Int × Int)) :
    keyIndexFrom k l 0 ≤ l.length ∧
    (∀ i e, i < keyIndexFrom k l 0 → l[i]? = some e → e.1 < k) ∧
    (∀ e, l[keyIndexFrom k l 0]? = some e → k ≤ e.1) := by
  induction l with
  | nil => simp [keyIndexFrom]
  | cons a rest ih =>
    simp only [keyIndexFrom, comparator_le_zero]
    by_cases hle : k ≤ a.1
    · simp only [hle, if_true]
      refine ⟨Nat.zero_le _, fun i e hi => absurd hi (Nat.not_lt_zero i), fun e he => ?_⟩
      simp only [List.getElem?_cons_zero, Option.some.injEq] at he
      rw [← he]
      exact hle
    · simp only [hle, if_false]
      rw [keyIndexFrom_shift, Nat.add_comm]
      refine ⟨?_, ?_, ?_⟩
      · simp only [List.length_cons]
        omega
      · intro i e hi he
        cases i with
        | zero =>
          simp only [List.getElem?_cons_zero, Option.some.injEq] at he
          rw [← he]
          omega
        | succ i1 =>
          simp only [List.getElem?_cons_succ] at he
          exact ih.2.1 i1 e (by omega) he
      · intro e he
        simp only [List.getElem?_cons_succ] at he
        exact ih.2.2 e he

/-- C29: on a leaf whose keys are strictly increasing, `Insert(k, v)` of a key
that the leaf does not store returns the former size plus one; the entries
afterwards are the former entries in their order with `(k, v)` put between two
of them, and their keys are strictly increasing; the header fields are kept. -/
theorem Insert_sorted (p : BPlusTreeLeafPage) (k v : Int)
    (hs : (p.array.map Prod.fst).Pairwise (· < ·)) (hk : k ∉ p.array.map Prod.fst) :
    (p.Insert k v).GetSize = p.GetSize + 1 ∧
    ((p.Insert k v).array.map Prod.fst).Pairwise (· < ·) ∧
    (∃ front back, p.array = front ++ back ∧ (p.Insert k v).array = front ++ (k, v) :: back) ∧
    (∀ e, e ∈ (p.Insert k v).array ↔ e = (k, v) ∨ e ∈ p.array) ∧
    (p.Insert k v).max_size = p.max_size ∧ (p.Insert k v).page_id = p.page_id ∧
    (p.Insert k v).parent_page_id = p.parent_page_id ∧
    (p.Insert k v).next_page_id = p.next_page_id := by
  rw [Insert_array p k v hs]
  refine ⟨?_, insertKV_sorted p.array k v hs hk, ?_, mem_insertKV p.array k v, rfl, rfl, rfl,
    rfl⟩
  · show (insertKV k v p.array).length = p.array.length + 1
    exact insertKV_length p.array k v
  · refine ⟨p.array.take (keyIndexFrom k p.array 0), p.array.drop (keyIndexFrom k p.array 0),
      (List.take_append_drop _ _).symm, ?_⟩
    exact (take_keyIndex_insert k v p.array).symm

/-- Witness of C29: the key 20 goes between the keys 10 and 30. -/
theorem Insert_sorted_witness :
    ((BPlusTreeLeafPage.mk 4 (-1) 7 (-1) [(10, 1), (30, 3)]).Insert 20 2).GetSize = 3 ∧
    ((BPlusTreeLeafPage.mk 4 (-1) 7 (-1) [(10, 1), (30, 3)]).Insert 20 2).array =
      [(10, 1), (20, 2), (30, 3)] ∧
    (((BPlusTreeLeafPage.mk 4 (-1) 7 (-1) [(10, 1), (30, 3)]).Insert 20 2).array.map
      Prod.fst).Pairwise (· < ·) :=
  ⟨(Insert_sorted (BPlusTreeLeafPage.mk 4 (-1) 7 (-1) [(10, 1), (30, 3)]) 20 2
      (by decide) (by decide)).1, by decide,
    (Insert_sorted (BPlusTreeLeafPage.mk 4 (-1) 7 (-1) [(10, 1), (30, 3)]) 20 2
      (by decide) (by decide)).2.1⟩

/-- C30: on a leaf whose keys are strictly increasing, `KeyIndex(k)` is at
most the size, every entry before it has a key below `k` and the entry at it,
if there is one, has a key that is not below `k`; `Lookup(k)` returns `true`
with the value stored with `k` when `(k, v)` is an entry, and returns `false`
without writing to the output value when no entry has the key `k`. -/
theorem KeyIndex_Lookup (p : BPlusTreeLeafPage) (k : Int)
    (hs : (p.array.map Prod.fst).Pairwise (· < ·)) :
    p.KeyIndex k ≤ p.GetSize ∧
    (∀ i e, i < p.KeyIndex k → p.array[i]? = some e → e.1 < k) ∧
    (∀ e, p.array[p.KeyIndex k]? = some e → k ≤ e.1) ∧
    (∀ v, (k, v) ∈ p.array → p.Lookup k = some v ∧ ∀ out, p.LookupInto k out = (true, v)) ∧
    (k ∉ p.array.map Prod.fst →
      p.Lookup k = none ∧ ∀ out, p.LookupInto k out = (false, out)) := by
  have hki := keyIndexFrom_spec k p.array
  refine ⟨hki.1, hki.2.1, hki.2.2, ?_, ?_⟩
  · intro v hv
    have hl : p.Lookup k = some v := by
      rw [Lookup_eq_mapFind p k hs]
      exact BPlusTree.mapFind_of_mem p.array k v hs hv
    refine ⟨hl, fun out => ?_⟩
    rw [LookupInto_eq, hl]
  · intro hk
    have hl : p.Lookup k = none := by
      rw [Lookup_eq_mapFind p k hs]
      exact (BPlusTree.mapFind_eq_none_iff p.array k).2 hk
    refine ⟨hl, fun out => ?_⟩
    rw [LookupInto_eq, hl]

/-- Witness of C30: the leaf with the keys 10, 20, 30 and the keys 20 (stored)
and 25 (absent, `KeyIndex` 2). -/
theorem KeyIndex_Lookup_witness :
    (BPlusTreeLeafPage.mk 4 (-1) 7 (-1) [(10, 1), (20, 2), (30, 3)]).KeyIndex 25 = 2 ∧
    (BPlusTreeLeafPage.mk 4 (-1) 7 (-1) [(10, 1), (20, 2), (30, 3)]).LookupInto 20 0
      = (true, 2) ∧
    (BPlusTreeLeafPage.mk 4 (-1) 7 (-1) [(10, 1), (20, 2), (30, 3)]).LookupInto 25 0
      = (false, 0) :=
  ⟨by decide,
    ((KeyIndex_Lookup (BPlusTreeLeafPage.mk 4 (-1) 7 (-1) [(10, 1), (20, 2), (30, 3)]) 20
      (by decide)).2.2.2.1 2 (by decide)).2 0,
    ((KeyIndex_Lookup (BPlusTreeLeafPage.mk 4 (-1) 7 (-1) [(10, 1), (20, 2), (30, 3)]) 25
      (by decide)).2.2.2.2 (by decide)).2 0⟩

end BPlusTreeLeafPage

/-! ## Extendible hash table: shape of the directory and dispatch -/

theorem mapSet_length {V : Type} (m : List (Int × V)) (k : Int) (v : V)
    (hs : (m.map Prod.fst).Pairwise (· < ·)) :
    (mapSet m k v).length = if (mapFind m k).isSome then m.length else m.length + 1 := by
  induction m with
  | nil => rfl
  | cons e rest ih =>
    simp only [List.map_cons, List.pairwise_cons] at hs
    simp only [mapSet, mapFind]
    by_cases he : e.1 = k
    · simp only [he, if_true, Option.isSome_some, List.length_cons]
    · simp only [he, if_false]
      by_cases hlt : k < e.1
      · simp only [hlt, if_true, List.length_cons]
        have hnone : mapFind rest k = none := by
          apply mapFind_none_of_not_mem
          intro hm
          have := hs.1 k hm
          omega
        rw [hnone]
        rfl
      · simp only [hlt, if_false, List.length_cons, ih hs.2]
        split <;> rfl

theorem mod_succ_split (x y d : Nat) (h : x % 2 ^ (d + 1) = y % 2 ^ (d + 1)) :
    x % 2 ^ d = y % 2 ^ d ∧ (x / 2 ^ d) % 2 = (y / 2 ^ d) % 2 := by
  rw [Nat.mod_pow_succ, Nat.mod_pow_succ] at h
  have hx : x % 2 ^ d < 2 ^ d := Nat.mod_lt _ (by positivity)
  have hy : y % 2 ^ d < 2 ^ d := Nat.mod_lt _ (by positivity)
  have hbx : (x / 2 ^ d) % 2 < 2 := Nat.mod_lt _ (by decide)
  have hby : (y / 2 ^ d) % 2 < 2 := Nat.mod_lt _ (by decide)
  generalize 2 ^ d = P at *
  generalize x % P = a at *
  generalize y % P = b at *
  generalize (x / P) % 2 = c at *
  generalize (y / P) % 2 = e at *
  have hc : c = 0 ∨ c = 1 := by omega
  have he : e = 0 ∨ e = 1 := by omega
  rcases hc with rfl | rfl <;> rcases he with rfl | rfl <;> simp at h <;> omega

namespace ExtendibleHash

variable {V : Type}

theorem routed_new (size : Nat) : (ExtendibleHash.new size : ExtendibleHash V).Routed := by
  refine ⟨?_, ?_, ?_, ?_⟩
  · intro b hb
    simp only [new, List.mem_singleton] at hb
    rw [hb]
    exact Nat.zero_le _
  · intro i j bi b hi hj hb
    have hb2 : b ∈ (ExtendibleHash.new size : ExtendibleHash V).buckets := List.getElem?_mem hb
    simp only [new, List.mem_singleton] at hb2
    rw [hb2]
    simp [Nat.mod_one]
  · intro i j bi b hi hb hj _
    have hi1 := (List.getElem?_eq_some.1 hi).1
    have hj0 : j = 0 := by
      simp only [new, List.length_singleton] at hj
      omega
    have hi0 : i = 0 := by
      simp only [new, List.length_singleton] at hi1
      omega
    rw [hj0, ← hi0]
    exact hi
  · intro i bi b hi hb key hk
    have hb2 : b ∈ (ExtendibleHash.new size : ExtendibleHash V).buckets := List.getElem?_mem hb
    simp only [new, List.mem_singleton] at hb2
    rw [hb2] at hk
    simp at hk

theorem routed_set (eh : ExtendibleHash V) (hp : eh.Routed) (bi : Nat)
    (b b1 : Bucket V) (hb : eh.buckets[bi]? = some b) (hd : b1.localDepth = b.localDepth)
    (hsz : b1.kvmap.length ≤ eh.bucketVolume)
    (hs : ∀ i, eh.bucketTable[i]? = some bi → ∀ key ∈ b1.kvmap.map Prod.fst,
      HashKey key % 2 ^ b.localDepth = i % 2 ^ b.localDepth) :
    ExtendibleHash.Routed { eh with buckets := eh.buckets.set bi b1 } := by
  have hbi : bi < eh.buckets.length := (List.getElem?_eq_some.1 hb).1
  refine ⟨?_, ?_, ?_, ?_⟩
  · intro x hx
    rcases List.mem_or_eq_of_mem_set hx with h1 | h1
    · exact hp.size_le x h1
    · rw [h1]; exact hsz
  · intro i j y x hi hj hx
    simp only at hi hj hx
    by_cases hy : y = bi
    · subst hy
      rw [List.getElem?_set_self hbi] at hx
      rw [← Option.some.inj hx, hd]
      exact hp.agree i j y b hi hj hb
    · rw [List.getElem?_set_ne (Ne.symm hy)] at hx
      exact hp.agree i j y x hi hj hx
  · intro i j y x hi hx hj hij
    simp only at hi hx hj ⊢
    by_cases hy : y = bi
    · subst hy
      rw [List.getElem?_set_self hbi] at hx
      rw [← Option.some.inj hx, hd] at hij
      exact hp.cover i j y b hi hb hj hij
    · rw [List.getElem?_set_ne (Ne.symm hy)] at hx
      exact hp.cover i j y x hi hx hj hij
  · intro i y x hi hx key hk
    simp only at hi hx
    by_cases hy : y = bi
    · subst hy
      rw [List.getElem?_set_self hbi] at hx
      rw [← Option.some.inj hx] at hk ⊢
      rw [hd]
      exact hs i hi key hk
    · rw [List.getElem?_set_ne (Ne.symm hy)] at hx
      exact hp.slot i y x hi hx key hk

/-- What a slot of the directory holds after a split, for a slot inside the
directory. -/
theorem split_slot_lt (eh : ExtendibleHash V) (h : eh.Inv) (bi : Nat) (tmp : Bucket V)
    (hb : eh.buckets[bi]? = some tmp) (j : Nat) (hj : j < (eh.split bi tmp).bucketTable.length) :
    ∃ y0, eh.bucketTable[j % 2 ^ eh.globalDepth]? = some y0 ∧ y0 < eh.buckets.length ∧
      (eh.split bi tmp).bucketTable[j]? =
        some (if y0 = bi ∧ (j / 2 ^ tmp.localDepth) % 2 = 1 then eh.buckets.length else y0) := by
  have hy : (eh.split bi tmp).bucketTable[j]? = some ((eh.split bi tmp).bucketTable[j]) :=
    List.getElem?_eq_getElem hj
  obtain ⟨y0, h1, h2, h3⟩ := split_slot eh h bi tmp hb j _ hy
  exact ⟨y0, h1, h2, by rw [hy, h3]⟩

theorem slot_cases (yi bi n y : Nat) (c : Prop) [Decidable c] (hyi : yi < n)
    (h : y = if yi = bi ∧ c then n else yi) :
    (y = n ∧ yi = bi ∧ c) ∨ (y = yi ∧ y < n ∧ ¬ (yi = bi ∧ c)) := by
  by_cases hc : yi = bi ∧ c
  · rw [if_pos hc] at h
    exact Or.inl ⟨h, hc⟩
  · rw [if_neg hc] at h
    exact Or.inr ⟨h, by omega, hc⟩

theorem routed_split (eh : ExtendibleHash V) (h : eh.Inv) (hp : eh.Routed)
    (bi : Nat) (tmp : Bucket V) (hb : eh.buckets[bi]? = some tmp) :
    (eh.split bi tmp).Routed := by
  have hmem : tmp ∈ eh.buckets := List.getElem?_mem hb
  have hd := h.depth_le tmp hmem
  have hbi : bi < eh.buckets.length := (List.getElem?_eq_some.1 hb).1
  refine ⟨?_, ?_, ?_, ?_⟩
  · intro b hbm
    obtain ⟨y, hy⟩ := List.mem_iff_getElem?.1 hbm
    have hsz := hp.size_le tmp hmem
    rcases split_bucket eh bi tmp hbi y b hy with ⟨_, hb1⟩ | ⟨_, hb1⟩ | ⟨_, _, hb1⟩
    · rw [hb1]
      exact le_trans (List.length_filter_le _ _) hsz
    · rw [hb1]
      exact le_trans (List.length_filter_le _ _) hsz
    · exact hp.size_le b (List.getElem?_mem hb1)
  · intro i j y b hi hj hy
    obtain ⟨yi, hyi, hyilt, hyie⟩ := split_slot eh h bi tmp hb i y hi
    obtain ⟨yj, hyj, hyjlt, hyje⟩ := split_slot eh h bi tmp hb j y hj
    have hci := slot_cases yi bi _ y _ hyilt hyie
    have hcj := slot_cases yj bi _ y _ hyjlt hyje
    rcases split_bucket eh bi tmp hbi y b hy with ⟨hy1, hb1⟩ | ⟨hy1, hb1⟩ | ⟨hy1, hy2, hb1⟩
    · rw [hb1]
      show i % 2 ^ (tmp.localDepth + 1) = j % 2 ^ (tmp.localDepth + 1)
      rcases hci with ⟨h1, _⟩ | ⟨h1, _, h3⟩
      · omega
      rcases hcj with ⟨h4, _⟩ | ⟨h4, _, h6⟩
      · omega
      have hyi2 : yi = bi := by omega
      have hyj2 : yj = bi := by omega
      rw [hyi2] at hyi
      rw [hyj2] at hyj
      have ha := hp.agree _ _ bi tmp hyi hyj hb
      rw [mod_mod_pow _ _ _ hd, mod_mod_pow _ _ _ hd] at ha
      apply mod_succ_eq _ _ _ ha
      rw [bit_zero_of_ne_one _ (fun hbit => h3 ⟨hyi2, hbit⟩),
        bit_zero_of_ne_one _ (fun hbit => h6 ⟨hyj2, hbit⟩)]
    · rw [hb1]
      show i % 2 ^ (tmp.localDepth + 1) = j % 2 ^ (tmp.localDepth + 1)
      rcases hci with ⟨_, h2, h3⟩ | ⟨_, h2, _⟩
      swap
      · omega
      rcases hcj with ⟨_, h5, h6⟩ | ⟨_, h5, _⟩
      swap
      · omega
      rw [h2] at hyi
      rw [h5] at hyj
      have ha := hp.agree _ _ bi tmp hyi hyj hb
      rw [mod_mod_pow _ _ _ hd, mod_mod_pow _ _ _ hd] at ha
      apply mod_succ_eq _ _ _ ha
      rw [h3, h6]
    · have hdb := h.depth_le b (List.getElem?_mem hb1)
      rcases hci with ⟨h1, _⟩ | ⟨h1, _, _⟩
      · omega
      rcases hcj with ⟨h4, _⟩ | ⟨h4, _, _⟩
      · omega
      rw [← h1] at hyi
      rw [← h4] at hyj
      have ha := hp.agree _ _ y b hyi hyj hb1
      rw [mod_mod_pow _ _ _ hdb, mod_mod_pow _ _ _ hdb] at ha
      exact ha
  · intro i j y b hi hy hj hij
    obtain ⟨yi, hyi, hyilt, hyie⟩ := split_slot eh h bi tmp hb i y hi
    obtain ⟨yj, hyj, hyjlt, hyje⟩ := split_slot_lt eh h bi tmp hb j hj
    have hci := slot_cases yi bi _ y _ hyilt hyie
    have hjlt : j % 2 ^ eh.globalDepth < eh.bucketTable.length := (List.getElem?_eq_some.1 hyj).1
    rw [hyje]
    rcases split_bucket eh bi tmp hbi y b hy with ⟨hy1, hb1⟩ | ⟨hy1, hb1⟩ | ⟨hy1, hy2, hb1⟩
    · rw [hb1] at hij
      have hij2 : i % 2 ^ (tmp.localDepth + 1) = j % 2 ^ (tmp.localDepth + 1) := hij
      obtain ⟨hm, hbit⟩ := mod_succ_split _ _ _ hij2
      rcases hci with ⟨h1, _⟩ | ⟨h1, _, h3⟩
      · omega
      have hyi2 : yi = bi := by omega
      rw [hyi2] at hyi
      have hc := hp.cover _ (j % 2 ^ eh.globalDepth) bi tmp hyi hb hjlt
        (by rw [mod_mod_pow _ _ _ hd, mod_mod_pow _ _ _ hd]; exact hm)
      rw [hyj] at hc
      have hyj2 : yj = bi := Option.some.inj hc
      have hbi0 : ¬ (i / 2 ^ tmp.localDepth) % 2 = 1 := fun hbit1 => h3 ⟨hyi2, hbit1⟩
      have hbj0 : ¬ (j / 2 ^ tmp.localDepth) % 2 = 1 := by
        rw [← hbit]
        exact hbi0
      rw [if_neg (fun hc2 => hbj0 hc2.2), hyj2, hy1]
    · rw [hb1] at hij
      have hij2 : i % 2 ^ (tmp.localDepth + 1) = j % 2 ^ (tmp.localDepth + 1) := hij
      obtain ⟨hm, hbit⟩ := mod_succ_split _ _ _ hij2
      rcases hci with ⟨_, h2, h3⟩ | ⟨_, h2, _⟩
      swap
      · omega
      rw [h2] at hyi
      have hc := hp.cover _ (j % 2 ^ eh.globalDepth) bi tmp hyi hb hjlt
        (by rw [mod_mod_pow _ _ _ hd, mod_mod_pow _ _ _ hd]; exact hm)
      rw [hyj] at hc
      have hyj2 : yj = bi := Option.some.inj hc
      rw [if_pos ⟨hyj2, by rw [← hbit]; exact h3⟩, hy1]
    · have hdb := h.depth_le b (List.getElem?_mem hb1)
      rcases hci with ⟨h1, _⟩ | ⟨h1, _, _⟩
      · omega
      rw [← h1] at hyi
      have hc := hp.cover _ (j % 2 ^ eh.globalDepth) y b hyi hb1 hjlt
        (by rw [mod_mod_pow _ _ _ hdb, mod_mod_pow _ _ _ hdb]; exact hij)
      rw [hyj] at hc
      have hyj2 : yj = y := Option.some.inj hc
      rw [if_neg (fun hc2 => hy1 (hyj2 ▸ hc2.1)), hyj2]
  · intro i y b hi hy key hk
    obtain ⟨yi, hyi, hyilt, hyie⟩ := split_slot eh h bi tmp hb i y hi
    have hci := slot_cases yi bi _ y _ hyilt hyie
    rcases split_bucket eh bi tmp hbi y b hy with ⟨hy1, hb1⟩ | ⟨hy1, hb1⟩ | ⟨hy1, hy2, hb1⟩
    · rw [hb1] at hk ⊢
      show HashKey key % 2 ^ (tmp.localDepth + 1) = i % 2 ^ (tmp.localDepth + 1)
      rcases hci with ⟨h1, _⟩ | ⟨h1, _, h3⟩
      · omega
      have hyi2 : yi = bi := by omega
      rw [hyi2] at hyi
      obtain ⟨hk1, e, _, hek, hpe⟩ := filter_keys _ _ key hk
      have hbit : ¬ (HashKey key / 2 ^ tmp.localDepth) % 2 = 1 := by
        rw [← hek]
        simpa using hpe
      have ha := hp.slot _ bi tmp hyi hb key hk1
      rw [mod_mod_pow _ _ _ hd] at ha
      apply mod_succ_eq _ _ _ ha
      rw [bit_zero_of_ne_one _ (fun hbit1 => h3 ⟨hyi2, hbit1⟩), bit_zero_of_ne_one _ hbit]
    · rw [hb1] at hk ⊢
      show HashKey key % 2 ^ (tmp.localDepth + 1) = i % 2 ^ (tmp.localDepth + 1)
      rcases hci with ⟨_, h2, h3⟩ | ⟨_, h2, _⟩
      swap
      · omega
      rw [h2] at hyi
      obtain ⟨hk1, e, _, hek, hpe⟩ := filter_keys _ _ key hk
      have hbit : (HashKey key / 2 ^ tmp.localDepth) % 2 = 1 := by
        rw [← hek]
        simpa using hpe
      have ha := hp.slot _ bi tmp hyi hb key hk1
      rw [mod_mod_pow _ _ _ hd] at ha
      apply mod_succ_eq _ _ _ ha
      rw [h3, hbit]
    · have hdb := h.depth_le b (List.getElem?_mem hb1)
      rcases hci with ⟨h1, _⟩ | ⟨h1, _, _⟩
      · omega
      rw [← h1] at hyi
      have ha := hp.slot _ y b hyi hb1 key hk
      rw [mod_mod_pow _ _ _ hdb] at ha
      exact ha

theorem insertLoop_routed (k : Int) (v : V) :
    ∀ (fuel : Nat) (eh eh1 : ExtendibleHash V), eh.Inv → eh.Routed →
      insertLoop fuel eh k v = some eh1 → eh1.Routed ∧ eh1.bucketVolume = eh.bucketVolume := by
  intro fuel
  induction fuel with
  | zero =>
    intro eh eh1 _ _ hi
    exact Option.noConfusion hi
  | succ f ih =>
    intro eh eh1 h hp hi
    unfold insertLoop at hi
    simp only [List.get?_eq_getElem?, getBucketId] at hi
    split at hi
    · exact Option.noConfusion hi
    · rename_i bi hbi
      split at hi
      · exact Option.noConfusion hi
      · rename_i tmp hb
        have hd := h.depth_le tmp (List.getElem?_mem hb)
        split at hi
        · rename_i hcond
          simp only [Option.some.injEq] at hi
          rw [← hi]
          refine ⟨?_, rfl⟩
          apply routed_set eh hp bi tmp (Bucket.mk tmp.localDepth (mapSet tmp.kvmap k v)) hb rfl
          · show (mapSet tmp.kvmap k v).length ≤ eh.bucketVolume
            rw [mapSet_length _ _ _ (h.keys_sorted tmp (List.getElem?_mem hb))]
            have hsz := hp.size_le tmp (List.getElem?_mem hb)
            rcases hcond with h1 | h1
            · rw [if_pos h1]
              exact hsz
            · split <;> omega
          · intro i hi2 key hkey
            rcases (mapSet_keys tmp.kvmap k v key).1 hkey with h1 | h1
            · rw [h1]
              have ha := hp.agree _ _ bi tmp hbi hi2 hb
              rw [mod_mod_pow _ _ _ hd] at ha
              exact ha
            · exact hp.slot i bi tmp hi2 hb key h1
        · obtain ⟨h1, h2⟩ := ih (eh.split bi tmp) eh1 (split_inv eh h bi tmp hb)
            (routed_split eh h hp bi tmp hb) hi
          exact ⟨h1, h2⟩

theorem routed_Remove (eh : ExtendibleHash V) (hp : eh.Routed) (k : Int) :
    (eh.Remove k).1.Routed ∧ (eh.Remove k).1.bucketVolume = eh.bucketVolume := by
  unfold Remove
  simp only [List.get?_eq_getElem?]
  split
  · exact ⟨hp, rfl⟩
  · rename_i bi hbi
    split
    · exact ⟨hp, rfl⟩
    · rename_i b hb
      split
      · exact ⟨hp, rfl⟩
      · refine ⟨?_, rfl⟩
        apply routed_set eh hp bi b (Bucket.mk b.localDepth (mapErase b.kvmap k)) hb rfl
        · exact le_trans (mapErase_sublist b.kvmap k).length_le
            (hp.size_le b (List.getElem?_mem hb))
        · intro i hi key hkey
          exact hp.slot i bi b hi hb key
            (((mapErase_sublist b.kvmap k).map Prod.fst).subset hkey)

theorem run_routed (size : Nat) (ops : List (HashOp V)) :
    ∀ eh, (ExtendibleHash.new size : ExtendibleHash V).run ops = some eh →
      eh.Inv ∧ eh.Routed ∧ eh.bucketVolume = size := by
  induction ops using List.reverseRecOn with
  | nil =>
    intro eh hrun
    simp only [run, Option.some.injEq] at hrun
    rw [← hrun]
    exact ⟨new_inv size, routed_new size, rfl⟩
  | append_singleton ops op ih =>
    intro eh hrun
    rw [run_append] at hrun
    cases hprev : (ExtendibleHash.new size : ExtendibleHash V).run ops with
    | none =>
      rw [hprev] at hrun
      exact Option.noConfusion hrun
    | some eh0 =>
      rw [hprev] at hrun
      simp only [Option.some_bind] at hrun
      obtain ⟨hinv, hrt, hvol⟩ := ih eh0 hprev
      cases op with
      | insert k v =>
        have hi : insertLoop 66 eh0 k v = some eh := hrun
        obtain ⟨h1, h2⟩ := insertLoop_routed k v 66 eh0 eh hinv hrt hi
        exact ⟨(insertLoop_spec 66 eh0 eh hinv k v hi).1, h1, by rw [h2, hvol]⟩
      | remove k =>
        have hi : some (eh0.Remove k).1 = some eh := hrun
        rw [← Option.some.inj hi]
        obtain ⟨h1, h2⟩ := routed_Remove eh0 hrt k
        exact ⟨(Remove_spec eh0 hinv k).1, h1, by rw [h2, hvol]⟩

end ExtendibleHash

/-! ## Buffer pool manager: frames, free list and page table -/

namespace BufferPoolManager

theorem reachable_of_valid {s : BufferPoolManager} (hr : ReachableValid s) :
    Reachable s := by
  induction hr with
  | init pool_size page_size bucket_size disk => exact Reachable.init _ _ _ _
  | fetch page_id _ _ hf ih => exact Reachable.fetch page_id ih hf
  | unpin page_id is_dirty _ ih => exact Reachable.unpin page_id is_dirty ih
  | flush page_id _ hf ih => exact Reachable.flush page_id ih hf
  | newPage _ _ hf ih => exact Reachable.newPage ih hf
  | delete page_id _ ih => exact Reachable.delete page_id ih
  | write f bytes _ hpin ih => exact Reachable.write f bytes ih hpin

theorem reachable_of_fresh {s : BufferPoolManager} (hr : ReachableFresh s) :
    Reachable s := by
  induction hr with
  | init pool_size page_size bucket_size disk => exact Reachable.init _ _ _ _
  | fetch page_id _ hf ih => exact Reachable.fetch page_id ih hf
  | unpin page_id is_dirty _ ih => exact Reachable.unpin page_id is_dirty ih
  | flush page_id _ hf ih => exact Reachable.flush page_id ih hf
  | newPage _ _ hf ih => exact Reachable.newPage ih hf
  | delete page_id _ ih => exact Reachable.delete page_id ih
  | write f bytes _ hpin ih => exact Reachable.write f bytes ih hpin

/-- The page table keeps the entries of the other pages when a frame is taken
for reuse. -/
theorem findUnusedPage_keeps (s s0 : BufferPoolManager) (p : Nat) (h : s.Inv) (hm : s.Mapped)
    (hf : s.findUnusedPage = some (s0, some p)) (k : Int) (g : Nat)
    (hk : s.page_table.Find k = some g) (hg : g ≠ p) (hkv : k ≠ INVALID_PAGE_ID) :
    s0.page_table.Find k = some g := by
  unfold findUnusedPage at hf
  split at hf
  · split at hf
    · simp only [Option.some.injEq, Prod.mk.injEq] at hf
      rw [← hf.1]
      exact hk
    · exact Option.noConfusion hf
  · split at hf
    · simp at hf
    · rename_i r1 q hv
      simp only [Option.some.injEq, Prod.mk.injEq] at hf
      obtain ⟨hs0, hp⟩ := hf
      subst hp
      have hv2 : s.replacer.Victim.2 = some q := by rw [hv]
      obtain ⟨hq, _, _⟩ := LRUReplacer.Victim_some _ h.lru q hv2
      have hqf := h.lru_frames q hq
      have hrem := ExtendibleHash.Remove_spec s.page_table h.table (s.pages q).page_id
      have hne : k ≠ (s.pages q).page_id := by
        intro he
        have hq2 := hm q hqf.1 (by rw [← he]; exact hkv)
        rw [← he, hk] at hq2
        exact hg (Option.some.inj hq2)
      have hfind : (s.page_table.Remove (s.pages q).page_id).1.Find k = some g := by
        rw [hrem.2 k, if_neg hne]
        exact hk
      rw [← hs0]
      split <;> exact hfind

/-- A page installed in a frame taken for reuse keeps `Mapped` and
`Occupied`. -/
theorem install_frames (s s0 : BufferPoolManager) (p : Nat) (ht : Taken s s0 p)
    (pid : Int) (pg : Page) (table : ExtendibleHash Nat) (disk : DiskManager)
    (hid : pg.page_id = pid)
    (hfind : ∀ k, table.Find k = if k = pid then some p else
        if k = INVALID_PAGE_ID then none else s0.page_table.Find k) :
    (pid ≠ INVALID_PAGE_ID → s.Occupied →
      (BufferPoolManager.setFrame { s0 with page_table := table, disk := disk } p pg).Occupied) ∧
    (s.page_table.Find pid = none → s.Mapped →
      (∀ k g, s.page_table.Find k = some g → g ≠ p → k ≠ INVALID_PAGE_ID →
        s0.page_table.Find k = some g) →
      (BufferPoolManager.setFrame { s0 with page_table := table, disk := disk } p pg).Mapped) := by
  constructor
  · intro hpid ho f hf hfree
    have hf1 : f < s0.pool_size := hf
    have hfree1 : f ∉ s0.free_list := hfree
    show ((BufferPoolManager.setFrame _ p pg).pages f).page_id ≠ INVALID_PAGE_ID
    simp only [setFrame]
    by_cases hfp : f = p
    · rw [if_pos hfp, hid]
      exact hpid
    · rw [if_neg hfp]
      show (s0.pages f).page_id ≠ INVALID_PAGE_ID
      rw [ht.others f hfp]
      apply ho f (by rw [← ht.pool_size]; exact hf1)
      intro hm
      exact hfree1 ((ht.free_mem f).2 ⟨hm, hfp⟩)
  · intro hmiss hm hkeep f hf hv
    have hf1 : f < s0.pool_size := hf
    show table.Find ((BufferPoolManager.setFrame _ p pg).pages f).page_id = some f
    have hv1 : ((BufferPoolManager.setFrame
      { s0 with page_table := table, disk := disk } p pg).pages f).page_id ≠ INVALID_PAGE_ID := hv
    simp only [setFrame] at hv1 ⊢
    by_cases hfp : f = p
    · rw [if_pos hfp, hid, hfind pid, if_pos rfl, hfp]
    · rw [if_neg hfp] at hv1 ⊢
      have hv2 : (s0.pages f).page_id ≠ INVALID_PAGE_ID := hv1
      show table.Find (s0.pages f).page_id = some f
      rw [ht.others f hfp] at hv2 ⊢
      have hs := hm f (by rw [← ht.pool_size]; exact hf1) hv2
      have hne : (s.pages f).page_id ≠ pid := by
        intro he
        rw [he, hmiss] at hs
        exact Option.noConfusion hs
      rw [hfind, if_neg hne, if_neg hv2]
      exact hkeep _ f hs hfp hv2

theorem frames_FetchPage (s s1 : BufferPoolManager) (h : s.Inv) (pid : Int) (r : Option Nat)
    (hf : s.FetchPage pid = some (s1, r)) :
    (pid ≠ INVALID_PAGE_ID → s.Occupied → s1.Occupied) ∧ (s.Mapped → s1.Mapped) := by
  cases hfind : s.page_table.Find pid with
  | some p =>
    rw [FetchPage_hit s pid p hfind] at hf
    simp only [Option.some.injEq, Prod.mk.injEq] at hf
    rw [← hf.1]
    constructor
    · intro _ ho f hlt hfree
      have := ho f hlt hfree
      show ((s.setFrame p _).pages f).page_id ≠ INVALID_PAGE_ID
      simp only [setFrame]
      split
      · rename_i hfp
        rw [hfp] at this
        exact this
      · exact this
    · intro hm f hlt hv
      have hv1 : ((s.setFrame p { (s.pages p) with
        pin_count := (s.pages p).pin_count + 1 }).pages f).page_id ≠ INVALID_PAGE_ID := hv
      show s.page_table.Find ((s.setFrame p _).pages f).page_id = some f
      simp only [setFrame] at hv1 ⊢
      by_cases hfp : f = p
      · rw [if_pos hfp] at hv1 ⊢
        have := hm p (hfp ▸ hlt) hv1
        rw [hfp]
        exact this
      · rw [if_neg hfp] at hv1 ⊢
        exact hm f hlt hv1
  | none =>
    cases r with
    | none =>
      have h1 := FetchPage_none s s1 pid hf
      have h2 := (findUnusedPage_none s s1 h h1.2).1
      rw [h2]
      exact ⟨fun _ ho => ho, fun hm => hm⟩
    | some p =>
      obtain ⟨s0, table, hfu, hins, hs1⟩ := FetchPage_miss s s1 pid p h hfind hf
      have ht := findUnusedPage_taken s s0 p h hfu
      have hi := inv_install s s0 p h ht pid (Page.mk (s0.disk.contents pid) pid 1 false) table
        (s0.disk.ReadPage pid).1 rfl rfl hins
      have hfr := install_frames s s0 p ht pid (Page.mk (s0.disk.contents pid) pid 1 false)
        table (s0.disk.ReadPage pid).1 rfl hi.2
      rw [hs1]
      exact ⟨hfr.1, fun hm => hfr.2 hfind hm
        (fun k g hk hg hkv => findUnusedPage_keeps s s0 p h hm hfu k g hk hg hkv)⟩

theorem frames_NewPage (s s1 : BufferPoolManager) (h : s.Inv) (r : Option (Nat × Int))
    (hf : s.NewPage = some (s1, r)) :
    (s.disk.next_page_id ≠ INVALID_PAGE_ID → s.Occupied → s1.Occupied) ∧
    (s.page_table.Find s.disk.next_page_id = none → s.Mapped → s1.Mapped) := by
  cases r with
  | none =>
    have h1 := NewPage_none s s1 hf
    have h2 := (findUnusedPage_none s s1 h h1).1
    rw [h2]
    exact ⟨fun _ ho => ho, fun _ hm => hm⟩
  | some res =>
    obtain ⟨p, pid⟩ := res
    obtain ⟨s0, table, hfu, hpid, hins, hs1⟩ := NewPage_some s s1 p pid h hf
    have ht := findUnusedPage_taken s s0 p h hfu
    have hi := inv_install s s0 p h ht pid (Page.mk (zeroData s.page_size) pid 1 false) table
      (s0.disk.AllocatePage).1 rfl rfl hins
    have hfr := install_frames s s0 p ht pid (Page.mk (zeroData s.page_size) pid 1 false)
      table (s0.disk.AllocatePage).1 rfl hi.2
    have hnext : pid = s.disk.next_page_id := by rw [hpid, ht.next_page_id]
    rw [hs1]
    refine ⟨fun hv ho => hfr.1 (by rw [hnext]; exact hv) ho, fun hfresh hm => ?_⟩
    exact hfr.2 (by rw [hnext]; exact hfresh) hm
      (fun k g hk hg hkv => findUnusedPage_keeps s s0 p h hm hfu k g hk hg hkv)

theorem frames_UnpinPage (s : BufferPoolManager) (pid : Int) (d : Bool) :
    (s.Occupied → (s.UnpinPage pid d).1.Occupied) ∧ (s.Mapped → (s.UnpinPage pid d).1.Mapped) := by
  cases hfind : s.page_table.Find pid with
  | none =>
    rw [UnpinPage_fail s pid d (Or.inl hfind)]
    exact ⟨fun ho => ho, fun hm => hm⟩
  | some p =>
    by_cases hpin : 0 < (s.pages p).pin_count
    · obtain ⟨_, hps, _, htab, hfree, _, _, hoth, hfr⟩ := UnpinPage_ok s pid d p hfind hpin
      have hid : ∀ f, ((s.UnpinPage pid d).1.pages f).page_id = (s.pages f).page_id := by
        intro f
        by_cases hfp : f = p
        · rw [hfp, hfr]
        · rw [hoth f hfp]
      constructor
      · intro ho f hlt hfl
        rw [hid f]
        rw [hps] at hlt
        rw [hfree] at hfl
        exact ho f hlt hfl
      · intro hm f hlt hv
        rw [hid f] at hv ⊢
        rw [hps] at hlt
        rw [htab]
        exact hm f hlt hv
    · rw [UnpinPage_fail s pid d (Or.inr ⟨p, hfind, by omega⟩)]
      exact ⟨fun ho => ho, fun hm => hm⟩

theorem frames_setFrame (s : BufferPoolManager) (p : Nat) (pg : Page) (disk : DiskManager)
    (hid : pg.page_id = (s.pages p).page_id) :
    (s.Occupied → (BufferPoolManager.setFrame { s with disk := disk } p pg).Occupied) ∧
    (s.Mapped → (BufferPoolManager.setFrame { s with disk := disk } p pg).Mapped) := by
  have hpid : ∀ f, ((BufferPoolManager.setFrame { s with disk := disk } p pg).pages f).page_id
      = (s.pages f).page_id := by
    intro f
    simp only [setFrame]
    by_cases hfp : f = p
    · rw [if_pos hfp, hid, hfp]
    · rw [if_neg hfp]
  constructor
  · intro ho f hlt hfl
    rw [hpid f]
    exact ho f hlt hfl
  · intro hm f hlt hv
    rw [hpid f] at hv
    show s.page_table.Find _ = some f
    rw [hpid f]
    exact hm f hlt hv

theorem frames_FlushPage (s s1 : BufferPoolManager) (pid : Int) (r : Bool)
    (hf : s.FlushPage pid = some (s1, r)) :
    (s.Occupied → s1.Occupied) ∧ (s.Mapped → s1.Mapped) := by
  unfold FlushPage at hf
  split at hf
  · exact Option.noConfusion hf
  · split at hf
    · simp only [Option.some.injEq, Prod.mk.injEq] at hf
      rw [← hf.1]
      exact ⟨fun ho => ho, fun hm => hm⟩
    · rename_i p hfind
      split at hf
      · simp only [Option.some.injEq, Prod.mk.injEq] at hf
        rw [← hf.1]
        exact ⟨fun ho => ho, fun hm => hm⟩
      · split at hf
        · simp only [Option.some.injEq, Prod.mk.injEq] at hf
          rw [← hf.1]
          exact frames_setFrame s p _ _ rfl
        · simp only [Option.some.injEq, Prod.mk.injEq] at hf
          rw [← hf.1]
          exact ⟨fun ho => ho, fun hm => hm⟩

theorem frames_writeData (s : BufferPoolManager) (f : Nat) (bytes : List Nat) :
    (s.Occupied → (s.writeData f bytes).Occupied) ∧ (s.Mapped → (s.writeData f bytes).Mapped) :=
  frames_setFrame s f _ s.disk rfl

theorem frames_DeletePage (s : BufferPoolManager) (h : s.Inv) (pid : Int) :
    (s.Occupied → (s.DeletePage pid).1.Occupied) ∧ (s.Mapped → (s.DeletePage pid).1.Mapped) := by
  cases hfind : s.page_table.Find pid with
  | none =>
    unfold DeletePage
    rw [hfind]
    exact ⟨fun ho => ho, fun hm => hm⟩
  | some p =>
    by_cases hpin : 0 < (s.pages p).pin_count
    · unfold DeletePage
      rw [hfind]
      have : (s.pages p).pin_count > 0 := hpin
      simp only [this, if_true]
      exact ⟨fun ho => ho, fun hm => hm⟩
    · rw [DeletePage_ok s pid p hfind hpin]
      have hres := h.resident pid p hfind
      have hrem := ExtendibleHash.Remove_spec s.page_table h.table pid
      constructor
      · intro ho f hlt hfl
        have hlt1 : f < s.pool_size := hlt
        have hfl1 : f ∉ s.free_list ++ [p] := hfl
        rw [List.mem_append, List.mem_singleton, not_or] at hfl1
        show (if f = p then Page.mk (zeroData s.page_size) INVALID_PAGE_ID 0 false
          else s.pages f).page_id ≠ INVALID_PAGE_ID
        rw [if_neg hfl1.2]
        exact ho f hlt1 hfl1.1
      · intro hm f hlt hv
        have hlt1 : f < s.pool_size := hlt
        have hv1 : (if f = p then Page.mk (zeroData s.page_size) INVALID_PAGE_ID 0 false
          else s.pages f).page_id ≠ INVALID_PAGE_ID := hv
        show (s.page_table.Remove pid).1.Find
          (if f = p then Page.mk (zeroData s.page_size) INVALID_PAGE_ID 0 false
            else s.pages f).page_id = some f
        by_cases hfp : f = p
        · rw [if_pos hfp] at hv1
          exact absurd rfl hv1
        · rw [if_neg hfp] at hv1 ⊢
          have hs := hm f hlt1 hv1
          have hne : (s.pages f).page_id ≠ pid := by
            intro he
            rw [he, hfind] at hs
            exact hfp (Option.some.inj hs).symm
          rw [hrem.2, if_neg hne]
          exact hs

theorem occupied_new (pool_size page_size bucket_size : Nat) (disk : DiskManager) :
    (new pool_size page_size bucket_size disk).Occupied := by
  intro f hf hfree
  exact absurd (List.mem_range.2 hf) hfree

theorem mapped_new (pool_size page_size bucket_size : Nat) (disk : DiskManager) :
    (new pool_size page_size bucket_size disk).Mapped := by
  intro f hf hv
  exact absurd rfl hv

theorem ReachableValid.occupied {s : BufferPoolManager} (hr : ReachableValid s) :
    s.Occupied := by
  induction hr with
  | init pool_size page_size bucket_size disk => exact occupied_new _ _ _ _
  | fetch page_id hs hv hf ih =>
    exact (frames_FetchPage _ _ (reachable_of_valid hs).inv page_id _ hf).1 hv ih
  | unpin page_id is_dirty _ ih => exact (frames_UnpinPage _ page_id is_dirty).1 ih
  | flush page_id _ hf ih => exact (frames_FlushPage _ _ page_id _ hf).1 ih
  | newPage hs hv hf ih =>
    exact (frames_NewPage _ _ (reachable_of_valid hs).inv _ hf).1 hv ih
  | delete page_id hs ih =>
    exact (frames_DeletePage _ (reachable_of_valid hs).inv page_id).1 ih
  | write f bytes _ _ ih => exact (frames_writeData _ f bytes).1 ih

theorem ReachableFresh.mapped {s : BufferPoolManager} (hr : ReachableFresh s) : s.Mapped := by
  induction hr with
  | init pool_size page_size bucket_size disk => exact mapped_new _ _ _ _
  | fetch page_id hs hf ih =>
    exact (frames_FetchPage _ _ (reachable_of_fresh hs).inv page_id _ hf).2 ih
  | unpin page_id is_dirty _ ih => exact (frames_UnpinPage _ page_id is_dirty).2 ih
  | flush page_id _ hf ih => exact (frames_FlushPage _ _ page_id _ hf).2 ih
  | newPage hs hfresh hf ih =>
    exact (frames_NewPage _ _ (reachable_of_fresh hs).inv _ hf).2 hfresh ih
  | delete page_id hs ih =>
    exact (frames_DeletePage _ (reachable_of_fresh hs).inv page_id).2 ih
  | write f bytes _ _ ih => exact (frames_writeData _ f bytes).2 ih

end BufferPoolManager

/-! ## Buffer pool manager: invariants of the reachable states, reuse of frames -/

namespace BufferPoolManager

theorem findUnusedPage_free (s s0 : BufferPoolManager) (p q : Nat) (rest : List Nat)
    (hfree : s.free_list = q :: rest) (hf : s.findUnusedPage = some (s0, some p)) :
    p = q ∧ s0 = { s with free_list := rest } := by
  unfold findUnusedPage at hf
  rw [hfree] at hf
  simp only at hf
  split at hf
  · simp only [Option.some.injEq, Prod.mk.injEq] at hf
    exact ⟨hf.2.symm, hf.1.symm⟩
  · exact Option.noConfusion hf

theorem findUnusedPage_victim (s s0 : BufferPoolManager) (p : Nat) (hfree : s.free_list = [])
    (hf : s.findUnusedPage = some (s0, some p)) :
    s.replacer.Victim.2 = some p ∧
    s0.page_table = (s.page_table.Remove (s.pages p).page_id).1 ∧
    s0.disk = (if (s.pages p).is_dirty then
      s.disk.WritePage (s.pages p).page_id (s.pages p).data else s.disk) := by
  unfold findUnusedPage at hf
  rw [hfree] at hf
  simp only at hf
  split at hf
  · simp at hf
  · rename_i r1 q hv
    simp only [Option.some.injEq, Prod.mk.injEq] at hf
    obtain ⟨hs0, hp⟩ := hf
    subst hp
    refine ⟨by rw [hv], ?_, ?_⟩
    · rw [← hs0]
      split <;> rfl
    · rw [← hs0]
      split <;> rfl

/-- C22: in every pool state that arises from a fresh pool by `FetchPage`,
`UnpinPage`, `FlushPage`, `NewPage` and `DeletePage` (and writes of clients to
frames they have pinned), a frame with a positive pin count is not in the list
of the replacer and is not a key of its map. -/
theorem pinned_not_in_replacer (s : BufferPoolManager) (hr : Reachable s) (f : Nat)
    (hpin : 0 < (s.pages f).pin_count) : f ∉ s.replacer.list ∧ f ∉ s.replacer.mp := by
  have h := hr.inv
  have hl : f ∉ s.replacer.list := by
    intro hm
    have := (h.lru_frames f hm).2.1
    omega
  exact ⟨hl, fun hm => hl ((h.lru.mem_iff f).1 hm)⟩

/-- Witness of C22: in a pool of two frames page 0 is made and unpinned, page 1
is made: frame 1 is pinned and is not in the replacer, which holds frame 0. -/
theorem pinned_not_in_replacer_witness :
    ∃ s s1 : BufferPoolManager,
      (new 2 4 2 DiskManager.blank).NewPage = some (s, some (0, 0)) ∧
      (s.UnpinPage 0 false).1.NewPage = some (s1, some (1, 1)) ∧
      (s1.pages 1).pin_count = 1 ∧ s1.replacer.list = [0] ∧
      1 ∉ s1.replacer.list ∧ 1 ∉ s1.replacer.mp := by
  have hn : (new 2 4 2 DiskManager.blank).NewPage = some (_, some (0, 0)) := rfl
  have hr := Reachable.newPage (r := some (1, 1)) (Reachable.unpin 0 false
    (Reachable.newPage (Reachable.init 2 4 2 DiskManager.blank) hn)) rfl
  exact ⟨_, _, hn, rfl, rfl, rfl, pinned_not_in_replacer _ hr 1 (by decide)⟩

/-- C23: in every pool state that arises from a fresh pool by the public
operations when the page ids passed to `FetchPage` and handed out to `NewPage`
are not `INVALID_PAGE_ID`, a frame of the pool has the page id
`INVALID_PAGE_ID` exactly when it is in the free list, such a frame has pin
count 0 and is not dirty, the free list holds frames of the pool only, and
`findUnusedPage` passes its three assertions. -/
theorem free_iff_invalid (s : BufferPoolManager) (hr : ReachableValid s) :
    (∀ f, f < s.pool_size → ((s.pages f).page_id = INVALID_PAGE_ID ↔ f ∈ s.free_list)) ∧
    (∀ f, f < s.pool_size → (s.pages f).page_id = INVALID_PAGE_ID →
      (s.pages f).pin_count = 0 ∧ (s.pages f).is_dirty = false) ∧
    (∀ f ∈ s.free_list, f < s.pool_size) ∧
    (∃ r, s.findUnusedPage = some r) := by
  have h := (reachable_of_valid hr).inv
  have ho := hr.occupied
  have hiff : ∀ f, f < s.pool_size →
      ((s.pages f).page_id = INVALID_PAGE_ID ↔ f ∈ s.free_list) := by
    intro f hf
    constructor
    · intro hid
      by_contra hfree
      exact ho f hf hfree hid
    · intro hfree
      exact (h.free_frames f hfree).2.1
  refine ⟨hiff, ?_, fun f hf => (h.free_frames f hf).1, ?_⟩
  · intro f hf hid
    have hfr := h.free_frames f ((hiff f hf).1 hid)
    exact ⟨hfr.2.2.1, hfr.2.2.2.1⟩
  · by_cases hne : s.free_list = [] ∧ s.replacer.list = []
    · exact ⟨_, findUnusedPage_empty s h hne.1 hne.2⟩
    · obtain ⟨s1, p, hf⟩ := findUnusedPage_some s h hne
      exact ⟨_, hf⟩

/-- Witness of C23: in a pool of two frames page 0 is made, unpinned and
deleted; frame 0 is back in the free list behind frame 1, and both have the
page id `INVALID_PAGE_ID`. -/
theorem free_iff_invalid_witness :
    ∃ s : BufferPoolManager,
      (new 2 4 2 DiskManager.blank).NewPage = some (s, some (0, 0)) ∧
      ((s.UnpinPage 0 false).1.DeletePage 0).1.free_list = [1, 0] ∧
      ((((s.UnpinPage 0 false).1.DeletePage 0).1.pages 0).page_id = INVALID_PAGE_ID ↔
        0 ∈ ((s.UnpinPage 0 false).1.DeletePage 0).1.free_list) ∧
      (((s.UnpinPage 0 false).1.DeletePage 0).1.pages 0).pin_count = 0 := by
  have hn : (new 2 4 2 DiskManager.blank).NewPage = some (_, some (0, 0)) := rfl
  have hr := ReachableValid.delete 0 (ReachableValid.unpin 0 false
    (ReachableValid.newPage (ReachableValid.init 2 4 2 DiskManager.blank) (by decide) hn))
  have h := free_iff_invalid _ hr
  exact ⟨_, hn, rfl, h.1 0 (by decide), (h.2.1 0 (by decide) rfl).1⟩

/-- C24: in every pool state that arises from a fresh pool by the public
operations when the page id the disk manager hands out to `NewPage` is not in
the page table, every key `k` of the page table maps to a frame of the pool
whose page id is `k`, no two keys map to the same frame, and every frame of the
pool whose page id is not `INVALID_PAGE_ID` is what the page table holds for
its page id. -/
theorem page_table_bijection (s : BufferPoolManager) (hr : ReachableFresh s) :
    (∀ k f, s.page_table.Find k = some f → f < s.pool_size ∧ (s.pages f).page_id = k) ∧
    (∀ k1 k2 f, s.page_table.Find k1 = some f → s.page_table.Find k2 = some f → k1 = k2) ∧
    (∀ f, f < s.pool_size → (s.pages f).page_id ≠ INVALID_PAGE_ID →
      s.page_table.Find (s.pages f).page_id = some f) := by
  have h := (reachable_of_fresh hr).inv
  refine ⟨fun k f hk => ⟨(h.resident k f hk).1, (h.resident k f hk).2.1⟩, ?_, hr.mapped⟩
  intro k1 k2 f h1 h2
  rw [← (h.resident k1 f h1).2.1, ← (h.resident k2 f h2).2.1]

/-- Witness of C24: in a pool of two frames page 0 is made and page 7 is
fetched; the page table maps 0 to frame 0 and 7 to frame 1. -/
theorem page_table_bijection_witness :
    ∃ s s1 : BufferPoolManager,
      (new 2 4 2 DiskManager.blank).NewPage = some (s, some (0, 0)) ∧
      s.FetchPage 7 = some (s1, some 1) ∧
      (s1.pages 1).page_id = 7 ∧ s1.page_table.Find (s1.pages 1).page_id = some 1 ∧
      s1.page_table.Find 0 = some 0 ∧ (s1.pages 0).page_id = 0 := by
  have hn : (new 2 4 2 DiskManager.blank).NewPage = some (_, some (0, 0)) := rfl
  have hr := ReachableFresh.fetch (r := some 1) 7
    (ReachableFresh.newPage (ReachableFresh.init 2 4 2 DiskManager.blank) rfl hn) rfl
  have h := page_table_bijection _ hr
  exact ⟨_, _, hn, rfl, rfl, h.2.2 1 (by decide) (by decide), rfl, (h.1 0 0 rfl).2⟩

end BufferPoolManager

namespace BufferPoolManager

/-- What the reuse of the victim frame `f` leaves in the page table and on
the disk: `table` is the page table after the new page `pid` has been entered,
`disk0` the disk after `findUnusedPage`. -/
theorem victim_reuse (s s0 : BufferPoolManager) (f : Nat) (h : s.Inv) (hm : s.Mapped)
    (pid : Int) (hpid : pid ≠ INVALID_PAGE_ID) (hmiss : s.page_table.Find pid = none)
    (hfree : s.free_list = []) (hfu : s.findUnusedPage = some (s0, some f))
    (table : ExtendibleHash Nat)
    (hfind : ∀ k, table.Find k = if k = pid then some f else
        if k = INVALID_PAGE_ID then none else s0.page_table.Find k) :
    s.replacer.Victim.2 = some f ∧ table.Find (s.pages f).page_id = none ∧
    ((s.pages f).is_dirty = true →
      s0.disk.contents (s.pages f).page_id = (s.pages f).data ∧
      s0.disk.log = s.disk.log ++ [DiskEvent.write (s.pages f).page_id (s.pages f).data]) ∧
    ((s.pages f).is_dirty = false → s0.disk = s.disk) := by
  have ht := findUnusedPage_taken s s0 f h hfu
  obtain ⟨hv, htab, hdisk⟩ := findUnusedPage_victim s s0 f hfree hfu
  have hne : (s.pages f).page_id ≠ pid := by
    by_cases hk0 : (s.pages f).page_id = INVALID_PAGE_ID
    · rw [hk0]
      exact fun he => hpid he.symm
    · intro he
      have := hm f ht.lt hk0
      rw [he, hmiss] at this
      exact Option.noConfusion this
  refine ⟨hv, ?_, ?_, ?_⟩
  · rw [hfind, if_neg hne]
    split
    · rfl
    · rw [htab, (ExtendibleHash.Remove_spec s.page_table h.table (s.pages f).page_id).2,
        if_pos rfl]
  · intro hd
    rw [hdisk, if_pos hd]
    exact ⟨by simp only [DiskManager.WritePage, if_true], rfl⟩
  · intro hd
    rw [hdisk, hd]
    rfl

/-- C21: on a pool state that has arisen with fresh page ids, let `FetchPage(pid)`
for a valid `pid` that is not in the page table, or `NewPage` with a valid
fresh page id, return the frame `f`.  When the free list is empty, `f` is the
victim of the replacer, the page it held is no longer in the page table, and
if the frame was dirty the disk holds for that page the bytes the frame held
(the write is the one disk call before the read or the allocation); a clean
victim is not written.  When the free list is not empty, `f` is its head and
is taken from it, the replacer, the other frames and the contents of the disk
are as before, no write is among the disk calls, and the page table holds for
every other valid page id what it held. -/
theorem dirty_victim_written_back (s : BufferPoolManager) (hr : ReachableFresh s) :
    (∀ (s1 : BufferPoolManager) (pid : Int) (f : Nat), pid ≠ INVALID_PAGE_ID →
      s.page_table.Find pid = none → s.FetchPage pid = some (s1, some f) →
      (s.free_list = [] →
        s.replacer.Victim.2 = some f ∧ s1.page_table.Find (s.pages f).page_id = none ∧
        ((s.pages f).is_dirty = true →
          s1.disk.contents (s.pages f).page_id = (s.pages f).data ∧
          s1.disk.log = s.disk.log ++
            [DiskEvent.write (s.pages f).page_id (s.pages f).data, DiskEvent.read pid]) ∧
        ((s.pages f).is_dirty = false →
          s1.disk.contents = s.disk.contents ∧
          s1.disk.log = s.disk.log ++ [DiskEvent.read pid])) ∧
      (∀ q rest, s.free_list = q :: rest →
        f = q ∧ s1.free_list = rest ∧ s1.replacer = s.replacer ∧
        s1.disk.contents = s.disk.contents ∧
        s1.disk.log = s.disk.log ++ [DiskEvent.read pid] ∧
        (∀ g, g ≠ q → s1.pages g = s.pages g) ∧
        (∀ k, k ≠ pid → k ≠ INVALID_PAGE_ID →
          s1.page_table.Find k = s.page_table.Find k))) ∧
    (∀ (s1 : BufferPoolManager) (pid : Int) (f : Nat),
      s.disk.next_page_id ≠ INVALID_PAGE_ID →
      s.page_table.Find s.disk.next_page_id = none → s.NewPage = some (s1, some (f, pid)) →
      pid = s.disk.next_page_id ∧
      (s.free_list = [] →
        s.replacer.Victim.2 = some f ∧ s1.page_table.Find (s.pages f).page_id = none ∧
        ((s.pages f).is_dirty = true →
          s1.disk.contents (s.pages f).page_id = (s.pages f).data ∧
          s1.disk.log = s.disk.log ++
            [DiskEvent.write (s.pages f).page_id (s.pages f).data, DiskEvent.allocate pid]) ∧
        ((s.pages f).is_dirty = false →
          s1.disk.contents = s.disk.contents ∧
          s1.disk.log = s.disk.log ++ [DiskEvent.allocate pid])) ∧
      (∀ q rest, s.free_list = q :: rest →
        f = q ∧ s1.free_list = rest ∧ s1.replacer = s.replacer ∧
        s1.disk.contents = s.disk.contents ∧
        s1.disk.log = s.disk.log ++ [DiskEvent.allocate pid] ∧
        (∀ g, g ≠ q → s1.pages g = s.pages g) ∧
        (∀ k, k ≠ pid → k ≠ INVALID_PAGE_ID →
          s1.page_table.Find k = s.page_table.Find k))) := by
  have h := (reachable_of_fresh hr).inv
  have hm := hr.mapped
  constructor
  · intro s1 pid f hpid hmiss hf
    obtain ⟨s0, table, hfu, hins, hs1⟩ := FetchPage_miss s s1 pid f h hmiss hf
    have ht := findUnusedPage_taken s s0 f h hfu
    have hi := inv_install s s0 f h ht pid (Page.mk (s0.disk.contents pid) pid 1 false) table
      (s0.disk.ReadPage pid).1 rfl rfl hins
    have htable : s1.page_table = table := by rw [hs1]; rfl
    have hdisk : s1.disk = (s0.disk.ReadPage pid).1 := by rw [hs1]; rfl
    constructor
    · intro hfree
      obtain ⟨hv, hnone, hdirty, hclean⟩ :=
        victim_reuse s s0 f h hm pid hpid hmiss hfree hfu table hi.2
      refine ⟨hv, by rw [htable]; exact hnone, ?_, ?_⟩
      · intro hd
        obtain ⟨h1, h2⟩ := hdirty hd
        rw [hdisk]
        refine ⟨h1, ?_⟩
        show s0.disk.log ++ [DiskEvent.read pid] = _
        rw [h2, List.append_assoc]
        rfl
      · intro hd
        rw [hdisk, ← hclean hd]
        exact ⟨rfl, rfl⟩
    · intro q rest hfree
      obtain ⟨hfq, hs0⟩ := findUnusedPage_free s s0 f q rest hfree hfu
      subst hfq
      refine ⟨rfl, ?_, ?_, ?_, ?_, ?_, ?_⟩
      · rw [hs1, hs0]
        rfl
      · rw [hs1, hs0]
        rfl
      · rw [hs1, hs0]
        rfl
      · rw [hs1, hs0]
        rfl
      · intro g hg
        rw [hs1, hs0]
        simp only [setFrame, if_neg hg]
      · intro k hk hkv
        rw [htable, hi.2 k, if_neg hk, if_neg hkv, hs0]
  · intro s1 pid f hvalid hfresh hf
    obtain ⟨s0, table, hfu, hpid0, hins, hs1⟩ := NewPage_some s s1 f pid h hf
    have ht := findUnusedPage_taken s s0 f h hfu
    have hi := inv_install s s0 f h ht pid (Page.mk (zeroData s.page_size) pid 1 false) table
      (s0.disk.AllocatePage).1 rfl rfl hins
    have hnext : pid = s.disk.next_page_id := by rw [hpid0, ht.next_page_id]
    have htable : s1.page_table = table := by rw [hs1]; rfl
    have hdisk : s1.disk = (s0.disk.AllocatePage).1 := by rw [hs1]; rfl
    refine ⟨hnext, ?_, ?_⟩
    · intro hfree
      obtain ⟨hv, hnone, hdirty, hclean⟩ :=
        victim_reuse s s0 f h hm pid (by rw [hnext]; exact hvalid)
          (by rw [hnext]; exact hfresh) hfree hfu table hi.2
      refine ⟨hv, by rw [htable]; exact hnone, ?_, ?_⟩
      · intro hd
        obtain ⟨h1, h2⟩ := hdirty hd
        rw [hdisk]
        refine ⟨h1, ?_⟩
        show s0.disk.log ++ [DiskEvent.allocate s0.disk.next_page_id] = _
        rw [h2, List.append_assoc, ← hpid0]
        rfl
      · intro hd
        rw [hdisk, ← hclean hd]
        refine ⟨rfl, ?_⟩
        show s0.disk.log ++ [DiskEvent.allocate s0.disk.next_page_id] = _
        rw [← hpid0]
    · intro q rest hfree
      obtain ⟨hfq, hs0⟩ := findUnusedPage_free s s0 f q rest hfree hfu
      subst hfq
      refine ⟨rfl, ?_, ?_, ?_, ?_, ?_, ?_⟩
      · rw [hs1, hs0]
        rfl
      · rw [hs1, hs0]
        rfl
      · rw [hs1, hs0]
        rfl
      · rw [hs1]
        show s0.disk.log ++ [DiskEvent.allocate s0.disk.next_page_id] = _
        rw [← hpid0, hs0]
      · intro g hg
        rw [hs1, hs0]
        simp only [setFrame, if_neg hg]
      · intro k hk hkv
        rw [htable, hi.2 k, if_neg hk, if_neg hkv, hs0]

/-- Witness of C21: in a pool of one frame page 0 is made, written and
unpinned with the dirty flag; fetching page 7 reuses the frame, and the bytes
of page 0 are on the disk. -/
theorem dirty_victim_written_back_witness :
    ∃ s s1 : BufferPoolManager,
      (new 1 4 2 DiskManager.blank).NewPage = some (s, some (0, 0)) ∧
      ((s.writeData 0 [1, 2, 3, 4]).UnpinPage 0 true).1.FetchPage 7 = some (s1, some 0) ∧
      s1.disk.contents 0 = [1, 2, 3, 4] ∧ s1.page_table.Find 0 = none ∧
      s1.disk.log = [DiskEvent.allocate 0, DiskEvent.write 0 [1, 2, 3, 4],
        DiskEvent.read 7] := by
  have hn : (new 1 4 2 DiskManager.blank).NewPage = some (_, some (0, 0)) := rfl
  have hr : ReachableFresh ((BufferPoolManager.writeData _ 0 [1, 2, 3, 4]).UnpinPage 0 true).1 :=
    ReachableFresh.unpin 0 true (ReachableFresh.write 0 [1, 2, 3, 4]
      (ReachableFresh.newPage (ReachableFresh.init 1 4 2 DiskManager.blank) rfl hn)
      (by decide))
  have h := ((dirty_victim_written_back _ hr).1 _ 7 0 (by decide) rfl rfl).1 rfl
  exact ⟨_, _, hn, rfl, (h.2.2.1 rfl).1, h.2.1, (h.2.2.1 rfl).2⟩

end BufferPoolManager

/-! ## LRU replacer: the linked nodes form the list of the list model -/

theorem firstOr_append (l1 l2 : List (Nat × Nat)) (last : Option Nat) :
    firstOr (l1 ++ l2) last = firstOr l1 (firstOr l2 last) := by
  cases l1 <;> rfl

theorem lastOr_append (l1 l2 : List (Nat × Nat)) (prev : Option Nat) :
    lastOr (l1 ++ l2) prev = lastOr l2 (lastOr l1 prev) := by
  induction l1 generalizing prev with
  | nil => rfl
  | cons e t ih => exact ih (some e.1)

theorem lastOr_mem (l : List (Nat × Nat)) (prev : Option Nat) (hne : l ≠ []) :
    ∃ e ∈ l, lastOr l prev = some e.1 := by
  induction l generalizing prev with
  | nil => exact absurd rfl hne
  | cons e t ih =>
    cases t with
    | nil => exact ⟨e, List.mem_cons_self _ _, rfl⟩
    | cons e1 t1 =>
      obtain ⟨x, hx, hl⟩ := ih (some e.1) (List.cons_ne_nil _ _)
      exact ⟨x, List.mem_cons_of_mem _ hx, hl⟩

theorem Seg_append (nodes : Nat → Option LinkedNode) (l1 l2 : List (Nat × Nat))
    (prev last : Option Nat) :
    Seg nodes prev (l1 ++ l2) last ↔
      Seg nodes prev l1 (firstOr l2 last) ∧ Seg nodes (lastOr l1 prev) l2 last := by
  induction l1 generalizing prev with
  | nil => simp [Seg, lastOr]
  | cons e t ih =>
    show (nodes e.1 = some { value := e.2, pre := prev, next := firstOr (t ++ l2) last } ∧
        Seg nodes (some e.1) (t ++ l2) last) ↔
      (nodes e.1 = some { value := e.2, pre := prev, next := firstOr t (firstOr l2 last) } ∧
        Seg nodes (some e.1) t (firstOr l2 last)) ∧ Seg nodes (lastOr t (some e.1)) l2 last
    rw [ih (some e.1), firstOr_append, and_assoc]

theorem Seg_congr (nodes nodes1 : Nat → Option LinkedNode) (l : List (Nat × Nat))
    (prev last : Option Nat) (h : ∀ e ∈ l, nodes1 e.1 = nodes e.1)
    (hs : Seg nodes prev l last) : Seg nodes1 prev l last := by
  induction l generalizing prev with
  | nil => trivial
  | cons e t ih =>
    refine ⟨?_, ih (some e.1) (fun x hx => h x (List.mem_cons_of_mem _ hx)) hs.2⟩
    rw [h e (List.mem_cons_self _ _)]
    exact hs.1

theorem Seg_node (nodes : Nat → Option LinkedNode) (l : List (Nat × Nat))
    (prev last : Option Nat) (hs : Seg nodes prev l last) (e : Nat × Nat) (he : e ∈ l) :
    ∃ n, nodes e.1 = some n ∧ n.value = e.2 := by
  induction l generalizing prev with
  | nil => exact absurd he (List.not_mem_nil _)
  | cons x t ih =>
    rcases List.mem_cons.1 he with h1 | h1
    · rw [h1]
      exact ⟨_, hs.1, rfl⟩
    · exact ih (some x.1) hs.2 h1

namespace LinkedLRU

/-- The nodes of `r` with the node at `a` replaced. -/
theorem setPre_some (r : LinkedLRU) (a : Nat) (n : LinkedNode) (p : Option Nat)
    (h : r.nodes a = some n) :
    r.setPre (some a) p =
      some { r with nodes := fun b => if b = a then some { n with pre := p } else r.nodes b } := by
  simp only [setPre, h]

theorem setNext_some (r : LinkedLRU) (a : Nat) (n : LinkedNode) (p : Option Nat)
    (h : r.nodes a = some n) :
    r.setNext (some a) p =
      some { r with nodes := fun b => if b = a then some { n with next := p } else r.nodes b } := by
  simp only [setNext, h]

end LinkedLRU

/-- The `next` pointer of the last node of a segment is redirected. -/
theorem Seg_set_last (nodes : Nat → Option LinkedNode) (l0 : List (Nat × Nat)) (e : Nat × Nat)
    (prev x y : Option Nat) (hnd : ((l0 ++ [e]).map Prod.fst).Nodup) (n : LinkedNode)
    (hn : nodes e.1 = some n) (hs : Seg nodes prev (l0 ++ [e]) x) :
    Seg (fun b => if b = e.1 then some { n with next := y } else nodes b) prev (l0 ++ [e]) y := by
  rw [Seg_append] at hs ⊢
  obtain ⟨h1, h2, _⟩ := hs
  rw [hn] at h2
  have hn2 : n = { value := e.2, pre := lastOr l0 prev, next := firstOr [] x } :=
    Option.some.inj h2
  refine ⟨Seg_congr nodes _ l0 prev _ ?_ h1, ?_, trivial⟩
  · intro a ha
    have hne : a.1 ≠ e.1 := by
      intro he
      rw [List.map_append, List.nodup_append] at hnd
      exact hnd.2.2 (List.mem_map.2 ⟨a, ha, rfl⟩) (by simp [he])
    simp only [if_neg hne]
  · simp only [if_true, hn2]
    rfl

/-- The `pre` pointer of the first node of a segment is redirected. -/
theorem Seg_set_first (nodes : Nat → Option LinkedNode) (e : Nat × Nat) (t : List (Nat × Nat))
    (p q last : Option Nat) (hnd : ((e :: t).map Prod.fst).Nodup) (n : LinkedNode)
    (hn : nodes e.1 = some n) (hs : Seg nodes p (e :: t) last) :
    Seg (fun b => if b = e.1 then some { n with pre := q } else nodes b) q (e :: t) last := by
  obtain ⟨h1, h2⟩ := hs
  rw [hn] at h1
  have hn2 : n = { value := e.2, pre := p, next := firstOr t last } := Option.some.inj h1
  refine ⟨?_, Seg_congr nodes _ t (some e.1) last ?_ h2⟩
  · simp only [if_true, hn2]
  · intro a ha
    have hne : a.1 ≠ e.1 := by
      intro he
      rw [List.map_cons, List.nodup_cons] at hnd
      exact hnd.1 (by rw [← he]; exact List.mem_map.2 ⟨a, ha, rfl⟩)
    simp only [if_neg hne]

theorem lastOr_concat (l : List (Nat × Nat)) (b : Nat × Nat) (x : Option Nat) :
    lastOr (l ++ [b]) x = some b.1 := by
  rw [lastOr_append]
  rfl

theorem lastOr_indep (l : List (Nat × Nat)) (x y : Option Nat) (hne : l ≠ []) :
    lastOr l x = lastOr l y := by
  cases l with
  | nil => exact absurd rfl hne
  | cons e t => rfl

theorem nodup_middle {α : Type} (l1 l2 : List α) (a : α) (h : (l1 ++ a :: l2).Nodup) :
    a ∉ l1 ∧ a ∉ l2 ∧ (l1 ++ l2).Nodup ∧ (∀ x ∈ l1, x ∉ l2) := by
  have hp : (l1 ++ a :: l2).Perm (a :: (l1 ++ l2)) := List.perm_middle
  have h2 := hp.nodup_iff.1 h
  rw [List.nodup_cons, List.mem_append, not_or] at h2
  refine ⟨h2.1.1, h2.1.2, h2.2, ?_⟩
  intro x hx1 hx2
  have := (List.nodup_append.1 h2.2).2.2
  exact this hx1 hx2

namespace LinkedLRU

theorem unlink_linked (r : LinkedLRU) (l1 l2 : List (Nat × Nat)) (a v : Nat)
    (h : r.Linked (l1 ++ (a, v) :: l2)) :
    ∃ n r1, r.nodes a = some n ∧ r.unlink a n = some r1 ∧
      r1.head = firstOr (l1 ++ l2) none ∧ r1.tail = lastOr (l1 ++ l2) none ∧
      Seg r1.nodes none (l1 ++ l2) none ∧ (∃ n1, r1.nodes a = some n1) ∧
      r1.fresh = r.fresh ∧ r1.mp = r.mp ∧ r1.siz = r.siz := by
  have hseg := h.seg
  rw [Seg_append] at hseg
  obtain ⟨hs1, hna0, hs20⟩ := hseg
  have hna : r.nodes a = some (LinkedNode.mk v (lastOr l1 none) (firstOr l2 none)) := hna0
  have hs2 : Seg r.nodes (some a) l2 none := hs20
  have hhead : r.head = firstOr l1 (some a) := by
    rw [h.head_eq, firstOr_append]
    rfl
  have htail : r.tail = lastOr l2 (some a) := by
    rw [h.tail_eq, lastOr_append]
    rfl
  have hnd := h.addr_nodup
  rw [List.map_append, List.map_cons] at hnd
  obtain ⟨ha1, ha2, hnd12, hdis⟩ := nodup_middle _ _ _ hnd
  have hnd1 : (l1.map Prod.fst).Nodup := (List.nodup_append.1 hnd12).1
  have hnd2 : (l2.map Prod.fst).Nodup := (List.nodup_append.1 hnd12).2.1
  have hane1 : ∀ x ∈ l1, x.1 ≠ a := fun x hx he => ha1 (List.mem_map.2 ⟨x, hx, he⟩)
  have hane2 : ∀ x ∈ l2, x.1 ≠ a := fun x hx he => ha2 (List.mem_map.2 ⟨x, hx, he⟩)
  clear hna0 hs20 hnd ha1 ha2 h
  rcases List.eq_nil_or_concat l1 with hl1 | ⟨l0, b, hl1⟩
  · subst hl1
    have hh : r.head = some a := hhead
    cases l2 with
    | nil =>
      have ht : r.tail = some a := htail
      refine ⟨_, { r with head := none, tail := none }, hna, ?_, rfl, rfl, trivial, ⟨_, hna⟩,
        rfl, rfl, rfl⟩
      unfold unlink
      rw [if_pos ⟨hh.symm, ht.symm⟩]
    | cons c t2 =>
      obtain ⟨x, hx, hlx⟩ := lastOr_mem (c :: t2) (some a) (List.cons_ne_nil _ _)
      have ht : ¬ some a = r.tail := by
        rw [htail, hlx]
        intro he
        exact hane2 x hx (Option.some.inj he).symm
      have hnc := hs2.1
      apply Exists.intro
      apply Exists.intro
      refine ⟨hna, ?_, ?_⟩
      · unfold unlink
        rw [if_neg (fun hc => ht hc.2), if_pos hh.symm]
        show (match r.setPre (some c.1) none with
          | none => none
          | some r1 => some { r1 with head := some c.1 }) = _
        rw [setPre_some r c.1 _ none hnc]
      refine ⟨rfl, ?_, ?_, ?_, rfl, rfl, rfl⟩
      · show r.tail = lastOr (c :: t2) none
        rw [htail]
        rfl
      · exact Seg_set_first r.nodes c t2 (some a) none none hnd2 _ hnc hs2
      · show ∃ n1, (if a = c.1 then _ else r.nodes a) = some n1
        split
        · exact ⟨_, rfl⟩
        · exact ⟨_, hna⟩
  · rw [List.concat_eq_append] at hl1
    subst hl1
    have hne0 : l0 ++ [b] ≠ [] := by simp
    obtain ⟨x0, t0, hl0⟩ : ∃ x0 t0, l0 ++ [b] = x0 :: t0 := by
      cases hc : l0 ++ [b] with
      | nil => exact absurd hc hne0
      | cons x0 t0 => exact ⟨x0, t0, rfl⟩
    have hx0 : x0 ∈ l0 ++ [b] := by rw [hl0]; exact List.mem_cons_self _ _
    have hh : ¬ some a = r.head := by
      rw [hhead, hl0]
      intro he
      exact hane1 x0 hx0 (Option.some.inj he).symm
    have hbmem : b ∈ l0 ++ [b] := by simp
    have hpre : lastOr (l0 ++ [b]) none = some b.1 := lastOr_concat l0 b none
    rw [hpre] at hna
    obtain ⟨nb, hnb, _⟩ := Seg_node r.nodes _ _ _ hs1 b hbmem
    cases l2 with
    | nil =>
      have ht : r.tail = some a := htail
      apply Exists.intro
      apply Exists.intro
      refine ⟨hna, ?_, ?_⟩
      · unfold unlink
        rw [if_neg (fun hc => hh hc.1), if_neg hh, if_pos ht.symm]
        show (match r.setNext (some b.1) none with
          | none => none
          | some r1 => some { r1 with tail := some b.1 }) = _
        rw [setNext_some r b.1 _ none hnb]
      refine ⟨?_, ?_, ?_, ?_, rfl, rfl, rfl⟩
      · show r.head = firstOr (l0 ++ [b] ++ []) none
        rw [hhead, List.append_nil, hl0]
        rfl
      · show some b.1 = lastOr (l0 ++ [b] ++ []) none
        rw [List.append_nil, hpre]
      · rw [List.append_nil]
        exact Seg_set_last r.nodes l0 b none _ none hnd1 _ hnb hs1
      · show ∃ n1, (if a = b.1 then _ else r.nodes a) = some n1
        split
        · exact ⟨_, rfl⟩
        · exact ⟨_, hna⟩
    | cons c t2 =>
      obtain ⟨x, hx, hlx⟩ := lastOr_mem (c :: t2) (some a) (List.cons_ne_nil _ _)
      have ht : ¬ some a = r.tail := by
        rw [htail, hlx]
        intro he
        exact hane2 x hx (Option.some.inj he).symm
      have hnc := hs2.1
      have hcb : c.1 ≠ b.1 := by
        intro he
        exact hdis b.1 (List.mem_map.2 ⟨b, hbmem, rfl⟩)
          (List.mem_map.2 ⟨c, List.mem_cons_self _ _, he⟩)
      have hs1b := Seg_set_last r.nodes l0 b none _ (some c.1) hnd1 _ hnb hs1
      have hs2b : Seg (fun x => if x = b.1 then some { nb with next := some c.1 } else r.nodes x)
          (some a) (c :: t2) none := by
        apply Seg_congr r.nodes _ _ _ _ _ hs2
        intro y hy
        have hne : y.1 ≠ b.1 := fun he =>
          hdis b.1 (List.mem_map.2 ⟨b, hbmem, rfl⟩) (List.mem_map.2 ⟨y, hy, he⟩)
        simp only [if_neg hne]
      have hnc1 : (fun x => if x = b.1 then some { nb with next := some c.1 } else r.nodes x) c.1
          = some { value := c.2, pre := some a, next := firstOr t2 none } := by
        simp only [if_neg hcb]
        exact hnc
      have hs2c := Seg_set_first _ c t2 (some a) (some b.1) none hnd2 _ hnc1 hs2b
      apply Exists.intro
      apply Exists.intro
      refine ⟨hna, ?_, ?_⟩
      · unfold unlink
        rw [if_neg (fun hc => hh hc.1), if_neg hh, if_neg ht]
        show (match r.setNext (some b.1) (some c.1) with
          | none => none
          | some r1 => r1.setPre (some c.1) (some b.1)) = _
        rw [setNext_some r b.1 _ _ hnb]
        exact setPre_some _ c.1 _ (some b.1) hnc1
      refine ⟨?_, ?_, ?_, ?_, rfl, rfl, rfl⟩
      · show r.head = firstOr (l0 ++ [b] ++ c :: t2) none
        rw [hhead, hl0]
        rfl
      · show r.tail = lastOr (l0 ++ [b] ++ c :: t2) none
        rw [htail, lastOr_append]
        rfl
      · rw [Seg_append]
        refine ⟨?_, ?_⟩
        · apply Seg_congr _ _ _ _ _ _ hs1b
          intro y hy
          have hne : y.1 ≠ c.1 := fun he =>
            hdis y.1 (List.mem_map.2 ⟨y, hy, rfl⟩)
              (List.mem_map.2 ⟨c, List.mem_cons_self _ _, he.symm⟩)
          simp only [if_neg hne]
        · rw [hpre]
          exact hs2c
      · show ∃ n1, (if a = c.1 then _ else if a = b.1 then _ else r.nodes a) = some n1
        split
        · exact ⟨_, rfl⟩
        · split
          · exact ⟨_, rfl⟩
          · exact ⟨_, hna⟩

end LinkedLRU

namespace LinkedLRU

theorem mp_none_of_absent (r : LinkedLRU) (l : List (Nat × Nat)) (v : Nat) (h : r.Linked l)
    (hv : v ∉ l.map Prod.snd) : mapFind r.mp (v : Int) = none := by
  cases hf : mapFind r.mp (v : Int) with
  | none => rfl
  | some a =>
    exfalso
    obtain ⟨v1, hv1, hm⟩ := (h.mp_find v a).1 hf
    have : v = v1 := by exact_mod_cast hv1
    rw [this] at hv
    exact hv (List.mem_map.2 ⟨(a, v1), hm, rfl⟩)

theorem erase_absent (r : LinkedLRU) (l : List (Nat × Nat)) (v : Nat) (h : r.Linked l)
    (hv : v ∉ l.map Prod.snd) : r.erase v = some (r, false) := by
  unfold erase
  rw [mp_none_of_absent r l v h hv]

theorem erase_present (r : LinkedLRU) (l1 l2 : List (Nat × Nat)) (a v : Nat)
    (h : r.Linked (l1 ++ (a, v) :: l2)) :
    ∃ r1, r.erase v = some (r1, true) ∧ r1.Linked (l1 ++ l2) ∧ r1.fresh = r.fresh := by
  have hmem : (a, v) ∈ l1 ++ (a, v) :: l2 := by simp
  have hfind : mapFind r.mp (v : Int) = some a := (h.mp_find v a).2 ⟨v, rfl, hmem⟩
  obtain ⟨n, r1, hn, hu, hhd, htl, hseg, ⟨n1, hn1⟩, hfr, hmp, hsz⟩ := unlink_linked r l1 l2 a v h
  have hnda := h.addr_nodup
  rw [List.map_append, List.map_cons] at hnda
  obtain ⟨ha1, ha2, hnd12, _⟩ := nodup_middle _ _ _ hnda
  have hndv := h.val_nodup
  rw [List.map_append, List.map_cons] at hndv
  obtain ⟨hv1, hv2, hndv12, _⟩ := nodup_middle _ _ _ hndv
  have hsub : ∀ e ∈ l1 ++ l2, e ∈ l1 ++ (a, v) :: l2 := by
    intro e he
    rcases List.mem_append.1 he with h1 | h1
    · exact List.mem_append_left _ h1
    · exact List.mem_append_right _ (List.mem_cons_of_mem _ h1)
  have hane : ∀ e ∈ l1 ++ l2, e.1 ≠ a := by
    intro e he hea
    rcases List.mem_append.1 he with h1 | h1
    · exact ha1 (List.mem_map.2 ⟨e, h1, hea⟩)
    · exact ha2 (List.mem_map.2 ⟨e, h1, hea⟩)
  have hvne : ∀ e ∈ l1 ++ l2, e.2 ≠ v := by
    intro e he hev
    rcases List.mem_append.1 he with h1 | h1
    · exact hv1 (List.mem_map.2 ⟨e, h1, hev⟩)
    · exact hv2 (List.mem_map.2 ⟨e, h1, hev⟩)
  have he1 := setPre_some r1 a n1 none hn1
  have he2 := setNext_some
    { r1 with nodes := fun b => if b = a then some { n1 with pre := none } else r1.nodes b }
    a { n1 with pre := none } none (by simp only [if_true])
  have hE : r.erase v = r.erase v := rfl
  conv at hE =>
    rhs
    unfold erase
    rw [hfind]
    simp only [hn, hu, he1, he2]
  refine ⟨_, hE, ?_, ?_⟩
  · refine ⟨hhd, htl, ?_, ?_, ?_, ?_, ?_, ?_, ?_⟩
    · apply Seg_congr r1.nodes _ _ _ _ _ hseg
      intro e he
      have hne := hane e he
      simp only [if_neg hne]
    · rw [List.map_append]
      exact hnd12
    · rw [List.map_append]
      exact hndv12
    · intro e he
      show e.1 < r1.fresh
      rw [hfr]
      exact h.lt_fresh e (hsub e he)
    · show ((mapErase r1.mp (v : Int)).map Prod.fst).Pairwise (· < ·)
      rw [hmp]
      exact sorted_keys_of_sublist (mapErase_sublist r.mp v) h.mp_sorted
    · intro k a1
      show mapFind (mapErase r1.mp (v : Int)) k = some a1 ↔ _
      rw [hmp, mapFind_mapErase r.mp v k h.mp_sorted]
      constructor
      · intro hk
        split at hk
        · exact Option.noConfusion hk
        · rename_i hkv
          obtain ⟨w, hw, hm⟩ := (h.mp_find k a1).1 hk
          refine ⟨w, hw, ?_⟩
          rcases List.mem_append.1 hm with h1 | h1
          · exact List.mem_append_left _ h1
          · rcases List.mem_cons.1 h1 with h2 | h2
            · exfalso
              have : w = v := (Prod.mk.inj h2).2
              exact hkv (by rw [hw, this])
            · exact List.mem_append_right _ h2
      · rintro ⟨w, hw, hm⟩
        have hwv : w ≠ v := hvne (a1, w) hm
        have hkv : ¬ k = (v : Int) := by
          rw [hw]
          exact_mod_cast hwv
        rw [if_neg hkv]
        exact (h.mp_find k a1).2 ⟨w, hw, hsub _ hm⟩
    · show r1.siz - 1 = ((l1 ++ l2).length : Int)
      rw [hsz, h.siz_eq]
      simp only [List.length_append, List.length_cons]
      push_cast
      omega
  · exact hfr

end LinkedLRU

namespace LinkedLRU

theorem link_linked (r : LinkedLRU) (l : List (Nat × Nat)) (v : Nat) (h : r.Linked l)
    (hv : v ∉ l.map Prod.snd) :
    ∃ r1, r.link v = some r1 ∧ r1.Linked ((r.fresh, v) :: l) ∧ r1.fresh = r.fresh + 1 := by
  have hfresh : ∀ e ∈ l, e.1 ≠ r.fresh := fun e he => Nat.ne_of_lt (h.lt_fresh e he)
  have hnda : (((r.fresh, v) :: l).map Prod.fst).Nodup := by
    rw [List.map_cons, List.nodup_cons]
    refine ⟨?_, h.addr_nodup⟩
    intro hm
    obtain ⟨e, he, hee⟩ := List.mem_map.1 hm
    exact hfresh e he hee
  have hndv : (((r.fresh, v) :: l).map Prod.snd).Nodup := by
    rw [List.map_cons, List.nodup_cons]
    exact ⟨hv, h.val_nodup⟩
  have hlt : ∀ e ∈ (r.fresh, v) :: l, e.1 < r.fresh + 1 := by
    intro e he
    rcases List.mem_cons.1 he with h1 | h1
    · rw [h1]
      exact Nat.lt_succ_self _
    · exact Nat.lt_succ_of_lt (h.lt_fresh e h1)
  have hsorted : ((mapSet r.mp (v : Int) r.fresh).map Prod.fst).Pairwise (· < ·) :=
    mapSet_sorted r.mp v r.fresh h.mp_sorted
  have hfind : ∀ (k : Int) (a1 : Nat), mapFind (mapSet r.mp (v : Int) r.fresh) k = some a1 ↔
      ∃ w : Nat, k = (w : Int) ∧ (a1, w) ∈ (r.fresh, v) :: l := by
    intro k a1
    rw [mapFind_mapSet]
    constructor
    · intro hk
      split at hk
      · rename_i hkv
        refine ⟨v, hkv, ?_⟩
        rw [← Option.some.inj hk]
        exact List.mem_cons_self _ _
      · obtain ⟨w, hw, hm⟩ := (h.mp_find k a1).1 hk
        exact ⟨w, hw, List.mem_cons_of_mem _ hm⟩
    · rintro ⟨w, hw, hm⟩
      rcases List.mem_cons.1 hm with h1 | h1
      · have h2 := Prod.mk.inj h1
        rw [if_pos (by rw [hw, h2.2]), h2.1]
      · have hwv : w ≠ v := fun he => hv (List.mem_map.2 ⟨(a1, w), h1, he⟩)
        have hkv : ¬ k = (v : Int) := by
          rw [hw]
          exact_mod_cast hwv
        rw [if_neg hkv]
        exact (h.mp_find k a1).2 ⟨w, hw, h1⟩
  have hsiz : r.siz + 1 = (((r.fresh, v) :: l).length : Int) := by
    rw [h.siz_eq]
    simp only [List.length_cons]
    push_cast
    rfl
  cases l with
  | nil =>
    have hh : r.head = none := h.head_eq
    have ht : r.tail = none := h.tail_eq
    have hE : r.link v = r.link v := rfl
    conv at hE =>
      rhs
      unfold link
      simp only [hh, ht, ne_eq, not_true_eq_false, if_false, if_true]
    refine ⟨_, hE, ⟨rfl, rfl, ?_, hnda, hndv, hlt, hsorted, hfind, hsiz⟩, rfl⟩
    refine ⟨?_, trivial⟩
    show (if r.fresh = r.fresh then _ else r.nodes r.fresh) = _
    rw [if_pos rfl]
    rfl
  | cons e t =>
    have hh : r.head = some e.1 := h.head_eq
    obtain ⟨x, _, hx⟩ := lastOr_mem (e :: t) none (List.cons_ne_nil _ _)
    have ht : r.tail = some x.1 := by rw [h.tail_eq, hx]
    have hne : e.1 ≠ r.fresh := hfresh e (List.mem_cons_self _ _)
    have hs0 : Seg (fun b => if b = r.fresh then
        some (LinkedNode.mk v none (some e.1)) else r.nodes b) none (e :: t) none := by
      apply Seg_congr r.nodes _ _ _ _ _ h.seg
      intro y hy
      simp only [if_neg (hfresh y hy)]
    have hn0 : (fun b => if b = r.fresh then
        some (LinkedNode.mk v none (some e.1)) else r.nodes b) e.1 =
        some (LinkedNode.mk e.2 none (firstOr t none)) := by
      simp only [if_neg hne]
      exact h.seg.1
    have hs1 := Seg_set_first _ e t none (some r.fresh) none h.addr_nodup _ hn0 hs0
    have hE : r.link v = r.link v := rfl
    conv at hE =>
      rhs
      unfold link
      simp only [hh, ht, ne_eq, not_false_eq_true, if_true, reduceCtorEq, if_false, setPre,
        if_neg hne, h.seg.1]
    refine ⟨_, hE, ⟨rfl, ?_, ?_, hnda, hndv, hlt, hsorted, hfind, hsiz⟩, rfl⟩
    · show some x.1 = lastOr ((r.fresh, v) :: e :: t) none
      rw [← hx]
      rfl
    · refine ⟨?_, hs1⟩
      show (if r.fresh = e.1 then _ else if r.fresh = r.fresh then _ else r.nodes r.fresh) = _
      rw [if_neg (fun he => hne he.symm), if_pos rfl]
      rfl

theorem Victim_nil (r : LinkedLRU) (h : r.Linked []) : r.Victim = some (r, none) := by
  have hs : r.siz = 0 := h.siz_eq
  unfold Victim
  rw [if_pos hs]

theorem Victim_concat (r : LinkedLRU) (l0 : List (Nat × Nat)) (e : Nat × Nat)
    (h : r.Linked (l0 ++ [e])) :
    ∃ r1, r.Victim = some (r1, some e.2) ∧ r1.Linked l0 ∧ r1.fresh = r.fresh := by
  have hs : ¬ r.siz = 0 := by
    rw [h.siz_eq]
    simp only [List.length_append, List.length_singleton]
    push_cast
    omega
  have htail : r.tail = some e.1 := by
    rw [h.tail_eq]
    exact lastOr_concat l0 e none
  have hseg := h.seg
  rw [Seg_append] at hseg
  obtain ⟨hs1, hne0, _⟩ := hseg
  have hne : r.nodes e.1 = some (LinkedNode.mk e.2 (lastOr l0 none) none) := hne0
  have hnda := h.addr_nodup
  rw [List.map_append, List.map_cons, List.map_nil] at hnda
  obtain ⟨ha1, _, hnd0, _⟩ := nodup_middle _ _ _ hnda
  rw [List.append_nil] at hnd0
  have hndv := h.val_nodup
  rw [List.map_append, List.map_cons, List.map_nil] at hndv
  obtain ⟨hv1, _, hndv0, _⟩ := nodup_middle _ _ _ hndv
  rw [List.append_nil] at hndv0
  have hane : ∀ x ∈ l0, x.1 ≠ e.1 := fun x hx he => ha1 (List.mem_map.2 ⟨x, hx, he⟩)
  have hvne : ∀ x ∈ l0, x.2 ≠ e.2 := fun x hx he => hv1 (List.mem_map.2 ⟨x, hx, he⟩)
  have hlt : ∀ x ∈ l0, x.1 < r.fresh := fun x hx => h.lt_fresh x (List.mem_append_left _ hx)
  have hsorted : ((mapErase r.mp (e.2 : Int)).map Prod.fst).Pairwise (· < ·) :=
    sorted_keys_of_sublist (mapErase_sublist r.mp _) h.mp_sorted
  have hfind : ∀ (k : Int) (a1 : Nat), mapFind (mapErase r.mp (e.2 : Int)) k = some a1 ↔
      ∃ w : Nat, k = (w : Int) ∧ (a1, w) ∈ l0 := by
    intro k a1
    rw [mapFind_mapErase r.mp _ k h.mp_sorted]
    constructor
    · intro hk
      split at hk
      · exact Option.noConfusion hk
      · rename_i hkv
        obtain ⟨w, hw, hm⟩ := (h.mp_find k a1).1 hk
        refine ⟨w, hw, ?_⟩
        rcases List.mem_append.1 hm with h1 | h1
        · exact h1
        · exfalso
          rw [List.mem_singleton] at h1
          have : w = e.2 := by rw [← h1]
          exact hkv (by rw [hw, this])
    · rintro ⟨w, hw, hm⟩
      have hwv : w ≠ e.2 := hvne (a1, w) hm
      have hkv : ¬ k = (e.2 : Int) := by
        rw [hw]
        exact_mod_cast hwv
      rw [if_neg hkv]
      exact (h.mp_find k a1).2 ⟨w, hw, List.mem_append_left _ hm⟩
  have hsiz : r.siz - 1 = (l0.length : Int) := by
    rw [h.siz_eq]
    simp only [List.length_append, List.length_singleton]
    push_cast
    omega
  rcases List.eq_nil_or_concat l0 with hl0 | ⟨l00, b, hl0⟩
  · subst hl0
    have hhead : r.head = some e.1 := h.head_eq
    have hE : r.Victim = r.Victim := rfl
    conv at hE =>
      rhs
      unfold Victim
      simp only [hs, if_false, hhead, htail, if_true, node, hne]
    exact ⟨_, hE, ⟨rfl, rfl, trivial, hnd0, hndv0, hlt, hsorted, hfind, hsiz⟩, rfl⟩
  · rw [List.concat_eq_append] at hl0
    subst hl0
    obtain ⟨x0, t0, hx0⟩ : ∃ x0 t0, l00 ++ [b] = x0 :: t0 := by
      cases hc : l00 ++ [b] with
      | nil => simp at hc
      | cons x0 t0 => exact ⟨x0, t0, rfl⟩
    have hx0m : x0 ∈ l00 ++ [b] := by rw [hx0]; exact List.mem_cons_self _ _
    have hhead : r.head = some x0.1 := by
      rw [h.head_eq, hx0]
      rfl
    have hht : ¬ r.head = some e.1 := by
      rw [hhead]
      intro he
      exact hane x0 hx0m (Option.some.inj he)
    have hbm : b ∈ l00 ++ [b] := by simp
    have hpre : lastOr (l00 ++ [b]) none = some b.1 := lastOr_concat l00 b none
    rw [hpre] at hne
    obtain ⟨nb, hnb, _⟩ := Seg_node r.nodes _ _ _ hs1 b hbm
    have hs1b := Seg_set_last r.nodes l00 b none _ none hnd0 _ hnb hs1
    have hbe : e.1 ≠ b.1 := fun he => hane b hbm he.symm
    have hE : r.Victim = r.Victim := rfl
    conv at hE =>
      rhs
      unfold Victim
      simp only [hs, if_false, htail, hht, node, hne, setNext, hnb, setPre, if_neg hbe]
    refine ⟨_, hE, ⟨?_, ?_, ?_, hnd0, hndv0, hlt, hsorted, hfind, hsiz⟩, rfl⟩
    · show r.head = firstOr (l00 ++ [b]) none
      exact h.head_eq.trans (by rw [firstOr_append, hx0]; rfl)
    · show some b.1 = lastOr (l00 ++ [b]) none
      rw [hpre]
    · apply Seg_congr _ _ _ _ _ _ hs1b
      intro y hy
      have hye := hane y hy
      simp only [if_neg hye]

end LinkedLRU

theorem erase_values (l1 l2 : List (Nat × Nat)) (a v : Nat) (hv : v ∉ l1.map Prod.snd) :
    ((l1 ++ (a, v) :: l2).map Prod.snd).erase v = (l1 ++ l2).map Prod.snd := by
  rw [List.map_append, List.map_cons, List.erase_append_right _ hv, List.erase_cons_head,
    List.map_append]

theorem walk_seg (r : LinkedLRU) (l : List (Nat × Nat)) (prev : Option Nat)
    (hs : Seg r.nodes prev l none) :
    r.walk (l.length + 1) (firstOr l none) = l.map Prod.snd := by
  induction l generalizing prev with
  | nil => rfl
  | cons e t ih =>
    show r.walk (t.length + 1 + 1) (some e.1) = e.2 :: t.map Prod.snd
    unfold LinkedLRU.walk
    rw [hs.1]
    show e.2 :: r.walk (t.length + 1) (firstOr t none) = _
    rw [ih (some e.1) hs.2]

namespace LinkedLRU

theorem split_value (l : List (Nat × Nat)) (v : Nat) (hv : v ∈ l.map Prod.snd) :
    ∃ l1 a l2, l = l1 ++ (a, v) :: l2 := by
  obtain ⟨e, he, hev⟩ := List.mem_map.1 hv
  obtain ⟨l1, l2, hl⟩ := List.append_of_mem he
  refine ⟨l1, e.1, l2, ?_⟩
  rw [hl, ← hev]

theorem erase_sim (r : LinkedLRU) (l : List (Nat × Nat)) (v : Nat) (h : r.Linked l) :
    ∃ r1 l1 b, r.erase v = some (r1, b) ∧ r1.Linked l1 ∧
      l1.map Prod.snd = (l.map Prod.snd).erase v ∧ r1.fresh = r.fresh ∧
      v ∉ l1.map Prod.snd ∧ (b = true ↔ v ∈ l.map Prod.snd) := by
  by_cases hv : v ∈ l.map Prod.snd
  · obtain ⟨l1, a, l2, hl⟩ := split_value l v hv
    subst hl
    have hndv := h.val_nodup
    rw [List.map_append, List.map_cons] at hndv
    obtain ⟨hv1, hv2, _, _⟩ := nodup_middle _ _ _ hndv
    obtain ⟨r1, he, hl1, hf⟩ := erase_present r l1 l2 a v h
    refine ⟨r1, l1 ++ l2, true, he, hl1, (erase_values l1 l2 a v hv1).symm, hf, ?_,
      ⟨fun _ => hv, fun _ => rfl⟩⟩
    rw [List.map_append, List.mem_append, not_or]
    exact ⟨hv1, hv2⟩
  · refine ⟨r, l, false, erase_absent r l v h hv, h, (List.erase_of_not_mem hv).symm, rfl, hv,
      ⟨fun hb => Bool.noConfusion hb, fun hm => absurd hm hv⟩⟩

theorem Insert_sim (r : LinkedLRU) (l : List (Nat × Nat)) (v : Nat) (h : r.Linked l) :
    ∃ r1 l1, r.Insert v = some r1 ∧ r1.Linked l1 ∧
      l1.map Prod.snd = v :: (l.map Prod.snd).erase v := by
  obtain ⟨r1, l1, b, he, hl1, hvals, _, hv, _⟩ := erase_sim r l v h
  obtain ⟨r2, hk, hl2, _⟩ := link_linked r1 l1 v hl1 hv
  refine ⟨r2, (r1.fresh, v) :: l1, ?_, hl2, ?_⟩
  · unfold Insert
    rw [he]
    exact hk
  · rw [List.map_cons, hvals]

theorem Erase_sim (r : LinkedLRU) (l : List (Nat × Nat)) (v : Nat) (h : r.Linked l) :
    ∃ r1 l1 b, r.Erase v = some (r1, b) ∧ r1.Linked l1 ∧
      l1.map Prod.snd = (l.map Prod.snd).erase v ∧ (b = true ↔ v ∈ l.map Prod.snd) := by
  obtain ⟨r1, l1, b, he, hl1, hvals, _, _, hb⟩ := erase_sim r l v h
  refine ⟨r1, l1, b, ?_, hl1, hvals, hb⟩
  unfold Erase
  cases hf : mapFind r.mp (v : Int) with
  | none =>
    unfold erase at he
    rw [hf] at he
    exact he
  | some a => exact he

theorem Victim_sim (r : LinkedLRU) (l : List (Nat × Nat)) (h : r.Linked l) :
    ∃ r1 l1 res, r.Victim = some (r1, res) ∧ r1.Linked l1 ∧
      l1.map Prod.snd = (l.map Prod.snd).dropLast ∧ res = (l.map Prod.snd).getLast? := by
  rcases List.eq_nil_or_concat l with hl | ⟨l0, e, hl⟩
  · subst hl
    exact ⟨r, [], none, Victim_nil r h, h, rfl, rfl⟩
  · rw [List.concat_eq_append] at hl
    subst hl
    obtain ⟨r1, hv, hl1, _⟩ := Victim_concat r l0 e h
    refine ⟨r1, l0, some e.2, hv, hl1, ?_, ?_⟩
    · rw [List.map_append, List.map_cons, List.map_nil, List.dropLast_concat]
    · rw [List.map_append, List.map_cons, List.map_nil, List.getLast?_concat]

end LinkedLRU

namespace LRUReplacer

theorem Victim_list (m : LRUReplacer) (h : m.Inv) : m.Victim.1.list = m.list.dropLast := by
  by_cases hl : m.list = []
  · have hv := (Victim_none_iff m h).2 hl
    rw [Victim_none_state m hv, hl]
    rfl
  · have hs : m.siz ≠ 0 := by
      rw [h.siz_eq]
      have := List.length_pos.2 hl
      omega
    rw [Victim_eq m hs hl]

theorem call_list (m : LRUReplacer) (h : m.Inv) (op : LRUCall) :
    (m.call op).Inv ∧
    (m.call op).list = match op with
      | .insert v => v :: m.list.erase v
      | .victim => m.list.dropLast
      | .erase v => m.list.erase v := by
  cases op with
  | insert v => exact ⟨inv_Insert m h v, Insert_list m h v⟩
  | victim => exact ⟨inv_Victim m h, Victim_list m h⟩
  | erase v =>
    refine ⟨inv_Erase m h v, ?_⟩
    show (m.Erase v).1.list = m.list.erase v
    rw [Erase_eq_erase, erase_list m h v]

end LRUReplacer

namespace LinkedLRU

theorem call_sim (r : LinkedLRU) (l : List (Nat × Nat)) (m : LRUReplacer) (op : LRUCall)
    (h : r.Linked l) (hm : m.Inv) (hl : m.list = l.map Prod.snd) :
    ∃ r1 l1, r.call op = some r1 ∧ r1.Linked l1 ∧ (m.call op).Inv ∧
      (m.call op).list = l1.map Prod.snd := by
  obtain ⟨hinv, hlist⟩ := LRUReplacer.call_list m hm op
  cases op with
  | insert v =>
    obtain ⟨r1, l1, he, hl1, hv⟩ := Insert_sim r l v h
    exact ⟨r1, l1, he, hl1, hinv, by rw [hlist, hv, hl]⟩
  | victim =>
    obtain ⟨r1, l1, res, he, hl1, hv, _⟩ := Victim_sim r l h
    refine ⟨r1, l1, ?_, hl1, hinv, by rw [hlist, hv, hl]⟩
    show (r.Victim).map Prod.fst = some r1
    rw [he]
    rfl
  | erase v =>
    obtain ⟨r1, l1, b, he, hl1, hv, _⟩ := Erase_sim r l v h
    refine ⟨r1, l1, ?_, hl1, hinv, by rw [hlist, hv, hl]⟩
    show (r.Erase v).map Prod.fst = some r1
    rw [he]
    rfl

theorem calls_sim (ops : List LRUCall) :
    ∀ (r : LinkedLRU) (l : List (Nat × Nat)) (m : LRUReplacer), r.Linked l → m.Inv →
      m.list = l.map Prod.snd →
      ∃ r1 l1, r.calls ops = some r1 ∧ r1.Linked l1 ∧ (m.calls ops).Inv ∧
        (m.calls ops).list = l1.map Prod.snd := by
  induction ops with
  | nil =>
    intro r l m h hm hl
    exact ⟨r, l, rfl, h, hm, hl⟩
  | cons op rest ih =>
    intro r l m h hm hl
    obtain ⟨r1, l1, he, hl1, hinv, hlist⟩ := call_sim r l m op h hm hl
    obtain ⟨r2, l2, he2, hl2, hinv2, hlist2⟩ := ih r1 l1 (m.call op) hl1 hinv hlist
    refine ⟨r2, l2, ?_, hl2, hinv2, hlist2⟩
    unfold calls
    rw [he]
    exact he2

theorem linked_empty : LinkedLRU.empty.Linked [] := by
  refine ⟨rfl, rfl, trivial, List.nodup_nil, List.nodup_nil, ?_, List.Pairwise.nil, ?_, rfl⟩
  · intro e he
    exact absurd he (List.not_mem_nil _)
  · intro k a
    constructor
    · intro hk
      exact Option.noConfusion hk
    · rintro ⟨_, _, hm⟩
      exact absurd hm (List.not_mem_nil _)

theorem Linked.keys (r : LinkedLRU) (l : List (Nat × Nat)) (h : r.Linked l) (k : Int) :
    k ∈ r.mp.map Prod.fst ↔ ∃ v : Nat, k = (v : Int) ∧ v ∈ l.map Prod.snd := by
  constructor
  · intro hk
    cases hf : mapFind r.mp k with
    | none => exact absurd hk (mapFind_none_keys r.mp k hf)
    | some a =>
      obtain ⟨v, hv, hm⟩ := (h.mp_find k a).1 hf
      exact ⟨v, hv, List.mem_map.2 ⟨(a, v), hm, rfl⟩⟩
  · rintro ⟨v, hv, hm⟩
    obtain ⟨e, he, hev⟩ := List.mem_map.1 hm
    have hf : mapFind r.mp k = some e.1 := (h.mp_find k e.1).2 ⟨v, hv, by rw [← hev]; exact he⟩
    by_contra hn
    rw [mapFind_none_of_not_mem r.mp k hn] at hf
    exact Option.noConfusion hf

theorem Linked.mp_length (r : LinkedLRU) (l : List (Nat × Nat)) (h : r.Linked l) :
    r.mp.length = l.length := by
  have hnd1 : (r.mp.map Prod.fst).Nodup := h.mp_sorted.imp (fun hab => ne_of_lt hab)
  have hnd2 : ((l.map Prod.snd).map (fun v : Nat => (v : Int))).Nodup :=
    h.val_nodup.map (fun a b hab => by exact_mod_cast hab)
  have hperm : (r.mp.map Prod.fst).Perm ((l.map Prod.snd).map (fun v : Nat => (v : Int))) := by
    rw [List.perm_ext_iff_of_nodup hnd1 hnd2]
    intro k
    rw [Linked.keys r l h k, List.mem_map]
    constructor
    · rintro ⟨v, hv, hm⟩
      exact ⟨v, hm, hv.symm⟩
    · rintro ⟨v, hm, hv⟩
      exact ⟨v, hv.symm, hm⟩
  have := hperm.length_eq
  simpa using this

theorem Linked.null_iff (r : LinkedLRU) (l : List (Nat × Nat)) (h : r.Linked l) :
    (r.head = none ↔ l = []) ∧ (r.tail = none ↔ l = []) ∧ (r.siz = 0 ↔ l = []) := by
  refine ⟨?_, ?_, ?_⟩
  · rw [h.head_eq]
    cases l with
    | nil => exact ⟨fun _ => rfl, fun _ => rfl⟩
    | cons e t =>
      exact ⟨fun hc => Option.noConfusion hc, fun hc => List.noConfusion hc⟩
  · rw [h.tail_eq]
    cases l with
    | nil => exact ⟨fun _ => rfl, fun _ => rfl⟩
    | cons e t =>
      obtain ⟨x, _, hx⟩ := lastOr_mem (e :: t) none (List.cons_ne_nil _ _)
      rw [hx]
      exact ⟨fun hc => Option.noConfusion hc, fun hc => List.noConfusion hc⟩
  · rw [h.siz_eq]
    constructor
    · intro h0
      exact List.length_eq_zero.1 (by exact_mod_cast h0)
    · intro h0
      rw [h0]
      rfl

end LinkedLRU

namespace LinkedLRU

/-- C27: every sequence of `Insert`, `Victim` and `Erase` calls on the replacer
of the constructor runs to its end without a dereference of a null pointer,
and in the replacer `r` it leaves there are nodes `l` (address and value) such
that: `head` points to the first and `tail` to the last of them (both are null
when there is none), the first has a null `pre` and the last a null `next`
pointer and the others point to their neighbours, so that the walk from `head`
along `next` yields the values of `l` and ends; no value and no node occurs
twice in `l`; `siz` is the number of entries of `mp` and the length of `l`;
the keys of `mp` are the values of `l`, each mapped to its node; `head` and
`tail` are null exactly when `siz` is 0.  The values of `l` and `siz` are those
of the list model of the replacer after the same calls. -/
theorem linked_structure (ops : List LRUCall) :
    ∃ (r : LinkedLRU) (l : List (Nat × Nat)),
      LinkedLRU.empty.calls ops = some r ∧
      r.head = firstOr l none ∧ r.tail = lastOr l none ∧ Seg r.nodes none l none ∧
      r.walk (l.length + 1) r.head = l.map Prod.snd ∧
      (l.map Prod.snd).Nodup ∧ (l.map Prod.fst).Nodup ∧
      r.siz = r.mp.length ∧ r.siz = l.length ∧
      (∀ k : Int, k ∈ r.mp.map Prod.fst ↔ ∃ v : Nat, k = (v : Int) ∧ v ∈ l.map Prod.snd) ∧
      (∀ (k : Int) (a : Nat),
        mapFind r.mp k = some a ↔ ∃ v : Nat, k = (v : Int) ∧ (a, v) ∈ l) ∧
      ((r.head = none ∧ r.tail = none) ↔ r.siz = 0) ∧ (r.head = none ↔ r.tail = none) ∧
      l.map Prod.snd = (LRUReplacer.empty.calls ops).list ∧
      r.siz = (LRUReplacer.empty.calls ops).siz := by
  obtain ⟨r, l, hrun, hl, hinv, hlist⟩ := calls_sim ops LinkedLRU.empty [] LRUReplacer.empty
    linked_empty LRUReplacer.inv_empty rfl
  obtain ⟨hh, ht, hs⟩ := Linked.null_iff r l hl
  refine ⟨r, l, hrun, hl.head_eq, hl.tail_eq, hl.seg, ?_, hl.val_nodup, hl.addr_nodup, ?_,
    hl.siz_eq, Linked.keys r l hl, hl.mp_find, ?_, ?_, hlist.symm, ?_⟩
  · rw [hl.head_eq]
    exact walk_seg r l none hl.seg
  · rw [hl.siz_eq, Linked.mp_length r l hl]
  · rw [hh, ht, hs, and_self]
  · rw [hh, ht]
  · rw [hl.siz_eq, hinv.siz_eq, hlist, List.length_map]

end LinkedLRU

/-! ## Page layouts: the split of a page -/

namespace BPlusTreeLeafPage

/-- C31: on a leaf that holds `max_size + 1` entries (`max_size` is at least
one, as `Init` computes it from `PAGE_SIZE`) and a recipient that is empty (or
not: its entries are overwritten), `MoveHalfTo` succeeds; the entries of the leaf followed by those of the
recipient are the original entries in order, both pages are non-empty, the
recipient holds as many entries as the leaf or one more, the recipient's
`next_page_id` is the old one of the leaf, the leaf's `next_page_id` is the
page id of the recipient, and no other header field changes. -/
theorem MoveHalfTo_split (p recipient : BPlusTreeLeafPage) (hmax : 1 ≤ p.max_size)
    (hsize : p.GetSize = p.max_size + 1) :
    ∃ p1 r1, p.MoveHalfTo recipient = some (p1, r1) ∧
      p1.array ++ r1.array = p.array ∧
      1 ≤ p1.GetSize ∧ 1 ≤ r1.GetSize ∧
      p1.GetSize ≤ r1.GetSize ∧ r1.GetSize ≤ p1.GetSize + 1 ∧
      r1.next_page_id = p.next_page_id ∧ p1.next_page_id = recipient.page_id ∧
      p1.page_id = p.page_id ∧ p1.parent_page_id = p.parent_page_id ∧
      p1.max_size = p.max_size ∧ r1.page_id = recipient.page_id ∧
      r1.parent_page_id = recipient.parent_page_id ∧ r1.max_size = recipient.max_size := by
  unfold GetSize at hsize
  have hlt : ¬ p.array.length < p.max_size + 1 := by omega
  have htake : p.array.take (p.max_size + 1) = p.array := by
    rw [← hsize, List.take_length]
  have hres : p.MoveHalfTo recipient =
      some ({ p with next_page_id := recipient.page_id,
                     array := p.array.take ((p.max_size + 1) / 2) },
            { recipient with next_page_id := p.next_page_id,
                             array := (p.array.take (p.max_size + 1)).drop
                               ((p.max_size + 1) / 2) }) := by
    unfold MoveHalfTo
    simp only [if_neg hlt]
  refine ⟨_, _, hres, ?_, ?_, ?_, ?_, ?_, rfl, rfl, rfl, rfl, rfl, rfl, rfl, rfl⟩
  · show p.array.take _ ++ (p.array.take _).drop _ = p.array
    rw [htake, List.take_append_drop]
  · show 1 ≤ (p.array.take _).length
    rw [List.length_take]
    omega
  · show 1 ≤ ((p.array.take _).drop _).length
    rw [htake, List.length_drop]
    omega
  · show (p.array.take _).length ≤ ((p.array.take _).drop _).length
    rw [htake, List.length_drop, List.length_take]
    omega
  · show ((p.array.take _).drop _).length ≤ (p.array.take _).length + 1
    rw [htake, List.length_drop, List.length_take]
    omega

/-- The split of the leaf `[1, 2, 3, 4, 5]` of maximal size 4. -/
theorem MoveHalfTo_split_witness :
    ∃ p1 r1, BPlusTreeLeafPage.MoveHalfTo
        { max_size := 4, parent_page_id := 9, page_id := 1, next_page_id := 7,
          array := [(1, 10), (2, 20), (3, 30), (4, 40), (5, 50)] }
        (BPlusTreeLeafPage.Init 2 INVALID_PAGE_ID 4) = some (p1, r1) ∧
      p1.array = [(1, 10), (2, 20)] ∧ r1.array = [(3, 30), (4, 40), (5, 50)] ∧
      r1.next_page_id = 7 ∧ p1.next_page_id = 2 := by
  obtain ⟨p1, r1, h, -⟩ := MoveHalfTo_split
    { max_size := 4, parent_page_id := 9, page_id := 1, next_page_id := 7,
      array := [(1, 10), (2, 20), (3, 30), (4, 40), (5, 50)] }
    (BPlusTreeLeafPage.Init 2 INVALID_PAGE_ID 4) (by decide) (by decide)
  exact ⟨_, _, rfl, rfl, rfl, rfl, rfl⟩

end BPlusTreeLeafPage

namespace BPlusTree

/-- The children of the entries `l` have the parent `par` after the loop that
reparents them. -/
theorem reparentAll_parent (l : List (Int × Int)) (par : Int) (t t1 : BPlusTree)
    (hch : ∀ e ∈ l, t.pages e.2 ≠ none) (h : t.reparentAll l par = some t1) :
    ∀ e ∈ l, ∃ c, t1.pages e.2 = some c ∧ c.GetParentPageId = par := by
  obtain ⟨t2, h2, -, -, -, -, hq⟩ := reparentAll_spec l par t hch
  rw [h] at h2
  cases h2
  intro e he
  obtain ⟨pg, hpg⟩ := Option.ne_none_iff_exists'.1 (hch e he)
  refine ⟨pg.SetParentPageId par, ?_, ?_⟩
  · rw [hq e.2, if_pos (List.mem_map_of_mem _ he), hpg]
    rfl
  · cases pg <;> rfl

/-- C32, amended: on an internal page that holds `max_size + 1` entries, with
a recipient (empty or not: its entries are overwritten) and every moved child
in the store, `MoveHalfTo` succeeds;
the page keeps exactly the entries at the indices below `(max_size + 1) / 2`
rounded down (the source computes `oldSize / 2` on integers), the recipient
holds, in order, the entries from that index on, and every moved child has the
page id of the recipient as its parent. -/
theorem internalMoveHalfTo_split_point (t : BPlusTree) (thisId recipId : Int)
    (p r : BPlusTreeInternalPage) (hp : t.getInternal thisId = some p)
    (hr : t.getInternal recipId = some r) (hne : thisId ≠ recipId)
    (hsize : p.GetSize = p.max_size + 1)
    (hch : ∀ e ∈ p.array.drop ((p.max_size + 1) / 2), t.pages e.2 ≠ none) :
    ∃ t1 p1 r1, t.internalMoveHalfTo thisId recipId = some t1 ∧
      t1.getInternal thisId = some p1 ∧ t1.getInternal recipId = some r1 ∧
      p1.array = p.array.take ((p.max_size + 1) / 2) ∧
      r1.array = p.array.drop ((p.max_size + 1) / 2) ∧
      p1.GetSize = (p.max_size + 1) / 2 ∧
      (∀ e ∈ r1.array, ∃ c, t1.pages e.2 = some c ∧ c.GetParentPageId = r.page_id) := by
  unfold BPlusTreeInternalPage.GetSize at hsize
  have hlt : ¬ p.array.length < p.max_size + 1 := by omega
  have htake : (p.array.take (p.max_size + 1)).drop ((p.max_size + 1) / 2) =
      p.array.drop ((p.max_size + 1) / 2) := by
    rw [← hsize, List.take_length]
  obtain ⟨t2, h2, -, -, -, -, hq⟩ :=
    reparentAll_spec (p.array.drop ((p.max_size + 1) / 2)) r.page_id t hch
  have hpar := reparentAll_parent _ r.page_id t t2 hch h2
  have hpg : t.pages thisId = some (.internal p) := by
    unfold getInternal at hp
    split at hp
    · rename_i q hq1
      cases hp
      exact hq1
    · cases hp
  have hrg : t.pages recipId = some (.internal r) := by
    unfold getInternal at hr
    split at hr
    · rename_i q hq1
      cases hr
      exact hq1
    · cases hr
  obtain ⟨p2, hp2, hp2a⟩ : ∃ p2, t2.getInternal thisId = some p2 ∧ p2.array = p.array := by
    unfold getInternal
    rw [hq thisId, hpg]
    split_ifs
    · exact ⟨_, rfl, rfl⟩
    · exact ⟨_, rfl, rfl⟩
  obtain ⟨r2, hr2, -⟩ : ∃ r2, t2.getInternal recipId = some r2 ∧ r2.array = r.array := by
    unfold getInternal
    rw [hq recipId, hrg]
    split_ifs
    · exact ⟨_, rfl, rfl⟩
    · exact ⟨_, rfl, rfl⟩
  have hres : t.internalMoveHalfTo thisId recipId =
      some ((t2.setPage recipId (.internal { r2 with array := p.array.drop ((p.max_size + 1) / 2) })).setPage
        thisId (.internal { p2 with array := p.array.take ((p.max_size + 1) / 2) })) := by
    unfold internalMoveHalfTo
    simp only [hp, hr, if_neg hlt, htake, h2, hp2, hr2]
  have hA : ((t2.setPage recipId (.internal { r2 with array := p.array.drop ((p.max_size + 1) / 2) })).setPage
      thisId (.internal { p2 with array := p.array.take ((p.max_size + 1) / 2) })).getInternal thisId =
      some { p2 with array := p.array.take ((p.max_size + 1) / 2) } := by
    unfold getInternal
    rw [pages_setPage_self]
  have hB : ((t2.setPage recipId (.internal { r2 with array := p.array.drop ((p.max_size + 1) / 2) })).setPage
      thisId (.internal { p2 with array := p.array.take ((p.max_size + 1) / 2) })).getInternal recipId =
      some { r2 with array := p.array.drop ((p.max_size + 1) / 2) } := by
    unfold getInternal
    rw [pages_setPage_ne _ _ _ _ (Ne.symm hne), pages_setPage_self]
  refine ⟨_, _, _, hres, hA, hB, rfl, rfl, ?_, ?_⟩
  · show (p.array.take _).length = _
    rw [List.length_take]
    omega
  · intro e he
    obtain ⟨c, hc, hcp⟩ := hpar e he
    by_cases h1 : e.2 = thisId
    · refine ⟨_, by rw [h1, pages_setPage_self], ?_⟩
      have : t2.pages thisId = some (.internal p2) := by
        unfold getInternal at hp2
        split at hp2
        · rename_i q hq1
          cases hp2
          exact hq1
        · cases hp2
      rw [h1, this] at hc
      cases hc
      exact hcp
    · by_cases h3 : e.2 = recipId
      · refine ⟨_, by rw [pages_setPage_ne _ _ _ _ h1, h3, pages_setPage_self], ?_⟩
        have : t2.pages recipId = some (.internal r2) := by
          unfold getInternal at hr2
          split at hr2
          · rename_i q hq1
            cases hr2
            exact hq1
          · cases hr2
        rw [h3, this] at hc
        cases hc
        exact hcp
      · exact ⟨c, by rw [pages_setPage_ne _ _ _ _ h1, pages_setPage_ne _ _ _ _ h3]; exact hc, hcp⟩

/-- The split of the internal page 1 of `overfullInternal`. -/
theorem internalMoveHalfTo_split_point_witness :
    ∃ t1 p1 r1, overfullInternal.internalMoveHalfTo 1 2 = some t1 ∧
      t1.getInternal 1 = some p1 ∧ t1.getInternal 2 = some r1 ∧
      p1.array = [(0, 11), (10, 12)] ∧ r1.array = [(20, 13), (30, 14), (40, 15)] ∧
      (∀ e ∈ r1.array, ∃ c, t1.pages e.2 = some c ∧ c.GetParentPageId = 2) := by
  obtain ⟨t1, p1, r1, h1, h2, h3, h4, h5, -, h7⟩ :=
    internalMoveHalfTo_split_point overfullInternal 1 2
      { max_size := 4, parent_page_id := INVALID_PAGE_ID, page_id := 1,
        array := [(0, 11), (10, 12), (20, 13), (30, 14), (40, 15)] }
      (BPlusTreeInternalPage.Init 2 INVALID_PAGE_ID 4) rfl rfl (by decide) rfl (by decide)
  exact ⟨t1, p1, r1, h1, h2, h3, h4, h5, h7⟩

/-- C32 as stated fails when `max_size` is even: the internal page 1 of
`overfullInternal` has maximal size 4 and holds five entries; `MoveHalfTo`
leaves it the two entries below index `5 / 2 = 2` and moves the entry at index
2, whereas the entries below `⌈5 / 2⌉ = 3` are three. -/
theorem internalMoveHalfTo_keeps_floor_half :
    ∃ t1 p1 r1, overfullInternal.internalMoveHalfTo 1 2 = some t1 ∧
      t1.getInternal 1 = some p1 ∧ t1.getInternal 2 = some r1 ∧
      p1.array = [(0, 11), (10, 12)] ∧
      p1.array ≠ [(0, 11), (10, 12), (20, 13), (30, 14), (40, 15)].take ((4 + 1 + 1) / 2) ∧
      r1.array = [(20, 13), (30, 14), (40, 15)] ∧
      r1.array ≠ [(0, 11), (10, 12), (20, 13), (30, 14), (40, 15)].drop ((4 + 1 + 1) / 2) := by
  refine ⟨_, _, _, rfl, rfl, rfl, ?_, ?_, ?_, ?_⟩ <;> decide

end BPlusTree

/-! ## Redistribution and iteration: behaviour at concrete inputs -/

namespace BPlusTree

set_option maxRecDepth 100000 in
/-- C33: with leaf and internal maximal size 4, the keys 1 to 6 are stored in
the leaves `[1, 2]` (page 1) and `[3, 4, 5, 6]` (page 2) under the root page 3
with separator 3. `MoveFirstToEndOf` of the right leaf to the left one makes
the old first entry `(3, 30)` the last entry of the recipient, but the
separator the parent holds at the index of the right leaf is the moved key 3,
not the new leftmost key 4 of the right leaf; key 3 is stored in the left leaf
and `GetValue(3)` reports it absent. -/
theorem leafMoveFirstToEndOf_separator_stale :
    ∃ t t1 : BPlusTree,
      (BPlusTree.empty 4 4 1).insertAll 10
        [(1, 10), (2, 20), (3, 30), (4, 40), (5, 50), (6, 60)] = some t ∧
      (t.getLeaf 2).map (fun p => p.array) = some [(3, 30), (4, 40), (5, 50), (6, 60)] ∧
      t.leafMoveFirstToEndOf 2 1 = some t1 ∧
      (t1.getLeaf 1).map (fun p => p.array) = some [(1, 10), (2, 20), (3, 30)] ∧
      (t1.getLeaf 2).map (fun p => p.array) = some [(4, 40), (5, 50), (6, 60)] ∧
      (t1.getInternal 3).map (fun p => p.ValueIndex 2) = some 1 ∧
      (t1.getInternal 3).bind (fun p => p.KeyAt (p.ValueIndex 2)) = some 3 ∧
      (t1.getLeaf 2).bind (fun p => p.KeyAt 0) = some 4 ∧
      t.GetValue 3 10 = some (some 30) ∧ t1.GetValue 3 10 = some none := by
  refine ⟨_, _, rfl, ?_, rfl, ?_, ?_, ?_, ?_, ?_, ?_, ?_⟩ <;> decide

set_option maxRecDepth 100000 in
/-- C40: with leaf maximal size 2 and internal maximal size 3, the keys 10, 20
and 30 are stored in the leaves `[10]` (page 1) and `[20, 30]` (page 2).
`Begin(15)` descends to page 1 and returns the iterator with index
`KeyIndex(15) = 1`, which is the size of that leaf: the iterator is not at the
end (a next leaf exists), its index is not below the size of its leaf, and it
refers to no entry of the leaf, while the entry with the smallest key not
below 15 is `(20, 200)` in page 2; `operator++` moves it to index 2 of the
same leaf. -/
theorem BeginAt_index_past_leaf :
    ∃ (t : BPlusTree) (it : IndexIterator),
      (BPlusTree.empty 2 3 1).insertAll 10 [(10, 100), (20, 200), (30, 300)] = some t ∧
      (t.getLeaf 1).map (fun p => (p.array, p.next_page_id)) = some ([(10, 100)], 2) ∧
      (t.getLeaf 2).map (fun p => (p.array, p.next_page_id)) =
        some ([(20, 200), (30, 300)], INVALID_PAGE_ID) ∧
      t.BeginAt 15 10 = some it ∧ it = { idx := 1, the_leaf := some 1 } ∧
      IndexIterator.isEnd t it = some false ∧
      (t.getLeaf 1).map (fun p => p.GetSize) = some it.idx ∧
      IndexIterator.deref t it = none ∧
      IndexIterator.next t it = some { idx := 2, the_leaf := some 1 } := by
  refine ⟨_, _, rfl, ?_, ?_, rfl, ?_, ?_, ?_, ?_, ?_⟩ <;> decide

end BPlusTree

/-! ## Extendible hash table: the split loop of `Insert` comes to an end -/

namespace ExtendibleHash

variable {V : Type}

/-- Every round of the loop but the last one makes one bucket. -/
theorem insertLoop_count (k : Int) (v : V) :
    ∀ (fuel : Nat) (eh eh1 : ExtendibleHash V), insertLoop fuel eh k v = some eh1 →
      eh1.bucketCount + 1 ≤ eh.bucketCount + fuel := by
  intro fuel
  induction fuel with
  | zero =>
    intro eh eh1 h
    simp [insertLoop] at h
  | succ f ih =>
    intro eh eh1 h
    unfold insertLoop at h
    cases hbi : eh.bucketTable.get? (eh.getBucketId k) with
    | none =>
      rw [hbi] at h
      cases h
    | some bi =>
      rw [hbi] at h
      simp only at h
      cases hb : eh.buckets.get? bi with
      | none =>
        rw [hb] at h
        cases h
      | some tmp =>
        rw [hb] at h
        simp only at h
        by_cases hc : (mapFind tmp.kvmap k).isSome ∨ tmp.kvmap.length < eh.bucketVolume
        · rw [if_pos hc] at h
          cases h
          show eh.bucketCount + 1 ≤ eh.bucketCount + (f + 1)
          omega
        · rw [if_neg hc] at h
          have := ih _ _ h
          have hs : (eh.split bi tmp).bucketCount = eh.bucketCount + 1 := rfl
          omega

/-- With buckets of volume zero the loop splits for ever when the key is not
stored: no amount of fuel lets it come to an end. -/
theorem insertLoop_volume_zero (k : Int) (v : V) :
    ∀ (fuel : Nat) (eh : ExtendibleHash V), eh.Inv → eh.bucketVolume = 0 → eh.Find k = none →
      insertLoop fuel eh k v = none := by
  intro fuel
  induction fuel with
  | zero =>
    intro eh _ _ _
    rfl
  | succ f ih =>
    intro eh h hvol hfind
    obtain ⟨bi, hbi, hbilt⟩ := slot_some eh h (HashKey k)
    obtain ⟨tmp, hb⟩ : ∃ tmp, eh.buckets[bi]? = some tmp :=
      ⟨eh.buckets[bi], List.getElem?_eq_getElem hbilt⟩
    have hnone : mapFind tmp.kvmap k = none := by
      rw [Find_eq, hbi] at hfind
      simp only [Option.some_bind, hb] at hfind
      exact hfind
    have hcond : ¬ ((mapFind tmp.kvmap k).isSome ∨ tmp.kvmap.length < eh.bucketVolume) := by
      rw [hnone, hvol]
      simp
    unfold insertLoop
    simp only [List.get?_eq_getElem?, getBucketId, hbi, hb]
    rw [if_neg hcond]
    apply ih _ (split_inv eh h bi tmp hb) hvol
    rw [split_Find eh h bi tmp hb]
    exact hfind

end ExtendibleHash

/-! ## Extendible hash table: the order of the mutexes in `Insert` -/

namespace ExtendibleHash

variable {V : Type}

/-- The loop with its lock guards changes the table as the loop without. -/
theorem insertLoopLocks_table (key : Int) (value : V) :
    ∀ (fuel : Nat) (eh : ExtendibleHash V),
      insertLoop fuel eh key value =
        (eh.bucketTable.get? (eh.getBucketId key)).bind
          (fun bi => (insertLoopLocks fuel eh bi key value).map Prod.fst) := by
  intro fuel
  induction fuel with
  | zero =>
    intro eh
    cases eh.bucketTable.get? (eh.getBucketId key) <;> rfl
  | succ f ih =>
    intro eh
    unfold insertLoop
    cases hbi : eh.bucketTable.get? (eh.getBucketId key) with
    | none => rfl
    | some bi =>
      simp only [Option.some_bind]
      unfold insertLoopLocks
      cases hb : eh.buckets.get? bi with
      | none => rfl
      | some tmp =>
        simp only
        by_cases hc : (mapFind tmp.kvmap key).isSome ∨ tmp.kvmap.length < eh.bucketVolume
        · rw [if_pos hc, if_pos hc]
          rfl
        · rw [if_neg hc, if_neg hc, ih]
          cases (eh.split bi tmp).bucketTable.get? ((eh.split bi tmp).getBucketId key) with
          | none => rfl
          | some bi1 =>
            simp only [Option.some_bind, Option.map_map]
            rfl

/-- The events of the loop, started without a mutex: no latch of a bucket is
taken under another mutex, no mutex is held at the end, and `myLatch` is taken
under the latch of a bucket exactly when the loop has split a bucket. -/
theorem insertLoopLocks_order (key : Int) (value : V) :
    ∀ (fuel : Nat) (eh : ExtendibleHash V) (bi : Nat) (r : ExtendibleHash V × List LockEvent),
      insertLoopLocks fuel eh bi key value = some r →
        HeldLocks.nothing.bucketUnderLock r.2 = false ∧
        HeldLocks.nothing.afterAll r.2 = HeldLocks.nothing ∧
        eh.bucketCount ≤ r.1.bucketCount ∧
        (HeldLocks.nothing.directoryUnderBucket r.2 = true ↔ eh.bucketCount < r.1.bucketCount) := by
  intro fuel
  induction fuel with
  | zero =>
    intro eh bi r h
    simp [insertLoopLocks] at h
  | succ f ih =>
    intro eh bi r h
    unfold insertLoopLocks at h
    cases hb : eh.buckets.get? bi with
    | none =>
      rw [hb] at h
      cases h
    | some tmp =>
      rw [hb] at h
      simp only at h
      by_cases hc : (mapFind tmp.kvmap key).isSome ∨ tmp.kvmap.length < eh.bucketVolume
      · rw [if_pos hc] at h
        cases h
        simp [HeldLocks.bucketUnderLock, HeldLocks.afterAll, HeldLocks.after,
          HeldLocks.nothing, HeldLocks.directoryUnderBucket]
      · rw [if_neg hc] at h
        cases hbi1 : (eh.split bi tmp).bucketTable.get? ((eh.split bi tmp).getBucketId key) with
        | none =>
          rw [hbi1] at h
          cases h
        | some bi1 =>
          rw [hbi1] at h
          simp only at h
          cases hr : insertLoopLocks f (eh.split bi tmp) bi1 key value with
          | none =>
            rw [hr] at h
            cases h
          | some r1 =>
            rw [hr] at h
            cases h
            obtain ⟨h1, h2, h3, -⟩ := ih _ _ _ hr
            have hs : (eh.split bi tmp).bucketCount = eh.bucketCount + 1 := rfl
            have e1 : ({ directory := false, buckets := [] } : HeldLocks) = HeldLocks.nothing := rfl
            refine ⟨?_, ?_, by show eh.bucketCount ≤ r1.1.bucketCount; omega, ?_⟩
            · simp [HeldLocks.bucketUnderLock, HeldLocks.after, HeldLocks.nothing]
              rw [e1]
              exact h1
            · simp [HeldLocks.afterAll, HeldLocks.after, HeldLocks.nothing]
              rw [e1]
              exact h2
            · simp [HeldLocks.directoryUnderBucket, HeldLocks.after, HeldLocks.nothing]
              show eh.bucketCount < r1.1.bucketCount
              omega

/-- C37, amended: `Insert(key, value)` with its lock guards changes the table
as `Insert` does and returns whenever it does; in the events of a call that
returns, the thread takes the latch of a bucket only while it holds no mutex
at all, holds no mutex when the call returns, and takes the directory-wide
`myLatch` while it holds the latch of a bucket exactly when the call has split
a bucket (the number of buckets has grown): the guard of the bucket lives to the
end of the round of the loop, so the bucket is still locked when the split and
`getBucketId` lock the directory. -/
theorem InsertLocks_order (eh : ExtendibleHash V) (key : Int) (value : V) :
    (eh.InsertLocks key value).map Prod.fst = eh.Insert key value ∧
    ∀ r, eh.InsertLocks key value = some r →
      HeldLocks.nothing.bucketUnderLock r.2 = false ∧
      HeldLocks.nothing.afterAll r.2 = HeldLocks.nothing ∧
      (HeldLocks.nothing.directoryUnderBucket r.2 = true ↔
        eh.GetNumBuckets < r.1.GetNumBuckets) := by
  constructor
  · unfold Insert InsertLocks
    rw [insertLoopLocks_table]
    cases eh.bucketTable.get? (eh.getBucketId key) with
    | none => rfl
    | some bi =>
      simp only [Option.some_bind, Option.map_map]
      rfl
  · intro r h
    unfold InsertLocks at h
    cases hbi : eh.bucketTable.get? (eh.getBucketId key) with
    | none =>
      rw [hbi] at h
      cases h
    | some bi =>
      rw [hbi] at h
      simp only at h
      cases hr : insertLoopLocks 66 eh bi key value with
      | none =>
        rw [hr] at h
        cases h
      | some r1 =>
        rw [hr] at h
        cases h
        obtain ⟨h1, h2, -, h4⟩ := insertLoopLocks_order key value 66 eh bi r1 hr
        have e1 : ({ directory := false, buckets := [] } : HeldLocks) = HeldLocks.nothing := rfl
        refine ⟨?_, ?_, ?_⟩
        · simp [HeldLocks.bucketUnderLock, HeldLocks.after, HeldLocks.nothing]
          rw [e1]
          exact h1
        · simp [HeldLocks.afterAll, HeldLocks.after, HeldLocks.nothing]
          rw [e1]
          exact h2
        · simp [HeldLocks.directoryUnderBucket, HeldLocks.after, HeldLocks.nothing]
          rw [e1]
          exact h4

/-- Witness of C37: the table of bucket volume 1 that holds key 0 and the call
`Insert(1, 11)`, which splits the only bucket. -/
theorem InsertLocks_order_witness :
    ∃ (eh : ExtendibleHash Nat) (r : ExtendibleHash Nat × List LockEvent),
      (ExtendibleHash.new 1).Insert 0 10 = some eh ∧ eh.InsertLocks 1 11 = some r ∧
      (eh.InsertLocks 1 11).map Prod.fst = eh.Insert 1 11 ∧
      HeldLocks.nothing.bucketUnderLock r.2 = false ∧
      HeldLocks.nothing.afterAll r.2 = HeldLocks.nothing ∧
      (HeldLocks.nothing.directoryUnderBucket r.2 = true ↔
        eh.GetNumBuckets < r.1.GetNumBuckets) := by
  have hr : (ExtendibleHash.mk 0 1 1 [0] [Bucket.mk 0 [(0, (10 : Nat))]]).InsertLocks 1 11 =
      some _ := rfl
  exact ⟨_, _, rfl, hr, (InsertLocks_order _ 1 11).1, (InsertLocks_order _ 1 11).2 _ hr⟩

/-- C37 as stated fails: on the table of bucket volume 1 that holds key 0,
`Insert(1, 11)` finds the bucket full and splits it; the thread locks the
bucket 0, then takes `myLatch` for the split and again in `getBucketId`, and
releases the latch of bucket 0 only after that. -/
theorem InsertLocks_directory_under_bucket :
    ∃ eh : ExtendibleHash Nat, (ExtendibleHash.new 1).Insert 0 10 = some eh ∧
      (eh.InsertLocks 1 11).map Prod.snd =
        some [LockEvent.lockDirectory, .unlockDirectory, .lockBucket 0, .lockDirectory,
          .unlockDirectory, .lockDirectory, .unlockDirectory, .unlockBucket 0,
          .lockBucket 1, .unlockBucket 1] ∧
      (eh.InsertLocks 1 11).map (fun r => HeldLocks.nothing.directoryUnderBucket r.2) =
        some true := by
  refine ⟨_, rfl, ?_, ?_⟩ <;> decide

end ExtendibleHash

/-! ## The root latch -/

namespace LatchedTree

theorem TryUnlock_cnt (s : LatchedTree) (e : Bool) :
    (s.TryUnlockRootPageId e).rootLockedCnt =
      if s.rootLockedCnt > 0 then s.rootLockedCnt - 1 else s.rootLockedCnt := by
  unfold TryUnlockRootPageId
  split <;> rfl

theorem TryUnlock_pinned (s : LatchedTree) (e : Bool) :
    (s.TryUnlockRootPageId e).pinned = s.pinned := by
  unfold TryUnlockRootPageId
  split <;> rfl

theorem freeLoop_cnt (e : Bool) :
    ∀ (l : List Int) (s : LatchedTree), (freeLoop e s l).rootLockedCnt = s.rootLockedCnt := by
  intro l
  induction l with
  | nil => intro s; rfl
  | cons pid rest ih =>
    intro s
    unfold freeLoop
    simp only
    split
    · rw [ih]; rfl
    · rw [ih]; rfl

theorem freeLoop_pinned (e : Bool) :
    ∀ (l : List Int) (s : LatchedTree), (freeLoop e s l).pinned = s.pinned.freeLoop l := by
  intro l
  induction l with
  | nil => intro s; rfl
  | cons pid rest ih =>
    intro s
    unfold freeLoop PinnedTree.freeLoop
    simp only
    split
    · rename_i h
      rw [ih]
      have h1 : pid ∈ (s.pinned.unpin pid).deleted_page_set := h
      simp only [UnpinPage, if_pos h1]
    · rename_i h
      rw [ih]
      have h1 : ¬ pid ∈ (s.pinned.unpin pid).deleted_page_set := h
      simp only [UnpinPage, if_neg h1]

/-- `FreePagesInTransaction` leaves the thread-local count as
`TryUnlockRootPageId` leaves it. -/
theorem Free_cnt (s : LatchedTree) (e tx : Bool) (cur : Int) :
    (s.FreePagesInTransaction e tx cur).rootLockedCnt =
      (s.TryUnlockRootPageId e).rootLockedCnt := by
  unfold FreePagesInTransaction
  cases tx
  · rfl
  · simp only [if_true]
    exact freeLoop_cnt e _ _

/-- With a transaction, `FreePagesInTransaction` does to the pins and the sets
of the transaction what it does without the root latch. -/
theorem Free_pinned (s : LatchedTree) (e : Bool) (cur : Int) :
    (s.FreePagesInTransaction e true cur).pinned = s.pinned.FreePagesInTransaction := by
  unfold FreePagesInTransaction PinnedTree.FreePagesInTransaction
  simp only [if_true]
  rw [freeLoop_pinned, TryUnlock_pinned]

theorem Free_cnt_zero (s : LatchedTree) (e tx : Bool) (cur : Int) (h0 : 0 ≤ s.rootLockedCnt)
    (h1 : s.rootLockedCnt ≤ 1) : (s.FreePagesInTransaction e tx cur).rootLockedCnt = 0 := by
  rw [Free_cnt, TryUnlock_cnt]
  split <;> omega

theorem Crab_cnt (s s1 : LatchedTree) (pid : Int) (op : OpType) (prev : Int) (tx : Bool)
    (h : s.CrabingProtocalFetchPage pid op prev tx = some s1) (h0 : 0 ≤ s.rootLockedCnt) :
    0 ≤ s1.rootLockedCnt ∧ s1.rootLockedCnt ≤ s.rootLockedCnt := by
  unfold CrabingProtocalFetchPage at h
  simp only at h
  split at h
  · cases h
  · cases h
    have hA : ∀ x : LatchedTree,
        (if tx = true then { x with pinned := x.pinned.AddIntoPageSet pid } else x).rootLockedCnt =
          x.rootLockedCnt := by
      intro x
      split <;> rfl
    rw [hA]
    split
    · rw [Free_cnt, TryUnlock_cnt]
      show 0 ≤ (if s.rootLockedCnt > 0 then s.rootLockedCnt - 1 else s.rootLockedCnt) ∧
        (if s.rootLockedCnt > 0 then s.rootLockedCnt - 1 else s.rootLockedCnt) ≤ s.rootLockedCnt
      split <;> omega
    · show 0 ≤ s.rootLockedCnt ∧ s.rootLockedCnt ≤ s.rootLockedCnt
      omega

theorem findLeafLoop_cnt (key : Int) (leftMost : Bool) (op : OpType) (tx : Bool) :
    ∀ (fuel : Nat) (s : LatchedTree) (cur : Int) (r : LatchedTree × Int),
      findLeafLoop key leftMost op tx fuel s cur = some r → 0 ≤ s.rootLockedCnt →
        0 ≤ r.1.rootLockedCnt ∧ r.1.rootLockedCnt ≤ s.rootLockedCnt := by
  intro fuel
  induction fuel with
  | zero =>
    intro s cur r h
    simp [findLeafLoop] at h
  | succ f ih =>
    intro s cur r h h0
    unfold findLeafLoop at h
    split at h
    · cases h
    · cases h
      exact ⟨h0, le_refl _⟩
    · split at h
      · cases h
      · split at h
        · cases h
        · rename_i s1 hs1
          have hc := Crab_cnt _ _ _ _ _ _ hs1 h0
          have := ih _ _ _ h hc.1
          omega

/-- After `FindLeafPage` the calling thread holds the root latch at most
once, and not at all when the tree is empty. -/
theorem FindLeafPage_cnt (s s1 : LatchedTree) (key : Int) (leftMost : Bool) (op : OpType)
    (tx : Bool) (fuel : Nat) (leaf : Option Int)
    (h : s.FindLeafPage key leftMost op tx fuel = some (s1, leaf)) (h0 : s.rootLockedCnt = 0) :
    0 ≤ s1.rootLockedCnt ∧ s1.rootLockedCnt ≤ 1 ∧ (leaf = none → s1.rootLockedCnt = 0) := by
  unfold FindLeafPage at h
  simp only at h
  have hl : (s.LockRootPageId (op != OpType.READ)).rootLockedCnt = 1 := by
    show s.rootLockedCnt + 1 = 1
    omega
  split at h
  · cases h
    rw [TryUnlock_cnt, hl]
    simp
  · split at h
    · cases h
    · rename_i s2 hs2
      have hc := Crab_cnt _ _ _ _ _ _ hs2 (by rw [hl]; omega)
      cases hr : findLeafLoop key leftMost op tx fuel s2
          (s.LockRootPageId (op != OpType.READ)).pinned.tree.root_page_id with
      | none =>
        rw [hr] at h
        cases h
      | some r =>
        rw [hr] at h
        cases h
        have := findLeafLoop_cnt key leftMost op tx fuel s2 _ r hr hc.1
        refine ⟨this.1, by omega, fun hn => by cases hn⟩

/-- `GetValue` returns with the thread-local count at 0. -/
theorem GetValue_cnt (s s1 : LatchedTree) (key : Int) (tx : Bool) (fuel : Nat) (v : Option Int)
    (h : s.GetValue key tx fuel = some (s1, v)) (h0 : s.rootLockedCnt = 0) :
    s1.rootLockedCnt = 0 := by
  unfold GetValue at h
  split at h
  · cases h
  · rename_i s2 hf
    cases h
    exact (FindLeafPage_cnt _ _ _ _ _ _ _ _ hf h0).2.2 rfl
  · rename_i s2 leafId hf
    have hc := FindLeafPage_cnt _ _ _ _ _ _ _ _ hf h0
    split at h
    · cases h
    · cases h
      exact Free_cnt_zero _ _ _ _ hc.1 hc.2.1

/-- `InsertIntoLeaf` returns with the thread-local count at 0. -/
theorem InsertIntoLeaf_cnt (s s1 : LatchedTree) (key value : Int) (fuel : Nat) (b : Bool)
    (h : s.InsertIntoLeaf key value fuel = some (s1, b)) (h0 : s.rootLockedCnt = 0) :
    s1.rootLockedCnt = 0 := by
  unfold InsertIntoLeaf at h
  split at h
  · cases h
  · rename_i s2 hf
    cases h
    exact (FindLeafPage_cnt _ _ _ _ _ _ _ _ hf h0).2.2 rfl
  · rename_i s2 leafId hf
    have hc := FindLeafPage_cnt _ _ _ _ _ _ _ _ hf h0
    split at h
    · cases h
    · split at h
      · cases h
        exact Free_cnt_zero _ _ _ _ hc.1 hc.2.1
      · simp only at h
        split at h
        · split at h
          · cases h
          · split at h
            · cases h
            · split at h
              · cases h
              · simp only [Option.map_eq_some'] at h
                obtain ⟨p4, -, h⟩ := h
                cases h
                exact Free_cnt_zero _ _ _ _ hc.1 hc.2.1
        · cases h
          exact Free_cnt_zero _ _ _ _ hc.1 hc.2.1

/-- `Insert` returns with the thread-local count at 0. -/
theorem Insert_cnt (s s1 : LatchedTree) (key value : Int) (fuel : Nat) (b : Bool)
    (h : s.Insert key value fuel = some (s1, b)) (h0 : s.rootLockedCnt = 0) :
    s1.rootLockedCnt = 0 := by
  unfold Insert at h
  simp only at h
  have hl : (s.LockRootPageId true).rootLockedCnt = 1 := by
    show s.rootLockedCnt + 1 = 1
    omega
  split at h
  · cases h
    rw [TryUnlock_cnt]
    show (if (s.LockRootPageId true).rootLockedCnt > 0 then
      (s.LockRootPageId true).rootLockedCnt - 1 else (s.LockRootPageId true).rootLockedCnt) = 0
    rw [hl]
    simp
  · apply InsertIntoLeaf_cnt _ _ _ _ _ _ h
    rw [TryUnlock_cnt, hl]
    simp

/-- `Remove` returns with the thread-local count at 0. -/
theorem Remove_cnt (s s1 : LatchedTree) (key : Int) (fuel : Nat)
    (h : s.Remove key fuel = some s1) (h0 : s.rootLockedCnt = 0) : s1.rootLockedCnt = 0 := by
  unfold Remove at h
  split at h
  · cases h
    exact h0
  · cases hb : s.removeBody key fuel with
    | none =>
      rw [hb] at h
      cases h
    | some s2 =>
      rw [hb] at h
      cases h
      unfold removeBody at hb
      split at hb
      · rename_i s3 leafId hf
        have hc := FindLeafPage_cnt _ _ _ _ _ _ _ _ hf h0
        split at hb
        · cases hb
        · simp only at hb
          split at hb
          · cases hr : PinnedTree.CoalesceOrRedistribute fuel
                (s3.pinned.write leafId (.leaf (BPlusTreeLeafPage.RemoveAndDeleteRecord _ key)))
                leafId with
            | none =>
              rw [hr] at hb
              cases hb
            | some r =>
              rw [hr] at hb
              cases hb
              exact Free_cnt_zero _ _ _ _ hc.1 hc.2.1
          · cases hb
            exact Free_cnt_zero _ _ _ _ hc.1 hc.2.1
      · cases hb

/-- `Begin(key)` returns with the thread-local count at 0. -/
theorem BeginAt_cnt (s s1 : LatchedTree) (key : Int) (fuel : Nat) (it : IndexIterator)
    (h : s.BeginAt key fuel = some (s1, it)) (h0 : s.rootLockedCnt = 0) :
    s1.rootLockedCnt = 0 := by
  unfold BeginAt at h
  split at h
  · cases h
  · rename_i s2 hf
    cases h
    have hc := FindLeafPage_cnt _ _ _ _ _ _ _ _ hf h0
    rw [TryUnlock_cnt]
    split <;> omega
  · rename_i s2 leafId hf
    have hc := FindLeafPage_cnt _ _ _ _ _ _ _ _ hf h0
    split at h
    · cases h
    · cases h
      rw [TryUnlock_cnt]
      split <;> omega

/-- `Begin()` on a tree whose root page is a leaf returns with the root latch
held: the count is 1, one acquisition and no release. -/
theorem Begin_root_leaf (t : BPlusTree) (leaf : BPlusTreeLeafPage) (fuel : Nat)
    (hne : t.IsEmpty = false) (hroot : t.pages t.root_page_id = some (.leaf leaf)) :
    ((LatchedTree.idle t).Begin (fuel + 1)).map
      (fun r => (r.1.rootLockedCnt, r.1.root_locks, r.1.root_unlocks, r.2)) =
      some (1, 1, 0, { idx := 0, the_leaf := some t.root_page_id }) := by
  unfold Begin FindLeafPage
  have h1 : ((LatchedTree.idle t).TryUnlockRootPageId false) = LatchedTree.idle t := rfl
  rw [h1]
  have h2 : (((LatchedTree.idle t).LockRootPageId (OpType.READ != OpType.READ)).pinned.tree.IsEmpty)
      = false := hne
  simp only [h2]
  unfold CrabingProtocalFetchPage
  have h3 : ((LatchedTree.idle t).LockRootPageId (OpType.READ != OpType.READ)).pinned.tree = t := rfl
  simp only [h3, PinnedTree.fetch, hroot]
  unfold findLeafLoop
  simp [hroot, LockRootPageId, idle]

/-! ### The operations with the root latch and the operations without -/

theorem Crab_pinned (s : LatchedTree) (pid : Int) (op : OpType) (prev : Int) :
    (s.CrabingProtocalFetchPage pid op prev true).map (fun r => r.pinned) =
      s.pinned.CrabingProtocalFetchPage pid op prev := by
  unfold CrabingProtocalFetchPage PinnedTree.CrabingProtocalFetchPage
  simp only
  cases hp : (s.pinned.fetch pid).tree.pages pid with
  | none => rfl
  | some treePage =>
    simp only [Option.map_some', if_true]
    split
    · rw [Free_pinned]
    · rfl

theorem findLeafLoop_pinned (key : Int) (leftMost : Bool) (op : OpType) :
    ∀ (fuel : Nat) (s : LatchedTree) (cur : Int),
      (findLeafLoop key leftMost op true fuel s cur).map (fun r => (r.1.pinned, r.2)) =
        PinnedTree.findLeafLoop key leftMost op fuel s.pinned cur := by
  intro fuel
  induction fuel with
  | zero => intro s cur; rfl
  | succ f ih =>
    intro s cur
    unfold findLeafLoop PinnedTree.findLeafLoop
    cases hp : s.pinned.tree.pages cur with
    | none => rfl
    | some pg =>
      cases pg with
      | leaf l => rfl
      | internal ip =>
        simp only
        cases hn : (if leftMost = true then ip.ValueAt 0 else ip.Lookup key) with
        | none => rfl
        | some next =>
          simp only
          have hc := Crab_pinned s next op cur
          cases hs : s.CrabingProtocalFetchPage next op cur true with
          | none =>
            rw [hs] at hc
            simp only [Option.map_none'] at hc
            rw [← hc]
            rfl
          | some s1 =>
            rw [hs] at hc
            simp only [Option.map_some'] at hc
            rw [← hc]
            exact ih s1 next

theorem FindLeafPage_pinned (s : LatchedTree) (key : Int) (leftMost : Bool) (op : OpType)
    (fuel : Nat) :
    (s.FindLeafPage key leftMost op true fuel).map (fun r => (r.1.pinned, r.2)) =
      s.pinned.FindLeafPage key leftMost op fuel := by
  unfold FindLeafPage PinnedTree.FindLeafPage
  simp only
  have h1 : (s.LockRootPageId (op != OpType.READ)).pinned = s.pinned := rfl
  rw [h1]
  split
  · simp only [Option.map_some', TryUnlock_pinned]
    rfl
  · have hc := Crab_pinned (s.LockRootPageId (op != OpType.READ)) s.pinned.tree.root_page_id op (-1)
    rw [h1] at hc
    cases hs : (s.LockRootPageId (op != OpType.READ)).CrabingProtocalFetchPage
        s.pinned.tree.root_page_id op (-1) true with
    | none =>
      rw [hs] at hc
      simp only [Option.map_none'] at hc
      rw [← hc]
      rfl
    | some s1 =>
      rw [hs] at hc
      simp only [Option.map_some'] at hc
      rw [← hc]
      simp only [Option.map_map]
      rw [← findLeafLoop_pinned]
      simp only [Option.map_map]
      rfl

/-- `GetValue` with the root latch reads and returns as `GetValue` without. -/
theorem GetValue_pinned (s : LatchedTree) (key : Int) (fuel : Nat) :
    (s.GetValue key true fuel).map (fun r => (r.1.pinned, r.2)) = s.pinned.GetValue key fuel := by
  unfold GetValue PinnedTree.GetValue
  rw [← FindLeafPage_pinned]
  cases hf : s.FindLeafPage key false OpType.READ true fuel with
  | none => rfl
  | some r =>
    obtain ⟨s1, leaf⟩ := r
    cases leaf with
    | none => rfl
    | some leafId =>
      simp only [Option.map_some']
      cases s1.pinned.tree.getLeaf leafId with
      | none => rfl
      | some lf =>
        simp only [Option.map_some', Free_pinned]

/-- `Insert` with the root latch changes the index as `Insert` without. -/
theorem Insert_pinned (s : LatchedTree) (key value : Int) (fuel : Nat) :
    (s.Insert key value fuel).map (fun r => (r.1.pinned, r.2)) = s.pinned.Insert key value fuel := by
  unfold Insert PinnedTree.Insert
  simp only
  have h1 : (s.LockRootPageId true).pinned = s.pinned := rfl
  rw [h1]
  split
  · simp only [Option.map_some', TryUnlock_pinned]
  · unfold InsertIntoLeaf PinnedTree.InsertIntoLeaf
    have h2 : ((s.LockRootPageId true).TryUnlockRootPageId true).pinned = s.pinned := by
      rw [TryUnlock_pinned, h1]
    rw [← h2, ← FindLeafPage_pinned]
    cases hf : ((s.LockRootPageId true).TryUnlockRootPageId true).FindLeafPage key false
        OpType.INSERT true fuel with
    | none => rfl
    | some r =>
      obtain ⟨s1, leaf⟩ := r
      cases leaf with
      | none => rfl
      | some leafId =>
        simp only [Option.map_some']
        cases s1.pinned.tree.getLeaf leafId with
        | none => rfl
        | some lf =>
          simp only
          cases lf.Lookup key with
          | some v => simp only [Option.map_some', Free_pinned]
          | none =>
            simp only
            split
            · cases (s1.pinned.write leafId (.leaf (lf.Insert key value))).SplitLeaf leafId with
              | none => rfl
              | some r3 =>
                obtain ⟨p3, newLeaf⟩ := r3
                simp only
                cases p3.tree.getLeaf newLeaf with
                | none => rfl
                | some nl =>
                  simp only
                  cases nl.KeyAt 0 with
                  | none => rfl
                  | some k0 =>
                    simp only [Option.map_map]
                    cases PinnedTree.InsertIntoParent fuel p3 leafId k0 newLeaf with
                    | none => rfl
                    | some p4 =>
                      simp only [Option.map_some', Function.comp, Free_pinned]
            · simp only [Option.map_some', Free_pinned]

/-- `Remove` with the root latch changes the index as `Remove` without. -/
theorem Remove_pinned (s : LatchedTree) (key : Int) (fuel : Nat) :
    (s.Remove key fuel).map (fun r => r.pinned) = s.pinned.Remove key fuel := by
  unfold Remove PinnedTree.Remove
  split
  · rfl
  · unfold removeBody
    rw [← FindLeafPage_pinned]
    cases hf : s.FindLeafPage key false OpType.DELETE true fuel with
    | none => rfl
    | some r =>
      obtain ⟨s1, leaf⟩ := r
      cases leaf with
      | none => rfl
      | some leafId =>
        simp only [Option.map_some']
        cases s1.pinned.tree.getLeaf leafId with
        | none => rfl
        | some lf =>
          simp only
          split
          · simp only [Option.map_map]
            cases PinnedTree.CoalesceOrRedistribute fuel
                (s1.pinned.write leafId (.leaf (lf.RemoveAndDeleteRecord key))) leafId with
            | none => rfl
            | some r2 => simp only [Option.map_some', Function.comp, Free_pinned]
          · simp only [Option.map_some', Free_pinned]

/-! ### The search reads the store, with and without a transaction -/

theorem Free_tree (s : LatchedTree) (e tx : Bool) (cur : Int) :
    (s.FreePagesInTransaction e tx cur).pinned.tree = s.pinned.tree := by
  cases tx
  · unfold FreePagesInTransaction
    simp only [Bool.false_eq_true, if_false, UnpinPage, PinnedTree.tree_unpin, TryUnlock_pinned]
  · rw [Free_pinned, PinnedTree.tree_free]

theorem Crab_tree (s : LatchedTree) (pid : Int) (op : OpType) (prev : Int) (tx : Bool) :
    (s.CrabingProtocalFetchPage pid op prev tx).map (fun r => r.pinned.tree) =
      (s.pinned.tree.pages pid).map (fun _ => s.pinned.tree) := by
  unfold CrabingProtocalFetchPage
  simp only [PinnedTree.tree_fetch]
  cases s.pinned.tree.pages pid with
  | none => rfl
  | some treePage =>
    simp only [Option.map_some', Option.some.injEq]
    have hA : ∀ x : LatchedTree,
        (if tx = true then { x with pinned := x.pinned.AddIntoPageSet pid } else x).pinned.tree =
          x.pinned.tree := by
      intro x
      split <;> rfl
    rw [hA]
    split
    · rw [Free_tree]
      rfl
    · rfl

theorem findLeafLoop_tree (key : Int) (leftMost : Bool) (op : OpType) (tx : Bool) :
    ∀ (fuel : Nat) (s : LatchedTree) (cur : Int),
      (findLeafLoop key leftMost op tx fuel s cur).map (fun r => (r.1.pinned.tree, r.2)) =
        (s.pinned.tree.findLeafLoop key leftMost fuel cur).map (fun l => (s.pinned.tree, l)) := by
  intro fuel
  induction fuel with
  | zero => intro s cur; rfl
  | succ f ih =>
    intro s cur
    unfold findLeafLoop BPlusTree.findLeafLoop
    cases hp : s.pinned.tree.pages cur with
    | none => rfl
    | some pg =>
      cases pg with
      | leaf l => rfl
      | internal ip =>
        simp only
        cases hn : (if leftMost = true then ip.ValueAt 0 else ip.Lookup key) with
        | none => rfl
        | some next =>
          simp only
          have hc := Crab_tree s next op cur tx
          cases hs : s.CrabingProtocalFetchPage next op cur tx with
          | none =>
            rw [hs] at hc
            cases hq : s.pinned.tree.pages next with
            | none =>
              rw [BPlusTree.findLeafLoop_missing _ _ _ _ _ hq]
              rfl
            | some q =>
              rw [hq] at hc
              cases hc
          | some s1 =>
            rw [hs] at hc
            cases hq : s.pinned.tree.pages next with
            | none =>
              rw [hq] at hc
              cases hc
            | some q =>
              rw [hq] at hc
              simp only [Option.map_some', Option.some.injEq] at hc
              rw [ih s1 next, hc]

theorem FindLeafPage_tree (s : LatchedTree) (key : Int) (leftMost : Bool) (op : OpType)
    (tx : Bool) (fuel : Nat) :
    (s.FindLeafPage key leftMost op tx fuel).map (fun r => (r.1.pinned.tree, r.2)) =
      (s.pinned.tree.FindLeafPage key leftMost fuel).map (fun l => (s.pinned.tree, l)) := by
  unfold FindLeafPage BPlusTree.FindLeafPage
  simp only
  have h1 : (s.LockRootPageId (op != OpType.READ)).pinned = s.pinned := rfl
  rw [h1]
  split
  · simp only [Option.map_some', TryUnlock_pinned, h1]
  · have hc := Crab_tree (s.LockRootPageId (op != OpType.READ)) s.pinned.tree.root_page_id op
      (-1) tx
    rw [h1] at hc
    cases hs : (s.LockRootPageId (op != OpType.READ)).CrabingProtocalFetchPage
        s.pinned.tree.root_page_id op (-1) tx with
    | none =>
      rw [hs] at hc
      cases hq : s.pinned.tree.pages s.pinned.tree.root_page_id with
      | none =>
        rw [BPlusTree.findLeafLoop_missing _ _ _ _ _ hq]
        rfl
      | some q =>
        rw [hq] at hc
        cases hc
    | some s1 =>
      rw [hs] at hc
      cases hq : s.pinned.tree.pages s.pinned.tree.root_page_id with
      | none =>
        rw [hq] at hc
        cases hc
      | some q =>
        rw [hq] at hc
        simp only [Option.map_some', Option.some.injEq] at hc
        simp only [Option.map_map]
        have := findLeafLoop_tree key leftMost op tx fuel s1 s.pinned.tree.root_page_id
        rw [hc] at this
        cases hr : findLeafLoop key leftMost op tx fuel s1 s.pinned.tree.root_page_id with
        | none =>
          rw [hr] at this
          cases hr2 : s.pinned.tree.findLeafLoop key leftMost fuel s.pinned.tree.root_page_id with
          | none => rfl
          | some l =>
            rw [hr2] at this
            cases this
        | some r =>
          rw [hr] at this
          cases hr2 : s.pinned.tree.findLeafLoop key leftMost fuel s.pinned.tree.root_page_id with
          | none =>
            rw [hr2] at this
            cases this
          | some l =>
            rw [hr2] at this
            simp only [Option.map_some', Option.some.injEq, Prod.mk.injEq] at this
            simp only [Option.map_some', Function.comp, this.1, this.2]

/-- `Begin()` with the root latch returns the iterator of `Begin()` without. -/
theorem Begin_iterator (s : LatchedTree) (fuel : Nat) :
    (s.Begin fuel).map Prod.snd = s.pinned.tree.Begin fuel := by
  unfold Begin BPlusTree.Begin
  simp only
  have h := FindLeafPage_tree (s.TryUnlockRootPageId false) 0 true OpType.READ false fuel
  rw [TryUnlock_pinned] at h
  cases hf : (s.TryUnlockRootPageId false).FindLeafPage 0 true OpType.READ false fuel with
  | none =>
    rw [hf] at h
    cases hg : s.pinned.tree.FindLeafPage 0 true fuel with
    | none => rfl
    | some l =>
      rw [hg] at h
      cases h
  | some r =>
    rw [hf] at h
    cases hg : s.pinned.tree.FindLeafPage 0 true fuel with
    | none =>
      rw [hg] at h
      cases h
    | some l =>
      rw [hg] at h
      simp only [Option.map_some', Option.some.injEq, Prod.mk.injEq] at h
      simp only [Option.map_some', h.2]

/-- `Begin(key)` with the root latch returns the iterator of `Begin(key)`
without. -/
theorem BeginAt_iterator (s : LatchedTree) (key : Int) (fuel : Nat) :
    (s.BeginAt key fuel).map Prod.snd = s.pinned.tree.BeginAt key fuel := by
  unfold BeginAt BPlusTree.BeginAt
  have h := FindLeafPage_tree s key false OpType.READ false fuel
  cases hf : s.FindLeafPage key false OpType.READ false fuel with
  | none =>
    rw [hf] at h
    cases hg : s.pinned.tree.FindLeafPage key false fuel with
    | none => rfl
    | some l =>
      rw [hg] at h
      cases h
  | some r =>
    rw [hf] at h
    cases hg : s.pinned.tree.FindLeafPage key false fuel with
    | none =>
      rw [hg] at h
      cases h
    | some l =>
      rw [hg] at h
      simp only [Option.map_some', Option.some.injEq, Prod.mk.injEq] at h
      obtain ⟨s1, leaf⟩ := r
      simp only at h
      obtain ⟨ht, hl⟩ := h
      subst hl
      cases leaf with
      | none => rfl
      | some leafId =>
        simp only [ht]
        cases s.pinned.tree.getLeaf leafId with
        | none => rfl
        | some lf => rfl

end LatchedTree

/-! ## `FreePagesInTransaction`: what it unpins and what it deletes -/

namespace PinnedTree

theorem unpin_deleted (s : PinnedTree) (pid : Int) :
    (s.unpin pid).deleted_page_set = s.deleted_page_set := by
  unfold unpin
  split <;> rfl

theorem unpin_delete_calls (s : PinnedTree) (pid : Int) :
    (s.unpin pid).delete_calls = s.delete_calls := by
  unfold unpin
  split <;> rfl

end PinnedTree

namespace LatchedTree

/-- The loop of `FreePagesInTransaction` over the pages `l`: every page of `l`
is unpinned once, in order, with the dirty flag `exclusive`; `DeletePage` is
called for the pages of `l` that are scheduled for deletion and for no other
page; a page that is scheduled for deletion and is not in `l` stays
scheduled. -/
theorem freeLoop_calls (e : Bool) :
    ∀ (l : List Int) (s : LatchedTree),
      (freeLoop e s l).unpin_calls = s.unpin_calls ++ l.map (fun p => (p, e)) ∧
      (∀ pid, pid ∈ (freeLoop e s l).pinned.deleted_page_set →
        pid ∈ s.pinned.deleted_page_set) ∧
      (∀ pid, pid ∈ s.pinned.deleted_page_set → pid ∉ l →
        pid ∈ (freeLoop e s l).pinned.deleted_page_set) ∧
      (∀ pid, pid ∈ l → pid ∈ s.pinned.deleted_page_set →
        pid ∈ (freeLoop e s l).pinned.delete_calls) ∧
      (∀ pid, pid ∈ s.pinned.delete_calls → pid ∈ (freeLoop e s l).pinned.delete_calls) ∧
      (∀ pid, pid ∈ (freeLoop e s l).pinned.delete_calls →
        pid ∈ s.pinned.delete_calls ∨ (pid ∈ l ∧ pid ∈ s.pinned.deleted_page_set)) := by
  intro l
  induction l with
  | nil =>
    intro s
    refine ⟨by simp [freeLoop], fun _ h => h, fun _ h _ => h, fun _ h => ?_, fun _ h => h,
      fun _ h => Or.inl h⟩
    simp at h
  | cons p rest ih =>
    intro s
    have hd : (s.UnpinPage p e).pinned.deleted_page_set = s.pinned.deleted_page_set :=
      PinnedTree.unpin_deleted s.pinned p
    have hc : (s.UnpinPage p e).pinned.delete_calls = s.pinned.delete_calls :=
      PinnedTree.unpin_delete_calls s.pinned p
    unfold freeLoop
    simp only [hd]
    by_cases hp : p ∈ s.pinned.deleted_page_set
    · rw [if_pos hp]
      obtain ⟨h1, h2, h3, h4, h5, h6⟩ := ih
        { s.UnpinPage p e with pinned :=
            { ((s.UnpinPage p e).pinned.deletePage p) with
                deleted_page_set := s.pinned.deleted_page_set.erase p } }
      have hcalls : ∀ x, x ∈ ((s.UnpinPage p e).pinned.deletePage p).delete_calls ↔
          x ∈ s.pinned.delete_calls ∨ x = p := by
        intro x
        show x ∈ (s.UnpinPage p e).pinned.delete_calls ++ [p] ↔ _
        rw [hc]
        simp
      refine ⟨?_, ?_, ?_, ?_, ?_, ?_⟩
      · rw [h1]
        show s.unpin_calls ++ [(p, e)] ++ _ = _
        simp
      · intro pid hpid
        exact List.mem_of_mem_erase (h2 pid hpid)
      · intro pid hpid hnot
        simp only [List.mem_cons, not_or] at hnot
        exact h3 pid ((List.mem_erase_of_ne hnot.1).2 hpid) hnot.2
      · intro pid hpid hdel
        by_cases hpp : pid = p
        · exact h5 pid ((hcalls pid).2 (Or.inr hpp))
        · simp only [List.mem_cons] at hpid
          rcases hpid with hpid | hpid
          · exact absurd hpid hpp
          · exact h4 pid hpid ((List.mem_erase_of_ne hpp).2 hdel)
      · intro pid hpid
        exact h5 pid ((hcalls pid).2 (Or.inl hpid))
      · intro pid hpid
        rcases h6 pid hpid with h | ⟨h, h7⟩
        · rcases (hcalls pid).1 h with h | h
          · exact Or.inl h
          · exact Or.inr ⟨by simp [h], by rw [h]; exact hp⟩
        · exact Or.inr ⟨by simp [h], List.mem_of_mem_erase h7⟩
    · rw [if_neg hp]
      obtain ⟨h1, h2, h3, h4, h5, h6⟩ := ih (s.UnpinPage p e)
      rw [hd] at h2 h3 h4 h6
      rw [hc] at h5 h6
      refine ⟨?_, h2, ?_, ?_, h5, ?_⟩
      · rw [h1]
        show s.unpin_calls ++ [(p, e)] ++ _ = _
        simp
      · intro pid hpid hnot
        simp only [List.mem_cons, not_or] at hnot
        exact h3 pid hpid hnot.2
      · intro pid hpid hdel
        simp only [List.mem_cons] at hpid
        rcases hpid with hpid | hpid
        · rw [hpid] at hdel
          exact absurd hdel hp
        · exact h4 pid hpid hdel
      · intro pid hpid
        rcases h6 pid hpid with h | ⟨h, h7⟩
        · exact Or.inl h
        · exact Or.inr ⟨by simp [h], h7⟩

/-- `FreePagesInTransaction(exclusive, transaction, cur)` with a transaction:
the page set is empty afterwards, every page of it has been unpinned once with
the dirty flag `exclusive`, `DeletePage` has been called for the pages of the
page set that were scheduled for deletion; a page that was scheduled for
deletion and was not in the page set is still scheduled and `DeletePage` has
not been called for it. -/
theorem FreePagesInTransaction_calls (s : LatchedTree) (e : Bool) (cur : Int) (pid : Int) :
    (s.FreePagesInTransaction e true cur).pinned.page_set = [] ∧
    (s.FreePagesInTransaction e true cur).unpin_calls =
      s.unpin_calls ++ s.pinned.page_set.map (fun p => (p, e)) ∧
    (pid ∈ s.pinned.page_set → pid ∈ s.pinned.deleted_page_set →
      pid ∈ (s.FreePagesInTransaction e true cur).pinned.delete_calls) ∧
    (pid ∈ s.pinned.deleted_page_set → pid ∉ s.pinned.page_set →
      pid ∈ (s.FreePagesInTransaction e true cur).pinned.deleted_page_set ∧
      (pid ∉ s.pinned.delete_calls →
        pid ∉ (s.FreePagesInTransaction e true cur).pinned.delete_calls)) := by
  have hp := TryUnlock_pinned s e
  have hu : (s.TryUnlockRootPageId e).unpin_calls = s.unpin_calls := by
    unfold TryUnlockRootPageId
    split <;> rfl
  obtain ⟨h1, -, h3, h4, -, h6⟩ :=
    freeLoop_calls e (s.TryUnlockRootPageId e).pinned.page_set (s.TryUnlockRootPageId e)
  rw [hu] at h1
  rw [hp] at h1 h3 h4 h6
  have hA : (s.FreePagesInTransaction e true cur).unpin_calls =
      (freeLoop e (s.TryUnlockRootPageId e) (s.TryUnlockRootPageId e).pinned.page_set).unpin_calls :=
    rfl
  have hB : (s.FreePagesInTransaction e true cur).pinned.delete_calls =
      (freeLoop e (s.TryUnlockRootPageId e)
        (s.TryUnlockRootPageId e).pinned.page_set).pinned.delete_calls := rfl
  have hC : (s.FreePagesInTransaction e true cur).pinned.deleted_page_set =
      (freeLoop e (s.TryUnlockRootPageId e)
        (s.TryUnlockRootPageId e).pinned.page_set).pinned.deleted_page_set := rfl
  rw [hA, hB, hC, hp]
  refine ⟨rfl, h1, h4 pid, fun hd hn => ⟨h3 pid hd hn, fun hnc hin => ?_⟩⟩
  rcases h6 pid hin with h | ⟨h, -⟩
  · exact hnc h
  · exact hn h

set_option maxRecDepth 100000 in
/-- C35: `FreePagesInTransaction` does not empty the deleted-page set. On the
transaction `scheduledOnly`, with an empty page set and page 5 scheduled for
deletion, it returns with page 5 still scheduled and without a call of
`DeletePage`. The state arises in the index: with leaf and internal maximal
size 4 and the keys 1 to 11, `Remove(5)` reaches its call of
`FreePagesInTransaction` with the page set `[7, 4, 5, 3]` and the pages 5, 7
and 8 scheduled for deletion (the old root 8 left the page set during the
descent); the call unpins the four pages of the page set with the dirty flag
`true`, calls `DeletePage` for 7 and 5, and returns with page 8 still
scheduled and not deleted. -/
theorem FreePagesInTransaction_keeps_scheduled :
    ((LatchedTree.scheduledOnly.FreePagesInTransaction true true (-1)).pinned.page_set,
      (LatchedTree.scheduledOnly.FreePagesInTransaction true true (-1)).pinned.deleted_page_set,
      (LatchedTree.scheduledOnly.FreePagesInTransaction true true (-1)).pinned.delete_calls,
      (LatchedTree.scheduledOnly.FreePagesInTransaction true true (-1)).unpin_calls) =
        ([], [5], [], []) ∧
    ∃ t : BPlusTree,
      (BPlusTree.empty 4 4 1).insertAll 10
        [(1, 10), (2, 20), (3, 30), (4, 40), (5, 50), (6, 60), (7, 70), (8, 80), (9, 90),
          (10, 100), (11, 110)] = some t ∧
      t.root_page_id = 8 ∧
      ((LatchedTree.idle t).removeBody 5 10).map (fun s =>
        (s.pinned.page_set, s.pinned.deleted_page_set, s.pinned.delete_calls, s.unpin_calls)) =
        some ([7, 4, 5, 3], [5, 7, 8], [], [(8, true)]) ∧
      ((LatchedTree.idle t).Remove 5 10).map (fun s =>
        (s.pinned.page_set, s.pinned.deleted_page_set, s.pinned.delete_calls, s.unpin_calls)) =
        some ([], [8], [7, 5], [(8, true), (7, true), (4, true), (5, true), (3, true)]) := by
  refine ⟨by decide, _, rfl, ?_, ?_, ?_⟩ <;> decide

/-! ## The root latch at concrete inputs -/

set_option maxRecDepth 100000 in
/-- C36: on the tree that holds the single key 1 (leaf and internal maximal
size 4), whose root page 1 is a leaf, `Begin()` run by a thread that holds no
latch returns with `rootLockedCnt = 1`: it has acquired the root latch once
and has not released it, because `TryUnlockRootPageId` runs before
`FindLeafPage` locks and the search meets no second page that would release
the latch. On the same tree `Begin(1)`, `GetValue(1)`, `Insert(2, 20)` and
`Remove(1)` return with the count at 0 and as many releases as acquisitions,
and so does `Begin()` on the empty tree and on the tree with the keys 1 to 5,
whose root is an internal page. -/
theorem Begin_holds_root_latch :
    ∃ t t5 : BPlusTree,
      (BPlusTree.empty 4 4 1).insertAll 10 [(1, 10)] = some t ∧
      (t.getLeaf t.root_page_id).map (fun p => p.array) = some [(1, 10)] ∧
      ((LatchedTree.idle t).Begin 10).map
        (fun r => (r.1.rootLockedCnt, r.1.root_locks, r.1.root_unlocks, r.2)) =
        some (1, 1, 0, { idx := 0, the_leaf := some 1 }) ∧
      ((LatchedTree.idle t).BeginAt 1 10).map
        (fun r => (r.1.rootLockedCnt, r.1.root_locks, r.1.root_unlocks, r.2)) =
        some (0, 1, 1, { idx := 0, the_leaf := some 1 }) ∧
      ((LatchedTree.idle t).GetValue 1 true 10).map
        (fun r => (r.1.rootLockedCnt, r.1.root_locks, r.1.root_unlocks, r.2)) =
        some (0, 1, 1, some 10) ∧
      ((LatchedTree.idle t).Insert 2 20 10).map
        (fun r => (r.1.rootLockedCnt, r.1.root_locks, r.1.root_unlocks, r.2)) =
        some (0, 2, 2, true) ∧
      ((LatchedTree.idle t).Remove 1 10).map
        (fun r => (r.rootLockedCnt, r.root_locks, r.root_unlocks)) = some (0, 1, 1) ∧
      ((LatchedTree.idle (BPlusTree.empty 4 4 1)).Begin 10).map
        (fun r => (r.1.rootLockedCnt, r.1.root_locks, r.1.root_unlocks, r.2)) =
        some (0, 1, 1, { idx := 0, the_leaf := none }) ∧
      (BPlusTree.empty 4 4 1).insertAll 10
        [(1, 10), (2, 20), (3, 30), (4, 40), (5, 50)] = some t5 ∧
      (t5.getInternal t5.root_page_id).map (fun p => p.array) = some [(0, 1), (3, 2)] ∧
      ((LatchedTree.idle t5).Begin 10).map
        (fun r => (r.1.rootLockedCnt, r.1.root_locks, r.1.root_unlocks, r.2)) =
        some (0, 1, 1, { idx := 0, the_leaf := some 1 }) := by
  refine ⟨_, _, rfl, ?_, ?_, ?_, ?_, ?_, ?_, ?_, rfl, ?_, ?_⟩ <;> decide

end LatchedTree

/-! ## Removal: the recursion of `Coalesce` and the pages scheduled for
deletion, at concrete inputs -/

namespace BPlusTree

set_option maxRecDepth 100000 in
/-- C34: with leaf and internal maximal size 4, the keys 1 to 11 give the root
page 8 with the internal children 3 (two leaves) and 7 (the leaves 4, 5, 6),
and the minimal size of an internal page is 2. `Remove(5)` leaves `[6]` in
leaf 4 and calls `Coalesce` to move leaf 5 into it; with the recursive call
replaced by a probe that answers `true`, `Coalesce` answers `true`: the
recursive call on the parent 7 is made, although after the removal of the
separator entry the parent holds 2 entries, which is its minimal size and not
below it. In `Remove(5)` itself the recursion merges page 7 into page 3 and
makes page 3 the root. -/
theorem Coalesce_recurses_at_min_size :
    ∃ t t1 : BPlusTree,
      (BPlusTree.empty 4 4 1).insertAll 10
        [(1, 10), (2, 20), (3, 30), (4, 40), (5, 50), (6, 60), (7, 70), (8, 80), (9, 90),
          (10, 100), (11, 110)] = some t ∧
      t.root_page_id = 8 ∧
      (t.getInternal 8).map (fun p => p.array) = some [(0, 3), (5, 7)] ∧
      (t.getInternal 7).map (fun p => (p.array, (BPlusTreePage.internal p).GetMinSize)) =
        some ([(5, 4), (7, 5), (9, 6)], 2) ∧
      (t.getLeaf 4).map (fun p => (p.RemoveAndDeleteRecord 5).array) = some [(6, 60)] ∧
      ((t.getLeaf 4).bind (fun p =>
        Coalesce (fun t3 _ => some (t3, true))
          (t.setPage 4 (.leaf (p.RemoveAndDeleteRecord 5))) 4 5 7 1)).map
        (fun r => (r.2, (r.1.getInternal 7).map
          (fun p => (p.array, (BPlusTreePage.internal p).GetMinSize)))) =
        some (true, some ([(5, 4), (9, 6)], 2)) ∧
      t.Remove 5 10 = some t1 ∧ t1.root_page_id = 3 ∧
      (t1.getInternal 3).map (fun p => p.array) = some [(0, 1), (3, 2), (5, 4), (9, 6)] := by
  refine ⟨_, _, rfl, ?_, ?_, ?_, ?_, ?_, rfl, ?_, ?_⟩ <;> decide

end BPlusTree

/-! ## Redistribution between internal pages: the key that travels with the
moved child -/

namespace BPlusTree

theorem getInternal_setPage_ne (t : BPlusTree) (q pid : Int) (pg : BPlusTreePage) (h : pid ≠ q) :
    (t.setPage q pg).getInternal pid = t.getInternal pid :=
  getInternal_of_pages_eq t _ pid (pages_setPage_ne t q pg pid h)

theorem getInternal_setPage_self (t : BPlusTree) (q : Int) (p : BPlusTreeInternalPage) :
    (t.setPage q (.internal p)).getInternal q = some p :=
  getInternal_eq _ q p (pages_setPage_self t q _)

theorem KeyAt_SetKeyAt (p p1 : BPlusTreeInternalPage) (i k : Int) (h : p.SetKeyAt i k = some p1) :
    p1.KeyAt i = some k := by
  unfold BPlusTreeInternalPage.SetKeyAt at h
  cases he : entryAt p.array i with
  | none =>
    rw [he] at h
    cases h
  | some e =>
    rw [he] at h
    cases h
    unfold BPlusTreeInternalPage.KeyAt
    unfold entryAt at he ⊢
    by_cases hi : 0 ≤ i
    · rw [if_pos hi] at he ⊢
      have hlt : i.toNat < p.array.length := by
        rw [List.get?_eq_getElem?] at he
        exact (List.getElem?_eq_some.1 he).1
      simp [List.getElem?_set_self hlt]
    · rw [if_neg hi] at he
      cases he

theorem SetKeyAt_some (p : BPlusTreeInternalPage) (i k : Int) (e : Int × Int)
    (h : entryAt p.array i = some e) :
    p.SetKeyAt i k = some { p with array := p.array.set i.toNat (k, e.2) } := by
  unfold BPlusTreeInternalPage.SetKeyAt
  rw [h]

/-- `MoveFirstToEndOf` of the internal page `right` to its left sibling: what
the recipient and the parent hold afterwards. -/
theorem internalMoveFirstToEndOf_spec (t : BPlusTree) (leftId rightId : Int)
    (left right parent : BPlusTreeInternalPage) (k0 c0 : Int) (e1 e : Int × Int)
    (rest : List (Int × Int))
    (hl : t.getInternal leftId = some left) (hr : t.getInternal rightId = some right)
    (hp : t.getInternal right.parent_page_id = some parent)
    (hne : leftId ≠ rightId) (hpl : right.parent_page_id ≠ leftId) (hpr : right.parent_page_id ≠ rightId)
    (harr : right.array = (k0, c0) :: e1 :: rest) (hroom : left.array.length + 1 ≤ left.max_size)
    (hc : t.pages c0 ≠ none) (hcl : c0 ≠ leftId) (hcr : c0 ≠ rightId) (hcp : c0 ≠ right.parent_page_id)
    (he : entryAt parent.array (parent.ValueIndex right.page_id) = some e) :
    ∃ t1 l1 par1, t.internalMoveFirstToEndOf rightId leftId = some t1 ∧
      t1.getInternal leftId = some l1 ∧ l1.array = left.array ++ [(k0, c0)] ∧
      t1.getInternal right.parent_page_id = some par1 ∧
      par1.KeyAt (parent.ValueIndex right.page_id) = some e1.1 := by
  obtain ⟨cpg, hcpg⟩ := Option.ne_none_iff_exists'.1 hc
  have h1 : (t.setPage rightId (.internal { right with array := e1 :: rest })).getInternal leftId =
      some left := by
    rw [getInternal_setPage_ne _ _ _ _ hne, hl]
  have h2 : left.CopyLastFrom (k0, c0) = some { left with array := left.array ++ [(k0, c0)] } := by
    unfold BPlusTreeInternalPage.CopyLastFrom
    rw [if_pos hroom]
  have h3 : ((t.setPage rightId (.internal { right with array := e1 :: rest })).setPage leftId
      (.internal { left with array := left.array ++ [(k0, c0)] })).pages c0 = some cpg := by
    rw [pages_setPage_ne _ _ _ _ hcl, pages_setPage_ne _ _ _ _ hcr, hcpg]
  have h4 := setParent_eq _ c0 left.page_id cpg h3
  have h5 : ((((t.setPage rightId (.internal { right with array := e1 :: rest })).setPage leftId
      (.internal { left with array := left.array ++ [(k0, c0)] })).setPage c0
      (cpg.SetParentPageId left.page_id))).getInternal right.parent_page_id = some parent := by
    rw [getInternal_setPage_ne _ _ _ _ (Ne.symm hcp), getInternal_setPage_ne _ _ _ _ hpl,
      getInternal_setPage_ne _ _ _ _ hpr, hp]
  obtain ⟨par1, h6⟩ : ∃ par1, parent.SetKeyAt (parent.ValueIndex right.page_id) e1.1 = some par1 :=
    ⟨_, SetKeyAt_some parent (parent.ValueIndex right.page_id) e1.1 e he⟩
  have hres : t.internalMoveFirstToEndOf rightId leftId =
      some (((((t.setPage rightId (.internal { right with array := e1 :: rest })).setPage leftId
        (.internal { left with array := left.array ++ [(k0, c0)] })).setPage c0
        (cpg.SetParentPageId left.page_id))).setPage right.parent_page_id (.internal par1)) := by
    unfold internalMoveFirstToEndOf
    simp only [hr, harr, h1, h2, h4, h5, List.head?_cons, h6]
  have hA : (((((t.setPage rightId (.internal { right with array := e1 :: rest })).setPage leftId
        (.internal { left with array := left.array ++ [(k0, c0)] })).setPage c0
        (cpg.SetParentPageId left.page_id))).setPage right.parent_page_id (.internal par1)).getInternal leftId =
      some { left with array := left.array ++ [(k0, c0)] } := by
    rw [getInternal_setPage_ne _ _ _ _ (Ne.symm hpl), getInternal_setPage_ne _ _ _ _ (Ne.symm hcl),
      getInternal_setPage_self]
  exact ⟨_, _, _, hres, hA, rfl, getInternal_setPage_self _ _ _, KeyAt_SetKeyAt _ _ _ _ h6⟩

/-- `MoveLastToFrontOf` of the internal page `left` to its right sibling, with
the `CopyFirstFrom` of the recipient: what the recipient and the parent hold
afterwards. -/
theorem internalMoveLastToFrontOf_spec (t : BPlusTree) (leftId rightId : Int)
    (left right parent : BPlusTreeInternalPage) (tmp e : Int × Int) (init : List (Int × Int))
    (idx : Int)
    (hl : t.getInternal leftId = some left) (hr : t.getInternal rightId = some right)
    (hp : t.getInternal right.parent_page_id = some parent)
    (hne : leftId ≠ rightId) (hpl : right.parent_page_id ≠ leftId) (hpr : right.parent_page_id ≠ rightId)
    (harr : left.array = init ++ [tmp]) (hroom : right.array.length + 1 < right.max_size)
    (hc : t.pages tmp.2 ≠ none) (hcl : tmp.2 ≠ leftId) (hcr : tmp.2 ≠ rightId)
    (hcp : tmp.2 ≠ right.parent_page_id) (he : entryAt parent.array idx = some e) :
    ∃ t1 r1 par1, t.internalMoveLastToFrontOf leftId rightId idx = some t1 ∧
      t1.getInternal rightId = some r1 ∧ r1.array = tmp :: right.array ∧
      t1.getInternal right.parent_page_id = some par1 ∧ par1.KeyAt idx = some tmp.1 := by
  obtain ⟨cpg, hcpg⟩ := Option.ne_none_iff_exists'.1 hc
  have hlast : left.array.getLast? = some tmp := by
    rw [harr]
    simp
  have h1 : (t.setPage leftId (.internal { left with array := left.array.dropLast })).getInternal
      rightId = some right := by
    rw [getInternal_setPage_ne _ _ _ _ (Ne.symm hne), hr]
  have h3 : ((t.setPage leftId (.internal { left with array := left.array.dropLast })).setPage
      rightId (.internal { right with array := tmp :: right.array })).pages tmp.2 = some cpg := by
    rw [pages_setPage_ne _ _ _ _ hcr, pages_setPage_ne _ _ _ _ hcl, hcpg]
  have h4 := setParent_eq _ tmp.2 right.page_id cpg h3
  have h5 : ((((t.setPage leftId (.internal { left with array := left.array.dropLast })).setPage
      rightId (.internal { right with array := tmp :: right.array })).setPage tmp.2
      (cpg.SetParentPageId right.page_id))).getInternal right.parent_page_id = some parent := by
    rw [getInternal_setPage_ne _ _ _ _ (Ne.symm hcp), getInternal_setPage_ne _ _ _ _ hpr,
      getInternal_setPage_ne _ _ _ _ hpl, hp]
  obtain ⟨par1, h6⟩ : ∃ par1, parent.SetKeyAt idx tmp.1 = some par1 :=
    ⟨_, SetKeyAt_some parent idx tmp.1 e he⟩
  have hres : t.internalMoveLastToFrontOf leftId rightId idx =
      some (((((t.setPage leftId (.internal { left with array := left.array.dropLast })).setPage
        rightId (.internal { right with array := tmp :: right.array })).setPage tmp.2
        (cpg.SetParentPageId right.page_id))).setPage right.parent_page_id (.internal par1)) := by
    unfold internalMoveLastToFrontOf
    simp only [hl, hlast, h1, if_pos hroom, h4, h5, h6]
  have hA : (((((t.setPage leftId (.internal { left with array := left.array.dropLast })).setPage
        rightId (.internal { right with array := tmp :: right.array })).setPage tmp.2
        (cpg.SetParentPageId right.page_id))).setPage right.parent_page_id (.internal par1)).getInternal
        rightId = some { right with array := tmp :: right.array } := by
    rw [getInternal_setPage_ne _ _ _ _ (Ne.symm hpr), getInternal_setPage_ne _ _ _ _ (Ne.symm hcr),
      getInternal_setPage_self]
  exact ⟨_, _, _, hres, hA, rfl, getInternal_setPage_self _ _ _, KeyAt_SetKeyAt _ _ _ _ h6⟩

end BPlusTree
/-! ## Extendible hash table with the shifts in 32-bit `int`

Up to depth 30 the `int` shifts are the powers of two, so the table with the
shifts in `int` is the table with exact shifts.  The shape of the directory
does not depend on the masks at all. -/

namespace ExtendibleHash

variable {V : Type}

theorem redirectFrom32_length (old new mask : Nat) (l : List Nat) (s : Nat) :
    (redirectFrom32 old new mask l s).length = l.length := by
  induction l generalizing s with
  | nil => rfl
  | cons b rest ih => simp [redirectFrom32, ih]

theorem redirectFrom32_get (old new mask : Nat) (l : List Nat) (s i : Nat) :
    (redirectFrom32 old new mask l s)[i]? =
      (l[i]?).map (fun b => if b = old ∧ (s + i) &&& mask ≠ 0 then new else b) := by
  induction l generalizing s i with
  | nil => simp [redirectFrom32]
  | cons b rest ih =>
    cases i with
    | zero => simp [redirectFrom32]
    | succ i =>
      simp only [redirectFrom32, List.getElem?_cons_succ, ih]
      have : s + 1 + i = s + (i + 1) := by omega
      rw [this]

theorem split32_globalDepth (eh : ExtendibleHash V) (bi : Nat) (tmp : Bucket V) :
    eh.globalDepth ≤ (eh.split32 bi tmp).globalDepth := by
  unfold split32
  simp only
  split <;> omega

theorem split32_localDepth (eh : ExtendibleHash V) (bi : Nat) (tmp : Bucket V)
    (hd : tmp.localDepth ≤ eh.globalDepth) :
    tmp.localDepth + 1 ≤ (eh.split32 bi tmp).globalDepth := by
  unfold split32
  simp only
  split <;> omega

/-- A split with the mask in `int` keeps the directory well formed, whatever
the mask is. -/
theorem split32_inv (eh : ExtendibleHash V) (h : eh.Inv) (bi : Nat) (tmp : Bucket V)
    (hb : eh.buckets[bi]? = some tmp) : (eh.split32 bi tmp).Inv := by
  have hmem : tmp ∈ eh.buckets := List.getElem?_mem hb
  have hd := h.depth_le tmp hmem
  have hs := h.keys_sorted tmp hmem
  have hg := split32_globalDepth eh bi tmp
  have hg2 := split32_localDepth eh bi tmp hd
  refine ⟨?_, ?_, ?_, ?_⟩
  · unfold split32
    simp only [redirectFrom32_length]
    by_cases hdep : tmp.localDepth + 1 > eh.globalDepth
    · simp only [hdep, if_true, List.length_append, h.table_len, pow_succ]
      omega
    · simp only [hdep, if_false, h.table_len]
  · intro b hbm
    obtain ⟨i, hi⟩ := List.mem_iff_getElem?.1 hbm
    have hlen : (eh.split32 bi tmp).buckets.length = eh.buckets.length + 1 := by
      simp [split32]
    rw [hlen]
    unfold split32 at hi
    simp only [redirectFrom32_get, Option.map_eq_some'] at hi
    obtain ⟨a, ha, hab⟩ := hi
    have ha2 : a ∈ eh.bucketTable := by
      have := List.getElem?_mem ha
      split at this
      · simpa using this
      · exact this
    have := h.table_lt a ha2
    split at hab <;> omega
  · intro b hbm
    unfold split32 at hbm
    simp only [List.mem_append, List.mem_singleton] at hbm
    rcases hbm with hbm | hbm
    · rcases List.mem_or_eq_of_mem_set hbm with h1 | h1
      · exact le_trans (h.depth_le b h1) hg
      · rw [h1]; exact hg2
    · rw [hbm]; exact hg2
  · intro b hbm
    unfold split32 at hbm
    simp only [List.mem_append, List.mem_singleton] at hbm
    rcases hbm with hbm | hbm
    · rcases List.mem_or_eq_of_mem_set hbm with h1 | h1
      · exact h.keys_sorted b h1
      · rw [h1]; exact sorted_keys_of_sublist (List.filter_sublist _) hs
    · rw [hbm]; exact sorted_keys_of_sublist (List.filter_sublist _) hs

/-- A split with the mask in `int` leaves no bucket with more entries than
the split bucket or another bucket had. -/
theorem split32_size (eh : ExtendibleHash V) (bi : Nat) (tmp : Bucket V) (n : Nat)
    (hb : eh.buckets[bi]? = some tmp) (hsz : ∀ b ∈ eh.buckets, b.kvmap.length ≤ n) :
    ∀ b ∈ (eh.split32 bi tmp).buckets, b.kvmap.length ≤ n := by
  have hmem : tmp ∈ eh.buckets := List.getElem?_mem hb
  intro b hbm
  unfold split32 at hbm
  simp only [List.mem_append, List.mem_singleton] at hbm
  rcases hbm with hbm | hbm
  · rcases List.mem_or_eq_of_mem_set hbm with h1 | h1
    · exact hsz b h1
    · rw [h1]
      exact le_trans (List.filter_sublist _).length_le (hsz tmp hmem)
  · rw [hbm]
    exact le_trans (List.filter_sublist _).length_le (hsz tmp hmem)

/-- The loop of `Insert` with the shifts in `int`, when it returns, leaves a
well-formed directory whose buckets hold at most `bucketVolume` entries; the
volume is the same and the directory is not less deep than before. -/
theorem insertLoop32_shape (k : Int) (v : V) :
    ∀ (fuel : Nat) (eh eh1 : ExtendibleHash V), eh.Inv →
      (∀ b ∈ eh.buckets, b.kvmap.length ≤ eh.bucketVolume) →
      insertLoop32 fuel eh k v = some eh1 →
      eh1.Inv ∧ (∀ b ∈ eh1.buckets, b.kvmap.length ≤ eh1.bucketVolume) ∧
        eh1.bucketVolume = eh.bucketVolume ∧ eh.globalDepth ≤ eh1.globalDepth := by
  intro fuel
  induction fuel with
  | zero =>
    intro eh eh1 _ _ hi
    exact Option.noConfusion hi
  | succ f ih =>
    intro eh eh1 h hsz hi
    unfold insertLoop32 at hi
    simp only [List.get?_eq_getElem?] at hi
    split at hi
    · exact Option.noConfusion hi
    · rename_i bi hbi
      split at hi
      · exact Option.noConfusion hi
      · rename_i tmp hb
        have hmem : tmp ∈ eh.buckets := List.getElem?_mem hb
        split at hi
        · rename_i hcond
          simp only [Option.some.injEq] at hi
          rw [← hi]
          have hs := mapSet_sorted tmp.kvmap k v (h.keys_sorted tmp hmem)
          refine ⟨set_bucket_inv eh h bi tmp _ hb rfl hs, ?_, rfl, le_refl _⟩
          intro b hbm
          rcases List.mem_or_eq_of_mem_set hbm with h1 | h1
          · exact hsz b h1
          · rw [h1]
            show (mapSet tmp.kvmap k v).length ≤ eh.bucketVolume
            rw [mapSet_length _ _ _ (h.keys_sorted tmp hmem)]
            have hsz1 := hsz tmp hmem
            rcases hcond with h2 | h2
            · rw [if_pos h2]
              exact hsz1
            · split <;> omega
        · obtain ⟨h1, h2, h3, h4⟩ := ih (eh.split32 bi tmp) eh1 (split32_inv eh h bi tmp hb)
            (split32_size eh bi tmp eh.bucketVolume hb hsz) hi
          exact ⟨h1, h2, h3, le_trans (split32_globalDepth eh bi tmp) h4⟩

theorem Remove32_shape (eh : ExtendibleHash V) (h : eh.Inv)
    (hsz : ∀ b ∈ eh.buckets, b.kvmap.length ≤ eh.bucketVolume) (k : Int) :
    (eh.Remove32 k).1.Inv ∧
      (∀ b ∈ (eh.Remove32 k).1.buckets, b.kvmap.length ≤ (eh.Remove32 k).1.bucketVolume) ∧
      (eh.Remove32 k).1.bucketVolume = eh.bucketVolume ∧
      (eh.Remove32 k).1.globalDepth = eh.globalDepth := by
  unfold Remove32
  simp only [List.get?_eq_getElem?]
  split
  · exact ⟨h, hsz, rfl, rfl⟩
  · rename_i bi hbi
    split
    · exact ⟨h, hsz, rfl, rfl⟩
    · rename_i b hb
      have hmem : b ∈ eh.buckets := List.getElem?_mem hb
      split
      · exact ⟨h, hsz, rfl, rfl⟩
      · refine ⟨set_bucket_inv eh h bi b _ hb rfl
          (sorted_keys_of_sublist (mapErase_sublist b.kvmap k) (h.keys_sorted b hmem)),
          ?_, rfl, rfl⟩
        intro x hx
        rcases List.mem_or_eq_of_mem_set hx with h1 | h1
        · exact hsz x h1
        · rw [h1]
          exact le_trans (mapErase_sublist b.kvmap k).length_le (hsz b hmem)

/-- Calls with the shifts in `int` that return keep the directory well
formed and the buckets within `bucketVolume`, from any such table and with any
bound on the rounds of `Insert`. -/
theorem run32_shape_from (fuel : Nat) (ops : List (HashOp V)) :
    ∀ (eh eh1 : ExtendibleHash V), eh.Inv →
      (∀ b ∈ eh.buckets, b.kvmap.length ≤ eh.bucketVolume) → run32 fuel eh ops = some eh1 →
      eh1.Inv ∧ (∀ b ∈ eh1.buckets, b.kvmap.length ≤ eh1.bucketVolume) ∧
        eh1.bucketVolume = eh.bucketVolume ∧ eh.globalDepth ≤ eh1.globalDepth := by
  induction ops with
  | nil =>
    intro eh eh1 h hsz hrun
    simp only [run32, Option.some.injEq] at hrun
    rw [← hrun]
    exact ⟨h, hsz, rfl, le_refl _⟩
  | cons op rest ih =>
    intro eh eh1 h hsz hrun
    unfold run32 at hrun
    cases hstep : step32 fuel eh op with
    | none =>
      rw [hstep] at hrun
      exact Option.noConfusion hrun
    | some eh0 =>
      rw [hstep] at hrun
      simp only at hrun
      have h0 : eh0.Inv ∧ (∀ b ∈ eh0.buckets, b.kvmap.length ≤ eh0.bucketVolume) ∧
          eh0.bucketVolume = eh.bucketVolume ∧ eh.globalDepth ≤ eh0.globalDepth := by
        cases op with
        | insert k v => exact insertLoop32_shape k v fuel eh eh0 h hsz hstep
        | remove k =>
          have hr : some (eh.Remove32 k).1 = some eh0 := hstep
          rw [← Option.some.inj hr]
          obtain ⟨r1, r2, r3, r4⟩ := Remove32_shape eh h hsz k
          exact ⟨r1, r2, r3, le_of_eq r4.symm⟩
      obtain ⟨i1, i2, i3, i4⟩ := ih eh0 eh1 h0.1 h0.2.1 hrun
      exact ⟨i1, i2, i3.trans h0.2.2.1, le_trans h0.2.2.2 i4⟩

theorem new_size (size : Nat) :
    ∀ b ∈ (ExtendibleHash.new size : ExtendibleHash V).buckets,
      b.kvmap.length ≤ (ExtendibleHash.new size : ExtendibleHash V).bucketVolume := by
  intro b hb
  simp only [new, List.mem_singleton] at hb
  rw [hb]
  exact Nat.zero_le _

/-- Calls on a fresh table with the shifts in `int` that return leave a
well-formed directory whose buckets hold at most `size` entries. -/
theorem run32_new (fuel size : Nat) (ops : List (HashOp V)) (eh : ExtendibleHash V)
    (hrun : run32 fuel (ExtendibleHash.new size : ExtendibleHash V) ops = some eh) :
    eh.Inv ∧ (∀ b ∈ eh.buckets, b.kvmap.length ≤ eh.bucketVolume) ∧ eh.bucketVolume = size := by
  obtain ⟨h1, h2, h3, -⟩ := run32_shape_from fuel ops _ eh (new_inv size) (new_size size) hrun
  exact ⟨h1, h2, h3⟩

set_option maxRecDepth 100000 in
/-- The mask `(1 << g) - 1` of `getBucketId`, computed in `int`, is below
`2 ^ g` and below `2 ^ 31` for every shift count. -/
theorem dispatchMask_lt_aux : ∀ r, r < 32 →
    toSizeT (wrapInt32 (wrapInt32 (2 ^ r) - 1)) < 2 ^ r ∧
    toSizeT (wrapInt32 (wrapInt32 (2 ^ r) - 1)) < 2 ^ 31 := by
  decide

theorem dispatchMask_lt (g : Nat) :
    toSizeT (wrapInt32 (shiftOne g - 1)) < 2 ^ g ∧
    toSizeT (wrapInt32 (shiftOne g - 1)) < 2 ^ 31 := by
  have h := dispatchMask_lt_aux (g % 32) (Nat.mod_lt _ (by decide))
  have hle : 2 ^ (g % 32) ≤ 2 ^ g := Nat.pow_le_pow_right (by decide) (Nat.mod_le _ _)
  unfold shiftOne
  exact ⟨lt_of_lt_of_le h.1 hle, h.2⟩

/-- The slot that `getBucketId` computes in `int` is a slot of the directory,
at every depth. -/
theorem getBucketId32_lt (eh : ExtendibleHash V) (h : eh.Inv) (key : Int) :
    eh.getBucketId32 key < eh.bucketTable.length := by
  rw [h.table_len]
  unfold getBucketId32
  exact lt_of_le_of_lt Nat.and_le_right (dispatchMask_lt eh.globalDepth).1

/-- In a well-formed directory the slot computed in `int` points to a bucket
of the arena. -/
theorem slot32_some (eh : ExtendibleHash V) (h : eh.Inv) (key : Int) :
    ∃ bi tmp, eh.bucketTable[eh.getBucketId32 key]? = some bi ∧ eh.buckets[bi]? = some tmp := by
  have hlt := getBucketId32_lt eh h key
  have hbi : eh.bucketTable[eh.getBucketId32 key]? = some eh.bucketTable[eh.getBucketId32 key] :=
    List.getElem?_eq_getElem hlt
  have hb := h.table_lt _ (List.getElem?_mem hbi)
  exact ⟨_, _, hbi, List.getElem?_eq_getElem hb⟩

/-- With buckets of volume zero the loop with the shifts in `int` splits for
ever: every bucket is empty and full at once. -/
theorem insertLoop32_volume_zero (k : Int) (v : V) :
    ∀ (fuel : Nat) (eh : ExtendibleHash V), eh.Inv → eh.bucketVolume = 0 →
      (∀ b ∈ eh.buckets, b.kvmap.length ≤ eh.bucketVolume) →
      insertLoop32 fuel eh k v = none := by
  intro fuel
  induction fuel with
  | zero =>
    intro eh _ _ _
    rfl
  | succ f ih =>
    intro eh h hvol hsz
    obtain ⟨bi, tmp, hbi, hb⟩ := slot32_some eh h k
    have hlen := hsz tmp (List.getElem?_mem hb)
    rw [hvol] at hlen
    have hnil : tmp.kvmap = [] := List.length_eq_zero.1 (by omega)
    have hcond : ¬ ((mapFind tmp.kvmap k).isSome ∨ tmp.kvmap.length < eh.bucketVolume) := by
      rw [hnil, hvol]
      simp [mapFind]
    unfold insertLoop32
    simp only [List.get?_eq_getElem?, hbi, hb]
    rw [if_neg hcond]
    exact ih _ (split32_inv eh h bi tmp hb) hvol (split32_size eh bi tmp _ hb hsz)

theorem HashKey_zero : HashKey 0 = 0 := rfl

set_option maxRecDepth 100000 in
/-- The hash of `INT_MIN` has its low 31 bits zero, so every mask that
`getBucketId` computes in `int` sends it to slot 0. -/
theorem dispatch_min_aux : ∀ r, r < 32 →
    HashKey (-2147483648) &&& toSizeT (wrapInt32 (wrapInt32 (2 ^ r) - 1)) = 0 := by
  decide

theorem getBucketId32_min (eh : ExtendibleHash V) : eh.getBucketId32 (-2147483648) = 0 := by
  unfold getBucketId32 shiftOne
  exact dispatch_min_aux (eh.globalDepth % 32) (Nat.mod_lt _ (by decide))

/-- A split with the mask in `int` leaves slot 0 and a bucket that holds the
key 0 alone as they are, but for the local depth: the hash of 0 has no bit
set. -/
theorem split32_zero (eh : ExtendibleHash V) (bi d : Nat) (v0 : V)
    (hbi : eh.bucketTable[0]? = some bi)
    (hb : eh.buckets[bi]? = some (Bucket.mk d [(0, v0)])) :
    (eh.split32 bi (Bucket.mk d [(0, v0)])).bucketTable[0]? = some bi ∧
    (eh.split32 bi (Bucket.mk d [(0, v0)])).buckets[bi]? = some (Bucket.mk (d + 1) [(0, v0)]) := by
  have hlt : bi < eh.buckets.length := (List.getElem?_eq_some.1 hb).1
  have hpos : 0 < eh.bucketTable.length := (List.getElem?_eq_some.1 hbi).1
  constructor
  · unfold split32
    simp only [redirectFrom32_get, Nat.zero_add, Nat.zero_and, ne_eq, not_true_eq_false,
      and_false, if_false]
    split
    · rw [List.getElem?_append_left hpos, hbi]
      rfl
    · rw [hbi]
      rfl
  · unfold split32
    simp only
    rw [List.getElem?_append_left (by simpa using hlt), List.getElem?_set_self hlt]
    simp [HashKey_zero]

/-- A table with buckets of one entry whose slot 0 points to a bucket that
holds the key 0 alone: the loop of `Insert(INT_MIN, v)` with the shifts in
`int` goes to slot 0 in every round, finds the bucket full, splits it and
leaves the key 0 where it is; it does not return, whatever the fuel. -/
theorem insertLoop32_stuck (v0 v : V) :
    ∀ (fuel : Nat) (eh : ExtendibleHash V) (bi d : Nat), eh.bucketVolume = 1 →
      eh.bucketTable[0]? = some bi → eh.buckets[bi]? = some (Bucket.mk d [(0, v0)]) →
      insertLoop32 fuel eh (-2147483648) v = none := by
  intro fuel
  induction fuel with
  | zero =>
    intro eh bi d _ _ _
    rfl
  | succ f ih =>
    intro eh bi d hvol hbi hb
    have hcond : ¬ ((mapFind (Bucket.mk d [(0, v0)]).kvmap (-2147483648)).isSome ∨
        (Bucket.mk d [(0, v0)]).kvmap.length < eh.bucketVolume) := by
      rw [hvol]
      simp [mapFind]
    unfold insertLoop32
    simp only [List.get?_eq_getElem?, getBucketId32_min, hbi, hb]
    rw [if_neg hcond]
    obtain ⟨h1, h2⟩ := split32_zero eh bi d v0 hbi hb
    exact ih _ bi (d + 1) hvol h1 h2

end ExtendibleHash
/-! ## Extendible hash table with the shifts in `int`: refinement, shape,
dispatch and the end of the split loop -/

namespace ExtendibleHash

variable {V : Type}

/-- C25: with the directory arithmetic in 32-bit `int` as the source has it,
in the table that a sequence of `Insert` and `Remove` calls on a fresh table
of bucket volume `size` leaves when the calls have returned (after however
many rounds of the split loop), the directory has `2 ^ globalDepth` slots,
every slot points to a bucket, the local depth of that bucket (a natural
number, so not negative) is at most the global depth, the bucket holds at most
`size` entries, and the slot that `getBucketId` computes is a slot of the
directory.  This holds at every depth, also where the shifts wrap around. -/
theorem run32_shape (fuel size : Nat) (ops : List (HashOp V)) (eh : ExtendibleHash V)
    (hrun : run32 fuel (ExtendibleHash.new size : ExtendibleHash V) ops = some eh) :
    eh.bucketTable.length = 2 ^ eh.globalDepth ∧ eh.bucketVolume = size ∧
    (∀ i, i < eh.bucketTable.length →
      ∃ bi b, eh.bucketTable[i]? = some bi ∧ eh.buckets[bi]? = some b ∧
        b.localDepth ≤ eh.globalDepth ∧ b.kvmap.length ≤ size) ∧
    ∀ key, eh.getBucketId32 key < eh.bucketTable.length := by
  obtain ⟨hinv, hsz, hvol⟩ := run32_new fuel size ops eh hrun
  refine ⟨hinv.table_len, hvol, fun i hi => ?_, fun key => getBucketId32_lt eh hinv key⟩
  have hbi : eh.bucketTable[i]? = some eh.bucketTable[i] := List.getElem?_eq_getElem hi
  have hlt := hinv.table_lt _ (List.getElem?_mem hbi)
  have hb : eh.buckets[eh.bucketTable[i]]? = some eh.buckets[eh.bucketTable[i]] :=
    List.getElem?_eq_getElem hlt
  have hmem := List.getElem?_mem hb
  refine ⟨_, _, hbi, hb, hinv.depth_le _ hmem, ?_⟩
  rw [← hvol]
  exact hsz _ hmem

/-- Witness of C25: bucket volume 2, the keys 0 to 4 inserted and the key 1
removed; the directory has four slots. -/
theorem run32_shape_witness :
    ∃ eh : ExtendibleHash Nat,
      run32 3 (ExtendibleHash.new 2 : ExtendibleHash Nat)
        [HashOp.insert 0 10, HashOp.insert 1 11, HashOp.insert 2 12, HashOp.insert 3 13,
          HashOp.insert 4 14, HashOp.remove 1] = some eh ∧
      eh.globalDepth = 2 ∧ eh.bucketTable = [0, 1, 2, 1] ∧
      eh.bucketTable.length = 2 ^ eh.globalDepth ∧
      ∀ i, i < eh.bucketTable.length →
        ∃ bi b, eh.bucketTable[i]? = some bi ∧ eh.buckets[bi]? = some b ∧
          b.localDepth ≤ eh.globalDepth ∧ b.kvmap.length ≤ 2 := by
  have hrun : run32 3 (ExtendibleHash.new 2 : ExtendibleHash Nat)
      [HashOp.insert 0 10, HashOp.insert 1 11, HashOp.insert 2 12, HashOp.insert 3 13,
        HashOp.insert 4 14, HashOp.remove 1] =
      some (ExtendibleHash.mk 2 2 3 [0, 1, 2, 1]
        [Bucket.mk 2 [(0, 10), (4, 14)], Bucket.mk 1 [(3, 13)], Bucket.mk 2 [(2, 12)]]) := by
    with_unfolding_all rfl
  exact ⟨_, hrun, rfl, rfl, (run32_shape 3 2 _ _ hrun).1, (run32_shape 3 2 _ _ hrun).2.2.1⟩

/-- C38, as the code behaves: on the table with buckets of one entry that
holds the key 0, `Insert(INT_MIN, v)` does not come to an end, although the
hashes of 0 and of `INT_MIN = -2147483648` differ.  The source computes
`(1 << globalDepth) - 1` in 32-bit `int`, so every mask of `getBucketId` is
below `2 ^ 31`; the two hashes agree in their low 31 bits, so every round of the
loop goes to slot 0, finds its bucket full with the key 0, splits it and leaves
the key 0 in it.  The loop returns for no bound on its rounds, and so does the
run of the two calls from a fresh table. -/
theorem Insert32_never_returns (v0 v : V) :
    HashKey 0 ≠ HashKey (-2147483648) ∧
    ∃ eh : ExtendibleHash V,
      (∀ fuel, 0 < fuel →
        run32 fuel (ExtendibleHash.new 1 : ExtendibleHash V) [HashOp.insert 0 v0] = some eh) ∧
      eh.bucketVolume = 1 ∧ eh.Find32 0 = some v0 ∧ eh.Find32 (-2147483648) = none ∧
      (∀ fuel, insertLoop32 fuel eh (-2147483648) v = none) ∧
      ∀ fuel, run32 fuel (ExtendibleHash.new 1 : ExtendibleHash V)
        [HashOp.insert 0 v0, HashOp.insert (-2147483648) v] = none := by
  have hfirst : ∀ fuel, 0 < fuel →
      insertLoop32 fuel (ExtendibleHash.new 1 : ExtendibleHash V) 0 v0 =
        some (ExtendibleHash.mk 0 1 1 [0] [Bucket.mk 0 [(0, v0)]]) := by
    intro fuel hf
    obtain ⟨f, rfl⟩ : ∃ f, fuel = f + 1 := ⟨fuel - 1, by omega⟩
    have h0 : (ExtendibleHash.new 1 : ExtendibleHash V).getBucketId32 0 = 0 := by
      unfold getBucketId32
      rw [HashKey_zero, Nat.zero_and]
    unfold insertLoop32
    rw [h0]
    rfl
  have hfind0 : (ExtendibleHash.mk 0 1 1 [0] [Bucket.mk 0 [(0, v0)]]).Find32 0 = some v0 := by
    unfold Find32 getBucketId32
    rw [HashKey_zero, Nat.zero_and]
    rfl
  have hfindm : (ExtendibleHash.mk 0 1 1 [0] [Bucket.mk 0 [(0, v0)]]).Find32 (-2147483648) =
      none := by
    unfold Find32
    rw [getBucketId32_min]
    simp [bucketAt, mapFind]
  have hstuck : ∀ fuel, insertLoop32 fuel
      (ExtendibleHash.mk 0 1 1 [0] [Bucket.mk 0 [(0, v0)]]) (-2147483648) v = none :=
    fun fuel => insertLoop32_stuck v0 v fuel _ 0 0 rfl rfl rfl
  refine ⟨by decide, ExtendibleHash.mk 0 1 1 [0] [Bucket.mk 0 [(0, v0)]], fun fuel hf => ?_,
    rfl, hfind0, hfindm, hstuck, fun fuel => ?_⟩
  · simp only [run32, step32, hfirst fuel hf]
  · cases fuel with
    | zero => rfl
    | succ f =>
      simp only [run32, step32, hfirst (f + 1) (by omega), hstuck]

end ExtendibleHash
/-! ## The key slot of the first entry: what a write to a page changes -/

namespace BPlusTree

theorem arrayOf_eq (t : BPlusTree) (pid : Int) (p : BPlusTreeInternalPage)
    (h : t.getInternal pid = some p) : t.arrayOf pid = p.array := by
  unfold arrayOf
  rw [h]

theorem arrayOf_none (t : BPlusTree) (pid : Int) (h : t.getInternal pid = none) :
    t.arrayOf pid = [] := by
  unfold arrayOf
  rw [h]

theorem mem_arrayOf (t : BPlusTree) (pid : Int) (e : Int × Int) (h : e ∈ t.arrayOf pid) :
    ∃ p, t.getInternal pid = some p ∧ e ∈ p.array := by
  unfold arrayOf at h
  cases hg : t.getInternal pid with
  | none =>
    rw [hg] at h
    cases h
  | some p =>
    rw [hg] at h
    exact ⟨p, rfl, h⟩

theorem getInternal_of_arrayOf (t : BPlusTree) (pid : Int) (h : t.arrayOf pid ≠ []) :
    t.getInternal pid ≠ none := by
  intro hn
  exact h (arrayOf_none t pid hn)

theorem getInternal_setPage_leaf (t : BPlusTree) (q : Int) (l : BPlusTreeLeafPage) :
    (t.setPage q (.leaf l)).getInternal q = none := by
  unfold getInternal
  rw [pages_setPage_self]

theorem getInternal_of_getLeaf (t : BPlusTree) (q : Int) (l : BPlusTreeLeafPage)
    (h : t.getLeaf q = some l) : t.getInternal q = none := by
  have := getLeaf_some t q l h
  unfold getInternal
  rw [this]

theorem arrayOf_setPage_internal (t : BPlusTree) (q : Int) (p : BPlusTreeInternalPage)
    (pid : Int) :
    (t.setPage q (.internal p)).arrayOf pid = if pid = q then p.array else t.arrayOf pid := by
  by_cases h : pid = q
  · rw [if_pos h, h]
    exact arrayOf_eq _ _ _ (getInternal_setPage_self t q p)
  · rw [if_neg h]
    unfold arrayOf
    rw [getInternal_setPage_ne _ _ _ _ h]

theorem arrayOf_setPage_leaf (t : BPlusTree) (q : Int) (l : BPlusTreeLeafPage) (pid : Int) :
    (t.setPage q (.leaf l)).arrayOf pid = if pid = q then [] else t.arrayOf pid := by
  by_cases h : pid = q
  · rw [if_pos h, h]
    exact arrayOf_none _ _ (getInternal_setPage_leaf t q l)
  · rw [if_neg h]
    unfold arrayOf
    rw [getInternal_setPage_ne _ _ _ _ h]

theorem parentOf_setPage (t : BPlusTree) (q : Int) (pg : BPlusTreePage) (pid : Int) :
    (t.setPage q pg).parentOf pid =
      if pid = q then some pg.GetParentPageId else t.parentOf pid := by
  unfold parentOf
  by_cases h : pid = q
  · rw [if_pos h, h, pages_setPage_self]
    rfl
  · rw [if_neg h, pages_setPage_ne _ _ _ _ h]

theorem parentOf_some (t : BPlusTree) (pid q : Int) (h : t.parentOf pid = some q) :
    ∃ pg, t.pages pid = some pg ∧ pg.GetParentPageId = q := by
  unfold parentOf at h
  cases hp : t.pages pid with
  | none =>
    rw [hp] at h
    cases h
  | some pg =>
    rw [hp] at h
    exact ⟨pg, rfl, Option.some.inj h⟩

theorem parentOf_eq (t : BPlusTree) (pid : Int) (pg : BPlusTreePage)
    (h : t.pages pid = some pg) : t.parentOf pid = some pg.GetParentPageId := by
  unfold parentOf
  rw [h]
  rfl

theorem slotKey_eq (t : BPlusTree) (pid : Int) : t.slotKey pid = ((t.arrayOf pid).head?).map Prod.fst :=
  rfl

namespace Mirrored

variable {t : BPlusTree} {x : Int}

/-- A page named in an entry is stored, under a positive id. -/
theorem child_stored (h : t.Mirrored x) (pid : Int) (e : Int × Int) (he : e ∈ t.arrayOf pid) :
    ∃ pg, t.pages e.2 = some pg ∧ pg.GetParentPageId = pid ∧ 0 < e.2 := by
  obtain ⟨pg, h1, h2⟩ := parentOf_some t e.2 pid (h.child pid e he)
  exact ⟨pg, h1, h2, h.shaped.pos _ _ h1⟩

/-- The page that holds an entry is stored, under a positive id. -/
theorem owner_pos (h : t.Mirrored x) (pid : Int) (e : Int × Int) (he : e ∈ t.arrayOf pid) :
    0 < pid := by
  obtain ⟨p, hp, -⟩ := mem_arrayOf t pid e he
  exact h.shaped.pos _ _ (getInternal_some t pid p hp)

/-- A page is named by the entries of one page only. -/
theorem owner_unique (h : t.Mirrored x) (p q : Int) (e f : Int × Int) (he : e ∈ t.arrayOf p)
    (hf : f ∈ t.arrayOf q) (hef : e.2 = f.2) : p = q := by
  have h1 := h.child p e he
  have h2 := h.child q f hf
  rw [hef, h2] at h1
  exact (Option.some.inj h1).symm

/-- Two entries of a page that name the same child are the same entry. -/
theorem entry_unique (h : t.Mirrored x) (p : Int) (e f : Int × Int) (he : e ∈ t.arrayOf p)
    (hf : f ∈ t.arrayOf p) (hef : e.2 = f.2) : e = f := by
  have hn := h.nodup p
  have hinj := List.inj_on_of_nodup_map hn
  exact hinj he hf hef

/-- A page does not name itself. -/
theorem owner_ne (h : t.Mirrored x) (p : Int) (e : Int × Int) (he : e ∈ t.arrayOf p) :
    e.2 ≠ p := by
  obtain ⟨lvl, hl⟩ := h.level
  have := hl p e he
  intro hc
  rw [hc] at this
  omega

/-- An owned page has a parent, so it is not a page without a parent. -/
theorem owned_parent (h : t.Mirrored x) (p : Int) (e : Int × Int) (he : e ∈ t.arrayOf p) :
    t.parentOf e.2 ≠ some INVALID_PAGE_ID := by
  rw [h.child p e he]
  intro hc
  have := h.owner_pos p e he
  have h2 : p = INVALID_PAGE_ID := Option.some.inj hc
  rw [h2] at this
  exact absurd this (by decide)

/-- The invariant depends on the store only through the arrays, the parent
page ids and the kinds of the pages; pages that were not stored before may be
there. -/
theorem of_view (h : t.Mirrored x) (t1 : BPlusTree) (hs : t1.Shaped)
    (hA : ∀ pid, t1.arrayOf pid = t.arrayOf pid)
    (hP : ∀ pid, t.pages pid ≠ none → t1.parentOf pid = t.parentOf pid)
    (hI : ∀ pid, t.pages pid ≠ none → t1.getInternal pid ≠ none → t.getInternal pid ≠ none) :
    t1.Mirrored x := by
  have hS : ∀ pid, t1.slotKey pid = t.slotKey pid := by
    intro pid
    rw [slotKey_eq, slotKey_eq, hA]
  have hst : ∀ pid e, e ∈ t.arrayOf pid → t.pages e.2 ≠ none := by
    intro pid e he
    obtain ⟨pg, h1, -⟩ := h.child_stored pid e he
    rw [h1]
    exact Option.some_ne_none _
  refine ⟨hs, ?_, ?_, ?_, ?_, ?_, ?_⟩
  · intro pid e he
    rw [hA] at he
    rw [hP _ (hst pid e he)]
    exact h.child pid e he
  · intro pid
    rw [hA]
    exact h.nodup pid
  · obtain ⟨lvl, hl⟩ := h.level
    refine ⟨lvl, fun pid e he => ?_⟩
    rw [hA] at he
    exact hl pid e he
  · intro pid e he hx hi
    rw [hA] at he ⊢
    exact h.nonempty pid e he hx (hI _ (hst pid e he) hi)
  · intro pid e he hx k hk
    rw [hA] at he
    rw [hS] at hk
    exact h.slot pid e he hx k hk
  · intro pid hx hp k hk
    rw [hS] at hk
    by_cases hst1 : t.pages pid = none
    · have : t.arrayOf pid = [] := by
        apply arrayOf_none
        unfold getInternal
        rw [hst1]
      rw [slotKey_eq, this] at hk
      cases hk
    · rw [hP _ hst1] at hp
      exact h.top pid hx hp k hk

/-- A page kept under its id, with the maximal size of an internal page at
least 2, keeps the store in shape. -/
theorem shaped_setPage (h : t.Shaped) (pid : Int) (pg : BPlusTreePage)
    (hid : pg.GetPageId = pid) (hlt : pid < t.next_page_id) (hpos : 0 < pid)
    (hmax : ∀ p, pg = .internal p → 2 ≤ p.max_size) : (t.setPage pid pg).Shaped := by
  refine ⟨h.stored.setPage pid pg hid hlt, ?_, h.imax, ?_⟩
  · intro q p hp
    by_cases hq : q = pid
    · rw [hq]
      exact hpos
    · rw [pages_setPage_ne _ _ _ _ hq] at hp
      exact h.pos q p hp
  · intro q p hp
    by_cases hq : q = pid
    · rw [hq] at hp
      have h1 := getInternal_some _ _ _ hp
      rw [pages_setPage_self] at h1
      exact hmax p (Option.some.inj h1)
    · rw [getInternal_setPage_ne _ _ _ _ hq] at hp
      exact h.max q p hp

/-- A write to a leaf page that keeps its page id and its parent page id. -/
theorem setLeaf (h : t.Mirrored x) (l : Int) (L L1 : BPlusTreeLeafPage)
    (hl : t.getLeaf l = some L) (hid : L1.page_id = L.page_id)
    (hpar : L1.parent_page_id = L.parent_page_id) : (t.setPage l (.leaf L1)).Mirrored x := by
  have hL := getLeaf_some t l L hl
  have hsl := h.shaped.stored.leaf hl
  apply h.of_view
  · refine shaped_setPage h.shaped l _ ?_ hsl.2 (h.shaped.pos l _ hL) ?_
    · show L1.page_id = l
      rw [hid]
      exact hsl.1
    · intro p hp
      cases hp
  · intro pid
    rw [arrayOf_setPage_leaf]
    by_cases hq : pid = l
    · rw [if_pos hq, hq, arrayOf_none t l (getInternal_of_getLeaf t l L hl)]
    · rw [if_neg hq]
  · intro pid _
    rw [parentOf_setPage]
    by_cases hq : pid = l
    · rw [if_pos hq, hq, parentOf_eq t l _ hL]
      show some L1.parent_page_id = some L.parent_page_id
      rw [hpar]
    · rw [if_neg hq]
  · intro pid _ hi
    by_cases hq : pid = l
    · rw [hq, getInternal_setPage_leaf] at hi
      exact absurd rfl hi
    · rw [getInternal_setPage_ne _ _ _ _ hq] at hi
      exact hi

end Mirrored

end BPlusTree
/-! ## The key slot of the first entry: entries that move between two pages -/

namespace BPlusTree

namespace Mirrored

variable {t : BPlusTree}

/-- The page that holds an entry is an internal page. -/
theorem owner_internal (t1 : BPlusTree) (pid : Int) (e : Int × Int) (he : e ∈ t1.arrayOf pid) :
    t1.getInternal pid ≠ none := by
  obtain ⟨p, hp, -⟩ := mem_arrayOf t1 pid e he
  rw [hp]
  exact Option.some_ne_none _

/-- A page with a parent page id in its header is stored, under a positive
id. -/
theorem parent_pos (h : t.Shaped) (pid q : Int) (hp : t.parentOf pid = some q) : 0 < pid := by
  obtain ⟨pg, h1, -⟩ := parentOf_some t pid q hp
  exact h.pos _ _ h1

/-- Entries move from the page `a` to the page `b` of the same level, and the
children `Mc` that arrive in `b` get `b` as their parent.  The pages `a` and
`b` keep their first entry, the page `y` apart. -/
theorem move (h : t.Mirrored INVALID_PAGE_ID) (t1 : BPlusTree) (a b y : Int) (Mc : List Int)
    (hs : t1.Shaped) (hab : a ≠ b)
    (hA : ∀ pid, pid ≠ a → pid ≠ b → t1.arrayOf pid = t.arrayOf pid)
    (hI : ∀ pid, t1.getInternal pid ≠ none → t.getInternal pid ≠ none)
    (hsub : (t1.arrayOf a ++ t1.arrayOf b).Subperm (t.arrayOf a ++ t.arrayOf b))
    (hKa : ∀ e ∈ t1.arrayOf a, e ∈ t.arrayOf a ∧ e.2 ∉ Mc)
    (hKb : ∀ e ∈ t1.arrayOf b, e ∈ t.arrayOf b ∨ e.2 ∈ Mc)
    (hP1 : ∀ c, c ∉ Mc → t1.parentOf c = t.parentOf c)
    (hP2 : ∀ c ∈ Mc, t1.parentOf c = some b)
    (hMc : ∀ c ∈ Mc, c ∈ (t1.arrayOf b).map Prod.snd)
    (lvl : Int → Nat) (hlvl : ∀ pid e, e ∈ t.arrayOf pid → lvl pid = lvl e.2 + 1)
    (hlab : lvl a = lvl b)
    (hhead : ∀ z, (z = a ∨ z = b) → z ≠ y → (t1.arrayOf z).head? = (t.arrayOf z).head?) :
    t1.Mirrored y ∧ ∀ pid e, e ∈ t1.arrayOf pid → lvl pid = lvl e.2 + 1 := by
  have hsubset : ∀ e, e ∈ t1.arrayOf a ∨ e ∈ t1.arrayOf b → e ∈ t.arrayOf a ∨ e ∈ t.arrayOf b := by
    intro e he
    have := hsub.subset (List.mem_append.2 he)
    exact List.mem_append.1 this
  -- every entry of the new store is an entry of the old store
  have hold : ∀ pid e, e ∈ t1.arrayOf pid → ∃ pid0, e ∈ t.arrayOf pid0 ∧
      (pid0 = pid ∨ (pid0 = a ∧ pid = b) ∨ (pid0 = b ∧ pid = a)) := by
    intro pid e he
    by_cases hpa : pid = a
    · rw [hpa] at he ⊢
      exact ⟨a, (hKa e he).1, Or.inl rfl⟩
    · by_cases hpb : pid = b
      · rw [hpb] at he ⊢
        rcases hsubset e (Or.inr he) with h1 | h1
        · exact ⟨a, h1, Or.inr (Or.inl ⟨rfl, rfl⟩)⟩
        · exact ⟨b, h1, Or.inl rfl⟩
      · rw [hA pid hpa hpb] at he
        exact ⟨pid, he, Or.inl rfl⟩
  have hnotMc : ∀ pid e, pid ≠ a → pid ≠ b → e ∈ t.arrayOf pid → e.2 ∉ Mc := by
    intro pid e hpa hpb he hc
    obtain ⟨f, hf, hfe⟩ := List.mem_map.1 (hMc _ hc)
    rcases hsubset f (Or.inr hf) with h1 | h1
    · exact hpa (h.owner_unique pid a e f he h1 hfe.symm)
    · exact hpb (h.owner_unique pid b e f he h1 hfe.symm)
  have hslotK : ∀ z, z ≠ y → t1.slotKey z = t.slotKey z := by
    intro z hz
    rw [slotKey_eq, slotKey_eq]
    by_cases hza : z = a
    · rw [hhead z (Or.inl hza) hz]
    · by_cases hzb : z = b
      · rw [hhead z (Or.inr hzb) hz]
      · rw [hA z hza hzb]
  have hne : ∀ z, z ≠ y → t.arrayOf z ≠ [] → t1.arrayOf z ≠ [] := by
    intro z hz hn
    by_cases hza : z = a
    · intro hc
      have := hhead z (Or.inl hza) hz
      rw [hc] at this
      cases hz2 : t.arrayOf z with
      | nil => exact hn hz2
      | cons x l =>
        rw [hz2] at this
        cases this
    · by_cases hzb : z = b
      · intro hc
        have := hhead z (Or.inr hzb) hz
        rw [hc] at this
        cases hz2 : t.arrayOf z with
        | nil => exact hn hz2
        | cons x l =>
          rw [hz2] at this
          cases this
      · rw [hA z hza hzb]
        exact hn
  have hinv : ∀ pid e, e ∈ t.arrayOf pid → e.2 ≠ INVALID_PAGE_ID := by
    intro pid e he hc
    obtain ⟨pg, -, -, hpos⟩ := h.child_stored pid e he
    rw [hc] at hpos
    exact absurd hpos (by decide)
  refine ⟨⟨hs, ?_, ?_, ⟨lvl, ?_⟩, ?_, ?_, ?_⟩, ?_⟩
  · -- child
    intro pid e he
    by_cases hpa : pid = a
    · rw [hpa] at he ⊢
      obtain ⟨h1, h2⟩ := hKa e he
      rw [hP1 _ h2]
      exact h.child a e h1
    · by_cases hpb : pid = b
      · rw [hpb] at he ⊢
        by_cases hm : e.2 ∈ Mc
        · exact hP2 _ hm
        · rw [hP1 _ hm]
          rcases hKb e he with h1 | h1
          · exact h.child b e h1
          · exact absurd h1 hm
      · rw [hA pid hpa hpb] at he
        rw [hP1 _ (hnotMc pid e hpa hpb he)]
        exact h.child pid e he
  · -- nodup
    intro pid
    have hboth : ((t.arrayOf a ++ t.arrayOf b).map Prod.snd).Nodup := by
      rw [List.map_append]
      refine List.Nodup.append (h.nodup a) (h.nodup b) ?_
      intro c hca hcb
      obtain ⟨e, he, hec⟩ := List.mem_map.1 hca
      obtain ⟨f, hf, hfc⟩ := List.mem_map.1 hcb
      exact hab (h.owner_unique a b e f he hf (hec.trans hfc.symm))
    obtain ⟨l, hp, hsl⟩ := hsub
    have h1 : (l.map Prod.snd).Nodup := hboth.sublist (hsl.map Prod.snd)
    have h2 : ((t1.arrayOf a ++ t1.arrayOf b).map Prod.snd).Nodup :=
      ((hp.map Prod.snd).nodup_iff).1 h1
    rw [List.map_append] at h2
    by_cases hpa : pid = a
    · rw [hpa]
      exact h2.of_append_left
    · by_cases hpb : pid = b
      · rw [hpb]
        exact h2.of_append_right
      · rw [hA pid hpa hpb]
        exact h.nodup pid
  · -- level
    intro pid e he
    obtain ⟨pid0, h0, hc⟩ := hold pid e he
    have := hlvl pid0 e h0
    rcases hc with hc | ⟨hc1, hc2⟩ | ⟨hc1, hc2⟩
    · rw [← hc]; exact this
    · rw [hc2, ← hlab, ← hc1]; exact this
    · rw [hc2, hlab, ← hc1]; exact this
  · -- nonempty
    intro pid e he hy hi
    obtain ⟨pid0, h0, -⟩ := hold pid e he
    exact hne _ hy (h.nonempty pid0 e h0 (hinv pid0 e h0) (hI _ hi))
  · -- slot
    intro pid e he hy k hk
    obtain ⟨pid0, h0, -⟩ := hold pid e he
    rw [hslotK _ hy] at hk
    exact h.slot pid0 e h0 (hinv pid0 e h0) k hk
  · -- top
    intro pid hy hp k hk
    have hpos := parent_pos hs pid _ hp
    have hm : pid ∉ Mc := by
      intro hc
      rw [hP2 _ hc] at hp
      obtain ⟨f, hf, -⟩ := List.mem_map.1 (hMc _ hc)
      obtain ⟨p, hp1, -⟩ := mem_arrayOf t1 b f hf
      have hb := hs.pos _ _ (getInternal_some t1 b p hp1)
      rw [Option.some.inj hp] at hb
      exact absurd hb (by decide)
    rw [hP1 _ hm] at hp
    rw [hslotK _ hy] at hk
    refine h.top pid ?_ hp k hk
    intro hc
    rw [hc] at hpos
    exact absurd hpos (by decide)
  · intro pid e he
    obtain ⟨pid0, h0, hc⟩ := hold pid e he
    have := hlvl pid0 e h0
    rcases hc with hc | ⟨hc1, hc2⟩ | ⟨hc1, hc2⟩
    · rw [← hc]; exact this
    · rw [hc2, ← hlab, ← hc1]; exact this
    · rw [hc2, hlab, ← hc1]; exact this

end Mirrored

end BPlusTree
/-! ## The key slot of the first entry: a change of the entries of one page -/

namespace BPlusTree

namespace Mirrored

variable {t : BPlusTree} {x : Int}

/-- The entries of the page `q` change, its children staying among those it
had and its entries too, apart from an entry that names the exempt page `x`.
When `x` is exempt no longer, the entry that names it carries the key of its
slot. -/
theorem setArray (h : t.Mirrored x) (t1 : BPlusTree) (q y : Int) (hs : t1.Shaped)
    (hA : ∀ pid, pid ≠ q → t1.arrayOf pid = t.arrayOf pid)
    (hP : ∀ pid, t1.parentOf pid = t.parentOf pid)
    (hI : ∀ pid, t1.getInternal pid ≠ none → t.getInternal pid ≠ none)
    (hsubc : ((t1.arrayOf q).map Prod.snd).Sublist ((t.arrayOf q).map Prod.snd))
    (hent : ∀ e ∈ t1.arrayOf q, e.2 ≠ x → e ∈ t.arrayOf q)
    (hhead : q ≠ x → q ≠ y → (t1.arrayOf q).head? = (t.arrayOf q).head?)
    (hslotx : x ≠ y → ∀ pid e, e ∈ t1.arrayOf pid → e.2 = x →
      (t1.getInternal x ≠ none → t1.arrayOf x ≠ []) ∧ ∀ k, t1.slotKey x = some k → k = e.1)
    (hxpar : x ≠ y → t.parentOf x ≠ some INVALID_PAGE_ID) : t1.Mirrored y := by
  -- every entry of the new store has an entry of the old store with its child
  have hold : ∀ pid e, e ∈ t1.arrayOf pid → ∃ e0, e0 ∈ t.arrayOf pid ∧ e0.2 = e.2 := by
    intro pid e he
    by_cases hq : pid = q
    · rw [hq] at he ⊢
      have : e.2 ∈ (t.arrayOf q).map Prod.snd := hsubc.subset (List.mem_map_of_mem _ he)
      obtain ⟨e0, h0, h1⟩ := List.mem_map.1 this
      exact ⟨e0, h0, h1⟩
    · rw [hA pid hq] at he
      exact ⟨e, he, rfl⟩
  have hold2 : ∀ pid e, e ∈ t1.arrayOf pid → e.2 ≠ x → e ∈ t.arrayOf pid := by
    intro pid e he hx
    by_cases hq : pid = q
    · rw [hq] at he ⊢
      exact hent e he hx
    · rw [hA pid hq] at he
      exact he
  have hslotK : ∀ z, z ≠ x → z ≠ y → t1.slotKey z = t.slotKey z := by
    intro z hzx hzy
    rw [slotKey_eq, slotKey_eq]
    by_cases hq : z = q
    · rw [hq] at hzx hzy ⊢
      rw [hhead hzx hzy]
    · rw [hA z hq]
  have hne : ∀ z, z ≠ x → z ≠ y → t.arrayOf z ≠ [] → t1.arrayOf z ≠ [] := by
    intro z hzx hzy hn
    by_cases hq : z = q
    · rw [hq] at hzx hzy hn ⊢
      intro hc
      have := hhead hzx hzy
      rw [hc] at this
      cases hz2 : t.arrayOf q with
      | nil => exact hn hz2
      | cons a l =>
        rw [hz2] at this
        cases this
    · rw [hA z hq]
      exact hn
  refine ⟨hs, ?_, ?_, ?_, ?_, ?_, ?_⟩
  · intro pid e he
    obtain ⟨e0, h0, h1⟩ := hold pid e he
    rw [hP, ← h1]
    exact h.child pid e0 h0
  · intro pid
    by_cases hq : pid = q
    · rw [hq]
      exact (h.nodup q).sublist hsubc
    · rw [hA pid hq]
      exact h.nodup pid
  · obtain ⟨lvl, hl⟩ := h.level
    refine ⟨lvl, fun pid e he => ?_⟩
    obtain ⟨e0, h0, h1⟩ := hold pid e he
    rw [← h1]
    exact hl pid e0 h0
  · intro pid e he hy hi
    by_cases hx : e.2 = x
    · have hxy : x ≠ y := by
        rw [← hx]
        exact hy
      rw [hx] at hi ⊢
      exact (hslotx hxy pid e he hx).1 hi
    · exact hne _ hx hy (h.nonempty pid e (hold2 pid e he hx) hx (hI _ hi))
  · intro pid e he hy k hk
    by_cases hx : e.2 = x
    · have hxy : x ≠ y := by
        rw [← hx]
        exact hy
      rw [hx] at hk
      exact (hslotx hxy pid e he hx).2 k hk
    · rw [hslotK _ hx hy] at hk
      exact h.slot pid e (hold2 pid e he hx) hx k hk
  · intro pid hy hp k hk
    rw [hP] at hp
    by_cases hx : pid = x
    · have hxy : x ≠ y := by
        rw [← hx]
        exact hy
      rw [hx] at hp
      exact absurd hp (hxpar hxy)
    · rw [hslotK _ hx hy] at hk
      exact h.top pid hx hp k hk

end Mirrored

namespace Pending

variable {t : BPlusTree} {oldId key newId : Int}

/-- The page a split has filled is stored nowhere as a child, so it is not
the page that holds the entry of the old page. -/
theorem owner_ne_new (h : t.Pending oldId key newId) (P : Int) (e : Int × Int)
    (he : e ∈ t.arrayOf P) (heo : e.2 = oldId) : P ≠ newId := by
  obtain ⟨lvl, hl, hon⟩ := h.level
  have := hl P e he
  rw [heo] at this
  intro hc
  rw [hc] at this
  omega

/-- `InsertNodeAfter` puts the entry of the new page behind the entry of the
old page in the parent `P`, and the new page gets `P` as its parent. -/
theorem adopt (h : t.Pending oldId key newId) (t1 : BPlusTree) (P : Int)
    (pre post : List (Int × Int)) (hs : t1.Shaped)
    (hA : ∀ pid, pid ≠ P → t1.arrayOf pid = t.arrayOf pid)
    (hAP : t.arrayOf P = pre ++ post) (hAP1 : t1.arrayOf P = pre ++ (key, newId) :: post)
    (hpre : pre ≠ []) (hold : ∃ e ∈ t.arrayOf P, e.2 = oldId)
    (hP : ∀ pid, t1.parentOf pid = if pid = newId then some P else t.parentOf pid)
    (hI : ∀ pid, t1.getInternal pid ≠ none → t.getInternal pid ≠ none) :
    t1.Mirrored INVALID_PAGE_ID := by
  have hm := h.mirrored
  obtain ⟨eo, heo, heo2⟩ := hold
  have hPn : P ≠ newId := h.owner_ne_new P eo heo heo2
  have hPpos : 0 < P := hm.owner_pos P eo heo
  have hent : ∀ pid e, e ∈ t1.arrayOf pid → e ∈ t.arrayOf pid ∨ (pid = P ∧ e = (key, newId)) := by
    intro pid e he
    by_cases hq : pid = P
    · rw [hq] at he ⊢
      rw [hAP1] at he
      rw [hAP]
      simp only [List.mem_append, List.mem_cons] at he ⊢
      rcases he with h1 | h1 | h1
      · exact Or.inl (Or.inl h1)
      · exact Or.inr ⟨trivial, h1⟩
      · exact Or.inl (Or.inr h1)
    · rw [hA pid hq] at he
      exact Or.inl he
  have hslotK : ∀ z, t1.slotKey z = t.slotKey z := by
    intro z
    rw [slotKey_eq, slotKey_eq]
    by_cases hq : z = P
    · rw [hq, hAP, hAP1]
      cases pre with
      | nil => exact absurd rfl hpre
      | cons a l => rfl
    · rw [hA z hq]
  have hne : ∀ z, t.arrayOf z ≠ [] → t1.arrayOf z ≠ [] := by
    intro z hn
    by_cases hq : z = P
    · rw [hq, hAP1]
      simp
    · rw [hA z hq]
      exact hn
  refine ⟨hs, ?_, ?_, ?_, ?_, ?_, ?_⟩
  · intro pid e he
    rw [hP]
    rcases hent pid e he with h1 | ⟨h1, h2⟩
    · rw [if_neg (h.fresh pid e h1)]
      exact hm.child pid e h1
    · rw [h2, h1]
      simp
  · intro pid
    by_cases hq : pid = P
    · rw [hq, hAP1]
      have h0 := hm.nodup P
      rw [hAP] at h0
      rw [List.map_append, List.map_cons]
      rw [List.map_append] at h0
      apply List.nodup_middle.2
      refine List.nodup_cons.2 ⟨?_, h0⟩
      intro hc
      rw [← List.map_append, ← hAP] at hc
      obtain ⟨f, hf, hfe⟩ := List.mem_map.1 hc
      exact h.fresh P f hf hfe
    · rw [hA pid hq]
      exact hm.nodup pid
  · obtain ⟨lvl, hl, hon⟩ := h.level
    refine ⟨lvl, fun pid e he => ?_⟩
    rcases hent pid e he with h1 | ⟨h1, h2⟩
    · exact hl pid e h1
    · rw [h2, h1]
      have := hl P eo heo
      rw [heo2] at this
      show lvl P = lvl newId + 1
      rw [hon]
      exact this
  · intro pid e he hy hi
    rcases hent pid e he with h1 | ⟨h1, h2⟩
    · exact hne _ (hm.nonempty pid e h1 (h.fresh pid e h1) (hI _ hi))
    · rw [h2] at hi ⊢
      exact hne _ (h.full (hI _ hi))
  · intro pid e he hy k hk
    rw [hslotK] at hk
    rcases hent pid e he with h1 | ⟨h1, h2⟩
    · exact hm.slot pid e h1 (h.fresh pid e h1) k hk
    · rw [h2] at hk ⊢
      exact h.key k hk
  · intro pid hy hp k hk
    rw [hslotK] at hk
    rw [hP] at hp
    by_cases hn : pid = newId
    · rw [if_pos hn] at hp
      have := Option.some.inj hp
      rw [this] at hPpos
      exact absurd hPpos (by decide)
    · rw [if_neg hn] at hp
      exact hm.top pid hn hp k hk

/-- `InsertIntoParent` on a page without a parent: the fresh page `r` becomes
the parent of the old and of the new page, with the entries
`(0, old), (key, new)`. -/
theorem newRoot (h : t.Pending oldId key newId) (t1 : BPlusTree) (r : Int) (hs : t1.Shaped)
    (hr : t.pages r = none) (hop : t.parentOf oldId = some INVALID_PAGE_ID)
    (hnp : t.parentOf newId ≠ none)
    (hA : ∀ pid, pid ≠ r → t1.arrayOf pid = t.arrayOf pid)
    (hAr : t1.arrayOf r = [(0, oldId), (key, newId)])
    (hP : ∀ pid, t1.parentOf pid = if pid = oldId ∨ pid = newId then some r
      else if pid = r then some INVALID_PAGE_ID else t.parentOf pid)
    (hI : ∀ pid, pid ≠ r → t1.getInternal pid ≠ none → t.getInternal pid ≠ none) :
    t1.Mirrored INVALID_PAGE_ID := by
  have hm := h.mirrored
  have hAr0 : t.arrayOf r = [] := by
    apply arrayOf_none
    unfold getInternal
    rw [hr]
  have hro : r ≠ oldId := by
    intro hc
    rw [← hc] at hop
    unfold parentOf at hop
    rw [hr] at hop
    cases hop
  have hrn : r ≠ newId := by
    intro hc
    rw [← hc] at hnp
    unfold parentOf at hnp
    rw [hr] at hnp
    exact hnp rfl
  have hnamed : ∀ pid e, e ∈ t.arrayOf pid → e.2 ≠ r ∧ e.2 ≠ oldId ∧ e.2 ≠ newId ∧ pid ≠ r := by
    intro pid e he
    refine ⟨?_, ?_, h.fresh pid e he, ?_⟩
    · intro hc
      obtain ⟨pg, h1, -⟩ := hm.child_stored pid e he
      rw [hc, hr] at h1
      cases h1
    · intro hc
      exact hm.owned_parent pid e he (by rw [hc]; exact hop)
    · intro hc
      rw [hc, hAr0] at he
      cases he
  have hent : ∀ pid e, e ∈ t1.arrayOf pid →
      (pid ≠ r ∧ e ∈ t.arrayOf pid) ∨ (pid = r ∧ (e = (0, oldId) ∨ e = (key, newId))) := by
    intro pid e he
    by_cases hq : pid = r
    · rw [hq, hAr] at he
      simp only [List.mem_cons, List.mem_singleton, List.not_mem_nil, or_false] at he
      exact Or.inr ⟨hq, he⟩
    · rw [hA pid hq] at he
      exact Or.inl ⟨hq, he⟩
  have hslotK : ∀ z, z ≠ r → t1.slotKey z = t.slotKey z := by
    intro z hz
    rw [slotKey_eq, slotKey_eq, hA z hz]
  have hrpos : 0 < r := by
    have : t1.getInternal r ≠ none := by
      apply getInternal_of_arrayOf
      rw [hAr]
      simp
    obtain ⟨p, hp⟩ := Option.ne_none_iff_exists'.1 this
    exact hs.pos _ _ (getInternal_some t1 r p hp)
  refine ⟨hs, ?_, ?_, ?_, ?_, ?_, ?_⟩
  · intro pid e he
    rw [hP]
    rcases hent pid e he with ⟨h1, h2⟩ | ⟨h1, h2 | h2⟩
    · obtain ⟨n1, n2, n3, n4⟩ := hnamed pid e h2
      rw [if_neg (by simp [n2, n3]), if_neg n1]
      exact hm.child pid e h2
    · rw [h2, h1]
      simp
    · rw [h2, h1]
      simp
  · intro pid
    by_cases hq : pid = r
    · rw [hq, hAr]
      simp only [List.map_cons, List.map_nil, List.nodup_cons, List.mem_singleton,
        List.not_mem_nil, not_false_eq_true, List.nodup_nil, and_true]
      exact h.ne
    · rw [hA pid hq]
      exact hm.nodup pid
  · obtain ⟨lvl, hl, hon⟩ := h.level
    refine ⟨fun p => if p = r then lvl oldId + 1 else lvl p, fun pid e he => ?_⟩
    rcases hent pid e he with ⟨h1, h2⟩ | ⟨h1, h2 | h2⟩
    · obtain ⟨n1, n2, n3, n4⟩ := hnamed pid e h2
      simp only [if_neg h1, if_neg n1]
      exact hl pid e h2
    · rw [h2, h1]
      simp only [if_true, if_neg (Ne.symm hro)]
    · rw [h2, h1]
      simp only [if_true, if_neg (Ne.symm hrn)]
      rw [hon]
  · intro pid e he hy hi
    rcases hent pid e he with ⟨h1, h2⟩ | ⟨h1, h2 | h2⟩
    · obtain ⟨n1, n2, n3, n4⟩ := hnamed pid e h2
      rw [hA _ n1]
      exact hm.nonempty pid e h2 n3 (hI _ n1 hi)
    · rw [h2] at hi ⊢
      rw [hA _ (Ne.symm hro)]
      exact h.oldfull (hI _ (Ne.symm hro) hi)
    · rw [h2] at hi ⊢
      rw [hA _ (Ne.symm hrn)]
      exact h.full (hI _ (Ne.symm hrn) hi)
  · intro pid e he hy k hk
    rcases hent pid e he with ⟨h1, h2⟩ | ⟨h1, h2 | h2⟩
    · obtain ⟨n1, n2, n3, n4⟩ := hnamed pid e h2
      rw [hslotK _ n1] at hk
      exact hm.slot pid e h2 n3 k hk
    · rw [h2] at hk ⊢
      rw [hslotK _ (Ne.symm hro)] at hk
      exact hm.top oldId h.ne hop k hk
    · rw [h2] at hk ⊢
      rw [hslotK _ (Ne.symm hrn)] at hk
      exact h.key k hk
  · intro pid hy hp k hk
    rw [hP] at hp
    by_cases h1 : pid = oldId ∨ pid = newId
    · rw [if_pos h1] at hp
      have := Option.some.inj hp
      rw [this] at hrpos
      exact absurd hrpos (by decide)
    · rw [if_neg h1] at hp
      by_cases h2 : pid = r
      · rw [h2, slotKey_eq, hAr] at hk
        simp only [List.head?_cons, Option.map_some'] at hk
        exact (Option.some.inj hk).symm
      · rw [if_neg h2] at hp
        rw [hslotK _ h2] at hk
        push_neg at h1
        exact hm.top pid h1.2 hp k hk

end Pending

namespace Mirrored

variable {t : BPlusTree}

/-- `AdjustRoot` on an internal page `r` without a parent that has one child
left: the page loses its entry and the child has no parent any more. -/
theorem adjustRoot (h : t.Mirrored INVALID_PAGE_ID) (t1 : BPlusTree) (r : Int) (e : Int × Int)
    (hs : t1.Shaped) (hAr0 : t.arrayOf r = [e]) (hrp : t.parentOf r = some INVALID_PAGE_ID)
    (hA : ∀ pid, pid ≠ r → t1.arrayOf pid = t.arrayOf pid) (hAr : t1.arrayOf r = [])
    (hP : ∀ pid, t1.parentOf pid = if pid = e.2 then some INVALID_PAGE_ID else t.parentOf pid)
    (hI : ∀ pid, t1.getInternal pid ≠ none → t.getInternal pid ≠ none) :
    t1.Mirrored INVALID_PAGE_ID := by
  have her : e ∈ t.arrayOf r := by
    rw [hAr0]
    simp
  have hent : ∀ pid f, f ∈ t1.arrayOf pid → pid ≠ r ∧ f ∈ t.arrayOf pid ∧ f.2 ≠ e.2 ∧ f.2 ≠ r := by
    intro pid f hf
    by_cases hq : pid = r
    · rw [hq, hAr] at hf
      cases hf
    · rw [hA pid hq] at hf
      refine ⟨hq, hf, ?_, ?_⟩
      · intro hc
        exact hq (h.owner_unique pid r f e hf her hc)
      · intro hc
        exact h.owned_parent pid f hf (by rw [hc]; exact hrp)
  have hinv : ∀ pid f, f ∈ t.arrayOf pid → f.2 ≠ INVALID_PAGE_ID := by
    intro pid f hf hc
    obtain ⟨pg, -, -, hpos⟩ := h.child_stored pid f hf
    rw [hc] at hpos
    exact absurd hpos (by decide)
  have hslotK : ∀ z, z ≠ r → t1.slotKey z = t.slotKey z := by
    intro z hz
    rw [slotKey_eq, slotKey_eq, hA z hz]
  refine ⟨hs, ?_, ?_, ?_, ?_, ?_, ?_⟩
  · intro pid f hf
    obtain ⟨h1, h2, h3, h4⟩ := hent pid f hf
    rw [hP, if_neg h3]
    exact h.child pid f h2
  · intro pid
    by_cases hq : pid = r
    · rw [hq, hAr]
      exact List.nodup_nil
    · rw [hA pid hq]
      exact h.nodup pid
  · obtain ⟨lvl, hl⟩ := h.level
    refine ⟨lvl, fun pid f hf => ?_⟩
    exact hl pid f (hent pid f hf).2.1
  · intro pid f hf hy hi
    obtain ⟨h1, h2, h3, h4⟩ := hent pid f hf
    rw [hA _ h4]
    exact h.nonempty pid f h2 hy (hI _ hi)
  · intro pid f hf hy k hk
    obtain ⟨h1, h2, h3, h4⟩ := hent pid f hf
    rw [hslotK _ h4] at hk
    exact h.slot pid f h2 hy k hk
  · intro pid hy hp k hk
    by_cases hq : pid = r
    · rw [hq, slotKey_eq, hAr] at hk
      cases hk
    · rw [hslotK _ hq] at hk
      rw [hP] at hp
      by_cases hc : pid = e.2
      · rw [hc] at hk
        have h1 := h.slot r e her (hinv r e her) k hk
        have h2 : t.slotKey r = some e.1 := by
          rw [slotKey_eq, hAr0]
          rfl
        have hr : r ≠ INVALID_PAGE_ID := by
          intro hc2
          have := h.owner_pos r e her
          rw [hc2] at this
          exact absurd this (by decide)
        rw [h1]
        exact h.top r hr hrp e.1 h2
      · rw [if_neg hc] at hp
        exact h.top pid hy hp k hk

end Mirrored

end BPlusTree
/-! ## The key slot of the first entry: what the steps of the routines change -/

/-- `ValueIndex` is not negative only when it has found the value. -/
theorem valueIndexFrom_found (v : Int) (l : List (Int × Int)) (s : Int) (hs : 0 ≤ s)
    (h : 0 ≤ BPlusTreeInternalPage.valueIndexFrom v l s) :
    ∃ pre e post, l = pre ++ e :: post ∧ e.2 = v ∧
      BPlusTreeInternalPage.valueIndexFrom v l s = s + pre.length := by
  induction l generalizing s with
  | nil =>
    unfold BPlusTreeInternalPage.valueIndexFrom at h
    omega
  | cons a rest ih =>
    unfold BPlusTreeInternalPage.valueIndexFrom at h ⊢
    by_cases ha : v = a.2
    · rw [if_pos ha]
      exact ⟨[], a, rest, rfl, ha.symm, by simp⟩
    · rw [if_neg ha] at h ⊢
      obtain ⟨pre, e, post, h1, h2, h3⟩ := ih (s + 1) (by omega) h
      refine ⟨a :: pre, e, post, by rw [h1]; rfl, h2, ?_⟩
      rw [h3]
      simp only [List.length_cons, Nat.cast_add, Nat.cast_one]
      ring

theorem ValueIndex_split (p : BPlusTreeInternalPage) (v : Int) (h : 0 ≤ p.ValueIndex v) :
    ∃ pre e post, p.array = pre ++ e :: post ∧ e.2 = v ∧ p.ValueIndex v = pre.length := by
  unfold BPlusTreeInternalPage.ValueIndex at h ⊢
  obtain ⟨pre, e, post, h1, h2, h3⟩ := valueIndexFrom_found v p.array 0 (le_refl 0) h
  exact ⟨pre, e, post, h1, h2, by rw [h3]; simp⟩

theorem entryAt_split (arr : List (Int × Int)) (i : Int) (e : Int × Int)
    (h : entryAt arr i = some e) :
    ∃ pre post, arr = pre ++ e :: post ∧ i = pre.length := by
  unfold entryAt at h
  by_cases hi : 0 ≤ i
  · rw [if_pos hi, List.get?_eq_getElem?] at h
    obtain ⟨hlt, hget⟩ := List.getElem?_eq_some.1 h
    refine ⟨arr.take i.toNat, arr.drop (i.toNat + 1), ?_, ?_⟩
    · rw [← hget]
      have := List.take_append_drop i.toNat arr
      rw [List.drop_eq_getElem_cons hlt] at this
      exact this.symm
    · rw [List.length_take, Nat.min_eq_left (le_of_lt hlt)]
      omega
  · rw [if_neg hi] at h
    cases h

theorem entryAt_append_length (pre post : List (Int × Int)) (e : Int × Int) :
    entryAt (pre ++ e :: post) (pre.length : Int) = some e := by
  rw [BPlusTreeInternalPage.entryAt_nat]
  rw [List.getElem?_append_right (le_refl _)]
  simp

theorem set_append_length (pre post : List (Int × Int)) (e f : Int × Int) :
    (pre ++ e :: post).set pre.length f = pre ++ f :: post := by
  induction pre with
  | nil => rfl
  | cons a l ih => simp [ih]

theorem eraseIdx_append_length (pre post : List (Int × Int)) (e : Int × Int) :
    (pre ++ e :: post).eraseIdx pre.length = pre ++ post := by
  induction pre with
  | nil => rfl
  | cons a l ih => simp [ih]

namespace BPlusTree

theorem setParent_some (t t1 : BPlusTree) (c p : Int) (h : t.setParent c p = some t1) :
    ∃ pg, t.pages c = some pg ∧ t1 = t.setPage c (pg.SetParentPageId p) := by
  unfold setParent at h
  cases hp : t.pages c with
  | none =>
    rw [hp] at h
    cases h
  | some pg =>
    rw [hp] at h
    exact ⟨pg, rfl, (Option.some.inj h).symm⟩

theorem getInternal_setPage (t : BPlusTree) (q pid : Int) (pg : BPlusTreePage) :
    (t.setPage q pg).getInternal pid =
      if pid = q then (match pg with | .internal p => some p | .leaf _ => none)
      else t.getInternal pid := by
  by_cases h : pid = q
  · rw [if_pos h, h]
    unfold getInternal
    rw [pages_setPage_self]
    cases pg <;> rfl
  · rw [if_neg h, getInternal_setPage_ne _ _ _ _ h]

/-- The facts about a store that the invariant of the key slots reads, and
that a change of parent page ids keeps. -/
theorem view_setParent (t t1 : BPlusTree) (c p : Int) (h : t.setParent c p = some t1) :
    (∀ pid, t1.arrayOf pid = t.arrayOf pid) ∧
    (∀ pid, t1.parentOf pid = if pid = c then some p else t.parentOf pid) ∧
    (∀ pid, t1.getInternal pid ≠ none → t.getInternal pid ≠ none) ∧
    (∀ pid, t.pages pid = none → t1.pages pid = none) ∧
    t1.next_page_id = t.next_page_id ∧ t1.internal_max_size = t.internal_max_size ∧
    t1.leaf_max_size = t.leaf_max_size ∧ (t.Shaped → t1.Shaped) := by
  obtain ⟨pg, hpg, ht1⟩ := setParent_some t t1 c p h
  subst ht1
  refine ⟨?_, ?_, ?_, ?_, rfl, rfl, rfl, ?_⟩
  · intro pid
    by_cases hq : pid = c
    · rw [hq]
      cases pg with
      | leaf l =>
        have h1 : t.getInternal c = none := by
          unfold getInternal
          rw [hpg]
        rw [arrayOf_none t c h1]
        exact arrayOf_none _ _ (getInternal_setPage_leaf t c _)
      | internal ip =>
        have h1 : t.getInternal c = some ip := getInternal_eq t c ip hpg
        rw [arrayOf_eq t c ip h1]
        exact arrayOf_eq _ c { ip with parent_page_id := p } (getInternal_setPage_self t c _)
    · unfold arrayOf
      rw [getInternal_setPage_ne _ _ _ _ hq]
  · intro pid
    rw [parentOf_setPage]
    by_cases hq : pid = c
    · rw [if_pos hq, if_pos hq]
      cases pg <;> rfl
    · rw [if_neg hq, if_neg hq]
  · intro pid hi
    by_cases hq : pid = c
    · rw [hq] at hi ⊢
      cases pg with
      | leaf l => exact absurd (getInternal_setPage_leaf t c _) hi
      | internal ip =>
        rw [getInternal_eq t c ip hpg]
        exact Option.some_ne_none _
    · rw [getInternal_setPage_ne _ _ _ _ hq] at hi
      exact hi
  · intro pid hn
    have hq : pid ≠ c := by
      intro hc
      rw [hc, hpg] at hn
      cases hn
    rw [pages_setPage_ne _ _ _ _ hq]
    exact hn
  · intro hs
    refine Mirrored.shaped_setPage hs c _ ?_ (hs.stored.lt hpg) (hs.pos c pg hpg) ?_
    · rw [SetParentPageId_GetPageId]
      exact hs.stored.id hpg
    · intro ip hip
      cases pg with
      | leaf l => cases hip
      | internal ip0 =>
        have h1 : ip.max_size = ip0.max_size := by
          cases hip
          rfl
        rw [h1]
        exact hs.max c ip0 (getInternal_eq t c ip0 hpg)

/-- The loop that gives the children of the entries `l` a new parent changes
parent page ids only. -/
theorem view_reparentAll (l : List (Int × Int)) (p : Int) :
    ∀ t t1 : BPlusTree, t.reparentAll l p = some t1 →
    (∀ pid, t1.arrayOf pid = t.arrayOf pid) ∧
    (∀ pid, t1.parentOf pid = if pid ∈ l.map Prod.snd then some p else t.parentOf pid) ∧
    (∀ pid, t1.getInternal pid ≠ none → t.getInternal pid ≠ none) ∧
    (∀ pid, t.pages pid = none → t1.pages pid = none) ∧
    t1.next_page_id = t.next_page_id ∧ t1.internal_max_size = t.internal_max_size ∧
    t1.leaf_max_size = t.leaf_max_size ∧ (t.Shaped → t1.Shaped) := by
  induction l with
  | nil =>
    intro t t1 h
    unfold reparentAll at h
    cases h
    exact ⟨fun _ => rfl, fun _ => by simp, fun _ h => h, fun _ h => h, rfl, rfl, rfl, fun h => h⟩
  | cons e rest ih =>
    intro t t1 h
    unfold reparentAll at h
    cases hsp : t.setParent e.2 p with
    | none =>
      rw [hsp] at h
      cases h
    | some t0 =>
      rw [hsp] at h
      obtain ⟨a1, a2, a3, a4, a5, a6, a7, a8⟩ := view_setParent t t0 e.2 p hsp
      obtain ⟨b1, b2, b3, b4, b5, b6, b7, b8⟩ := ih t0 t1 h
      refine ⟨fun pid => by rw [b1, a1], ?_, fun pid hi => a3 _ (b3 _ hi),
        fun pid hn => b4 _ (a4 _ hn), by rw [b5, a5], by rw [b6, a6], by rw [b7, a7],
        fun hs => b8 (a8 hs)⟩
      intro pid
      rw [b2, a2]
      by_cases h1 : pid ∈ rest.map Prod.snd
      · rw [if_pos h1, if_pos (by simp only [List.map_cons, List.mem_cons]; exact Or.inr h1)]
      · rw [if_neg h1]
        by_cases h2 : pid = e.2
        · rw [if_pos h2, if_pos (by simp only [List.map_cons, List.mem_cons]; exact Or.inl h2)]
        · rw [if_neg h2, if_neg (by simp only [List.map_cons, List.mem_cons, not_or]; exact ⟨h2, h1⟩)]

/-- A new array in the internal page stored under `q`. -/
theorem view_setArray (t : BPlusTree) (q : Int) (p : BPlusTreeInternalPage)
    (hq : t.getInternal q = some p) (l : List (Int × Int)) :
    (∀ pid, (t.setPage q (.internal { p with array := l })).arrayOf pid =
      if pid = q then l else t.arrayOf pid) ∧
    (∀ pid, (t.setPage q (.internal { p with array := l })).parentOf pid = t.parentOf pid) ∧
    (∀ pid, (t.setPage q (.internal { p with array := l })).getInternal pid ≠ none →
      t.getInternal pid ≠ none) ∧
    (∀ pid, t.pages pid = none → (t.setPage q (.internal { p with array := l })).pages pid = none) ∧
    (t.Shaped → (t.setPage q (.internal { p with array := l })).Shaped) := by
  have hpg := getInternal_some t q p hq
  refine ⟨fun pid => arrayOf_setPage_internal t q _ pid, ?_, ?_, ?_, ?_⟩
  · intro pid
    rw [parentOf_setPage]
    by_cases h : pid = q
    · rw [if_pos h, h, parentOf_eq t q _ hpg]
      rfl
    · rw [if_neg h]
  · intro pid hi
    by_cases h : pid = q
    · rw [h, hq]
      exact Option.some_ne_none _
    · rw [getInternal_setPage_ne _ _ _ _ h] at hi
      exact hi
  · intro pid hn
    have h : pid ≠ q := by
      intro hc
      rw [hc, hpg] at hn
      cases hn
    rw [pages_setPage_ne _ _ _ _ h]
    exact hn
  · intro hs
    refine Mirrored.shaped_setPage hs q _ (hs.stored.internal hq).1 (hs.stored.internal hq).2
      (hs.pos q _ hpg) ?_
    intro ip hip
    have h1 : ip.max_size = p.max_size := by
      cases hip
      rfl
    rw [h1]
    exact hs.max q p hq

/-- A change of the fields of the index that are not pages, the next page id
not going down. -/
theorem shaped_fields (t t1 : BPlusTree) (hp : t1.pages = t.pages)
    (hn : t.next_page_id ≤ t1.next_page_id) (him : t1.internal_max_size = t.internal_max_size)
    (hs : t.Shaped) : t1.Shaped := by
  have hg : ∀ pid, t1.getInternal pid = t.getInternal pid := by
    intro pid
    unfold getInternal
    rw [hp]
  refine ⟨⟨fun pid p h => ?_, ?_⟩, fun pid p h => ?_, ?_, fun pid p h => ?_⟩
  · rw [hp] at h
    exact ⟨hs.stored.id h, lt_of_lt_of_le (hs.stored.lt h) hn⟩
  · exact lt_of_lt_of_le hs.stored.2 hn
  · rw [hp] at h
    exact hs.pos pid p h
  · rw [him]
    exact hs.imax
  · rw [hg] at h
    exact hs.max pid p h

theorem arrayOf_fields (t t1 : BPlusTree) (hp : t1.pages = t.pages) (pid : Int) :
    t1.arrayOf pid = t.arrayOf pid := by
  unfold arrayOf getInternal
  rw [hp]

theorem parentOf_fields (t t1 : BPlusTree) (hp : t1.pages = t.pages) (pid : Int) :
    t1.parentOf pid = t.parentOf pid := by
  unfold parentOf
  rw [hp]

theorem getInternal_fields (t t1 : BPlusTree) (hp : t1.pages = t.pages) (pid : Int) :
    t1.getInternal pid = t.getInternal pid := by
  unfold getInternal
  rw [hp]

theorem UpdateRootPageId_pages (t : BPlusTree) (b : Bool) :
    (t.UpdateRootPageId b).pages = t.pages ∧
    (t.UpdateRootPageId b).next_page_id = t.next_page_id ∧
    (t.UpdateRootPageId b).internal_max_size = t.internal_max_size ∧
    (t.UpdateRootPageId b).leaf_max_size = t.leaf_max_size := by
  unfold UpdateRootPageId
  cases b <;> cases t.header_record <;> exact ⟨rfl, rfl, rfl, rfl⟩

namespace Mirrored

variable {t : BPlusTree}

/-- With no page exempt the invariant holds with any page exempt. -/
theorem weaken (h : t.Mirrored INVALID_PAGE_ID) (x : Int) : t.Mirrored x := by
  have hinv : ∀ pid f, f ∈ t.arrayOf pid → f.2 ≠ INVALID_PAGE_ID := by
    intro pid f hf hc
    obtain ⟨pg, -, -, hpos⟩ := h.child_stored pid f hf
    rw [hc] at hpos
    exact absurd hpos (by decide)
  refine ⟨h.shaped, h.child, h.nodup, h.level, ?_, ?_, ?_⟩
  · intro pid e he _ hi
    exact h.nonempty pid e he (hinv pid e he) hi
  · intro pid e he _ k hk
    exact h.slot pid e he (hinv pid e he) k hk
  · intro pid _ hp k hk
    refine h.top pid ?_ hp k hk
    intro hc
    have := parent_pos h.shaped pid _ hp
    rw [hc] at this
    exact absurd this (by decide)

/-- Changes of fields of the index that are not pages keep the invariant. -/
theorem fields {x : Int} (h : t.Mirrored x) (t1 : BPlusTree) (hp : t1.pages = t.pages)
    (hn : t.next_page_id ≤ t1.next_page_id) (him : t1.internal_max_size = t.internal_max_size) :
    t1.Mirrored x :=
  h.of_view t1 (shaped_fields t t1 hp hn him h.shaped) (arrayOf_fields t t1 hp)
    (fun pid _ => parentOf_fields t t1 hp pid)
    (fun pid _ hi => by rw [getInternal_fields t t1 hp] at hi; exact hi)

end Mirrored

end BPlusTree
/-! ## The key slot of the first entry: `Insert` -/

namespace BPlusTree

theorem MoveHalfTo_parent (p r p1 r1 : BPlusTreeLeafPage) (h : p.MoveHalfTo r = some (p1, r1)) :
    p1.parent_page_id = p.parent_page_id ∧ r1.parent_page_id = r.parent_page_id := by
  unfold BPlusTreeLeafPage.MoveHalfTo at h
  simp only at h
  split at h
  · exact Option.noConfusion h
  · simp only [Option.some.injEq, Prod.mk.injEq] at h
    rw [← h.1, ← h.2]
    exact ⟨rfl, rfl⟩

theorem pages_none_of_next (t : BPlusTree) (hs : t.Stored) : t.pages t.next_page_id = none := by
  cases hp : t.pages t.next_page_id with
  | none => rfl
  | some pg =>
    have := hs.lt hp
    omega

namespace Mirrored

variable {t : BPlusTree}

/-- No entry names a page that is not stored. -/
theorem fresh_of_none {x : Int} (h : t.Mirrored x) (r : Int) (hr : t.pages r = none) :
    ∀ pid e, e ∈ t.arrayOf pid → e.2 ≠ r := by
  intro pid e he hc
  obtain ⟨pg, h1, -⟩ := h.child_stored pid e he
  rw [hc, hr] at h1
  cases h1

/-- A level function can be given any value at a page that is not stored. -/
theorem level_at {x : Int} (h : t.Mirrored x) (r a : Int) (hr : t.pages r = none) :
    ∃ lvl : Int → Nat, (∀ pid e, e ∈ t.arrayOf pid → lvl pid = lvl e.2 + 1) ∧ lvl r = lvl a := by
  obtain ⟨lvl, hl⟩ := h.level
  have hAr : t.arrayOf r = [] := by
    apply arrayOf_none
    unfold getInternal
    rw [hr]
  by_cases hra : r = a
  · exact ⟨lvl, hl, by rw [hra]⟩
  · refine ⟨fun p => if p = r then lvl a else lvl p, fun pid e he => ?_, ?_⟩
    · have h1 : pid ≠ r := by
        intro hc
        rw [hc, hAr] at he
        cases he
      have h2 := h.fresh_of_none r hr pid e he
      simp only [if_neg h1, if_neg h2]
      exact hl pid e he
    · simp only [if_true, if_neg (Ne.symm hra)]

/-- `Split` of a leaf page leaves the state in which `InsertIntoParent` is
called. -/
theorem splitLeaf (h : t.Mirrored INVALID_PAGE_ID) (nodeId newId : Int) (t2 : BPlusTree)
    (hs : t.SplitLeaf nodeId = some (t2, newId)) (key : Int) : t2.Pending nodeId key newId := by
  have hnone := pages_none_of_next t h.shaped.stored
  unfold SplitLeaf at hs
  simp only [NewPage] at hs
  split at hs
  · exact Option.noConfusion hs
  · rename_i node hnode
    have hnode2 : t.getLeaf nodeId = some node := hnode
    have hn := h.shaped.stored.leaf hnode2
    have hpg := getLeaf_some t nodeId node hnode2
    split at hs
    · exact Option.noConfusion hs
    · rename_i node1 new1 hmove
      have hids := BPlusTreeLeafPage.MoveHalfTo_page_id _ _ _ _ hmove
      have hpar := MoveHalfTo_parent _ _ _ _ hmove
      simp only [Option.some.injEq, Prod.mk.injEq] at hs
      obtain ⟨hs1, hs2⟩ := hs
      subst hs2
      subst hs1
      have hne : nodeId ≠ t.next_page_id := by omega
      have hpos : 0 < t.next_page_id := h.shaped.stored.2
      have hsh1 : Shaped { t with next_page_id := t.next_page_id + 1 } :=
        shaped_fields t _ rfl (by show t.next_page_id ≤ t.next_page_id + 1; omega) rfl h.shaped
      have hsh2 := shaped_setPage hsh1 t.next_page_id (.leaf new1) hids.2
        (by show t.next_page_id < t.next_page_id + 1; omega) hpos (fun p hp => by cases hp)
      have hsh3 := shaped_setPage hsh2 nodeId (.leaf node1) (hids.1.trans hn.1)
        (by show nodeId < t.next_page_id + 1; omega) (h.shaped.pos _ _ hpg) (fun p hp => by cases hp)
      have hA : ∀ pid, arrayOf (({ t with next_page_id := t.next_page_id + 1 }.setPage
          t.next_page_id (.leaf new1)).setPage nodeId (.leaf node1)) pid = t.arrayOf pid := by
        intro pid
        rw [arrayOf_setPage_leaf, arrayOf_setPage_leaf]
        by_cases h1 : pid = nodeId
        · rw [if_pos h1, h1, arrayOf_none t nodeId (getInternal_of_getLeaf t nodeId node hnode2)]
        · rw [if_neg h1]
          by_cases h2 : pid = t.next_page_id
          · rw [if_pos h2, h2]
            symm
            apply arrayOf_none
            unfold getInternal
            rw [hnone]
          · rw [if_neg h2]
            rfl
      have hm : Mirrored (({ t with next_page_id := t.next_page_id + 1 }.setPage
          t.next_page_id (.leaf new1)).setPage nodeId (.leaf node1)) t.next_page_id := by
        refine (h.weaken t.next_page_id).of_view _ hsh3 hA ?_ ?_
        · intro pid hst
          rw [parentOf_setPage, parentOf_setPage]
          by_cases h1 : pid = nodeId
          · rw [if_pos h1, h1, parentOf_eq t nodeId _ hpg]
            show some node1.parent_page_id = some node.parent_page_id
            rw [hpar.1]
          · rw [if_neg h1]
            by_cases h2 : pid = t.next_page_id
            · rw [h2] at hst
              exact absurd hnone hst
            · rw [if_neg h2]
              rfl
        · intro pid hst hi
          rw [getInternal_setPage, getInternal_setPage] at hi
          by_cases h1 : pid = nodeId
          · rw [if_pos h1] at hi
            exact absurd rfl hi
          · rw [if_neg h1] at hi
            by_cases h2 : pid = t.next_page_id
            · rw [if_pos h2] at hi
              exact absurd rfl hi
            · rw [if_neg h2] at hi
              exact hi
      have hleafN : getInternal (({ t with next_page_id := t.next_page_id + 1 }.setPage
          t.next_page_id (.leaf new1)).setPage nodeId (.leaf node1)) t.next_page_id = none := by
        rw [getInternal_setPage, if_neg (Ne.symm hne), getInternal_setPage, if_pos rfl]
      have hleafO : getInternal (({ t with next_page_id := t.next_page_id + 1 }.setPage
          t.next_page_id (.leaf new1)).setPage nodeId (.leaf node1)) nodeId = none := by
        rw [getInternal_setPage, if_pos rfl]
      refine ⟨hm, hne, ?_, ?_, fun hi => absurd hleafN hi, fun hi => absurd hleafO hi, ?_⟩
      · intro pid e he
        rw [hA] at he
        exact h.fresh_of_none _ hnone pid e he
      · intro k hk
        rw [slotKey_eq, arrayOf_none _ _ hleafN] at hk
        cases hk
      · obtain ⟨lvl, hl, hlr⟩ := h.level_at t.next_page_id nodeId hnone
        refine ⟨lvl, fun pid e he => ?_, hlr⟩
        rw [hA] at he
        exact hl pid e he

theorem take_half_append (l : List (Int × Int)) (now m : Nat) (h : now ≤ m) :
    l.take now ++ (l.take m).drop now = l.take m := by
  have h1 := List.take_append_drop now (l.take m)
  rw [List.take_take, Nat.min_eq_left h] at h1
  exact h1

/-- `MoveHalfTo` of the internal page `a` to the empty page `b` that no entry
names and that lies in the level of `a`. -/
theorem moveHalf (h : t.Mirrored INVALID_PAGE_ID) (a b : Int) (t2 : BPlusTree)
    (hf : t.internalMoveHalfTo a b = some t2) (hab : a ≠ b) (hbe : t.arrayOf b = [])
    (hfresh : ∀ pid e, e ∈ t.arrayOf pid → e.2 ≠ b)
    (lvl : Int → Nat) (hlvl : ∀ pid e, e ∈ t.arrayOf pid → lvl pid = lvl e.2 + 1)
    (hlab : lvl a = lvl b) :
    t2.Mirrored b ∧ (∀ pid e, e ∈ t2.arrayOf pid → lvl pid = lvl e.2 + 1) ∧
      (∀ pid e, e ∈ t2.arrayOf pid → e.2 ≠ b) ∧ t2.arrayOf a ≠ [] ∧
      t2.parentOf b = t.parentOf b ∧ t2.parentOf a = t.parentOf a := by
  unfold internalMoveHalfTo at hf
  split at hf
  · rename_i p r hp hr
    simp only at hf
    split at hf
    · exact Option.noConfusion hf
    · rename_i hlen
      generalize hmv : (p.array.take (p.max_size + 1)).drop ((p.max_size + 1) / 2) = moved at hf
      generalize hkp : p.array.take ((p.max_size + 1) / 2) = kept at hf
      split at hf
      · exact Option.noConfusion hf
      · rename_i tb htb
        obtain ⟨b1, b2, b3, b4, b5, b6, b7, b8⟩ := view_reparentAll _ _ t tb htb
        split at hf
        · rename_i p1 r1 hp1 hr1
          simp only [Option.some.injEq] at hf
          have hmax := h.shaped.max a p hp
          have hrid : r.page_id = b := (h.shaped.stored.internal hr).1
          have hAa : t.arrayOf a = p.array := arrayOf_eq t a p hp
          obtain ⟨c1, c2, c3, c4, c5⟩ := view_setArray tb b r1 hr1 moved
          have hp1b : (tb.setPage b (.internal { r1 with array := moved })).getInternal a =
              some p1 := by
            rw [getInternal_setPage_ne _ _ _ _ hab]
            exact hp1
          obtain ⟨d1, d2, d3, d4, d5⟩ := view_setArray _ a p1 hp1b kept
          rw [hf] at d1 d2 d3 d4 d5
          have hA2a : t2.arrayOf a = kept := by
            rw [d1, if_pos rfl]
          have hA2b : t2.arrayOf b = moved := by
            rw [d1, if_neg (Ne.symm hab), c1, if_pos rfl]
          have hA2 : ∀ pid, pid ≠ a → pid ≠ b → t2.arrayOf pid = t.arrayOf pid := by
            intro pid h1 h2
            rw [d1, if_neg h1, c1, if_neg h2, b1]
          have hP2 : ∀ c, t2.parentOf c =
              if c ∈ moved.map Prod.snd then some b else t.parentOf c := by
            intro c
            rw [d2, c2, b2, hrid]
          have hnow : 1 ≤ (p.max_size + 1) / 2 := by omega
          have hnm : (p.max_size + 1) / 2 ≤ p.max_size + 1 := Nat.div_le_self _ _
          have hnd : ((p.array.take (p.max_size + 1)).map Prod.snd).Nodup := by
            have := h.nodup a
            rw [hAa] at this
            exact this.sublist ((List.take_sublist _ _).map _)
          have happ : kept ++ moved = p.array.take (p.max_size + 1) := by
            rw [← hmv, ← hkp]
            exact take_half_append p.array _ _ hnm
          rw [← happ, List.map_append] at hnd
          have hdisj := (List.nodup_append.1 hnd).2.2
          have hmovedA : ∀ e ∈ moved, e ∈ t.arrayOf a := by
            intro e he
            rw [hAa]
            rw [← hmv] at he
            exact List.mem_of_mem_take (List.mem_of_mem_drop he)
          have hkeptA : ∀ e ∈ kept, e ∈ t.arrayOf a := by
            intro e he
            rw [hAa]
            rw [← hkp] at he
            exact List.mem_of_mem_take he
          have hkhead : kept.head? = p.array.head? ∧ kept ≠ [] := by
            rw [← hkp]
            obtain ⟨n, hn⟩ : ∃ n, (p.max_size + 1) / 2 = n + 1 :=
              ⟨_, (Nat.sub_add_cancel hnow).symm⟩
            rw [hn]
            cases hpa : p.array with
            | nil =>
              rw [hpa] at hlen
              simp at hlen
            | cons x l => simp
          have hnotM : ∀ c, c ∈ moved.map Prod.snd → c ≠ b := by
            intro c hc
            obtain ⟨e, he, hec⟩ := List.mem_map.1 hc
            rw [← hec]
            exact hfresh a e (hmovedA e he)
          have hres := h.move t2 a b b (moved.map Prod.snd)
            (d5 (c5 (b8 h.shaped))) hab hA2
            (fun pid hi => b3 _ (c3 _ (d3 _ hi)))
            (by
              rw [hA2a, hA2b, happ, hAa, hbe, List.append_nil]
              exact (List.take_sublist _ _).subperm)
            (by
              intro e he
              rw [hA2a] at he
              refine ⟨hkeptA e he, fun hc => ?_⟩
              exact hdisj (List.mem_map_of_mem Prod.snd he) hc)
            (by
              intro e he
              rw [hA2b] at he
              exact Or.inr (List.mem_map_of_mem Prod.snd he))
            (by
              intro c hc
              rw [hP2, if_neg hc])
            (by
              intro c hc
              rw [hP2, if_pos hc])
            (by
              intro c hc
              rw [hA2b]
              exact hc)
            lvl hlvl hlab
            (by
              intro z hz hzb
              rcases hz with hz | hz
              · rw [hz, hA2a, hAa]
                exact hkhead.1
              · exact absurd hz hzb)
          refine ⟨hres.1, hres.2, ?_, ?_, ?_, ?_⟩
          · intro pid e he
            by_cases h1 : pid = a
            · rw [h1, hA2a] at he
              exact hfresh a e (hkeptA e he)
            · by_cases h2 : pid = b
              · rw [h2, hA2b] at he
                exact hfresh a e (hmovedA e he)
              · rw [hA2 pid h1 h2] at he
                exact hfresh pid e he
          · rw [hA2a]
            exact hkhead.2
          · rw [hP2, if_neg (fun hc => hnotM b hc rfl)]
          · rw [hP2, if_neg]
            intro hc
            obtain ⟨e, he, hec⟩ := List.mem_map.1 hc
            have := hlvl a e (hmovedA e he)
            rw [hec] at this
            omega
        · exact Option.noConfusion hf
  · exact Option.noConfusion hf

/-- `Split` of an internal page leaves the state in which `InsertIntoParent` is
called, `k0` being the key in the slot of the first entry of the new page. -/
theorem splitInternal (h : t.Mirrored INVALID_PAGE_ID) (nodeId newId : Int) (t2 : BPlusTree)
    (hs : t.SplitInternal nodeId = some (t2, newId)) (hnode : t.pages nodeId ≠ none) (k0 : Int)
    (hk : ∀ k, t2.slotKey newId = some k → k = k0) (hfull : t2.arrayOf newId ≠ []) :
    t2.Pending nodeId k0 newId := by
  have hnone := pages_none_of_next t h.shaped.stored
  have hpos : 0 < t.next_page_id := h.shaped.stored.2
  have hne : nodeId ≠ t.next_page_id := by
    intro hc
    rw [hc] at hnode
    exact hnode hnone
  have hAr0 : t.arrayOf t.next_page_id = [] := by
    apply arrayOf_none
    unfold getInternal
    rw [hnone]
  unfold SplitInternal at hs
  simp only [NewPage] at hs
  split at hs
  · exact Option.noConfusion hs
  · rename_i t3 hmove
    simp only [Option.some.injEq, Prod.mk.injEq] at hs
    obtain ⟨hs1, hs2⟩ := hs
    subst hs2
    subst hs1
    have hsh1 : Shaped { t with next_page_id := t.next_page_id + 1 } :=
      shaped_fields t _ rfl (by show t.next_page_id ≤ t.next_page_id + 1; omega) rfl h.shaped
    have hsh2 := shaped_setPage hsh1 t.next_page_id
      (.internal (BPlusTreeInternalPage.Init t.next_page_id INVALID_PAGE_ID t.internal_max_size))
      rfl (by show t.next_page_id < t.next_page_id + 1; omega) hpos
      (fun p hp => by
        cases hp
        exact h.shaped.imax)
    have hA : ∀ pid, arrayOf ({ t with next_page_id := t.next_page_id + 1 }.setPage
        t.next_page_id (.internal (BPlusTreeInternalPage.Init t.next_page_id INVALID_PAGE_ID
          t.internal_max_size))) pid = t.arrayOf pid := by
      intro pid
      rw [arrayOf_setPage_internal]
      by_cases h2 : pid = t.next_page_id
      · rw [if_pos h2, h2, hAr0]
        rfl
      · rw [if_neg h2]
        rfl
    have hm := h.of_view _ hsh2 hA
      (by
        intro pid hst
        rw [parentOf_setPage]
        by_cases h2 : pid = t.next_page_id
        · rw [h2] at hst
          exact absurd hnone hst
        · rw [if_neg h2]
          rfl)
      (by
        intro pid hst hi
        rw [getInternal_setPage] at hi
        by_cases h2 : pid = t.next_page_id
        · rw [h2] at hst
          exact absurd hnone hst
        · rw [if_neg h2] at hi
          exact hi)
    obtain ⟨lvl, hl, hlr⟩ := h.level_at t.next_page_id nodeId hnone
    obtain ⟨r1, r2, r3, r4, r5, r6⟩ := hm.moveHalf nodeId t.next_page_id t3 hmove hne
      (by rw [hA]; exact hAr0)
      (by
        intro pid e he
        rw [hA] at he
        exact h.fresh_of_none _ hnone pid e he)
      lvl
      (by
        intro pid e he
        rw [hA] at he
        exact hl pid e he)
      hlr.symm
    exact ⟨r1, hne, r3, hk, fun _ => hfull, fun _ => r4, ⟨lvl, r2, hlr⟩⟩

end Mirrored

theorem InsertNodeAfter_split (p p1 : BPlusTreeInternalPage) (old key new : Int)
    (h : p.InsertNodeAfter old key new = some p1) :
    ∃ pre e post, p.array = (pre ++ [e]) ++ post ∧ e.2 = old ∧
      p1 = { p with array := (pre ++ [e]) ++ (key, new) :: post } := by
  unfold BPlusTreeInternalPage.InsertNodeAfter at h
  simp only at h
  split at h
  · rename_i hnow
    obtain ⟨pre, e, post, h1, h2, h3⟩ := ValueIndex_split p old (by omega)
    refine ⟨pre, e, post, by rw [h1]; simp, h2, ?_⟩
    simp only [Option.some.injEq] at h
    rw [← h, h3]
    have h4 : ((pre.length : Int) + 1).toNat = pre.length + 1 := by omega
    rw [h4, h1]
    have h5 : (pre ++ e :: post).take (pre.length + 1) = pre ++ [e] := by
      rw [List.take_append_eq_append_take]
      simp
    have h6 : (pre ++ e :: post).drop (pre.length + 1) = post := by
      rw [List.drop_append_eq_append_drop]
      simp
    rw [h5, h6]
  · exact Option.noConfusion h

theorem KeyAt_zero (p : BPlusTreeInternalPage) (k : Int) (h : p.KeyAt 0 = some k) :
    p.array ≠ [] ∧ (p.array.head?).map Prod.fst = some k := by
  unfold BPlusTreeInternalPage.KeyAt entryAt at h
  cases hp : p.array with
  | nil =>
    rw [hp] at h
    simp at h
  | cons a l =>
    rw [hp] at h
    simp at h
    simp [h]

namespace Pending

/-- `InsertIntoParent` ends in a store in which every internal page keeps the
key of its parent entry in the slot of its first entry. -/
theorem insertIntoParent (fuel : Nat) :
    ∀ (t : BPlusTree) (oldId key newId : Int) (t1 : BPlusTree), t.Pending oldId key newId →
      InsertIntoParent fuel t oldId key newId = some t1 → t1.Mirrored INVALID_PAGE_ID := by
  induction fuel with
  | zero =>
    intro t oldId key newId t1 h hf
    simp [InsertIntoParent] at hf
  | succ fuel ih =>
    intro t oldId key newId t1 h hf
    have hm := h.mirrored
    unfold InsertIntoParent at hf
    split at hf
    · rename_i old_node new_node hold hnew
      have hoid := hm.shaped.stored.id hold
      have hnid := hm.shaped.stored.id hnew
      rw [hoid, hnid] at hf
      split at hf
      · -- a new root
        rename_i hroot
        simp only [NewPage] at hf
        split at hf
        · exact Option.noConfusion hf
        · rename_i t4 ht4
          split at hf
          · exact Option.noConfusion hf
          · rename_i t5 ht5
            simp only [Option.some.injEq] at hf
            have hnone := pages_none_of_next t hm.shaped.stored
            have hpos : 0 < t.next_page_id := hm.shaped.stored.2
            obtain ⟨a1, a2, a3, a4, a5, a6, a7, a8⟩ := view_setParent _ t4 _ _ ht4
            obtain ⟨b1, b2, b3, b4, b5, b6, b7, b8⟩ := view_setParent _ t5 _ _ ht5
            obtain ⟨u1, u2, u3, u4⟩ := UpdateRootPageId_pages t5 false
            rw [hf] at u1 u2 u3 u4
            have hsh1 : Shaped { t with next_page_id := t.next_page_id + 1, root_page_id := t.next_page_id } :=
              shaped_fields t _ rfl (by show t.next_page_id ≤ t.next_page_id + 1; omega) rfl
                hm.shaped
            have hsh2 := Mirrored.shaped_setPage hsh1 t.next_page_id
              (.internal ((BPlusTreeInternalPage.Init t.next_page_id INVALID_PAGE_ID
                t.internal_max_size).PopulateNewRoot oldId key newId))
              rfl (by show t.next_page_id < t.next_page_id + 1; omega) hpos
              (fun p hp => by
                cases hp
                exact hm.shaped.imax)
            have hshF : t1.Shaped :=
              shaped_fields t5 t1 u1 (le_of_eq u2.symm) u3 (b8 (a8 hsh2))
            refine h.newRoot t1 t.next_page_id hshF hnone ?_ ?_ ?_ ?_ ?_ ?_
            · rw [parentOf_eq t oldId _ hold]
              unfold BPlusTreePage.IsRootPage at hroot
              simp only [beq_iff_eq] at hroot
              rw [hroot]
            · rw [parentOf_eq t newId _ hnew]
              exact Option.some_ne_none _
            · intro pid hpid
              rw [arrayOf_fields t5 t1 u1, b1, a1, arrayOf_setPage_internal, if_neg hpid]
              rfl
            · rw [arrayOf_fields t5 t1 u1, b1, a1, arrayOf_setPage_internal, if_pos rfl]
              rfl
            · intro pid
              rw [parentOf_fields t5 t1 u1, b2, a2, parentOf_setPage]
              by_cases h1 : pid = newId
              · rw [if_pos h1, if_pos (Or.inr h1)]
              · rw [if_neg h1]
                by_cases h2 : pid = oldId
                · rw [if_pos h2, if_pos (Or.inl h2)]
                · rw [if_neg h2, if_neg (show ¬(pid = oldId ∨ pid = newId) from fun hc => hc.elim h2 h1)]
                  by_cases h3 : pid = t.next_page_id
                  · rw [if_pos h3, if_pos h3]
                    rfl
                  · rw [if_neg h3, if_neg h3]
                    rfl
            · intro pid hpid hi
              rw [getInternal_fields t5 t1 u1] at hi
              have := a3 _ (b3 _ hi)
              rw [getInternal_setPage, if_neg hpid] at this
              exact this
      · -- an entry more in the parent
        rename_i hroot
        simp only at hf
        split at hf
        · exact Option.noConfusion hf
        · rename_i ta hta
          obtain ⟨a1, a2, a3, a4, a5, a6, a7, a8⟩ := view_setParent _ ta _ _ hta
          split at hf
          · exact Option.noConfusion hf
          · rename_i parent hparent
            split at hf
            · exact Option.noConfusion hf
            · rename_i parent1 hins
              obtain ⟨pre, e, post, hp1, hp2, hp3⟩ := InsertNodeAfter_split _ _ _ _ _ hins
              subst hp3
              obtain ⟨c1, c2, c3, c4, c5⟩ := view_setArray ta _ parent hparent
                ((pre ++ [e]) ++ (key, newId) :: post)
              have hAP : t.arrayOf old_node.GetParentPageId = (pre ++ [e]) ++ post := by
                rw [← a1, arrayOf_eq ta _ parent hparent, hp1]
              have hmb := h.adopt _ old_node.GetParentPageId (pre ++ [e]) post (c5 (a8 hm.shaped))
                (by
                  intro pid hpid
                  rw [c1, if_neg hpid, a1])
                hAP
                (by rw [c1, if_pos rfl])
                (by simp)
                ⟨e, by rw [hAP]; simp, hp2⟩
                (by
                  intro pid
                  rw [c2, a2])
                (fun pid hi => a3 _ (c3 _ hi))
              split at hf
              · split at hf
                · exact Option.noConfusion hf
                · rename_i t3 new_leaf hsplit
                  split at hf
                  · exact Option.noConfusion hf
                  · rename_i np hnp
                    split at hf
                    · exact Option.noConfusion hf
                    · rename_i k0 hk0
                      obtain ⟨hk1, hk2⟩ := KeyAt_zero np k0 hk0
                      have hAn : t3.arrayOf new_leaf = np.array := arrayOf_eq t3 _ np hnp
                      refine ih t3 _ k0 new_leaf t1 ?_ hf
                      refine hmb.splitInternal _ _ t3 hsplit ?_ k0 ?_ ?_
                      · rw [pages_setPage_self]
                        exact Option.some_ne_none _
                      · intro k hk
                        rw [slotKey_eq, hAn, hk2] at hk
                        exact (Option.some.inj hk).symm
                      · rw [hAn]
                        exact hk1
              · simp only [Option.some.injEq] at hf
                rw [← hf]
                exact hmb
    · exact Option.noConfusion hf

end Pending

end BPlusTree

namespace BPlusTree

theorem leaf_Insert_header (p : BPlusTreeLeafPage) (k v : Int) :
    (p.Insert k v).page_id = p.page_id ∧ (p.Insert k v).parent_page_id = p.parent_page_id := by
  unfold BPlusTreeLeafPage.Insert
  split
  · exact ⟨rfl, rfl⟩
  · split <;> exact ⟨rfl, rfl⟩

namespace Mirrored

variable {t : BPlusTree}

/-- `StartNewTree` adds a leaf page. -/
theorem startNewTree (h : t.Mirrored INVALID_PAGE_ID) (key value : Int) :
    (t.StartNewTree key value).Mirrored INVALID_PAGE_ID := by
  have hnone := pages_none_of_next t h.shaped.stored
  have hpos : 0 < t.next_page_id := h.shaped.stored.2
  unfold StartNewTree
  simp only [NewPage]
  obtain ⟨u1, u2, u3, u4⟩ := UpdateRootPageId_pages
    { t with next_page_id := t.next_page_id + 1, root_page_id := t.next_page_id } true
  have hsh1 := shaped_fields t _ u1 (by rw [u2]; show t.next_page_id ≤ t.next_page_id + 1; omega)
    u3 h.shaped
  have hsh2 := shaped_setPage hsh1 t.next_page_id
    (.leaf ((BPlusTreeLeafPage.Init t.next_page_id INVALID_PAGE_ID t.leaf_max_size).Insert key value))
    (leaf_Insert_header _ key value).1
    (by rw [u2]; show t.next_page_id < t.next_page_id + 1; omega) hpos (fun p hp => by cases hp)
  refine h.of_view _ hsh2 ?_ ?_ ?_
  · intro pid
    rw [arrayOf_setPage_leaf]
    by_cases h2 : pid = t.next_page_id
    · rw [if_pos h2, h2]
      symm
      apply arrayOf_none
      unfold getInternal
      rw [hnone]
    · rw [if_neg h2]
      exact arrayOf_fields t _ u1 pid
  · intro pid hst
    rw [parentOf_setPage]
    by_cases h2 : pid = t.next_page_id
    · rw [h2] at hst
      exact absurd hnone hst
    · rw [if_neg h2]
      exact parentOf_fields t _ u1 pid
  · intro pid hst hi
    rw [getInternal_setPage] at hi
    by_cases h2 : pid = t.next_page_id
    · rw [h2] at hst
      exact absurd hnone hst
    · rw [if_neg h2, getInternal_fields t _ u1] at hi
      exact hi

/-- The part of `InsertIntoLeaf` that follows the search. -/
theorem insertAtLeaf (h : t.Mirrored INVALID_PAGE_ID) (leafId key value : Int) (fuel : Nat)
    (r : BPlusTree × Bool) (hf : t.insertAtLeaf leafId key value fuel = some r) :
    r.1.Mirrored INVALID_PAGE_ID := by
  unfold BPlusTree.insertAtLeaf at hf
  split at hf
  · exact Option.noConfusion hf
  · rename_i leaf hleaf
    split at hf
    · simp only [Option.some.injEq] at hf
      rw [← hf]
      exact h
    · have hhd := leaf_Insert_header leaf key value
      have h1 := h.setLeaf leafId leaf (leaf.Insert key value) hleaf hhd.1 hhd.2
      simp only at hf
      split at hf
      · split at hf
        · exact Option.noConfusion hf
        · rename_i t2 newLeaf hsplit
          split at hf
          · exact Option.noConfusion hf
          · split at hf
            · exact Option.noConfusion hf
            · rename_i k0 hk0
              cases hip : InsertIntoParent fuel t2 leafId k0 newLeaf with
              | none =>
                rw [hip] at hf
                exact Option.noConfusion hf
              | some t3 =>
                rw [hip] at hf
                simp only [Option.map_some', Option.some.injEq] at hf
                rw [← hf]
                exact Pending.insertIntoParent fuel t2 leafId k0 newLeaf t3
                  (h1.splitLeaf leafId newLeaf t2 hsplit k0) hip
      · simp only [Option.some.injEq] at hf
        rw [← hf]
        exact h1

/-- `Insert` keeps the key of the parent entry in the slot of the first entry
of every internal page. -/
theorem Insert_mirrored (h : t.Mirrored INVALID_PAGE_ID) (key value : Int) (fuel : Nat)
    (r : BPlusTree × Bool) (hf : t.Insert key value fuel = some r) :
    r.1.Mirrored INVALID_PAGE_ID := by
  unfold BPlusTree.Insert at hf
  split at hf
  · simp only [Option.some.injEq] at hf
    rw [← hf]
    exact h.startNewTree key value
  · unfold InsertIntoLeaf at hf
    split at hf
    · exact Option.noConfusion hf
    · simp only [Option.some.injEq] at hf
      rw [← hf]
      exact h
    · exact h.insertAtLeaf _ key value fuel r hf

end Mirrored

end BPlusTree
/-! ## The key slot of the first entry: `Remove` -/

namespace BPlusTree

theorem root_update_pages (t : BPlusTree) (c : Int) (b : Bool) :
    (({ t with root_page_id := c }).UpdateRootPageId b).pages = t.pages ∧
    (({ t with root_page_id := c }).UpdateRootPageId b).next_page_id = t.next_page_id ∧
    (({ t with root_page_id := c }).UpdateRootPageId b).internal_max_size = t.internal_max_size ∧
    (({ t with root_page_id := c }).UpdateRootPageId b).leaf_max_size = t.leaf_max_size :=
  UpdateRootPageId_pages { t with root_page_id := c } b

namespace Mirrored

variable {t : BPlusTree} {x : Int}

/-- The children of the entries of a page named before and behind an entry
are not the child of that entry. -/
theorem not_named_twice (h : t.Mirrored x) (P : Int) (pre post : List (Int × Int))
    (e : Int × Int) (harr : t.arrayOf P = pre ++ e :: post) :
    ∀ f, f ∈ pre ++ post → f.2 ≠ e.2 := by
  have hn := h.nodup P
  rw [harr, List.map_append, List.map_cons] at hn
  have hn2 := List.nodup_middle.1 hn
  rw [List.nodup_cons, ← List.map_append] at hn2
  intro f hf hc
  exact hn2.1 (by rw [← hc]; exact List.mem_map_of_mem Prod.snd hf)

/-- `SetKeyAt` in the parent `P` on the entry that names the exempt page `x`,
with the key in the slot of the first entry of `x`. -/
theorem setKey (h : t.Mirrored x) (P : Int) (parent : BPlusTreeInternalPage)
    (hP : t.getInternal P = some parent) (pre post : List (Int × Int)) (e : Int × Int)
    (k1 : Int) (harr : parent.array = pre ++ e :: post) (hpre : pre ≠ []) (hx : e.2 = x)
    (hne : t.getInternal x ≠ none → t.arrayOf x ≠ [])
    (hslot : ∀ k, t.slotKey x = some k → k = k1) :
    (t.setPage P (.internal { parent with array := pre ++ (k1, e.2) :: post })).Mirrored
      INVALID_PAGE_ID := by
  obtain ⟨c1, c2, c3, c4, c5⟩ := view_setArray t P parent hP (pre ++ (k1, e.2) :: post)
  have hAP : t.arrayOf P = pre ++ e :: post := by
    rw [arrayOf_eq t P parent hP, harr]
  have heP : e ∈ t.arrayOf P := by
    rw [hAP]
    simp
  have hxP : x ≠ P := by
    rw [← hx]
    exact h.owner_ne P e heP
  refine h.setArray _ P INVALID_PAGE_ID (c5 h.shaped) ?_ c2 c3 ?_ ?_ ?_ ?_ ?_
  · intro pid hpid
    rw [c1, if_neg hpid]
  · rw [c1, if_pos rfl, hAP]
    simp
  · intro f hf hfx
    rw [c1, if_pos rfl] at hf
    rw [hAP]
    simp only [List.mem_append, List.mem_cons] at hf ⊢
    rcases hf with h1 | h1 | h1
    · exact Or.inl h1
    · rw [h1] at hfx
      exact absurd hx hfx
    · exact Or.inr (Or.inr h1)
  · intro _ _
    rw [c1, if_pos rfl, hAP]
    cases pre with
    | nil => exact absurd rfl hpre
    | cons a l => rfl
  · intro _ pid f hf hfx
    have hAx : ∀ z, z ≠ P → (t.setPage P (.internal { parent with array :=
        pre ++ (k1, e.2) :: post })).arrayOf z = t.arrayOf z := by
      intro z hz
      rw [c1, if_neg hz]
    refine ⟨?_, ?_⟩
    · intro hi
      rw [hAx x hxP]
      rw [getInternal_setPage_ne _ _ _ _ hxP] at hi
      exact hne hi
    · intro k hk
      rw [slotKey_eq, hAx x hxP] at hk
      have hk1 := hslot k hk
      have hpid : pid = P := by
        by_contra hc
        rw [hAx pid hc] at hf
        exact hc (h.owner_unique pid P f e hf heP (hfx.trans hx.symm))
      rw [hpid, c1, if_pos rfl] at hf
      simp only [List.mem_append, List.mem_cons] at hf
      rcases hf with h1 | h1 | h1
      · exact absurd (hfx.trans hx.symm)
          (h.not_named_twice P pre post e hAP f (List.mem_append.2 (Or.inl h1)))
      · rw [h1]
        exact hk1
      · exact absurd (hfx.trans hx.symm)
          (h.not_named_twice P pre post e hAP f (List.mem_append.2 (Or.inr h1)))
  · intro _
    rw [← hx]
    exact h.owned_parent P e heP

/-- `Remove(index)` in the parent `P` on the entry that names the exempt page
`x`, which is not the first entry. -/
theorem eraseEntry (h : t.Mirrored x) (P : Int) (parent : BPlusTreeInternalPage)
    (hP : t.getInternal P = some parent) (pre post : List (Int × Int)) (e : Int × Int)
    (harr : parent.array = pre ++ e :: post) (hpre : pre ≠ []) (hx : e.2 = x) :
    (t.setPage P (.internal { parent with array := pre ++ post })).Mirrored INVALID_PAGE_ID := by
  obtain ⟨c1, c2, c3, c4, c5⟩ := view_setArray t P parent hP (pre ++ post)
  have hAP : t.arrayOf P = pre ++ e :: post := by
    rw [arrayOf_eq t P parent hP, harr]
  have heP : e ∈ t.arrayOf P := by
    rw [hAP]
    simp
  refine h.setArray _ P INVALID_PAGE_ID (c5 h.shaped) ?_ c2 c3 ?_ ?_ ?_ ?_ ?_
  · intro pid hpid
    rw [c1, if_neg hpid]
  · rw [c1, if_pos rfl, hAP]
    exact ((List.Sublist.refl pre).append (List.sublist_cons_self e post)).map Prod.snd
  · intro f hf hfx
    rw [c1, if_pos rfl] at hf
    rw [hAP]
    simp only [List.mem_append, List.mem_cons] at hf ⊢
    rcases hf with h1 | h1
    · exact Or.inl h1
    · exact Or.inr (Or.inr h1)
  · intro _ _
    rw [c1, if_pos rfl, hAP]
    cases pre with
    | nil => exact absurd rfl hpre
    | cons a l => rfl
  · intro _ pid f hf hfx
    exfalso
    by_cases hpid : pid = P
    · rw [hpid, c1, if_pos rfl] at hf
      exact h.not_named_twice P pre post e hAP f hf (hfx.trans hx.symm)
    · rw [c1, if_neg hpid] at hf
      exact hpid (h.owner_unique pid P f e hf heP (hfx.trans hx.symm))
  · intro _
    rw [← hx]
    exact h.owned_parent P e heP

/-- `AdjustRoot` on a page without a parent. -/
theorem AdjustRoot_mirrored (h : t.Mirrored INVALID_PAGE_ID) (rId : Int)
    (hroot : t.parentOf rId = some INVALID_PAGE_ID) (r : BPlusTree × Bool)
    (hf : t.AdjustRoot rId = some r) : r.1.Mirrored INVALID_PAGE_ID := by
  unfold BPlusTree.AdjustRoot at hf
  split at hf
  · exact Option.noConfusion hf
  · split at hf
    · simp only [Option.some.injEq] at hf
      rw [← hf]
      obtain ⟨u1, u2, u3, u4⟩ := UpdateRootPageId_pages { t with root_page_id := INVALID_PAGE_ID }
        false
      exact h.fields _ u1 (le_of_eq u2.symm) u3
    · simp only [Option.some.injEq] at hf
      rw [← hf]
      exact h
  · rename_i p hp
    have hpi : t.getInternal rId = some p := getInternal_eq t rId p hp
    split at hf
    · split at hf
      · exact Option.noConfusion hf
      · rename_i p1 child hrem
        simp only at hf
        split at hf
        · exact Option.noConfusion hf
        · rename_i t3 ht3
          simp only [Option.some.injEq] at hf
          rw [← hf]
          unfold BPlusTreeInternalPage.RemoveAndReturnOnlyChild at hrem
          split at hrem
          · rename_i e harr
            simp only [Option.some.injEq, Prod.mk.injEq] at hrem
            obtain ⟨hr1, hr2⟩ := hrem
            subst hr1
            subst hr2
            obtain ⟨c1, c2, c3, c4, c5⟩ := view_setArray t rId p hpi []
            obtain ⟨u1, u2, u3, u4⟩ := root_update_pages
              (t.setPage rId (.internal { p with array := [] })) e.2 false
            obtain ⟨a1, a2, a3, a4, a5, a6, a7, a8⟩ := view_setParent _ t3 _ _ ht3
            have hsh := a8 (shaped_fields _ _ u1 (le_of_eq u2.symm) u3 (c5 h.shaped))
            refine h.adjustRoot t3 rId e hsh ?_ hroot ?_ ?_ ?_ ?_
            · rw [arrayOf_eq t rId p hpi, harr]
            · intro pid hpid
              rw [a1, arrayOf_fields _ _ u1, c1, if_neg hpid]
            · rw [a1, arrayOf_fields _ _ u1, c1, if_pos rfl]
            · intro pid
              rw [a2, parentOf_fields _ _ u1, c2]
            · intro pid hi
              have := a3 _ hi
              rw [getInternal_fields _ _ u1] at this
              exact c3 _ this
          · exact Option.noConfusion hrem
    · simp only [Option.some.injEq] at hf
      rw [← hf]
      exact h

end Mirrored

end BPlusTree

namespace BPlusTree

/-- What `FindLeftSibling` has found: the entry of the page and the entry of
its sibling lie side by side in the parent. -/
theorem FindLeftSibling_split (t : BPlusTree) (hs : t.Stored) (nodeId : Int) (node : BPlusTreePage)
    (hn : t.pages nodeId = some node) (node2Id : Int) (isRight : Bool)
    (hf : t.FindLeftSibling nodeId = some (node2Id, isRight)) :
    ∃ parent e e2 pre post, t.getInternal node.GetParentPageId = some parent ∧ e.2 = nodeId ∧
      e2.2 = node2Id ∧
      ((isRight = true ∧ parent.ValueIndex nodeId = 0 ∧ pre = [] ∧
          parent.array = e :: e2 :: post) ∨
        (isRight = false ∧ parent.ValueIndex nodeId = (pre.length : Int) + 1 ∧
          parent.array = pre ++ e2 :: e :: post)) := by
  have hid := hs.id hn
  unfold FindLeftSibling at hf
  rw [hn] at hf
  simp only at hf
  split at hf
  · exact Option.noConfusion hf
  · rename_i parent hparent
    rw [hid] at hf
    split at hf
    · exact Option.noConfusion hf
    · rename_i sibling hsib
      simp only [Option.some.injEq, Prod.mk.injEq] at hf
      obtain ⟨hf1, hf2⟩ := hf
      unfold BPlusTreeInternalPage.ValueAt at hsib
      obtain ⟨e2, he2, he2s⟩ := Option.map_eq_some'.1 hsib
      by_cases h0 : parent.ValueIndex nodeId = 0
      · rw [if_pos h0, h0] at he2
        obtain ⟨pre0, e, post0, h1, h2, h3⟩ := ValueIndex_split parent nodeId (by omega)
        have hpre0 : pre0 = [] := by
          rw [h0] at h3
          exact List.length_eq_zero.1 (by omega)
        rw [hpre0, List.nil_append] at h1
        rw [h1] at he2
        cases post0 with
        | nil => simp [entryAt] at he2
        | cons a post =>
          have : a = e2 := by
            simpa [entryAt] using he2
          refine ⟨parent, e, e2, [], post, hparent, h2, by rw [he2s, hf1], Or.inl ⟨?_, h0, rfl, ?_⟩⟩
          · rw [← hf2, h0]
            rfl
          · rw [h1, this]
      · rw [if_neg h0] at he2
        obtain ⟨pre, post1, h4, h5⟩ := entryAt_split _ _ _ he2
        obtain ⟨pre0, e, post0, h1, h2, h3⟩ := ValueIndex_split parent nodeId (by omega)
        have hlen : pre0.length = (pre ++ [e2]).length := by
          rw [List.length_append, List.length_singleton]
          omega
        have h6 : pre0 ++ e :: post0 = (pre ++ [e2]) ++ post1 := by
          rw [← h1, h4]
          simp
        obtain ⟨h7, h8⟩ := List.append_inj h6 hlen
        refine ⟨parent, e, e2, pre, post0, hparent, h2, by rw [he2s, hf1],
          Or.inr ⟨?_, by omega, ?_⟩⟩
        · rw [← hf2]
          simp [h0]
        · rw [h4, ← h8]

end BPlusTree

namespace BPlusTree

namespace Mirrored

variable {t : BPlusTree} {x : Int}

/-- `SetKeyAt(idx, k1)` in the parent `P`, `idx` being the index of the entry
that names the exempt page `x` and `k1` the key in the slot of the first entry
of `x`. -/
theorem setKeyAt_entry (h : t.Mirrored x) (P : Int) (parent : BPlusTreeInternalPage)
    (hP : t.getInternal P = some parent) (pre post : List (Int × Int)) (e : Int × Int)
    (harr : parent.array = pre ++ e :: post) (hpre : pre ≠ []) (hx : e.2 = x) (idx : Int)
    (hidx : idx = pre.length) (k1 : Int) (hne : t.getInternal x ≠ none → t.arrayOf x ≠ [])
    (hslot : ∀ k, t.slotKey x = some k → k = k1) (parent1 : BPlusTreeInternalPage)
    (hset : parent.SetKeyAt idx k1 = some parent1) :
    (t.setPage P (.internal parent1)).Mirrored INVALID_PAGE_ID := by
  unfold BPlusTreeInternalPage.SetKeyAt at hset
  rw [hidx, harr, entryAt_append_length] at hset
  simp only [Option.some.injEq, Int.toNat_natCast, set_append_length] at hset
  rw [← hset]
  exact h.setKey P parent hP pre post e k1 harr hpre hx hne hslot

/-- `Remove(idx)` in the parent `P`, `idx` being the index of the entry that
names the exempt page `x`. -/
theorem remove_entry (h : t.Mirrored x) (P : Int) (parent : BPlusTreeInternalPage)
    (hP : t.getInternal P = some parent) (pre post : List (Int × Int)) (e : Int × Int)
    (harr : parent.array = pre ++ e :: post) (hpre : pre ≠ []) (hx : e.2 = x) (idx : Int)
    (hidx : idx = pre.length) (parent1 : BPlusTreeInternalPage)
    (hrem : parent.Remove idx = some parent1) :
    (t.setPage P (.internal parent1)).Mirrored INVALID_PAGE_ID := by
  unfold BPlusTreeInternalPage.Remove at hrem
  rw [hidx, harr, entryAt_append_length] at hrem
  simp only [Option.some.injEq, Int.toNat_natCast, eraseIdx_append_length] at hrem
  rw [← hrem]
  exact h.eraseEntry P parent hP pre post e harr hpre hx

/-- The header of a named page holds the page that names it. -/
theorem parent_field (h : t.Mirrored x) (P : Int) (e : Int × Int) (he : e ∈ t.arrayOf P)
    (pg : BPlusTreePage) (hpg : t.pages e.2 = some pg) : pg.GetParentPageId = P := by
  have h1 := h.child P e he
  rw [parentOf_eq t e.2 pg hpg] at h1
  exact Option.some.inj h1

/-- Two pages named by one page lie in one level. -/
theorem sibling_level (P : Int) (e e2 : Int × Int) (he : e ∈ t.arrayOf P)
    (he2 : e2 ∈ t.arrayOf P) (lvl : Int → Nat)
    (hl : ∀ pid f, f ∈ t.arrayOf pid → lvl pid = lvl f.2 + 1) : lvl e.2 = lvl e2.2 := by
  have h1 := hl P e he
  have h2 := hl P e2 he2
  omega

end Mirrored

end BPlusTree
/-! ## The key slot of the first entry: redistribution between internal pages -/

namespace BPlusTree

namespace Mirrored

variable {t : BPlusTree}

/-- `MoveFirstToEndOf` of the internal page `a`, the second child of `P`, to
the first child `b` of `P`. -/
theorem moveFirstToEndOf (h : t.Mirrored INVALID_PAGE_ID) (a b P : Int)
    (parent : BPlusTreeInternalPage) (hP : t.getInternal P = some parent) (e e2 : Int × Int)
    (post : List (Int × Int)) (harr : parent.array = e :: e2 :: post) (he : e.2 = b)
    (he2 : e2.2 = a) (t1 : BPlusTree) (hf : t.internalMoveFirstToEndOf a b = some t1) :
    t1.Mirrored INVALID_PAGE_ID := by
  have hAP : t.arrayOf P = e :: e2 :: post := by
    rw [arrayOf_eq t P parent hP, harr]
  have heP : e ∈ t.arrayOf P := by
    rw [hAP]
    simp
  have he2P : e2 ∈ t.arrayOf P := by
    rw [hAP]
    simp
  have hab : a ≠ b := by
    rw [← he, ← he2]
    exact fun hc => h.not_named_twice P [e] post e2 (by rw [hAP]; rfl) e (by simp) hc.symm
  have hPa : P ≠ a := by
    rw [← he2]
    exact (h.owner_ne P e2 he2P).symm
  have hPb : P ≠ b := by
    rw [← he]
    exact (h.owner_ne P e heP).symm
  obtain ⟨lvl, hl⟩ := h.level
  have hlab : lvl a = lvl b := by
    rw [← he, ← he2]
    exact sibling_level P e2 e he2P heP lvl hl
  unfold internalMoveFirstToEndOf at hf
  split at hf
  · exact Option.noConfusion hf
  · rename_i p hp
    have hpga := getInternal_some t a p hp
    have hppar : p.parent_page_id = P :=
      h.parent_field P e2 he2P (.internal p) (by rw [he2]; exact hpga)
    have hpid : p.page_id = a := (h.shaped.stored.internal hp).1
    have hAa : t.arrayOf a = p.array := arrayOf_eq t a p hp
    split at hf
    · exact Option.noConfusion hf
    · rename_i pair rest hparr
      simp only at hf
      split at hf
      · exact Option.noConfusion hf
      · rename_i r hr
        rw [getInternal_setPage_ne _ _ _ _ (Ne.symm hab)] at hr
        have hrid : r.page_id = b := (h.shaped.stored.internal hr).1
        have hAb : t.arrayOf b = r.array := arrayOf_eq t b r hr
        split at hf
        · exact Option.noConfusion hf
        · rename_i r1 hr1
          unfold BPlusTreeInternalPage.CopyLastFrom at hr1
          split at hr1
          · simp only [Option.some.injEq] at hr1
            subst hr1
            split at hf
            · exact Option.noConfusion hf
            · rename_i t3 ht3
              obtain ⟨c1, c2, c3, c4, c5⟩ := view_setArray t a p hp rest
              have hr2 : (t.setPage a (.internal { p with array := rest })).getInternal b =
                  some r := by
                rw [getInternal_setPage_ne _ _ _ _ (Ne.symm hab)]
                exact hr
              obtain ⟨d1, d2, d3, d4, d5⟩ := view_setArray _ b r hr2 (r.array ++ [pair])
              obtain ⟨a1, a2, a3, a4, a5, a6, a7, a8⟩ := view_setParent _ t3 _ _ ht3
              have hA3a : t3.arrayOf a = rest := by
                rw [a1, d1, if_neg hab, c1, if_pos rfl]
              have hA3b : t3.arrayOf b = r.array ++ [pair] := by
                rw [a1, d1, if_pos rfl]
              have hA3 : ∀ pid, pid ≠ a → pid ≠ b → t3.arrayOf pid = t.arrayOf pid := by
                intro pid h1 h2
                rw [a1, d1, if_neg h2, c1, if_neg h1]
              have hP3 : ∀ c, t3.parentOf c = if c = pair.2 then some b else t.parentOf c := by
                intro c
                rw [a2, d2, c2, hrid]
              have hnd := h.nodup a
              rw [hAa, hparr, List.map_cons, List.nodup_cons] at hnd
              have hbne : r.array ≠ [] := by
                rw [← hAb, ← he]
                refine h.nonempty P e heP ?_ ?_
                · intro hc
                  obtain ⟨pg, -, -, hpos⟩ := h.child_stored P e heP
                  rw [hc] at hpos
                  exact absurd hpos (by decide)
                · rw [he, hr]
                  exact Option.some_ne_none _
              have hmv := h.move t3 a b a [pair.2] (a8 (d5 (c5 h.shaped))) hab hA3
                (fun pid hi => c3 _ (d3 _ (a3 _ hi)))
                (by
                  rw [hA3a, hA3b, hAa, hAb, hparr, ← List.append_assoc]
                  exact (List.perm_append_singleton _ _).subperm)
                (by
                  intro f hf1
                  rw [hA3a] at hf1
                  refine ⟨by rw [hAa, hparr]; exact List.mem_cons_of_mem _ hf1, ?_⟩
                  intro hc
                  rw [List.mem_singleton] at hc
                  exact hnd.1 (by rw [← hc]; exact List.mem_map_of_mem Prod.snd hf1))
                (by
                  intro f hf1
                  rw [hA3b] at hf1
                  rw [hAb]
                  simp only [List.mem_append, List.mem_singleton] at hf1 ⊢
                  rcases hf1 with h1 | h1
                  · exact Or.inl h1
                  · exact Or.inr (by rw [h1]))
                (by
                  intro c hc
                  rw [List.mem_singleton] at hc
                  rw [hP3, if_neg hc])
                (by
                  intro c hc
                  rw [List.mem_singleton] at hc
                  rw [hP3, if_pos hc])
                (by
                  intro c hc
                  rw [List.mem_singleton] at hc
                  rw [hA3b, hc]
                  simp)
                lvl hl hlab
                (by
                  intro z hz hza
                  rcases hz with hz | hz
                  · exact absurd hz hza
                  · rw [hz, hA3b, hAb]
                    cases hra : r.array with
                    | nil => exact absurd hra hbne
                    | cons y l => rfl)
              split at hf
              · rename_i parent2 first hparent2 hfirst
                split at hf
                · exact Option.noConfusion hf
                · rename_i parent1 hset
                  simp only [Option.some.injEq] at hf
                  rw [← hf, hppar]
                  rw [hppar] at hparent2
                  have harr2 : parent2.array = [e] ++ e2 :: post := by
                    rw [← arrayOf_eq t3 P parent2 hparent2, hA3 P hPa hPb, hAP]
                    rfl
                  have hidx : parent2.ValueIndex p.page_id = ([e].length : Int) := by
                    rw [hpid, ← he2]
                    have hn2 := hmv.1.nodup P
                    rw [arrayOf_eq t3 P parent2 hparent2] at hn2
                    exact ValueIndex_of_nodup parent2 [e] e2 post harr2 hn2
                  refine hmv.1.setKeyAt_entry P parent2 hparent2 [e] post e2 harr2 (by simp) he2 _
                    hidx first.1 ?_ ?_ parent1 hset
                  · intro _
                    rw [hA3a]
                    intro hc
                    rw [hc] at hfirst
                    cases hfirst
                  · intro k hk
                    rw [slotKey_eq, hA3a, hfirst] at hk
                    exact (Option.some.inj hk).symm
              · exact Option.noConfusion hf
          · exact Option.noConfusion hr1

/-- `MoveLastToFrontOf` of the internal page `a`, which has two entries at
least, to its right sibling `b`, with the `CopyFirstFrom` of `b`; `idx` is the
index of `b` in the parent `P`. -/
theorem moveLastToFrontOf (h : t.Mirrored INVALID_PAGE_ID) (a b P : Int)
    (parent : BPlusTreeInternalPage) (hP : t.getInternal P = some parent) (e e2 : Int × Int)
    (pre post : List (Int × Int)) (harr : parent.array = pre ++ e2 :: e :: post) (he : e.2 = b)
    (he2 : e2.2 = a) (idx : Int) (hidx : idx = (pre.length : Int) + 1)
    (hsize : ∀ p, t.getInternal a = some p → 2 ≤ p.array.length) (t1 : BPlusTree)
    (hf : t.internalMoveLastToFrontOf a b idx = some t1) : t1.Mirrored INVALID_PAGE_ID := by
  have hAP : t.arrayOf P = pre ++ e2 :: e :: post := by
    rw [arrayOf_eq t P parent hP, harr]
  have heP : e ∈ t.arrayOf P := by
    rw [hAP]
    simp
  have he2P : e2 ∈ t.arrayOf P := by
    rw [hAP]
    simp
  have hab : a ≠ b := by
    rw [← he, ← he2]
    exact fun hc => h.not_named_twice P pre (e :: post) e2 hAP e (by simp) hc.symm
  have hPa : P ≠ a := by
    rw [← he2]
    exact (h.owner_ne P e2 he2P).symm
  have hPb : P ≠ b := by
    rw [← he]
    exact (h.owner_ne P e heP).symm
  obtain ⟨lvl, hl⟩ := h.level
  have hlab : lvl a = lvl b := by
    rw [← he, ← he2]
    exact sibling_level P e2 e he2P heP lvl hl
  unfold internalMoveLastToFrontOf at hf
  split at hf
  · exact Option.noConfusion hf
  · rename_i p hp
    have hpid : p.page_id = a := (h.shaped.stored.internal hp).1
    have hAa : t.arrayOf a = p.array := arrayOf_eq t a p hp
    have hlen := hsize p hp
    split at hf
    · exact Option.noConfusion hf
    · rename_i tmp htmp
      have hparr : p.array = p.array.dropLast ++ [tmp] := by
        have := List.dropLast_append_getLast? tmp htmp
        exact this.symm
      generalize hdl : p.array.dropLast = init at hf hparr
      simp only at hf
      split at hf
      · exact Option.noConfusion hf
      · rename_i r hr
        rw [getInternal_setPage_ne _ _ _ _ (Ne.symm hab)] at hr
        have hrid : r.page_id = b := (h.shaped.stored.internal hr).1
        have hpgb := getInternal_some t b r hr
        have hrpar : r.parent_page_id = P :=
          h.parent_field P e heP (.internal r) (by rw [he]; exact hpgb)
        have hAb : t.arrayOf b = r.array := arrayOf_eq t b r hr
        split at hf
        · split at hf
          · exact Option.noConfusion hf
          · rename_i t3 ht3
            obtain ⟨c1, c2, c3, c4, c5⟩ := view_setArray t a p hp init
            have hr2 : (t.setPage a (.internal { p with array := init })).getInternal b =
                some r := by
              rw [getInternal_setPage_ne _ _ _ _ (Ne.symm hab)]
              exact hr
            obtain ⟨d1, d2, d3, d4, d5⟩ := view_setArray _ b r hr2 (tmp :: r.array)
            obtain ⟨a1, a2, a3, a4, a5, a6, a7, a8⟩ := view_setParent _ t3 _ _ ht3
            have hA3a : t3.arrayOf a = init := by
              rw [a1, d1, if_neg hab, c1, if_pos rfl]
            have hA3b : t3.arrayOf b = tmp :: r.array := by
              rw [a1, d1, if_pos rfl]
            have hA3 : ∀ pid, pid ≠ a → pid ≠ b → t3.arrayOf pid = t.arrayOf pid := by
              intro pid h1 h2
              rw [a1, d1, if_neg h2, c1, if_neg h1]
            have hP3 : ∀ c, t3.parentOf c = if c = tmp.2 then some b else t.parentOf c := by
              intro c
              rw [a2, d2, c2, hrid]
            have hnd := h.nodup a
            rw [hAa, hparr, List.map_append, List.nodup_append] at hnd
            have hinit : init.head? = p.array.head? := by
              rw [hparr]
              cases hi : init with
              | nil =>
                rw [hparr, hi] at hlen
                simp at hlen
              | cons y l => rfl
            have hmv := h.move t3 a b b [tmp.2] (a8 (d5 (c5 h.shaped))) hab hA3
              (fun pid hi => c3 _ (d3 _ (a3 _ hi)))
              (by
                rw [hA3a, hA3b, hAa, hAb, hparr]
                simp only [List.append_assoc, List.singleton_append]
                exact List.Subperm.refl _)
              (by
                intro f hf1
                rw [hA3a] at hf1
                refine ⟨by rw [hAa, hparr]; exact List.mem_append_left _ hf1, ?_⟩
                intro hc
                rw [List.mem_singleton] at hc
                exact hnd.2.2 (List.mem_map_of_mem Prod.snd hf1) (by rw [hc]; simp))
              (by
                intro f hf1
                rw [hA3b] at hf1
                rw [hAb]
                rcases List.mem_cons.1 hf1 with h1 | h1
                · exact Or.inr (by rw [h1]; simp)
                · exact Or.inl h1)
              (by
                intro c hc
                rw [List.mem_singleton] at hc
                rw [hP3, if_neg hc])
              (by
                intro c hc
                rw [List.mem_singleton] at hc
                rw [hP3, if_pos hc])
              (by
                intro c hc
                rw [List.mem_singleton] at hc
                rw [hA3b, hc]
                simp)
              lvl hl hlab
              (by
                intro z hz hzb
                rcases hz with hz | hz
                · rw [hz, hA3a, hAa]
                  exact hinit
                · exact absurd hz hzb)
            split at hf
            · exact Option.noConfusion hf
            · rename_i parent2 hparent2
              split at hf
              · exact Option.noConfusion hf
              · rename_i parent1 hset
                simp only [Option.some.injEq] at hf
                rw [← hf, hrpar]
                rw [hrpar] at hparent2
                have harr2 : parent2.array = (pre ++ [e2]) ++ e :: post := by
                  rw [← arrayOf_eq t3 P parent2 hparent2, hA3 P hPa hPb, hAP]
                  simp
                refine hmv.1.setKeyAt_entry P parent2 hparent2 (pre ++ [e2]) post e harr2 (by simp)
                  he idx (by rw [hidx]; simp) tmp.1 ?_ ?_ parent1 hset
                · intro _
                  rw [hA3b]
                  simp
                · intro k hk
                  rw [slotKey_eq, hA3b] at hk
                  exact (Option.some.inj hk).symm
        · exact Option.noConfusion hf

/-- `MoveFirstToEndOf` of the leaf page `a`, the second child of `P`, to the
first child `b` of `P`. -/
theorem leafMoveFirst (h : t.Mirrored INVALID_PAGE_ID) (a b P : Int)
    (parent : BPlusTreeInternalPage) (hP : t.getInternal P = some parent) (e e2 : Int × Int)
    (post : List (Int × Int)) (harr : parent.array = e :: e2 :: post) (he : e.2 = b)
    (he2 : e2.2 = a) (t1 : BPlusTree) (hf : t.leafMoveFirstToEndOf a b = some t1) :
    t1.Mirrored INVALID_PAGE_ID := by
  have hAP : t.arrayOf P = e :: e2 :: post := by
    rw [arrayOf_eq t P parent hP, harr]
  have heP : e ∈ t.arrayOf P := by
    rw [hAP]
    simp
  have he2P : e2 ∈ t.arrayOf P := by
    rw [hAP]
    simp
  have hPa : P ≠ a := by
    rw [← he2]
    exact (h.owner_ne P e2 he2P).symm
  have hPb : P ≠ b := by
    rw [← he]
    exact (h.owner_ne P e heP).symm
  unfold leafMoveFirstToEndOf at hf
  split at hf
  · exact Option.noConfusion hf
  · rename_i p hp
    have hpga := getLeaf_some t a p hp
    have hppar : p.parent_page_id = P :=
      h.parent_field P e2 he2P (.leaf p) (by rw [he2]; exact hpga)
    have hpid : p.page_id = a := (h.shaped.stored.leaf hp).1
    split at hf
    · exact Option.noConfusion hf
    · rename_i theItem rest hparr
      simp only at hf
      have h1 := h.setLeaf a p { p with array := rest } hp rfl rfl
      split at hf
      · exact Option.noConfusion hf
      · rename_i r hr
        have h2 := h1.setLeaf b r (r.CopyLastFrom theItem) hr rfl rfl
        split at hf
        · exact Option.noConfusion hf
        · rename_i parent2 hparent2
          split at hf
          · exact Option.noConfusion hf
          · rename_i parent1 hset
            simp only [Option.some.injEq] at hf
            rw [← hf]
            have hpar2 : parent2 = parent := by
              have h3 := hparent2
              rw [getInternal_setPage_ne _ _ _ _ (by rw [hppar]; exact hPb),
                getInternal_setPage_ne _ _ _ _ (by rw [hppar]; exact hPa), hppar, hP] at h3
              exact (Option.some.inj h3).symm
            have harr2 : parent2.array = [e] ++ e2 :: post := by
              rw [hpar2, harr]
              rfl
            have hidx : parent2.ValueIndex p.page_id = ([e].length : Int) := by
              rw [hpid, ← he2]
              have hn2 := h.nodup P
              rw [arrayOf_eq t P parent hP, ← hpar2] at hn2
              exact ValueIndex_of_nodup parent2 [e] e2 post harr2 hn2
            have hleaf : ((t.setPage a (.leaf { p with array := rest })).setPage b
                (.leaf (r.CopyLastFrom theItem))).getInternal a = none := by
              rw [getInternal_setPage]
              by_cases hab : a = b
              · rw [if_pos hab]
              · rw [if_neg hab, getInternal_setPage_leaf]
            refine (h2.weaken a).setKeyAt_entry _ parent2 hparent2 [e] post e2 harr2 (by simp) he2
              _ hidx theItem.1 (fun hi => absurd hleaf hi) ?_ parent1 hset
            intro k hk
            rw [slotKey_eq, arrayOf_none _ _ hleaf] at hk
            cases hk

/-- `MoveLastToFrontOf` of the leaf page `a` to its right sibling `b`; `idx`
is the index of `b` in the parent `P`. -/
theorem leafMoveLast (h : t.Mirrored INVALID_PAGE_ID) (a b P : Int)
    (parent : BPlusTreeInternalPage) (hP : t.getInternal P = some parent) (e e2 : Int × Int)
    (pre post : List (Int × Int)) (harr : parent.array = pre ++ e2 :: e :: post) (he : e.2 = b)
    (he2 : e2.2 = a) (idx : Int) (hidx : idx = (pre.length : Int) + 1) (t1 : BPlusTree)
    (hf : t.leafMoveLastToFrontOf a b idx = some t1) : t1.Mirrored INVALID_PAGE_ID := by
  have hAP : t.arrayOf P = pre ++ e2 :: e :: post := by
    rw [arrayOf_eq t P parent hP, harr]
  have heP : e ∈ t.arrayOf P := by
    rw [hAP]
    simp
  have he2P : e2 ∈ t.arrayOf P := by
    rw [hAP]
    simp
  have hPa : P ≠ a := by
    rw [← he2]
    exact (h.owner_ne P e2 he2P).symm
  have hPb : P ≠ b := by
    rw [← he]
    exact (h.owner_ne P e heP).symm
  have hab : a ≠ b := by
    rw [← he, ← he2]
    exact fun hc => h.not_named_twice P pre (e :: post) e2 hAP e (by simp) hc.symm
  unfold leafMoveLastToFrontOf at hf
  split at hf
  · exact Option.noConfusion hf
  · rename_i p hp
    split at hf
    · exact Option.noConfusion hf
    · rename_i pair hpair
      simp only at hf
      have h1 := h.setLeaf a p { p with array := p.array.dropLast } hp rfl rfl
      split at hf
      · exact Option.noConfusion hf
      · rename_i r hr
        have h2 := h1.setLeaf b r { r with array := pair :: r.array } hr rfl rfl
        have hr0 : t.getLeaf b = some r := by
          unfold getLeaf at hr ⊢
          rw [pages_setPage_ne _ _ _ _ (Ne.symm hab)] at hr
          exact hr
        have hrpar : r.parent_page_id = P :=
          h.parent_field P e heP (.leaf r) (by rw [he]; exact getLeaf_some t b r hr0)
        split at hf
        · exact Option.noConfusion hf
        · rename_i parent2 hparent2
          split at hf
          · exact Option.noConfusion hf
          · rename_i parent1 hset
            simp only [Option.some.injEq] at hf
            rw [← hf]
            have hpar2 : parent2 = parent := by
              have h3 := hparent2
              rw [getInternal_setPage_ne _ _ _ _ (by rw [hrpar]; exact hPb),
                getInternal_setPage_ne _ _ _ _ (by rw [hrpar]; exact hPa), hrpar, hP] at h3
              exact (Option.some.inj h3).symm
            have harr2 : parent2.array = (pre ++ [e2]) ++ e :: post := by
              rw [hpar2, harr]
              simp
            have hleaf : ((t.setPage a (.leaf { p with array := p.array.dropLast })).setPage b
                (.leaf { r with array := pair :: r.array })).getInternal b = none := by
              rw [getInternal_setPage, if_pos rfl]
            refine (h2.weaken b).setKeyAt_entry _ parent2 hparent2 (pre ++ [e2]) post e harr2
              (by simp) he idx (by rw [hidx]; simp) pair.1 (fun hi => absurd hleaf hi) ?_
              parent1 hset
            intro k hk
            rw [slotKey_eq, arrayOf_none _ _ hleaf] at hk
            cases hk

/-- `Redistribute` between a page and the sibling `FindLeftSibling` has found,
which has two entries at least when it is an internal page. -/
theorem Redistribute_mirrored (h : t.Mirrored INVALID_PAGE_ID) (nodeId node2Id : Int)
    (node : BPlusTreePage) (hn : t.pages nodeId = some node) (isRight : Bool)
    (hsib : t.FindLeftSibling nodeId = some (node2Id, isRight))
    (parentPage : BPlusTreeInternalPage)
    (hpp : t.getInternal node.GetParentPageId = some parentPage)
    (hsize : ∀ p, t.getInternal node2Id = some p → 2 ≤ p.array.length) (t1 : BPlusTree)
    (hf : t.Redistribute node2Id nodeId (parentPage.ValueIndex node.GetPageId) = some t1) :
    t1.Mirrored INVALID_PAGE_ID := by
  obtain ⟨parent, e, e2, pre, post, h1, h2, h3, h4⟩ :=
    FindLeftSibling_split t h.shaped.stored nodeId node hn node2Id isRight hsib
  rw [hpp] at h1
  have hpe : parentPage = parent := Option.some.inj h1
  subst hpe
  rw [h.shaped.stored.id hn] at hf
  unfold Redistribute at hf
  rcases h4 with ⟨-, h5, -, h6⟩ | ⟨-, h5, h6⟩
  · rw [h5] at hf
    split at hf
    · simp only [if_true] at hf
      exact h.leafMoveFirst node2Id nodeId _ parentPage hpp e e2 post h6 h2 h3 t1 hf
    · simp only [if_true] at hf
      exact h.moveFirstToEndOf node2Id nodeId _ parentPage hpp e e2 post h6 h2 h3 t1 hf
    · exact Option.noConfusion hf
  · rw [h5] at hf
    have hne : ¬ ((pre.length : Int) + 1 = 0) := by omega
    split at hf
    · rw [if_neg hne] at hf
      exact h.leafMoveLast node2Id nodeId _ parentPage hpp e e2 pre post h6 h2 h3 _ rfl t1 hf
    · rw [if_neg hne] at hf
      exact h.moveLastToFrontOf node2Id nodeId _ parentPage hpp e e2 pre post h6 h2 h3 _ rfl
        hsize t1 hf
    · exact Option.noConfusion hf

end Mirrored

end BPlusTree
/-! ## The key slot of the first entry: merges -/

namespace BPlusTree

theorem set_zero_head (l : List (Int × Int)) (e : Int × Int) (h : l.head? = some e) :
    l.set 0 (e.1, e.2) = l := by
  cases l with
  | nil => cases h
  | cons a tl =>
    simp only [List.head?_cons, Option.some.injEq] at h
    rw [h]
    rfl

namespace Mirrored

variable {t : BPlusTree}

/-- `MoveAllTo` of the internal page `a` to its left sibling `b`; `idx` is the
index of `a` in the parent `P`.  The page `a` is empty afterwards. -/
theorem moveAllTo (h : t.Mirrored INVALID_PAGE_ID) (a b P : Int)
    (parent : BPlusTreeInternalPage) (hP : t.getInternal P = some parent) (eL eR : Int × Int)
    (pre post : List (Int × Int)) (harr : parent.array = pre ++ eL :: eR :: post)
    (hL : eL.2 = b) (hR : eR.2 = a) (idx : Int) (hidx : idx = (pre.length : Int) + 1)
    (t1 : BPlusTree) (hf : t.internalMoveAllTo a b idx = some t1) :
    t1.Mirrored a ∧ t1.arrayOf P = t.arrayOf P := by
  have hAP : t.arrayOf P = pre ++ eL :: eR :: post := by
    rw [arrayOf_eq t P parent hP, harr]
  have heLP : eL ∈ t.arrayOf P := by
    rw [hAP]
    simp
  have heRP : eR ∈ t.arrayOf P := by
    rw [hAP]
    simp
  have hab : a ≠ b := by
    rw [← hL, ← hR]
    exact fun hc => h.not_named_twice P pre (eR :: post) eL hAP eR (by simp) hc
  have hPa : P ≠ a := by
    rw [← hR]
    exact (h.owner_ne P eR heRP).symm
  have hPb : P ≠ b := by
    rw [← hL]
    exact (h.owner_ne P eL heLP).symm
  have hinv : ∀ pid f, f ∈ t.arrayOf pid → f.2 ≠ INVALID_PAGE_ID := by
    intro pid f hf1 hc
    obtain ⟨pg, -, -, hpos⟩ := h.child_stored pid f hf1
    rw [hc] at hpos
    exact absurd hpos (by decide)
  obtain ⟨lvl, hl⟩ := h.level
  have hlab : lvl a = lvl b := by
    rw [← hL, ← hR]
    exact sibling_level P eR eL heRP heLP lvl hl
  unfold internalMoveAllTo at hf
  split at hf
  · rename_i p r hp hr
    have hpga := getInternal_some t a p hp
    have hppar : p.parent_page_id = P :=
      h.parent_field P eR heRP (.internal p) (by rw [hR]; exact hpga)
    have hrid : r.page_id = b := (h.shaped.stored.internal hr).1
    have hAa : t.arrayOf a = p.array := arrayOf_eq t a p hp
    have hAb : t.arrayOf b = r.array := arrayOf_eq t b r hr
    rw [hppar, hP] at hf
    simp only at hf
    split at hf
    · exact Option.noConfusion hf
    · rename_i sep hsep
      have hsep2 : sep = eR.1 := by
        unfold BPlusTreeInternalPage.KeyAt at hsep
        have h1 : parent.array = (pre ++ [eL]) ++ eR :: post := by
          rw [harr]
          simp
        have h2 : idx = ((pre ++ [eL]).length : Int) := by
          rw [hidx]
          simp
        rw [h1, h2, entryAt_append_length] at hsep
        exact (Option.some.inj hsep).symm
      split at hf
      · exact Option.noConfusion hf
      · rename_i p1 hp1
        have hp1a : p1 = { p with array := p.array } := by
          unfold BPlusTreeInternalPage.SetKeyAt at hp1
          cases he0 : entryAt p.array 0 with
          | none =>
            rw [he0] at hp1
            cases hp1
          | some e0 =>
            rw [he0] at hp1
            simp only [Option.some.injEq] at hp1
            have hhead : p.array.head? = some e0 := by
              unfold entryAt at he0
              cases hpa : p.array with
              | nil =>
                rw [hpa] at he0
                simp at he0
              | cons y l =>
                rw [hpa] at he0
                simpa using he0
            have hk : e0.1 = eR.1 := by
              refine h.slot P eR heRP (hinv P eR heRP) e0.1 ?_
              rw [slotKey_eq, hR, hAa, hhead]
              rfl
            rw [← hp1, hsep2, ← hk]
            have : (0 : Int).toNat = 0 := rfl
            rw [this, set_zero_head p.array e0 hhead]
        subst hp1a
        obtain ⟨c1, c2, c3, c4, c5⟩ := view_setArray t a p hp p.array
        split at hf
        · exact Option.noConfusion hf
        · rename_i tb htb
          obtain ⟨b1, b2, b3, b4, b5, b6, b7, b8⟩ := view_reparentAll _ _ _ tb htb
          split at hf
          · rename_i p2 r2 hp2 hr2
            split at hf
            · simp only [Option.some.injEq] at hf
              obtain ⟨d1, d2, d3, d4, d5⟩ := view_setArray tb b r2 hr2 (r.array ++ p.array)
              have hp2b : (tb.setPage b (.internal { r2 with array :=
                  r.array ++ p.array })).getInternal a = some p2 := by
                rw [getInternal_setPage_ne _ _ _ _ hab]
                exact hp2
              obtain ⟨f1, f2, f3, f4, f5⟩ := view_setArray _ a p2 hp2b []
              rw [hf] at f1 f2 f3 f4 f5
              have hA1a : t1.arrayOf a = [] := by
                rw [f1, if_pos rfl]
              have hA1b : t1.arrayOf b = r.array ++ p.array := by
                rw [f1, if_neg (Ne.symm hab), d1, if_pos rfl]
              have hA1 : ∀ pid, pid ≠ a → pid ≠ b → t1.arrayOf pid = t.arrayOf pid := by
                intro pid h1 h2
                rw [f1, if_neg h1, d1, if_neg h2, b1, c1, if_neg h1]
              have hP1 : ∀ c, t1.parentOf c =
                  if c ∈ p.array.map Prod.snd then some b else t.parentOf c := by
                intro c
                rw [f2, d2, b2, c2, hrid]
              have hbne : r.array ≠ [] := by
                rw [← hAb, ← hL]
                refine h.nonempty P eL heLP (hinv P eL heLP) ?_
                rw [hL, hr]
                exact Option.some_ne_none _
              have hmv := h.move t1 a b a (p.array.map Prod.snd) (f5 (d5 (b8 (c5 h.shaped)))) hab
                hA1 (fun pid hi => c3 _ (b3 _ (d3 _ (f3 _ hi))))
                (by
                  rw [hA1a, hA1b, hAa, hAb, List.nil_append]
                  exact List.perm_append_comm.subperm)
                (by
                  intro f hf1
                  rw [hA1a] at hf1
                  cases hf1)
                (by
                  intro f hf1
                  rw [hA1b] at hf1
                  rw [hAb]
                  rcases List.mem_append.1 hf1 with h1 | h1
                  · exact Or.inl h1
                  · exact Or.inr (List.mem_map_of_mem Prod.snd h1))
                (by
                  intro c hc
                  rw [hP1, if_neg hc])
                (by
                  intro c hc
                  rw [hP1, if_pos hc])
                (by
                  intro c hc
                  rw [hA1b, List.map_append]
                  exact List.mem_append_right _ hc)
                lvl hl hlab
                (by
                  intro z hz hza
                  rcases hz with hz | hz
                  · exact absurd hz hza
                  · rw [hz, hA1b, hAb]
                    cases hra : r.array with
                    | nil => exact absurd hra hbne
                    | cons y l => rfl)
              exact ⟨hmv.1, hA1 P hPa hPb⟩
            · exact Option.noConfusion hf
          · exact Option.noConfusion hf
  · exact Option.noConfusion hf

end Mirrored

end BPlusTree

namespace BPlusTree

theorem RemoveAndDeleteRecord_header (p : BPlusTreeLeafPage) (k : Int) :
    (p.RemoveAndDeleteRecord k).page_id = p.page_id ∧
      (p.RemoveAndDeleteRecord k).parent_page_id = p.parent_page_id := by
  unfold BPlusTreeLeafPage.RemoveAndDeleteRecord
  split
  · split <;> exact ⟨rfl, rfl⟩
  · exact ⟨rfl, rfl⟩

namespace Mirrored

variable {t : BPlusTree}

/-- `Coalesce` of the page `rightId` into its left sibling `leftId`, `idx`
being the index of `rightId` in the parent `P`, when the call of
`CoalesceOrRedistribute` on the parent keeps the invariant. -/
theorem Coalesce_mirrored (cor : BPlusTree → Int → Option (BPlusTree × Bool))
    (h : t.Mirrored INVALID_PAGE_ID) (leftId rightId P : Int) (parent : BPlusTreeInternalPage)
    (hP : t.getInternal P = some parent) (eL eR : Int × Int) (pre post : List (Int × Int))
    (harr : parent.array = pre ++ eL :: eR :: post) (hL : eL.2 = leftId) (hR : eR.2 = rightId)
    (idx : Int) (hidx : idx = (pre.length : Int) + 1)
    (hcor : ∀ t2 r, t2.Mirrored INVALID_PAGE_ID →
      (∀ p, t2.getInternal P = some p → p.array.length ≤ (p.max_size + 1) / 2) →
      cor t2 P = some r → r.1.Mirrored INVALID_PAGE_ID)
    (r : BPlusTree × Bool) (hf : Coalesce cor t leftId rightId P idx = some r) :
    r.1.Mirrored INVALID_PAGE_ID := by
  have hAP : t.arrayOf P = pre ++ eL :: eR :: post := by
    rw [arrayOf_eq t P parent hP, harr]
  have heLP : eL ∈ t.arrayOf P := by
    rw [hAP]
    simp
  have hPb : P ≠ leftId := by
    rw [← hL]
    exact (h.owner_ne P eL heLP).symm
  -- the store after the merge, with the emptied page exempt
  have hmoved : ∀ t1, (match t.pages rightId, t.pages leftId with
      | some (.leaf n), some (.leaf nb) => some (t.setPage leftId (.leaf (n.MoveAllTo nb)))
      | some (.internal _), some (.internal _) => t.internalMoveAllTo rightId leftId idx
      | _, _ => none) = some t1 → t1.Mirrored rightId ∧ t1.arrayOf P = t.arrayOf P := by
    intro t1 hm
    split at hm
    · rename_i n nb hn hnb
      simp only [Option.some.injEq] at hm
      rw [← hm]
      have hnb2 : t.getLeaf leftId = some nb := getLeaf_eq t leftId nb hnb
      refine ⟨(h.setLeaf leftId nb (n.MoveAllTo nb) hnb2 rfl rfl).weaken rightId, ?_⟩
      rw [arrayOf_setPage_leaf, if_neg hPb]
    · exact h.moveAllTo rightId leftId P parent hP eL eR pre post harr hL hR idx hidx t1 hm
    · exact Option.noConfusion hm
  unfold Coalesce at hf
  simp only at hf
  split at hf
  · exact Option.noConfusion hf
  · rename_i t1 hm
    obtain ⟨hm1, hm2⟩ := hmoved t1 hm
    split at hf
    · exact Option.noConfusion hf
    · rename_i parent2 hparent2
      split at hf
      · exact Option.noConfusion hf
      · rename_i parent1 hrem
        have harr2 : parent2.array = (pre ++ [eL]) ++ eR :: post := by
          rw [← arrayOf_eq t1 P parent2 hparent2, hm2, hAP]
          simp
        have h2 := hm1.remove_entry P parent2 hparent2 (pre ++ [eL]) post eR harr2 (by simp) hR idx
          (by rw [hidx]; simp) parent1 hrem
        split at hf
        · rename_i hmin
          refine hcor _ r h2 ?_ hf
          intro p hp
          rw [getInternal_setPage_self] at hp
          rw [← Option.some.inj hp]
          exact hmin
        · simp only [Option.some.injEq] at hf
          rw [← hf]
          exact h2

/-- `CoalesceOrRedistribute` on a page that, when it is an internal page, has
no more entries than its minimal size. -/
theorem cor_mirrored (fuel : Nat) :
    ∀ (t : BPlusTree) (nodeId : Int) (r : BPlusTree × Bool), t.Mirrored INVALID_PAGE_ID →
      (∀ p, t.getInternal nodeId = some p → p.array.length ≤ (p.max_size + 1) / 2) →
      CoalesceOrRedistribute fuel t nodeId = some r → r.1.Mirrored INVALID_PAGE_ID := by
  induction fuel with
  | zero =>
    intro t nodeId r h hsz hf
    simp [CoalesceOrRedistribute] at hf
  | succ fuel ih =>
    intro t nodeId r h hsz hf
    unfold CoalesceOrRedistribute at hf
    split at hf
    · exact Option.noConfusion hf
    · rename_i node hnode
      have hnid := h.shaped.stored.id hnode
      split at hf
      · rename_i hroot
        refine h.AdjustRoot_mirrored nodeId ?_ r hf
        rw [parentOf_eq t nodeId node hnode]
        unfold BPlusTreePage.IsRootPage at hroot
        simp only [beq_iff_eq] at hroot
        rw [hroot]
      · split at hf
        · exact Option.noConfusion hf
        · rename_i node2Id isRightSib hsib
          obtain ⟨parent, e, e2, pre, post, h1, h2, h3, h4⟩ :=
            FindLeftSibling_split t h.shaped.stored nodeId node hnode node2Id isRightSib hsib
          split at hf
          · rename_i node2 parentPage hnode2 hpp
            have hn2id := h.shaped.stored.id hnode2
            rw [h1] at hpp
            have hpe : parent = parentPage := Option.some.inj hpp
            subst hpe
            split at hf
            · rename_i hkind
              split at hf
              · -- merge
                simp only at hf
                cases hco : Coalesce (CoalesceOrRedistribute fuel) t
                    (if isRightSib = true then nodeId else node2Id)
                    (if isRightSib = true then node2Id else nodeId) node.GetParentPageId
                    (parent.ValueIndex (if isRightSib = true then node2 else node).GetPageId) with
                | none =>
                  rw [hco] at hf
                  exact Option.noConfusion hf
                | some r1 =>
                  rw [hco] at hf
                  simp only [Option.map_some', Option.some.injEq] at hf
                  rw [← hf]
                  have hcor : ∀ t2 r2, t2.Mirrored INVALID_PAGE_ID →
                      (∀ p, t2.getInternal node.GetParentPageId = some p →
                        p.array.length ≤ (p.max_size + 1) / 2) →
                      CoalesceOrRedistribute fuel t2 node.GetParentPageId = some r2 →
                      r2.1.Mirrored INVALID_PAGE_ID :=
                    fun t2 r2 hm hs hc => ih t2 _ r2 hm hs hc
                  rcases h4 with ⟨h5, h6, h7, h8⟩ | ⟨h5, h6, h8⟩
                  · rw [h5] at hco
                    simp only [if_true] at hco
                    have hidx : parent.ValueIndex node2.GetPageId = (([] : List (Int × Int)).length
                        : Int) + 1 := by
                      rw [hn2id, ← h3]
                      have hn := h.nodup node.GetParentPageId
                      rw [arrayOf_eq t _ parent h1] at hn
                      have := ValueIndex_of_nodup parent [e] e2 post (by rw [h8]; rfl) hn
                      rw [this]
                      rfl
                    exact h.Coalesce_mirrored _ nodeId node2Id node.GetParentPageId parent h1 e e2 []
                      post (by rw [h8]; rfl) h2 h3 _ hidx hcor r1 hco
                  · rw [h5] at hco
                    simp only [Bool.false_eq_true, if_false] at hco
                    rw [hnid, h6] at hco
                    exact h.Coalesce_mirrored _ node2Id nodeId node.GetParentPageId parent h1 e2 e
                      pre post h8 h3 h2 _ rfl hcor r1 hco
              · -- redistribution
                rename_i hsum
                simp only at hf
                cases hre : t.Redistribute node2Id nodeId (parent.ValueIndex node.GetPageId) with
                | none =>
                  rw [hre] at hf
                  exact Option.noConfusion hf
                | some t1 =>
                  rw [hre] at hf
                  simp only [Option.map_some', Option.some.injEq] at hf
                  rw [← hf]
                  refine h.Redistribute_mirrored nodeId node2Id node hnode isRightSib hsib parent h1
                    ?_ t1 hre
                  intro p2 hp2
                  have hpg2 := getInternal_some t node2Id p2 hp2
                  rw [hnode2] at hpg2
                  have hn2 : node2 = .internal p2 := Option.some.inj hpg2
                  rw [hn2] at hkind hsum
                  cases node with
                  | leaf l => simp [BPlusTreePage.IsLeafPage] at hkind
                  | internal pn =>
                    have hpn : t.getInternal nodeId = some pn := getInternal_eq t nodeId pn hnode
                    have h9 := hsz pn hpn
                    have h10 := h.shaped.max nodeId pn hpn
                    simp only [BPlusTreePage.GetSize, BPlusTreePage.GetMaxSize] at hsum
                    omega
            · exact Option.noConfusion hf
          · exact Option.noConfusion hf

/-- `Remove` keeps the key of the parent entry in the slot of the first entry
of every internal page. -/
theorem Remove_mirrored (h : t.Mirrored INVALID_PAGE_ID) (key : Int) (fuel : Nat)
    (t1 : BPlusTree) (hf : t.Remove key fuel = some t1) : t1.Mirrored INVALID_PAGE_ID := by
  unfold BPlusTree.Remove at hf
  split at hf
  · simp only [Option.some.injEq] at hf
    rw [← hf]
    exact h
  · split at hf
    · rename_i leafId hfind
      split at hf
      · exact Option.noConfusion hf
      · rename_i leaf hleaf
        have hhd := RemoveAndDeleteRecord_header leaf key
        have h1 := h.setLeaf leafId leaf (leaf.RemoveAndDeleteRecord key) hleaf hhd.1 hhd.2
        simp only at hf
        split at hf
        · cases hco : CoalesceOrRedistribute fuel
              (t.setPage leafId (.leaf (leaf.RemoveAndDeleteRecord key))) leafId with
          | none =>
            rw [hco] at hf
            exact Option.noConfusion hf
          | some r =>
            rw [hco] at hf
            simp only [Option.map_some', Option.some.injEq] at hf
            rw [← hf]
            refine cor_mirrored fuel _ leafId r h1 ?_ hco
            intro p hp
            rw [getInternal_setPage_leaf] at hp
            cases hp
        · simp only [Option.some.injEq] at hf
          rw [← hf]
          exact h1
    · exact Option.noConfusion hf

/-- An index without pages. -/
theorem empty_mirrored (lm im : Nat) (n : Int) (him : 2 ≤ im) (hn : 0 < n) :
    (BPlusTree.empty lm im n).Mirrored INVALID_PAGE_ID := by
  have hA : ∀ pid, (BPlusTree.empty lm im n).arrayOf pid = [] := fun pid => rfl
  refine ⟨⟨⟨fun pid p hp => ?_, hn⟩, fun pid p hp => ?_, him, fun pid p hp => ?_⟩, ?_, ?_,
    ⟨fun _ => 0, ?_⟩, ?_, ?_, ?_⟩
  · cases hp
  · cases hp
  · cases hp
  · intro pid e he
    rw [hA] at he
    cases he
  · intro pid
    rw [hA]
    exact List.nodup_nil
  · intro pid e he
    rw [hA] at he
    cases he
  · intro pid e he
    rw [hA] at he
    cases he
  · intro pid e he
    rw [hA] at he
    cases he
  · intro pid _ hp
    cases hp

/-- A call of a client keeps the invariant. -/
theorem exec_mirrored (h : t.Mirrored INVALID_PAGE_ID) (fuel : Nat) (op : TreeOp)
    (t1 : BPlusTree) (hf : t.exec fuel op = some t1) : t1.Mirrored INVALID_PAGE_ID := by
  cases op with
  | get_value key =>
    have hf : Option.map (fun _ => t) (t.GetValue key fuel) = some t1 := hf
    cases hg : t.GetValue key fuel with
    | none =>
      rw [hg] at hf
      exact Option.noConfusion hf
    | some v =>
      rw [hg] at hf
      simp only [Option.map_some', Option.some.injEq] at hf
      rw [← hf]
      exact h
  | insert key value =>
    have hf : Option.map Prod.fst (t.Insert key value fuel) = some t1 := hf
    cases hg : t.Insert key value fuel with
    | none =>
      rw [hg] at hf
      exact Option.noConfusion hf
    | some r =>
      rw [hg] at hf
      simp only [Option.map_some', Option.some.injEq] at hf
      rw [← hf]
      exact h.Insert_mirrored key value fuel r hg
  | remove key =>
    exact h.Remove_mirrored key fuel t1 hf

/-- The calls of a client keep the invariant. -/
theorem execAll_mirrored (fuel : Nat) (ops : List TreeOp) :
    ∀ (t t1 : BPlusTree), t.Mirrored INVALID_PAGE_ID → t.execAll fuel ops = some t1 →
      t1.Mirrored INVALID_PAGE_ID := by
  induction ops with
  | nil =>
    intro t t1 h hf
    simp only [BPlusTree.execAll, Option.some.injEq] at hf
    rw [← hf]
    exact h
  | cons op rest ih =>
    intro t t1 h hf
    unfold BPlusTree.execAll at hf
    split at hf
    · exact Option.noConfusion hf
    · rename_i t2 ht2
      exact ih t2 t1 (h.exec_mirrored fuel op t2 ht2) hf

end Mirrored

end BPlusTree
/-! ## Redistribution between internal pages in the stores the index passes
through -/

namespace BPlusTree

/-- In every store the index passes through, every internal page keeps the
key of its parent entry in the slot of its first entry. -/
theorem Built.mirrored {t : BPlusTree} (h : t.Built) : t.Mirrored INVALID_PAGE_ID := by
  induction h with
  | run lm im n fuel ops t him hn hrun =>
    exact Mirrored.execAll_mirrored fuel ops _ t (Mirrored.empty_mirrored lm im n him hn) hrun
  | leaf t key fuel leafId leaf _ _ _ hleaf _ ih =>
    have hhd := RemoveAndDeleteRecord_header leaf key
    exact ih.setLeaf leafId leaf (leaf.RemoveAndDeleteRecord key) hleaf hhd.1 hhd.2
  | merged t nodeId node node2Id isRightSib node2 parentPage t2 _ hnode _ hsib hnode2 hpp _ _
      hco ih =>
    have hnid := ih.shaped.stored.id hnode
    have hn2id := ih.shaped.stored.id hnode2
    obtain ⟨parent, e, e2, pre, post, h1, h2, h3, h4⟩ :=
      FindLeftSibling_split t ih.shaped.stored nodeId node hnode node2Id isRightSib hsib
    rw [h1] at hpp
    have hpe : parent = parentPage := Option.some.inj hpp
    subst hpe
    have hcor : ∀ (t3 : BPlusTree) (r : BPlusTree × Bool), t3.Mirrored INVALID_PAGE_ID →
        (∀ p, t3.getInternal node.GetParentPageId = some p →
          p.array.length ≤ (p.max_size + 1) / 2) →
        (fun (t4 : BPlusTree) (_ : Int) => some (t4, true)) t3 node.GetParentPageId = some r →
        r.1.Mirrored INVALID_PAGE_ID := by
      intro t3 r hm _ hc
      simp only [Option.some.injEq] at hc
      rw [← hc]
      exact hm
    rcases h4 with ⟨h5, h6, h7, h8⟩ | ⟨h5, h6, h8⟩
    · rw [h5] at hco
      simp only [if_true] at hco
      have hidx : parent.ValueIndex node2.GetPageId = (([] : List (Int × Int)).length : Int) + 1 := by
        rw [hn2id, ← h3]
        have hn := ih.nodup node.GetParentPageId
        rw [arrayOf_eq t _ parent h1] at hn
        have := ValueIndex_of_nodup parent [e] e2 post (by rw [h8]; rfl) hn
        rw [this]
        rfl
      exact ih.Coalesce_mirrored _ nodeId node2Id node.GetParentPageId parent h1 e e2 [] post
        (by rw [h8]; rfl) h2 h3 _ hidx hcor (t2, true) hco
    · rw [h5] at hco
      simp only [Bool.false_eq_true, if_false] at hco
      rw [hnid, h6] at hco
      exact ih.Coalesce_mirrored _ node2Id nodeId node.GetParentPageId parent h1 e2 e pre post h8
        h3 h2 _ rfl hcor (t2, true) hco

/-- `Coalesce` hands the store to the recursive call when the probe has been
reached. -/
theorem Coalesce_probe (cor : BPlusTree → Int → Option (BPlusTree × Bool)) (t t2 : BPlusTree)
    (leftId rightId P : Int) (idx : Int)
    (h : Coalesce (fun t3 _ => some (t3, true)) t leftId rightId P idx = some (t2, true)) :
    Coalesce cor t leftId rightId P idx = cor t2 P := by
  unfold Coalesce at h ⊢
  simp only at h ⊢
  split at h
  · exact Option.noConfusion h
  · rename_i t1 hm
    split at h
    · exact Option.noConfusion h
    · rename_i parent hparent
      split at h
      · exact Option.noConfusion h
      · rename_i parent1 hrem
        split at h
        · rename_i hmin
          simp only [Option.some.injEq, Prod.mk.injEq, and_true] at h
          simp only [hparent, hrem, if_pos hmin, h]
        · simp only [Option.some.injEq, Prod.mk.injEq, Bool.false_eq_true, and_false] at h

/-- The step `merged` of the stores the index passes through is the recursive
call `CoalesceOrRedistribute` makes: the call on `nodeId` in the store `t`
ends as the call on the parent in the store `t2` does. -/
theorem cor_recurses (fuel : Nat) (t : BPlusTree) (nodeId : Int) (node : BPlusTreePage)
    (node2Id : Int) (isRightSib : Bool) (node2 : BPlusTreePage)
    (parentPage : BPlusTreeInternalPage) (t2 : BPlusTree)
    (hnode : t.pages nodeId = some node) (hroot : node.IsRootPage = false)
    (hsib : t.FindLeftSibling nodeId = some (node2Id, isRightSib))
    (hnode2 : t.pages node2Id = some node2)
    (hpp : t.getInternal node.GetParentPageId = some parentPage)
    (hkind : node.IsLeafPage = node2.IsLeafPage)
    (hsum : node.GetSize + node2.GetSize ≤ node.GetMaxSize)
    (hco : Coalesce (fun t3 _ => some (t3, true)) t (if isRightSib then nodeId else node2Id)
      (if isRightSib then node2Id else nodeId) node.GetParentPageId
      (parentPage.ValueIndex (if isRightSib then node2 else node).GetPageId) = some (t2, true)) :
    CoalesceOrRedistribute (fuel + 1) t nodeId =
      (CoalesceOrRedistribute fuel t2 node.GetParentPageId).map (fun r => (r.1, true)) := by
  conv_lhs => unfold CoalesceOrRedistribute
  simp only [hnode, hroot, hsib, hnode2, hpp, hkind, hsum, if_true, Bool.false_eq_true, if_false]
  rw [Coalesce_probe (CoalesceOrRedistribute fuel) t t2 _ _ _ _ hco]

/-- The step `leaf` of the stores the index passes through is the call
`Remove` makes: `Remove(key)` ends as `CoalesceOrRedistribute` on the leaf page
does in the store in which the record is deleted. -/
theorem Remove_enters (t : BPlusTree) (key : Int) (fuel : Nat) (leafId : Int)
    (leaf : BPlusTreeLeafPage) (he : t.IsEmpty = false)
    (hfind : t.FindLeafPage key false fuel = some (some leafId))
    (hleaf : t.getLeaf leafId = some leaf)
    (hmin : (leaf.RemoveAndDeleteRecord key).array.length <
      (BPlusTreePage.leaf (leaf.RemoveAndDeleteRecord key)).GetMinSize) :
    t.Remove key fuel =
      (CoalesceOrRedistribute fuel (t.setPage leafId (.leaf (leaf.RemoveAndDeleteRecord key)))
        leafId).map Prod.fst := by
  unfold BPlusTree.Remove
  simp only [he, Bool.false_eq_true, if_false, hfind, hleaf, hmin, if_true]

/-- The facts about two internal pages side by side under one parent that the
routines of a redistribution between them rely on. -/
theorem siblings_apart {t : BPlusTree} (hm : t.Mirrored INVALID_PAGE_ID) (P : Int)
    (parent left right : BPlusTreeInternalPage) (pre post : List (Int × Int))
    (eL eR : Int × Int) (hP : t.getInternal P = some parent)
    (harr : parent.array = pre ++ eL :: eR :: post) (hl : t.getInternal eL.2 = some left)
    (hr : t.getInternal eR.2 = some right) :
    right.parent_page_id = P ∧ eL.2 ≠ eR.2 ∧ P ≠ eL.2 ∧ P ≠ eR.2 ∧
      parent.ValueIndex right.page_id = (pre.length : Int) + 1 ∧
      entryAt parent.array ((pre.length : Int) + 1) = some eR ∧
      (∀ first rest, right.array = first :: rest → first.1 = eR.1) ∧
      (∀ f, f ∈ left.array ∨ f ∈ right.array →
        t.pages f.2 ≠ none ∧ f.2 ≠ eL.2 ∧ f.2 ≠ eR.2 ∧ f.2 ≠ P) := by
  have hAP : t.arrayOf P = pre ++ eL :: eR :: post := by
    rw [arrayOf_eq t P parent hP, harr]
  have heLP : eL ∈ t.arrayOf P := by
    rw [hAP]
    simp
  have heRP : eR ∈ t.arrayOf P := by
    rw [hAP]
    simp
  have harr2 : parent.array = (pre ++ [eL]) ++ eR :: post := by
    rw [harr]
    simp
  have hlen : (((pre ++ [eL]).length : Nat) : Int) = (pre.length : Int) + 1 := by simp
  have hinv : eR.2 ≠ INVALID_PAGE_ID := by
    intro hc
    obtain ⟨pg, -, -, hpos⟩ := hm.child_stored P eR heRP
    rw [hc] at hpos
    exact absurd hpos (by decide)
  obtain ⟨lvl, hlv⟩ := hm.level
  have hlL := hlv P eL heLP
  have hlR := hlv P eR heRP
  refine ⟨?_, ?_, ?_, ?_, ?_, ?_, ?_, ?_⟩
  · exact hm.parent_field P eR heRP (.internal right) (getInternal_some t _ right hr)
  · exact fun hc => hm.not_named_twice P pre (eR :: post) eL hAP eR (by simp) hc.symm
  · exact (hm.owner_ne P eL heLP).symm
  · exact (hm.owner_ne P eR heRP).symm
  · rw [(hm.shaped.stored.internal hr).1, ← hlen]
    have hn := hm.nodup P
    rw [arrayOf_eq t P parent hP] at hn
    exact ValueIndex_of_nodup parent (pre ++ [eL]) eR post harr2 hn
  · rw [← hlen, harr2]
    exact entryAt_append_length _ _ _
  · intro first rest hra
    refine hm.slot P eR heRP hinv first.1 ?_
    rw [slotKey_eq, arrayOf_eq t _ right hr, hra]
    rfl
  · intro f hf
    have hfl : ∃ q, (q = eL.2 ∨ q = eR.2) ∧ f ∈ t.arrayOf q := by
      rcases hf with hf | hf
      · exact ⟨eL.2, Or.inl rfl, by rw [arrayOf_eq t _ left hl]; exact hf⟩
      · exact ⟨eR.2, Or.inr rfl, by rw [arrayOf_eq t _ right hr]; exact hf⟩
    obtain ⟨q, hq, hfq⟩ := hfl
    have hlf := hlv q f hfq
    have hlq : lvl P = lvl q + 1 := by
      rcases hq with hq | hq
      · rw [hq]; exact hlL
      · rw [hq]; exact hlR
    obtain ⟨pg, hpg, -, -⟩ := hm.child_stored q f hfq
    refine ⟨by rw [hpg]; exact Option.some_ne_none _, ?_, ?_, ?_⟩
    · intro hc
      rw [hc] at hlf
      omega
    · intro hc
      rw [hc] at hlf
      omega
    · intro hc
      rw [hc] at hlf
      omega

/-- C39: in every store the index passes through (between two calls of a
client that started with an index without pages, the maximal size of an
internal page being 2 at least and the page ids positive, and at the calls of
`CoalesceOrRedistribute` inside `Remove`), let `left` and `right` be internal
pages side by side under the parent `P`, `sep` being the key of the parent
entry of `right`.
`MoveFirstToEndOf` of `right`, with two entries at least, to `left`, with room
for one more, returns; the first child of `right` arrives at the end of `left`
with the key `sep`, the parent gets the key of the new first entry of `right`,
and the keys of `left` from index 1 on stay strictly increasing when they were
so and lay below `sep`.  `MoveLastToFrontOf` of `left` to `right`, with room
for one more, returns; the last entry of `left` arrives in front of `right`,
the former first child of `right` stands at index 1 with the key `sep`, the
parent gets the key of the moved entry, and the keys of `right` from index 1
on stay strictly increasing when they were so and lay above `sep`. -/
theorem internal_redistribute_separator (t : BPlusTree) (hb : t.Built) (P : Int)
    (parent left right : BPlusTreeInternalPage) (pre post : List (Int × Int))
    (eL eR : Int × Int) (hP : t.getInternal P = some parent)
    (harr : parent.array = pre ++ eL :: eR :: post) (hl : t.getInternal eL.2 = some left)
    (hr : t.getInternal eR.2 = some right) :
    (∀ first second rest, right.array = first :: second :: rest →
      left.array.length + 1 ≤ left.max_size →
      ∃ t1 l1 par1, t.internalMoveFirstToEndOf eR.2 eL.2 = some t1 ∧
        t1.getInternal eL.2 = some l1 ∧ l1.array = left.array ++ [(eR.1, first.2)] ∧
        t1.getInternal P = some par1 ∧ par1.KeyAt ((pre.length : Int) + 1) = some second.1 ∧
        (((left.array.tail).map Prod.fst).Pairwise (· < ·) →
          (∀ k ∈ (left.array.tail).map Prod.fst, k < eR.1) →
          ((l1.array.tail).map Prod.fst).Pairwise (· < ·))) ∧
    (∀ init tmp first rest, left.array = init ++ [tmp] → right.array = first :: rest →
      right.array.length + 1 < right.max_size →
      ∃ t1 r1 par1, t.internalMoveLastToFrontOf eL.2 eR.2 ((pre.length : Int) + 1) = some t1 ∧
        t1.getInternal eR.2 = some r1 ∧ r1.array = tmp :: (eR.1, first.2) :: rest ∧
        t1.getInternal P = some par1 ∧ par1.KeyAt ((pre.length : Int) + 1) = some tmp.1 ∧
        ((rest.map Prod.fst).Pairwise (· < ·) → (∀ k ∈ rest.map Prod.fst, eR.1 < k) →
          ((r1.array.tail).map Prod.fst).Pairwise (· < ·))) := by
  have hm := hb.mirrored
  obtain ⟨s1, s2, s3, s4, s5, s6, s7, s8⟩ :=
    siblings_apart hm P parent left right pre post eL eR hP harr hl hr
  have hp2 : t.getInternal right.parent_page_id = some parent := by
    rw [s1]
    exact hP
  constructor
  · intro first second rest hra hroom
    have hk := s7 first (second :: rest) hra
    have hra2 : right.array = (eR.1, first.2) :: second :: rest := by
      rw [hra, ← hk]
    obtain ⟨c1, c2, c3, c4⟩ := s8 first (Or.inr (by rw [hra]; simp))
    obtain ⟨t1, l1, par1, h1, h2, h3, h4, h5⟩ := internalMoveFirstToEndOf_spec t eL.2 eR.2 left
      right parent eR.1 first.2 second eR rest hl hr hp2 s2 (by rw [s1]; exact s3)
      (by rw [s1]; exact s4) hra2 hroom c1 c2 c3 (by rw [s1]; exact c4) (by rw [s5]; exact s6)
    rw [s1] at h4
    rw [s5] at h5
    refine ⟨t1, l1, par1, h1, h2, h3, h4, h5, ?_⟩
    intro hs hlt
    rw [h3]
    cases hla : left.array with
    | nil => simp
    | cons x tl =>
      rw [hla] at hs hlt
      simp only [List.tail_cons] at hs hlt
      simp only [List.cons_append, List.tail_cons, List.map_append, List.map_cons, List.map_nil]
      rw [List.pairwise_append]
      refine ⟨hs, List.pairwise_singleton _ _, fun a ha b hb => ?_⟩
      simp only [List.mem_singleton] at hb
      rw [hb]
      exact hlt a ha
  · intro init tmp first rest hla hra hroom
    have hk := s7 first rest hra
    obtain ⟨c1, c2, c3, c4⟩ := s8 tmp (Or.inl (by rw [hla]; simp))
    obtain ⟨t1, r1, par1, h1, h2, h3, h4, h5⟩ := internalMoveLastToFrontOf_spec t eL.2 eR.2 left
      right parent tmp eR init ((pre.length : Int) + 1) hl hr hp2 s2 (by rw [s1]; exact s3)
      (by rw [s1]; exact s4) hla hroom c1 c2 c3 (by rw [s1]; exact c4) s6
    rw [s1] at h4
    have h3b : r1.array = tmp :: (eR.1, first.2) :: rest := by
      rw [h3, hra, ← hk]
    refine ⟨t1, r1, par1, h1, h2, h3b, h4, h5, ?_⟩
    intro hs hlt
    rw [h3b]
    simp only [List.tail_cons, List.map_cons, List.pairwise_cons]
    exact ⟨fun a ha => hlt a ha, hs⟩

set_option maxRecDepth 100000 in
/-- Witness of C39: with leaf and internal maximal size 4, the fourteen
insertions `mergeExampleOps` give the root 8 with the internal children 3 and
7; `Remove(5)` merges the leaves 4 and 5, and in the store `mergeExample2`, in
which it calls `CoalesceOrRedistribute` on page 7, the root holds
`(0, 3), (5, 7)`.  There `MoveLastToFrontOf` of page 3 to page 7 leaves the
former first child 4 of page 7 at index 1 with the separator 5, and
`MoveFirstToEndOf` of page 7 to page 3 brings the child 4 to page 3 with the
separator 5. -/
theorem internal_redistribute_separator_witness :
    mergeExample2.Built ∧
      (mergeExample2.getInternal 8).map (fun p => p.array) = some [(0, 3), (5, 7)] ∧
      (∃ t1 r1, mergeExample2.internalMoveLastToFrontOf 3 7 1 = some t1 ∧
        t1.getInternal 7 = some r1 ∧ r1.array = [(3, 2), (5, 4), (9, 6)]) ∧
      (∃ t1 l1, mergeExample2.internalMoveFirstToEndOf 7 3 = some t1 ∧
        t1.getInternal 3 = some l1 ∧ l1.array = [(0, 1), (0, 9), (3, 2), (5, 4)]) := by
  have h0 : (BPlusTree.empty 4 4 1).execAll 10 mergeExampleOps = some mergeExample0 := by
    with_unfolding_all rfl
  have hb0 : mergeExample0.Built :=
    Built.run 4 4 1 10 mergeExampleOps _ (by decide) (by decide) h0
  have hb1 : mergeExample1.Built :=
    Built.leaf _ 5 10 4 (BPlusTreeLeafPage.mk 4 7 4 5 [(5, 50), (6, 60)]) hb0 (by decide)
      (by decide) (by decide) (by decide)
  have h2 : Coalesce (fun t3 _ => some (t3, true)) mergeExample1 4 5 7 1 =
      some (mergeExample2, true) := by
    with_unfolding_all rfl
  have hb2 : mergeExample2.Built :=
    Built.merged mergeExample1 4 (.leaf (BPlusTreeLeafPage.mk 4 7 4 5 [(6, 60)])) 5 true
      (.leaf (BPlusTreeLeafPage.mk 4 7 5 6 [(7, 70), (8, 80)]))
      (BPlusTreeInternalPage.mk 4 8 7 [(5, 4), (7, 5), (9, 6)]) mergeExample2 hb1
      (by decide) (by decide) (by decide) (by decide) (by decide) (by decide) (by decide) h2
  have key := internal_redistribute_separator mergeExample2 hb2 8
    (BPlusTreeInternalPage.mk 4 (-1) 8 [(0, 3), (5, 7)])
    (BPlusTreeInternalPage.mk 4 8 3 [(0, 1), (0, 9), (3, 2)])
    (BPlusTreeInternalPage.mk 4 8 7 [(5, 4), (9, 6)]) [] [] (0, 3) (5, 7) (by decide) rfl
    (by decide) (by decide)
  obtain ⟨t1, l1, par1, a1, a2, a3, -⟩ := key.1 (5, 4) (9, 6) [] rfl (by decide)
  obtain ⟨t2, r1, par2, b1, b2, b3, -⟩ := key.2 [(0, 1), (0, 9)] (3, 2) (5, 4) [(9, 6)] rfl rfl
    (by decide)
  exact ⟨hb2, by decide, ⟨t2, r1, b1, b2, b3⟩, ⟨t1, l1, a1, a2, a3⟩⟩

end BPlusTree

end scudb
